import Mathlib

/-! # castle_fs: version index, iterators and merge engine

A shallow embedding of `kernel/castle_versions.c`, of the iterator, merge and
doubling-array code of `kernel/castle_da.c`, of `list_sort` of
`kernel/castle_utils.c` and of the replies and the key decoding of
`kernel/castle_rxrpc.c`, with theorems about the embedded definitions.

Conventions.
* A pointer to a `struct castle_version` is the number of its allocation
  (`kmem_cache_alloc` hands out record `0`, `1`, ...); `NULL` is `none`.
* `BUG_ON` / `BUG` is the result `Res.bug`; a loop that is cut off by its
  iteration budget is `Res.timeout`; an access outside a C array is
  `MemRes.out_of_bounds`.
* `version_t` is a 32-bit unsigned integer: arithmetic on it is reduced
  modulo `2 ^ 32`.
-/

namespace Castle

/-- Result of running a piece of kernel code: a value, a fatal assertion, or
an exhausted iteration budget. -/
inductive Res (α : Type) where
  | ok (a : α)
  | bug
  | timeout
  deriving Repr, DecidableEq

namespace Res

/-- Sequencing of results. -/
def bind {α β : Type} (r : Res α) (f : α → Res β) : Res β :=
  match r with
  | ok a => f a
  | bug => bug
  | timeout => timeout

instance : Monad Res where
  pure := Res.ok
  bind := Res.bind

end Res

/-- The value of `(version_t)-1`. -/
def INVAL_VERSION : Nat := 2 ^ 32 - 1

/-- The macro `VERSION_INVAL`. -/
def VERSION_INVAL (v : Nat) : Bool := v == INVAL_VERSION

/-- The constant `CASTLE_VERSIONS_HASH_SIZE`. -/
def CASTLE_VERSIONS_HASH_SIZE : Nat := 1000

/-- The type `c_disk_blk_t`: a pair (disk, block). -/
abbrev c_disk_blk_t := Nat × Nat

/-- The record `struct castle_version`.  The C union of `parent_v` and `parent`
is kept as two fields; `parent_v` is only read while `inited` is false and
`parent` only once it is true, as in the source. -/
structure castle_version where
  version : Nat
  parent_v : Nat
  parent : Option Nat
  first_child : Option Nat
  next_sybling : Option Nat
  o_order : Nat
  r_order : Nat
  ftree_root : c_disk_blk_t
  size : Nat
  inited : Bool
  deriving Repr, DecidableEq

/-- The global state of `castle_versions.c`: the allocated records (`mem`,
indexed by pointer, `nr` of them allocated), the hash table (bucket index to
chain of pointers, head first) and the init list (head first). -/
structure Versions where
  mem : Nat → castle_version
  nr : Nat
  hash : Nat → List Nat
  init_list : List Nat

/-- The contents of a record that has not been written yet. -/
def castle_version.blank : castle_version :=
  { version := 0, parent_v := 0, parent := none, first_child := none,
    next_sybling := none, o_order := 0, r_order := 0, ftree_root := (0, 0),
    size := 0, inited := false }

/-- The state after `castle_versions_init`: empty hash table, empty init list. -/
def castle_versions_init : Versions :=
  { mem := fun _ => castle_version.blank, nr := 0, hash := fun _ => [], init_list := [] }

/-- Writing record `p` of the memory. -/
def setRec (mem : Nat → castle_version) (p : Nat) (r : castle_version) : Nat → castle_version :=
  fun q => if q = p then r else mem q

/-- The function `castle_versions_hash_idx`. -/
def castle_versions_hash_idx (version : Nat) : Nat :=
  version % CASTLE_VERSIONS_HASH_SIZE

/-- The function `castle_versions_hash_add`: `list_add` puts the record at the head
of its bucket. -/
def castle_versions_hash_add (st : Versions) (p : Nat) : Versions :=
  let idx := castle_versions_hash_idx (st.mem p).version
  { st with hash := fun i => if i = idx then p :: st.hash i else st.hash i }

/-- The function `__castle_versions_hash_get`: the first record of the bucket with the
version asked for. -/
def castle_versions_hash_get (st : Versions) (version : Nat) : Option Nat :=
  (st.hash (castle_versions_hash_idx version)).find? (fun p => (st.mem p).version == version)

/-- The function `castle_versions_init_add`. -/
def castle_versions_init_add (st : Versions) (p : Nat) : Versions :=
  { st with
    mem := setRec st.mem p { st.mem p with inited := false }
    init_list := p :: st.init_list }

/-- The function `castle_version_add` on its successful path (the allocation
returns the next free record); the return value `0` is left out. -/
def castle_version_add (st : Versions) (version parent : Nat) (ftree_root : c_disk_blk_t)
    (size : Nat) : Versions :=
  let p := st.nr
  let v : castle_version :=
    { version := version, parent_v := parent, parent := none, first_child := none,
      next_sybling := none, o_order := INVAL_VERSION, r_order := INVAL_VERSION,
      ftree_root := ftree_root, size := size, inited := (st.mem p).inited }
  let st1 : Versions := { st with mem := setRec st.mem p v, nr := st.nr + 1 }
  let st2 := castle_versions_hash_add st1 p
  if version = 0 then
    { st2 with
      mem := setRec st2.mem p
        { st2.mem p with parent := none, first_child := none, next_sybling := none,
                         inited := true } }
  else
    castle_versions_init_add st2 p

/-- The body of the first loop of `castle_versions_process` from the label
`process_version` on, for the record `v`; each `goto process_version` uses one
unit of `fuel`. -/
def process_version : Nat → Versions → Nat → Res Versions
  | 0, _, _ => Res.timeout
  | fuel + 1, st, v =>
    -- list_del(&v->init_list)
    let st1 : Versions := { st with init_list := st.init_list.erase v }
    if (st1.mem v).inited then Res.bug
    else
      match castle_versions_hash_get st1 (st1.mem v).parent_v with
      | none => Res.bug
      | some p =>
        if !(st1.mem p).inited then
          process_version fuel { st1 with init_list := v :: st1.init_list } p
        else
          let rv := st1.mem v
          let rp := st1.mem p
          let mem1 := setRec st1.mem v
            { rv with parent := some p, next_sybling := rp.first_child }
          let mem2 := setRec mem1 p { mem1 p with first_child := some v }
          let mem3 := setRec mem2 v { mem2 v with inited := true }
          Res.ok { st1 with mem := mem3 }

/-- The first loop of `castle_versions_process` (the parenting pass): `fuel`
bounds the number of turns of the `while`, `inner` the number of jumps to
`process_version` within one turn. -/
def parenting_pass (inner : Nat) : Nat → Versions → Res Versions
  | 0, _ => Res.timeout
  | fuel + 1, st =>
    match st.init_list with
    | [] => Res.ok st
    | v :: _ =>
      match process_version inner st v with
      | Res.ok st1 => parenting_pass inner fuel st1
      | Res.bug => Res.bug
      | Res.timeout => Res.timeout

/-- The second loop of `castle_versions_process` (the numbering pass): the
cursor `v`, the counter `id` and the flag `down`. -/
def numbering_pass : Nat → (Nat → castle_version) → Option Nat → Nat → Bool →
    Res (Nat → castle_version)
  | _, mem, none, _, _ => Res.ok mem
  | 0, _, some _, _, _ => Res.timeout
  | fuel + 1, mem, some v, id, down =>
    let id1 := if down then (id + 1) % 2 ^ 32 else id
    let mem1 :=
      if down then
        let m := setRec mem v { mem v with o_order := id1 }
        if (m v).first_child = none then setRec m v { m v with r_order := (m v).o_order } else m
      else
        setRec mem v { mem v with r_order := id }
    let n : Option Nat := if down then (mem1 v).first_child else none
    let n1 : Option Nat := if n = none then (mem1 v).next_sybling else n
    let down1 : Bool := if n1 = none then false else true
    let n2 : Option Nat := if n1 = none then (mem1 v).parent else n1
    numbering_pass fuel mem1 n2 id1 down1

/-- The function `castle_versions_process`, every loop with the iteration budget `fuel`. -/
def castle_versions_process (fuel : Nat) (st : Versions) : Res Versions :=
  match parenting_pass fuel fuel st with
  | Res.bug => Res.bug
  | Res.timeout => Res.timeout
  | Res.ok st1 =>
    match castle_versions_hash_get st1 0 with
    | none => Res.bug
    | some v =>
      if !(st1.mem v).inited then Res.bug
      else if (st1.mem v).parent ≠ none then Res.bug
      else
        match numbering_pass fuel st1.mem (some v) 0 true with
        | Res.ok mem => Res.ok { st1 with mem := mem }
        | Res.bug => Res.bug
        | Res.timeout => Res.timeout

/-- The function `castle_version_is_ancestor`. -/
def castle_version_is_ancestor (st : Versions) (candidate version : Nat) : Res Bool :=
  match castle_versions_hash_get st version, castle_versions_hash_get st candidate with
  | some v, some c =>
    if !(st.mem v).inited then Res.bug
    else if VERSION_INVAL (st.mem v).o_order then Res.bug
    else if !(st.mem c).inited then Res.bug
    else if VERSION_INVAL (st.mem c).o_order then Res.bug
    else if VERSION_INVAL (st.mem c).r_order then Res.bug
    else Res.ok (decide ((st.mem v).o_order ≥ (st.mem c).o_order) &&
                 decide ((st.mem v).o_order ≤ (st.mem c).r_order))
  | _, _ => Res.bug

/-- A sequence of `castle_version_add` calls, each given as
(version, parent, ftree_root, size), starting from the state after
`castle_versions_init`. -/
def add_all (adds : List (Nat × Nat × c_disk_blk_t × Nat)) : Versions :=
  adds.foldl (fun st a => castle_version_add st a.1 a.2.1 a.2.2.1 a.2.2.2) castle_versions_init

/-- The `o_order` of a version in a state, if the version is in the hash table. -/
def o_order_of (st : Versions) (version : Nat) : Option Nat :=
  (castle_versions_hash_get st version).map (fun p => (st.mem p).o_order)

/-- The `r_order` of a version in a state, if the version is in the hash table. -/
def r_order_of (st : Versions) (version : Nat) : Option Nat :=
  (castle_versions_hash_get st version).map (fun p => (st.mem p).r_order)

/-! ## B-tree nodes and the B-tree type table -/

/-- One slot of a B-tree node: what `entry_add` stores and `entry_get` returns. -/
structure btree_slot where
  key : Nat
  version : Nat
  is_leaf_ptr : Bool
  cdb : c_disk_blk_t
  deriving Repr, DecidableEq

/-- The header fields of `struct castle_btree_node` the merge code uses, and the
slots; `used` is the number of slots. -/
structure castle_btree_node where
  version : Nat
  is_leaf : Bool
  slots : List btree_slot
  deriving Repr, DecidableEq

/-- The field `used` of a node. -/
def castle_btree_node.used (n : castle_btree_node) : Nat := n.slots.length

/-- The callbacks of `struct castle_btree_type` whose behaviour is left to the
node type: the key comparison and the split predicate. -/
structure castle_btree_type where
  key_compare : Nat → Nat → Int
  need_split : castle_btree_node → Nat → Bool

/-- Modelled from the spec: the callback `entry_add(node, index, key, version,
is_leaf_ptr, block)` of the B-tree type table (its code is not in the sources);
it puts the entry at `index`, which must lie in `0 .. used`. -/
def btree_entry_add (node : castle_btree_node) (idx : Int) (key version : Nat)
    (is_leaf_ptr : Bool) (cdb : c_disk_blk_t) : Res castle_btree_node :=
  if 0 ≤ idx ∧ idx ≤ (node.used : Int) then
    Res.ok { node with
      slots := node.slots.take idx.toNat ++
        [{ key := key, version := version, is_leaf_ptr := is_leaf_ptr, cdb := cdb }] ++
        node.slots.drop idx.toNat }
  else Res.bug

/-- Modelled from the spec: the callback `entry_get(node, index)` of the B-tree
type table; the index must lie in `0 .. used - 1`. -/
def btree_entry_get (node : castle_btree_node) (idx : Int) : Res btree_slot :=
  if 0 ≤ idx then
    match node.slots[idx.toNat]? with
    | some s => Res.ok s
    | none => Res.bug
  else Res.bug

/-- Modelled from the spec: the callback `entries_drop(node, from, to_inclusive)`
of the B-tree type table. -/
def btree_entries_drop (node : castle_btree_node) (lo hi : Int) : Res castle_btree_node :=
  if 0 ≤ lo ∧ lo ≤ hi ∧ hi < (node.used : Int) then
    Res.ok { node with slots := node.slots.take lo.toNat ++ node.slots.drop (hi.toNat + 1) }
  else Res.bug

/-- The function `castle_kv_compare`; `version_compare` stands for
`castle_version_compare`, whose code is not in the sources. -/
def castle_kv_compare (btree : castle_btree_type) (version_compare : Nat → Nat → Int)
    (k1 v1 k2 v2 : Nat) : Int :=
  let ret := btree.key_compare k1 k2
  if ret ≠ 0 then ret
  else version_compare v2 v1

/-- Modelled from the spec: `castle_version_compare` (its code is not in the
sources) compares two versions by their DFS numbering, the `o_order`. -/
def castle_version_compare (st : Versions) (v1 v2 : Nat) : Int :=
  ((o_order_of st v1).getD 0 : Int) - ((o_order_of st v2).getD 0 : Int)

/-- The function `castle_da_node_buffer_init`. -/
def castle_da_node_buffer_init (_buffer : castle_btree_node) : castle_btree_node :=
  { version := 0, is_leaf := true, slots := [] }

/-- An entry as the enumerators and iterators hand it out: key, version, block. -/
structure kv_entry where
  k : Nat
  v : Nat
  cdb : c_disk_blk_t
  deriving Repr, DecidableEq

/-! ## The modlist iterator -/

/-- The record `c_modlist_iter_t`; an element of `sort_idx` is the pair
`(node, node_offset)`.  The enumerator is kept outside, as the list of entries
it still has to yield. -/
structure c_modlist_iter_t where
  err : Int
  nr_nodes : Nat
  node_buffer : List castle_btree_node
  nr_items : Nat
  next_item : Nat
  sort_idx : List (Nat × Nat)
  deriving Repr, DecidableEq

/-- The loop of `castle_ct_modlist_iter_fill`, over the entries the enumerator
yields; `node_idx`, `node_offset` and `item_idx` are 32-bit unsigned.  A write
outside the node buffer or outside `sort_idx` is a failure. -/
def castle_ct_modlist_iter_fill_loop (btree : castle_btree_type) :
    List kv_entry → c_modlist_iter_t → Nat → Nat → Nat → Res (c_modlist_iter_t × Nat)
  | [], iter, _, _, item_idx => Res.ok (iter, item_idx)
  | e :: rest, iter, node_idx, node_offset, item_idx =>
    -- castle_ct_modlist_iter_buffer_get(iter, node_idx)
    match iter.node_buffer[node_idx]? with
    | none => Res.bug
    | some node0 =>
      let node := if node_offset = 0 then castle_da_node_buffer_init node0 else node0
      if node_offset ≠ 0 ∧ btree.need_split node 0 then Res.bug
      else
        match btree_entry_add node node_offset e.k e.v true e.cdb with
        | Res.ok node1 =>
          if item_idx < iter.sort_idx.length then
            let iter1 := { iter with
              node_buffer := iter.node_buffer.set node_idx node1
              sort_idx := iter.sort_idx.set item_idx (node_idx, node_offset) }
            if btree.need_split node1 0 then
              castle_ct_modlist_iter_fill_loop btree rest iter1 ((node_idx + 1) % 2 ^ 32) 0
                ((item_idx + 1) % 2 ^ 32)
            else
              castle_ct_modlist_iter_fill_loop btree rest iter1 node_idx
                ((node_offset + 1) % 2 ^ 32) ((item_idx + 1) % 2 ^ 32)
          else Res.bug
        | Res.bug => Res.bug
        | Res.timeout => Res.timeout

/-- The function `castle_ct_modlist_iter_fill`: `enum` are the entries of the
enumerator, `enum_err` its error field, `item_count` the tree's item count. -/
def castle_ct_modlist_iter_fill (btree : castle_btree_type) (iter : c_modlist_iter_t)
    (enum : List kv_entry) (enum_err : Int) (item_count : Nat) : Res c_modlist_iter_t :=
  match castle_ct_modlist_iter_fill_loop btree enum iter 0 0 0 with
  | Res.ok (iter1, item_idx) =>
    if item_idx ≠ item_count then Res.bug
    else Res.ok { iter1 with nr_items := item_idx, err := enum_err }
  | Res.bug => Res.bug
  | Res.timeout => Res.timeout

/-- The function `castle_ct_modlist_iter_item_get`. -/
def castle_ct_modlist_iter_item_get (iter : c_modlist_iter_t) (sort_idx : Nat) : Res btree_slot :=
  match iter.sort_idx[sort_idx]? with
  | none => Res.bug
  | some (node, node_offset) =>
    match iter.node_buffer[node]? with
    | none => Res.bug
    | some n => btree_entry_get n node_offset

/-- The `while` loop of `castle_ct_modlist_iter_sift_down`; `root`, `child` and
`2*root + 1` are 32-bit unsigned. -/
def castle_ct_modlist_iter_sift_down_loop (btree : castle_btree_type)
    (version_compare : Nat → Nat → Int) (root_key root_version end_ : Nat) :
    Nat → c_modlist_iter_t → Nat → Res c_modlist_iter_t
  | 0, iter, root => if (2 * root + 1) % 2 ^ 32 ≤ end_ then Res.timeout else Res.ok iter
  | fuel + 1, iter, root =>
    if (2 * root + 1) % 2 ^ 32 ≤ end_ then
      let child := (2 * root + 1) % 2 ^ 32
      match castle_ct_modlist_iter_item_get iter child with
      | Res.ok c =>
        let sel : Res (Nat × Nat × Nat) :=
          if child < end_ then
            match castle_ct_modlist_iter_item_get iter ((child + 1) % 2 ^ 32) with
            | Res.ok c2 =>
              if castle_kv_compare btree version_compare c2.key c2.version c.key c.version > 0 then
                Res.ok ((child + 1) % 2 ^ 32, c2.key, c2.version)
              else Res.ok (child, c.key, c.version)
            | Res.bug => Res.bug
            | Res.timeout => Res.timeout
          else Res.ok (child, c.key, c.version)
        match sel with
        | Res.ok (child1, child_key, child_version) =>
          if castle_kv_compare btree version_compare child_key child_version
              root_key root_version > 0 then
            match iter.sort_idx[child1]?, iter.sort_idx[root]? with
            | some tc, some tr =>
              castle_ct_modlist_iter_sift_down_loop btree version_compare root_key root_version
                end_ fuel
                { iter with sort_idx := (iter.sort_idx.set child1 tr).set root tc } child1
            | _, _ => Res.bug
          else Res.ok iter
        | Res.bug => Res.bug
        | Res.timeout => Res.timeout
      | Res.bug => Res.bug
      | Res.timeout => Res.timeout
    else Res.ok iter

/-- The function `castle_ct_modlist_iter_sift_down`. -/
def castle_ct_modlist_iter_sift_down (btree : castle_btree_type)
    (version_compare : Nat → Nat → Int) (fuel : Nat) (iter : c_modlist_iter_t)
    (start end_ : Nat) : Res c_modlist_iter_t :=
  match castle_ct_modlist_iter_item_get iter start with
  | Res.ok r =>
    castle_ct_modlist_iter_sift_down_loop btree version_compare r.key r.version end_ fuel iter
      start
  | Res.bug => Res.bug
  | Res.timeout => Res.timeout

/-- The loop of `castle_ct_modlist_iter_heapify`, counting `start` down to 0. -/
def castle_ct_modlist_iter_heapify_loop (btree : castle_btree_type)
    (version_compare : Nat → Nat → Int) (fuel : Nat) :
    Nat → c_modlist_iter_t → Res c_modlist_iter_t
  | 0, iter =>
    castle_ct_modlist_iter_sift_down btree version_compare fuel iter 0
      ((iter.nr_items + 2 ^ 32 - 1) % 2 ^ 32)
  | start + 1, iter =>
    match castle_ct_modlist_iter_sift_down btree version_compare fuel iter (start + 1)
        ((iter.nr_items + 2 ^ 32 - 1) % 2 ^ 32) with
    | Res.ok iter1 => castle_ct_modlist_iter_heapify_loop btree version_compare fuel start iter1
    | Res.bug => Res.bug
    | Res.timeout => Res.timeout

/-- The function `castle_ct_modlist_iter_heapify`; `start = (nr_items - 2)/2` in
32-bit unsigned arithmetic. -/
def castle_ct_modlist_iter_heapify (btree : castle_btree_type)
    (version_compare : Nat → Nat → Int) (fuel : Nat) (iter : c_modlist_iter_t) :
    Res c_modlist_iter_t :=
  castle_ct_modlist_iter_heapify_loop btree version_compare fuel
    (((iter.nr_items + 2 ^ 32 - 2) % 2 ^ 32) / 2) iter

/-- The loop of `castle_ct_modlist_iter_heapsort`, counting `last` down to 1. -/
def castle_ct_modlist_iter_heapsort_loop (btree : castle_btree_type)
    (version_compare : Nat → Nat → Int) (fuel : Nat) :
    Nat → c_modlist_iter_t → Res c_modlist_iter_t
  | 0, iter => Res.ok iter
  | last + 1, iter =>
    match iter.sort_idx[last + 1]?, iter.sort_idx[0]? with
    | some tl, some t0 =>
      let iter1 := { iter with sort_idx := (iter.sort_idx.set (last + 1) t0).set 0 tl }
      match castle_ct_modlist_iter_sift_down btree version_compare fuel iter1 0 last with
      | Res.ok iter2 => castle_ct_modlist_iter_heapsort_loop btree version_compare fuel last iter2
      | Res.bug => Res.bug
      | Res.timeout => Res.timeout
    | _, _ => Res.bug

/-- The function `castle_ct_modlist_iter_heapsort`. -/
def castle_ct_modlist_iter_heapsort (btree : castle_btree_type)
    (version_compare : Nat → Nat → Int) (fuel : Nat) (iter : c_modlist_iter_t) :
    Res c_modlist_iter_t :=
  castle_ct_modlist_iter_heapsort_loop btree version_compare fuel
    ((iter.nr_items + 2 ^ 32 - 1) % 2 ^ 32) iter

/-- The function `castle_ct_modlist_iter_has_next`. -/
def castle_ct_modlist_iter_has_next (iter : c_modlist_iter_t) : Bool :=
  iter.err == 0 && decide (iter.next_item < iter.nr_items)

/-- The function `castle_ct_modlist_iter_next`. -/
def castle_ct_modlist_iter_next (iter : c_modlist_iter_t) : Res (c_modlist_iter_t × kv_entry) :=
  match castle_ct_modlist_iter_item_get iter iter.next_item with
  | Res.ok s =>
    Res.ok ({ iter with next_item := iter.next_item + 1 }, { k := s.key, v := s.version, cdb := s.cdb })
  | Res.bug => Res.bug
  | Res.timeout => Res.timeout

/-- The function `castle_ct_modlist_iter_init` on the path where the three
allocations succeed: `nr_nodes` nodes of buffer, `item_count` index entries.
`enum` and `enum_err` describe the enumerator of the tree. -/
def castle_ct_modlist_iter_init (btree : castle_btree_type) (version_compare : Nat → Nat → Int)
    (fuel : Nat) (item_count nr_nodes : Nat) (enum : List kv_entry) (enum_err : Int) :
    Res c_modlist_iter_t :=
  if item_count = 0 then Res.bug
  else
    let iter : c_modlist_iter_t :=
      { err := 0, nr_nodes := nr_nodes,
        node_buffer := List.replicate nr_nodes { version := 0, is_leaf := false, slots := [] },
        nr_items := 0, next_item := 0, sort_idx := List.replicate item_count (0, 0) }
    match castle_ct_modlist_iter_fill btree iter enum enum_err item_count with
    | Res.ok iter1 =>
      if iter1.err ≠ 0 then Res.ok iter1
      else
        match castle_ct_modlist_iter_heapify btree version_compare fuel iter1 with
        | Res.ok iter2 => castle_ct_modlist_iter_heapsort btree version_compare fuel iter2
        | Res.bug => Res.bug
        | Res.timeout => Res.timeout
    | Res.bug => Res.bug
    | Res.timeout => Res.timeout

/-- Calling `castle_ct_modlist_iter_next` while `castle_ct_modlist_iter_has_next`
holds, at most `fuel` times. -/
def modlist_drain : Nat → c_modlist_iter_t → Res (List kv_entry)
  | 0, iter => if castle_ct_modlist_iter_has_next iter then Res.timeout else Res.ok []
  | fuel + 1, iter =>
    if castle_ct_modlist_iter_has_next iter then
      match castle_ct_modlist_iter_next iter with
      | Res.ok (iter1, e) =>
        match modlist_drain fuel iter1 with
        | Res.ok l => Res.ok (e :: l)
        | Res.bug => Res.bug
        | Res.timeout => Res.timeout
      | Res.bug => Res.bug
      | Res.timeout => Res.timeout
    else Res.ok []

/-! ## The merged iterator -/

/-- One element of the array `iterators` of `c_merged_iter_t`.  The component
iterator behind the function pointers is kept as the list of entries it still
has to yield: `has_next_fn` says whether the list is non-empty, `next_fn` takes
its head. -/
structure component_iterator where
  completed : Bool
  iterator : List kv_entry
  cached : Bool
  cached_entry : kv_entry
  deriving Repr, DecidableEq

/-- The record `c_merged_iter_t`. -/
structure c_merged_iter_t where
  nr_iters : Int
  err : Int
  non_empty_cnt : Int
  iterators : List component_iterator
  deriving Repr, DecidableEq

/-- The `for` loop of `castle_ct_merged_iter_next` over the components from
index `i` on; `smallest` is the pair of `smallest_idx` and the smallest entry so
far (`none` while `smallest_idx < 0`). -/
def castle_ct_merged_iter_next_loop (btree : castle_btree_type)
    (version_compare : Nat → Nat → Int) :
    List component_iterator → Nat → Option (Nat × kv_entry) →
    Res (List component_iterator × Option (Nat × kv_entry))
  | [], _, smallest => Res.ok ([], smallest)
  | comp :: rest, i, smallest =>
    -- replenish the cache
    let filled : Res component_iterator :=
      if !comp.completed && !comp.cached then
        match comp.iterator with
        | [] => Res.bug
        | e :: it => Res.ok { comp with iterator := it, cached_entry := e, cached := true }
      else Res.ok comp
    match filled with
    | Res.ok comp1 =>
      if !comp1.cached then
        if !comp1.iterator.isEmpty then Res.bug
        else
          match castle_ct_merged_iter_next_loop btree version_compare rest (i + 1) smallest with
          | Res.ok (rest1, s) => Res.ok (comp1 :: rest1, s)
          | Res.bug => Res.bug
          | Res.timeout => Res.timeout
      else
        let smallest1 : Option (Nat × kv_entry) :=
          match smallest with
          | none => some (i, comp1.cached_entry)
          | some (j, e) =>
            if castle_kv_compare btree version_compare comp1.cached_entry.k
                comp1.cached_entry.v e.k e.v < 0 then
              some (i, comp1.cached_entry)
            else some (j, e)
        match castle_ct_merged_iter_next_loop btree version_compare rest (i + 1) smallest1 with
        | Res.ok (rest1, s) => Res.ok (comp1 :: rest1, s)
        | Res.bug => Res.bug
        | Res.timeout => Res.timeout
    | Res.bug => Res.bug
    | Res.timeout => Res.timeout

/-- The function `castle_ct_merged_iter_next`. -/
def castle_ct_merged_iter_next (btree : castle_btree_type) (version_compare : Nat → Nat → Int)
    (iter : c_merged_iter_t) : Res (c_merged_iter_t × kv_entry) :=
  match castle_ct_merged_iter_next_loop btree version_compare iter.iterators 0 none with
  | Res.ok (its, some (smallest_idx, e)) =>
    match its[smallest_idx]? with
    | some comp =>
      let comp1 := { comp with cached := false }
      if comp1.iterator.isEmpty then
        Res.ok ({ iter with
          iterators := its.set smallest_idx { comp1 with completed := true }
          non_empty_cnt := iter.non_empty_cnt - 1 }, e)
      else
        Res.ok ({ iter with iterators := its.set smallest_idx comp1 }, e)
    | none => Res.bug
  | Res.ok (_, none) => Res.bug
  | Res.bug => Res.bug
  | Res.timeout => Res.timeout

/-- The function `castle_ct_merged_iter_has_next`. -/
def castle_ct_merged_iter_has_next (iter : c_merged_iter_t) : Bool :=
  iter.err == 0 && decide (iter.non_empty_cnt > 0)

/-- The function `castle_ct_merged_iter_init` on the path where the allocation
succeeds; the variadic arguments are the component iterators `streams`, of which
there must be `nr_iters`. -/
def castle_ct_merged_iter_init (nr_iters : Int) (streams : List (List kv_entry)) :
    Res c_merged_iter_t :=
  if nr_iters ≤ 0 ∨ nr_iters > 10 then Res.bug
  else if (streams.length : Int) ≠ nr_iters then Res.bug
  else
    Res.ok
      { nr_iters := nr_iters, err := 0,
        non_empty_cnt := ((streams.filter (fun s => !s.isEmpty)).length : Int),
        iterators := streams.map (fun s =>
          { completed := s.isEmpty, iterator := s, cached := false,
            cached_entry := { k := 0, v := 0, cdb := (0, 0) } }) }

/-- Calling `castle_ct_merged_iter_next` while `castle_ct_merged_iter_has_next`
holds, at most `fuel` times. -/
def merged_drain (btree : castle_btree_type) (version_compare : Nat → Nat → Int) :
    Nat → c_merged_iter_t → Res (List kv_entry)
  | 0, iter => if castle_ct_merged_iter_has_next iter then Res.timeout else Res.ok []
  | fuel + 1, iter =>
    if castle_ct_merged_iter_has_next iter then
      match castle_ct_merged_iter_next btree version_compare iter with
      | Res.ok (iter1, e) =>
        match merged_drain btree version_compare fuel iter1 with
        | Res.ok l => Res.ok (e :: l)
        | Res.bug => Res.bug
        | Res.timeout => Res.timeout
      | Res.bug => Res.bug
      | Res.timeout => Res.timeout
    else Res.ok []

/-! ## The merge engine -/

/-- One element of the array `levels` of `struct castle_da_merge`.  `node_c2b` is
the locked cache block being filled, with its disk block and node contents. -/
structure castle_da_merge_level where
  node_c2b : Option (c_disk_blk_t × castle_btree_node)
  last_key : Option Nat
  next_idx : Int
  valid_end_idx : Int
  valid_version : Nat
  buffer : castle_btree_node
  deriving Repr, DecidableEq

/-- The record `struct castle_da_merge` (its `levels`, of which there are
`MAX_BTREE_DEPTH`), with the two collaborators the engine talks to: `next_blk`
is the state of the free-space allocator and `written` lists the nodes handed
back to the cache (`dirty_c2b`, `unlock_c2b`, `put_c2b`), oldest first, each with
the depth it was completed at. -/
structure struct_castle_da_merge where
  levels : List castle_da_merge_level
  next_blk : Nat
  written : List (Nat × c_disk_blk_t × castle_btree_node)
  deriving Repr, DecidableEq

/-- The state of the levels after the initialisation loop of `castle_da_merge`;
`max_btree_depth` stands for the constant `MAX_BTREE_DEPTH`. -/
def castle_da_merge_init (max_btree_depth : Nat) : struct_castle_da_merge :=
  { levels := List.replicate max_btree_depth
      { node_c2b := none, last_key := none, next_idx := 0, valid_end_idx := -1,
        valid_version := INVAL_VERSION,
        buffer := castle_da_node_buffer_init { version := 0, is_leaf := false, slots := [] } },
    next_blk := 1, written := [] }

/-- The body of `castle_da_entry_add` on the level `level = merge->levels + depth`;
`next_blk` is the state of the free-space allocator.  The result is the level
after the call and the allocator state. -/
def castle_da_entry_add_level (btree : castle_btree_type) (st : Versions)
    (level : castle_da_merge_level) (next_blk : Nat) (key version : Nat) (cdb : c_disk_blk_t) :
    Res (castle_da_merge_level × Nat) :=
  -- alloc a new block if we need one
  let alloc : Res (castle_da_merge_level × Nat) :=
    match level.node_c2b with
    | none =>
      if level.next_idx ≠ 0 then Res.bug
      else if level.valid_end_idx ≥ 0 then Res.bug
      else
        Res.ok ({ level with
          node_c2b := some ((1, next_blk),
            castle_da_node_buffer_init { version := 0, is_leaf := false, slots := [] }) },
          next_blk + 1)
    | some _ => Res.ok (level, next_blk)
  match alloc with
  | Res.ok (level1, next_blk1) =>
    match level1.node_c2b with
    | none => Res.bug
    | some (blk, node) =>
      match btree_entry_add node level1.next_idx key version false cdb with
      | Res.ok node1 =>
        let key_cmp : Res Int :=
          if level1.next_idx ≠ 0 then
            match level1.last_key with
            | some lk => Res.ok (btree.key_compare key lk)
            | none => Res.bug
          else Res.ok 0
        match key_cmp with
        | Res.ok key_cmp =>
          if key_cmp < 0 then Res.bug
          else
            let cut : Res castle_da_merge_level :=
              if level1.next_idx = 0 then
                if level1.valid_end_idx ≥ 0 then Res.bug
                else
                  match btree_entry_get node1 level1.next_idx with
                  | Res.ok s =>
                    Res.ok { level1 with
                      valid_end_idx := 0, last_key := some s.key, valid_version := version }
                  | Res.bug => Res.bug
                  | Res.timeout => Res.timeout
              else if key_cmp > 0 then
                match btree_entry_get node1 level1.next_idx with
                | Res.ok s =>
                  Res.ok { level1 with
                    last_key := some s.key, valid_end_idx := level1.next_idx,
                    valid_version := 0 }
                | Res.bug => Res.bug
                | Res.timeout => Res.timeout
              else
                match castle_version_is_ancestor st version level1.valid_version with
                | Res.ok true =>
                  if version = level1.valid_version then Res.bug
                  else
                    Res.ok { level1 with
                      valid_end_idx := level1.next_idx, valid_version := version }
                | Res.ok false => Res.ok level1
                | Res.bug => Res.bug
                | Res.timeout => Res.timeout
            match cut with
            | Res.ok level2 =>
              if btree.need_split node1 0 then
                Res.ok ({ level2 with node_c2b := some (blk, node1), next_idx := -1 }, next_blk1)
              else
                Res.ok ({ level2 with
                  node_c2b := some (blk, node1), next_idx := level2.next_idx + 1 }, next_blk1)
            | Res.bug => Res.bug
            | Res.timeout => Res.timeout
        | Res.bug => Res.bug
        | Res.timeout => Res.timeout
      | Res.bug => Res.bug
      | Res.timeout => Res.timeout
  | Res.bug => Res.bug
  | Res.timeout => Res.timeout

/-- The function `castle_da_entry_add`: the assertion on `depth`, then the body
on the level at `depth`. -/
def castle_da_entry_add (btree : castle_btree_type) (st : Versions)
    (merge : struct_castle_da_merge) (depth : Nat) (key version : Nat) (cdb : c_disk_blk_t) :
    Res struct_castle_da_merge :=
  match merge.levels[depth]? with
  | none => Res.bug
  | some level =>
    match castle_da_entry_add_level btree st level merge.next_blk key version cdb with
    | Res.ok (level3, next_blk) =>
      Res.ok { merge with levels := merge.levels.set depth level3, next_blk := next_blk }
    | Res.bug => Res.bug
    | Res.timeout => Res.timeout

/-- The copy loop of `castle_da_node_complete`: the entries of the node from
`node_idx` on are added to the buffer. -/
def castle_da_node_complete_copy :
    List btree_slot → castle_btree_node → Int → Res castle_btree_node
  | [], buffer, _ => Res.ok buffer
  | s :: rest, buffer, buffer_idx =>
    if (buffer.used : Int) ≠ buffer_idx then Res.bug
    else if s.is_leaf_ptr then Res.bug
    else
      match btree_entry_add buffer buffer_idx s.key s.version false s.cdb with
      | Res.ok buffer1 => castle_da_node_complete_copy rest buffer1 (buffer_idx + 1)
      | Res.bug => Res.bug
      | Res.timeout => Res.timeout

/-- The function `castle_da_node_complete`. -/
def castle_da_node_complete (btree : castle_btree_type) (st : Versions)
    (merge : struct_castle_da_merge) (depth : Nat) : Res struct_castle_da_merge :=
  match merge.levels[depth]? with
  | none => Res.bug
  | some level =>
    match level.node_c2b with
    | none => Res.bug
    | some (blk, node0) =>
      let node : castle_btree_node := { node0 with version := level.valid_version }
      if level.buffer.used ≠ 0 then Res.bug
      else
        let node_idx : Int := level.valid_end_idx + 1
        if node_idx ≤ 0 ∨ node_idx > (node.used : Int) then Res.bug
        else
          match castle_da_node_complete_copy (node.slots.drop node_idx.toNat) level.buffer 0 with
          | Res.ok buffer1 =>
            let dropped : Res castle_btree_node :=
              if level.valid_end_idx + 1 ≤ (node.used : Int) - 1 then
                btree_entries_drop node (level.valid_end_idx + 1) ((node.used : Int) - 1)
              else Res.ok node
            match dropped with
            | Res.ok node1 =>
              if (node1.used : Int) ≠ level.valid_end_idx + 1 then Res.bug
              else
                match btree_entry_get node1 level.valid_end_idx with
                | Res.ok s =>
                  if s.is_leaf_ptr then Res.bug
                  else
                    let merge1 : struct_castle_da_merge :=
                      { merge with
                        levels := merge.levels.set depth
                          { level with node_c2b := some (blk, node1), buffer := buffer1 } }
                    match castle_da_entry_add btree st merge1 (depth + 1) s.key node1.version
                        blk with
                    | Res.ok merge2 =>
                      match merge2.levels[depth]? with
                      | none => Res.bug
                      | some level2 =>
                        Res.ok { merge2 with
                          levels := merge2.levels.set depth
                            { level2 with
                              node_c2b := none, last_key := none, next_idx := 0,
                              valid_end_idx := -1, valid_version := INVAL_VERSION },
                          written := merge2.written ++ [(depth, blk, node1)] }
                    | Res.bug => Res.bug
                    | Res.timeout => Res.timeout
                | Res.bug => Res.bug
                | Res.timeout => Res.timeout
            | Res.bug => Res.bug
            | Res.timeout => Res.timeout
          | Res.bug => Res.bug
          | Res.timeout => Res.timeout

/-- The first loop of `castle_da_nodes_complete`: complete the levels from `i` on
while their `next_idx` is negative; returns the index the loop stopped at.
`todo` counts the levels left up to `MAX_BTREE_DEPTH`. -/
def castle_da_nodes_complete_up (btree : castle_btree_type) (st : Versions) :
    Nat → struct_castle_da_merge → Nat → Res (struct_castle_da_merge × Nat)
  | 0, merge, i => Res.ok (merge, i)
  | todo + 1, merge, i =>
    match merge.levels[i]? with
    | none => Res.bug
    | some level =>
      if level.next_idx < 0 then
        match castle_da_node_complete btree st merge i with
        | Res.ok merge1 => castle_da_nodes_complete_up btree st todo merge1 (i + 1)
        | Res.bug => Res.bug
        | Res.timeout => Res.timeout
      else Res.ok (merge, i)

/-- The inner loop at the label `fill_buffers`: re-add the entries of the buffer
of level `i`. -/
def castle_da_nodes_complete_refill (btree : castle_btree_type) (st : Versions) (i : Nat) :
    List btree_slot → struct_castle_da_merge → Res struct_castle_da_merge
  | [], merge => Res.ok merge
  | s :: rest, merge =>
    if s.is_leaf_ptr then Res.bug
    else
      match castle_da_entry_add btree st merge i s.key s.version s.cdb with
      | Res.ok merge1 =>
        match merge1.levels[i]? with
        | none => Res.bug
        | some level =>
          if level.next_idx < 0 then Res.bug
          else castle_da_nodes_complete_refill btree st i rest merge1
      | Res.bug => Res.bug
      | Res.timeout => Res.timeout

/-- The outer loop at the label `fill_buffers`: for the levels `i - 1` down to 0
re-add the buffer and reset it. -/
def castle_da_nodes_complete_down (btree : castle_btree_type) (st : Versions) :
    Nat → struct_castle_da_merge → Res struct_castle_da_merge
  | 0, merge => Res.ok merge
  | i + 1, merge =>
    match merge.levels[i]? with
    | none => Res.bug
    | some level =>
      match castle_da_nodes_complete_refill btree st i level.buffer.slots merge with
      | Res.ok merge1 =>
        match merge1.levels[i]? with
        | none => Res.bug
        | some level1 =>
          castle_da_nodes_complete_down btree st i
            { merge1 with
              levels := merge1.levels.set i
                { level1 with buffer := castle_da_node_buffer_init level1.buffer } }
      | Res.bug => Res.bug
      | Res.timeout => Res.timeout

/-- The function `castle_da_nodes_complete`. -/
def castle_da_nodes_complete (btree : castle_btree_type) (st : Versions)
    (merge : struct_castle_da_merge) (depth : Nat) (end_ : Bool) : Res struct_castle_da_merge :=
  if depth + 1 > merge.levels.length then Res.bug
  else
    match merge.levels[depth]? with
    | none => Res.bug
    | some level =>
      let root : Res Bool :=
        if end_ && decide (level.next_idx < 0) then
          match merge.levels[depth + 1]? with
          | none => Res.bug
          | some up => Res.ok (decide (up.next_idx = 0))
        else Res.ok false
      match root with
      | Res.ok true => Res.ok merge
      | Res.ok false =>
        match castle_da_nodes_complete_up btree st (merge.levels.length - depth) merge depth with
        | Res.ok (merge1, i) => castle_da_nodes_complete_down btree st i merge1
        | Res.bug => Res.bug
        | Res.timeout => Res.timeout
      | Res.bug => Res.bug
      | Res.timeout => Res.timeout

/-- The `while` loop of `castle_da_merge_complete` at depth `i`. -/
def castle_da_merge_complete_level (btree : castle_btree_type) (st : Versions) (i : Nat) :
    Nat → struct_castle_da_merge → Res struct_castle_da_merge
  | 0, merge =>
    match merge.levels[i]? with
    | none => Res.bug
    | some level => if level.next_idx > 0 then Res.timeout else Res.ok merge
  | fuel + 1, merge =>
    match merge.levels[i]? with
    | none => Res.bug
    | some level =>
      if level.next_idx > 0 then
        match castle_da_nodes_complete btree st
            { merge with levels := merge.levels.set i { level with next_idx := -1 } } i true with
        | Res.ok merge1 => castle_da_merge_complete_level btree st i fuel merge1
        | Res.bug => Res.bug
        | Res.timeout => Res.timeout
      else Res.ok merge

/-- The `for` loop of `castle_da_merge_complete` over the depths from `i` on;
`todo` counts the depths left. -/
def castle_da_merge_complete_loop (btree : castle_btree_type) (st : Versions) (fuel : Nat) :
    Nat → Nat → struct_castle_da_merge → Res struct_castle_da_merge
  | 0, _, merge => Res.ok merge
  | todo + 1, i, merge =>
    match castle_da_merge_complete_level btree st i fuel merge with
    | Res.ok merge1 => castle_da_merge_complete_loop btree st fuel todo (i + 1) merge1
    | Res.bug => Res.bug
    | Res.timeout => Res.timeout

/-- The function `castle_da_merge_complete`. -/
def castle_da_merge_complete (btree : castle_btree_type) (st : Versions) (fuel : Nat)
    (merge : struct_castle_da_merge) : Res struct_castle_da_merge :=
  castle_da_merge_complete_loop btree st fuel merge.levels.length 0 merge

/-- The merging loop of `castle_da_merge`: take the next entry of the merged
iterator, add it at depth 0, complete the nodes that became full. -/
def castle_da_merge_loop (btree : castle_btree_type) (version_compare : Nat → Nat → Int)
    (st : Versions) :
    Nat → c_merged_iter_t → struct_castle_da_merge → Res struct_castle_da_merge
  | 0, iter, merge => if castle_ct_merged_iter_has_next iter then Res.timeout else Res.ok merge
  | fuel + 1, iter, merge =>
    if castle_ct_merged_iter_has_next iter then
      match castle_ct_merged_iter_next btree version_compare iter with
      | Res.ok (iter1, e) =>
        match castle_da_entry_add btree st merge 0 e.k e.v e.cdb with
        | Res.ok merge1 =>
          match castle_da_nodes_complete btree st merge1 0 false with
          | Res.ok merge2 => castle_da_merge_loop btree version_compare st fuel iter1 merge2
          | Res.bug => Res.bug
          | Res.timeout => Res.timeout
        | Res.bug => Res.bug
        | Res.timeout => Res.timeout
      | Res.bug => Res.bug
      | Res.timeout => Res.timeout
    else Res.ok merge

/-- The function `castle_da_merge` from the point where the two component
iterators exist: `stream1` and `stream2` are the entries they yield.  The
result is the state of the merge just before it is freed. -/
def castle_da_merge (btree : castle_btree_type) (version_compare : Nat → Nat → Int)
    (st : Versions) (max_btree_depth fuel : Nat) (stream1 stream2 : List kv_entry) :
    Res struct_castle_da_merge :=
  match castle_ct_merged_iter_init 2 [stream1, stream2] with
  | Res.ok iter =>
    match castle_da_merge_loop btree version_compare st fuel iter
        (castle_da_merge_init max_btree_depth) with
    | Res.ok merge => castle_da_merge_complete btree st fuel merge
    | Res.bug => Res.bug
    | Res.timeout => Res.timeout
  | Res.bug => Res.bug
  | Res.timeout => Res.timeout

/-- The entries at depth 0 in node order: the nodes completed at depth 0 in
completion order, then the node still being filled at depth 0. -/
def leaf_stream (merge : struct_castle_da_merge) : List btree_slot :=
  (merge.written.filter (fun w => w.1 == 0)).flatMap (fun w => w.2.2.slots) ++
    (match merge.levels[0]? with
     | some level =>
       (match level.node_c2b with
        | some (_, node) => node.slots
        | none => [])
     | none => [])

/-! ## Specification of the version forest -/

/-- One call of `castle_version_add`: (version, parent, ftree_root, size). -/
abbrev AddCall := Nat × Nat × c_disk_blk_t × Nat

/-- The version ids passed to `castle_version_add`, in call order. -/
def ids (adds : List AddCall) : List Nat := adds.map (fun a => a.1)

/-- The parent id given for a version when it was added. -/
def parent_id (adds : List AddCall) (v : Nat) : Option Nat :=
  (adds.find? (fun a => a.1 == v)).map (fun a => a.2.1)

/-- The number of parent steps from a version up to version 0, if the chain
gets there within `fuel` steps through added versions. -/
def depth_of (adds : List AddCall) : Nat → Nat → Option Nat
  | 0, v => if v = 0 then some 0 else none
  | fuel + 1, v =>
    if v = 0 then some 0
    else
      match parent_id adds v with
      | none => none
      | some p => (depth_of adds fuel p).map (fun k => k + 1)

/-- The parent path of a version: the version itself, its parent, and so on up
to version 0. -/
def parent_path (adds : List AddCall) : Nat → Nat → List Nat
  | 0, v => [v]
  | fuel + 1, v =>
    if v = 0 then [0]
    else
      match parent_id adds v with
      | none => [v]
      | some p => v :: parent_path adds fuel p

/-- A valid version forest: the ids are distinct, version 0 was added, every
parent chain reaches version 0, and the records fit the 32-bit counters. -/
def valid_forest (adds : List AddCall) : Prop :=
  (ids adds).Nodup ∧ 0 ∈ ids adds ∧
  (∀ v ∈ ids adds, (depth_of adds adds.length v).isSome = true) ∧
  adds.length < 2 ^ 32 - 1

instance (adds : List AddCall) : Decidable (valid_forest adds) := by
  unfold valid_forest; infer_instance

/-- The record `castle_version_add` leaves behind for one call. -/
def record0 (a : AddCall) : castle_version :=
  { version := a.1, parent_v := a.2.1, parent := none, first_child := none,
    next_sybling := none, o_order := INVAL_VERSION, r_order := INVAL_VERSION,
    ftree_root := a.2.2.1, size := a.2.2.2, inited := decide (a.1 = 0) }

/-! ## Definitions: The state after the `castle_version_add` calls -/

/-- What the add calls establish. -/
structure AddInv (l : List AddCall) (st : Versions) : Prop where
  nr_eq : st.nr = l.length
  recs : ∀ i a, l[i]? = some a → st.mem i = record0 a
  hash_mem : ∀ b p, p ∈ st.hash b ↔
    p < l.length ∧ castle_versions_hash_idx (st.mem p).version = b
  init_mem : ∀ p, p ∈ st.init_list ↔ p < l.length ∧ (st.mem p).version ≠ 0
  init_nodup : st.init_list.Nodup

/-- The part of the state that `castle_versions_process` never writes, as the
add calls left it. -/
structure Frame (adds : List AddCall) (st : Versions) : Prop where
  nr_eq : st.nr = adds.length
  recs : ∀ i a, adds[i]? = some a →
    (st.mem i).version = a.1 ∧ (st.mem i).parent_v = a.2.1 ∧
    (st.mem i).ftree_root = a.2.2.1 ∧ (st.mem i).size = a.2.2.2
  hash_mem : ∀ b p, p ∈ st.hash b ↔
    p < adds.length ∧ castle_versions_hash_idx (st.mem p).version = b

/-! ## Definitions: Forests in first-child / next-sibling form -/

/-- A forest as the links store it: `node p child sib` is the record `p`, the
forest of its children, and the forest of its later siblings. -/
inductive FC where
  | nil : FC
  | node (p : Nat) (child sib : FC) : FC

namespace FC

/-- The records of a forest, in the order the numbering pass enters them. -/
def nodes : FC → List Nat
  | nil => []
  | node p c s => p :: (c.nodes ++ s.nodes)

/-- The number of records of a forest. -/
def size (f : FC) : Nat := f.nodes.length

/-- The first record of a forest, as a pointer. -/
def head : FC → Option Nat
  | nil => none
  | node p _ _ => some p

/-- The memory stores the forest `f` below the parent pointer `par`. -/
def Rep (mem : Nat → castle_version) : Option Nat → FC → Prop
  | _, nil => True
  | par, node p c s =>
    (mem p).parent = par ∧ (mem p).first_child = c.head ∧ (mem p).next_sybling = s.head ∧
    Rep mem (some p) c ∧ Rep mem par s

/-- The number of turns the numbering loop takes on a forest. -/
def steps : FC → Nat
  | nil => 0
  | node _ c s => 1 + steps c + (if c.head = none then 0 else 1) + steps s

/-- The numbers the numbering loop writes on a forest, starting from the
counter value `id`. -/
def assign : FC → Nat → (Nat → castle_version) → (Nat → castle_version)
  | nil, _, m => m
  | node p c s, id, m =>
    let m1 := setRec m p { m p with o_order := id + 1 }
    let m2 := c.assign (id + 1) m1
    let m3 := setRec m2 p { m2 p with r_order := id + 1 + c.size }
    s.assign (id + 1 + c.size) m3

end FC

/-- A record without its two order numbers. -/
def strip (r : castle_version) : castle_version := { r with o_order := 0, r_order := 0 }

namespace FC

/-- No record occurs twice in the forest. -/
def WF : FC → Prop
  | nil => True
  | node p c s =>
    p ∉ c.nodes ∧ p ∉ s.nodes ∧ (∀ x ∈ c.nodes, x ∉ s.nodes) ∧ WF c ∧ WF s

/-- The forest after the record `v` became the first child of `p`. -/
def insert (v p : Nat) : FC → FC
  | nil => nil
  | node q c s =>
    if q = p then node q (node v nil c) s else node q (insert v p c) (insert v p s)

/-- The order numbers `(o_order, r_order)` of the record `x` in the numbering of
a forest that starts from the counter value `id`. -/
def num : FC → Nat → Nat → Nat × Nat
  | nil, _, _ => (0, 0)
  | node p c s, id, x =>
    if x = p then (id + 1, id + 1 + c.size)
    else if x ∈ c.nodes then c.num (id + 1) x
    else s.num (id + 1 + c.size) x

/-- The records on the way from `d` up to the top of the forest, `d` first. -/
def ancs : FC → Nat → List Nat
  | nil, _ => []
  | node p c s, d =>
    if d = p then [p]
    else if d ∈ c.nodes then c.ancs d ++ [p]
    else s.ancs d

end FC

/-! ## Definitions: The parenting pass -/

/-- The memory after `process_version` linked `v` below its parent `p`. -/
def link_mem (m : Nat → castle_version) (v p : Nat) : Nat → castle_version :=
  let mem1 := setRec m v { m v with parent := some p, next_sybling := (m p).first_child }
  let mem2 := setRec mem1 p { mem1 p with first_child := some v }
  setRec mem2 v { mem2 v with inited := true }

/-- The invariant of the parenting pass: the initialised records are stored as
the tree `f` below version 0, the others wait on the init list. -/
structure PInv (adds : List AddCall) (root : Nat) (st : Versions) (f : FC) : Prop where
  frame : Frame adds st
  root_lt : root < adds.length
  root_ver : (st.mem root).version = 0
  shape : ∃ c, f = FC.node root c FC.nil
  rep : FC.Rep st.mem none f
  wf : f.WF
  nodes_lt : ∀ p ∈ f.nodes, p < adds.length
  inited_iff : ∀ p, p < adds.length → ((st.mem p).inited = true ↔ p ∈ f.nodes)
  init_iff : ∀ p, p ∈ st.init_list ↔ p < adds.length ∧ (st.mem p).inited = false
  init_nodup : st.init_list.Nodup
  fresh : ∀ p, p < adds.length → (st.mem p).inited = false → (st.mem p).first_child = none
  par_ok : ∀ p ∈ f.nodes, p ≠ root → ∃ q, (st.mem p).parent = some q ∧ q < adds.length ∧
    (st.mem q).version = (st.mem p).parent_v

/-! ## Definitions: The state after `castle_versions_process` -/

/-- What `castle_versions_process` leaves behind: every record initialised and
stored in the tree `f` below version 0, numbered by `FC.num`. -/
structure Done (adds : List AddCall) (root : Nat) (st : Versions) (f : FC) : Prop where
  frame : Frame adds st
  root_lt : root < adds.length
  root_ver : (st.mem root).version = 0
  shape : ∃ c, f = FC.node root c FC.nil
  rep : FC.Rep st.mem none f
  wf : f.WF
  nodes_iff : ∀ p, p ∈ f.nodes ↔ p < adds.length
  inited : ∀ p, p < adds.length → (st.mem p).inited = true
  par_ok : ∀ p ∈ f.nodes, p ≠ root → ∃ q, (st.mem p).parent = some q ∧ q < adds.length ∧
    (st.mem q).version = (st.mem p).parent_v
  orders : ∀ p, p < adds.length →
    (st.mem p).o_order = (f.num 0 p).1 ∧ (st.mem p).r_order = (f.num 0 p).2
  init_nil : st.init_list = []

/-! ## Definitions: Child lists -/

/-- The records reached from a pointer by following `next_sybling`. -/
def sibling_chain (mem : Nat → castle_version) : Nat → Option Nat → List Nat
  | 0, _ => []
  | _ + 1, none => []
  | fuel + 1, some p => p :: sibling_chain mem fuel (mem p).next_sybling

/-- The child list of a record: `first_child`, then `next_sybling` until `NULL`. -/
def child_list (mem : Nat → castle_version) (fuel : Nat) (q : Nat) : List Nat :=
  sibling_chain mem fuel (mem q).first_child

namespace FC

/-- The top-level records of a forest. -/
def tops : FC → List Nat
  | nil => []
  | node p _ s => p :: tops s

/-- The children of the record `q` in a forest. -/
def kids : FC → Nat → List Nat
  | nil, _ => []
  | node p c s, q => if q = p then tops c else if q ∈ c.nodes then kids c q else kids s q

end FC

/-! ## Definitions: Claims about the version index -/

/-- The tree of scenario E1 (edges 0->1, 0->2, 1->3), its versions added in the
order 3, 0, 2, 1. -/
def e1_adds : List AddCall :=
  [(3, 1, (0, 0), 0), (0, 0, (0, 0), 0), (2, 0, (0, 0), 0), (1, 0, (0, 0), 0)]

/-- The pairs `(o_order, r_order)` of the listed versions in the result of a run. -/
def orders_of (r : Res Versions) (vs : List Nat) : List (Option Nat × Option Nat) :=
  match r with
  | Res.ok st => vs.map (fun v => (o_order_of st v, r_order_of st v))
  | _ => []

/-! ## Definitions: More fuel, cleared payloads -/

/-- A record with its payload (`ftree_root`, `size`) cleared. -/
def clear_payload (r : castle_version) : castle_version :=
  { r with ftree_root := (0, 0), size := 0 }

/-- A memory with every payload cleared. -/
def clear_mem (m : Nat → castle_version) : Nat → castle_version :=
  fun p => clear_payload (m p)

/-- A state with every payload cleared. -/
def clear_state (st : Versions) : Versions :=
  { st with mem := clear_mem st.mem }

/-- Applying a function to the value of a result. -/
def Res.map {α β : Type} (g : α → β) : Res α → Res β
  | Res.ok a => Res.ok (g a)
  | Res.bug => Res.bug
  | Res.timeout => Res.timeout

/-- The add calls with every payload cleared. -/
def clear_calls (adds : List AddCall) : List AddCall :=
  adds.map (fun a => (a.1, a.2.1, (0, 0), 0))

/-- The tree of scenario E1 as (version, parent) pairs; version 0 is given the
parent 0. -/
def e1_edges : List (Nat × Nat) := [(0, 0), (1, 0), (2, 0), (3, 1)]

/-- The numbers scenario E1 states, as `(o_order, r_order)` of versions 0, 1, 2, 3. -/
def e1_stated : List (Option Nat × Option Nat) :=
  [(some 1, some 4), (some 2, some 3), (some 4, some 4), (some 3, some 3)]

/-- The numbers of the other child order, as `(o_order, r_order)` of versions 0, 1, 2, 3. -/
def e1_other : List (Option Nat × Option Nat) :=
  [(some 1, some 4), (some 3, some 4), (some 2, some 2), (some 4, some 4)]

/-- Version 2 is added after the versions 1 and 3. -/
def two_last (vs : List Nat) : Bool :=
  decide (vs.indexOf 1 < vs.indexOf 2) && decide (vs.indexOf 3 < vs.indexOf 2)

/-- All ways to put `a` into a list. -/
def insert_everywhere {α : Type} (a : α) : List α → List (List α)
  | [] => [[a]]
  | b :: l => (a :: b :: l) :: (insert_everywhere a l).map (fun r => b :: r)

/-- All orders of a list. -/
def all_orders {α : Type} : List α → List (List α)
  | [] => [[]]
  | a :: l => (all_orders l).flatMap (insert_everywhere a)

/-! ## Definitions: Comparison functions -/

/-- A comparison function, in the style of `strcmp`, of a total preorder: the
signs of `c a b` and `c b a` are opposite, and `<=` is transitive. -/
def is_total_order_cmp {α : Type} (c : α → α → Int) : Prop :=
  (∀ a b, c a b < 0 ↔ c b a > 0) ∧ (∀ a b d, c a b ≤ 0 → c b d ≤ 0 → c a d ≤ 0)

/-- The comparison of entries by `castle_kv_compare`. -/
def entry_compare (btree : castle_btree_type) (version_compare : Nat → Nat → Int)
    (a b : kv_entry) : Int :=
  castle_kv_compare btree version_compare a.k a.v b.k b.v

/-! ## Definitions: The merged iterator delivers a sorted permutation -/

/-- The entries a component still has to deliver. -/
def pend (c : component_iterator) : List kv_entry :=
  if c.completed then []
  else if c.cached then c.cached_entry :: c.iterator
  else c.iterator

/-- A component after the cache refill of `castle_ct_merged_iter_next`. -/
def comp_fill (c : component_iterator) : component_iterator :=
  if !c.completed && !c.cached then
    match c.iterator with
    | [] => c
    | e :: it => { c with iterator := it, cached_entry := e, cached := true }
  else c

/-- The choice of the smallest entry made at one component. -/
def pick (cmp : kv_entry → kv_entry → Int) (sm : Option (Nat × kv_entry)) (i : Nat)
    (c : component_iterator) : Option (Nat × kv_entry) :=
  if c.cached then
    match sm with
    | none => some (i, c.cached_entry)
    | some (j, e) => if cmp c.cached_entry e < 0 then some (i, c.cached_entry) else some (j, e)
  else sm

/-- The state of a component between two calls of `castle_ct_merged_iter_next`. -/
structure CInv (le : kv_entry → kv_entry → Prop) (c : component_iterator) : Prop where
  done : c.completed = true → c.cached = false ∧ c.iterator = []
  live : c.completed = false → c.cached = true ∨ c.iterator ≠ []
  sorted : (pend c).Pairwise le

/-- The number of components that are not completed. -/
def live_count (cs : List component_iterator) : Nat :=
  (cs.filter (fun c => !c.completed)).length

/-- All entries the components still have to deliver. -/
def pending (cs : List component_iterator) : List kv_entry :=
  (cs.map pend).flatten

/-- The state of the merged iterator between two calls. -/
structure IInv (le : kv_entry → kv_entry → Prop) (iter : c_merged_iter_t) : Prop where
  comps : ∀ c ∈ iter.iterators, CInv le c
  err : iter.err = 0
  cnt : iter.non_empty_cnt = (live_count iter.iterators : Int)

/-- A B-tree type over natural-number keys: keys compare by their difference, and
a node needs a split once it holds `cap` slots. -/
def nat_btree (cap : Nat) : castle_btree_type :=
  { key_compare := fun a b => (a : Int) - (b : Int),
    need_split := fun n _ => decide (cap ≤ n.used) }

/-- The version index after processing the listed `(version, parent)` pairs. -/
def versions_of (l : List (Nat × Nat)) : Versions :=
  match castle_versions_process (2 * l.length + 2)
      (add_all (l.map (fun a => (a.1, a.2, (0, 0), 0)))) with
  | Res.ok st => st
  | _ => castle_versions_init

/-- The chain of versions 0 -> 1 -> 2. -/
def chain_versions : Versions := versions_of [(0, 0), (1, 0), (2, 1)]

/-- The two input streams of example E3. -/
def e3_streams : List (List kv_entry) :=
  [[{ k := 1, v := 1, cdb := (0, 1) }, { k := 3, v := 1, cdb := (0, 2) }],
   [{ k := 1, v := 2, cdb := (0, 3) }, { k := 2, v := 1, cdb := (0, 4) }]]

/-! ## Definitions: The modlist iterator holds the enumerated entries -/

/-- The slot `castle_ct_modlist_iter_fill` stores for an entry. -/
def slot_of (e : kv_entry) : btree_slot :=
  { key := e.k, version := e.v, is_leaf_ptr := true, cdb := e.cdb }

/-- The entry `castle_ct_modlist_iter_next` hands out for a slot. -/
def entry_of (s : btree_slot) : kv_entry := { k := s.key, v := s.version, cdb := s.cdb }

/-- The slot an element of `sort_idx` refers to. -/
def slot_at (buf : List castle_btree_node) (p : Nat × Nat) : Option btree_slot :=
  match buf[p.1]? with
  | some n => n.slots[p.2]?
  | none => none

/-- The state of `castle_ct_modlist_iter_fill` after the entries `pre`. -/
structure FillInv (iter : c_modlist_iter_t) (ni no ii : Nat) (pre : List kv_entry) : Prop where
  idx : ii = pre.length
  ni_le : ni ≤ ii
  no_le : no ≤ ii
  cur : no ≠ 0 → ∃ node, iter.node_buffer[ni]? = some node ∧ node.slots.length = no
  items : ∀ (i : Nat) (e : kv_entry), pre[i]? = some e → ∃ p : Nat × Nat,
    iter.sort_idx[i]? = some p ∧
    (p.1 < ni ∨ (p.1 = ni ∧ p.2 < no)) ∧
    slot_at iter.node_buffer p = some (slot_of e)

/-- The entries the elements of `sort_idx` refer to, in the order of `sort_idx`. -/
def indexed_slots (iter : c_modlist_iter_t) : List (Option btree_slot) :=
  iter.sort_idx.map (slot_at iter.node_buffer)

/-- What the sorting steps keep: the node buffer and the counters stay, the index
is permuted. -/
structure SameItems (iter iter1 : c_modlist_iter_t) : Prop where
  buf : iter1.node_buffer = iter.node_buffer
  perm : iter1.sort_idx.Perm iter.sort_idx
  nr_items : iter1.nr_items = iter.nr_items
  next_item : iter1.next_item = iter.next_item
  err : iter1.err = iter.err

/-- The entry handed out for an index element, if it refers to a slot. -/
def entry_of_opt (o : Option btree_slot) : kv_entry :=
  match o with
  | some s => entry_of s
  | none => { k := 0, v := 0, cdb := (0, 0) }

/-- The versions of example E2: 1 is the parent of 2 and of 3. -/
def e2_versions : Versions := versions_of [(0, 0), (1, 0), (2, 1), (3, 1)]

/-- The entries of example E2 in insertion order. -/
def e2_enum : List kv_entry :=
  [{ k := 7, v := 3, cdb := (0, 1) }, { k := 5, v := 1, cdb := (0, 2) },
   { k := 7, v := 1, cdb := (0, 3) }, { k := 5, v := 2, cdb := (0, 4) }]

/-- The iterator of example E2 after `castle_ct_modlist_iter_init`. -/
def e2_iter : c_modlist_iter_t :=
  { err := 0, nr_nodes := 2,
    node_buffer :=
      [{ version := 0, is_leaf := true,
         slots := [slot_of { k := 7, v := 3, cdb := (0, 1) },
                   slot_of { k := 5, v := 1, cdb := (0, 2) },
                   slot_of { k := 7, v := 1, cdb := (0, 3) }] },
       { version := 0, is_leaf := true, slots := [slot_of { k := 5, v := 2, cdb := (0, 4) }] }],
    nr_items := 4, next_item := 0,
    sort_idx := [(1, 0), (0, 1), (0, 0), (0, 2)] }

/-! ## Definitions: One call of `castle_da_entry_add` -/

/-- The slot `castle_da_entry_add` stores. -/
def merge_slot (key version : Nat) (cdb : c_disk_blk_t) : btree_slot :=
  { key := key, version := version, is_leaf_ptr := false, cdb := cdb }

/-- How `castle_da_entry_add` chose the cut: the fields `valid_end_idx`,
`last_key`, `valid_version` after the call, by the three cases of the code. -/
def CutCase (btree : castle_btree_type) (st : Versions) (level l1 : castle_da_merge_level)
    (key version : Nat) : Prop :=
  (level.next_idx = 0 ∧ l1.valid_end_idx = 0 ∧ l1.last_key = some key ∧
    l1.valid_version = version) ∨
  (level.next_idx ≠ 0 ∧ ∃ lk, level.last_key = some lk ∧ 0 ≤ btree.key_compare key lk ∧
    ((0 < btree.key_compare key lk ∧ l1.last_key = some key ∧
        l1.valid_end_idx = level.next_idx ∧ l1.valid_version = 0) ∨
     (btree.key_compare key lk = 0 ∧
        castle_version_is_ancestor st version level.valid_version = Res.ok true ∧
        version ≠ level.valid_version ∧ l1.last_key = level.last_key ∧
        l1.valid_end_idx = level.next_idx ∧ l1.valid_version = version) ∨
     (btree.key_compare key lk = 0 ∧
        castle_version_is_ancestor st version level.valid_version = Res.ok false ∧
        l1.last_key = level.last_key ∧ l1.valid_end_idx = level.valid_end_idx ∧
        l1.valid_version = level.valid_version)))

/-- The slots of the node a level is filling (none if it has no node). -/
def node_slots (level : castle_da_merge_level) : List btree_slot :=
  match level.node_c2b with
  | some (_, n) => n.slots
  | none => []

/-- The state of a level between two calls: without a node the counters are
reset; with a node `next_idx` is the number of slots, or negative once the node
is complete, and `valid_end_idx` is the index of a slot. -/
structure WFL (level : castle_da_merge_level) : Prop where
  none_case : level.node_c2b = none → level.next_idx = 0 ∧ level.valid_end_idx = -1
  some_case : level.node_c2b ≠ none →
    (level.next_idx = -1 ∨ level.next_idx = ((node_slots level).length : Int)) ∧
    0 ≤ level.valid_end_idx ∧ level.valid_end_idx < ((node_slots level).length : Int)

/-! ## Definitions: One call of `castle_da_node_complete` -/

/-- A level after `castle_da_node_complete` has reset it; `buffer1` holds the
entries that were behind the cut. -/
def level_reset (level : castle_da_merge_level) (buffer1 : castle_btree_node) :
    castle_da_merge_level :=
  { level with
    node_c2b := none, last_key := none, next_idx := 0, valid_end_idx := -1,
    valid_version := INVAL_VERSION, buffer := buffer1 }

/-- The node `castle_da_node_complete` hands to the cache: the slots up to the
cut, stamped with `valid_version`. -/
def completed_node (level : castle_da_merge_level) (node0 : castle_btree_node) :
    castle_btree_node :=
  { version := level.valid_version, is_leaf := node0.is_leaf,
    slots := node0.slots.take (level.valid_end_idx.toNat + 1) }

/-! ## Definitions: The state of the merge between two calls -/

/-- All levels are well formed. -/
def MInv (merge : struct_castle_da_merge) : Prop :=
  ∀ (d : Nat) (level : castle_da_merge_level), merge.levels[d]? = some level → WFL level

/-- The slots completed at depth `d`, in completion order. -/
def written_slots (merge : struct_castle_da_merge) (d : Nat) : List btree_slot :=
  (merge.written.filter (fun w => w.1 == d)).flatMap (fun w => w.2.2.slots)

/-- The entries at depth `d` in the order in which they were added: the completed
nodes, the node being filled, the buffer. -/
def content (merge : struct_castle_da_merge) (d : Nat) : List btree_slot :=
  written_slots merge d ++
    (match merge.levels[d]? with
     | some level => node_slots level ++ level.buffer.slots
     | none => [])

/-- The number of slots a level holds in its node and its buffer. -/
def level_size (level : castle_da_merge_level) : Nat :=
  (node_slots level).length + level.buffer.slots.length

/-- The number of slots the levels hold in nodes being filled and buffers. -/
def held (merge : struct_castle_da_merge) : Nat := (merge.levels.map level_size).sum

/-! ## Definitions: The cascade of `castle_da_nodes_complete` -/

/-- The buffers of the levels from `i` on are empty. -/
def BufEmptyFrom (merge : struct_castle_da_merge) (i : Nat) : Prop :=
  ∀ (j : Nat) (level : castle_da_merge_level), i ≤ j → merge.levels[j]? = some level →
    level.buffer.slots = []

/-! ## Definitions: The merged iterator over two streams is the sort-merge -/

/-- The sort-merge of two streams in the composite order of `castle_kv_compare`:
the smaller head first, on a tie the head of the first stream. -/
def sort_merge (btree : castle_btree_type) (vc : Nat → Nat → Int) (A B : List kv_entry) :
    List kv_entry :=
  List.merge A B (fun a b => decide (entry_compare btree vc a b ≤ 0))

/-- A component after its cached entry has been handed out. -/
def comp_take (f : component_iterator) : component_iterator :=
  if f.iterator.isEmpty then { f with cached := false, completed := true }
  else { f with cached := false }

/-- The merged iterator over two components that still have to deliver `as` and
`bs`. -/
def Two (iter : c_merged_iter_t) (as bs : List kv_entry) : Prop :=
  iter.err = 0 ∧ ∃ c1 c2, iter.iterators = [c1, c2] ∧
    CInv (fun _ _ => True) c1 ∧ CInv (fun _ _ => True) c2 ∧
    pend c1 = as ∧ pend c2 = bs ∧ iter.non_empty_cnt = (live_count [c1, c2] : Int)

/-- A component as `castle_ct_merged_iter_init` sets it up. -/
def init_comp (s : List kv_entry) : component_iterator :=
  { completed := s.isEmpty, iterator := s, cached := false,
    cached_entry := { k := 0, v := 0, cdb := (0, 0) } }

/-! ## Definitions: The leaf level written by `castle_da_merge` -/

/-- A level as the initialisation loop of `castle_da_merge` sets it up. -/
def init_level : castle_da_merge_level :=
  { node_c2b := none, last_key := none, next_idx := 0, valid_end_idx := -1,
    valid_version := INVAL_VERSION,
    buffer := castle_da_node_buffer_init { version := 0, is_leaf := false, slots := [] } }

/-- Three versions without ancestry among them: 1, 2 and 3 are children of 0. -/
def star_versions : Versions := versions_of [(0, 0), (1, 0), (2, 0), (3, 0)]

/-- Two ascending streams with the three versions of one key. -/
def star_stream1 : List kv_entry :=
  [{ k := 5, v := 3, cdb := (7, 1) }, { k := 5, v := 1, cdb := (7, 2) }]

/-- The second stream: the version in between. -/
def star_stream2 : List kv_entry := [{ k := 5, v := 2, cdb := (7, 3) }]

/-- The first stream of example E3. -/
def e3_stream1 : List kv_entry :=
  [{ k := 1, v := 1, cdb := (0, 1) }, { k := 3, v := 1, cdb := (0, 2) }]

/-- The second stream of example E3. -/
def e3_stream2 : List kv_entry :=
  [{ k := 1, v := 2, cdb := (0, 3) }, { k := 2, v := 1, cdb := (0, 4) }]

/-! ## Definitions: The ancestor test on a processed forest is a partial order -/

/-- The version index is the result of processing a valid forest. -/
def Processed (st : Versions) : Prop :=
  ∃ adds root f, valid_forest adds ∧ Done adds root st f

/-! ## Definitions: Where `castle_da_entry_add` puts the cut -/

/-- Successive calls of `castle_da_entry_add` on one level, for the entries of a
list. -/
def castle_da_entry_add_run (btree : castle_btree_type) (st : Versions) :
    List kv_entry → castle_da_merge_level × Nat → Res (castle_da_merge_level × Nat)
  | [], s => Res.ok s
  | e :: rest, s =>
    match castle_da_entry_add_level btree st s.1 s.2 e.k e.v e.cdb with
    | Res.ok s1 => castle_da_entry_add_run btree st rest s1
    | Res.bug => Res.bug
    | Res.timeout => Res.timeout

/-- The forest of example E5: 1 is the parent of 2, and 3 is a second child of
the root 0. -/
def e5_edges : List (Nat × Nat) := [(0, 0), (1, 0), (2, 1), (3, 0)]

/-- The version index of example E5. -/
def e5_versions : Versions := versions_of e5_edges

/-- A stream with `(5,1), (5,2), (5,3)` one after the other, behind an entry of a
smaller key. -/
def e5_stream : List kv_entry :=
  [{ k := 4, v := 1, cdb := (7, 0) }, { k := 5, v := 1, cdb := (7, 1) },
   { k := 5, v := 2, cdb := (7, 2) }, { k := 5, v := 3, cdb := (7, 3) }]

/-- The keys and versions of the nodes written at depth 0, oldest first. -/
def leaf_nodes (merge : struct_castle_da_merge) : List (Nat × List (Nat × Nat)) :=
  (merge.written.filter (fun w => w.1 == 0)).map
    (fun w => (w.2.2.version, w.2.2.slots.map (fun s => (s.key, s.version))))

/-- The cut of a level: `valid_end_idx`, `next_idx`, and the keys and versions in
the node. -/
def cut_view (s : castle_da_merge_level × Nat) : Int × Int × List (Nat × Nat) :=
  (s.1.valid_end_idx, s.1.next_idx, (node_slots s.1).map (fun t => (t.key, t.version)))

/-- The leaf level of example E5 while `(5,1)` is the cut of the node that holds
`slots`. -/
def e5_level (slots : List btree_slot) : castle_da_merge_level :=
  { node_c2b := some ((1, 1), { version := 0, is_leaf := true, slots := slots }),
    last_key := some 5, next_idx := (slots.length : Int), valid_end_idx := 0,
    valid_version := 1,
    buffer := castle_da_node_buffer_init { version := 0, is_leaf := false, slots := [] } }

/-- The calls of `castle_version_add` behind the forest of example E5. -/
def e5_adds : List AddCall := e5_edges.map (fun a => (a.1, a.2, ((0, 0) : c_disk_blk_t), 0))

/-! ## Definitions: Versions of the forest and their order numbers -/

/-- A version of the forest: the root version 0 passes the ancestor test for it. -/
def InForest (st : Versions) (v : Nat) : Prop :=
  castle_version_is_ancestor st 0 v = Res.ok true

/-- The `o_order` of a version as `castle_version_compare` reads it. -/
def ord (st : Versions) (v : Nat) : Int := ((o_order_of st v).getD 0 : Int)

/-! ## Definitions: The order of the entries a level receives -/

/-- The slot `y` may follow the slot `x` in the entries of a level: its key is
not smaller, and under the same key its version has no larger `o_order`, unless
`x` carries version 0. -/
def Follows (btree : castle_btree_type) (st : Versions) (x y : btree_slot) : Prop :=
  0 ≤ btree.key_compare y.key x.key ∧
  (btree.key_compare y.key x.key = 0 →
    ord st y.version ≤ ord st x.version ∨ x.version = 0)

/-! ## Definitions: The cut of the node a level is filling -/

/-- The node of a level split at the cut `valid_end_idx`: the slots before the
cut, the slot `sc` at the cut and the slots behind it.  `valid_version` is an
ancestor of every slot up to the cut; it is the version of `sc`, or 0 when `sc`
began a new key in this node.  The slots behind the cut have the key of `sc`
and none of them has version 0. -/
structure Cut (btree : castle_btree_type) (st : Versions) (level : castle_da_merge_level)
    (pre : List btree_slot) (sc : btree_slot) (post : List btree_slot) (lk : Nat) : Prop where
  slots : node_slots level = pre ++ sc :: post
  idx : level.valid_end_idx = (pre.length : Int)
  key : level.last_key = some lk
  vv_in : InForest st level.valid_version
  kept : ∀ s ∈ pre ++ [sc],
    castle_version_is_ancestor st level.valid_version s.version = Res.ok true
  same : ∀ s ∈ sc :: post, btree.key_compare s.key lk = 0
  nonzero : ∀ s ∈ post, s.version ≠ 0
  stamp : level.valid_version = sc.version ∨
    (level.valid_version = 0 ∧ ∃ sp, pre.getLast? = some sp ∧
      0 < btree.key_compare sc.key sp.key)
  zero_before : ∀ s ∈ pre, s.version = 0 → 0 < btree.key_compare sc.key s.key
  keys_before : ∀ s ∈ pre, 0 ≤ btree.key_compare sc.key s.key

/-- A level that has a node has a cut. -/
def LGood (btree : castle_btree_type) (st : Versions) (level : castle_da_merge_level) : Prop :=
  level.node_c2b ≠ none → ∃ pre sc post lk, Cut btree st level pre sc post lk

/-! ## Definitions: The nodes completed so far -/

/-- The nodes completed at depth `d`, in completion order. -/
def nodes_at (merge : struct_castle_da_merge) (d : Nat) : List castle_btree_node :=
  (merge.written.filter (fun w => w.1 == d)).map (fun w => w.2.2)

/-- A completed node: its stamped version is an ancestor of the version of every
slot kept in it; the stamp is the version of the last slot, or 0 when the last
slot began a new key inside the node. -/
structure NodeOK (btree : castle_btree_type) (st : Versions) (N : castle_btree_node) :
    Prop where
  kept : ∀ s ∈ N.slots, castle_version_is_ancestor st N.version s.version = Res.ok true
  last : ∃ pre sc, N.slots = pre ++ [sc] ∧
    (N.version = sc.version ∨
      (N.version = 0 ∧ ∃ sp, pre.getLast? = some sp ∧ 0 < btree.key_compare sc.key sp.key)) ∧
    (∀ s ∈ pre, s.version = 0 → 0 < btree.key_compare sc.key s.key)

/-- The node `N2` was completed next after `N1` at the same depth: its first
slot has a key not smaller than the last key of `N1`. -/
def NodeFollows (btree : castle_btree_type) (N1 N2 : castle_btree_node) : Prop :=
  ∃ l f, N1.slots.getLast? = some l ∧ N2.slots.head? = some f ∧
    0 ≤ btree.key_compare f.key l.key

/-- The state of the merge between two calls of the engine. -/
structure Good (btree : castle_btree_type) (st : Versions) (merge : struct_castle_da_merge) :
    Prop where
  wf : MInv merge
  cut : ∀ (d : Nat) (level : castle_da_merge_level), merge.levels[d]? = some level →
    LGood btree st level
  chain : ∀ d, (content merge d).Chain' (Follows btree st)
  known : ∀ d, ∀ s ∈ content merge d, InForest st s.version
  nodes : ∀ w ∈ merge.written, NodeOK btree st w.2.2
  seq : ∀ d, (nodes_at merge d).Chain' (NodeFollows btree)
  ptr : ∀ d p, (content merge (d + 1)).getLast? = some p →
    ∃ N l, (nodes_at merge d).getLast? = some N ∧ N.slots.getLast? = some l ∧
      p.key = l.key ∧ p.version = N.version

/-! ## Definitions: Node boundaries written by `castle_da_merge` -/

/-- The versions added for the chain 0 -> 1 -> 2. -/
def chain_edges : List (Nat × Nat) := [(0, 0), (1, 0), (2, 1)]

/-- The calls of `castle_version_add` for the chain 0 -> 1 -> 2. -/
def chain_adds : List AddCall :=
  chain_edges.map (fun a => (a.1, a.2, ((0, 0) : c_disk_blk_t), 0))

/-- The nodes handed back to the cache, oldest first: depth, stamped version,
and the key and version of every slot. -/
def written_view (merge : struct_castle_da_merge) : List (Nat × Nat × List (Nat × Nat)) :=
  merge.written.map
    (fun w => (w.1, w.2.2.version, w.2.2.slots.map (fun s => (s.key, s.version))))

/-! ## Definitions: What `castle_da_entry_add` accepts and what it rejects -/

/-- A stream of keys 3, 4, 1, 5 under version 1. -/
def unordered_keys : List kv_entry :=
  [{ k := 3, v := 1, cdb := (9, 3) }, { k := 4, v := 1, cdb := (9, 4) },
   { k := 1, v := 1, cdb := (9, 1) }, { k := 5, v := 1, cdb := (9, 5) }]

/-- A stream with the versions of key 5 in the wrong order: in the chain
0 -> 1 -> 2 the descendant 2 has to come before 1. -/
def unordered_versions : List kv_entry :=
  [{ k := 5, v := 1, cdb := (9, 1) }, { k := 5, v := 2, cdb := (9, 2) }]

/-- The keys and versions of the entries at depth 0, in node order. -/
def leaf_view (merge : struct_castle_da_merge) : List (Nat × Nat) :=
  (leaf_stream merge).map (fun s => (s.key, s.version))

/-! ## Definitions: A merge that fits into one node -/

/-- The level at depth 0 while `castle_da_merge` fills one node with the entries
`P`, which begin a stream whose first entry is `h`: the node is a leaf and holds
`P`, `last_key` is the key of the last entry, and `valid_version` is the version
of an entry while all keys equal the first key, and 0 afterwards. -/
structure OneNode (btree : castle_btree_type) (h : kv_entry) (level : castle_da_merge_level)
    (P : List kv_entry) : Prop where
  node : ∃ blk node, level.node_c2b = some (blk, node) ∧ node.is_leaf = true ∧
    node.slots = P.map (fun e => merge_slot e.k e.v e.cdb)
  idx : level.next_idx = (P.length : Int)
  buffer : level.buffer = init_level.buffer
  key : ∃ lk l, level.last_key = some lk ∧ P.getLast? = some l ∧ btree.key_compare l.k lk = 0
  above : ∀ l ∈ P, 0 ≤ btree.key_compare l.k h.k
  version : ((∃ p ∈ P, level.valid_version = p.v) ∧ ∀ l ∈ P, btree.key_compare l.k h.k = 0) ∨
    (level.valid_version = 0 ∧ ∀ l, P.getLast? = some l → btree.key_compare l.k h.k ≠ 0)

/-! ## Definitions: The tree left by `castle_da_merge_complete` -/

/-- A stream of the keys 1 to 5 under version 1. -/
def five_keys : List kv_entry :=
  [{ k := 1, v := 1, cdb := (9, 1) }, { k := 2, v := 1, cdb := (9, 2) },
   { k := 3, v := 1, cdb := (9, 3) }, { k := 4, v := 1, cdb := (9, 4) },
   { k := 5, v := 1, cdb := (9, 5) }]

/-- A level that is left with a node of one slot, marked complete by
`castle_da_merge_complete`. -/
def forced_level (blk : c_disk_blk_t) (s : btree_slot) : castle_da_merge_level :=
  { node_c2b := some (blk, { version := 0, is_leaf := true, slots := [s] }),
    last_key := some s.key, next_idx := -1, valid_end_idx := 0, valid_version := s.version,
    buffer := castle_da_node_buffer_init { version := 0, is_leaf := false, slots := [] } }

/-! ## Definitions: Doubling arrays -/

/-- The constant `MAX_DA_LEVEL`. -/
def MAX_DA_LEVEL : Nat := 10

/-- The macro `INVAL_DISK_BLK` of `castle.h`. -/
def INVAL_DISK_BLK : c_disk_blk_t := (0, 0)

/-- The macro `DISK_BLK_INVAL` of `castle.h`; a block is (disk, block). -/
def DISK_BLK_INVAL (blk : c_disk_blk_t) : Bool := blk.2 == 0 && blk.1 == 0

/-- The value of `-ENOMEM`. -/
def ENOMEM_neg : Int := -12

/-- The value of `-EINVAL`. -/
def EINVAL_neg : Int := -22

/-- The record `struct castle_component_tree` as `castle_da.c` uses it.  The
link `da_list` is represented by the position of the pointer to the record in
the lists of its doubling array, `hash_list` by its position in the table. -/
structure castle_component_tree where
  seq : Nat
  item_count : Nat
  btree_type : Nat
  dynamic : Nat
  da : Nat
  level : Nat
  first_node : c_disk_blk_t
  last_node : c_disk_blk_t
  node_count : Nat
  mstore_key : Nat
  deriving Repr, DecidableEq

/-- The record `struct castle_double_array`: `trees` are the `MAX_DA_LEVEL` lists
of pointers to component trees, each from the head on. -/
structure castle_double_array where
  id : Nat
  root_version : Nat
  trees : List (List Nat)
  mstore_key : Nat
  deriving Repr, DecidableEq

/-- The record `struct castle_dlist_entry` of the store of doubling arrays. -/
structure castle_dlist_entry where
  id : Nat
  root_version : Nat
  deriving Repr, DecidableEq

/-- The record `struct castle_clist_entry` of the store of component trees. -/
structure castle_clist_entry where
  da_id : Nat
  item_count : Nat
  btree_type : Nat
  dynamic : Nat
  seq : Nat
  level : Nat
  first_node : c_disk_blk_t
  last_node : c_disk_blk_t
  node_count : Nat
  deriving Repr, DecidableEq

/-- What `castle_da.c` takes from declarations and functions that are not in the
sources: the widths of `tree_seq_t` and `da_id_t`, the macros `TREE_GLOBAL` and
`DA_INVAL`, the constants `INVAL_MSTORE_KEY` and `VLBA_TREE_TYPE`, whether the
allocation succeeds when `n` records have been allocated (`kmalloc`), the block
of the root node `castle_btree_node_create` makes for a tree together with the
node bookkeeping it leaves in the tree (`first_node`, `last_node`,
`node_count`), and the return value of `castle_version_root_update`. -/
structure da_env where
  seq_bits : Nat
  id_bits : Nat
  TREE_GLOBAL : Nat → Bool
  DA_INVAL : Nat → Bool
  INVAL_MSTORE_KEY : Nat
  VLBA_TREE_TYPE : Nat
  kmalloc : Nat → Bool
  castle_btree_node_create : Nat → castle_component_tree →
    c_disk_blk_t × c_disk_blk_t × c_disk_blk_t × Nat
  castle_version_root_update : Nat → Nat → c_disk_blk_t → Int

/-- The global state of `castle_da.c`: the counters `castle_next_da_id` and
`castle_next_tree_seq`, the records of the component trees (`cts`, indexed by
pointer; pointer 0 is the static `castle_global_tree`), the records of the
doubling arrays (`das`, indexed by pointer), and the two tables.
Modelled from the spec: the tables come from the macro `DEFINE_HASH_TBL`, which
is not in the sources; a table is the list of the pointers added, the last one
added first, and a lookup returns the first record with the identity asked for. -/
structure da_state where
  castle_next_da_id : Nat
  castle_next_tree_seq : Nat
  cts : List castle_component_tree
  das : List castle_double_array
  castle_ct_hash : List Nat
  castle_da_hash : List Nat
  deriving Repr, DecidableEq

/-- Modelled from the spec: `castle_ct_hash_add` of `DEFINE_HASH_TBL`. -/
def castle_ct_hash_add (st : da_state) (ct : Nat) : da_state :=
  { st with castle_ct_hash := ct :: st.castle_ct_hash }

/-- Modelled from the spec: `castle_ct_hash_remove` of `DEFINE_HASH_TBL`. -/
def castle_ct_hash_remove (st : da_state) (ct : Nat) : da_state :=
  { st with castle_ct_hash := st.castle_ct_hash.erase ct }

/-- Modelled from the spec: `castle_ct_hash_get` of `DEFINE_HASH_TBL`. -/
def castle_ct_hash_get (st : da_state) (seq : Nat) : Option Nat :=
  st.castle_ct_hash.find? (fun p =>
    match st.cts[p]? with
    | some c => c.seq == seq
    | none => false)

/-- Modelled from the spec: `castle_da_hash_add` of `DEFINE_HASH_TBL`. -/
def castle_da_hash_add (st : da_state) (da : Nat) : da_state :=
  { st with castle_da_hash := da :: st.castle_da_hash }

/-- Modelled from the spec: `castle_da_hash_get` of `DEFINE_HASH_TBL`. -/
def castle_da_hash_get (st : da_state) (id : Nat) : Option Nat :=
  st.castle_da_hash.find? (fun p =>
    match st.das[p]? with
    | some d => d.id == id
    | none => false)

/-- The function `castle_da_ct_inc_cmp` on two pointers to component trees. -/
def castle_da_ct_inc_cmp (cts : List castle_component_tree) (l1 l2 : Nat) : Res Int :=
  match cts[l1]?, cts[l2]? with
  | some ct1, some ct2 => Res.ok (if ct1.seq > ct2.seq then 1 else -1)
  | _, _ => Res.bug

/-- The inner loop of `list_sort` with `n` rounds to go: `before` are the entries
in front of `t1`, `after` those behind it. -/
def list_sort_inner (compare : Nat → Nat → Res Int) :
    Nat → List Nat → Nat → List Nat → Res (List Nat)
  | 0, before, t1, after => Res.ok (before ++ t1 :: after)
  | _ + 1, _, _, [] => Res.bug
  | n + 1, before, t1, t2 :: rest =>
    match compare t1 t2 with
    | Res.ok c =>
      if c > 0 then list_sort_inner compare n (before ++ [t2]) t1 rest
      else list_sort_inner compare n (before ++ [t1]) t2 rest
    | Res.bug => Res.bug
    | Res.timeout => Res.timeout

/-- The outer loop of `list_sort` from `i` on, with `todo` values of `i` to go. -/
def list_sort_outer (compare : Nat → Nat → Res Int) (length : Nat) :
    Nat → Nat → List Nat → Res (List Nat)
  | 0, _, list => Res.ok list
  | todo + 1, i, list =>
    match list with
    | [] => Res.bug
    | t1 :: after =>
      match list_sort_inner compare (length - (i + 1)) [] t1 after with
      | Res.ok list1 => list_sort_outer compare length todo (i + 1) list1
      | Res.bug => Res.bug
      | Res.timeout => Res.timeout

/-- The function `list_sort` of `castle_utils.c` on the entries of a list, from
the head on. -/
def list_sort (compare : Nat → Nat → Res Int) (list : List Nat) : Res (List Nat) :=
  if list.length ≤ 1 then Res.ok list
  else list_sort_outer compare list.length (list.length - 1) 0 list

/-- The loop of `castle_da_trees_sort` over the lists of one doubling array. -/
def castle_da_trees_sort_lists (cts : List castle_component_tree) :
    List (List Nat) → Res (List (List Nat))
  | [] => Res.ok []
  | l :: rest =>
    match list_sort (castle_da_ct_inc_cmp cts) l with
    | Res.ok l1 =>
      match castle_da_trees_sort_lists cts rest with
      | Res.ok rest1 => Res.ok (l1 :: rest1)
      | Res.bug => Res.bug
      | Res.timeout => Res.timeout
    | Res.bug => Res.bug
    | Res.timeout => Res.timeout

/-- The function `castle_da_trees_sort` on the doubling array at pointer `da`. -/
def castle_da_trees_sort (st : da_state) (da : Nat) : Res da_state :=
  match st.das[da]? with
  | none => Res.bug
  | some d =>
    match castle_da_trees_sort_lists st.cts (d.trees.take MAX_DA_LEVEL) with
    | Res.ok trees1 =>
      let d1 : castle_double_array := { d with trees := trees1 ++ d.trees.drop MAX_DA_LEVEL }
      Res.ok { st with das := st.das.set da d1 }
    | Res.bug => Res.bug
    | Res.timeout => Res.timeout

/-- Modelled from the spec: `castle_da_hash_iterate` of `DEFINE_HASH_TBL` with
the function `castle_da_trees_sort`, over the pointers of the table. -/
def castle_da_hash_iterate_sort : List Nat → da_state → Res da_state
  | [], st => Res.ok st
  | da :: rest, st =>
    match castle_da_trees_sort st da with
    | Res.ok st1 => castle_da_hash_iterate_sort rest st1
    | Res.bug => Res.bug
    | Res.timeout => Res.timeout

/-- The function `castle_da_unmarshall`. -/
def castle_da_unmarshall (dam : castle_dlist_entry) (key : Nat) : castle_double_array :=
  { id := dam.id, root_version := dam.root_version, mstore_key := key,
    trees := List.replicate MAX_DA_LEVEL [] }

/-- The function `castle_da_marshall`: the entry and the returned key. -/
def castle_da_marshall (da : castle_double_array) : castle_dlist_entry × Nat :=
  ({ id := da.id, root_version := da.root_version }, da.mstore_key)

/-- The function `castle_da_ct_unmarshall`: the record and the returned `da_id`. -/
def castle_da_ct_unmarshall (ctm : castle_clist_entry) (key : Nat) :
    castle_component_tree × Nat :=
  ({ seq := ctm.seq, item_count := ctm.item_count, btree_type := ctm.btree_type,
     dynamic := ctm.dynamic, da := ctm.da_id, level := ctm.level,
     first_node := ctm.first_node, last_node := ctm.last_node,
     node_count := ctm.node_count, mstore_key := key }, ctm.da_id)

/-- The function `castle_da_ct_marshall`: the entry and the returned key. -/
def castle_da_ct_marshall (ct : castle_component_tree) : castle_clist_entry × Nat :=
  ({ da_id := ct.da, item_count := ct.item_count, btree_type := ct.btree_type,
     dynamic := ct.dynamic, seq := ct.seq, level := ct.level,
     first_node := ct.first_node, last_node := ct.last_node,
     node_count := ct.node_count }, ct.mstore_key)

/-- The first loop of `castle_double_array_read`, over the entries of the store
of doubling arrays; the flag tells whether every allocation succeeded. -/
def castle_double_array_read_das (env : da_env) :
    List (castle_dlist_entry × Nat) → da_state → da_state × Bool
  | [], st => (st, true)
  | (mstore_dentry, key) :: rest, st =>
    if !env.kmalloc (st.cts.length + st.das.length) then (st, false)
    else
      let da := castle_da_unmarshall mstore_dentry key
      let p := st.das.length
      let st1 := castle_da_hash_add { st with das := st.das ++ [da] } p
      let st2 : da_state :=
        { st1 with
          castle_next_da_id :=
            if da.id ≥ st1.castle_next_da_id then (da.id + 1) % 2 ^ env.id_bits
            else st1.castle_next_da_id }
      castle_double_array_read_das env rest st2

/-- The second loop of `castle_double_array_read`, over the entries of the store
of component trees; the flag tells whether the loop ran to its end (no
allocation failed, every doubling array was found). -/
def castle_double_array_read_cts (env : da_env) :
    List (castle_clist_entry × Nat) → da_state → Res (da_state × Bool)
  | [], st => Res.ok (st, true)
  | (mstore_centry, key) :: rest, st =>
    if env.TREE_GLOBAL mstore_centry.seq then
      let (ct, da_id) := castle_da_ct_unmarshall mstore_centry key
      if !env.DA_INVAL da_id then Res.bug
      else
        castle_double_array_read_cts env rest
          (castle_ct_hash_add { st with cts := st.cts.set 0 ct } 0)
    else if !env.kmalloc (st.cts.length + st.das.length) then Res.ok (st, false)
    else
      let (ct, da_id) := castle_da_ct_unmarshall mstore_centry key
      let p := st.cts.length
      let st1 := castle_ct_hash_add { st with cts := st.cts ++ [ct] } p
      match castle_da_hash_get st1 da_id with
      | none => Res.ok (st1, false)
      | some dp =>
        match st1.das[dp]? with
        | none => Res.bug
        | some d =>
          match d.trees[ct.level]? with
          | none => Res.bug
          | some l =>
            let d1 : castle_double_array := { d with trees := d.trees.set ct.level (p :: l) }
            let st2 : da_state :=
              { st1 with
                das := st1.das.set dp d1,
                castle_next_tree_seq :=
                  if ct.seq ≥ st1.castle_next_tree_seq then (ct.seq + 1) % 2 ^ env.seq_bits
                  else st1.castle_next_tree_seq }
            castle_double_array_read_cts env rest st2

/-- The function `castle_double_array_read`.  A store is what
`castle_mstore_open` returns (`none` for a null pointer) and in it what
`castle_mstore_iterate` returns (`none` for a null pointer): the entries with
their keys, in the order of the iterator.  The result is the state and the
return value. -/
def castle_double_array_read (env : da_env)
    (castle_da_store : Option (Option (List (castle_dlist_entry × Nat))))
    (castle_tree_store : Option (Option (List (castle_clist_entry × Nat))))
    (st : da_state) : Res (da_state × Int) :=
  match castle_da_store, castle_tree_store with
  | some da_iterator, some tree_iterator =>
    match da_iterator with
    | none => Res.ok (st, EINVAL_neg)
    | some das =>
      match castle_double_array_read_das env das st with
      | (st1, false) => Res.ok (st1, EINVAL_neg)
      | (st1, true) =>
        match tree_iterator with
        | none => Res.ok (st1, EINVAL_neg)
        | some cts =>
          match castle_double_array_read_cts env cts st1 with
          | Res.ok (st2, false) => Res.ok (st2, EINVAL_neg)
          | Res.ok (st2, true) =>
            match castle_da_hash_iterate_sort st2.castle_da_hash st2 with
            | Res.ok st3 => Res.ok (st3, 0)
            | Res.bug => Res.bug
            | Res.timeout => Res.timeout
          | Res.bug => Res.bug
          | Res.timeout => Res.timeout
  | _, _ => Res.ok (st, ENOMEM_neg)

/-- The function `castle_da_rwct_make` on the doubling array at pointer `da`:
the state and the return value. -/
def castle_da_rwct_make (env : da_env) (st : da_state) (da : Nat) : Res (da_state × Int) :=
  if !env.kmalloc (st.cts.length + st.das.length) then Res.ok (st, ENOMEM_neg)
  else
    match st.das[da]? with
    | none => Res.bug
    | some d =>
      let ct : Nat := st.cts.length
      let ct0 : castle_component_tree :=
        { seq := st.castle_next_tree_seq, item_count := 0,
          btree_type := env.VLBA_TREE_TYPE, dynamic := 1, da := d.id, level := 0,
          first_node := (0, 0), last_node := (0, 0), node_count := 0,
          mstore_key := env.INVAL_MSTORE_KEY }
      let created := env.castle_btree_node_create d.root_version ct0
      let cdb := created.1
      let ct1 : castle_component_tree :=
        { ct0 with
          first_node := created.2.1, last_node := created.2.2.1, node_count := created.2.2.2 }
      let st1 : da_state :=
        castle_ct_hash_add
          { st with
            castle_next_tree_seq := (st.castle_next_tree_seq + 1) % 2 ^ env.seq_bits,
            cts := st.cts ++ [ct1] } ct
      let ret := env.castle_version_root_update d.root_version ct1.seq cdb
      if ret ≠ 0 then Res.ok (castle_ct_hash_remove st1 ct, ret)
      else
        -- move the last rwct (if one exists) to level 1
        let moved : Res (List castle_component_tree × List (List Nat)) :=
          match d.trees[0]? with
          | none => Res.bug
          | some [] => Res.ok (st1.cts, d.trees)
          | some (old_ct :: rest) =>
            match st1.cts[old_ct]?, d.trees[1]? with
            | some old, some l1 =>
              Res.ok (st1.cts.set old_ct { old with level := 1 },
                (d.trees.set 0 rest).set 1 (old_ct :: l1))
            | _, _ => Res.bug
        match moved with
        | Res.ok (cts2, trees2) =>
          -- thread the tree onto the level 0 list
          match trees2[0]? with
          | none => Res.bug
          | some l0 =>
            let d2 : castle_double_array := { d with trees := trees2.set 0 (ct :: l0) }
            Res.ok ({ st1 with cts := cts2, das := st1.das.set da d2 }, 0)
        | Res.bug => Res.bug
        | Res.timeout => Res.timeout

/-- The function `castle_double_array_make`: the state and the return value. -/
def castle_double_array_make (env : da_env) (st : da_state) (da_id root_version : Nat) :
    Res (da_state × Int) :=
  if !env.kmalloc (st.cts.length + st.das.length) then Res.ok (st, ENOMEM_neg)
  else
    let da : Nat := st.das.length
    let d : castle_double_array :=
      { id := da_id, root_version := root_version, mstore_key := env.INVAL_MSTORE_KEY,
        trees := List.replicate MAX_DA_LEVEL [] }
    match castle_da_rwct_make env { st with das := st.das ++ [d] } da with
    | Res.ok (st1, ret) =>
      if ret ≠ 0 then Res.ok (st1, ret)
      else Res.ok (castle_da_hash_add st1 da, 0)
    | Res.bug => Res.bug
    | Res.timeout => Res.timeout

/-- The function `castle_da_rwct_get` on the doubling array at pointer `da`. -/
def castle_da_rwct_get (st : da_state) (da : Nat) : Res Nat :=
  match st.das[da]? with
  | none => Res.bug
  | some d =>
    match d.trees[0]? with
    | some [l] => Res.ok l
    | _ => Res.bug

/-- The entries of a list behind the entry `p`; `none` if `p` is not in the
list. -/
def entries_behind (p : Nat) : List Nat → Option (List Nat)
  | [] => none
  | q :: rest => if q = p then some rest else entries_behind p rest

/-- The function `castle_da_ct_next` on the component tree at pointer `ct`; the
result `none` stands for `NULL`.  The record has to be linked in the list of its
level in the doubling array it names. -/
def castle_da_ct_next (st : da_state) (ct : Nat) : Res (Option Nat) :=
  match st.cts[ct]? with
  | none => Res.bug
  | some c =>
    match castle_da_hash_get st c.da with
    | none => Res.bug
    | some da =>
      match st.das[da]? with
      | none => Res.bug
      | some d =>
        if c.level ≥ MAX_DA_LEVEL then Res.ok none
        else
          let first : Res (Option Nat) :=
            match d.trees[c.level]? with
            | none => Res.bug
            | some l =>
              match entries_behind ct l with
              | none => Res.bug
              | some [] => Res.ok none
              | some (next_ct :: _) => Res.ok (some next_ct)
          let found : Res (Option Nat) :=
            match first with
            | Res.ok none =>
              Res.ok (((d.trees.take MAX_DA_LEVEL).drop (c.level + 1)).flatten.head?)
            | r => r
          match found with
          | Res.ok (some next_ct) =>
            match st.cts[next_ct]? with
            | none => Res.bug
            | some n => if n.seq > c.seq then Res.bug else Res.ok (some next_ct)
          | r => r

/-- The function `castle_da_bvec_complete` together with the calls of
`castle_btree_find` it makes: `castle_btree_find ct` is the error code and the
block with which the lookup in the tree at pointer `ct` completes (the function
is not in the sources), `read` tells whether the request is a READ, `tree` is
`c_bvec->tree`.  The result is what the callback `da_endfind` is called with.
The fuel counts the lookups still allowed. -/
def castle_da_bvec_complete (castle_btree_find : Nat → Int × c_disk_blk_t) (st : da_state)
    (read : Bool) : Nat → Nat → Int → c_disk_blk_t → Res (Int × c_disk_blk_t)
  | fuel, tree, err, cdb =>
    if DISK_BLK_INVAL cdb && err == 0 && read then
      match castle_da_ct_next st tree with
      | Res.ok none => Res.ok (err, INVAL_DISK_BLK)
      | Res.ok (some ct) =>
        match fuel with
        | 0 => Res.timeout
        | fuel1 + 1 =>
          castle_da_bvec_complete castle_btree_find st read fuel1 ct
            (castle_btree_find ct).1 (castle_btree_find ct).2
      | Res.bug => Res.bug
      | Res.timeout => Res.timeout
    else Res.ok (err, cdb)

/-- The function `castle_double_array_find` (without the code under `DEBUG`,
which is not defined): `castle_version_read` is `some da_id` when the function
of that name returns 0 for the attached version, and `da_endfind` tells whether
the request already carries a `da_endfind`.  The result is what the callback of
the request is called with. -/
def castle_double_array_find (castle_btree_find : Nat → Int × c_disk_blk_t) (st : da_state)
    (castle_version_read : Option Nat) (da_endfind : Bool) (read : Bool) (fuel : Nat) :
    Res (Int × c_disk_blk_t) :=
  match castle_version_read with
  | none => Res.bug
  | some da_id =>
    match castle_da_hash_get st da_id with
    | none => Res.bug
    | some da =>
      if da_endfind then Res.bug
      else
        match castle_da_rwct_get st da with
        | Res.ok tree =>
          castle_da_bvec_complete castle_btree_find st read fuel tree
            (castle_btree_find tree).1 (castle_btree_find tree).2
        | Res.bug => Res.bug
        | Res.timeout => Res.timeout

/-! ## Definitions: The active tree of a doubling array -/

/-- The record `castle_da_rwct_make` sets up for the new tree of the doubling
array `d`. -/
def rwct_new (env : da_env) (st : da_state) (d : castle_double_array) :
    castle_component_tree :=
  let ct0 : castle_component_tree :=
    { seq := st.castle_next_tree_seq, item_count := 0,
      btree_type := env.VLBA_TREE_TYPE, dynamic := 1, da := d.id, level := 0,
      first_node := (0, 0), last_node := (0, 0), node_count := 0,
      mstore_key := env.INVAL_MSTORE_KEY }
  let created := env.castle_btree_node_create d.root_version ct0
  { ct0 with
    first_node := created.2.1, last_node := created.2.2.1, node_count := created.2.2.2 }

/-- The record `castle_double_array_make` sets up. -/
def fresh_da (env : da_env) (da_id root_version : Nat) : castle_double_array :=
  { id := da_id, root_version := root_version, mstore_key := env.INVAL_MSTORE_KEY,
    trees := List.replicate MAX_DA_LEVEL [] }

/-- An environment for examples: 32-bit identifiers, `TREE_GLOBAL` and `DA_INVAL`
as comparisons with 0 and with `(da_id_t)-1`, allocations that succeed, a root
node in block `(1, seq)` and a root update that returns 0. -/
def example_env : da_env :=
  { seq_bits := 32, id_bits := 32, TREE_GLOBAL := fun seq => seq == 0,
    DA_INVAL := fun da => da == 2 ^ 32 - 1, INVAL_MSTORE_KEY := 2 ^ 32 - 1,
    VLBA_TREE_TYPE := 1, kmalloc := fun _ => true,
    castle_btree_node_create := fun _ ct => ((1, ct.seq), (1, ct.seq), (1, ct.seq), 1),
    castle_version_root_update := fun _ _ _ => 0 }

/-- The state of `castle_da.c` before any call: the counters are 1, the tables
are empty, the only record is the global tree. -/
def da_state_init : da_state :=
  { castle_next_da_id := 1, castle_next_tree_seq := 1,
    cts := [{ seq := 0, item_count := 0, btree_type := 0, dynamic := 0, da := 2 ^ 32 - 1,
              level := 0, first_node := (0, 0), last_node := (0, 0), node_count := 0,
              mstore_key := 2 ^ 32 - 1 }],
    das := [], castle_ct_hash := [], castle_da_hash := [] }

/-- The state a call leaves, for a call that returns. -/
def state_after (r : Res (da_state × Int)) : da_state :=
  match r with
  | Res.ok (st, _) => st
  | _ => da_state_init

/-- The state after `castle_double_array_make(1, 0)`. -/
def da_made : da_state :=
  state_after (castle_double_array_make example_env da_state_init 1 0)

/-- The state after a further call of `castle_da_rwct_make`. -/
def da_made2 : da_state := state_after (castle_da_rwct_make example_env da_made 0)

/-! ## Definitions: Sequence numbers of component trees -/

/-- The counter `castle_next_tree_seq` exceeds the `seq` of every tree of the
table that is not the global tree. -/
def seq_below (env : da_env) (st : da_state) : Prop :=
  ∀ p ∈ st.castle_ct_hash, ∀ c, st.cts[p]? = some c → env.TREE_GLOBAL c.seq = false →
    c.seq < st.castle_next_tree_seq

/-- Successive calls of `castle_da_rwct_make` on the doubling arrays `das`: the
state at the end and the `seq` each call gave to its new tree, in the order of
the calls (`none` for a call whose allocation failed). -/
def castle_da_rwct_make_run (env : da_env) : List Nat → da_state →
    Res (da_state × List (Option Nat))
  | [], st => Res.ok (st, [])
  | da :: rest, st =>
    match castle_da_rwct_make env st da with
    | Res.ok (st1, _) =>
      match castle_da_rwct_make_run env rest st1 with
      | Res.ok (st2, seqs) =>
        Res.ok (st2,
          (if env.kmalloc (st.cts.length + st.das.length) then some st.castle_next_tree_seq
           else none) :: seqs)
      | Res.bug => Res.bug
      | Res.timeout => Res.timeout
    | Res.bug => Res.bug
    | Res.timeout => Res.timeout

/-- The `seq` of the trees of the table, the global tree left out. -/
def table_seqs (env : da_env) (st : da_state) : List Nat :=
  ((st.castle_ct_hash.filterMap (fun p => st.cts[p]?)).map (fun c => c.seq)).filter
    (fun s => !env.TREE_GLOBAL s)

/-- The pointers of the table are records, and no two trees of the table share a
`seq`, the global tree left out. -/
def seq_unique (env : da_env) (st : da_state) : Prop :=
  (∀ p ∈ st.castle_ct_hash, p < st.cts.length) ∧ (table_seqs env st).Nodup

/-- An entry of the store of component trees for examples. -/
def example_centry (da_id seq level : Nat) : castle_clist_entry :=
  { da_id := da_id, item_count := 7, btree_type := 1, dynamic := 1, seq := seq,
    level := level, first_node := (1, seq), last_node := (1, seq), node_count := 1 }

/-- A store with the doubling array 1. -/
def example_da_entries : List (castle_dlist_entry × Nat) :=
  [({ id := 1, root_version := 0 }, 10)]

/-- A store with three trees of the doubling array 1, in the order in which they
were created: `seq` 1 and 2 at level 1, `seq` 3 at level 0. -/
def example_tree_entries : List (castle_clist_entry × Nat) :=
  [(example_centry 1 1 1, 20), (example_centry 1 2 1, 21), (example_centry 1 3 0, 22)]

/-- The state after `castle_double_array_read` on the example stores. -/
def da_read : da_state :=
  state_after (castle_double_array_read example_env (some (some example_da_entries))
    (some (some example_tree_entries)) da_state_init)

/-- The state after a call of `castle_da_rwct_make` on the state read. -/
def da_read2 : da_state := state_after (castle_da_rwct_make example_env da_read 0)

/-- The state after two calls of `castle_da_rwct_make` on the state read. -/
def da_read3 : da_state :=
  match castle_da_rwct_make_run example_env [0, 0] da_read with
  | Res.ok (st, _) => st
  | _ => da_state_init

/-! ## Definitions: The order of the trees of a level -/

/-- The `seq` of the trees in the lists of the doubling array at pointer `da`,
level by level, each list from the head on. -/
def level_seqs (st : da_state) (da : Nat) : List (List Nat) :=
  match st.das[da]? with
  | some d => d.trees.map (fun l => l.filterMap (fun p => (st.cts[p]?).map (fun c => c.seq)))
  | none => []

/-- The store of component trees that `castle_da_hash_writeback` leaves for the
doubling array 1 with the tree of `seq` 3 at level 0 and the trees of `seq` 2 and
1, in this order, at level 1. -/
def written_tree_entries : List (castle_clist_entry × Nat) :=
  [(example_centry 1 3 0, 20), (example_centry 1 2 1, 21), (example_centry 1 1 1, 22)]

/-- The record `castle_da_ct_unmarshall` makes of an example entry. -/
def example_ct (seq level key : Nat) : castle_component_tree :=
  { seq := seq, item_count := 7, btree_type := 1, dynamic := 1, da := 1, level := level,
    first_node := (1, seq), last_node := (1, seq), node_count := 1, mstore_key := key }

/-- The state after `castle_double_array_read` on that store: the trees of `seq`
3, 2, 1 are at the pointers 1, 2, 3. -/
def da_reread : da_state :=
  { castle_next_da_id := 2, castle_next_tree_seq := 4,
    cts := da_state_init.cts ++ [example_ct 3 0 20, example_ct 2 1 21, example_ct 1 1 22],
    das := [{ id := 1, root_version := 0, mstore_key := 10,
              trees := [1] :: [3, 2] :: List.replicate 8 [] }],
    castle_ct_hash := [3, 2, 1], castle_da_hash := [0] }

/-! ## Definitions: The walk of a read through a doubling array -/

/-- The `seq` of the tree at pointer `p` (0 if there is no record). -/
def seq_of (st : da_state) (p : Nat) : Nat := ((st.cts[p]?).map (fun c => c.seq)).getD 0

/-- The trees of a doubling array in walk order: level by level, each list from
the head on. -/
def da_walk (d : castle_double_array) : List Nat := d.trees.flatten

/-- A doubling array in order: the record at pointer `da` is in the table under
its identity, it has `MAX_DA_LEVEL` lists, every tree linked in the list of
level `i` names the doubling array and the level `i`, no tree is linked twice,
level 0 holds exactly one tree, and `seq` does not increase along the walk. -/
structure da_wf (st : da_state) (da : Nat) (d : castle_double_array) : Prop where
  record : st.das[da]? = some d
  hash : castle_da_hash_get st d.id = some da
  levels : d.trees.length = MAX_DA_LEVEL
  linked : ∀ x ∈ d.trees.enum, ∀ p ∈ x.2,
    (st.cts[p]?).map (fun c => (c.da, c.level)) = some (d.id, x.1)
  once : (da_walk d).Nodup
  active : (d.trees[0]?).map List.length = some 1
  order : (da_walk d).Chain' (fun p q => seq_of st q ≤ seq_of st p)

/-- What a READ delivers to its callback when the lookups in the trees `walk`, in
this order, complete as `castle_btree_find` says: the result of the first lookup
that has an error or a valid block, and `INVAL_DISK_BLK` without error if there
is none. -/
def first_answer (castle_btree_find : Nat → Int × c_disk_blk_t) :
    List Nat → Int × c_disk_blk_t
  | [] => (0, INVAL_DISK_BLK)
  | p :: rest =>
    if DISK_BLK_INVAL (castle_btree_find p).2 && (castle_btree_find p).1 == 0 then
      first_answer castle_btree_find rest
    else castle_btree_find p

/-- A lookup that fails in the tree at pointer 2 and finds block `(1, 7)` in the
other trees. -/
def failing_find (p : Nat) : Int × c_disk_blk_t :=
  if p = 2 then (-5, INVAL_DISK_BLK) else (0, (1, 7))

/-- A lookup that finds nothing in the tree at pointer 2 and fails in the other
trees. -/
def late_failing_find (p : Nat) : Int × c_disk_blk_t :=
  if p = 2 then (0, INVAL_DISK_BLK) else (-5, INVAL_DISK_BLK)

/-- The doubling array of the state `da_made2`: the tree at pointer 2 at level 0,
the tree at pointer 1 at level 1. -/
def da_two_levels : castle_double_array :=
  { id := 1, root_version := 0, mstore_key := 2 ^ 32 - 1,
    trees := [2] :: [1] :: List.replicate 8 [] }

/-! ## Definitions: Routing soundness -/

/-- The entry `e` = (version, block) of a tree is visible to the version `V`: its
version passes the ancestor test for `V`. -/
def visible (vst : Versions) (V : Nat) (e : Nat × c_disk_blk_t) : Prop :=
  castle_version_is_ancestor vst e.1 V = Res.ok true

/-- Among the entries of a tree for the key, `e` is the one whose version is the
closest ancestor of `V`: it is visible to `V`, and the version of every visible
entry is an ancestor of its version. -/
def closest_visible (vst : Versions) (V : Nat) (entries : List (Nat × c_disk_blk_t))
    (e : Nat × c_disk_blk_t) : Prop :=
  e ∈ entries ∧ visible vst V e ∧
    ∀ e1 ∈ entries, visible vst V e1 → castle_version_is_ancestor vst e1.1 e.1 = Res.ok true

/-- The forest of example E4: 1 is a child of the root 0, 2 a child of 1, 4 and 5
are children of 2, and 9 is a second child of the root. -/
def e4_edges : List (Nat × Nat) := [(0, 0), (1, 0), (2, 1), (4, 2), (5, 2), (9, 0)]

/-- The calls of `castle_version_add` behind the forest of example E4. -/
def e4_adds : List AddCall := e4_edges.map (fun a => (a.1, a.2, ((0, 0) : c_disk_blk_t), 0))

/-- The record of a tree made by `castle_da_rwct_make` in the example
environment. -/
def made_ct (seq level : Nat) : castle_component_tree :=
  { seq := seq, item_count := 0, btree_type := 1, dynamic := 1, da := 1, level := level,
    first_node := (1, seq), last_node := (1, seq), node_count := 1,
    mstore_key := 2 ^ 32 - 1 }

/-- The doubling array of example E4: the tree at pointer 3 at level 0, the trees
at the pointers 2 and 1 at level 1, newest first. -/
def da_three_levels : castle_double_array :=
  { id := 1, root_version := 0, mstore_key := 2 ^ 32 - 1,
    trees := [3] :: [2, 1] :: List.replicate 8 [] }

/-- The state after `castle_double_array_make` and two calls of
`castle_da_rwct_make`: the trees of `seq` 1, 2, 3 at the pointers 1, 2, 3. -/
def da_three : da_state :=
  { castle_next_da_id := 1, castle_next_tree_seq := 4,
    cts := da_state_init.cts ++ [made_ct 1 1, made_ct 2 1, made_ct 3 0],
    das := [da_three_levels], castle_ct_hash := [3, 2, 1], castle_da_hash := [0] }

/-- The entries of the trees of example E4 for the key: the newest tree holds
version 5, the next version 2, the oldest version 1. -/
def e4_entries (p : Nat) : List (Nat × c_disk_blk_t) :=
  if p = 3 then [(5, (7, 5))] else if p = 2 then [(2, (7, 2))] else [(1, (7, 1))]

/-- The lookup in a tree of example E4 for the version `V`. -/
def e4_find (V p : Nat) : Int × c_disk_blk_t :=
  if castle_version_is_ancestor (versions_of e4_edges)
      (if p = 3 then 5 else if p = 2 then 2 else 1) V = Res.ok true then
    (0, ((7, if p = 3 then 5 else if p = 2 then 2 else 1) : c_disk_blk_t))
  else (0, INVAL_DISK_BLK)

/-! ## Definitions: One call of `castle_ct_merged_iter_next` -/

/-- The structural state of the merged iterator between two calls: a completed
component has neither a cached entry nor entries left, a component that is not
completed has one or the other, and `non_empty_cnt` counts the components that
are not completed. -/
def iter_ready (iter : c_merged_iter_t) : Prop := IInv (fun _ _ => True) iter

/-- The merged iterator right after `castle_ct_merged_iter_init` over the two
streams of example E3. -/
def e3_iter : c_merged_iter_t :=
  { nr_iters := 2, err := 0, non_empty_cnt := 2, iterators := e3_streams.map init_comp }

/-! ## Definitions: The payload returned by `castle_version_snap_get` -/

/-- The function `castle_version_snap_get`.  The two output pointers are given
by the contents of the locations they point to, `none` for a `NULL` pointer; the
result is the return value and the contents of the two locations afterwards. -/
def castle_version_snap_get (st : Versions) (version : Nat) (ftree_root : Option c_disk_blk_t)
    (size : Option Nat) : Int × Option c_disk_blk_t × Option Nat :=
  match castle_versions_hash_get st version with
  | some v =>
    (0, ftree_root.map (fun _ => (st.mem v).ftree_root), size.map (fun _ => (st.mem v).size))
  | none => (EINVAL_neg, ftree_root, size)

/-- The part of the state `castle_version_snap_get` reads is the same in two
states: the hash chains and, of every record, the version, the root block and
the size. -/
def same_payload (st st1 : Versions) : Prop :=
  st1.hash = st.hash ∧ ∀ p, (st1.mem p).version = (st.mem p).version ∧
    (st1.mem p).ftree_root = (st.mem p).ftree_root ∧ (st1.mem p).size = (st.mem p).size

/-- Four add calls with payloads: the tree 0->1, 0->3, 1->2. -/
def snap_adds : List AddCall :=
  [(0, 0, (1, 10), 100), (1, 0, (1, 11), 101), (2, 1, (1, 12), 102), (3, 0, (2, 21), 201)]

/-! ## Definitions: A cycle of parent links -/

/-- The records of `S` form a trap for the parenting pass: each of them waits on
the init list, is not initialised, and its parent version resolves to a record
of `S` again. -/
def parent_trap (st : Versions) (S : List Nat) : Prop :=
  ∀ p ∈ S, p ∈ st.init_list ∧ (st.mem p).inited = false ∧
    ∃ q ∈ S, castle_versions_hash_get st (st.mem p).parent_v = some q

/-- The records waiting on the init list are in the hash table and not
initialised, no record waits twice, and the parent version of every record of
the hash table that is not initialised is in the hash table. -/
structure parents_present (st : Versions) : Prop where
  nodup : st.init_list.Nodup
  waiting : ∀ p ∈ st.init_list, (∃ b, p ∈ st.hash b) ∧ (st.mem p).inited = false
  parent : ∀ p, (∃ b, p ∈ st.hash b) → (st.mem p).inited = false →
    ∃ q, castle_versions_hash_get st (st.mem p).parent_v = some q

/-- The versions `cyc` form a cycle of parent links among the add calls: none of
them is version 0 and the parent of each is one of them. -/
def parent_cycle (adds : List AddCall) (cyc : List Nat) : Prop :=
  cyc ≠ [] ∧ ∀ v ∈ cyc, v ≠ 0 ∧ ∃ p ∈ cyc, parent_id adds v = some p

/-- Version 0 and the versions 1 and 2, each the parent of the other. -/
def cycle_adds : List AddCall :=
  [(0, 0, (0, 0), 0), (1, 2, (0, 0), 0), (2, 1, (0, 0), 0)]

/-! ## Definitions: The four cases of `castle_da_entry_add` -/

/-- A level whose node holds the listed slots, with the cut given. -/
def level_with (slots : List btree_slot) (last_key : Nat) (valid_end_idx : Int)
    (valid_version : Nat) : castle_da_merge_level :=
  { node_c2b := some ((1, 1), { version := 0, is_leaf := true, slots := slots }),
    last_key := some last_key, next_idx := (slots.length : Int), valid_end_idx := valid_end_idx,
    valid_version := valid_version,
    buffer := castle_da_node_buffer_init { version := 0, is_leaf := false, slots := [] } }

/-- A merge of two levels whose leaf level is given. -/
def merge_with (level : castle_da_merge_level) : struct_castle_da_merge :=
  { levels := [level, init_level], next_blk := 2, written := [] }

/-! ## Definitions: The iterators of a merge -/

/-- The fields of `struct castle_da_merge` that `castle_da_iterators_create`
works on; a `NULL` pointer is `none`. -/
structure merge_iters where
  in_tree1 : Option castle_component_tree
  in_tree2 : Option castle_component_tree
  iter1 : Option c_modlist_iter_t
  iter2 : Option c_modlist_iter_t
  merged_iter : Option c_merged_iter_t
  deriving Repr, DecidableEq

/-- What the surroundings decide for one call of `castle_da_iterators_create`:
the outcomes of the `kmalloc` calls (the two iterators, the merged iterator, its
array of components) and `castle_ct_modlist_iter_init` on a tree. -/
structure iter_env where
  kmalloc_iter1 : Bool
  kmalloc_iter2 : Bool
  kmalloc_merged : Bool
  kmalloc_iterators : Bool
  modlist_iter_init : castle_component_tree → Res c_modlist_iter_t

/-- The function `castle_da_iterator_destroy`: behind the `NULL` check both
branches are `BUG()`. -/
def castle_da_iterator_destroy (tree : castle_component_tree) (iter : Option c_modlist_iter_t) :
    Res Unit :=
  match iter with
  | none => Res.ok ()
  | some _ => if tree.dynamic ≠ 0 then Res.bug else Res.bug

/-- The function `castle_da_iterator_create`; `iter_p` is the content of
`*iter_p` before the call, the result its content afterwards. -/
def castle_da_iterator_create (kmalloc : Bool)
    (modlist_iter_init : castle_component_tree → Res c_modlist_iter_t)
    (tree : castle_component_tree) (iter_p : Option c_modlist_iter_t) :
    Res (Option c_modlist_iter_t) :=
  if tree.dynamic ≠ 0 then
    if !kmalloc then Res.ok iter_p
    else
      match modlist_iter_init tree with
      | Res.ok iter =>
        if iter.err ≠ 0 then
          match castle_da_iterator_destroy tree (some iter) with
          | Res.ok _ => Res.ok iter_p
          | Res.bug => Res.bug
          | Res.timeout => Res.timeout
        else Res.ok (some iter)
      | Res.bug => Res.bug
      | Res.timeout => Res.timeout
  else Res.bug

/-- The entries a modlist iterator still hands out: the component iterator
behind `castle_ct_modlist_iter_has_next` and `castle_ct_modlist_iter_next`. -/
def modlist_stream (iter : c_modlist_iter_t) : List kv_entry :=
  if iter.err ≠ 0 then []
  else ((iter.sort_idx.drop iter.next_item).take (iter.nr_items - iter.next_item)).map
    (fun p => entry_of_opt (slot_at iter.node_buffer p))

/-- The exit `err_out` of `castle_da_iterators_create`. -/
def castle_da_iterators_create_err_out (merge : merge_iters) (ret : Int) :
    Res (merge_iters × Int) :=
  match merge.in_tree1, merge.in_tree2 with
  | some t1, some t2 =>
    match castle_da_iterator_destroy t1 merge.iter1 with
    | Res.ok _ =>
      match castle_da_iterator_destroy t2 merge.iter2 with
      | Res.ok _ => if ret = 0 then Res.bug else Res.ok (merge, ret)
      | Res.bug => Res.bug
      | Res.timeout => Res.timeout
    | Res.bug => Res.bug
    | Res.timeout => Res.timeout
  | _, _ => Res.bug

/-- The function `castle_da_iterators_create`; the result is the record
afterwards and the return value. -/
def castle_da_iterators_create (env : iter_env) (merge : merge_iters) :
    Res (merge_iters × Int) :=
  if merge.iter1.isSome || merge.iter2.isSome then Res.bug
  else
    match merge.in_tree1, merge.in_tree2 with
    | some t1, some t2 =>
      match castle_da_iterator_create env.kmalloc_iter1 env.modlist_iter_init t1 merge.iter1 with
      | Res.ok i1 =>
        match castle_da_iterator_create env.kmalloc_iter2 env.modlist_iter_init t2
            merge.iter2 with
        | Res.ok i2 =>
          let merge1 : merge_iters := { merge with iter1 := i1, iter2 := i2 }
          match i1, i2 with
          | some it1, some it2 =>
            if !env.kmalloc_merged then castle_da_iterators_create_err_out merge1 ENOMEM_neg
            else
              let inited : Res c_merged_iter_t :=
                if !env.kmalloc_iterators then
                  Res.ok { nr_iters := 2, err := ENOMEM_neg, non_empty_cnt := 0, iterators := [] }
                else castle_ct_merged_iter_init 2 [modlist_stream it1, modlist_stream it2]
              match inited with
              | Res.ok mi =>
                let merge2 : merge_iters := { merge1 with merged_iter := some mi }
                if mi.err ≠ 0 then castle_da_iterators_create_err_out merge2 mi.err
                else Res.ok (merge2, 0)
              | Res.bug => Res.bug
              | Res.timeout => Res.timeout
          | _, _ => castle_da_iterators_create_err_out merge1 EINVAL_neg
        | Res.bug => Res.bug
        | Res.timeout => Res.timeout
      | Res.bug => Res.bug
      | Res.timeout => Res.timeout
    | _, _ => Res.bug

/-- A component tree with the given `dynamic` flag. -/
def tree_with (seq dynamic : Nat) : castle_component_tree :=
  { seq := seq, item_count := 4, btree_type := 0, dynamic := dynamic, da := 1, level := 1,
    first_node := (1, seq), last_node := (1, seq), node_count := 1, mstore_key := 0 }

/-- The record `castle_da_merge` sets up for two input trees. -/
def merge_of (t1 t2 : castle_component_tree) : merge_iters :=
  { in_tree1 := some t1, in_tree2 := some t2, iter1 := none, iter2 := none,
    merged_iter := none }

/-- Surroundings in which every allocation succeeds and the modlist iterator of
every tree is the one of example E2. -/
def iter_env_ok : iter_env :=
  { kmalloc_iter1 := true, kmalloc_iter2 := true, kmalloc_merged := true,
    kmalloc_iterators := true, modlist_iter_init := fun _ => Res.ok e2_iter }

/-! ## Definitions: `list_sort` on the links of a circular list -/

/-- The `struct list_head` records in memory: the fields `next` and `prev` of
the record at every address. -/
structure list_heads where
  next : Nat → Nat
  prev : Nat → Nat

/-- The assignment `p->next = v`. -/
def set_next (h : list_heads) (p v : Nat) : list_heads :=
  { h with next := fun q => if q = p then v else h.next q }

/-- The assignment `p->prev = v`. -/
def set_prev (h : list_heads) (p v : Nat) : list_heads :=
  { h with prev := fun q => if q = p then v else h.prev q }

/-- The function `__list_swap`. -/
def __list_swap (h : list_heads) (p t1 t2 n : Nat) : list_heads :=
  let h1 := set_next h p t2
  let h2 := set_prev h1 t2 p
  let h3 := set_next h2 t2 t1
  let h4 := set_prev h3 t1 t2
  let h5 := set_next h4 t1 n
  set_prev h5 n t1

/-- The function `list_swap`. -/
def list_swap (h : list_heads) (t1 t2 : Nat) : list_heads :=
  __list_swap h (h.prev t1) t1 t2 (h.next t2)

/-- The first loop of `list_sort`, which counts the records between
`list->next` and `list`; every turn uses one unit of `fuel`. -/
def list_sort_length (h : list_heads) (list : Nat) : Nat → Nat → Nat → Res Nat
  | 0, _, _ => Res.timeout
  | fuel + 1, t1, length =>
    if t1 = list then Res.ok length
    else list_sort_length h list fuel (h.next t1) (length + 1)

/-- The inner loop `for(j=length; j>i+1; j--)` of `list_sort`, from the value
`j` on. -/
def list_sort_bubble (compare : Nat → Nat → Int) (i : Nat) :
    Nat → list_heads → Nat → list_heads
  | 0, h, _ => h
  | j + 1, h, t1 =>
    if j + 1 > i + 1 then
      let t2 := h.next t1
      if compare t1 t2 > 0 then list_sort_bubble compare i j (list_swap h t1 t2) t1
      else list_sort_bubble compare i j h t2
    else h

/-- The outer loop `for(i=0; i<length-1; i++)` of `list_sort`, from the value
`i` on, with `todo` values of `i` to go. -/
def list_sort_passes (compare : Nat → Nat → Int) (list length : Nat) :
    Nat → Nat → list_heads → list_heads
  | 0, _, h => h
  | todo + 1, i, h =>
    list_sort_passes compare list length todo (i + 1)
      (list_sort_bubble compare i length h (h.next list))

/-- The function `list_sort` of `castle_utils.c` on the links in memory; `fuel`
bounds the turns of the loop that counts the length. -/
def list_sort_links (compare : Nat → Nat → Int) (fuel : Nat) (h : list_heads) (list : Nat) :
    Res list_heads :=
  match list_sort_length h list fuel (h.next list) 0 with
  | Res.ok length =>
    if length ≤ 1 then Res.ok h
    else Res.ok (list_sort_passes compare list length (length - 1) 0 h)
  | Res.bug => Res.bug
  | Res.timeout => Res.timeout

/-- The records `a` and `b` are linked: `a->next == b` and `b->prev == a`. -/
def linked (h : list_heads) (a b : Nat) : Prop := h.next a = b ∧ h.prev b = a

instance (h : list_heads) (a b : Nat) : Decidable (linked h a b) := by
  unfold linked; infer_instance

/-- The memory holds a well-formed circular list with the head `list` and the
records `l` behind it, in this order: the addresses are distinct and each
record is linked to the next one, the last one to the head. -/
def is_ring (h : list_heads) (list : Nat) (l : List Nat) : Prop :=
  (list :: l).Nodup ∧ List.Chain' (linked h) (list :: (l ++ [list]))

/-- The check that `a` is linked to the first record of `L` and every record of
`L` to the next one. -/
def links_check (h : list_heads) : Nat → List Nat → Bool
  | _, [] => true
  | a, b :: L => decide (h.next a = b) && decide (h.prev b = a) && links_check h b L

/-- The check that no address occurs twice. -/
def nodup_check : List Nat → Bool
  | [] => true
  | a :: l => !l.contains a && nodup_check l

/-- The check of `is_ring`. -/
def ring_check (h : list_heads) (list : Nat) (l : List Nat) : Bool :=
  nodup_check (list :: l) && links_check h list (l ++ [list])

/-- The links of a circular list with the head `list` and the records `l`,
written over the memory `h`. -/
def ring_of (h : list_heads) (list : Nat) (l : List Nat) : list_heads :=
  let cyc := list :: (l ++ [list])
  (cyc.zip cyc.tail).foldl (fun m p => set_prev (set_next m p.1 p.2) p.2 p.1) h

/-- The result of a run is a memory that holds the circular list `l` at the
head `list`. -/
def ring_after (r : Res list_heads) (list : Nat) (l : List Nat) : Bool :=
  match r with
  | Res.ok h => ring_check h list l
  | _ => false

/-- A memory in which every record points to itself. -/
def self_linked : list_heads := { next := fun q => q, prev := fun q => q }

/-- The comparison of two addresses by their difference. -/
def addr_cmp (a b : Nat) : Int := (a : Int) - (b : Int)

/-- A comparator without failures, as the list model of `list_sort` takes it. -/
def pure_cmp (compare : Nat → Nat → Int) : Nat → Nat → Res Int :=
  fun a b => Res.ok (compare a b)

/-! ## Definitions: Writing trees and doubling arrays back to the stores -/

/-- One call made to a store of records: `castle_mstore_entry_insert` with an
entry, or `castle_mstore_entry_update` with a key and an entry. -/
inductive mstore_call (α : Type) where
  | insert (entry : α)
  | update (key : Nat) (entry : α)
  deriving Repr, DecidableEq

/-- What the write-back code takes from the store module, which is not in the
sources: the macro `MSTORE_KEY_INVAL`, and the key that
`castle_mstore_entry_insert` returns, given the calls the store has seen so far
and the entry. -/
structure mstore_env where
  MSTORE_KEY_INVAL : Nat → Bool
  tree_insert_key : List (mstore_call castle_clist_entry) → castle_clist_entry → Nat
  da_insert_key : List (mstore_call castle_dlist_entry) → castle_dlist_entry → Nat

/-- The state of `castle_da.c` together with the calls the two stores
`castle_tree_store` and `castle_da_store` have received, oldest first. -/
structure wb_state where
  st : da_state
  castle_tree_store : List (mstore_call castle_clist_entry)
  castle_da_store : List (mstore_call castle_dlist_entry)
  deriving Repr, DecidableEq

/-- The function `castle_da_tree_writeback` for the tree at the pointer `ct`:
the state afterwards and the return value. -/
def castle_da_tree_writeback (env : mstore_env) (s : wb_state) (ct : Nat) :
    Res (wb_state × Int) :=
  match s.st.cts[ct]? with
  | none => Res.bug
  | some c =>
    let mstore_entry := (castle_da_ct_marshall c).1
    let key := (castle_da_ct_marshall c).2
    if env.MSTORE_KEY_INVAL key then
      let k := env.tree_insert_key s.castle_tree_store mstore_entry
      Res.ok ({ s with
        st := { s.st with cts := s.st.cts.set ct { c with mstore_key := k } }
        castle_tree_store := s.castle_tree_store ++ [mstore_call.insert mstore_entry] }, 0)
    else
      Res.ok ({ s with
        castle_tree_store := s.castle_tree_store ++ [mstore_call.update key mstore_entry] }, 0)

/-- The function `castle_da_foreach_tree` with `castle_da_tree_writeback` as
`fn`, over the trees of the levels from the first level on; it stops when
`fn` returns a value other than 0. -/
def castle_da_foreach_tree_writeback (env : mstore_env) :
    List Nat → wb_state → Res wb_state
  | [], s => Res.ok s
  | ct :: rest, s =>
    match castle_da_tree_writeback env s ct with
    | Res.ok (s1, ret) =>
      if ret ≠ 0 then Res.ok s1 else castle_da_foreach_tree_writeback env rest s1
    | Res.bug => Res.bug
    | Res.timeout => Res.timeout

/-- The function `castle_da_writeback` for the doubling array at the pointer
`da`: the state afterwards and the return value. -/
def castle_da_writeback (env : mstore_env) (s : wb_state) (da : Nat) : Res (wb_state × Int) :=
  match s.st.das[da]? with
  | none => Res.bug
  | some d =>
    let mstore_dentry := (castle_da_marshall d).1
    let key := (castle_da_marshall d).2
    match castle_da_foreach_tree_writeback env d.trees.flatten s with
    | Res.ok s1 =>
      match s1.st.das[da]? with
      | none => Res.bug
      | some d1 =>
        if env.MSTORE_KEY_INVAL key then
          let k := env.da_insert_key s1.castle_da_store mstore_dentry
          Res.ok ({ s1 with
            st := { s1.st with das := s1.st.das.set da { d1 with mstore_key := k } }
            castle_da_store := s1.castle_da_store ++ [mstore_call.insert mstore_dentry] }, 0)
        else
          Res.ok ({ s1 with
            castle_da_store := s1.castle_da_store ++ [mstore_call.update key mstore_dentry] },
            0)
    | Res.bug => Res.bug
    | Res.timeout => Res.timeout

/-- A tree record with an invalid store key, a store that hands out the keys
10, 11, ... and takes every key from `2^32 - 1` on as invalid. -/
def wb_env : mstore_env :=
  { MSTORE_KEY_INVAL := fun k => decide (2 ^ 32 - 1 ≤ k),
    tree_insert_key := fun calls _ => 10 + calls.length,
    da_insert_key := fun calls _ => 10 + calls.length }

/-- The state after `castle_double_array_make` has made one doubling array, with
both stores untouched. -/
def wb_start : wb_state :=
  { st := da_made, castle_tree_store := [], castle_da_store := [] }

/-- The tree record with the store key `k` cached. -/
def tree_keyed (c : castle_component_tree) (k : Nat) : castle_component_tree :=
  { c with mstore_key := k }

/-- The record of a doubling array with the store key `k` cached. -/
def da_keyed (d : castle_double_array) (k : Nat) : castle_double_array :=
  { d with mstore_key := k }

/-- The state with the store key `k` cached in the tree at the pointer `ct`. -/
def with_tree_key (s : wb_state) (ct : Nat) (c : castle_component_tree) (k : Nat) : wb_state :=
  { s with st := { s.st with cts := s.st.cts.set ct { c with mstore_key := k } } }

/-- The state with one more call received by `castle_tree_store`. -/
def with_tree_call (s : wb_state) (call : mstore_call castle_clist_entry) : wb_state :=
  { s with castle_tree_store := s.castle_tree_store ++ [call] }

/-- The state with the store key `k` cached in the doubling array at the pointer
`da`. -/
def with_da_key (s : wb_state) (da : Nat) (d : castle_double_array) (k : Nat) : wb_state :=
  { s with st := { s.st with das := s.st.das.set da { d with mstore_key := k } } }

/-- The state with one more call received by `castle_da_store`. -/
def with_da_call (s : wb_state) (call : mstore_call castle_dlist_entry) : wb_state :=
  { s with castle_da_store := s.castle_da_store ++ [call] }

/-- The tree `castle_double_array_make` creates in the example: `seq` 1, level
0, no store key yet. -/
def example_ct_fresh : castle_component_tree :=
  { seq := 1, item_count := 0, btree_type := 1, dynamic := 1, da := 1, level := 0,
    first_node := (1, 1), last_node := (1, 1), node_count := 1, mstore_key := 2 ^ 32 - 1 }

/-! ## Definitions: The replies of `castle_rxrpc.c` -/

/-- Result of a piece of code that indexes arrays: as `Res`, with an access
outside the declared bounds of an array (of `len` elements, at `index`) as a
further outcome. -/
inductive MemRes (α : Type) where
  | ok (a : α)
  | bug
  | timeout
  | out_of_bounds (len index : Nat)
  deriving Repr, DecidableEq

/-- The values of `call->state` the completion functions write. -/
inductive rxrpc_call_state where
  | RXRPC_CALL_REPLYING
  | RXRPC_CALL_AWAIT_ACK
  deriving Repr, DecidableEq

/-- The constants of `castle_public.h` the replies carry (the header is not in
the sources). -/
structure rxrpc_consts where
  CASTLE_OBJ_REPLY_ERROR : Nat
  CASTLE_OBJ_REPLY_GET : Nat
  CASTLE_OBJ_TOMBSTONE : Nat
  CASTLE_OBJ_VALUE : Nat

/-- The function `htonl`: a 32-bit word as its four bytes in memory, the most
significant first. -/
def htonl (x : Nat) : List Nat :=
  [x / 2 ^ 24 % 256, x / 2 ^ 16 % 256, x / 2 ^ 8 % 256, x % 256]

/-- The assignment `array[index] = word` to an array of 32-bit words. -/
def word_store (array : List (List Nat)) (index : Nat) (word : List Nat) :
    MemRes (List (List Nat)) :=
  if index < array.length then MemRes.ok (array.set index word)
  else MemRes.out_of_bounds array.length index

/-- Reading the first `len` bytes of an array of 32-bit words, as the send
functions do through `iov_base` and `iov_len`; the last byte read lies in the
word `(len - 1) / 4`. -/
def words_read (array : List (List Nat)) (len : Nat) : MemRes (List Nat) :=
  if len ≤ 4 * array.length then MemRes.ok (array.flatten.take len)
  else MemRes.out_of_bounds array.length ((len - 1) / 4)

/-- The function `castle_rxrpc_msg_send` as far as the caller sees it: the
state of the call, and the bytes handed to `rxrpc_kernel_send_data`. -/
def castle_rxrpc_msg_send (msg : List Nat) : rxrpc_call_state × List Nat :=
  (rxrpc_call_state.RXRPC_CALL_AWAIT_ACK, msg)

/-- The function `castle_rxrpc_reply_send`: `len` bytes of `buf`. -/
def castle_rxrpc_reply_send (buf : List (List Nat)) (len : Nat) :
    MemRes (rxrpc_call_state × List Nat) :=
  match words_read buf len with
  | MemRes.ok bytes => MemRes.ok (castle_rxrpc_msg_send bytes)
  | MemRes.bug => MemRes.bug
  | MemRes.timeout => MemRes.timeout
  | MemRes.out_of_bounds l i => MemRes.out_of_bounds l i

/-- The function `castle_rxrpc_double_reply_send`: `len1` bytes of `buf1`, the
`len2` bytes of `buf2`, and the padding to a multiple of four. -/
def castle_rxrpc_double_reply_send (buf1 : List (List Nat)) (len1 : Nat) (buf2 : List Nat)
    (len2 : Nat) : MemRes (rxrpc_call_state × List Nat) :=
  let pad := (4 - (len2 % 4)) % 4
  match words_read buf1 len1 with
  | MemRes.ok bytes1 =>
    MemRes.ok (castle_rxrpc_msg_send (bytes1 ++ buf2.take len2 ++ List.replicate pad 0))
  | MemRes.bug => MemRes.bug
  | MemRes.timeout => MemRes.timeout
  | MemRes.out_of_bounds l i => MemRes.out_of_bounds l i

/-- The function `castle_rxrpc_get_complete`.  `junk` is what the two words of
`uint32_t reply[2]` hold before they are written, `data` is `none` for a null
pointer; the result is the state of the call and the bytes sent. -/
def castle_rxrpc_get_complete (c : rxrpc_consts) (junk : List Nat) (err : Int)
    (data : Option (List Nat)) (length : Nat) : MemRes (rxrpc_call_state × List Nat) :=
  let reply : List (List Nat) := [junk, junk]
  if err ≠ 0 then
    match word_store reply 0 (htonl c.CASTLE_OBJ_REPLY_ERROR) with
    | MemRes.ok reply1 => castle_rxrpc_reply_send reply1 4
    | MemRes.bug => MemRes.bug
    | MemRes.timeout => MemRes.timeout
    | MemRes.out_of_bounds l i => MemRes.out_of_bounds l i
  else
    match word_store reply 0 (htonl c.CASTLE_OBJ_REPLY_GET) with
    | MemRes.ok reply1 =>
      match data with
      | none =>
        if length ≠ 0 then MemRes.bug
        else
          match word_store reply1 1 (htonl c.CASTLE_OBJ_TOMBSTONE) with
          | MemRes.ok reply2 => castle_rxrpc_reply_send reply2 8
          | MemRes.bug => MemRes.bug
          | MemRes.timeout => MemRes.timeout
          | MemRes.out_of_bounds l i => MemRes.out_of_bounds l i
      | some bytes =>
        match word_store reply1 1 (htonl c.CASTLE_OBJ_VALUE) with
        | MemRes.ok reply2 =>
          match word_store reply2 2 (htonl (length % 2 ^ 32)) with
          | MemRes.ok reply3 => castle_rxrpc_double_reply_send reply3 12 bytes length
          | MemRes.bug => MemRes.bug
          | MemRes.timeout => MemRes.timeout
          | MemRes.out_of_bounds l i => MemRes.out_of_bounds l i
        | MemRes.bug => MemRes.bug
        | MemRes.timeout => MemRes.timeout
        | MemRes.out_of_bounds l i => MemRes.out_of_bounds l i
    | MemRes.bug => MemRes.bug
    | MemRes.timeout => MemRes.timeout
    | MemRes.out_of_bounds l i => MemRes.out_of_bounds l i

/-- The cleanup loop `for(i--; i>=0; i--) kfree(key[i]);` of
`castle_rxrpc_collection_key_get` from its test on: `i` is a `uint32_t`, `freed`
lists the pointers passed to `kfree` so far.  `fuel` bounds the number of
turns. -/
def key_get_cleanup (key : List (Option Nat)) :
    Nat → Nat → List (Option Nat) → MemRes (List (Option Nat))
  | 0, i, freed => if (0 : Int) ≤ (i : Int) then MemRes.timeout else MemRes.ok freed
  | fuel + 1, i, freed =>
    if (0 : Int) ≤ (i : Int) then
      match key[i]? with
      | some p => key_get_cleanup key fuel ((i + 2 ^ 32 - 1) % 2 ^ 32) (freed ++ [p])
      | none => MemRes.out_of_bounds key.length i
    else MemRes.ok freed

/-- What a call of `castle_rxrpc_collection_key_get` leaves: the return value,
the values written through `collection_p` and `key_p` (none if not written),
and the pointers passed to `kfree`, the key array last. -/
structure key_get_result where
  ret : Int
  collection_p : Option Nat
  key_p : Option (List (Option Nat))
  freed : List (Option Nat)
  key_freed : Bool
  deriving Repr, DecidableEq

/-- The `for` loop of `castle_rxrpc_collection_key_get` over the key dimensions
from `i` on; `strs i` is what the call of `SKB_STR_GET` for dimension `i`
returns (`none` for a null pointer), `todo` counts the dimensions left. -/
def key_get_loop (fuel : Nat) (collection : Nat) (strs : Nat → Option Nat) :
    Nat → Nat → List (Option Nat) → MemRes key_get_result
  | 0, _, key =>
    MemRes.ok { ret := 0, collection_p := some collection, key_p := some key, freed := [],
                key_freed := false }
  | todo + 1, i, key =>
    if i < key.length then
      let key1 := key.set i (strs i)
      match strs i with
      | none =>
        match key_get_cleanup key1 fuel ((i + 2 ^ 32 - 1) % 2 ^ 32) [] with
        | MemRes.ok freed =>
          MemRes.ok { ret := ENOMEM_neg, collection_p := none, key_p := none, freed := freed,
                      key_freed := true }
        | MemRes.bug => MemRes.bug
        | MemRes.timeout => MemRes.timeout
        | MemRes.out_of_bounds l j => MemRes.out_of_bounds l j
      | some _ => key_get_loop fuel collection strs todo (i + 1) key1
    else MemRes.out_of_bounds key.length i

/-- The function `castle_rxrpc_collection_key_get`.  `collection` and
`nr_key_dim` are the two words `SKB_L_GET` reads, `alloc_ok` says whether
`kzalloc` returns memory; the array has `nr_key_dim + 1` elements, the sum taken
in `uint32_t`. -/
def castle_rxrpc_collection_key_get (fuel : Nat) (collection nr_key_dim : Nat)
    (alloc_ok : Bool) (strs : Nat → Option Nat) : MemRes key_get_result :=
  if !alloc_ok then
    MemRes.ok { ret := ENOMEM_neg, collection_p := none, key_p := none, freed := [],
                key_freed := false }
  else
    key_get_loop fuel collection strs nr_key_dim 0
      (List.replicate ((nr_key_dim + 1) % 2 ^ 32) none)

/-! ## Definitions: Following `castle_da_ct_next` through a doubling array -/

/-- A doubling array whose trees are linked level by level: the record at pointer
`da` is in the table under its identity, it has `MAX_DA_LEVEL` lists, every tree
linked in the list of level `i` names the doubling array and the level `i`, no
tree is linked twice, and `seq` does not increase along the lists, taken level
by level and each from the head on. -/
structure da_linked (st : da_state) (da : Nat) (d : castle_double_array) : Prop where
  record : st.das[da]? = some d
  hash : castle_da_hash_get st d.id = some da
  levels : d.trees.length = MAX_DA_LEVEL
  linked : ∀ x ∈ d.trees.enum, ∀ p ∈ x.2,
    (st.cts[p]?).map (fun c => (c.da, c.level)) = some (d.id, x.1)
  once : (da_walk d).Nodup
  order : (da_walk d).Chain' (fun p q => seq_of st q ≤ seq_of st p)

/-- Calling `castle_da_ct_next` again and again, from the tree at pointer `ct`
until it returns `NULL`: the trees visited, `ct` first.  `fuel` bounds the number
of calls. -/
def ct_next_iterate (st : da_state) : Nat → Nat → Res (List Nat)
  | 0, _ => Res.timeout
  | fuel + 1, ct =>
    match castle_da_ct_next st ct with
    | Res.ok none => Res.ok [ct]
    | Res.ok (some next_ct) =>
      match ct_next_iterate st fuel next_ct with
      | Res.ok l => Res.ok (ct :: l)
      | Res.bug => Res.bug
      | Res.timeout => Res.timeout
    | Res.bug => Res.bug
    | Res.timeout => Res.timeout

/-! ## Definitions: The states of a merge -/

/-- The loop of `castle_da_merge` for the entries of a list, as the merged
iterator would hand them out: `castle_da_entry_add` at depth 0, then
`castle_da_nodes_complete`. -/
def merge_feed (btree : castle_btree_type) (st : Versions) :
    List kv_entry → struct_castle_da_merge → Res struct_castle_da_merge
  | [], merge => Res.ok merge
  | e :: rest, merge =>
    match castle_da_entry_add btree st merge 0 e.k e.v e.cdb with
    | Res.ok merge1 =>
      match castle_da_nodes_complete btree st merge1 0 false with
      | Res.ok merge2 => merge_feed btree st rest merge2
      | Res.bug => Res.bug
      | Res.timeout => Res.timeout
    | Res.bug => Res.bug
    | Res.timeout => Res.timeout

/-- The assignment `level->next_idx = -1` of `castle_da_merge_complete` on the
level at depth `i`. -/
def forced (merge : struct_castle_da_merge) (i : Nat) (level : castle_da_merge_level) :
    struct_castle_da_merge :=
  { merge with levels := merge.levels.set i { level with next_idx := -1 } }

/-- The states a merge can be in: the state after the initialisation loop of
`castle_da_merge`, and every state that a returning call of
`castle_da_entry_add` or of `castle_da_nodes_complete`, or the forcing of a level
with `next_idx > 0` by `castle_da_merge_complete`, makes of such a state. -/
inductive Reached (btree : castle_btree_type) (st : Versions) (max_btree_depth : Nat) :
    struct_castle_da_merge → Prop where
  | init : Reached btree st max_btree_depth (castle_da_merge_init max_btree_depth)
  | add (merge merge1 : struct_castle_da_merge) (depth key version : Nat) (cdb : c_disk_blk_t) :
      Reached btree st max_btree_depth merge →
      castle_da_entry_add btree st merge depth key version cdb = Res.ok merge1 →
      Reached btree st max_btree_depth merge1
  | complete (merge merge1 : struct_castle_da_merge) (depth : Nat) (end_ : Bool) :
      Reached btree st max_btree_depth merge →
      castle_da_nodes_complete btree st merge depth end_ = Res.ok merge1 →
      Reached btree st max_btree_depth merge1
  | force (merge : struct_castle_da_merge) (i : Nat) (level : castle_da_merge_level) :
      Reached btree st max_btree_depth merge →
      merge.levels[i]? = some level → 0 < level.next_idx →
      Reached btree st max_btree_depth (forced merge i level)

/-- A stream of the keys 1, 2, 3 under version 1. -/
def three_keys : List kv_entry :=
  [{ k := 1, v := 1, cdb := (9, 1) }, { k := 2, v := 1, cdb := (9, 2) },
   { k := 3, v := 1, cdb := (9, 3) }]

/-- A level that is filling the node at block `blk`. -/
def level_at (blk : c_disk_blk_t) (slots : List btree_slot) (last_key : Nat)
    (next_idx valid_end_idx : Int) (valid_version : Nat) : castle_da_merge_level :=
  { node_c2b := some (blk, { version := 0, is_leaf := true, slots := slots }),
    last_key := some last_key, next_idx := next_idx, valid_end_idx := valid_end_idx,
    valid_version := valid_version,
    buffer := castle_da_node_buffer_init { version := 0, is_leaf := false, slots := [] } }

/-- The merge after the keys 1, 2, 3 were fed to it, with nodes of two slots and
two levels: the leaf `[1, 2]` is written, the leaf level holds `[3]` and depth 1
the pivot of the written leaf. -/
def three_fed : struct_castle_da_merge :=
  { levels := [level_at (1, 3) [merge_slot 3 1 (9, 3)] 3 1 0 1,
               level_at (1, 2) [merge_slot 2 0 (1, 1)] 2 1 0 0],
    next_blk := 4,
    written := [(0, (1, 1), { version := 0, is_leaf := true,
                              slots := [merge_slot 1 1 (9, 1), merge_slot 2 1 (9, 2)] })] }

/-- The merge `three_fed` after the flush has completed the leaf `[3]`: the node
at depth 1 holds two pivots and is full. -/
def three_top : struct_castle_da_merge :=
  { levels := [init_level,
               level_at (1, 2) [merge_slot 2 0 (1, 1), merge_slot 3 1 (1, 3)] 3 (-1) 1 0],
    next_blk := 4,
    written := three_fed.written ++
      [(0, (1, 3), { version := 1, is_leaf := true, slots := [merge_slot 3 1 (9, 3)] })] }

/-- The merge after the keys 1, 2, 3 were fed to it, with nodes of two slots and
four levels. -/
def three_fed_deep : struct_castle_da_merge :=
  { three_fed with levels := three_fed.levels ++ [init_level, init_level] }

/-- The three versions of key 5 of the streams `star_stream1` and `star_stream2`,
in merged order. -/
def star_merged : List kv_entry :=
  [{ k := 5, v := 3, cdb := (7, 1) }, { k := 5, v := 2, cdb := (7, 3) },
   { k := 5, v := 1, cdb := (7, 2) }]

/-- The state of the merge after the entries of `star_merged` were fed to it,
with nodes of three slots and `max_btree_depth` levels. -/
def star_fed (max_btree_depth : Nat) : struct_castle_da_merge :=
  match merge_feed (nat_btree 3) star_versions star_merged
      (castle_da_merge_init max_btree_depth) with
  | Res.ok merge => merge
  | _ => castle_da_merge_init max_btree_depth

/-! ## Definitions: Re-adding the buffers after a cascade -/

/-- A level whose node fits the capacity `cap` at which `need_split` fires: the
node holds at most `cap` slots (one slot when `cap` is 0), and fewer than `cap`
slots, or none, while `next_idx` is not negative. -/
def FitsL (cap : Nat) (level : castle_da_merge_level) : Prop :=
  ((node_slots level).length ≤ cap ∨ (node_slots level).length ≤ 1) ∧
  (0 ≤ level.next_idx → (node_slots level).length < cap ∨ (node_slots level).length = 0)

/-- Every level fits the capacity `cap`. -/
def Fits (cap : Nat) (merge : struct_castle_da_merge) : Prop :=
  ∀ (j : Nat) (level : castle_da_merge_level), merge.levels[j]? = some level → FitsL cap level

/-- The merge with nodes of three slots and two levels while its leaf level
fills the first node with the entries of `star_merged`. -/
def star_filling (slots : List btree_slot) (next_idx : Int) : struct_castle_da_merge :=
  { levels := [level_at (1, 1) slots 5 next_idx 0 3, init_level], next_blk := 2, written := [] }

/-- The merge after the third entry of `star_merged` was added: the leaf is
full, its cut is behind the first slot. -/
def star_full : struct_castle_da_merge :=
  star_filling [merge_slot 5 3 (7, 1), merge_slot 5 2 (7, 3), merge_slot 5 1 (7, 2)] (-1)

/-- The merge `star_full` after the first loop of `castle_da_nodes_complete`:
the leaf is written with one slot, the two slots behind the cut are in the
buffer of the leaf level, and depth 1 holds the pivot. -/
def star_up : struct_castle_da_merge :=
  { levels := [{ init_level with
                 buffer := { version := 0, is_leaf := true,
                             slots := [merge_slot 5 2 (7, 3), merge_slot 5 1 (7, 2)] } },
               level_at (1, 2) [merge_slot 5 3 (1, 1)] 5 1 0 3],
    next_blk := 3,
    written := [(0, (1, 1), { version := 3, is_leaf := true,
                              slots := [merge_slot 5 3 (7, 1)] })] }

/-- The merge `star_up` after the loop at `fill_buffers`: the two buffered
entries are in a new leaf at block 3. -/
def star_down : struct_castle_da_merge :=
  { star_up with
    levels := [level_at (1, 3) [merge_slot 5 2 (7, 3), merge_slot 5 1 (7, 2)] 5 2 0 2,
               level_at (1, 2) [merge_slot 5 3 (1, 1)] 5 1 0 3],
    next_blk := 4 }

/-- The entries behind the cut of a level carry the key `last_key`, and the
entries of its buffer carry one key. -/
def KeyTail (btree : castle_btree_type) (level : castle_da_merge_level) : Prop :=
  (level.node_c2b ≠ none → ∃ lk, level.last_key = some lk ∧
    ∀ s ∈ (node_slots level).drop (level.valid_end_idx.toNat + 1),
      btree.key_compare s.key lk = 0) ∧
  (∃ k0, ∀ s ∈ level.buffer.slots, btree.key_compare s.key k0 = 0)

/-- Every level of the merge satisfies `KeyTail`. -/
def TailAll (btree : castle_btree_type) (merge : struct_castle_da_merge) : Prop :=
  ∀ (j : Nat) (level : castle_da_merge_level), merge.levels[j]? = some level →
    KeyTail btree level

/-- The buffered entries of a level can be re-added: they have pairwise distinct
versions, and the ancestor test returns on every two of them. -/
def BufferDistinct (st : Versions) (level : castle_da_merge_level) : Prop :=
  (level.buffer.slots.map (fun s => s.version)).Nodup ∧
  ∀ s ∈ level.buffer.slots, ∀ t ∈ level.buffer.slots,
    ∃ b, castle_version_is_ancestor st s.version t.version = Res.ok b

/-! ## The state after the `castle_version_add` calls -/

theorem add_all_append (l : List AddCall) (a : AddCall) :
    add_all (l ++ [a]) = castle_version_add (add_all l) a.1 a.2.1 a.2.2.1 a.2.2.2 := by
  simp [add_all, List.foldl_append]

theorem getElem?_snoc {α : Type} (l : List α) (a x : α) (i : Nat) :
    (l ++ [a])[i]? = some x ↔ l[i]? = some x ∨ (i = l.length ∧ x = a) := by
  rcases Nat.lt_trichotomy i l.length with h | h | h
  · rw [List.getElem?_append_left h]
    constructor
    · intro h1; exact Or.inl h1
    · rintro (h1 | ⟨h1, _⟩)
      · exact h1
      · omega
  · subst h
    rw [List.getElem?_concat_length]
    constructor
    · intro h1; right; exact ⟨rfl, (Option.some.inj h1).symm⟩
    · rintro (h1 | ⟨_, h1⟩)
      · rw [List.getElem?_eq_none (Nat.le_refl _)] at h1; cases h1
      · rw [h1]
  · have h1 : (l ++ [a])[i]? = none := by
      apply List.getElem?_eq_none; simp; omega
    have h2 : l[i]? = none := List.getElem?_eq_none (by omega)
    rw [h1, h2]
    constructor
    · intro h3; cases h3
    · rintro (h3 | ⟨h3, _⟩)
      · cases h3
      · omega

theorem addInv_add_all (l : List AddCall) : AddInv l (add_all l) := by
  induction l using List.reverseRecOn with
  | nil =>
    exact ⟨rfl, by intro i a h; simp at h, by intro b p; simp [add_all, castle_versions_init],
      by intro p; simp [add_all, castle_versions_init], by simp [add_all, castle_versions_init]⟩
  | append_singleton l a ih =>
    rw [add_all_append]
    obtain ⟨h1, h2, h3, h4, h5⟩ := ih
    have hold : ∀ i, i < l.length → ∀ x, l[i]? = some x → i ≠ (add_all l).nr := by
      intro i hi x _; omega
    by_cases hv : a.1 = 0
    · refine ⟨?_, ?_, ?_, ?_, ?_⟩
      · simp [castle_version_add, hv, castle_versions_hash_add, h1]
      · intro i x hx
        rw [getElem?_snoc] at hx
        rcases hx with hx | ⟨hi, hx⟩
        · have hi : i < l.length := (List.getElem?_eq_some.1 hx).1
          have : i ≠ (add_all l).nr := by omega
          simp [castle_version_add, hv, castle_versions_hash_add, setRec, this, h2 i x hx]
        · subst hx; subst hi
          simp [castle_version_add, hv, castle_versions_hash_add, setRec, h1, record0]
      · intro b p
        simp only [castle_version_add, hv, castle_versions_hash_add, setRec, if_true, h1,
          List.length_append, List.length_singleton]
        by_cases hp : p = l.length
        · subst hp
          by_cases hb : b = castle_versions_hash_idx 0
          · simp [hb, hv]
          · have := h3 b l.length
            simp [hb, hv, this]
            intro h; exact hb h.symm
        · have := h3 b p
          by_cases hb : b = castle_versions_hash_idx 0
          · simp [hb, hp, hv] at this ⊢
            rw [this]; constructor
            · rintro ⟨ha, hb⟩; exact ⟨by omega, hb⟩
            · rintro ⟨ha, hb⟩; exact ⟨by omega, hb⟩
          · simp [hb, hp, hv] at this ⊢
            rw [this]; constructor
            · rintro ⟨ha, hb⟩; exact ⟨by omega, hb⟩
            · rintro ⟨ha, hb⟩; exact ⟨by omega, hb⟩
      · intro p
        simp only [castle_version_add, hv, castle_versions_hash_add, setRec, if_true, h1,
          List.length_append, List.length_singleton]
        by_cases hp : p = l.length
        · subst hp
          have := h4 l.length
          simp [this]
        · have := h4 p
          simp [hp, this]; intro _; omega
      · simpa [castle_version_add, hv, castle_versions_hash_add] using h5
    · refine ⟨?_, ?_, ?_, ?_, ?_⟩
      · simp [castle_version_add, hv, castle_versions_hash_add, castle_versions_init_add, h1]
      · intro i x hx
        rw [getElem?_snoc] at hx
        rcases hx with hx | ⟨hi, hx⟩
        · have hi : i < l.length := (List.getElem?_eq_some.1 hx).1
          have : i ≠ (add_all l).nr := by omega
          simp [castle_version_add, hv, castle_versions_hash_add, castle_versions_init_add,
            setRec, this, h2 i x hx]
        · subst hx; subst hi
          simp [castle_version_add, hv, castle_versions_hash_add, castle_versions_init_add,
            setRec, h1, record0]
      · intro b p
        simp only [castle_version_add, hv, castle_versions_hash_add, castle_versions_init_add,
          setRec, if_false, if_true, h1, List.length_append, List.length_singleton]
        by_cases hp : p = l.length
        · subst hp
          by_cases hb : b = castle_versions_hash_idx a.1
          · simp [hb]
          · have := h3 b l.length
            simp [hb, this]
            intro h; exact hb h.symm
        · have := h3 b p
          by_cases hb : b = castle_versions_hash_idx a.1
          · simp [hb, hp] at this ⊢
            rw [this]; constructor
            · rintro ⟨ha, hb⟩; exact ⟨by omega, hb⟩
            · rintro ⟨ha, hb⟩; exact ⟨by omega, hb⟩
          · simp [hb, hp] at this ⊢
            rw [this]; constructor
            · rintro ⟨ha, hb⟩; exact ⟨by omega, hb⟩
            · rintro ⟨ha, hb⟩; exact ⟨by omega, hb⟩
      · intro p
        simp only [castle_version_add, hv, castle_versions_hash_add, castle_versions_init_add,
          setRec, if_false, if_true, h1, List.length_append, List.length_singleton]
        by_cases hp : p = l.length
        · subst hp
          simp [hv]
        · have := h4 p
          simp [hp, this]; intro _; omega
      · simp only [castle_version_add, hv, castle_versions_hash_add, castle_versions_init_add,
          if_false, h1]
        refine List.nodup_cons.2 ⟨?_, h5⟩
        intro hmem
        have := (h4 l.length).1 hmem
        omega

theorem frame_add_all (adds : List AddCall) : Frame adds (add_all adds) := by
  have h := addInv_add_all adds
  refine ⟨h.nr_eq, ?_, h.hash_mem⟩
  intro i a hi
  rw [h.recs i a hi]
  simp [record0]

theorem ids_index_unique {adds : List AddCall} (hnd : (ids adds).Nodup) {i j : Nat}
    {a b : AddCall} (hi : adds[i]? = some a) (hj : adds[j]? = some b) (hab : a.1 = b.1) :
    i = j := by
  have h1 : (ids adds)[i]? = some a.1 := by simp [ids, hi]
  have h2 : (ids adds)[j]? = some a.1 := by simp [ids, hj, hab]
  exact List.getElem?_inj (by
    have := (List.getElem?_eq_some.1 h1).1; exact this) hnd (h1.trans h2.symm)

theorem hash_get_iff {adds : List AddCall} {st : Versions} (hf : Frame adds st)
    (hnd : (ids adds).Nodup) (v p : Nat) :
    castle_versions_hash_get st v = some p ↔ ∃ a, adds[p]? = some a ∧ a.1 = v := by
  constructor
  · intro h
    have h1 := List.find?_some h
    have h2 := List.mem_of_find?_eq_some h
    have h3 := (hf.hash_mem _ _).1 h2
    have hp : p < adds.length := h3.1
    refine ⟨adds[p], by simp [hp], ?_⟩
    have := (hf.recs p adds[p] (by simp [hp])).1
    rw [← this]
    simpa using h1
  · rintro ⟨a, ha, hav⟩
    have hp : p < adds.length := (List.getElem?_eq_some.1 ha).1
    have hver : (st.mem p).version = v := by rw [(hf.recs p a ha).1, hav]
    have hmem : p ∈ st.hash (castle_versions_hash_idx v) :=
      (hf.hash_mem _ _).2 ⟨hp, by rw [hver]⟩
    cases hq : castle_versions_hash_get st v with
    | none =>
      have := List.find?_eq_none.1 hq p hmem
      simp [hver] at this
    | some q =>
      have h1 := List.find?_some hq
      have h2 := List.mem_of_find?_eq_some hq
      have h3 := (hf.hash_mem _ _).1 h2
      have hq' : q < adds.length := h3.1
      have hvq : (st.mem q).version = v := by simpa using h1
      have hvq2 := (hf.recs q adds[q] (by simp [hq'])).1
      have hqe : adds[q]? = some adds[q] := by simp [hq']
      have : q = p := ids_index_unique hnd hqe ha (by rw [← hvq2, hvq, hav])
      rw [this]

theorem mem_of_getElem?_some {α : Type} {l : List α} {i : Nat} {a : α}
    (h : l[i]? = some a) : a ∈ l :=
  List.mem_iff_getElem?.2 ⟨i, h⟩

theorem hash_get_none {adds : List AddCall} {st : Versions} (hf : Frame adds st)
    (hnd : (ids adds).Nodup) (v : Nat) (hv : v ∉ ids adds) :
    castle_versions_hash_get st v = none := by
  cases h : castle_versions_hash_get st v with
  | none => rfl
  | some p =>
    obtain ⟨a, ha, hav⟩ := (hash_get_iff hf hnd v p).1 h
    exact absurd (by
      rw [← hav]; exact List.mem_map.2 ⟨a, mem_of_getElem?_some ha, rfl⟩) hv

theorem parent_id_of_index {adds : List AddCall} (hnd : (ids adds).Nodup) {i : Nat}
    {a : AddCall} (hi : adds[i]? = some a) : parent_id adds a.1 = some a.2.1 := by
  unfold parent_id
  cases hq : adds.find? (fun x => x.1 == a.1) with
  | none =>
    have := List.find?_eq_none.1 hq a (mem_of_getElem?_some hi)
    simp at this
  | some b =>
    have h1 := List.find?_some hq
    have h2 := List.mem_of_find?_eq_some hq
    obtain ⟨j, hj⟩ := List.mem_iff_getElem?.1 h2
    have hba : b.1 = a.1 := by simpa using h1
    have : j = i := ids_index_unique hnd hj hi hba
    subst this
    rw [hi] at hj
    cases hj
    rfl

theorem parent_id_some {adds : List AddCall} {v p : Nat} (h : parent_id adds v = some p) :
    ∃ (i : Nat) (a : AddCall), adds[i]? = some a ∧ a.1 = v ∧ a.2.1 = p := by
  unfold parent_id at h
  cases hq : adds.find? (fun x => x.1 == v) with
  | none => rw [hq] at h; cases h
  | some b =>
    rw [hq] at h
    have h1 := List.find?_some hq
    have h2 := List.mem_of_find?_eq_some hq
    obtain ⟨j, hj⟩ := List.mem_iff_getElem?.1 h2
    exact ⟨j, b, hj, by simpa using h1, by simpa using h⟩

/-! ## Forests in first-child / next-sibling form -/

theorem strip_setO (m : Nat → castle_version) (p x : Nat) (k : Nat) :
    strip (setRec m p { m p with o_order := k } x) = strip (m x) := by
  unfold setRec strip
  by_cases h : x = p
  · simp [h]
  · simp [h]

theorem strip_setR (m : Nat → castle_version) (p x : Nat) (k : Nat) :
    strip (setRec m p { m p with r_order := k } x) = strip (m x) := by
  unfold setRec strip
  by_cases h : x = p
  · simp [h]
  · simp [h]

theorem strip_fields {r r' : castle_version} (h : strip r = strip r') :
    r.version = r'.version ∧ r.parent_v = r'.parent_v ∧ r.parent = r'.parent ∧
    r.first_child = r'.first_child ∧ r.next_sybling = r'.next_sybling ∧
    r.ftree_root = r'.ftree_root ∧ r.size = r'.size ∧ r.inited = r'.inited := by
  cases r; cases r'
  simp only [strip, castle_version.mk.injEq] at h
  simp_all

theorem FC.strip_assign (f : FC) : ∀ (id : Nat) (m : Nat → castle_version) (x : Nat),
    strip (f.assign id m x) = strip (m x) := by
  induction f with
  | nil => intro id m x; rfl
  | node p c s ihc ihs =>
    intro id m x
    simp only [FC.assign]
    rw [ihs, strip_setR, ihc, strip_setO]

theorem FC.Rep_congr {m m' : Nat → castle_version} (h : ∀ x, strip (m' x) = strip (m x))
    (f : FC) : ∀ par, FC.Rep m par f → FC.Rep m' par f := by
  induction f with
  | nil => intro par _; trivial
  | node p c s ihc ihs =>
    intro par hr
    obtain ⟨h1, h2, h3, h4, h5⟩ := hr
    have hp := strip_fields (h p)
    refine ⟨?_, ?_, ?_, ihc _ h4, ihs _ h5⟩
    · rw [hp.2.2.1, h1]
    · rw [hp.2.2.2.1, h2]
    · rw [hp.2.2.2.2.1, h3]

theorem FC.size_node (p : Nat) (c s : FC) : (FC.node p c s).size = 1 + c.size + s.size := by
  simp [FC.size, FC.nodes]; omega

theorem FC.size_nil : FC.nil.size = 0 := rfl

theorem FC.head_eq_none {f : FC} (h : f.head = none) : f = FC.nil := by
  cases f with
  | nil => rfl
  | node p c s => simp [FC.head] at h

theorem setRec_setRec (m : Nat → castle_version) (p : Nat) (r r' : castle_version) :
    setRec (setRec m p r) p r' = setRec m p r' := by
  funext x
  unfold setRec
  by_cases h : x = p
  · simp [h]
  · simp [h]

theorem setRec_same (m : Nat → castle_version) (p : Nat) (r : castle_version) :
    setRec m p r p = r := by
  simp [setRec]

theorem numbering_pass_down_child (fuel : Nat) (m : Nat → castle_version) (v id c : Nat)
    (h : (m v).first_child = some c) :
    numbering_pass (fuel + 1) m (some v) id true =
      numbering_pass fuel (setRec m v { m v with o_order := (id + 1) % 2 ^ 32 }) (some c)
        ((id + 1) % 2 ^ 32) true := by
  rw [numbering_pass]
  simp [setRec, h]

theorem numbering_pass_down_leaf_sib (fuel : Nat) (m : Nat → castle_version) (v id s : Nat)
    (h : (m v).first_child = none) (h' : (m v).next_sybling = some s) :
    numbering_pass (fuel + 1) m (some v) id true =
      numbering_pass fuel
        (setRec m v { m v with o_order := (id + 1) % 2 ^ 32, r_order := (id + 1) % 2 ^ 32 })
        (some s) ((id + 1) % 2 ^ 32) true := by
  rw [numbering_pass]
  simp only [setRec, if_true, h, h']
  congr 1
  exact setRec_setRec _ _ _ _

theorem numbering_pass_down_leaf_up (fuel : Nat) (m : Nat → castle_version) (v id : Nat)
    (h : (m v).first_child = none) (h' : (m v).next_sybling = none) :
    numbering_pass (fuel + 1) m (some v) id true =
      numbering_pass fuel
        (setRec m v { m v with o_order := (id + 1) % 2 ^ 32, r_order := (id + 1) % 2 ^ 32 })
        (m v).parent ((id + 1) % 2 ^ 32) false := by
  rw [numbering_pass]
  simp only [setRec, if_true, h, h']
  congr 1
  exact setRec_setRec _ _ _ _

theorem numbering_pass_up_sib (fuel : Nat) (m : Nat → castle_version) (v id s : Nat)
    (h' : (m v).next_sybling = some s) :
    numbering_pass (fuel + 1) m (some v) id false =
      numbering_pass fuel (setRec m v { m v with r_order := id }) (some s) id true := by
  rw [numbering_pass]
  simp [setRec, h']

theorem numbering_pass_up_up (fuel : Nat) (m : Nat → castle_version) (v id : Nat)
    (h' : (m v).next_sybling = none) :
    numbering_pass (fuel + 1) m (some v) id false =
      numbering_pass fuel (setRec m v { m v with r_order := id }) (m v).parent id false := by
  rw [numbering_pass]
  simp [setRec, h']

/-- The numbering loop, entered at the head of a stored forest, leaves it
through the parent pointer with the direction flag cleared, having written the
numbers of `FC.assign`. -/
theorem numbering_pass_forest (f : FC) :
    ∀ (p : Nat) (m : Nat → castle_version) (par : Option Nat) (id k : Nat),
      f.head = some p → FC.Rep m par f → id + f.size < 2 ^ 32 →
      numbering_pass (f.steps + k) m (some p) id true =
        numbering_pass k (f.assign id m) par (id + f.size) false := by
  induction f with
  | nil => intro p m par id k h; simp [FC.head] at h
  | node q c s ihc ihs =>
    intro p m par id k hh hr hlt
    simp only [FC.head, Option.some.injEq] at hh
    subst hh
    obtain ⟨h1, h2, h3, h4, h5⟩ := hr
    rw [FC.size_node] at hlt
    have hmod : (id + 1) % 2 ^ 32 = id + 1 := Nat.mod_eq_of_lt (by omega)
    have hs1 : ∀ x, strip (setRec m q { m q with o_order := id + 1 } x) = strip (m x) :=
      fun x => strip_setO m q x (id + 1)
    cases hc : c.head with
    | none =>
      have hcn := FC.head_eq_none hc
      subst hcn
      have hmem : setRec m q { m q with o_order := id + 1, r_order := id + 1 } =
          setRec (FC.nil.assign (id + 1) (setRec m q { m q with o_order := id + 1 })) q
            { (FC.nil.assign (id + 1) (setRec m q { m q with o_order := id + 1 })) q with
              r_order := id + 1 + FC.nil.size } := by
        simp only [FC.assign, FC.size_nil, Nat.add_zero, setRec_setRec, setRec_same]
      cases hsh : s.head with
      | none =>
        have hsn := FC.head_eq_none hsh
        subst hsn
        have hst : (FC.node q FC.nil FC.nil).steps + k = k + 1 := by
          simp [FC.steps, FC.head]; omega
        rw [hst, numbering_pass_down_leaf_up k m q id (h2.trans hc) (h3.trans hsh), hmod, h1,
          hmem]
        simp only [FC.assign, FC.size_node, FC.size_nil]
      | some r =>
        have hst : (FC.node q FC.nil s).steps + k = (s.steps + k) + 1 := by
          simp [FC.steps, FC.head]; omega
        rw [hst, numbering_pass_down_leaf_sib _ m q id r (h2.trans hc) (h3.trans hsh), hmod,
          hmem]
        rw [ihs r _ par (id + 1) k hsh
          (FC.Rep_congr (fun x => by rw [strip_setR, FC.strip_assign, strip_setO]) s par h5)
          (by omega)]
        simp only [FC.assign, FC.size_node, FC.size_nil]
        rw [show id + (1 + 0 + s.size) = id + 1 + s.size by omega]
    | some r =>
      have hst : (FC.node q c s).steps + k = (c.steps + ((s.steps + k) + 1)) + 1 := by
        simp [FC.steps, hc]; omega
      rw [hst, numbering_pass_down_child _ m q id r (h2.trans hc), hmod]
      rw [ihc r _ (some q) (id + 1) ((s.steps + k) + 1) hc (FC.Rep_congr hs1 c (some q) h4)
        (by omega)]
      have hl := strip_fields ((FC.strip_assign c (id + 1)
        (setRec m q { m q with o_order := id + 1 }) q).trans (hs1 q))
      cases hsh : s.head with
      | none =>
        have hsn := FC.head_eq_none hsh
        subst hsn
        rw [numbering_pass_up_up _ _ q _ (hl.2.2.2.2.1.trans (h3.trans hsh)), hl.2.2.1, h1]
        simp only [FC.steps, Nat.zero_add, FC.assign, FC.size_node, FC.size_nil]
        rw [show id + (1 + c.size + 0) = id + 1 + c.size by omega]
      | some r2 =>
        rw [numbering_pass_up_sib _ _ q _ r2 (hl.2.2.2.2.1.trans (h3.trans hsh))]
        rw [ihs r2 _ par (id + 1 + c.size) k hsh
          (FC.Rep_congr (fun x => by rw [strip_setR, FC.strip_assign, strip_setO]) s par h5)
          (by omega)]
        simp only [FC.assign, FC.size_node]
        rw [show id + (1 + c.size + s.size) = id + 1 + c.size + s.size by omega]

namespace FC

theorem mem_nodes_node {x p : Nat} {c s : FC} :
    x ∈ (node p c s).nodes ↔ x = p ∨ x ∈ c.nodes ∨ x ∈ s.nodes := by
  simp [nodes]

theorem WF.nodup {f : FC} (h : f.WF) : f.nodes.Nodup := by
  induction f with
  | nil => simp [nodes]
  | node p c s ihc ihs =>
    obtain ⟨h1, h2, h3, h4, h5⟩ := h
    simp only [nodes]
    refine List.nodup_cons.2 ⟨?_, List.nodup_append.2 ⟨ihc h4, ihs h5, ?_⟩⟩
    · simp [h1, h2]
    · intro x hx hx'; exact h3 x hx hx'

theorem head_insert (v p : Nat) (f : FC) : (insert v p f).head = f.head := by
  cases f with
  | nil => rfl
  | node q c s =>
    simp only [insert]
    split <;> rfl

theorem mem_insert {v p : Nat} (f : FC) (x : Nat) :
    x ∈ (insert v p f).nodes ↔ (x = v ∧ p ∈ f.nodes) ∨ x ∈ f.nodes := by
  induction f with
  | nil => simp [insert, nodes]
  | node q c s ihc ihs =>
    simp only [insert]
    by_cases hq : q = p
    · subst hq
      simp only [if_true, mem_nodes_node]
      simp [nodes]
      tauto
    · simp only [hq, if_false, mem_nodes_node, ihc, ihs]
      have : p ≠ q := fun h => hq h.symm
      simp [this]
      tauto

theorem WF_insert {v p : Nat} (f : FC) (hwf : f.WF) (hv : v ∉ f.nodes) :
    (insert v p f).WF := by
  induction f with
  | nil => trivial
  | node q c s ihc ihs =>
    obtain ⟨h1, h2, h3, h4, h5⟩ := hwf
    rw [mem_nodes_node] at hv
    have hvq : v ≠ q := fun h => hv (Or.inl h)
    have hvc : v ∉ c.nodes := fun h => hv (Or.inr (Or.inl h))
    have hvs : v ∉ s.nodes := fun h => hv (Or.inr (Or.inr h))
    simp only [insert]
    by_cases hq : q = p
    · subst hq
      simp only [if_true]
      refine ⟨?_, h2, ?_, ⟨?_, hvc, ?_, trivial, h4⟩, h5⟩
      · rw [mem_nodes_node]; rintro (h | h | h)
        · exact hvq h.symm
        · simp [nodes] at h
        · exact h1 h
      · intro x hx
        rw [mem_nodes_node] at hx
        rcases hx with h | h | h
        · subst h; exact hvs
        · simp [nodes] at h
        · exact h3 x h
      · simp [nodes]
      · intro x hx; simp [nodes] at hx
    · simp only [hq, if_false]
      refine ⟨?_, ?_, ?_, ihc h4 hvc, ihs h5 hvs⟩
      · rw [mem_insert]; rintro (⟨h, _⟩ | h)
        · exact hvq h.symm
        · exact h1 h
      · rw [mem_insert]; rintro (⟨h, _⟩ | h)
        · exact hvq h.symm
        · exact h2 h
      · intro x hx
        rw [mem_insert] at hx ⊢
        rcases hx with ⟨hxv, hpc⟩ | hx
        · rintro (⟨_, hps⟩ | hxs)
          · exact h3 p hpc hps
          · subst hxv; exact hvs hxs
        · rintro (⟨hxv, _⟩ | hxs)
          · subst hxv; exact hvc hx
          · exact h3 x hx hxs

theorem Rep_frame {m m' : Nat → castle_version} (f : FC) :
    ∀ par, (∀ x ∈ f.nodes, (m' x).parent = (m x).parent ∧
      (m' x).first_child = (m x).first_child ∧ (m' x).next_sybling = (m x).next_sybling) →
    Rep m par f → Rep m' par f := by
  induction f with
  | nil => intro par _ _; trivial
  | node p c s ihc ihs =>
    intro par h hr
    obtain ⟨h1, h2, h3, h4, h5⟩ := hr
    have hp := h p (by simp [nodes])
    refine ⟨hp.1.trans h1, hp.2.1.trans h2, hp.2.2.trans h3, ihc _ ?_ h4, ihs _ ?_ h5⟩
    · intro x hx; exact h x (mem_nodes_node.2 (Or.inr (Or.inl hx)))
    · intro x hx; exact h x (mem_nodes_node.2 (Or.inr (Or.inr hx)))

/-- Linking a fresh record `v` below `p` stores the forest with `v` inserted. -/
theorem Rep_insert {m m' : Nat → castle_version} {v p : Nat} (hvp : v ≠ p)
    (hv : (m' v).parent = some p ∧ (m' v).first_child = none ∧
      (m' v).next_sybling = (m p).first_child)
    (hp : (m' p).parent = (m p).parent ∧ (m' p).first_child = some v ∧
      (m' p).next_sybling = (m p).next_sybling)
    (hx : ∀ x, x ≠ v → x ≠ p → (m' x).parent = (m x).parent ∧
      (m' x).first_child = (m x).first_child ∧ (m' x).next_sybling = (m x).next_sybling)
    (f : FC) : ∀ par, f.WF → v ∉ f.nodes → Rep m par f → Rep m' par (insert v p f) := by
  induction f with
  | nil => intro par _ _ _; trivial
  | node q c s ihc ihs =>
    intro par hwf hvn hr
    obtain ⟨w1, w2, w3, w4, w5⟩ := hwf
    obtain ⟨h1, h2, h3, h4, h5⟩ := hr
    rw [mem_nodes_node] at hvn
    have hvq : v ≠ q := fun h => hvn (Or.inl h)
    have hvc : v ∉ c.nodes := fun h => hvn (Or.inr (Or.inl h))
    have hvs : v ∉ s.nodes := fun h => hvn (Or.inr (Or.inr h))
    simp only [insert]
    by_cases hq : q = p
    · subst hq
      simp only [if_true]
      have hfc : ∀ x ∈ c.nodes, (m' x).parent = (m x).parent ∧
          (m' x).first_child = (m x).first_child ∧
          (m' x).next_sybling = (m x).next_sybling := by
        intro x hxc
        exact hx x (fun h => hvc (h ▸ hxc)) (fun h => w1 (h ▸ hxc))
      have hfs : ∀ x ∈ s.nodes, (m' x).parent = (m x).parent ∧
          (m' x).first_child = (m x).first_child ∧
          (m' x).next_sybling = (m x).next_sybling := by
        intro x hxs
        exact hx x (fun h => hvs (h ▸ hxs)) (fun h => w2 (h ▸ hxs))
      refine ⟨hp.1.trans h1, by simp [head, hp.2.1], hp.2.2.trans h3, ?_, Rep_frame s _ hfs h5⟩
      exact ⟨hv.1, by simp [head, hv.2.1], hv.2.2.trans h2, trivial, Rep_frame c _ hfc h4⟩
    · simp only [hq, if_false]
      have hq' := hx q (fun h => hvq h.symm) hq
      refine ⟨hq'.1.trans h1, ?_, ?_, ihc _ w4 hvc h4, ihs _ w5 hvs h5⟩
      · rw [head_insert]; exact hq'.2.1.trans h2
      · rw [head_insert]; exact hq'.2.2.trans h3

end FC

/-! ## The parenting pass -/

theorem link_mem_v (m : Nat → castle_version) {v p : Nat} (h : v ≠ p) :
    link_mem m v p v =
      { m v with parent := some p, next_sybling := (m p).first_child, inited := true } := by
  simp [link_mem, setRec, h]

theorem link_mem_p (m : Nat → castle_version) {v p : Nat} (h : v ≠ p) :
    link_mem m v p p = { m p with first_child := some v } := by
  have h' : p ≠ v := fun e => h e.symm
  simp [link_mem, setRec, h']

theorem link_mem_x (m : Nat → castle_version) {v p x : Nat} (hv : x ≠ v) (hp : x ≠ p) :
    link_mem m v p x = m x := by
  simp [link_mem, setRec, hv, hp]

theorem version_inj {adds : List AddCall} {st : Versions} (hf : Frame adds st)
    (hnd : (ids adds).Nodup) {i j : Nat} (hi : i < adds.length) (hj : j < adds.length)
    (h : (st.mem i).version = (st.mem j).version) : i = j := by
  have hi' : adds[i]? = some adds[i] := by simp [hi]
  have hj' : adds[j]? = some adds[j] := by simp [hj]
  exact ids_index_unique hnd hi' hj' (by
    rw [← (hf.recs i _ hi').1, ← (hf.recs j _ hj').1, h])

theorem PInv_init {adds : List AddCall} (hv : valid_forest adds) :
    ∃ root, PInv adds root (add_all adds) (FC.node root FC.nil FC.nil) := by
  obtain ⟨hnd, h0, _, _⟩ := hv
  have ha := addInv_add_all adds
  have hf := frame_add_all adds
  obtain ⟨a, ha0, ha1⟩ := List.mem_map.1 h0
  obtain ⟨root, hroot⟩ := List.mem_iff_getElem?.1 ha0
  have hrl : root < adds.length := (List.getElem?_eq_some.1 hroot).1
  have hrec := ha.recs root a hroot
  have hinit : ∀ p, p < adds.length → (((add_all adds).mem p).inited = true ↔ p = root) := by
    intro p hp
    have hp' : adds[p]? = some adds[p] := by simp [hp]
    rw [ha.recs p _ hp']
    simp only [record0, decide_eq_true_eq]
    constructor
    · intro h
      exact ids_index_unique hnd hp' hroot (by rw [h, ha1])
    · intro h; subst h
      rw [hroot] at hp'
      cases hp'
      exact ha1
  refine ⟨root, hf, hrl, ?_, ⟨FC.nil, rfl⟩, ?_, ?_, ?_, ?_, ?_, ha.init_nodup, ?_, ?_⟩
  · rw [hrec]; simpa [record0] using ha1
  · rw [FC.Rep, hrec]; simp [record0, FC.head, FC.Rep]
  · simp [FC.WF, FC.nodes]
  · intro p hp; simp [FC.nodes] at hp; rw [hp]; exact hrl
  · intro p hp; rw [hinit p hp]; simp [FC.nodes]
  · intro p
    rw [ha.init_mem]
    constructor
    · rintro ⟨h1, h2⟩
      refine ⟨h1, ?_⟩
      have hp' : adds[p]? = some adds[p] := by simp [h1]
      rw [ha.recs p _ hp'] at h2 ⊢
      simpa [record0] using h2
    · rintro ⟨h1, h2⟩
      refine ⟨h1, ?_⟩
      have hp' : adds[p]? = some adds[p] := by simp [h1]
      rw [ha.recs p _ hp'] at h2 ⊢
      simpa [record0] using h2
  · intro p hp _
    have hp' : adds[p]? = some adds[p] := by simp [hp]
    rw [ha.recs p _ hp']; rfl
  · intro p hp hpr
    simp [FC.nodes] at hp
    exact absurd hp hpr

theorem PInv_reorder {adds : List AddCall} {root : Nat} {st : Versions} {f : FC}
    (h : PInv adds root st f) (l : List Nat) (hl : l.Perm st.init_list) :
    PInv adds root { st with init_list := l } f := by
  refine ⟨⟨h.frame.nr_eq, h.frame.recs, h.frame.hash_mem⟩, h.root_lt, h.root_ver, h.shape,
    h.rep, h.wf, h.nodes_lt, h.inited_iff, ?_, ?_, h.fresh, h.par_ok⟩
  · intro p; rw [← h.init_iff p]; exact hl.mem_iff
  · exact hl.nodup_iff.2 h.init_nodup

theorem PInv_link {adds : List AddCall} {root : Nat} {st : Versions} {f : FC}
    (h : PInv adds root st f) (hnd : (ids adds).Nodup) {v p : Nat}
    (hv : v < adds.length) (hvi : (st.mem v).inited = false)
    (hp : castle_versions_hash_get st (st.mem v).parent_v = some p)
    (hpi : (st.mem p).inited = true) :
    PInv adds root { st with mem := link_mem st.mem v p, init_list := st.init_list.erase v }
      (FC.insert v p f) := by
  obtain ⟨a, hpa, hpv⟩ := (hash_get_iff h.frame hnd _ _).1 hp
  have hpl : p < adds.length := (List.getElem?_eq_some.1 hpa).1
  have hpver : (st.mem p).version = (st.mem v).parent_v := by
    rw [(h.frame.recs p a hpa).1, hpv]
  have hvp : v ≠ p := by
    intro e; rw [e, hpi] at hvi; cases hvi
  have hpf : p ∈ f.nodes := (h.inited_iff p hpl).1 hpi
  have hvf : v ∉ f.nodes := by
    intro hm
    have := (h.inited_iff v hv).2 hm
    rw [this] at hvi; cases hvi
  have hvr : v ≠ root := by
    obtain ⟨c, hc⟩ := h.shape
    intro e; apply hvf; rw [hc, e]; simp [FC.nodes]
  have hstat : ∀ x, (link_mem st.mem v p x).version = (st.mem x).version ∧
      (link_mem st.mem v p x).parent_v = (st.mem x).parent_v ∧
      (link_mem st.mem v p x).ftree_root = (st.mem x).ftree_root ∧
      (link_mem st.mem v p x).size = (st.mem x).size := by
    intro x
    by_cases hxv : x = v
    · subst hxv; rw [link_mem_v _ hvp]; simp
    · by_cases hxp : x = p
      · subst hxp; rw [link_mem_p _ hvp]; simp
      · rw [link_mem_x _ hxv hxp]; simp
  have hinit : ∀ x, (link_mem st.mem v p x).inited = true ↔ (x = v ∨ (st.mem x).inited = true) := by
    intro x
    by_cases hxv : x = v
    · subst hxv; rw [link_mem_v _ hvp]; simp
    · by_cases hxp : x = p
      · subst hxp; rw [link_mem_p _ hvp]; simp [hxv]
      · rw [link_mem_x _ hxv hxp]; simp [hxv]
  refine ⟨⟨h.frame.nr_eq, ?_, ?_⟩, h.root_lt, ?_, ?_, ?_, FC.WF_insert f h.wf hvf, ?_, ?_,
    ?_, h.init_nodup.erase v, ?_, ?_⟩
  · intro i b hi
    have := h.frame.recs i b hi
    simp only [(hstat i).1, (hstat i).2.1, (hstat i).2.2.1, (hstat i).2.2.2]
    exact this
  · intro b q
    simp only [(hstat q).1]
    exact h.frame.hash_mem b q
  · simp only [(hstat root).1]; exact h.root_ver
  · obtain ⟨c, hc⟩ := h.shape
    subst hc
    simp only [FC.insert]
    by_cases hr : root = p
    · simp [hr]
    · simp [hr, FC.insert]
  · refine FC.Rep_insert hvp ?_ ?_ ?_ f none h.wf hvf h.rep
    · dsimp only
      rw [link_mem_v _ hvp]
      exact ⟨rfl, h.fresh v hv hvi, rfl⟩
    · dsimp only
      rw [link_mem_p _ hvp]
      exact ⟨rfl, rfl, rfl⟩
    · intro x hxv hxp
      dsimp only
      rw [link_mem_x _ hxv hxp]
      exact ⟨rfl, rfl, rfl⟩
  · intro x hx
    rw [FC.mem_insert] at hx
    rcases hx with ⟨hx, _⟩ | hx
    · rw [hx]; exact hv
    · exact h.nodes_lt x hx
  · intro x hx
    simp only [hinit x, FC.mem_insert, h.inited_iff x hx]
    constructor
    · rintro (h1 | h1)
      · exact Or.inl ⟨h1, hpf⟩
      · exact Or.inr h1
    · rintro (⟨h1, _⟩ | h1)
      · exact Or.inl h1
      · exact Or.inr h1
  · intro x
    simp only [h.init_nodup.mem_erase_iff, h.init_iff x]
    constructor
    · rintro ⟨h1, h2, h3⟩
      refine ⟨h2, ?_⟩
      cases hx : (link_mem st.mem v p x).inited with
      | false => rfl
      | true =>
        rcases (hinit x).1 hx with h4 | h4
        · exact absurd h4 h1
        · rw [h4] at h3; cases h3
    · rintro ⟨h1, h2⟩
      have hxv : x ≠ v := by
        intro e
        have := (hinit x).2 (Or.inl e)
        rw [this] at h2; cases h2
      refine ⟨hxv, h1, ?_⟩
      cases hx : (st.mem x).inited with
      | false => rfl
      | true =>
        have := (hinit x).2 (Or.inr hx)
        rw [this] at h2; cases h2
  · intro x hx hxi
    have hxv : x ≠ v := by
      intro e
      have := (hinit x).2 (Or.inl e)
      rw [this] at hxi; cases hxi
    have hxp : x ≠ p := by
      intro e
      have := (hinit x).2 (Or.inr (e ▸ hpi))
      rw [this] at hxi; cases hxi
    dsimp only at hxi ⊢
    rw [link_mem_x _ hxv hxp] at hxi ⊢
    exact h.fresh x hx hxi
  · intro x hx hxr
    rw [FC.mem_insert] at hx
    have hpar : ∀ y, y ≠ v → (link_mem st.mem v p y).parent = (st.mem y).parent := by
      intro y hy
      by_cases hyp : y = p
      · subst hyp; rw [link_mem_p _ hvp]
      · rw [link_mem_x _ hy hyp]
    by_cases hxv : x = v
    · subst hxv
      refine ⟨p, ?_, hpl, ?_⟩
      · dsimp only
        rw [link_mem_v _ hvp]
      · dsimp only
        rw [(hstat p).1, (hstat x).2.1]; exact hpver
    · rcases hx with ⟨hx, _⟩ | hx
      · exact absurd hx hxv
      · obtain ⟨q, hq1, hq2, hq3⟩ := h.par_ok x hx hxr
        refine ⟨q, ?_, hq2, ?_⟩
        · dsimp only
          rw [hpar x hxv]; exact hq1
        · dsimp only
          rw [(hstat q).1, (hstat x).2.1]; exact hq3

theorem depth_of_zero {adds : List AddCall} {fuel v : Nat}
    (h : depth_of adds fuel v = some 0) : v = 0 := by
  cases fuel with
  | zero =>
    unfold depth_of at h
    by_cases hv : v = 0
    · exact hv
    · simp [hv] at h
  | succ n =>
    unfold depth_of at h
    by_cases hv : v = 0
    · exact hv
    · simp only [hv, if_false] at h
      cases hp : parent_id adds v with
      | none => rw [hp] at h; cases h
      | some p =>
        simp only [hp] at h
        cases hd : depth_of adds n p with
        | none => rw [hd] at h; cases h
        | some k => rw [hd] at h; simp at h

theorem depth_of_succ {adds : List AddCall} {fuel v k : Nat}
    (h : depth_of adds fuel v = some (k + 1)) :
    v ≠ 0 ∧ ∃ p fuel', parent_id adds v = some p ∧ depth_of adds fuel' p = some k := by
  cases fuel with
  | zero =>
    unfold depth_of at h
    by_cases hv : v = 0
    · simp [hv] at h
    · simp [hv] at h
  | succ n =>
    unfold depth_of at h
    by_cases hv : v = 0
    · simp [hv] at h
    · simp only [hv, if_false] at h
      refine ⟨hv, ?_⟩
      cases hp : parent_id adds v with
      | none => rw [hp] at h; cases h
      | some p =>
        simp only [hp] at h
        cases hd : depth_of adds n p with
        | none => rw [hd] at h; cases h
        | some j =>
          rw [hd] at h
          simp at h
          subst h
          exact ⟨p, n, rfl, hd⟩

theorem depth_of_le {adds : List AddCall} : ∀ {fuel v k : Nat},
    depth_of adds fuel v = some k → k ≤ fuel := by
  intro fuel
  induction fuel with
  | zero =>
    intro v k h
    unfold depth_of at h
    by_cases hv : v = 0
    · simp [hv] at h; omega
    · simp [hv] at h
  | succ n ih =>
    intro v k h
    unfold depth_of at h
    by_cases hv : v = 0
    · simp [hv] at h; omega
    · simp only [hv, if_false] at h
      cases hp : parent_id adds v with
      | none => rw [hp] at h; cases h
      | some p =>
        simp only [hp] at h
        cases hd : depth_of adds n p with
        | none => rw [hd] at h; cases h
        | some j =>
          rw [hd] at h
          simp at h
          have := ih hd
          omega

theorem depth_of_mem_ids {adds : List AddCall} (h0 : 0 ∈ ids adds) {fuel v k : Nat}
    (h : depth_of adds fuel v = some k) : v ∈ ids adds := by
  cases k with
  | zero => rw [depth_of_zero h]; exact h0
  | succ k =>
    obtain ⟨_, p, _, hp, _⟩ := depth_of_succ h
    obtain ⟨i, a, hi, ha, _⟩ := parent_id_some hp
    rw [← ha]
    exact List.mem_map.2 ⟨a, mem_of_getElem?_some hi, rfl⟩

theorem root_mem_nodes {adds : List AddCall} {root : Nat} {st : Versions} {f : FC}
    (h : PInv adds root st f) : root ∈ f.nodes := by
  obtain ⟨c, hc⟩ := h.shape
  rw [hc]; simp [FC.nodes]

theorem parent_v_eq {adds : List AddCall} {st : Versions} (hf : Frame adds st)
    (hnd : (ids adds).Nodup) {v : Nat} (hv : v < adds.length) :
    parent_id adds (st.mem v).version = some (st.mem v).parent_v := by
  have hv' : adds[v]? = some adds[v] := by simp [hv]
  have := hf.recs v _ hv'
  rw [this.1, this.2.1]
  exact parent_id_of_index hnd hv'

theorem process_version_link (fuel : Nat) (st : Versions) (v p : Nat)
    (hvi : (st.mem v).inited = false)
    (hget : castle_versions_hash_get st (st.mem v).parent_v = some p)
    (hpi : (st.mem p).inited = true) :
    process_version (fuel + 1) st v =
      Res.ok { st with mem := link_mem st.mem v p, init_list := st.init_list.erase v } := by
  have h1 : ¬ ((st.mem v).inited = true) := by simp [hvi]
  have h2 : ¬ ((!(st.mem p).inited) = true) := by simp [hpi]
  have hget' : castle_versions_hash_get { st with init_list := st.init_list.erase v }
      (st.mem v).parent_v = some p := hget
  rw [process_version]
  dsimp only
  rw [if_neg h1, hget']
  dsimp only
  rw [if_neg h2]
  rfl

theorem process_version_goto (fuel : Nat) (st : Versions) (v p : Nat)
    (hvi : (st.mem v).inited = false)
    (hget : castle_versions_hash_get st (st.mem v).parent_v = some p)
    (hpi : (st.mem p).inited = false) :
    process_version (fuel + 1) st v =
      process_version fuel { st with init_list := v :: st.init_list.erase v } p := by
  have h1 : ¬ ((st.mem v).inited = true) := by simp [hvi]
  have h2 : (!(st.mem p).inited) = true := by simp [hpi]
  have hget' : castle_versions_hash_get { st with init_list := st.init_list.erase v }
      (st.mem v).parent_v = some p := hget
  rw [process_version]
  dsimp only
  rw [if_neg h1, hget']
  dsimp only
  rw [if_pos h2]

/-- One turn of the parenting loop initialises one more record. -/
theorem process_version_ok {adds : List AddCall} {root : Nat} (hnd : (ids adds).Nodup)
    (h0 : 0 ∈ ids adds) :
    ∀ (k fuel : Nat) (st : Versions) (f : FC) (v : Nat), PInv adds root st f →
      v < adds.length → (st.mem v).inited = false →
      (∃ fd, depth_of adds fd (st.mem v).version = some k) → k ≤ fuel →
      ∃ st' f', process_version fuel st v = Res.ok st' ∧ PInv adds root st' f' ∧
        st'.init_list.length + 1 = st.init_list.length := by
  intro k
  induction k with
  | zero =>
    intro fuel st f v h hv hvi ⟨fd, hd⟩ _
    have hz := depth_of_zero hd
    have : v = root := version_inj h.frame hnd hv h.root_lt (by rw [hz, h.root_ver])
    have hin := (h.inited_iff v hv).2 (this ▸ root_mem_nodes h)
    rw [hin] at hvi; cases hvi
  | succ k ih =>
    intro fuel st f v h hv hvi ⟨fd, hd⟩ hk
    obtain ⟨fuel', rfl⟩ : ∃ fuel', fuel = fuel' + 1 := ⟨fuel - 1, by omega⟩
    obtain ⟨_, pv, fd', hpv, hdp⟩ := depth_of_succ hd
    have hpe := parent_v_eq h.frame hnd hv
    rw [hpv] at hpe
    have hpv' : (st.mem v).parent_v = pv := (Option.some.inj hpe).symm
    have hmem := depth_of_mem_ids h0 hdp
    obtain ⟨a, ha, hav⟩ := List.mem_map.1 hmem
    obtain ⟨p, hp⟩ := List.mem_iff_getElem?.1 ha
    have hget : castle_versions_hash_get st (st.mem v).parent_v = some p := by
      rw [hpv']; exact (hash_get_iff h.frame hnd pv p).2 ⟨a, hp, hav⟩
    have hpl : p < adds.length := (List.getElem?_eq_some.1 hp).1
    have hpver : (st.mem p).version = pv := by rw [(h.frame.recs p a hp).1, hav]
    have hvin : v ∈ st.init_list := (h.init_iff v).2 ⟨hv, hvi⟩
    cases hpi : (st.mem p).inited with
    | false =>
      rw [process_version_goto fuel' st v p hvi hget hpi]
      have hperm : (v :: st.init_list.erase v).Perm st.init_list :=
        (List.perm_cons_erase hvin).symm
      have h2 := PInv_reorder h _ hperm
      obtain ⟨st', f', hr, hinv, hlen⟩ := ih fuel' _ f p h2 hpl hpi ⟨fd', by
        show depth_of adds fd' (st.mem p).version = some k
        rw [hpver]; exact hdp⟩ (by omega)
      refine ⟨st', f', hr, hinv, ?_⟩
      rw [hlen]
      exact hperm.length_eq
    | true =>
      rw [process_version_link fuel' st v p hvi hget hpi]
      refine ⟨_, _, rfl, PInv_link h hnd hv hvi hget hpi, ?_⟩
      show (st.init_list.erase v).length + 1 = st.init_list.length
      rw [List.length_erase_of_mem hvin]
      have : 0 < st.init_list.length := List.length_pos_of_mem hvin
      omega

/-- With enough fuel the parenting pass empties the init list. -/
theorem parenting_pass_ok {adds : List AddCall} {root : Nat} (hv : valid_forest adds)
    (inner : Nat) (hin : adds.length ≤ inner) :
    ∀ (len fuel : Nat) (st : Versions) (f : FC), PInv adds root st f →
      st.init_list.length = len → len < fuel →
      ∃ st' f', parenting_pass inner fuel st = Res.ok st' ∧ PInv adds root st' f' ∧
        st'.init_list = [] := by
  obtain ⟨hnd, h0, hreach, _⟩ := hv
  intro len
  induction len with
  | zero =>
    intro fuel st f h hl hfuel
    obtain ⟨fuel', rfl⟩ : ∃ fuel', fuel = fuel' + 1 := ⟨fuel - 1, by omega⟩
    have hnil : st.init_list = [] := List.length_eq_zero.1 hl
    refine ⟨st, f, ?_, h, hnil⟩
    unfold parenting_pass
    rw [hnil]
  | succ len ih =>
    intro fuel st f h hl hfuel
    obtain ⟨fuel', rfl⟩ : ∃ fuel', fuel = fuel' + 1 := ⟨fuel - 1, by omega⟩
    cases hlist : st.init_list with
    | nil => rw [hlist] at hl; simp at hl
    | cons v rest =>
      have hvin : v ∈ st.init_list := by rw [hlist]; simp
      obtain ⟨hvl, hvi⟩ := (h.init_iff v).1 hvin
      have hv' : adds[v]? = some adds[v] := by simp [hvl]
      have hver := (h.frame.recs v _ hv').1
      have hmem : (st.mem v).version ∈ ids adds := by
        rw [hver]; exact List.mem_map.2 ⟨_, mem_of_getElem?_some hv', rfl⟩
      have hsome := hreach _ hmem
      obtain ⟨k, hk⟩ := Option.isSome_iff_exists.1 hsome
      have hkle := depth_of_le hk
      obtain ⟨st1, f1, hr, hinv, hlen⟩ :=
        process_version_ok hnd h0 k inner st f v h hvl hvi ⟨_, hk⟩ (by omega)
      obtain ⟨st2, f2, hr2, hinv2, hnil⟩ := ih fuel' st1 f1 hinv (by omega) (by omega)
      refine ⟨st2, f2, ?_, hinv2, hnil⟩
      unfold parenting_pass
      rw [hlist]
      simp only [hr]
      exact hr2

/-! ## The numbers written by the numbering pass -/

namespace FC

theorem assign_not_mem (f : FC) : ∀ (id : Nat) (m : Nat → castle_version) (x : Nat),
    x ∉ f.nodes → f.assign id m x = m x := by
  induction f with
  | nil => intro id m x _; rfl
  | node p c s ihc ihs =>
    intro id m x hx
    rw [mem_nodes_node] at hx
    have hxp : x ≠ p := fun h => hx (Or.inl h)
    have hxc : x ∉ c.nodes := fun h => hx (Or.inr (Or.inl h))
    have hxs : x ∉ s.nodes := fun h => hx (Or.inr (Or.inr h))
    simp only [assign]
    rw [ihs _ _ _ hxs]
    simp only [setRec, hxp, if_false]
    rw [ihc _ _ _ hxc]
    simp only [setRec, hxp, if_false]

theorem assign_num (f : FC) : ∀ (id : Nat) (m : Nat → castle_version) (x : Nat),
    f.WF → x ∈ f.nodes →
    (f.assign id m x).o_order = (f.num id x).1 ∧ (f.assign id m x).r_order = (f.num id x).2 := by
  induction f with
  | nil => intro id m x _ hx; simp [nodes] at hx
  | node p c s ihc ihs =>
    intro id m x hwf hx
    obtain ⟨w1, w2, w3, w4, w5⟩ := hwf
    simp only [assign, num]
    by_cases hxp : x = p
    · subst hxp
      rw [assign_not_mem s _ _ _ w2]
      simp only [setRec, if_true]
      rw [assign_not_mem c _ _ _ w1]
      simp [setRec]
    · simp only [hxp, if_false]
      by_cases hxc : x ∈ c.nodes
      · simp only [hxc, if_true]
        rw [assign_not_mem s _ _ _ (w3 x hxc)]
        simp only [setRec, hxp, if_false]
        exact ihc _ _ _ w4 hxc
      · simp only [hxc, if_false]
        have hxs : x ∈ s.nodes := by
          rcases mem_nodes_node.1 hx with h | h | h
          · exact absurd h hxp
          · exact absurd h hxc
          · exact h
        exact ihs _ _ _ w5 hxs

theorem num_bounds (f : FC) : ∀ (id x : Nat), x ∈ f.nodes →
    id < (f.num id x).1 ∧ (f.num id x).1 ≤ (f.num id x).2 ∧ (f.num id x).2 ≤ id + f.size := by
  induction f with
  | nil => intro id x hx; simp [nodes] at hx
  | node p c s ihc ihs =>
    intro id x hx
    rw [size_node]
    simp only [num]
    by_cases hxp : x = p
    · simp only [hxp, if_true]; omega
    · simp only [hxp, if_false]
      by_cases hxc : x ∈ c.nodes
      · simp only [hxc, if_true]
        have := ihc (id + 1) x hxc
        omega
      · simp only [hxc, if_false]
        have hxs : x ∈ s.nodes := by
          rcases mem_nodes_node.1 hx with h | h | h
          · exact absurd h hxp
          · exact absurd h hxc
          · exact h
        have := ihs (id + 1 + c.size) x hxs
        omega

theorem ancs_subset (f : FC) : ∀ (d q : Nat), q ∈ f.ancs d → q ∈ f.nodes := by
  induction f with
  | nil => intro d q h; simp [ancs] at h
  | node p c s ihc ihs =>
    intro d q h
    simp only [ancs] at h
    rw [mem_nodes_node]
    by_cases hdp : d = p
    · simp only [hdp, if_true, List.mem_singleton] at h
      exact Or.inl h
    · simp only [hdp, if_false] at h
      by_cases hdc : d ∈ c.nodes
      · simp only [hdc, if_true, List.mem_append, List.mem_singleton] at h
        rcases h with h | h
        · exact Or.inr (Or.inl (ihc d q h))
        · exact Or.inl h
      · simp only [hdc, if_false] at h
        exact Or.inr (Or.inr (ihs d q h))

theorem ancs_self (f : FC) : ∀ (d : Nat), d ∈ f.nodes → d ∈ f.ancs d := by
  induction f with
  | nil => intro d h; simp [nodes] at h
  | node p c s ihc ihs =>
    intro d h
    simp only [ancs]
    by_cases hdp : d = p
    · simp [hdp]
    · simp only [hdp, if_false]
      by_cases hdc : d ∈ c.nodes
      · simp only [hdc, if_true, List.mem_append]
        exact Or.inl (ihc d hdc)
      · simp only [hdc, if_false]
        rcases mem_nodes_node.1 h with h | h | h
        · exact absurd h hdp
        · exact absurd h hdc
        · exact ihs d h

/-- The interval test on the numbers of a forest decides membership of the
upward path. -/
theorem interval_iff (f : FC) : ∀ (id q d : Nat), f.WF → q ∈ f.nodes → d ∈ f.nodes →
    (((f.num id q).1 ≤ (f.num id d).1 ∧ (f.num id d).1 ≤ (f.num id q).2) ↔ q ∈ f.ancs d) := by
  induction f with
  | nil => intro id q d _ hq; simp [nodes] at hq
  | node p c s ihc ihs =>
    intro id q d hwf hq hd
    obtain ⟨w1, w2, w3, w4, w5⟩ := hwf
    have cases3 : ∀ x, x ∈ (node p c s).nodes →
        (x = p) ∨ (x ≠ p ∧ x ∈ c.nodes) ∨ (x ≠ p ∧ x ∉ c.nodes ∧ x ∈ s.nodes) := by
      intro x hx
      rcases mem_nodes_node.1 hx with h | h | h
      · exact Or.inl h
      · exact Or.inr (Or.inl ⟨fun e => w1 (e ▸ h), h⟩)
      · exact Or.inr (Or.inr ⟨fun e => w2 (e ▸ h), fun hc => w3 x hc h, h⟩)
    simp only [num, ancs]
    rcases cases3 q hq with hqp | ⟨hqp, hqc⟩ | ⟨hqp, hqc, hqs⟩ <;>
    rcases cases3 d hd with hdp | ⟨hdp, hdc⟩ | ⟨hdp, hdc, hds⟩
    · subst hqp; subst hdp; simp
    · subst hqp
      simp only [if_true, hdp, if_false, hdc, List.mem_append, List.mem_singleton, or_true,
        iff_true]
      have := num_bounds c (id + 1) d hdc
      omega
    · subst hqp
      simp only [if_true, hdp, if_false, hdc]
      have := num_bounds s (id + 1 + c.size) d hds
      constructor
      · intro h; omega
      · intro h; exact absurd (ancs_subset s d q h) w2
    · subst hdp
      simp only [if_true, hqp, if_false, hqc, List.mem_singleton]
      have := num_bounds c (id + 1) q hqc
      constructor
      · intro h; omega
      · intro h; exact h.elim
    · simp only [hqp, if_false, hqc, if_true, hdp, hdc, List.mem_append, List.mem_singleton,
        or_false]
      exact ihc (id + 1) q d w4 hqc hdc
    · simp only [hqp, if_false, hqc, if_true, hdp, hdc]
      have h1 := num_bounds c (id + 1) q hqc
      have h2 := num_bounds s (id + 1 + c.size) d hds
      constructor
      · intro h; omega
      · intro h; exact absurd (ancs_subset s d q h) (w3 q hqc)
    · subst hdp
      simp only [if_true, hqp, if_false, hqc, List.mem_singleton]
      have := num_bounds s (id + 1 + c.size) q hqs
      constructor
      · intro h; omega
      · intro h; exact h.elim
    · simp only [hqp, if_false, hqc, hdp, hdc, if_true, List.mem_append, List.mem_singleton,
        or_false]
      have h1 := num_bounds s (id + 1 + c.size) q hqs
      have h2 := num_bounds c (id + 1) d hdc
      constructor
      · intro h; omega
      · intro h; exact absurd (ancs_subset c d q h) hqc
    · simp only [hqp, if_false, hqc, hdp, hdc]
      exact ihs (id + 1 + c.size) q d w5 hqs hds

/-- The numbers of a record lie inside those of every record above it. -/
theorem nest (f : FC) : ∀ (id q d : Nat), f.WF → d ∈ f.nodes → q ∈ f.ancs d →
    (f.num id q).1 ≤ (f.num id d).1 ∧ (f.num id d).2 ≤ (f.num id q).2 := by
  induction f with
  | nil => intro id q d _ hd; simp [nodes] at hd
  | node p c s ihc ihs =>
    intro id q d hwf hd hq
    obtain ⟨w1, w2, w3, w4, w5⟩ := hwf
    simp only [ancs] at hq
    simp only [num]
    by_cases hdp : d = p
    · simp only [hdp, if_true, List.mem_singleton] at hq
      subst hdp; subst hq
      simp
    · simp only [hdp, if_false] at hq ⊢
      by_cases hdc : d ∈ c.nodes
      · simp only [hdc, if_true, List.mem_append, List.mem_singleton] at hq ⊢
        rcases hq with hq | hq
        · have hqc := ancs_subset c d q hq
          have hqp : q ≠ p := fun e => w1 (e ▸ hqc)
          simp only [hqp, if_false, hqc, if_true]
          exact ihc (id + 1) q d w4 hdc hq
        · subst hq
          simp only [if_true]
          have := num_bounds c (id + 1) d hdc
          omega
      · simp only [hdc, if_false] at hq ⊢
        have hds : d ∈ s.nodes := by
          rcases mem_nodes_node.1 hd with h | h | h
          · exact absurd h hdp
          · exact absurd h hdc
          · exact h
        have hqs := ancs_subset s d q hq
        have hqp : q ≠ p := fun e => w2 (e ▸ hqs)
        have hqc : q ∉ c.nodes := fun h => w3 q h hqs
        simp only [hqp, if_false, hqc]
        exact ihs (id + 1 + c.size) q d w5 hds hq

/-- The upward path of a record in a stored forest follows the parent
pointers. -/
theorem ancs_parent {m : Nat → castle_version} (f : FC) : ∀ (par : Option Nat) (d : Nat),
    f.WF → Rep m par f → d ∈ f.nodes →
    ((m d).parent = par ∧ f.ancs d = [d]) ∨
    (∃ q, (m d).parent = some q ∧ q ∈ f.nodes ∧ f.ancs d = d :: f.ancs q) := by
  induction f with
  | nil => intro par d _ _ hd; simp [nodes] at hd
  | node p c s ihc ihs =>
    intro par d hwf hr hd
    obtain ⟨w1, w2, w3, w4, w5⟩ := hwf
    obtain ⟨h1, h2, h3, h4, h5⟩ := hr
    simp only [ancs]
    by_cases hdp : d = p
    · subst hdp
      left
      simp [h1]
    · simp only [hdp, if_false]
      by_cases hdc : d ∈ c.nodes
      · simp only [hdc, if_true]
        right
        rcases ihc (some p) d w4 h4 hdc with ⟨ha, hb⟩ | ⟨q, ha, hb, hc⟩
        · refine ⟨p, ha, by simp [nodes], ?_⟩
          rw [hb]; simp
        · refine ⟨q, ha, mem_nodes_node.2 (Or.inr (Or.inl hb)), ?_⟩
          have hqp : q ≠ p := fun e => w1 (e ▸ hb)
          rw [hc]
          simp [hqp, hb]
      · simp only [hdc, if_false]
        have hds : d ∈ s.nodes := by
          rcases mem_nodes_node.1 hd with h | h | h
          · exact absurd h hdp
          · exact absurd h hdc
          · exact h
        rcases ihs par d w5 h5 hds with ⟨ha, hb⟩ | ⟨q, ha, hb, hc⟩
        · left; exact ⟨ha, hb⟩
        · right
          refine ⟨q, ha, mem_nodes_node.2 (Or.inr (Or.inr hb)), ?_⟩
          have hqp : q ≠ p := fun e => w2 (e ▸ hb)
          have hqc : q ∉ c.nodes := fun h => w3 q h hb
          rw [hc]
          simp [hqp, hqc]

end FC

/-! ## The state after `castle_versions_process` -/

theorem FC.steps_le (f : FC) : f.steps ≤ 2 * f.size := by
  induction f with
  | nil => simp [FC.steps]
  | node p c s ihc ihs =>
    rw [FC.size_node]
    simp only [FC.steps]
    cases hc : c.head with
    | none =>
      have := FC.head_eq_none hc
      subst this
      simp [FC.steps] at ihc ⊢
      omega
    | some r =>
      simp only [if_false, reduceCtorEq]
      have : 1 ≤ c.size := by
        cases c with
        | nil => simp [FC.head] at hc
        | node q c' s' => rw [FC.size_node]; omega
      omega

theorem nodup_bounded_length {l : List Nat} {n : Nat} (hnd : l.Nodup) (hlt : ∀ p ∈ l, p < n) :
    l.length ≤ n := by
  have hsub : l ⊆ List.range n := fun p hp => List.mem_range.2 (hlt p hp)
  have := (List.subperm_of_subset hnd hsub).length_le
  simpa using this

/-- With enough fuel `castle_versions_process` returns on every valid forest. -/
theorem process_done {adds : List AddCall} (hv : valid_forest adds) (fuel : Nat)
    (hfuel : 2 * adds.length + 2 ≤ fuel) :
    ∃ root st f, castle_versions_process fuel (add_all adds) = Res.ok st ∧
      Done adds root st f := by
  have hv' := hv
  obtain ⟨hnd, h0, hreach, hsmall⟩ := hv'
  obtain ⟨root, hinit⟩ := PInv_init hv
  have hlen0 : (add_all adds).init_list.length ≤ adds.length :=
    nodup_bounded_length hinit.init_nodup (fun p hp => ((hinit.init_iff p).1 hp).1)
  obtain ⟨st1, f, hr1, h1, hnil⟩ := @parenting_pass_ok adds root hv fuel (by omega)
    _ fuel (add_all adds) _ hinit rfl (by omega)
  have hall : ∀ p, p < adds.length → (st1.mem p).inited = true := by
    intro p hp
    cases hpi : (st1.mem p).inited with
    | true => rfl
    | false =>
      have := (h1.init_iff p).2 ⟨hp, hpi⟩
      rw [hnil] at this
      simp at this
  have hnodes : ∀ p, p ∈ f.nodes ↔ p < adds.length := by
    intro p
    constructor
    · exact h1.nodes_lt p
    · intro hp; exact (h1.inited_iff p hp).1 (hall p hp)
  have hsize : f.size ≤ adds.length :=
    nodup_bounded_length h1.wf.nodup h1.nodes_lt
  have hrl := h1.root_lt
  have hroot' : adds[root]? = some adds[root] := by simp [hrl]
  have hget : castle_versions_hash_get st1 0 = some root :=
    (hash_get_iff h1.frame hnd 0 root).2 ⟨_, hroot', by
      rw [← (h1.frame.recs root _ hroot').1]; exact h1.root_ver⟩
  obtain ⟨c, hc⟩ := h1.shape
  have hrpar : (st1.mem root).parent = none := by
    have := h1.rep
    rw [hc] at this
    exact this.1
  have hsteps := FC.steps_le f
  obtain ⟨k, hk⟩ : ∃ k, fuel = f.steps + k := ⟨fuel - f.steps, by omega⟩
  have hnum : numbering_pass fuel st1.mem (some root) 0 true = Res.ok (f.assign 0 st1.mem) := by
    rw [hk, numbering_pass_forest f root st1.mem none 0 k (by rw [hc]; rfl) h1.rep
      (by omega)]
    rw [numbering_pass]
  have hstrip := fun x => strip_fields (FC.strip_assign f 0 st1.mem x)
  refine ⟨root, { st1 with mem := f.assign 0 st1.mem }, f, ?_, ?_⟩
  · unfold castle_versions_process
    rw [hr1]
    simp only [hget, hall root h1.root_lt, hrpar, hnum]
    simp
  · refine ⟨⟨h1.frame.nr_eq, ?_, ?_⟩, h1.root_lt, ?_, h1.shape, ?_, h1.wf, hnodes, ?_, ?_, ?_,
      hnil⟩
    · intro i a hi
      have := h1.frame.recs i a hi
      dsimp only
      rw [(hstrip i).1, (hstrip i).2.1, (hstrip i).2.2.2.2.2.1, (hstrip i).2.2.2.2.2.2.1]
      exact this
    · intro b p
      dsimp only
      rw [(hstrip p).1]
      exact h1.frame.hash_mem b p
    · dsimp only
      rw [(hstrip root).1]; exact h1.root_ver
    · exact FC.Rep_congr (fun x => FC.strip_assign f 0 st1.mem x) f none h1.rep
    · intro p hp
      dsimp only
      rw [(hstrip p).2.2.2.2.2.2.2]
      exact hall p hp
    · intro p hp hpr
      obtain ⟨q, hq1, hq2, hq3⟩ := h1.par_ok p hp hpr
      refine ⟨q, ?_, hq2, ?_⟩
      · dsimp only; rw [(hstrip p).2.2.1]; exact hq1
      · dsimp only; rw [(hstrip q).1, (hstrip p).2.1]; exact hq3
    · intro p hp
      exact FC.assign_num f 0 st1.mem p h1.wf ((hnodes p).2 hp)

theorem parent_path_zero (adds : List AddCall) (fuel : Nat) :
    parent_path adds fuel 0 = [0] := by
  cases fuel <;> simp [parent_path]

theorem parent_path_succ {adds : List AddCall} {fuel v p : Nat} (hv : v ≠ 0)
    (hp : parent_id adds v = some p) :
    parent_path adds (fuel + 1) v = v :: parent_path adds fuel p := by
  simp [parent_path, hv, hp]

theorem Done.ancs_root {adds : List AddCall} {root : Nat} {st : Versions} {f : FC}
    (h : Done adds root st f) : f.ancs root = [root] := by
  obtain ⟨c, hc⟩ := h.shape
  rw [hc]; simp [FC.ancs]

/-- The parent path of a version, read off the add calls, is the upward path
of its record in the stored tree. -/
theorem parent_path_eq_ancs {adds : List AddCall} {root : Nat} {st : Versions} {f : FC}
    (h : Done adds root st f) (hnd : (ids adds).Nodup) :
    ∀ (k fuel d : Nat), d < adds.length →
      (∃ fd, depth_of adds fd (st.mem d).version = some k) → k ≤ fuel →
      parent_path adds fuel (st.mem d).version =
        (f.ancs d).map (fun x => (st.mem x).version) := by
  intro k
  induction k with
  | zero =>
    intro fuel d hd ⟨fd, hdep⟩ _
    have hz := depth_of_zero hdep
    have hdr : d = root := version_inj h.frame hnd hd h.root_lt (by rw [hz, h.root_ver])
    subst hdr
    rw [hz, parent_path_zero, h.ancs_root]
    simp [hz]
  | succ k ih =>
    intro fuel d hd ⟨fd, hdep⟩ hk
    obtain ⟨fuel', rfl⟩ : ∃ fuel', fuel = fuel' + 1 := ⟨fuel - 1, by omega⟩
    obtain ⟨hne, pv, fd', hpv, hdp⟩ := depth_of_succ hdep
    have hpe := parent_v_eq h.frame hnd hd
    rw [hpv] at hpe
    have hpv' : (st.mem d).parent_v = pv := (Option.some.inj hpe).symm
    have hdr : d ≠ root := by
      intro e; rw [e, h.root_ver] at hne; exact hne rfl
    have hdn := (h.nodes_iff d).2 hd
    obtain ⟨q, hq1, hq2, hq3⟩ := h.par_ok d hdn hdr
    rw [parent_path_succ hne hpv]
    rcases FC.ancs_parent f none d h.wf h.rep hdn with ⟨ha, _⟩ | ⟨q', ha, _, hc⟩
    · rw [hq1] at ha; cases ha
    · rw [hq1] at ha
      cases ha
      rw [hc, List.map_cons]
      have := ih fuel' q hq2 ⟨fd', by rw [hq3, hpv']; exact hdp⟩ (by omega)
      rw [hq3, hpv'] at this
      rw [this]

theorem Done.lookup {adds : List AddCall} {root : Nat} {st : Versions} {f : FC}
    (h : Done adds root st f) (hnd : (ids adds).Nodup) {v : Nat} (hv : v ∈ ids adds) :
    ∃ p, castle_versions_hash_get st v = some p ∧ p < adds.length ∧ (st.mem p).version = v := by
  obtain ⟨a, ha, hav⟩ := List.mem_map.1 hv
  obtain ⟨p, hp⟩ := List.mem_iff_getElem?.1 ha
  refine ⟨p, (hash_get_iff h.frame hnd v p).2 ⟨a, hp, hav⟩, (List.getElem?_eq_some.1 hp).1, ?_⟩
  rw [(h.frame.recs p a hp).1, hav]

theorem Done.order_bounds {adds : List AddCall} {root : Nat} {st : Versions} {f : FC}
    (h : Done adds root st f) {p : Nat} (hp : p < adds.length) :
    0 < (st.mem p).o_order ∧ (st.mem p).o_order ≤ (st.mem p).r_order ∧
      (st.mem p).r_order ≤ adds.length := by
  have hb := FC.num_bounds f 0 p ((h.nodes_iff p).2 hp)
  have hs : f.size ≤ adds.length :=
    nodup_bounded_length h.wf.nodup (fun q hq => (h.nodes_iff q).1 hq)
  rw [(h.orders p hp).1, (h.orders p hp).2]
  omega

/-- The interval test on two records decides whether the first lies on the
parent path of the second. -/
theorem Done.interval {adds : List AddCall} {root : Nat} {st : Versions} {f : FC}
    (h : Done adds root st f) (hv : valid_forest adds) {a d : Nat}
    (ha : a < adds.length) (hd : d < adds.length) :
    ((st.mem a).o_order ≤ (st.mem d).o_order ∧ (st.mem d).o_order ≤ (st.mem a).r_order) ↔
      (st.mem a).version ∈ parent_path adds adds.length (st.mem d).version := by
  obtain ⟨hnd, h0, hreach, _⟩ := hv
  have hd' : adds[d]? = some adds[d] := by simp [hd]
  have hmem : (st.mem d).version ∈ ids adds := by
    rw [(h.frame.recs d _ hd').1]; exact List.mem_map.2 ⟨_, mem_of_getElem?_some hd', rfl⟩
  obtain ⟨k, hk⟩ := Option.isSome_iff_exists.1 (hreach _ hmem)
  rw [parent_path_eq_ancs h hnd k adds.length d hd ⟨_, hk⟩ (depth_of_le hk)]
  rw [(h.orders a ha).1, (h.orders a ha).2, (h.orders d hd).1]
  rw [FC.interval_iff f 0 a d h.wf ((h.nodes_iff a).2 ha) ((h.nodes_iff d).2 hd)]
  constructor
  · intro hm; exact List.mem_map.2 ⟨a, hm, rfl⟩
  · intro hm
    obtain ⟨x, hx, hxe⟩ := List.mem_map.1 hm
    have hxl : x < adds.length := (h.nodes_iff x).1 (FC.ancs_subset f d x hx)
    have : x = a := version_inj h.frame hnd hxl ha hxe
    rw [← this]; exact hx

theorem is_ancestor_of_done {adds : List AddCall} {root : Nat} {st : Versions} {f : FC}
    (h : Done adds root st f) (hv : valid_forest adds) {A D : Nat}
    (hA : A ∈ ids adds) (hD : D ∈ ids adds) :
    castle_version_is_ancestor st A D =
      Res.ok (decide (A ∈ parent_path adds adds.length D)) := by
  obtain ⟨a, hga, hal, hav⟩ := h.lookup hv.1 hA
  obtain ⟨d, hgd, hdl, hdv⟩ := h.lookup hv.1 hD
  have hsmall := hv.2.2.2
  have hba := h.order_bounds hal
  have hbd := h.order_bounds hdl
  have hi := h.interval hv hal hdl
  rw [hav, hdv] at hi
  unfold castle_version_is_ancestor
  rw [hgd, hga]
  have e1 : VERSION_INVAL (st.mem d).o_order = false := by
    simp only [VERSION_INVAL, INVAL_VERSION, beq_eq_false_iff_ne]; omega
  have e2 : VERSION_INVAL (st.mem a).o_order = false := by
    simp only [VERSION_INVAL, INVAL_VERSION, beq_eq_false_iff_ne]; omega
  have e3 : VERSION_INVAL (st.mem a).r_order = false := by
    simp only [VERSION_INVAL, INVAL_VERSION, beq_eq_false_iff_ne]; omega
  simp only [h.inited d hdl, h.inited a hal, e1, e2, e3, Bool.not_true, Bool.false_eq_true,
    if_false]
  congr 1
  by_cases hm : A ∈ parent_path adds adds.length D
  · have := hi.2 hm
    simp [hm, this.1, this.2]
  · have : ¬ ((st.mem a).o_order ≤ (st.mem d).o_order ∧
        (st.mem d).o_order ≤ (st.mem a).r_order) := fun hc => hm (hi.1 hc)
    simp only [hm, decide_False]
    by_cases h1 : (st.mem a).o_order ≤ (st.mem d).o_order
    · have h2 : ¬ (st.mem d).o_order ≤ (st.mem a).r_order := fun hc => this ⟨h1, hc⟩
      simp [h1, h2]
    · simp [h1]

/-! ## Child lists -/

namespace FC

theorem tops_sublist (f : FC) : (tops f).Sublist f.nodes := by
  induction f with
  | nil => simp [tops, nodes]
  | node p c s _ ihs =>
    simp only [tops, nodes]
    exact List.Sublist.cons₂ p (ihs.trans (List.sublist_append_right _ _))

theorem kids_sublist (f : FC) (q : Nat) : (kids f q).Sublist f.nodes := by
  induction f with
  | nil => simp [kids, nodes]
  | node p c s ihc ihs =>
    simp only [kids, nodes]
    by_cases hq : q = p
    · simp only [hq, if_true]
      exact List.Sublist.cons p ((tops_sublist c).trans (List.sublist_append_left _ _))
    · simp only [hq, if_false]
      by_cases hqc : q ∈ c.nodes
      · simp only [hqc, if_true]
        exact List.Sublist.cons p (ihc.trans (List.sublist_append_left _ _))
      · simp only [hqc, if_false]
        exact List.Sublist.cons p (ihs.trans (List.sublist_append_right _ _))

theorem tops_length_le (f : FC) : (tops f).length ≤ f.size :=
  (tops_sublist f).length_le

theorem chain_tops {m : Nat → castle_version} (f : FC) : ∀ (par : Option Nat) (fuel : Nat),
    Rep m par f → (tops f).length ≤ fuel → sibling_chain m fuel f.head = tops f := by
  induction f with
  | nil =>
    intro par fuel _ _
    cases fuel <;> simp [sibling_chain, head, tops]
  | node p c s _ ihs =>
    intro par fuel hr hl
    obtain ⟨_, _, h3, _, h5⟩ := hr
    simp only [tops, List.length_cons] at hl
    obtain ⟨fuel', rfl⟩ : ∃ fuel', fuel = fuel' + 1 := ⟨fuel - 1, by omega⟩
    simp only [head, sibling_chain, tops]
    rw [h3, ihs par fuel' h5 (by omega)]

theorem chain_kids {m : Nat → castle_version} (f : FC) : ∀ (par : Option Nat) (fuel q : Nat),
    Rep m par f → q ∈ f.nodes → f.size ≤ fuel →
    child_list m fuel q = kids f q := by
  induction f with
  | nil => intro par fuel q _ hq; simp [nodes] at hq
  | node p c s ihc ihs =>
    intro par fuel q hr hq hl
    obtain ⟨_, h2, _, h4, h5⟩ := hr
    rw [size_node] at hl
    simp only [kids]
    by_cases hqp : q = p
    · subst hqp
      simp only [if_true, child_list]
      rw [h2]
      exact chain_tops c (some q) fuel h4 (by have := tops_length_le c; omega)
    · simp only [hqp, if_false]
      by_cases hqc : q ∈ c.nodes
      · simp only [hqc, if_true]
        exact ihc (some p) fuel q h4 hqc (by omega)
      · simp only [hqc, if_false]
        rcases mem_nodes_node.1 hq with h | h | h
        · exact absurd h hqp
        · exact absurd h hqc
        · exact ihs par fuel q h5 h (by omega)

theorem parent_cases {m : Nat → castle_version} (f : FC) (par : Option Nat) (x : Nat)
    (hwf : f.WF) (hr : Rep m par f) (hx : x ∈ f.nodes) :
    (m x).parent = par ∨ ∃ y, y ∈ f.nodes ∧ (m x).parent = some y := by
  rcases ancs_parent f par x hwf hr hx with ⟨h, _⟩ | ⟨q, h1, h2, _⟩
  · exact Or.inl h
  · exact Or.inr ⟨q, h2, h1⟩

theorem tops_mem {m : Nat → castle_version} (f : FC) : ∀ (par : Option Nat) (x : Nat),
    f.WF → Rep m par f → (∀ y, par = some y → y ∉ f.nodes) →
    (x ∈ tops f ↔ x ∈ f.nodes ∧ (m x).parent = par) := by
  induction f with
  | nil => intro par x _ _ _; simp [tops, nodes]
  | node p c s _ ihs =>
    intro par x hwf hr hpar
    obtain ⟨w1, w2, w3, w4, w5⟩ := hwf
    obtain ⟨h1, h2, h3, h4, h5⟩ := hr
    have hpars : ∀ y, par = some y → y ∉ s.nodes := fun y hy hys =>
      hpar y hy (mem_nodes_node.2 (Or.inr (Or.inr hys)))
    simp only [tops, List.mem_cons, mem_nodes_node]
    rw [ihs par x w5 h5 hpars]
    constructor
    · rintro (h | ⟨h, h'⟩)
      · subst h; exact ⟨Or.inl rfl, h1⟩
      · exact ⟨Or.inr (Or.inr h), h'⟩
    · rintro ⟨h | h | h, h'⟩
      · exact Or.inl h
      · exfalso
        rcases parent_cases c (some p) x w4 h4 h with e | ⟨y, hy, e⟩
        · rw [e] at h'
          exact hpar p h'.symm (by simp [nodes])
        · rw [e] at h'
          exact hpar y h'.symm (mem_nodes_node.2 (Or.inr (Or.inl hy)))
      · exact Or.inr ⟨h, h'⟩

theorem kids_mem {m : Nat → castle_version} (f : FC) : ∀ (par : Option Nat) (q x : Nat),
    f.WF → Rep m par f → (∀ y, par = some y → y ∉ f.nodes) → q ∈ f.nodes →
    (x ∈ kids f q ↔ x ∈ f.nodes ∧ (m x).parent = some q) := by
  induction f with
  | nil => intro par q x _ _ _ hq; simp [nodes] at hq
  | node p c s ihc ihs =>
    intro par q x hwf hr hpar hq
    obtain ⟨w1, w2, w3, w4, w5⟩ := hwf
    obtain ⟨h1, h2, h3, h4, h5⟩ := hr
    have hpars : ∀ y, par = some y → y ∉ s.nodes := fun y hy hys =>
      hpar y hy (mem_nodes_node.2 (Or.inr (Or.inr hys)))
    have hparc : ∀ y, some p = some y → y ∉ c.nodes := by
      intro y hy; cases hy; exact w1
    have hpf : p ∈ (node p c s).nodes := by simp [nodes]
    have hparq : par ≠ some q := fun e => hpar q e hq
    have hparp : par ≠ some p := fun e => hpar p e hpf
    simp only [kids]
    by_cases hqp : q = p
    · subst hqp
      simp only [if_true]
      rw [tops_mem c (some q) x w4 h4 hparc]
      constructor
      · rintro ⟨h, h'⟩
        exact ⟨mem_nodes_node.2 (Or.inr (Or.inl h)), h'⟩
      · rintro ⟨h, h'⟩
        rcases mem_nodes_node.1 h with e | e | e
        · subst e; rw [h1] at h'; exact absurd h' hparp
        · exact ⟨e, h'⟩
        · exfalso
          rcases parent_cases s par x w5 h5 e with e2 | ⟨y, hy, e2⟩
          · rw [e2] at h'; exact hparp h'
          · rw [e2] at h'; cases h'; exact w2 hy
    · simp only [hqp, if_false]
      by_cases hqc : q ∈ c.nodes
      · simp only [hqc, if_true]
        rw [ihc (some p) q x w4 h4 hparc hqc]
        constructor
        · rintro ⟨h, h'⟩
          exact ⟨mem_nodes_node.2 (Or.inr (Or.inl h)), h'⟩
        · rintro ⟨h, h'⟩
          rcases mem_nodes_node.1 h with e | e | e
          · subst e; rw [h1] at h'; exact absurd h' hparq
          · exact ⟨e, h'⟩
          · exfalso
            rcases parent_cases s par x w5 h5 e with e2 | ⟨y, hy, e2⟩
            · rw [e2] at h'; exact hparq h'
            · rw [e2] at h'; cases h'; exact w3 q hqc hy
      · simp only [hqc, if_false]
        have hqs : q ∈ s.nodes := by
          rcases mem_nodes_node.1 hq with h | h | h
          · exact absurd h hqp
          · exact absurd h hqc
          · exact h
        rw [ihs par q x w5 h5 hpars hqs]
        constructor
        · rintro ⟨h, h'⟩
          exact ⟨mem_nodes_node.2 (Or.inr (Or.inr h)), h'⟩
        · rintro ⟨h, h'⟩
          rcases mem_nodes_node.1 h with e | e | e
          · subst e; rw [h1] at h'; exact absurd h' hparq
          · exfalso
            rcases parent_cases c (some p) x w4 h4 e with e2 | ⟨y, hy, e2⟩
            · rw [e2] at h'; cases h'; exact hqp rfl
            · rw [e2] at h'; cases h'; exact hqc hy
          · exact ⟨e, h'⟩

end FC

/-! ## Claims about the version index -/

/-- C1: on every valid version forest `castle_versions_process` returns, and then
`castle_version_is_ancestor A D` is true exactly when `A` lies on the parent
path from `D` up to version 0 (`D` included); for the tree 0->1, 0->2, 1->3, in
any order of the add calls, `is_ancestor(0,3)` is true and `is_ancestor(1,2)`,
`is_ancestor(2,3)` are false. -/
theorem is_ancestor_iff_on_parent_path (adds : List AddCall) (hv : valid_forest adds)
    (fuel : Nat) (hfuel : 2 * adds.length + 2 ≤ fuel) :
    ∃ st, castle_versions_process fuel (add_all adds) = Res.ok st ∧
      (∀ A ∈ ids adds, ∀ D ∈ ids adds,
        castle_version_is_ancestor st A D =
          Res.ok (decide (A ∈ parent_path adds adds.length D))) ∧
      ((ids adds).Perm [0, 1, 2, 3] → parent_id adds 1 = some 0 →
        parent_id adds 2 = some 0 → parent_id adds 3 = some 1 →
        castle_version_is_ancestor st 0 3 = Res.ok true ∧
        castle_version_is_ancestor st 1 2 = Res.ok false ∧
        castle_version_is_ancestor st 2 3 = Res.ok false) := by
  obtain ⟨root, st, f, hr, hd⟩ := process_done hv fuel hfuel
  refine ⟨st, hr, fun A hA D hD => is_ancestor_of_done hd hv hA hD, ?_⟩
  intro hperm h1 h2 h3
  have hlen : adds.length = 4 := by
    have := hperm.length_eq
    simpa [ids] using this
  have hm : ∀ x, x ∈ ids adds ↔ x ∈ [0, 1, 2, 3] := fun x => hperm.mem_iff
  have p3 : parent_path adds adds.length 3 = [3, 1, 0] := by
    rw [hlen, parent_path_succ (by decide) h3, parent_path_succ (by decide) h1,
      parent_path_zero]
  have p2 : parent_path adds adds.length 2 = [2, 0] := by
    rw [hlen, parent_path_succ (by decide) h2, parent_path_zero]
  refine ⟨?_, ?_, ?_⟩
  · rw [is_ancestor_of_done hd hv ((hm 0).2 (by decide)) ((hm 3).2 (by decide)), p3]
    rfl
  · rw [is_ancestor_of_done hd hv ((hm 1).2 (by decide)) ((hm 2).2 (by decide)), p2]
    rfl
  · rw [is_ancestor_of_done hd hv ((hm 2).2 (by decide)) ((hm 3).2 (by decide)), p3]
    rfl

/-- C1, at the tree of scenario E1 added in the order 3, 0, 2, 1. -/
theorem is_ancestor_iff_on_parent_path_witness :
    ∃ st, castle_versions_process 10 (add_all e1_adds) = Res.ok st ∧
      castle_version_is_ancestor st 0 3 = Res.ok true ∧
      castle_version_is_ancestor st 1 2 = Res.ok false ∧
      castle_version_is_ancestor st 2 3 = Res.ok false := by
  obtain ⟨st, h1, _, h3⟩ :=
    is_ancestor_iff_on_parent_path e1_adds (by decide) 10 (by decide)
  exact ⟨st, h1, h3 (by decide) (by decide) (by decide) (by decide)⟩

/-- C2: after `castle_versions_process` on a valid forest every version `V` has
`o_order(V) <= r_order(V)`, and every version `D` below `V` (one whose parent
path passes through `V`) has
`o_order(V) <= o_order(D) <= r_order(D) <= r_order(V)`. -/
theorem dfs_numbering_nested (adds : List AddCall) (hv : valid_forest adds)
    (fuel : Nat) (hfuel : 2 * adds.length + 2 ≤ fuel) :
    ∃ st, castle_versions_process fuel (add_all adds) = Res.ok st ∧
      ∀ V ∈ ids adds, ∃ oV rV, o_order_of st V = some oV ∧ r_order_of st V = some rV ∧
        oV ≤ rV ∧
        ∀ D ∈ ids adds, V ∈ parent_path adds adds.length D →
          ∃ oD rD, o_order_of st D = some oD ∧ r_order_of st D = some rD ∧
            oV ≤ oD ∧ oD ≤ rD ∧ rD ≤ rV := by
  obtain ⟨root, st, f, hr, hd⟩ := process_done hv fuel hfuel
  refine ⟨st, hr, ?_⟩
  intro V hV
  obtain ⟨a, hga, hal, hav⟩ := hd.lookup hv.1 hV
  refine ⟨(st.mem a).o_order, (st.mem a).r_order, by simp [o_order_of, hga],
    by simp [r_order_of, hga], (hd.order_bounds hal).2.1, ?_⟩
  intro D hD hpath
  obtain ⟨d, hgd, hdl, hdv⟩ := hd.lookup hv.1 hD
  refine ⟨(st.mem d).o_order, (st.mem d).r_order, by simp [o_order_of, hgd],
    by simp [r_order_of, hgd], ?_, (hd.order_bounds hdl).2.1, ?_⟩
  · have := (hd.interval hv hal hdl).2 (by rw [hav, hdv]; exact hpath)
    exact this.1
  · obtain ⟨hnd, h0, hreach, _⟩ := hv
    obtain ⟨k, hk⟩ := Option.isSome_iff_exists.1 (hreach _ hD)
    have hpe := parent_path_eq_ancs hd hnd k adds.length d hdl ⟨_, by rw [hdv]; exact hk⟩
      (depth_of_le hk)
    rw [hdv] at hpe
    rw [hpe] at hpath
    obtain ⟨x, hx, hxe⟩ := List.mem_map.1 hpath
    have hxl : x < adds.length := (hd.nodes_iff x).1 (FC.ancs_subset f d x hx)
    have hxa : x = a := version_inj hd.frame hnd hxl hal (by rw [hxe, hav])
    subst hxa
    have := FC.nest f 0 x d hd.wf ((hd.nodes_iff d).2 hdl) hx
    rw [(hd.orders d hdl).2, (hd.orders x hal).2]
    exact this.2

/-- C2, at the tree of scenario E1 added in the order 3, 0, 2, 1. -/
theorem dfs_numbering_nested_witness :
    ∃ st, castle_versions_process 10 (add_all e1_adds) = Res.ok st ∧
      ∀ V ∈ ids e1_adds, ∃ oV rV, o_order_of st V = some oV ∧ r_order_of st V = some rV ∧
        oV ≤ rV ∧
        ∀ D ∈ ids e1_adds, V ∈ parent_path e1_adds e1_adds.length D →
          ∃ oD rD, o_order_of st D = some oD ∧ r_order_of st D = some rD ∧
            oV ≤ oD ∧ oD ≤ rD ∧ rD ≤ rV :=
  dfs_numbering_nested e1_adds (by decide) 10 (by decide)

/-- C3: after `castle_versions_process` on a valid forest every added version
is initialised and has both order numbers different from `INVAL_VERSION`; version
0 has no parent, every other version points to the record of its parent id; and
the child list of every version (its `first_child`, then `next_sybling` links)
has no record twice and holds exactly the records of the versions whose parent
id it is. -/
theorem process_builds_forest (adds : List AddCall) (hv : valid_forest adds)
    (fuel : Nat) (hfuel : 2 * adds.length + 2 ≤ fuel) :
    ∃ st, castle_versions_process fuel (add_all adds) = Res.ok st ∧
      st.nr = adds.length ∧
      ∀ v ∈ ids adds, ∃ p, castle_versions_hash_get st v = some p ∧
        (st.mem p).inited = true ∧
        (st.mem p).o_order ≠ INVAL_VERSION ∧ (st.mem p).r_order ≠ INVAL_VERSION ∧
        (v = 0 → (st.mem p).parent = none) ∧
        (v ≠ 0 → ∃ pv, parent_id adds v = some pv ∧
          (st.mem p).parent = castle_versions_hash_get st pv ∧
          (st.mem p).parent ≠ none) ∧
        (child_list st.mem adds.length p).Nodup ∧
        ∀ x, x ∈ child_list st.mem adds.length p ↔
          (x < st.nr ∧ (st.mem x).version ≠ 0 ∧
            parent_id adds (st.mem x).version = some v) := by
  obtain ⟨root, st, f, hr, hd⟩ := process_done hv fuel hfuel
  obtain ⟨hnd, h0, hreach, hsmall⟩ := hv
  refine ⟨st, hr, hd.frame.nr_eq, ?_⟩
  intro v hvm
  obtain ⟨p, hgp, hpl, hpv⟩ := hd.lookup hnd hvm
  have hb := hd.order_bounds hpl
  have hpn := (hd.nodes_iff p).2 hpl
  have hsize : f.size ≤ adds.length :=
    nodup_bounded_length hd.wf.nodup (fun q hq => (hd.nodes_iff q).1 hq)
  have hkids := FC.chain_kids f none adds.length p hd.rep hpn hsize
  have hrootpar : (st.mem root).parent = none := by
    obtain ⟨c, hc⟩ := hd.shape
    have := hd.rep
    rw [hc] at this
    exact this.1
  refine ⟨p, hgp, hd.inited p hpl, ?_, ?_, ?_, ?_, ?_, ?_⟩
  · simp only [INVAL_VERSION]; omega
  · simp only [INVAL_VERSION]; omega
  · intro hv0
    have : p = root := version_inj hd.frame hnd hpl hd.root_lt (by rw [hpv, hv0, hd.root_ver])
    rw [this]; exact hrootpar
  · intro hv0
    have hpr : p ≠ root := by
      intro e; rw [e, hd.root_ver] at hpv; exact hv0 hpv.symm
    obtain ⟨q, hq1, hq2, hq3⟩ := hd.par_ok p hpn hpr
    have hq' : adds[q]? = some adds[q] := by simp [hq2]
    refine ⟨(st.mem p).parent_v, ?_, ?_, ?_⟩
    · rw [← hpv]; exact parent_v_eq hd.frame hnd hpl
    · rw [hq1]
      exact ((hash_get_iff hd.frame hnd _ q).2 ⟨_, hq', by
        rw [← (hd.frame.recs q _ hq').1]; exact hq3⟩).symm
    · rw [hq1]; simp
  · rw [hkids]
    exact (FC.kids_sublist f p).nodup hd.wf.nodup
  · intro x
    rw [hkids, FC.kids_mem f none p x hd.wf hd.rep (by intro y hy; cases hy) hpn, hd.nodes_iff,
      hd.frame.nr_eq]
    constructor
    · rintro ⟨hxl, hxp⟩
      have hxr : x ≠ root := by
        intro e; rw [e, hrootpar] at hxp; cases hxp
      obtain ⟨q, hq1, hq2, hq3⟩ := hd.par_ok x ((hd.nodes_iff x).2 hxl) hxr
      rw [hxp] at hq1
      cases hq1
      refine ⟨hxl, ?_, ?_⟩
      · intro e
        exact hxr (version_inj hd.frame hnd hxl hd.root_lt (by rw [e, hd.root_ver]))
      · rw [parent_v_eq hd.frame hnd hxl, ← hq3, hpv]
    · rintro ⟨hxl, hx0, hxp⟩
      have hxr : x ≠ root := by
        intro e; rw [e, hd.root_ver] at hx0; exact hx0 rfl
      obtain ⟨q, hq1, hq2, hq3⟩ := hd.par_ok x ((hd.nodes_iff x).2 hxl) hxr
      rw [parent_v_eq hd.frame hnd hxl] at hxp
      have hqp : q = p := version_inj hd.frame hnd hq2 hpl (by
        rw [hq3, hpv]; exact Option.some.inj hxp)
      rw [← hqp]
      exact ⟨hxl, hq1⟩

/-- C3, at the tree of scenario E1 added in the order 3, 0, 2, 1. -/
theorem process_builds_forest_witness :
    ∃ st, castle_versions_process 10 (add_all e1_adds) = Res.ok st ∧
      st.nr = e1_adds.length ∧
      ∀ v ∈ ids e1_adds, ∃ p, castle_versions_hash_get st v = some p ∧
        (st.mem p).inited = true ∧
        (st.mem p).o_order ≠ INVAL_VERSION ∧ (st.mem p).r_order ≠ INVAL_VERSION ∧
        (v = 0 → (st.mem p).parent = none) ∧
        (v ≠ 0 → ∃ pv, parent_id e1_adds v = some pv ∧
          (st.mem p).parent = castle_versions_hash_get st pv ∧
          (st.mem p).parent ≠ none) ∧
        (child_list st.mem e1_adds.length p).Nodup ∧
        ∀ x, x ∈ child_list st.mem e1_adds.length p ↔
          (x < st.nr ∧ (st.mem x).version ≠ 0 ∧
            parent_id e1_adds (st.mem x).version = some v) :=
  process_builds_forest e1_adds (by decide) 10 (by decide)

/-! ## More fuel, cleared payloads -/

theorem process_version_mono : ∀ (fuel : Nat) (st : Versions) (v : Nat) (s : Versions),
    process_version fuel st v = Res.ok s →
    ∀ fuel', fuel ≤ fuel' → process_version fuel' st v = Res.ok s := by
  intro fuel
  induction fuel with
  | zero => intro st v s h; simp [process_version] at h
  | succ n ih =>
    intro st v s h fuel' hle
    obtain ⟨n', rfl⟩ : ∃ n', fuel' = n' + 1 := ⟨fuel' - 1, by omega⟩
    cases hvi : (st.mem v).inited with
    | true =>
      rw [process_version] at h; dsimp only at h; rw [if_pos hvi] at h; cases h
    | false =>
      cases hg : castle_versions_hash_get st (st.mem v).parent_v with
      | none =>
        rw [process_version] at h; dsimp only at h
        rw [if_neg (by simp [hvi])] at h
        have : castle_versions_hash_get { st with init_list := st.init_list.erase v }
          (st.mem v).parent_v = none := hg
        rw [this] at h
        cases h
      | some p =>
        cases hpi : (st.mem p).inited with
        | false =>
          rw [process_version_goto n st v p hvi hg hpi] at h
          rw [process_version_goto n' st v p hvi hg hpi]
          exact ih _ p s h n' (by omega)
        | true =>
          rw [process_version_link n st v p hvi hg hpi] at h
          rw [process_version_link n' st v p hvi hg hpi]
          exact h

theorem parenting_pass_mono {inner inner' : Nat} (hi : inner ≤ inner') :
    ∀ (fuel : Nat) (st s : Versions), parenting_pass inner fuel st = Res.ok s →
    ∀ fuel', fuel ≤ fuel' → parenting_pass inner' fuel' st = Res.ok s := by
  intro fuel
  induction fuel with
  | zero => intro st s h; simp [parenting_pass] at h
  | succ n ih =>
    intro st s h fuel' hle
    obtain ⟨n', rfl⟩ : ∃ n', fuel' = n' + 1 := ⟨fuel' - 1, by omega⟩
    rw [parenting_pass] at h
    rw [parenting_pass]
    cases hl : st.init_list with
    | nil => rw [hl] at h; exact h
    | cons v rest =>
      rw [hl] at h
      dsimp only at h ⊢
      cases hp : process_version inner st v with
      | ok st1 =>
        rw [hp] at h
        rw [process_version_mono inner st v st1 hp inner' hi]
        exact ih st1 s h n' (by omega)
      | bug => rw [hp] at h; cases h
      | timeout => rw [hp] at h; cases h

theorem numbering_pass_mono : ∀ (fuel : Nat) (m : Nat → castle_version) (v : Option Nat)
    (id : Nat) (down : Bool) (r : Nat → castle_version),
    numbering_pass fuel m v id down = Res.ok r →
    ∀ fuel', fuel ≤ fuel' → numbering_pass fuel' m v id down = Res.ok r := by
  intro fuel
  induction fuel with
  | zero =>
    intro m v id down r h fuel' _
    cases v with
    | none => rw [numbering_pass] at h ⊢; exact h
    | some v => simp [numbering_pass] at h
  | succ n ih =>
    intro m v id down r h fuel' hle
    obtain ⟨n', rfl⟩ : ∃ n', fuel' = n' + 1 := ⟨fuel' - 1, by omega⟩
    cases v with
    | none => rw [numbering_pass] at h ⊢; exact h
    | some v =>
      rw [numbering_pass] at h ⊢
      exact ih _ _ _ _ _ h n' (by omega)

/-- More fuel does not change a result of `castle_versions_process`. -/
theorem castle_versions_process_mono {fuel fuel' : Nat} (hle : fuel ≤ fuel') {st s : Versions}
    (h : castle_versions_process fuel st = Res.ok s) :
    castle_versions_process fuel' st = Res.ok s := by
  unfold castle_versions_process at h ⊢
  cases hp : parenting_pass fuel fuel st with
  | bug => rw [hp] at h; cases h
  | timeout => rw [hp] at h; cases h
  | ok st1 =>
    rw [hp] at h
    rw [parenting_pass_mono hle fuel st st1 hp fuel' hle]
    dsimp only at h ⊢
    cases hg : castle_versions_hash_get st1 0 with
    | none => rw [hg] at h; cases h
    | some v =>
      rw [hg] at h
      dsimp only at h ⊢
      split at h
      · cases h
      · split at h
        · cases h
        · rename_i h1 h2
          rw [if_neg h1, if_neg h2]
          cases hn : numbering_pass fuel st1.mem (some v) 0 true with
          | bug => rw [hn] at h; cases h
          | timeout => rw [hn] at h; cases h
          | ok mem =>
            rw [hn] at h
            rw [numbering_pass_mono fuel _ _ _ _ mem hn fuel' hle]
            exact h

theorem clear_mem_setRec (m : Nat → castle_version) (p : Nat) (r : castle_version) :
    clear_mem (setRec m p r) = setRec (clear_mem m) p (clear_payload r) := by
  funext x
  unfold clear_mem setRec
  by_cases h : x = p
  · simp [h]
  · simp [h]

theorem Versions.eq_of {a b : Versions} (h1 : a.mem = b.mem) (h2 : a.nr = b.nr)
    (h3 : a.hash = b.hash) (h4 : a.init_list = b.init_list) : a = b := by
  cases a; cases b; simp_all

theorem hash_get_clear (st : Versions) (v : Nat) :
    castle_versions_hash_get (clear_state st) v = castle_versions_hash_get st v := rfl

theorem add_clear (st : Versions) (v p : Nat) (r : c_disk_blk_t) (s : Nat) :
    castle_version_add (clear_state st) v p (0, 0) 0 =
      clear_state (castle_version_add st v p r s) := by
  unfold castle_version_add
  by_cases hv : v = 0
  · simp only [hv, if_true]
    apply Versions.eq_of
    · funext x
      by_cases hx : x = st.nr
      · simp [clear_state, castle_versions_hash_add, setRec, clear_mem, clear_payload, hx]
      · simp [clear_state, castle_versions_hash_add, setRec, clear_mem, clear_payload, hx]
    · rfl
    · funext i
      simp [clear_state, castle_versions_hash_add, setRec, clear_mem, clear_payload]
    · rfl
  · simp only [hv, if_false]
    apply Versions.eq_of
    · funext x
      by_cases hx : x = st.nr
      · simp [clear_state, castle_versions_hash_add, castle_versions_init_add, setRec, clear_mem,
          clear_payload, hx]
      · simp [clear_state, castle_versions_hash_add, castle_versions_init_add, setRec, clear_mem,
          clear_payload, hx]
    · rfl
    · funext i
      simp [clear_state, castle_versions_hash_add, castle_versions_init_add, setRec, clear_mem,
        clear_payload]
    · rfl

theorem foldl_add_clear (adds : List AddCall) : ∀ st : Versions,
    (clear_calls adds).foldl (fun st a => castle_version_add st a.1 a.2.1 a.2.2.1 a.2.2.2)
        (clear_state st) =
      clear_state (adds.foldl (fun st a => castle_version_add st a.1 a.2.1 a.2.2.1 a.2.2.2) st) := by
  induction adds with
  | nil => intro st; rfl
  | cons a l ih =>
    intro st
    simp only [clear_calls, List.map_cons, List.foldl_cons]
    rw [add_clear st a.1 a.2.1 a.2.2.1 a.2.2.2]
    exact ih _

theorem add_all_clear (adds : List AddCall) :
    add_all (clear_calls adds) = clear_state (add_all adds) := by
  have := foldl_add_clear adds castle_versions_init
  exact this

theorem link_mem_clear (m : Nat → castle_version) (v p : Nat) :
    link_mem (clear_mem m) v p = clear_mem (link_mem m v p) := by
  funext x
  by_cases hvp : v = p
  · subst hvp
    by_cases hxv : x = v
    · simp [link_mem, setRec, clear_mem, clear_payload, hxv]
    · simp [link_mem, setRec, clear_mem, clear_payload, hxv]
  · have hpv : ¬ p = v := fun e => hvp e.symm
    by_cases hxv : x = v
    · subst hxv
      simp [link_mem, setRec, clear_mem, clear_payload, hvp, hpv]
    · by_cases hxp : x = p
      · subst hxp
        simp [link_mem, setRec, clear_mem, clear_payload, hvp, hpv]
      · simp [link_mem, setRec, clear_mem, clear_payload, hxv, hxp, hvp, hpv]

theorem process_version_clear : ∀ (fuel : Nat) (st : Versions) (v : Nat),
    process_version fuel (clear_state st) v = Res.map clear_state (process_version fuel st v) := by
  intro fuel
  induction fuel with
  | zero => intro st v; rfl
  | succ n ih =>
    intro st v
    cases hvi : (st.mem v).inited with
    | true =>
      have h1 : process_version (n + 1) st v = Res.bug := by
        rw [process_version]; dsimp only; rw [if_pos hvi]
      have h2 : process_version (n + 1) (clear_state st) v = Res.bug := by
        rw [process_version]; dsimp only
        rw [if_pos (show ((clear_state st).mem v).inited = true from hvi)]
      rw [h1, h2]; rfl
    | false =>
      have hvi' : ((clear_state st).mem v).inited = false := hvi
      cases hg : castle_versions_hash_get st (st.mem v).parent_v with
      | none =>
        have h1 : process_version (n + 1) st v = Res.bug := by
          rw [process_version]; dsimp only
          rw [if_neg (by simp [hvi])]
          have : castle_versions_hash_get { st with init_list := st.init_list.erase v }
            (st.mem v).parent_v = none := hg
          rw [this]
        have h2 : process_version (n + 1) (clear_state st) v = Res.bug := by
          rw [process_version]; dsimp only
          rw [if_neg (by simp [hvi'])]
          have : castle_versions_hash_get
            { clear_state st with init_list := (clear_state st).init_list.erase v }
            ((clear_state st).mem v).parent_v = none := hg
          rw [this]
        rw [h1, h2]; rfl
      | some p =>
        have hg' : castle_versions_hash_get (clear_state st) ((clear_state st).mem v).parent_v
            = some p := hg
        cases hpi : (st.mem p).inited with
        | false =>
          rw [process_version_goto n st v p hvi hg hpi,
            process_version_goto n (clear_state st) v p hvi' hg' hpi]
          exact ih { st with init_list := v :: st.init_list.erase v } p
        | true =>
          rw [process_version_link n st v p hvi hg hpi,
            process_version_link n (clear_state st) v p hvi' hg' hpi]
          simp only [Res.map]
          congr 1
          apply Versions.eq_of
          · exact link_mem_clear st.mem v p
          · rfl
          · rfl
          · rfl

theorem parenting_pass_clear (inner : Nat) : ∀ (fuel : Nat) (st : Versions),
    parenting_pass inner fuel (clear_state st) =
      Res.map clear_state (parenting_pass inner fuel st) := by
  intro fuel
  induction fuel with
  | zero => intro st; rfl
  | succ n ih =>
    intro st
    rw [parenting_pass, parenting_pass]
    cases hl : st.init_list with
    | nil =>
      have : (clear_state st).init_list = [] := hl
      rw [this]; rfl
    | cons v rest =>
      have : (clear_state st).init_list = v :: rest := hl
      rw [this]
      dsimp only
      rw [process_version_clear]
      cases process_version inner st v with
      | ok st1 => simp only [Res.map]; exact ih st1
      | bug => rfl
      | timeout => rfl

theorem numbering_pass_clear : ∀ (fuel : Nat) (m : Nat → castle_version) (v : Option Nat)
    (id : Nat) (down : Bool),
    numbering_pass fuel (clear_mem m) v id down =
      Res.map clear_mem (numbering_pass fuel m v id down) := by
  intro fuel
  induction fuel with
  | zero =>
    intro m v id down
    cases v <;> simp [numbering_pass, Res.map]
  | succ n ih =>
    intro m v id down
    cases v with
    | none => simp [numbering_pass, Res.map]
    | some v =>
      have hset : ∀ (r : castle_version), clear_mem (setRec m v r) =
          setRec (clear_mem m) v (clear_payload r) := fun r => clear_mem_setRec m v r
      cases down with
      | true =>
        cases hc : (m v).first_child with
        | some c =>
          rw [numbering_pass_down_child n m v id c hc,
            numbering_pass_down_child n (clear_mem m) v id c hc, ← ih, hset]
          rfl
        | none =>
          cases hs : (m v).next_sybling with
          | some s =>
            rw [numbering_pass_down_leaf_sib n m v id s hc hs,
              numbering_pass_down_leaf_sib n (clear_mem m) v id s hc hs, ← ih, hset]
            rfl
          | none =>
            rw [numbering_pass_down_leaf_up n m v id hc hs,
              numbering_pass_down_leaf_up n (clear_mem m) v id hc hs, ← ih, hset]
            rfl
      | false =>
        cases hs : (m v).next_sybling with
        | some s =>
          rw [numbering_pass_up_sib n m v id s hs,
            numbering_pass_up_sib n (clear_mem m) v id s hs, ← ih, hset]
          rfl
        | none =>
          rw [numbering_pass_up_up n m v id hs,
            numbering_pass_up_up n (clear_mem m) v id hs, ← ih, hset]
          rfl

theorem process_clear (fuel : Nat) (st : Versions) :
    castle_versions_process fuel (clear_state st) =
      Res.map clear_state (castle_versions_process fuel st) := by
  unfold castle_versions_process
  rw [parenting_pass_clear]
  cases parenting_pass fuel fuel st with
  | bug => rfl
  | timeout => rfl
  | ok st1 =>
    simp only [Res.map]
    rw [hash_get_clear]
    cases castle_versions_hash_get st1 0 with
    | none => rfl
    | some v =>
      dsimp only
      have e1 : ((clear_state st1).mem v).inited = (st1.mem v).inited := rfl
      have e2 : ((clear_state st1).mem v).parent = (st1.mem v).parent := rfl
      have e3 : (clear_state st1).mem = clear_mem st1.mem := rfl
      rw [e1, e2, e3, numbering_pass_clear]
      split
      · rfl
      · split
        · rfl
        · cases numbering_pass fuel st1.mem (some v) 0 true <;> rfl

theorem orders_of_clear (r : Res Versions) (vs : List Nat) :
    orders_of (Res.map clear_state r) vs = orders_of r vs := by
  cases r <;> rfl

/-- The numbers `castle_versions_process` assigns do not depend on the payloads. -/
theorem orders_of_process_clear (fuel : Nat) (adds : List AddCall) (vs : List Nat) :
    orders_of (castle_versions_process fuel (add_all adds)) vs =
      orders_of (castle_versions_process fuel (add_all (clear_calls adds))) vs := by
  rw [add_all_clear, process_clear, orders_of_clear]

theorem mem_insert_everywhere {α : Type} (a : α) (l1 l2 : List α) :
    l1 ++ a :: l2 ∈ insert_everywhere a (l1 ++ l2) := by
  induction l1 with
  | nil =>
    cases l2 <;> simp [insert_everywhere]
  | cons b l1 ih =>
    simp only [List.cons_append, insert_everywhere, List.mem_cons, List.mem_map]
    right
    exact ⟨_, ih, rfl⟩

theorem mem_all_orders {α : Type} : ∀ (l' l : List α), l.Perm l' → l ∈ all_orders l' := by
  intro l'
  induction l' with
  | nil =>
    intro l h
    have := h.eq_nil
    simp [this, all_orders]
  | cons a l' ih =>
    intro l h
    have ha : a ∈ l := h.symm.subset (by simp)
    obtain ⟨l1, l2, rfl⟩ := List.append_of_mem ha
    have h2 : (l1 ++ l2).Perm l' := by
      have := (List.perm_middle.symm.trans h : (a :: (l1 ++ l2)).Perm (a :: l'))
      exact List.Perm.cons_inv this
    simp only [all_orders, List.mem_flatMap]
    exact ⟨l1 ++ l2, ih _ h2, mem_insert_everywhere a l1 l2⟩

theorem e1_all_orders : ∀ l ∈ all_orders e1_edges,
    orders_of (castle_versions_process 10
        (add_all (l.map (fun e => (e.1, e.2, ((0 : Nat), (0 : Nat)), (0 : Nat)))))) [0, 1, 2, 3] =
      if two_last (l.map (fun e => e.1)) = true then e1_stated else e1_other := by
  decide

theorem orders_of_ne_nil {r : Res Versions} {vs : List Nat} (h : orders_of r vs ≠ []) :
    ∃ s, r = Res.ok s := by
  cases r with
  | ok s => exact ⟨s, rfl⟩
  | bug => exact absurd rfl h
  | timeout => exact absurd rfl h

/-- C4 (as stated, refuted): with the versions of E1 added in the order 0, 1, 2, 3
the numbering pass gives version 1 the `o_order` 3 and version 2 the `o_order` 2,
not the numbers scenario E1 states. -/
theorem e1_numbering_counterexample :
    orders_of (castle_versions_process 10
        (add_all [(0, 0, (0, 0), 0), (1, 0, (0, 0), 0), (2, 0, (0, 0), 0), (3, 1, (0, 0), 0)]))
      [0, 1, 2, 3] = e1_other ∧ e1_other ≠ e1_stated := by
  decide

/-- C4 (amended): for the tree 0->1, 0->2, 1->3 (version 0 added with parent 0,
any `ftree_root` and `size`), in every order of the add calls:
`castle_versions_process` assigns the numbers of scenario E1 when version 2 is
added after the versions 1 and 3, and otherwise o_order 0=1, 2=2, 1=3, 3=4 and
r_order 2=2, 3=4, 1=4, 0=4. -/
theorem e1_numbering_by_add_order (adds : List AddCall)
    (h : (adds.map (fun a => (a.1, a.2.1))).Perm e1_edges) (fuel : Nat) (hfuel : 10 ≤ fuel) :
    orders_of (castle_versions_process fuel (add_all adds)) [0, 1, 2, 3] =
      if two_last (ids adds) = true then e1_stated else e1_other := by
  have h10 := e1_all_orders _ (mem_all_orders _ _ h)
  have hc : (adds.map (fun a => (a.1, a.2.1))).map
      (fun e => (e.1, e.2, ((0 : Nat), (0 : Nat)), (0 : Nat))) = clear_calls adds := by
    simp [clear_calls, List.map_map, Function.comp_def]
  have hi : (adds.map (fun a => (a.1, a.2.1))).map (fun e => e.1) = ids adds := by
    simp [ids, List.map_map, Function.comp_def]
  rw [hc, hi] at h10
  have hne : orders_of (castle_versions_process 10 (add_all (clear_calls adds))) [0, 1, 2, 3]
      ≠ [] := by
    rw [h10]; split <;> simp [e1_stated, e1_other]
  obtain ⟨s, hs⟩ := orders_of_ne_nil hne
  rw [orders_of_process_clear, castle_versions_process_mono hfuel hs, ← hs]
  exact h10

/-- C4 (amended), at the add order 0, 1, 3, 2 with some payloads. -/
theorem e1_numbering_by_add_order_witness :
    orders_of (castle_versions_process 12
        (add_all [(0, 0, (1, 7), 5), (1, 0, (1, 8), 6), (3, 1, (2, 9), 7), (2, 0, (2, 3), 8)]))
      [0, 1, 2, 3] = e1_stated :=
  e1_numbering_by_add_order
    [(0, 0, (1, 7), 5), (1, 0, (1, 8), 6), (3, 1, (2, 9), 7), (2, 0, (2, 3), 8)]
    (by decide) 12 (by decide)

/-! ## Comparison functions -/

theorem cmp_zero_symm {α : Type} {c : α → α → Int} (h : is_total_order_cmp c) {a b : α}
    (hab : c a b = 0) : c b a = 0 := by
  have h1 := (h.1 a b)
  have h2 := (h.1 b a)
  omega

theorem cmp_le_of_not_lt {α : Type} {c : α → α → Int} (h : is_total_order_cmp c) {a b : α}
    (hab : ¬ c b a < 0) : c a b ≤ 0 := by
  have h1 := (h.1 a b)
  have h2 := (h.1 b a)
  omega

theorem cmp_lt_of_lt_of_le {α : Type} {c : α → α → Int} (h : is_total_order_cmp c) {a b d : α}
    (hab : c a b < 0) (hbd : c b d ≤ 0) : c a d < 0 := by
  have h1 := h.2 a b d (by omega) hbd
  by_contra hn
  have h0 : c a d = 0 := by omega
  have h2 := cmp_zero_symm h h0
  have h3 := h.2 d a b (by omega) (by omega)
  have h4 := h.2 b d b hbd h3
  have h5 := (h.1 a b)
  have h6 := (h.1 b a)
  have h7 := h.2 b d a hbd (by omega)
  omega

theorem cmp_lt_of_le_of_lt {α : Type} {c : α → α → Int} (h : is_total_order_cmp c) {a b d : α}
    (hab : c a b ≤ 0) (hbd : c b d < 0) : c a d < 0 := by
  have h1 := h.2 a b d hab (by omega)
  by_contra hn
  have h0 : c a d = 0 := by omega
  have h2 := cmp_zero_symm h h0
  have h3 := h.2 d a b (by omega) hab
  have h5 := (h.1 b d)
  have h6 := (h.1 d b)
  omega

/-- The composite comparison is a total preorder when the key comparison and
the version comparison are. -/
theorem entry_compare_total (btree : castle_btree_type) (vc : Nat → Nat → Int)
    (hk : is_total_order_cmp btree.key_compare) (hv : is_total_order_cmp vc) :
    is_total_order_cmp (entry_compare btree vc) := by
  constructor
  · intro a b
    simp only [entry_compare, castle_kv_compare]
    have k1 := hk.1 a.k b.k
    have k2 := hk.1 b.k a.k
    have v1 := hv.1 a.v b.v
    have v2 := hv.1 b.v a.v
    by_cases h1 : btree.key_compare a.k b.k = 0
    · have h2 : btree.key_compare b.k a.k = 0 := cmp_zero_symm hk h1
      simp only [h1, h2, ne_eq, not_true_eq_false, if_false]
      omega
    · have h2 : btree.key_compare b.k a.k ≠ 0 := fun e => h1 (cmp_zero_symm hk e)
      simp only [h1, h2, ne_eq, not_false_eq_true, if_true]
      omega
  · intro a b d hab hbd
    simp only [entry_compare, castle_kv_compare] at hab hbd ⊢
    by_cases h1 : btree.key_compare a.k b.k = 0
    · simp only [h1, ne_eq, not_true_eq_false, if_false] at hab
      by_cases h2 : btree.key_compare b.k d.k = 0
      · simp only [h2, ne_eq, not_true_eq_false, if_false] at hbd
        have h3 : btree.key_compare a.k d.k = 0 := by
          have e1 := hk.2 a.k b.k d.k (by omega) (by omega)
          have e2 := hk.2 d.k b.k a.k (by rw [cmp_zero_symm hk h2]) (by rw [cmp_zero_symm hk h1])
          have e3 := hk.1 a.k d.k
          have e4 := hk.1 d.k a.k
          omega
        simp only [h3, ne_eq, not_true_eq_false, if_false]
        exact hv.2 d.v b.v a.v hbd hab
      · simp only [h2, ne_eq, not_false_eq_true, if_true] at hbd
        have h3 : btree.key_compare a.k d.k < 0 :=
          @cmp_lt_of_le_of_lt _ _ hk a.k b.k d.k (by omega) (by omega)
        have h4 : btree.key_compare a.k d.k ≠ 0 := by omega
        simp only [h4, ne_eq, not_false_eq_true, if_true]
        omega
    · simp only [h1, ne_eq, not_false_eq_true, if_true] at hab
      by_cases h2 : btree.key_compare b.k d.k = 0
      · have h3 : btree.key_compare a.k d.k < 0 :=
          @cmp_lt_of_lt_of_le _ _ hk a.k b.k d.k (by omega) (by omega)
        have h4 : btree.key_compare a.k d.k ≠ 0 := by omega
        simp only [h4, ne_eq, not_false_eq_true, if_true]
        omega
      · simp only [h2, ne_eq, not_false_eq_true, if_true] at hbd
        have h3 : btree.key_compare a.k d.k < 0 :=
          @cmp_lt_of_lt_of_le _ _ hk a.k b.k d.k (by omega) (by omega)
        have h4 : btree.key_compare a.k d.k ≠ 0 := by omega
        simp only [h4, ne_eq, not_false_eq_true, if_true]
        omega

/-! ## The merged iterator delivers a sorted permutation -/

theorem comp_fill_spec {le : kv_entry → kv_entry → Prop} {c : component_iterator}
    (h : CInv le c) :
    pend (comp_fill c) = pend c ∧ (comp_fill c).completed = c.completed ∧
    ((comp_fill c).cached = true ↔ c.completed = false) ∧
    (c.completed = true → (comp_fill c).iterator = []) ∧
    ((comp_fill c).cached = true →
      pend c = (comp_fill c).cached_entry :: (comp_fill c).iterator) := by
  obtain ⟨hd, hl, _⟩ := h
  cases hc : c.completed with
  | true =>
    obtain ⟨h1, h2⟩ := hd hc
    simp [comp_fill, pend, hc, h1, h2]
  | false =>
    cases hca : c.cached with
    | true => simp [comp_fill, pend, hc, hca]
    | false =>
      rcases hl hc with h1 | h1
      · rw [hca] at h1; cases h1
      · cases hi : c.iterator with
        | nil => exact absurd hi h1
        | cons e it => simp [comp_fill, pend, hc, hca, hi]

theorem CInv_fill {le : kv_entry → kv_entry → Prop} {c : component_iterator}
    (h : CInv le c) : CInv le (comp_fill c) := by
  have hs := comp_fill_spec h
  refine ⟨?_, ?_, ?_⟩
  · intro hc
    rw [hs.2.1] at hc
    refine ⟨?_, hs.2.2.2.1 hc⟩
    cases hca : (comp_fill c).cached with
    | false => rfl
    | true => rw [hs.2.2.1.1 hca] at hc; cases hc
  · intro hc
    rw [hs.2.1] at hc
    exact Or.inl (hs.2.2.1.2 hc)
  · rw [hs.1]; exact h.sorted

theorem next_loop_cons (btree : castle_btree_type) (vc : Nat → Nat → Int)
    {le : kv_entry → kv_entry → Prop} (c : component_iterator) (rest : List component_iterator)
    (i : Nat) (sm : Option (Nat × kv_entry)) (h : CInv le c) :
    castle_ct_merged_iter_next_loop btree vc (c :: rest) i sm =
      match castle_ct_merged_iter_next_loop btree vc rest (i + 1)
          (pick (entry_compare btree vc) sm i (comp_fill c)) with
      | Res.ok (rest1, s) => Res.ok (comp_fill c :: rest1, s)
      | Res.bug => Res.bug
      | Res.timeout => Res.timeout := by
  obtain ⟨hd, hl, _⟩ := h
  rw [castle_ct_merged_iter_next_loop]
  obtain ⟨comp, it, ca, ce⟩ := c
  dsimp only at hd hl
  cases comp with
  | true =>
    obtain ⟨h1, h2⟩ := hd rfl
    subst h1; subst h2
    simp only [comp_fill, pick, Bool.not_true, Bool.false_and, Bool.false_eq_true, if_false,
      Bool.not_false, List.isEmpty_nil, if_true]
  | false =>
    cases ca with
    | true =>
      simp only [comp_fill, pick, Bool.not_true, Bool.and_false, Bool.false_eq_true, if_false,
        if_true, entry_compare]
    | false =>
      rcases hl rfl with h1 | h1
      · cases h1
      · cases it with
        | nil => exact absurd rfl h1
        | cons e it =>
          simp only [comp_fill, pick, Bool.not_false, Bool.and_self, if_true, Bool.not_true,
            Bool.false_eq_true, if_false, entry_compare]

theorem cmp_refl {α : Type} {c : α → α → Int} (h : is_total_order_cmp c) (a : α) :
    c a a = 0 := by
  have h1 := h.1 a a
  omega

/-- The scan of `castle_ct_merged_iter_next` refills every cache and ends with
the position and entry of a smallest cached entry. -/
theorem next_loop_spec (btree : castle_btree_type) (vc : Nat → Nat → Int)
    (ht : is_total_order_cmp (entry_compare btree vc)) {le : kv_entry → kv_entry → Prop} :
    ∀ (cs : List component_iterator) (i : Nat) (sm : Option (Nat × kv_entry)),
      (∀ c ∈ cs, CInv le c) →
      ∃ sm', castle_ct_merged_iter_next_loop btree vc cs i sm = Res.ok (cs.map comp_fill, sm') ∧
        (sm' = none → sm = none ∧ ∀ c ∈ cs, c.completed = true) ∧
        (∀ j e, sm' = some (j, e) →
          (sm = some (j, e) ∨ (i ≤ j ∧ ∃ c, (cs.map comp_fill)[j - i]? = some c ∧
            c.cached = true ∧ c.cached_entry = e)) ∧
          (∀ c ∈ cs.map comp_fill, c.cached = true →
            entry_compare btree vc e c.cached_entry ≤ 0) ∧
          (∀ j0 e0, sm = some (j0, e0) → entry_compare btree vc e e0 ≤ 0)) := by
  intro cs
  induction cs with
  | nil =>
    intro i sm _
    refine ⟨sm, rfl, ?_, ?_⟩
    · intro h; exact ⟨h, by simp⟩
    · intro j e h
      refine ⟨Or.inl h, by simp, ?_⟩
      intro j0 e0 h0
      rw [h] at h0
      cases h0
      rw [cmp_refl ht]
  | cons c rest ih =>
    intro i sm hall
    have hc := hall c (by simp)
    have hrest : ∀ c' ∈ rest, CInv le c' :=
      fun c' h => hall c' (by simp [h])
    have hs := comp_fill_spec hc
    obtain ⟨sm', hr, hnone, hsome⟩ :=
      ih (i + 1) (pick (entry_compare btree vc) sm i (comp_fill c)) hrest
    refine ⟨sm', ?_, ?_, ?_⟩
    · rw [next_loop_cons btree vc c rest i sm hc, hr]
      rfl
    · intro h
      obtain ⟨h1, h2⟩ := hnone h
      cases hca : (comp_fill c).cached with
      | true =>
        simp only [pick, hca, if_true] at h1
        cases sm with
        | none => simp at h1
        | some p =>
          obtain ⟨j, e⟩ := p
          simp only at h1
          split at h1 <;> cases h1
      | false =>
        simp only [pick, hca, Bool.false_eq_true, if_false] at h1
        refine ⟨h1, ?_⟩
        intro c' hc'
        rcases List.mem_cons.1 hc' with e | e
        · rw [e]
          cases hcc : c.completed with
          | true => rfl
          | false => rw [hs.2.2.1.2 hcc] at hca; cases hca
        · exact h2 c' e
    · intro j e h
      obtain ⟨horig, hmin, hprev⟩ := hsome j e h
      cases hca : (comp_fill c).cached with
      | false =>
        simp only [pick, hca, Bool.false_eq_true, if_false] at horig hprev
        refine ⟨?_, ?_, hprev⟩
        · rcases horig with h1 | ⟨h1, c', h2, h3, h4⟩
          · exact Or.inl h1
          · right
            refine ⟨by omega, c', ?_, h3, h4⟩
            have : j - i = (j - (i + 1)) + 1 := by omega
            rw [this, List.map_cons, List.getElem?_cons_succ]
            exact h2
        · intro c' hc' hcc
          rcases List.mem_cons.1 hc' with e1 | e1
          · rw [e1, hca] at hcc; cases hcc
          · exact hmin c' e1 hcc
      | true =>
        simp only [pick, hca, if_true] at horig hprev
        cases sm with
        | none =>
          simp only at horig hprev
          have hle : entry_compare btree vc e (comp_fill c).cached_entry ≤ 0 :=
            hprev i _ rfl
          refine ⟨?_, ?_, by intro j0 e0 h0; cases h0⟩
          · right
            rcases horig with h1 | ⟨h1, c', h2, h3, h4⟩
            · cases h1
              exact ⟨Nat.le_refl _, comp_fill c, by simp, hca, rfl⟩
            · refine ⟨by omega, c', ?_, h3, h4⟩
              have : j - i = (j - (i + 1)) + 1 := by omega
              rw [this, List.map_cons, List.getElem?_cons_succ]
              exact h2
          · intro c' hc' hcc
            rcases List.mem_cons.1 hc' with e1 | e1
            · rw [e1]; exact hle
            · exact hmin c' e1 hcc
        | some p =>
          obtain ⟨j1, e1⟩ := p
          simp only at horig hprev
          by_cases hlt : entry_compare btree vc (comp_fill c).cached_entry e1 < 0
          · simp only [hlt, if_true] at horig hprev
            have hle : entry_compare btree vc e (comp_fill c).cached_entry ≤ 0 :=
              hprev i _ rfl
            refine ⟨?_, ?_, ?_⟩
            · right
              rcases horig with h1 | ⟨h1, c', h2, h3, h4⟩
              · cases h1
                exact ⟨Nat.le_refl _, comp_fill c, by simp, hca, rfl⟩
              · refine ⟨by omega, c', ?_, h3, h4⟩
                have : j - i = (j - (i + 1)) + 1 := by omega
                rw [this, List.map_cons, List.getElem?_cons_succ]
                exact h2
            · intro c' hc' hcc
              rcases List.mem_cons.1 hc' with e2 | e2
              · rw [e2]; exact hle
              · exact hmin c' e2 hcc
            · intro j0 e0 h0
              cases h0
              exact ht.2 _ _ _ hle (by omega)
          · simp only [hlt, if_false] at horig hprev
            have hle : entry_compare btree vc e e1 ≤ 0 := hprev j1 e1 rfl
            refine ⟨?_, ?_, ?_⟩
            · rcases horig with h1 | ⟨h1, c', h2, h3, h4⟩
              · exact Or.inl h1
              · right
                refine ⟨by omega, c', ?_, h3, h4⟩
                have : j - i = (j - (i + 1)) + 1 := by omega
                rw [this, List.map_cons, List.getElem?_cons_succ]
                exact h2
            · intro c' hc' hcc
              rcases List.mem_cons.1 hc' with e2 | e2
              · rw [e2]
                exact ht.2 _ _ _ hle (cmp_le_of_not_lt ht hlt)
              · exact hmin c' e2 hcc
            · intro j0 e0 h0
              cases h0
              exact hle

theorem getElem?_split {α : Type} : ∀ (l : List α) (j : Nat) (x : α), l[j]? = some x →
    ∃ l1 l2, l = l1 ++ x :: l2 ∧ l1.length = j := by
  intro l
  induction l with
  | nil => intro j x h; simp at h
  | cons a l ih =>
    intro j x h
    cases j with
    | zero =>
      simp at h
      exact ⟨[], l, by simp [h], rfl⟩
    | succ j =>
      simp at h
      obtain ⟨l1, l2, h1, h2⟩ := ih j x h
      exact ⟨a :: l1, l2, by simp [h1], by simp [h2]⟩

theorem set_split {α : Type} (l1 l2 : List α) (x y : α) :
    (l1 ++ x :: l2).set l1.length y = l1 ++ y :: l2 := by
  induction l1 with
  | nil => simp
  | cons a l1 ih => simp [ih]

theorem live_count_append (l1 l2 : List component_iterator) :
    live_count (l1 ++ l2) = live_count l1 + live_count l2 := by
  simp [live_count]

theorem live_count_cons (c : component_iterator) (l : List component_iterator) :
    live_count (c :: l) = (if c.completed then 0 else 1) + live_count l := by
  cases h : c.completed <;> simp [live_count, h]; omega

theorem live_count_fill {le : kv_entry → kv_entry → Prop} :
    ∀ cs : List component_iterator, (∀ c ∈ cs, CInv le c) →
      live_count (cs.map comp_fill) = live_count cs := by
  intro cs
  induction cs with
  | nil => intro _; rfl
  | cons c cs ih =>
    intro h
    rw [List.map_cons, live_count_cons, live_count_cons,
      (comp_fill_spec (h c (by simp))).2.1, ih (fun c' hc' => h c' (by simp [hc']))]

theorem pending_fill {le : kv_entry → kv_entry → Prop} :
    ∀ cs : List component_iterator, (∀ c ∈ cs, CInv le c) →
      pending (cs.map comp_fill) = pending cs := by
  intro cs
  induction cs with
  | nil => intro _; rfl
  | cons c cs ih =>
    intro h
    have := ih (fun c' hc' => h c' (by simp [hc']))
    simp only [pending, List.map_cons, List.flatten_cons] at this ⊢
    rw [(comp_fill_spec (h c (by simp))).1, this]

theorem pending_append (l1 l2 : List component_iterator) :
    pending (l1 ++ l2) = pending l1 ++ pending l2 := by
  simp [pending]

theorem pending_cons (c : component_iterator) (l : List component_iterator) :
    pending (c :: l) = pend c ++ pending l := by
  simp [pending]

theorem mem_pending {cs : List component_iterator} {y : kv_entry} :
    y ∈ pending cs ↔ ∃ c ∈ cs, y ∈ pend c := by
  simp [pending]

theorem live_count_pos_of_pending {le : kv_entry → kv_entry → Prop} :
    ∀ cs : List component_iterator, (∀ c ∈ cs, CInv le c) → pending cs ≠ [] →
      0 < live_count cs := by
  intro cs
  induction cs with
  | nil => intro _ h; exact absurd rfl h
  | cons c cs ih =>
    intro h hp
    rw [live_count_cons]
    cases hc : c.completed with
    | false => simp
    | true =>
      have : pend c = [] := by simp [pend, hc]
      rw [pending_cons, this, List.nil_append] at hp
      have := ih (fun c' hc' => h c' (by simp [hc'])) hp
      simp; exact this

theorem live_count_zero_of_pending {le : kv_entry → kv_entry → Prop} :
    ∀ cs : List component_iterator, (∀ c ∈ cs, CInv le c) → pending cs = [] →
      live_count cs = 0 := by
  intro cs
  induction cs with
  | nil => intro _ _; rfl
  | cons c cs ih =>
    intro h hp
    rw [pending_cons] at hp
    obtain ⟨h1, h2⟩ := List.append_eq_nil.1 hp
    rw [live_count_cons, ih (fun c' hc' => h c' (by simp [hc'])) h2]
    cases hc : c.completed with
    | true => simp
    | false =>
      exfalso
      have hl := (h c (by simp)).live hc
      simp only [pend, hc, Bool.false_eq_true, if_false] at h1
      rcases hl with e | e
      · rw [e] at h1; simp at h1
      · cases hca : c.cached with
        | true => rw [hca] at h1; simp at h1
        | false => rw [hca] at h1; simp at h1; exact e h1

theorem filled_mem {le : kv_entry → kv_entry → Prop} {cs : List component_iterator}
    (h : ∀ c ∈ cs, CInv le c) {c : component_iterator} (hc : c ∈ cs.map comp_fill) :
    CInv le c ∧ (c.cached = true ↔ c.completed = false) := by
  obtain ⟨c0, h0, rfl⟩ := List.mem_map.1 hc
  have hs := comp_fill_spec (h c0 h0)
  exact ⟨CInv_fill (h c0 h0), by rw [hs.2.1]; exact hs.2.2.1⟩

theorem pend_head_le {le : kv_entry → kv_entry → Prop} {c : component_iterator}
    (h : CInv le c) (hca : c.cached = true) (hco : c.completed = false) :
    pend c = c.cached_entry :: c.iterator ∧ ∀ y ∈ c.iterator, le c.cached_entry y := by
  have hp : pend c = c.cached_entry :: c.iterator := by simp [pend, hca, hco]
  refine ⟨hp, ?_⟩
  have := h.sorted
  rw [hp] at this
  exact (List.pairwise_cons.1 this).1

theorem exists_live : ∀ cs : List component_iterator, 0 < live_count cs →
    ∃ c ∈ cs, c.completed = false := by
  intro cs
  induction cs with
  | nil => intro h; simp [live_count] at h
  | cons c cs ih =>
    intro h
    cases hc : c.completed with
    | false => exact ⟨c, by simp, hc⟩
    | true =>
      rw [live_count_cons, hc] at h
      simp at h
      obtain ⟨c', h1, h2⟩ := ih h
      exact ⟨c', by simp [h1], h2⟩

/-- One call of `castle_ct_merged_iter_next`: it returns an entry that is no
larger than all entries still pending, and removes exactly that entry. -/
theorem merged_iter_next_spec (btree : castle_btree_type) (vc : Nat → Nat → Int)
    (ht : is_total_order_cmp (entry_compare btree vc)) (iter : c_merged_iter_t)
    (h : IInv (fun a b => entry_compare btree vc a b ≤ 0) iter)
    (hn : castle_ct_merged_iter_has_next iter = true) :
    ∃ iter1 e, castle_ct_merged_iter_next btree vc iter = Res.ok (iter1, e) ∧
      IInv (fun a b => entry_compare btree vc a b ≤ 0) iter1 ∧
      (pending iter.iterators).Perm (e :: pending iter1.iterators) ∧
      ∀ y ∈ pending iter1.iterators, entry_compare btree vc e y ≤ 0 := by
  obtain ⟨hcomps, herr, hcnt⟩ := h
  have hpos : 0 < live_count iter.iterators := by
    simp [castle_ct_merged_iter_has_next, herr] at hn
    omega
  obtain ⟨sm, hloop, hnone, hsome⟩ := next_loop_spec btree vc ht iter.iterators 0 none hcomps
  obtain ⟨c0, hc0, hc0l⟩ := exists_live _ hpos
  cases sm with
  | none =>
    have := (hnone rfl).2 c0 hc0
    rw [this] at hc0l; cases hc0l
  | some je =>
    obtain ⟨j, e⟩ := je
    obtain ⟨horig, hmin, -⟩ := hsome j e rfl
    rcases horig with horig | ⟨-, c, hget, hca, hce⟩
    · cases horig
    rw [Nat.sub_zero] at hget
    obtain ⟨l1, l2, hsplit, hlen⟩ := getElem?_split _ _ _ hget
    have hfm := fun c (hc : c ∈ iter.iterators.map comp_fill) => filled_mem hcomps hc
    have hcm : c ∈ iter.iterators.map comp_fill := by rw [hsplit]; simp
    have hcc : c.completed = false := (hfm c hcm).2.1 hca
    obtain ⟨hpc, hple⟩ := pend_head_le (hfm c hcm).1 hca hcc
    have hsorted := (hfm c hcm).1.sorted
    rw [hpc] at hsorted
    -- the component after the call
    let c1 : component_iterator :=
      { c with cached := false, completed := c.iterator.isEmpty }
    have hc1 : pend c1 = c.iterator := by
      cases hi : c.iterator with
      | nil => simp [pend, c1, hi]
      | cons x it => simp [pend, c1, hi]
    have hc1inv : CInv (fun a b => entry_compare btree vc a b ≤ 0) c1 := by
      refine ⟨?_, ?_, ?_⟩
      · intro hd
        refine ⟨rfl, ?_⟩
        simpa [c1] using hd
      · intro hd
        right
        intro hi
        have hi2 : c.iterator = [] := hi
        simp [c1, hi2] at hd
      · rw [hc1]; exact (List.pairwise_cons.1 hsorted).2
    have hlive1 : live_count [c1] = if c.iterator.isEmpty then 0 else 1 := by
      cases hi : c.iterator with
      | nil => simp [live_count, c1, hi]
      | cons x it => simp [live_count, c1, hi]
    have hlivec : live_count [c] = 1 := by simp [live_count, hcc]
    have hfill_live := live_count_fill iter.iterators hcomps
    have hfill_pend := pending_fill iter.iterators hcomps
    rw [hsplit] at hfill_live hfill_pend
    have hnext : castle_ct_merged_iter_next btree vc iter =
        Res.ok ({ iter with
          iterators := l1 ++ c1 :: l2
          non_empty_cnt := if c.iterator.isEmpty then iter.non_empty_cnt - 1
            else iter.non_empty_cnt }, e) := by
      rw [castle_ct_merged_iter_next, hloop]
      dsimp only
      rw [hget]
      dsimp only
      rw [hsplit, ← hlen, set_split, set_split]
      cases hi : c.iterator with
      | nil => simp [c1, hi, hcc]
      | cons x it => simp [c1, hi, hcc]
    refine ⟨_, e, hnext, ⟨?_, herr, ?_⟩, ?_, ?_⟩
    · intro c' hc'
      dsimp only at hc'
      rcases List.mem_append.1 hc' with h1 | h1
      · exact (hfm c' (by rw [hsplit]; simp [h1])).1
      · rcases List.mem_cons.1 h1 with h2 | h2
        · rw [h2]; exact hc1inv
        · exact (hfm c' (by rw [hsplit]; simp [h2])).1
    · dsimp only
      have e1 : live_count (l1 ++ c1 :: l2) = live_count l1 + (live_count [c1] + live_count l2) := by
        rw [live_count_append, ← live_count_append [c1] l2]; rfl
      have e2 : live_count (l1 ++ c :: l2) = live_count l1 + (live_count [c] + live_count l2) := by
        rw [live_count_append, ← live_count_append [c] l2]; rfl
      rw [e1, hlive1, hcnt]
      rw [e2, hlivec] at hfill_live
      rw [← hfill_live]
      cases hi : c.iterator.isEmpty
      · simp
      · simp; omega
    · dsimp only
      rw [← hfill_pend, pending_append, pending_cons, pending_append, pending_cons, hpc, hc1]
      simp only [List.cons_append]
      rw [hce]
      exact List.perm_middle
    · intro y hy
      dsimp only at hy
      rw [pending_append, pending_cons, hc1] at hy
      have hother : ∀ l : List component_iterator, (∀ c' ∈ l, c' ∈ iter.iterators.map comp_fill) →
          y ∈ pending l → entry_compare btree vc e y ≤ 0 := by
        intro l hl hyl
        obtain ⟨c', hc', hyc⟩ := mem_pending.1 hyl
        have hf := hfm c' (hl c' hc')
        cases hco : c'.completed with
        | true => simp [pend, hco] at hyc
        | false =>
          have hca' := hf.2.2 hco
          obtain ⟨hp', hle'⟩ := pend_head_le hf.1 hca' hco
          rw [hp'] at hyc
          have hm := hmin c' (hl c' hc') hca'
          rcases List.mem_cons.1 hyc with h1 | h1
          · rw [h1]; exact hm
          · exact ht.2 _ _ _ hm (hle' y h1)
      rcases List.mem_append.1 hy with h1 | h1
      · exact hother l1 (fun c' hc' => by rw [hsplit]; simp [hc']) h1
      · rcases List.mem_append.1 h1 with h2 | h2
        · rw [← hce]; exact hple y h2
        · exact hother l2 (fun c' hc' => by rw [hsplit]; simp [hc']) h2

theorem has_next_iff_pending {le : kv_entry → kv_entry → Prop} {iter : c_merged_iter_t}
    (h : IInv le iter) :
    castle_ct_merged_iter_has_next iter = true ↔ pending iter.iterators ≠ [] := by
  have e : castle_ct_merged_iter_has_next iter = true ↔ 0 < live_count iter.iterators := by
    simp [castle_ct_merged_iter_has_next, h.err, h.cnt]
  rw [e]
  constructor
  · intro hp hnil
    have := live_count_zero_of_pending _ h.comps hnil
    omega
  · exact live_count_pos_of_pending _ h.comps

/-- Draining the merged iterator: with enough fuel the calls deliver all pending
entries in ascending order; with less fuel `has_next` is still true at the end. -/
theorem merged_drain_spec (btree : castle_btree_type) (vc : Nat → Nat → Int)
    (ht : is_total_order_cmp (entry_compare btree vc)) :
    ∀ (n : Nat) (iter : c_merged_iter_t),
      IInv (fun a b => entry_compare btree vc a b ≤ 0) iter →
      (pending iter.iterators).length = n →
      ∃ out : List kv_entry,
        (∀ fuel, n ≤ fuel → merged_drain btree vc fuel iter = Res.ok out) ∧
        (∀ fuel, fuel < n → merged_drain btree vc fuel iter = Res.timeout) ∧
        out.Pairwise (fun a b => entry_compare btree vc a b ≤ 0) ∧
        out.Perm (pending iter.iterators) := by
  intro n
  induction n with
  | zero =>
    intro iter h hlen
    have hnil : pending iter.iterators = [] := List.length_eq_zero.1 hlen
    have hn : castle_ct_merged_iter_has_next iter = false := by
      cases hh : castle_ct_merged_iter_has_next iter with
      | false => rfl
      | true => exact absurd hnil ((has_next_iff_pending h).1 hh)
    refine ⟨[], ?_, ?_, List.Pairwise.nil, ?_⟩
    · intro fuel _
      cases fuel <;> simp [merged_drain, hn]
    · intro fuel hf; omega
    · rw [hnil]
  | succ n ih =>
    intro iter h hlen
    have hne : pending iter.iterators ≠ [] := by
      intro hnil; rw [hnil] at hlen; simp at hlen
    have hn := (has_next_iff_pending h).2 hne
    obtain ⟨iter1, e, hnext, hinv1, hperm, hmin⟩ := merged_iter_next_spec btree vc ht iter h hn
    have hlen1 : (pending iter1.iterators).length = n := by
      have := hperm.length_eq
      simp only [List.length_cons] at this
      omega
    obtain ⟨out, hok, hto, hsorted, hp⟩ := ih iter1 hinv1 hlen1
    refine ⟨e :: out, ?_, ?_, ?_, ?_⟩
    · intro fuel hf
      cases fuel with
      | zero => omega
      | succ fuel =>
        rw [merged_drain, if_pos hn, hnext]
        dsimp only
        rw [hok fuel (by omega)]
    · intro fuel hf
      cases fuel with
      | zero => simp [merged_drain, hn]
      | succ fuel =>
        rw [merged_drain, if_pos hn, hnext]
        dsimp only
        rw [hto fuel (by omega)]
    · exact List.pairwise_cons.2 ⟨fun y hy => hmin y (hp.mem_iff.1 hy), hsorted⟩
    · exact (List.Perm.cons e hp).trans hperm.symm

theorem chain_pairwise {α : Type} {c : α → α → Int} (h : is_total_order_cmp c) (l : List α)
    (hl : l.Chain' (fun a b => c a b ≤ 0)) : l.Pairwise (fun a b => c a b ≤ 0) := by
  haveI : IsTrans α (fun a b => c a b ≤ 0) := ⟨fun a b d => h.2 a b d⟩
  exact List.chain'_iff_pairwise.1 hl

theorem merged_iter_init_spec {le : kv_entry → kv_entry → Prop} (streams : List (List kv_entry))
    (hn : 1 ≤ streams.length ∧ streams.length ≤ 10)
    (hs : ∀ s ∈ streams, s.Pairwise le) :
    ∃ iter, castle_ct_merged_iter_init (streams.length : Int) streams = Res.ok iter ∧
      IInv le iter ∧ pending iter.iterators = streams.flatten := by
  have h1 : ¬ ((streams.length : Int) ≤ 0 ∨ (streams.length : Int) > 10) := by omega
  refine ⟨_, by rw [castle_ct_merged_iter_init, if_neg h1, if_neg (by simp)], ⟨?_, rfl, ?_⟩, ?_⟩
  · intro c hc
    dsimp only at hc
    obtain ⟨s, hsm, rfl⟩ := List.mem_map.1 hc
    refine ⟨?_, ?_, ?_⟩
    · intro hd; exact ⟨rfl, by simpa using hd⟩
    · intro hd; right; simpa using hd
    · cases s with
      | nil => simp [pend]
      | cons a s => simpa [pend] using hs _ hsm
  · dsimp only
    clear hn hs h1
    induction streams with
    | nil => rfl
    | cons s streams ih =>
      rw [List.map_cons, live_count_cons]
      cases s with
      | nil => simpa using ih
      | cons a s =>
        simp only [List.filter_cons, List.isEmpty_cons, Bool.not_false, if_true,
          List.length_cons, Bool.false_eq_true, if_false] at ih ⊢
        push_cast at ih ⊢
        omega
  · dsimp only
    clear hn hs h1
    induction streams with
    | nil => rfl
    | cons s streams ih =>
      rw [List.map_cons, pending_cons, ih, List.flatten_cons]
      cases s with
      | nil => simp [pend]
      | cons a s => simp [pend]

theorem nat_btree_total (cap : Nat) : is_total_order_cmp (nat_btree cap).key_compare := by
  refine ⟨fun a b => ?_, fun a b d => ?_⟩ <;> simp only [nat_btree] <;> omega

theorem castle_version_compare_total (st : Versions) :
    is_total_order_cmp (castle_version_compare st) := by
  refine ⟨fun a b => ?_, fun a b d => ?_⟩ <;> simp only [castle_version_compare] <;> omega

/-- C5: for 1 to 10 component streams, each ascending in the composite order of
`castle_kv_compare` (key order and version order being total orders), calling
`castle_ct_merged_iter_next` while `castle_ct_merged_iter_has_next` is true
returns after exactly as many calls as there are input entries (`has_next` is
still true before that), and the emitted sequence is ascending and a permutation
of the union of the input streams. -/
theorem merged_iter_sorted_perm (btree : castle_btree_type) (vc : Nat → Nat → Int)
    (hk : is_total_order_cmp btree.key_compare) (hv : is_total_order_cmp vc)
    (streams : List (List kv_entry))
    (hn : 1 ≤ streams.length ∧ streams.length ≤ 10)
    (hs : ∀ s ∈ streams, s.Chain' (fun a b => entry_compare btree vc a b ≤ 0)) :
    ∃ iter out,
      castle_ct_merged_iter_init (streams.length : Int) streams = Res.ok iter ∧
      (∀ fuel, streams.flatten.length ≤ fuel → merged_drain btree vc fuel iter = Res.ok out) ∧
      (∀ fuel, fuel < streams.flatten.length →
        merged_drain btree vc fuel iter = Res.timeout) ∧
      out.Pairwise (fun a b => entry_compare btree vc a b ≤ 0) ∧
      out.Perm streams.flatten := by
  have ht := entry_compare_total btree vc hk hv
  obtain ⟨iter, hinit, hinv, hpend⟩ :=
    merged_iter_init_spec streams hn (fun s h => chain_pairwise ht s (hs s h))
  obtain ⟨out, h1, h2, h3, h4⟩ := merged_drain_spec btree vc ht _ iter hinv rfl
  rw [hpend] at h1 h2 h4
  exact ⟨iter, out, hinit, h1, h2, h3, h4⟩

/-- Example E3: the streams `[(1,v1),(3,v1)]` and `[(1,v2),(2,v1)]` over the chain
0 -> 1 -> 2 are ascending, and the merged iterator emits
`(1,v2),(1,v1),(2,v1),(3,v1)`. -/
theorem merged_iter_sorted_perm_witness :
    (∀ s ∈ e3_streams, s.Chain' (fun a b =>
      entry_compare (nat_btree 3) (castle_version_compare chain_versions) a b ≤ 0)) ∧
    (∃ iter out,
      castle_ct_merged_iter_init (e3_streams.length : Int) e3_streams = Res.ok iter ∧
      (∀ fuel, e3_streams.flatten.length ≤ fuel →
        merged_drain (nat_btree 3) (castle_version_compare chain_versions) fuel iter
          = Res.ok out) ∧
      (∀ fuel, fuel < e3_streams.flatten.length →
        merged_drain (nat_btree 3) (castle_version_compare chain_versions) fuel iter
          = Res.timeout) ∧
      out.Pairwise (fun a b =>
        entry_compare (nat_btree 3) (castle_version_compare chain_versions) a b ≤ 0) ∧
      out.Perm e3_streams.flatten) ∧
    (castle_ct_merged_iter_init 2 e3_streams).bind
        (merged_drain (nat_btree 3) (castle_version_compare chain_versions) 4) =
      Res.ok [{ k := 1, v := 2, cdb := (0, 3) }, { k := 1, v := 1, cdb := (0, 1) },
        { k := 2, v := 1, cdb := (0, 4) }, { k := 3, v := 1, cdb := (0, 2) }] :=
  have hs : ∀ s ∈ e3_streams, s.Chain' (fun a b =>
      entry_compare (nat_btree 3) (castle_version_compare chain_versions) a b ≤ 0) := by
    intro s hs
    simp only [e3_streams, List.mem_cons, List.mem_singleton, List.not_mem_nil, or_false] at hs
    rcases hs with rfl | rfl
    · exact List.Chain.cons (by decide) List.Chain.nil
    · exact List.Chain.cons (by decide) List.Chain.nil
  ⟨hs,
   merged_iter_sorted_perm (nat_btree 3) (castle_version_compare chain_versions)
     (nat_btree_total 3) (castle_version_compare_total chain_versions) e3_streams
     (by decide) hs,
   by decide⟩

/-! ## The modlist iterator holds the enumerated entries -/

theorem entry_of_slot_of (e : kv_entry) : entry_of (slot_of e) = e := rfl

theorem item_get_eq (iter : c_modlist_iter_t) (i : Nat) :
    castle_ct_modlist_iter_item_get iter i =
      match iter.sort_idx[i]? with
      | some p =>
        (match slot_at iter.node_buffer p with
         | some s => Res.ok s
         | none => Res.bug)
      | none => Res.bug := by
  rw [castle_ct_modlist_iter_item_get]
  cases h : iter.sort_idx[i]? with
  | none => rfl
  | some p =>
    obtain ⟨a, b⟩ := p
    simp only [slot_at]
    cases h2 : iter.node_buffer[a]? with
    | none => rfl
    | some n =>
      simp only [btree_entry_get]
      rw [if_pos (by omega)]
      simp only [Int.toNat_ofNat]
      try rfl

/-- One round of the loop of `castle_ct_modlist_iter_fill` that does not fail. -/
theorem fill_loop_cons_ok (btree : castle_btree_type) (e : kv_entry) (rest : List kv_entry)
    (iter : c_modlist_iter_t) (ni no ii : Nat) (r : c_modlist_iter_t × Nat)
    (h : castle_ct_modlist_iter_fill_loop btree (e :: rest) iter ni no ii = Res.ok r) :
    ∃ node0 node1, iter.node_buffer[ni]? = some node0 ∧
      btree_entry_add (if no = 0 then castle_da_node_buffer_init node0 else node0) no
        e.k e.v true e.cdb = Res.ok node1 ∧
      ii < iter.sort_idx.length ∧
      castle_ct_modlist_iter_fill_loop btree rest
        { iter with
          node_buffer := iter.node_buffer.set ni node1
          sort_idx := iter.sort_idx.set ii (ni, no) }
        (if btree.need_split node1 0 then (ni + 1) % 2 ^ 32 else ni)
        (if btree.need_split node1 0 then 0 else (no + 1) % 2 ^ 32)
        ((ii + 1) % 2 ^ 32) = Res.ok r := by
  rw [castle_ct_modlist_iter_fill_loop] at h
  cases hb : iter.node_buffer[ni]? with
  | none => rw [hb] at h; cases h
  | some node0 =>
    rw [hb] at h
    dsimp only at h
    by_cases h1 : no ≠ 0 ∧ btree.need_split (if no = 0 then castle_da_node_buffer_init node0
        else node0) 0 = true
    · rw [if_pos h1] at h; cases h
    · rw [if_neg h1] at h
      cases ha : btree_entry_add (if no = 0 then castle_da_node_buffer_init node0 else node0) no
          e.k e.v true e.cdb with
      | bug => rw [ha] at h; cases h
      | timeout => rw [ha] at h; cases h
      | ok node1 =>
        rw [ha] at h
        dsimp only at h
        by_cases h2 : ii < iter.sort_idx.length
        · rw [if_pos h2] at h
          refine ⟨node0, node1, rfl, ha, h2, ?_⟩
          by_cases h3 : btree.need_split node1 0 = true
          · rw [if_pos h3] at h; rw [if_pos h3, if_pos h3]; exact h
          · rw [if_neg h3] at h; rw [if_neg h3, if_neg h3]; exact h
        · rw [if_neg h2] at h; cases h

theorem fill_loop_wrapped (btree : castle_btree_type) :
    ∀ (enum : List kv_entry) (iter : c_modlist_iter_t) (ni no ii : Nat) (r : c_modlist_iter_t × Nat),
      ii < 2 ^ 32 → 2 ^ 32 ≤ iter.sort_idx.length →
      castle_ct_modlist_iter_fill_loop btree enum iter ni no ii = Res.ok r →
      r.2 < 2 ^ 32 ∧ 2 ^ 32 ≤ r.1.sort_idx.length := by
  intro enum
  induction enum with
  | nil =>
    intro iter ni no ii r h1 h2 h
    simp only [castle_ct_modlist_iter_fill_loop, Res.ok.injEq] at h
    subst h
    exact ⟨h1, h2⟩
  | cons e rest ih =>
    intro iter ni no ii r h1 h2 h
    obtain ⟨node0, node1, -, -, -, hrest⟩ := fill_loop_cons_ok btree e rest iter ni no ii r h
    exact ih _ _ _ _ r (Nat.mod_lt _ (by norm_num)) (by simpa using h2) hrest

theorem entry_add_append (node : castle_btree_node) (n key version : Nat) (b : Bool)
    (cdb : c_disk_blk_t) (node1 : castle_btree_node) (hn : node.slots.length = n)
    (h : btree_entry_add node (n : Nat) key version b cdb = Res.ok node1) :
    node1.slots = node.slots ++ [{ key := key, version := version, is_leaf_ptr := b, cdb := cdb }] := by
  rw [btree_entry_add] at h
  split at h
  · simp only [Res.ok.injEq] at h
    subst h
    subst hn
    simp
  · cases h

theorem FillInv_step (btree : castle_btree_type) (e : kv_entry)
    (iter : c_modlist_iter_t) (ni no ii : Nat) (pre : List kv_entry)
    (hinv : FillInv iter ni no ii pre) (hlt : ii + 1 < 2 ^ 32)
    (node0 node1 : castle_btree_node) (hb : iter.node_buffer[ni]? = some node0)
    (ha : btree_entry_add (if no = 0 then castle_da_node_buffer_init node0 else node0) no
        e.k e.v true e.cdb = Res.ok node1)
    (hii : ii < iter.sort_idx.length) :
    FillInv { iter with
          node_buffer := iter.node_buffer.set ni node1
          sort_idx := iter.sort_idx.set ii (ni, no) }
        (if btree.need_split node1 0 then (ni + 1) % 2 ^ 32 else ni)
        (if btree.need_split node1 0 then 0 else (no + 1) % 2 ^ 32)
        ((ii + 1) % 2 ^ 32) (pre ++ [e]) := by
  obtain ⟨hidx, hni, hno, hcur, hitems⟩ := hinv
  have hm1 : (ii + 1) % 2 ^ 32 = ii + 1 := Nat.mod_eq_of_lt hlt
  have hm2 : (ni + 1) % 2 ^ 32 = ni + 1 := Nat.mod_eq_of_lt (by omega)
  have hm3 : (no + 1) % 2 ^ 32 = no + 1 := Nat.mod_eq_of_lt (by omega)
  rw [hm1, hm2, hm3]
  have hnilt : ni < iter.node_buffer.length := by
    rcases List.getElem?_eq_some.1 hb with ⟨h, -⟩; exact h
  -- the node the entry goes to has `no` slots
  have hlen : (if no = 0 then castle_da_node_buffer_init node0 else node0).slots.length = no := by
    by_cases h0 : no = 0
    · rw [if_pos h0, h0]; rfl
    · rw [if_neg h0]
      obtain ⟨node, h1, h2⟩ := hcur h0
      rw [hb] at h1
      cases h1
      exact h2
  have hslots : node1.slots =
      (if no = 0 then castle_da_node_buffer_init node0 else node0).slots ++ [slot_of e] := by
    exact entry_add_append _ _ _ _ _ _ _ hlen ha
  have hget1 : (iter.node_buffer.set ni node1)[ni]? = some node1 := by
    simp [hnilt]
  refine ⟨by simp [hidx], ?_, ?_, ?_, ?_⟩
  · split <;> omega
  · split <;> omega
  · intro hne
    by_cases hs : btree.need_split node1 0 = true
    · rw [if_pos hs] at hne; exact absurd rfl hne
    · simp only [if_neg hs]
      refine ⟨node1, hget1, ?_⟩
      rw [hslots, List.length_append, hlen]; rfl
  · intro i x hx
    dsimp only
    by_cases hi : i < pre.length
    · rw [List.getElem?_append_left hi] at hx
      obtain ⟨p, hp1, hp2, hp3⟩ := hitems i x hx
      refine ⟨p, ?_, ?_, ?_⟩
      · rw [List.getElem?_set_ne (by omega)]; exact hp1
      · by_cases hs : btree.need_split node1 0 = true
        · rw [if_pos hs, if_pos hs]; left; omega
        · rw [if_neg hs, if_neg hs]; omega
      · rcases hp2 with h1 | ⟨h1, h2⟩
        · simp only [slot_at] at hp3 ⊢
          rw [List.getElem?_set_ne (by omega)]
          exact hp3
        · have h0 : no ≠ 0 := by omega
          rw [if_neg h0] at hslots
          simp only [slot_at] at hp3 ⊢
          rw [h1, hb] at hp3
          rw [h1, hget1]
          dsimp only at hp3 ⊢
          rw [hslots, List.getElem?_append_left (by rw [if_neg h0] at hlen; omega)]
          exact hp3
    · have hi2 : i = ii := by
        have := (List.getElem?_eq_some.1 hx).1
        simp at this
        omega
      subst hi2
      rw [hidx, List.getElem?_append_right (le_refl _)] at hx
      simp at hx
      subst hx
      refine ⟨(ni, no), ?_, ?_, ?_⟩
      · simp [hii]
      · by_cases hs : btree.need_split node1 0 = true
        · rw [if_pos hs, if_pos hs]; left; simp
        · rw [if_neg hs, if_neg hs]; right; simp
      · simp only [slot_at]
        rw [hget1]
        dsimp only
        rw [hslots, List.getElem?_append_right (by omega), hlen]
        simp

theorem fill_loop_spec (btree : castle_btree_type) :
    ∀ (enum : List kv_entry) (iter : c_modlist_iter_t) (ni no ii : Nat) (pre : List kv_entry)
      (r : c_modlist_iter_t × Nat),
      FillInv iter ni no ii pre → ii < 2 ^ 32 →
      castle_ct_modlist_iter_fill_loop btree enum iter ni no ii = Res.ok r →
      (r.2 < 2 ^ 32 ∧ 2 ^ 32 ≤ r.1.sort_idx.length) ∨
      ∃ ni1 no1, FillInv r.1 ni1 no1 r.2 (pre ++ enum) := by
  intro enum
  induction enum with
  | nil =>
    intro iter ni no ii pre r hinv _ h
    simp only [castle_ct_modlist_iter_fill_loop, Res.ok.injEq] at h
    subst h
    right
    exact ⟨ni, no, by simpa using hinv⟩
  | cons e rest ih =>
    intro iter ni no ii pre r hinv hlt h
    obtain ⟨node0, node1, hb, ha, hii, hrest⟩ := fill_loop_cons_ok btree e rest iter ni no ii r h
    by_cases hw : ii + 1 < 2 ^ 32
    · have hstep := FillInv_step btree e iter ni no ii pre hinv hw node0 node1 hb ha hii
      have := ih _ _ _ _ (pre ++ [e]) r hstep (Nat.mod_lt _ (by norm_num)) hrest
      simpa using this
    · left
      refine fill_loop_wrapped btree rest _ _ _ _ r (Nat.mod_lt _ (by norm_num)) ?_ hrest
      simp only [List.length_set]
      omega

theorem fill_loop_fields (btree : castle_btree_type) :
    ∀ (enum : List kv_entry) (iter : c_modlist_iter_t) (ni no ii : Nat)
      (r : c_modlist_iter_t × Nat),
      castle_ct_modlist_iter_fill_loop btree enum iter ni no ii = Res.ok r →
      r.1.sort_idx.length = iter.sort_idx.length ∧ r.1.next_item = iter.next_item := by
  intro enum
  induction enum with
  | nil =>
    intro iter ni no ii r h
    simp only [castle_ct_modlist_iter_fill_loop, Res.ok.injEq] at h
    subst h
    exact ⟨rfl, rfl⟩
  | cons e rest ih =>
    intro iter ni no ii r h
    obtain ⟨node0, node1, -, -, -, hrest⟩ := fill_loop_cons_ok btree e rest iter ni no ii r h
    have := ih _ _ _ _ r hrest
    simpa using this

/-- After `castle_ct_modlist_iter_fill` the index lists the enumerated entries in
the order of the enumerator, and there are `item_count` of them. -/
theorem fill_spec (btree : castle_btree_type) (iter : c_modlist_iter_t) (enum : List kv_entry)
    (enum_err : Int) (item_count : Nat) (iter1 : c_modlist_iter_t)
    (hlen : iter.sort_idx.length = item_count)
    (h : castle_ct_modlist_iter_fill btree iter enum enum_err item_count = Res.ok iter1) :
    enum.length = item_count ∧ iter1.nr_items = item_count ∧ iter1.err = enum_err ∧
    iter1.next_item = iter.next_item ∧
    indexed_slots iter1 = enum.map (fun e => some (slot_of e)) := by
  rw [castle_ct_modlist_iter_fill] at h
  cases hl : castle_ct_modlist_iter_fill_loop btree enum iter 0 0 0 with
  | bug => rw [hl] at h; cases h
  | timeout => rw [hl] at h; cases h
  | ok r =>
    obtain ⟨it, idx⟩ := r
    rw [hl] at h
    dsimp only at h
    by_cases hne : idx ≠ item_count
    · rw [if_pos hne] at h; cases h
    · rw [if_neg hne] at h
      simp only [Res.ok.injEq] at h
      have hidx : idx = item_count := by omega
      obtain ⟨hf1, hf2⟩ := fill_loop_fields btree enum iter 0 0 0 _ hl
      have h0 : FillInv iter 0 0 0 [] :=
        ⟨rfl, le_refl _, le_refl _, fun h => absurd rfl h, fun i e he => by simp at he⟩
      rcases fill_loop_spec btree enum iter 0 0 0 [] _ h0 (by norm_num) hl with hw | ⟨ni, no, hinv⟩
      · exfalso
        dsimp only at hw hf1
        omega
      · dsimp only at hinv hf1 hf2
        rw [List.nil_append] at hinv
        have hel : enum.length = item_count := by rw [← hinv.idx]; exact hidx
        subst h
        refine ⟨hel, hidx, rfl, hf2, ?_⟩
        apply List.ext_getElem?
        intro i
        simp only [indexed_slots, List.getElem?_map]
        cases he : enum[i]? with
        | none =>
          have : it.sort_idx.length ≤ i := by
            have := List.getElem?_eq_none_iff.1 he
            omega
          rw [List.getElem?_eq_none_iff.2 this]
          rfl
        | some e =>
          obtain ⟨p, hp1, -, hp3⟩ := hinv.items i e he
          rw [hp1]
          simpa using hp3

theorem perm_cons_set {α : Type} (a b : α) :
    ∀ (l : List α) (j : Nat), l[j]? = some b → (a :: l).Perm (b :: l.set j a) := by
  intro l
  induction l with
  | nil => intro j h; simp at h
  | cons x t ih =>
    intro j h
    cases j with
    | zero =>
      simp at h
      subst h
      exact List.Perm.swap _ _ _
    | succ j =>
      simp at h
      have h1 := ih j h
      simp only [List.set_cons_succ]
      exact (List.Perm.swap x a t).trans (((List.Perm.cons x h1)).trans (List.Perm.swap b x _))

theorem perm_swap_set {α : Type} (a b : α) :
    ∀ (l : List α) (i j : Nat), l[i]? = some a → l[j]? = some b →
      ((l.set i b).set j a).Perm l := by
  intro l
  induction l with
  | nil => intro i j h; simp at h
  | cons x t ih =>
    intro i j hi hj
    cases i with
    | zero =>
      simp at hi
      subst hi
      cases j with
      | zero =>
        simp at hj
        subst hj
        simp
      | succ j =>
        simp at hj
        simp only [List.set_cons_zero, List.set_cons_succ]
        exact (perm_cons_set x b t j hj).symm
    | succ i =>
      simp at hi
      cases j with
      | zero =>
        simp at hj
        subst hj
        simp only [List.set_cons_zero, List.set_cons_succ]
        exact (perm_cons_set x a t i hi).symm
      | succ j =>
        simp at hj
        simp only [List.set_cons_succ]
        exact List.Perm.cons x (ih i j hi hj)

theorem SameItems.refl (iter : c_modlist_iter_t) : SameItems iter iter :=
  ⟨rfl, List.Perm.refl _, rfl, rfl, rfl⟩

theorem SameItems.trans {a b c : c_modlist_iter_t} (h1 : SameItems a b) (h2 : SameItems b c) :
    SameItems a c :=
  ⟨h2.buf.trans h1.buf, h2.perm.trans h1.perm, h2.nr_items.trans h1.nr_items,
    h2.next_item.trans h1.next_item, h2.err.trans h1.err⟩

theorem SameItems.swap (iter : c_modlist_iter_t) (i j : Nat) (a b : Nat × Nat)
    (hi : iter.sort_idx[i]? = some a) (hj : iter.sort_idx[j]? = some b) :
    SameItems iter { iter with sort_idx := (iter.sort_idx.set i b).set j a } :=
  ⟨rfl, perm_swap_set a b _ i j hi hj, rfl, rfl, rfl⟩

theorem sift_down_loop_same (btree : castle_btree_type) (vc : Nat → Nat → Int)
    (rk rv end_ : Nat) :
    ∀ (fuel : Nat) (iter : c_modlist_iter_t) (root : Nat) (iter1 : c_modlist_iter_t),
      castle_ct_modlist_iter_sift_down_loop btree vc rk rv end_ fuel iter root = Res.ok iter1 →
      SameItems iter iter1 := by
  intro fuel
  induction fuel with
  | zero =>
    intro iter root iter1 h
    rw [castle_ct_modlist_iter_sift_down_loop] at h
    split at h
    · cases h
    · cases h; exact SameItems.refl _
  | succ fuel ih =>
    intro iter root iter1 h
    rw [castle_ct_modlist_iter_sift_down_loop] at h
    split at h
    · dsimp only at h
      split at h
      · split at h
        · rename_i child1 ck cv hsel
          split at h
          · split at h
            · rename_i tc tr h1 h2
              exact (SameItems.swap iter child1 root tc tr h1 h2).trans (ih _ _ _ h)
            · cases h
          · cases h; exact SameItems.refl _
        · cases h
        · cases h
      · cases h
      · cases h
    · cases h; exact SameItems.refl _

theorem sift_down_same (btree : castle_btree_type) (vc : Nat → Nat → Int)
    (fuel : Nat) (iter : c_modlist_iter_t) (start end_ : Nat) (iter1 : c_modlist_iter_t)
    (h : castle_ct_modlist_iter_sift_down btree vc fuel iter start end_ = Res.ok iter1) :
    SameItems iter iter1 := by
  rw [castle_ct_modlist_iter_sift_down] at h
  split at h
  · exact sift_down_loop_same btree vc _ _ _ _ _ _ _ h
  · cases h
  · cases h

theorem heapify_loop_same (btree : castle_btree_type) (vc : Nat → Nat → Int) (fuel : Nat) :
    ∀ (start : Nat) (iter iter1 : c_modlist_iter_t),
      castle_ct_modlist_iter_heapify_loop btree vc fuel start iter = Res.ok iter1 →
      SameItems iter iter1 := by
  intro start
  induction start with
  | zero =>
    intro iter iter1 h
    rw [castle_ct_modlist_iter_heapify_loop] at h
    exact sift_down_same btree vc _ _ _ _ _ h
  | succ start ih =>
    intro iter iter1 h
    rw [castle_ct_modlist_iter_heapify_loop] at h
    split at h
    · rename_i it2 h2
      exact (sift_down_same btree vc _ _ _ _ _ h2).trans (ih _ _ h)
    · cases h
    · cases h

theorem heapsort_loop_same (btree : castle_btree_type) (vc : Nat → Nat → Int) (fuel : Nat) :
    ∀ (last : Nat) (iter iter1 : c_modlist_iter_t),
      castle_ct_modlist_iter_heapsort_loop btree vc fuel last iter = Res.ok iter1 →
      SameItems iter iter1 := by
  intro last
  induction last with
  | zero =>
    intro iter iter1 h
    rw [castle_ct_modlist_iter_heapsort_loop] at h
    cases h
    exact SameItems.refl _
  | succ last ih =>
    intro iter iter1 h
    rw [castle_ct_modlist_iter_heapsort_loop] at h
    split at h
    · rename_i tl t0 h1 h2
      dsimp only at h
      split at h
      · rename_i it2 h3
        exact ((SameItems.swap iter (last + 1) 0 tl t0 h1 h2).trans
          (sift_down_same btree vc _ _ _ _ _ h3)).trans (ih _ _ h)
      · cases h
      · cases h
    · cases h

/-- After `castle_ct_modlist_iter_init` has returned, the index refers to the
enumerated entries, each exactly once. -/
theorem init_spec (btree : castle_btree_type) (vc : Nat → Nat → Int) (fuel : Nat)
    (item_count nr_nodes : Nat) (enum : List kv_entry) (enum_err : Int)
    (iter : c_modlist_iter_t)
    (h : castle_ct_modlist_iter_init btree vc fuel item_count nr_nodes enum enum_err
      = Res.ok iter) :
    enum.length = item_count ∧ iter.nr_items = item_count ∧ iter.err = enum_err ∧
    iter.next_item = 0 ∧ iter.sort_idx.length = item_count ∧
    (indexed_slots iter).Perm (enum.map (fun e => some (slot_of e))) := by
  rw [castle_ct_modlist_iter_init] at h
  split at h
  · cases h
  · dsimp only at h
    split at h
    · rename_i iter1 hfill
      obtain ⟨h1, h2, h3, h4, h5⟩ := fill_spec btree _ enum enum_err item_count iter1
        (by simp) hfill
      have hlen1 : iter1.sort_idx.length = item_count := by
        have := congrArg List.length h5
        simpa [indexed_slots, h1] using this
      have key : ∀ it : c_modlist_iter_t, SameItems iter1 it →
          enum.length = item_count ∧ it.nr_items = item_count ∧ it.err = enum_err ∧
          it.next_item = 0 ∧ it.sort_idx.length = item_count ∧
          (indexed_slots it).Perm (enum.map (fun e => some (slot_of e))) := by
        intro it hs
        refine ⟨h1, hs.nr_items.trans h2, hs.err.trans h3, hs.next_item.trans h4,
          hs.perm.length_eq.trans hlen1, ?_⟩
        rw [← h5]
        simp only [indexed_slots, hs.buf]
        exact hs.perm.map _
      split at h
      · cases h
        exact key _ (SameItems.refl _)
      · split at h
        · rename_i iter2 hheap
          exact key _ ((heapify_loop_same btree vc _ _ _ _ hheap).trans
            (heapsort_loop_same btree vc _ _ _ _ h))
        · cases h
        · cases h
    · cases h
    · cases h

theorem item_get_of_indexed (iter : c_modlist_iter_t) (i : Nat) (s : btree_slot)
    (h : (indexed_slots iter)[i]? = some (some s)) :
    castle_ct_modlist_iter_item_get iter i = Res.ok s := by
  rw [item_get_eq]
  simp only [indexed_slots, List.getElem?_map] at h
  cases hp : iter.sort_idx[i]? with
  | none => rw [hp] at h; cases h
  | some p =>
    rw [hp] at h
    simp only [Option.map_some', Option.some.injEq] at h
    simp only [h]

theorem indexed_of_item_get (iter : c_modlist_iter_t) (i : Nat) (s : btree_slot)
    (h : castle_ct_modlist_iter_item_get iter i = Res.ok s) :
    (indexed_slots iter)[i]? = some (some s) := by
  rw [item_get_eq] at h
  simp only [indexed_slots, List.getElem?_map]
  cases hp : iter.sort_idx[i]? with
  | none => rw [hp] at h; cases h
  | some p =>
    rw [hp] at h
    dsimp only at h
    cases hs : slot_at iter.node_buffer p with
    | none => rw [hs] at h; cases h
    | some s1 =>
      rw [hs] at h
      cases h
      simp [hs]

/-- Draining the modlist iterator: the calls hand out the entries the index
refers to, from `next_item` on, and stop after the last one. -/
theorem modlist_drain_spec :
    ∀ (k : Nat) (iter : c_modlist_iter_t), iter.err = 0 →
      iter.next_item + k = iter.nr_items →
      iter.nr_items = (indexed_slots iter).length →
      (∀ x ∈ indexed_slots iter, ∃ s, x = some s) →
      (∀ fuel, k ≤ fuel → modlist_drain fuel iter =
        Res.ok (((indexed_slots iter).drop iter.next_item).map entry_of_opt)) ∧
      (∀ fuel, fuel < k → modlist_drain fuel iter = Res.timeout) := by
  intro k
  induction k with
  | zero =>
    intro iter herr hk hlen _
    have hn : castle_ct_modlist_iter_has_next iter = false := by
      simp [castle_ct_modlist_iter_has_next, herr]
      omega
    refine ⟨?_, fun fuel hf => by omega⟩
    intro fuel _
    have hd : (indexed_slots iter).drop iter.next_item = [] :=
      List.drop_eq_nil_iff.2 (by omega)
    rw [hd]
    cases fuel <;> simp [modlist_drain, hn]
  | succ k ih =>
    intro iter herr hk hlen hall
    have hn : castle_ct_modlist_iter_has_next iter = true := by
      simp [castle_ct_modlist_iter_has_next, herr]
      omega
    have hlt : iter.next_item < (indexed_slots iter).length := by omega
    obtain ⟨s, hs⟩ := hall _ (List.getElem_mem hlt)
    have hget : (indexed_slots iter)[iter.next_item]? = some (some s) := by
      rw [List.getElem?_eq_getElem hlt, hs]
    have hitem := item_get_of_indexed iter _ s hget
    have hnext : castle_ct_modlist_iter_next iter =
        Res.ok ({ iter with next_item := iter.next_item + 1 }, entry_of s) := by
      rw [castle_ct_modlist_iter_next, hitem]
      rfl
    obtain ⟨ih1, ih2⟩ := ih { iter with next_item := iter.next_item + 1 } herr
      (by dsimp only; omega) hlen hall
    have hd : ((indexed_slots iter).drop iter.next_item).map entry_of_opt =
        entry_of s :: ((indexed_slots iter).drop (iter.next_item + 1)).map entry_of_opt := by
      rw [List.drop_eq_getElem_cons hlt, List.map_cons, hs]
      rfl
    constructor
    · intro fuel hf
      cases fuel with
      | zero => omega
      | succ fuel =>
        rw [modlist_drain, if_pos hn, hnext]
        dsimp only
        rw [ih1 fuel (by omega), hd]
        rfl
    · intro fuel hf
      cases fuel with
      | zero => simp [modlist_drain, hn]
      | succ fuel =>
        rw [modlist_drain, if_pos hn, hnext]
        dsimp only
        rw [ih2 fuel (by omega)]

/-- C7: after a successful `castle_ct_modlist_iter_init` on a tree with
`item_count = n` (the call has returned and `err` is 0) the iterator has
`nr_items = n`; calling `castle_ct_modlist_iter_next` while
`castle_ct_modlist_iter_has_next` is true yields exactly `n` entries (`has_next` is
true before each of these calls and false after the last), the entries are a
permutation of the enumerated ones, and the `i`-th call returns the entry that
`sort_idx[i]` refers to. -/
theorem modlist_iter_yields_enumerated (btree : castle_btree_type) (vc : Nat → Nat → Int)
    (fuel n nr_nodes : Nat) (enum : List kv_entry) (enum_err : Int) (iter : c_modlist_iter_t)
    (hinit : castle_ct_modlist_iter_init btree vc fuel n nr_nodes enum enum_err = Res.ok iter)
    (herr : iter.err = 0) :
    1 ≤ n ∧ iter.nr_items = n ∧ iter.next_item = 0 ∧
    (castle_ct_modlist_iter_has_next iter = true ↔ iter.err = 0 ∧ iter.next_item < n) ∧
    ∃ out : List kv_entry,
      (∀ f, n ≤ f → modlist_drain f iter = Res.ok out) ∧
      (∀ f, f < n → modlist_drain f iter = Res.timeout) ∧
      out.length = n ∧ out.Perm enum ∧
      ∀ i, i < n → ∃ s, castle_ct_modlist_iter_item_get iter i = Res.ok s ∧
        out[i]? = some { k := s.key, v := s.version, cdb := s.cdb } := by
  obtain ⟨h1, h2, -, h4, h5, h6⟩ := init_spec btree vc fuel n nr_nodes enum enum_err iter hinit
  have hpos : 1 ≤ n := by
    rw [castle_ct_modlist_iter_init] at hinit
    by_cases h0 : n = 0
    · rw [if_pos h0] at hinit; cases hinit
    · omega
  have hall : ∀ x ∈ indexed_slots iter, ∃ s, x = some s := by
    intro x hx
    have := (h6.mem_iff).1 hx
    obtain ⟨e, -, he⟩ := List.mem_map.1 this
    exact ⟨_, he.symm⟩
  have hlen : iter.nr_items = (indexed_slots iter).length := by
    simp [indexed_slots, h2, h5]
  obtain ⟨d1, d2⟩ := modlist_drain_spec n iter herr (by omega) hlen hall
  rw [h4, List.drop_zero] at d1
  refine ⟨hpos, h2, h4, ?_, _, d1, d2, ?_, ?_, ?_⟩
  · simp [castle_ct_modlist_iter_has_next, h2]
  · simp [indexed_slots, h5]
  · have := h6.map entry_of_opt
    simpa [entry_of_opt, entry_of_slot_of, Function.comp_def] using this
  · intro i hi
    have hlt : i < (indexed_slots iter).length := by omega
    obtain ⟨s, hs⟩ := hall _ (List.getElem_mem hlt)
    have hget : (indexed_slots iter)[i]? = some (some s) := by
      rw [List.getElem?_eq_getElem hlt, hs]
    refine ⟨s, item_get_of_indexed iter i s hget, ?_⟩
    rw [List.getElem?_map, hget]
    rfl

/-- Example E2 as an instance: the initialisation returns (with the version
order of the forest 0 -> 1, 1 -> 2, 1 -> 3, nodes of three slots and a buffer of
two nodes), and the four entries are handed out. -/
theorem modlist_iter_yields_enumerated_witness :
    castle_ct_modlist_iter_init (nat_btree 3) (castle_version_compare e2_versions) 4 4 2
      e2_enum 0 = Res.ok e2_iter ∧ e2_iter.err = 0 ∧
    (1 ≤ 4 ∧ e2_iter.nr_items = 4 ∧ e2_iter.next_item = 0 ∧
    (castle_ct_modlist_iter_has_next e2_iter = true ↔ e2_iter.err = 0 ∧ e2_iter.next_item < 4) ∧
    ∃ out : List kv_entry,
      (∀ f, 4 ≤ f → modlist_drain f e2_iter = Res.ok out) ∧
      (∀ f, f < 4 → modlist_drain f e2_iter = Res.timeout) ∧
      out.length = 4 ∧ out.Perm e2_enum ∧
      ∀ i, i < 4 → ∃ s, castle_ct_modlist_iter_item_get e2_iter i = Res.ok s ∧
        out[i]? = some { k := s.key, v := s.version, cdb := s.cdb }) :=
  ⟨by decide, rfl,
   modlist_iter_yields_enumerated (nat_btree 3) (castle_version_compare e2_versions) 4 4 2
     e2_enum 0 e2_iter (by decide) rfl⟩

/-! ## The modlist iterator on a tree with a single item -/

theorem fill_nr_items (btree : castle_btree_type) (iter : c_modlist_iter_t) (enum : List kv_entry)
    (enum_err : Int) (item_count : Nat) (iter1 : c_modlist_iter_t)
    (h : castle_ct_modlist_iter_fill btree iter enum enum_err item_count = Res.ok iter1) :
    iter1.nr_items = item_count ∧ iter1.sort_idx.length = iter.sort_idx.length ∧
    iter1.err = enum_err := by
  rw [castle_ct_modlist_iter_fill] at h
  cases hl : castle_ct_modlist_iter_fill_loop btree enum iter 0 0 0 with
  | bug => rw [hl] at h; cases h
  | timeout => rw [hl] at h; cases h
  | ok r =>
    obtain ⟨it, idx⟩ := r
    rw [hl] at h
    dsimp only at h
    by_cases hne : idx ≠ item_count
    · rw [if_pos hne] at h; cases h
    · rw [if_neg hne] at h
      simp only [Res.ok.injEq] at h
      subst h
      exact ⟨by dsimp only; omega, (fill_loop_fields btree enum iter 0 0 0 _ hl).1, rfl⟩

/-- With one item `castle_ct_modlist_iter_heapify` starts at
`(1 - 2)/2 = 0x7FFFFFFF` and reads `sort_idx` there, outside the index. -/
theorem heapify_single_item (btree : castle_btree_type) (vc : Nat → Nat → Int) (fuel : Nat)
    (iter : c_modlist_iter_t) (h1 : iter.nr_items = 1) (h2 : iter.sort_idx.length = 1) :
    castle_ct_modlist_iter_heapify btree vc fuel iter = Res.bug := by
  have hstart : ((iter.nr_items + 2 ^ 32 - 2) % 2 ^ 32) / 2 = 2147483646 + 1 := by
    rw [h1]; norm_num
  rw [castle_ct_modlist_iter_heapify, hstart, castle_ct_modlist_iter_heapify_loop]
  have hget : castle_ct_modlist_iter_item_get iter (2147483646 + 1) = Res.bug := by
    rw [item_get_eq, List.getElem?_eq_none_iff.2 (by omega)]
  rw [castle_ct_modlist_iter_sift_down, hget]

theorem fill_loop_ne_timeout (btree : castle_btree_type) :
    ∀ (enum : List kv_entry) (iter : c_modlist_iter_t) (ni no ii : Nat),
      castle_ct_modlist_iter_fill_loop btree enum iter ni no ii ≠ Res.timeout := by
  intro enum
  induction enum with
  | nil => intro iter ni no ii h; simp [castle_ct_modlist_iter_fill_loop] at h
  | cons e rest ih =>
    intro iter ni no ii h
    rw [castle_ct_modlist_iter_fill_loop] at h
    cases hb : iter.node_buffer[ni]? with
    | none => rw [hb] at h; cases h
    | some node0 =>
      rw [hb] at h
      dsimp only at h
      by_cases h1 : no ≠ 0 ∧ btree.need_split (if no = 0 then castle_da_node_buffer_init node0
          else node0) 0 = true
      · rw [if_pos h1] at h; cases h
      · rw [if_neg h1] at h
        cases ha : btree_entry_add (if no = 0 then castle_da_node_buffer_init node0 else node0) no
            e.k e.v true e.cdb with
        | bug => rw [ha] at h; cases h
        | timeout =>
          rw [btree_entry_add] at ha
          by_cases hc : 0 ≤ (no : Int) ∧ (no : Int) ≤
              ((if no = 0 then castle_da_node_buffer_init node0 else node0).used : Int)
          · rw [if_pos hc] at ha; cases ha
          · rw [if_neg hc] at ha; cases ha
        | ok node1 =>
          rw [ha] at h
          dsimp only at h
          by_cases h2 : ii < iter.sort_idx.length
          · rw [if_pos h2] at h
            by_cases h3 : btree.need_split node1 0 = true
            · rw [if_pos h3] at h; exact ih _ _ _ _ h
            · rw [if_neg h3] at h; exact ih _ _ _ _ h
          · rw [if_neg h2] at h; cases h

/-- C6 at a tree with a single item: for every node type, version order, node
buffer and enumerator without error, `castle_ct_modlist_iter_init` with
`item_count = 1` fails: the heapify step reads `sort_idx[0x7FFFFFFF]`. -/
theorem modlist_init_single_item (btree : castle_btree_type) (vc : Nat → Nat → Int)
    (fuel nr_nodes : Nat) (enum : List kv_entry) :
    castle_ct_modlist_iter_init btree vc fuel 1 nr_nodes enum 0 = Res.bug := by
  rw [castle_ct_modlist_iter_init, if_neg (by norm_num)]
  dsimp only
  cases hf : castle_ct_modlist_iter_fill btree
      { err := 0, nr_nodes := nr_nodes,
        node_buffer := List.replicate nr_nodes { version := 0, is_leaf := false, slots := [] },
        nr_items := 0, next_item := 0, sort_idx := List.replicate 1 (0, 0) } enum 0 1 with
  | bug => rfl
  | timeout =>
    exfalso
    rw [castle_ct_modlist_iter_fill] at hf
    split at hf
    · split at hf <;> cases hf
    · cases hf
    · rename_i hl
      exact fill_loop_ne_timeout btree _ _ _ _ _ hl
  | ok iter1 =>
    obtain ⟨h1, h2, h3⟩ := fill_nr_items btree _ enum 0 1 iter1 hf
    dsimp only
    rw [if_neg (by rw [h3]; simp), heapify_single_item btree vc fuel iter1 h1 (by simpa using h2)]

/-- Example E2: the entries inserted as `(7,v3),(5,v1),(7,v1),(5,v2)` are handed
out as `(5,v2),(5,v1),(7,v3),(7,v1)`; a tree with the single entry `(5,v1)` makes
the initialisation fail. -/
theorem modlist_e2_output :
    (castle_ct_modlist_iter_init (nat_btree 3) (castle_version_compare e2_versions) 4 4 2
        e2_enum 0).bind (modlist_drain 4) =
      Res.ok [{ k := 5, v := 2, cdb := (0, 4) }, { k := 5, v := 1, cdb := (0, 2) },
        { k := 7, v := 3, cdb := (0, 1) }, { k := 7, v := 1, cdb := (0, 3) }] ∧
    castle_ct_modlist_iter_init (nat_btree 3) (castle_version_compare e2_versions) 4 1 2
        [{ k := 5, v := 1, cdb := (0, 2) }] 0 = Res.bug := by
  constructor
  · decide
  · exact modlist_init_single_item _ _ _ _ _

/-! ## One call of `castle_da_entry_add` -/

theorem btree_entry_add_ok {node node1 : castle_btree_node} {idx : Int} {key version : Nat}
    {b : Bool} {cdb : c_disk_blk_t}
    (h : btree_entry_add node idx key version b cdb = Res.ok node1) :
    0 ≤ idx ∧ idx ≤ (node.used : Int) ∧ node1.version = node.version ∧
    node1.is_leaf = node.is_leaf ∧
    node1.slots = node.slots.take idx.toNat ++
      [{ key := key, version := version, is_leaf_ptr := b, cdb := cdb }] ++
      node.slots.drop idx.toNat := by
  rw [btree_entry_add] at h
  by_cases hc : 0 ≤ idx ∧ idx ≤ (node.used : Int)
  · rw [if_pos hc] at h
    cases h
    exact ⟨hc.1, hc.2, rfl, rfl, rfl⟩
  · rw [if_neg hc] at h; cases h

theorem btree_entry_get_added {node node1 : castle_btree_node} {idx : Int} {key version : Nat}
    {b : Bool} {cdb : c_disk_blk_t}
    (h : btree_entry_add node idx key version b cdb = Res.ok node1) :
    btree_entry_get node1 idx =
      Res.ok { key := key, version := version, is_leaf_ptr := b, cdb := cdb } := by
  obtain ⟨h0, h1, -, -, hs⟩ := btree_entry_add_ok h
  rw [btree_entry_get, if_pos h0, hs]
  have hlen : (node.slots.take idx.toNat).length = idx.toNat := by
    rw [List.length_take]
    simp only [castle_btree_node.used] at h1
    omega
  rw [List.append_assoc, List.getElem?_append_right (by omega), hlen]
  simp

/-- The body of `castle_da_entry_add` once the node exists. -/
theorem entry_add_level_some (btree : castle_btree_type) (st : Versions)
    (level : castle_da_merge_level) (nb key version : Nat) (cdb : c_disk_blk_t)
    (blk : c_disk_blk_t) (node : castle_btree_node)
    (l1 : castle_da_merge_level) (nb1 : Nat)
    (hn : level.node_c2b = some (blk, node))
    (h : castle_da_entry_add_level btree st level nb key version cdb = Res.ok (l1, nb1)) :
    nb1 = nb ∧
    ∃ node1, btree_entry_add node level.next_idx key version false cdb = Res.ok node1 ∧
      l1.node_c2b = some (blk, node1) ∧ l1.buffer = level.buffer ∧
      l1.next_idx = (if btree.need_split node1 0 then -1 else level.next_idx + 1) ∧
      CutCase btree st level l1 key version := by
  rw [castle_da_entry_add_level] at h
  simp only [hn] at h
  cases hadd : btree_entry_add node level.next_idx key version false cdb with
  | bug => rw [hadd] at h; cases h
  | timeout => rw [hadd] at h; cases h
  | ok node1 =>
    rw [hadd] at h
    dsimp only at h
    have hget := btree_entry_get_added hadd
    rw [hget] at h
    dsimp only at h
    by_cases h0 : level.next_idx = 0
    · -- Case 1: the entry starts the node
      simp only [h0, ne_eq, not_true_eq_false, if_false, if_true, lt_self_iff_false] at h
      by_cases hv : level.valid_end_idx ≥ 0
      · simp only [hv, if_true] at h; cases h
      · simp only [hv, if_false] at h
        by_cases hs : btree.need_split node1 0 = true
        · rw [if_pos hs] at h
          obtain ⟨h1, h2⟩ := Prod.mk.inj (Res.ok.inj h)
          subst h1
          exact ⟨h2.symm, node1, rfl, rfl, rfl, by simp [hs], Or.inl ⟨h0, rfl, rfl, rfl⟩⟩
        · rw [if_neg hs] at h
          obtain ⟨h1, h2⟩ := Prod.mk.inj (Res.ok.inj h)
          subst h1
          exact ⟨h2.symm, node1, rfl, rfl, rfl, by simp [hs, h0], Or.inl ⟨h0, rfl, rfl, rfl⟩⟩
    · simp only [h0, ne_eq, not_false_eq_true, if_true, if_false] at h
      cases hlk : level.last_key with
      | none => rw [hlk] at h; cases h
      | some lk =>
        rw [hlk] at h
        dsimp only at h
        by_cases hneg : btree.key_compare key lk < 0
        · rw [if_pos hneg] at h; cases h
        · rw [if_neg hneg] at h
          have hnn : 0 ≤ btree.key_compare key lk := by omega
          by_cases hpos : btree.key_compare key lk > 0
          · -- Case 2: a new key
            simp only [hpos, if_true] at h
            by_cases hs : btree.need_split node1 0 = true
            · rw [if_pos hs] at h
              obtain ⟨h1, h2⟩ := Prod.mk.inj (Res.ok.inj h)
              subst h1
              exact ⟨h2.symm, node1, rfl, rfl, rfl, by simp [hs],
                Or.inr ⟨h0, lk, hlk, hnn, Or.inl ⟨hpos, rfl, rfl, rfl⟩⟩⟩
            · rw [if_neg hs] at h
              obtain ⟨h1, h2⟩ := Prod.mk.inj (Res.ok.inj h)
              subst h1
              exact ⟨h2.symm, node1, rfl, rfl, rfl, by simp [hs],
                Or.inr ⟨h0, lk, hlk, hnn, Or.inl ⟨hpos, rfl, rfl, rfl⟩⟩⟩
          · simp only [hpos, if_false] at h
            have hz : btree.key_compare key lk = 0 := by omega
            cases hanc : castle_version_is_ancestor st version level.valid_version with
            | bug => rw [hanc] at h; cases h
            | timeout => rw [hanc] at h; cases h
            | ok b =>
              rw [hanc] at h
              cases b with
              | true =>
                -- Case 3: a strict ancestor of `valid_version`
                dsimp only at h
                by_cases hvv : version = level.valid_version
                · rw [if_pos hvv] at h; cases h
                · rw [if_neg hvv] at h
                  dsimp only at h
                  by_cases hs : btree.need_split node1 0 = true
                  · rw [if_pos hs] at h
                    obtain ⟨h1, h2⟩ := Prod.mk.inj (Res.ok.inj h)
                    subst h1
                    exact ⟨h2.symm, node1, rfl, rfl, rfl, by simp [hs],
                      Or.inr ⟨h0, lk, hlk, hnn, Or.inr (Or.inl ⟨hz, hanc, hvv, hlk.symm, rfl, rfl⟩)⟩⟩
                  · rw [if_neg hs] at h
                    obtain ⟨h1, h2⟩ := Prod.mk.inj (Res.ok.inj h)
                    subst h1
                    exact ⟨h2.symm, node1, rfl, rfl, rfl, by simp [hs],
                      Or.inr ⟨h0, lk, hlk, hnn, Or.inr (Or.inl ⟨hz, hanc, hvv, hlk.symm, rfl, rfl⟩)⟩⟩
              | false =>
                dsimp only at h
                by_cases hs : btree.need_split node1 0 = true
                · rw [if_pos hs] at h
                  obtain ⟨h1, h2⟩ := Prod.mk.inj (Res.ok.inj h)
                  subst h1
                  exact ⟨h2.symm, node1, rfl, rfl, rfl, by simp [hs],
                    Or.inr ⟨h0, lk, hlk, hnn, Or.inr (Or.inr ⟨hz, hanc, rfl, rfl, rfl⟩)⟩⟩
                · rw [if_neg hs] at h
                  obtain ⟨h1, h2⟩ := Prod.mk.inj (Res.ok.inj h)
                  subst h1
                  exact ⟨h2.symm, node1, rfl, rfl, rfl, by simp [hs],
                    Or.inr ⟨h0, lk, hlk, hnn, Or.inr (Or.inr ⟨hz, hanc, rfl, rfl, rfl⟩)⟩⟩

/-- The body of `castle_da_entry_add` when the level has no node: a block is
allocated and the entry starts the new node. -/
theorem entry_add_level_none (btree : castle_btree_type) (st : Versions)
    (level : castle_da_merge_level) (nb key version : Nat) (cdb : c_disk_blk_t)
    (l1 : castle_da_merge_level) (nb1 : Nat)
    (hn : level.node_c2b = none)
    (h : castle_da_entry_add_level btree st level nb key version cdb = Res.ok (l1, nb1)) :
    level.next_idx = 0 ∧ level.valid_end_idx < 0 ∧ nb1 = nb + 1 ∧
    ∃ node1, node1.slots = [merge_slot key version cdb] ∧
      l1.node_c2b = some ((1, nb), node1) ∧ l1.buffer = level.buffer ∧
      l1.next_idx = (if btree.need_split node1 0 then -1 else 1) ∧
      l1.valid_end_idx = 0 ∧ l1.last_key = some key ∧ l1.valid_version = version := by
  have h0 : level.next_idx = 0 := by
    by_contra hc
    rw [castle_da_entry_add_level] at h
    simp only [hn, ne_eq, hc, not_false_eq_true, if_true] at h
    cases h
  have hv : ¬ level.valid_end_idx ≥ 0 := by
    intro hc
    rw [castle_da_entry_add_level] at h
    simp only [hn, ne_eq, h0, not_true_eq_false, if_false, hc, if_true] at h
    cases h
  have h2 : castle_da_entry_add_level btree st
      { level with node_c2b := some ((1, nb),
          castle_da_node_buffer_init { version := 0, is_leaf := false, slots := [] }) }
      (nb + 1) key version cdb = Res.ok (l1, nb1) := by
    rw [castle_da_entry_add_level] at h ⊢
    simp only [hn, ne_eq, h0, not_true_eq_false, if_false, hv] at h ⊢
    exact h
  obtain ⟨e1, node1, hadd, e2, e3, e4, hcut⟩ :=
    entry_add_level_some btree st _ (nb + 1) key version cdb _ _ l1 nb1 rfl h2
  dsimp only at hadd e3 e4 hcut
  have hslots := (btree_entry_add_ok hadd).2.2.2.2
  refine ⟨h0, by omega, e1, node1, ?_, e2, e3, ?_, ?_⟩
  · rw [hslots, h0]; rfl
  · rw [e4, h0]; rfl
  · rcases hcut with ⟨-, c1, c2, c3⟩ | ⟨c1, -⟩
    · exact ⟨c1, c2, c3⟩
    · exact absurd h0 c1

/-- One call of the body of `castle_da_entry_add` on a well-formed level: the
entry is appended to the node, the buffer stays. -/
theorem entry_add_level_spec (btree : castle_btree_type) (st : Versions)
    (level : castle_da_merge_level) (nb key version : Nat) (cdb : c_disk_blk_t)
    (l1 : castle_da_merge_level) (nb1 : Nat) (hw : WFL level)
    (h : castle_da_entry_add_level btree st level nb key version cdb = Res.ok (l1, nb1)) :
    WFL l1 ∧ node_slots l1 = node_slots level ++ [merge_slot key version cdb] ∧
    l1.buffer = level.buffer ∧ l1.node_c2b ≠ none ∧
    level.next_idx = ((node_slots level).length : Int) ∧
    (l1.next_idx = -1 ∨ l1.next_idx = ((node_slots l1).length : Int)) ∧
    CutCase btree st level l1 key version := by
  cases hn : level.node_c2b with
  | none =>
    obtain ⟨h0, h1, -, node1, hs, e2, e3, e4, e5, e6, e7⟩ :=
      entry_add_level_none btree st level nb key version cdb l1 nb1 hn h
    have hns : node_slots l1 = [merge_slot key version cdb] := by simp [node_slots, e2, hs]
    have hns0 : node_slots level = [] := by simp [node_slots, hn]
    have hnx : l1.next_idx = -1 ∨ l1.next_idx = ((node_slots l1).length : Int) := by
      rw [e4, hns]
      by_cases hsp : btree.need_split node1 0 = true
      · left; rw [if_pos hsp]
      · right; rw [if_neg hsp]; rfl
    refine ⟨⟨fun hc => ?_, fun _ => ⟨hnx, ?_, ?_⟩⟩, ?_, e3, ?_, ?_, hnx, Or.inl ⟨h0, e5, e6, e7⟩⟩
    · rw [e2] at hc; cases hc
    · omega
    · rw [hns, e5]; simp
    · rw [hns, hns0]; rfl
    · rw [e2]; simp
    · rw [hns0, h0]; rfl
  | some p =>
    obtain ⟨blk, node⟩ := p
    obtain ⟨-, node1, hadd, e2, e3, e4, hcut⟩ :=
      entry_add_level_some btree st level nb key version cdb blk node l1 nb1 hn h
    obtain ⟨i0, i1, -, -, hs⟩ := btree_entry_add_ok hadd
    have hns0 : node_slots level = node.slots := by simp [node_slots, hn]
    obtain ⟨hnx0, hv0, hv1⟩ := hw.some_case (by rw [hn]; simp)
    rw [hns0] at hnx0 hv1
    have hidx : level.next_idx = (node.slots.length : Int) := by
      rcases hnx0 with hc | hc
      · omega
      · exact hc
    have hs2 : node1.slots = node.slots ++ [merge_slot key version cdb] := by
      rw [hs, hidx]
      simp [merge_slot]
    have hns : node_slots l1 = node.slots ++ [merge_slot key version cdb] := by
      simp [node_slots, e2, hs2]
    have hnx : l1.next_idx = -1 ∨ l1.next_idx = ((node_slots l1).length : Int) := by
      rw [e4, hns]
      by_cases hsp : btree.need_split node1 0 = true
      · left; rw [if_pos hsp]
      · right; rw [if_neg hsp, hidx]; simp
    have hvei : 0 ≤ l1.valid_end_idx ∧ l1.valid_end_idx < ((node_slots l1).length : Int) := by
      rw [hns]
      simp only [List.length_append, List.length_singleton, Nat.cast_add, Nat.cast_one]
      rcases hcut with ⟨c0, c1, -⟩ | ⟨-, lk, -, -, ⟨-, -, c1, -⟩ | ⟨-, -, -, -, c1, -⟩ | ⟨-, -, -, c1, -⟩⟩
      · omega
      · omega
      · omega
      · omega
    refine ⟨⟨fun hc => ?_, fun _ => ⟨hnx, hvei⟩⟩, ?_, e3, ?_, ?_, hnx, hcut⟩
    · rw [e2] at hc; cases hc
    · rw [hns, hns0]
    · rw [e2]; simp
    · rw [hns0]; exact hidx

/-- The function `castle_da_entry_add` in terms of its body. -/
theorem entry_add_ok (btree : castle_btree_type) (st : Versions)
    (merge merge1 : struct_castle_da_merge) (depth key version : Nat) (cdb : c_disk_blk_t)
    (h : castle_da_entry_add btree st merge depth key version cdb = Res.ok merge1) :
    ∃ level l1, merge.levels[depth]? = some level ∧
      castle_da_entry_add_level btree st level merge.next_blk key version cdb
        = Res.ok (l1, merge1.next_blk) ∧
      merge1.levels = merge.levels.set depth l1 ∧ merge1.written = merge.written := by
  rw [castle_da_entry_add] at h
  cases hl : merge.levels[depth]? with
  | none => rw [hl] at h; cases h
  | some level =>
    rw [hl] at h
    dsimp only at h
    cases ha : castle_da_entry_add_level btree st level merge.next_blk key version cdb with
    | bug => rw [ha] at h; cases h
    | timeout => rw [ha] at h; cases h
    | ok r =>
      obtain ⟨l1, nb1⟩ := r
      rw [ha] at h
      cases h
      exact ⟨level, l1, rfl, ha, rfl, rfl⟩

/-! ## One call of `castle_da_node_complete` -/

theorem node_complete_copy_ok :
    ∀ (slots : List btree_slot) (buffer buffer1 : castle_btree_node) (idx : Int),
      castle_da_node_complete_copy slots buffer idx = Res.ok buffer1 →
      idx = (buffer.used : Int) →
      buffer1.slots = buffer.slots ++ slots ∧ buffer1.version = buffer.version ∧
      buffer1.is_leaf = buffer.is_leaf ∧ ∀ s ∈ slots, s.is_leaf_ptr = false := by
  intro slots
  induction slots with
  | nil =>
    intro buffer buffer1 idx h _
    rw [castle_da_node_complete_copy] at h
    cases h
    simp
  | cons s rest ih =>
    intro buffer buffer1 idx h hidx
    rw [castle_da_node_complete_copy] at h
    by_cases h1 : (buffer.used : Int) ≠ idx
    · rw [if_pos h1] at h; cases h
    · rw [if_neg h1] at h
      by_cases h2 : s.is_leaf_ptr = true
      · rw [if_pos h2] at h; cases h
      · rw [if_neg h2] at h
        cases ha : btree_entry_add buffer idx s.key s.version false s.cdb with
        | bug => rw [ha] at h; cases h
        | timeout => rw [ha] at h; cases h
        | ok b1 =>
          rw [ha] at h
          dsimp only at h
          obtain ⟨-, -, e1, e2, e3⟩ := btree_entry_add_ok ha
          have hs : b1.slots = buffer.slots ++ [s] := by
            rw [e3, hidx]
            have : s.is_leaf_ptr = false := by simpa using h2
            obtain ⟨k, v, l, c⟩ := s
            simp only at this
            subst this
            simp [castle_btree_node.used]
          obtain ⟨i1, i2, i3, i4⟩ := ih b1 buffer1 (idx + 1) h (by
            simp only [castle_btree_node.used, hs, List.length_append, List.length_singleton,
              Nat.cast_add, Nat.cast_one, hidx])
          refine ⟨by rw [i1, hs]; simp, i2.trans e1, i3.trans e2, ?_⟩
          intro x hx
          rcases List.mem_cons.1 hx with rfl | hx
          · simpa using h2
          · exact i4 x hx

theorem btree_entries_drop_ok {node node1 : castle_btree_node} {lo hi : Int}
    (h : btree_entries_drop node lo hi = Res.ok node1) :
    0 ≤ lo ∧ lo ≤ hi ∧ hi < (node.used : Int) ∧ node1.version = node.version ∧
    node1.is_leaf = node.is_leaf ∧
    node1.slots = node.slots.take lo.toNat ++ node.slots.drop (hi.toNat + 1) := by
  rw [btree_entries_drop] at h
  by_cases hc : 0 ≤ lo ∧ lo ≤ hi ∧ hi < (node.used : Int)
  · rw [if_pos hc] at h
    cases h
    exact ⟨hc.1, hc.2.1, hc.2.2, rfl, rfl, rfl⟩
  · rw [if_neg hc] at h; cases h

theorem btree_entry_get_ok {node : castle_btree_node} {idx : Int} {s : btree_slot}
    (h : btree_entry_get node idx = Res.ok s) :
    0 ≤ idx ∧ node.slots[idx.toNat]? = some s := by
  rw [btree_entry_get] at h
  by_cases hc : 0 ≤ idx
  · rw [if_pos hc] at h
    cases hg : node.slots[idx.toNat]? with
    | none => rw [hg] at h; cases h
    | some x => rw [hg] at h; cases h; exact ⟨hc, rfl⟩
  · rw [if_neg hc] at h; cases h

/-- One call of `castle_da_node_complete` that does not fail: the node is cut
after `valid_end_idx`, the rest goes to the buffer, the pointer to the node is
added one level up, and the level is reset. -/
theorem node_complete_ok (btree : castle_btree_type) (st : Versions)
    (merge merge1 : struct_castle_da_merge) (depth : Nat)
    (h : castle_da_node_complete btree st merge depth = Res.ok merge1) :
    ∃ level blk node0 buffer1 s lup l1,
      merge.levels[depth]? = some level ∧ level.node_c2b = some (blk, node0) ∧
      level.buffer.slots = [] ∧ 0 ≤ level.valid_end_idx ∧
      level.valid_end_idx < (node0.slots.length : Int) ∧
      buffer1.slots = node0.slots.drop (level.valid_end_idx.toNat + 1) ∧
      node0.slots[level.valid_end_idx.toNat]? = some s ∧
      merge.levels[depth + 1]? = some lup ∧
      castle_da_entry_add_level btree st lup merge.next_blk s.key level.valid_version blk
        = Res.ok (l1, merge1.next_blk) ∧
      merge1.levels = (merge.levels.set depth (level_reset level buffer1)).set (depth + 1) l1 ∧
      merge1.written = merge.written ++ [(depth, blk, completed_node level node0)] := by
  rw [castle_da_node_complete] at h
  cases hl : merge.levels[depth]? with
  | none => rw [hl] at h; cases h
  | some level =>
    rw [hl] at h
    dsimp only at h
    cases hn : level.node_c2b with
    | none => rw [hn] at h; cases h
    | some p =>
      obtain ⟨blk, node0⟩ := p
      rw [hn] at h
      dsimp only at h
      by_cases hb : level.buffer.used ≠ 0
      · rw [if_pos hb] at h; cases h
      · rw [if_neg hb] at h
        have hb0 : level.buffer.slots = [] := by
          simp only [castle_btree_node.used, ne_eq, not_not] at hb
          exact List.length_eq_zero.1 hb
        by_cases hr : level.valid_end_idx + 1 ≤ 0 ∨
            level.valid_end_idx + 1 > ((({ node0 with version := level.valid_version } :
              castle_btree_node).used : Nat) : Int)
        · rw [if_pos hr] at h; cases h
        · rw [if_neg hr] at h
          simp only [castle_btree_node.used] at hr
          have hv0 : 0 ≤ level.valid_end_idx := by omega
          have hv1 : level.valid_end_idx < (node0.slots.length : Int) := by omega
          have htn : (level.valid_end_idx + 1).toNat = level.valid_end_idx.toNat + 1 := by omega
          cases hc : castle_da_node_complete_copy
              (({ node0 with version := level.valid_version } : castle_btree_node).slots.drop
                (level.valid_end_idx + 1).toNat) level.buffer 0 with
          | bug => rw [hc] at h; cases h
          | timeout => rw [hc] at h; cases h
          | ok buffer1 =>
            rw [hc] at h
            dsimp only at h
            obtain ⟨c1, -, -, c4⟩ := node_complete_copy_ok _ _ _ _ hc
              (by simp [castle_btree_node.used, hb0])
            rw [hb0, List.nil_append, htn] at c1
            dsimp only at c1
            -- the node after the entries behind the cut are dropped
            have hdrop : ∀ node1 : castle_btree_node,
                (if level.valid_end_idx + 1 ≤
                    ((({ node0 with version := level.valid_version } :
                      castle_btree_node).used : Nat) : Int) - 1 then
                  btree_entries_drop { node0 with version := level.valid_version }
                    (level.valid_end_idx + 1)
                    (((({ node0 with version := level.valid_version } :
                      castle_btree_node).used : Nat) : Int) - 1)
                else Res.ok { node0 with version := level.valid_version }) = Res.ok node1 →
                node1 = completed_node level node0 := by
              intro node1 hd
              by_cases hcnd : level.valid_end_idx + 1 ≤
                  ((({ node0 with version := level.valid_version } :
                    castle_btree_node).used : Nat) : Int) - 1
              · rw [if_pos hcnd] at hd
                obtain ⟨-, -, -, d1, d2, d3⟩ := btree_entries_drop_ok hd
                simp only [castle_btree_node.used] at d3 hcnd
                obtain ⟨v, l, sl⟩ := node1
                simp only at d1 d2 d3
                subst d1; subst d2
                simp only [completed_node, castle_btree_node.mk.injEq, true_and]
                rw [d3, htn]
                have : ((node0.slots.length : Int) - 1).toNat + 1 = node0.slots.length := by omega
                rw [this, List.drop_length, List.append_nil]
              · rw [if_neg hcnd] at hd
                cases hd
                simp only [castle_btree_node.used] at hcnd
                simp only [completed_node, castle_btree_node.mk.injEq, true_and]
                rw [List.take_of_length_le (by omega)]
            revert h
            generalize hdr : (if level.valid_end_idx + 1 ≤
                    ((({ node0 with version := level.valid_version } :
                      castle_btree_node).used : Nat) : Int) - 1 then
                  btree_entries_drop { node0 with version := level.valid_version }
                    (level.valid_end_idx + 1)
                    (((({ node0 with version := level.valid_version } :
                      castle_btree_node).used : Nat) : Int) - 1)
                else Res.ok { node0 with version := level.valid_version }) = dr
            intro h
            cases dr with
            | bug => cases h
            | timeout => cases h
            | ok node1 =>
              have hn1 := hdrop node1 hdr
              subst hn1
              dsimp only at h
              by_cases hu : ((completed_node level node0).used : Int) ≠ level.valid_end_idx + 1
              · rw [if_pos hu] at h; cases h
              · rw [if_neg hu] at h
                cases hg : btree_entry_get (completed_node level node0) level.valid_end_idx with
                | bug => rw [hg] at h; cases h
                | timeout => rw [hg] at h; cases h
                | ok s =>
                  rw [hg] at h
                  dsimp only at h
                  by_cases hlp : s.is_leaf_ptr = true
                  · rw [if_pos hlp] at h; cases h
                  · rw [if_neg hlp] at h
                    obtain ⟨-, g2⟩ := btree_entry_get_ok hg
                    have g3 : node0.slots[level.valid_end_idx.toNat]? = some s := by
                      simp only [completed_node] at g2
                      rw [List.getElem?_take_of_lt (by omega)] at g2
                      exact g2
                    cases he : castle_da_entry_add btree st
                        { merge with
                          levels := merge.levels.set depth
                            { level with
                              node_c2b := some (blk, completed_node level node0),
                              buffer := buffer1 } }
                        (depth + 1) s.key (completed_node level node0).version blk with
                    | bug => rw [he] at h; cases h
                    | timeout => rw [he] at h; cases h
                    | ok merge2 =>
                      rw [he] at h
                      dsimp only at h
                      obtain ⟨lup, l1, a1, a2, a3, a4⟩ := entry_add_ok btree st _ _ _ _ _ _ he
                      dsimp only at a1 a2 a3 a4
                      rw [List.getElem?_set_ne (by omega)] at a1
                      have hlt : depth < merge.levels.length := by
                        rcases List.getElem?_eq_some.1 hl with ⟨hh, -⟩; exact hh
                      have hl2 : merge2.levels[depth]? = some
                          { level with
                            node_c2b := some (blk, completed_node level node0),
                            buffer := buffer1 } := by
                        rw [a3, List.getElem?_set_ne (by omega), List.getElem?_set_self (by exact hlt)]
                      rw [hl2] at h
                      dsimp only at h
                      cases h
                      refine ⟨level, blk, node0, buffer1, s, lup, l1, rfl, hn, hb0, hv0, hv1, c1,
                        g3, a1, a2, ?_, ?_⟩
                      · dsimp only
                        rw [a3, List.set_comm _ _ _ (by omega : depth ≠ depth + 1)]
                        rw [List.set_set, List.set_comm _ _ _ (by omega : depth + 1 ≠ depth)]
                        rfl
                      · dsimp only
                        rw [a4]

/-! ## The state of the merge between two calls -/

theorem sum_map_set {α : Type} (f : α → Nat) :
    ∀ (l : List α) (i : Nat) (x y : α), l[i]? = some y →
      ((l.set i x).map f).sum + f y = (l.map f).sum + f x := by
  intro l
  induction l with
  | nil => intro i x y h; simp at h
  | cons a t ih =>
    intro i x y h
    cases i with
    | zero =>
      simp at h
      subst h
      simp only [List.set_cons_zero, List.map_cons, List.sum_cons]
      omega
    | succ i =>
      simp at h
      have := ih i x y h
      simp only [List.set_cons_succ, List.map_cons, List.sum_cons]
      omega

theorem le_sum_of_getElem? {α : Type} (f : α → Nat) :
    ∀ (l : List α) (i : Nat) (y : α), l[i]? = some y → f y ≤ (l.map f).sum := by
  intro l
  induction l with
  | nil => intro i y h; simp at h
  | cons a t ih =>
    intro i y h
    cases i with
    | zero =>
      simp at h
      subst h
      simp
    | succ i =>
      simp at h
      have := ih i y h
      simp only [List.map_cons, List.sum_cons]
      omega

theorem written_slots_append (merge : struct_castle_da_merge) (d e : Nat) (blk : c_disk_blk_t)
    (node : castle_btree_node) (w : List (Nat × c_disk_blk_t × castle_btree_node))
    (hw : w = merge.written ++ [(e, blk, node)]) :
    written_slots { merge with written := w } d =
      written_slots merge d ++ (if e = d then node.slots else []) := by
  subst hw
  by_cases h : e = d
  · subst h
    simp [written_slots, List.filter_append, List.flatMap_append]
  · have : (e == d) = false := by simpa using h
    simp [written_slots, List.filter_append, this, h]

/-- The effect of `castle_da_entry_add` on a state with well-formed levels. -/
theorem entry_add_spec (btree : castle_btree_type) (st : Versions)
    (merge merge1 : struct_castle_da_merge) (depth key version : Nat) (cdb : c_disk_blk_t)
    (hinv : MInv merge)
    (h : castle_da_entry_add btree st merge depth key version cdb = Res.ok merge1) :
    MInv merge1 ∧ merge1.written = merge.written ∧
    ∃ level l1, merge.levels[depth]? = some level ∧
      merge1.levels = merge.levels.set depth l1 ∧
      node_slots l1 = node_slots level ++ [merge_slot key version cdb] ∧
      l1.buffer = level.buffer ∧ l1.node_c2b ≠ none ∧
      level.next_idx = ((node_slots level).length : Int) ∧
      (l1.next_idx = -1 ∨ l1.next_idx = ((node_slots l1).length : Int)) ∧
      CutCase btree st level l1 key version := by
  obtain ⟨level, l1, a1, a2, a3, a4⟩ := entry_add_ok btree st _ _ _ _ _ _ h
  obtain ⟨b1, b2, b3, b4, b5, b6, b7⟩ :=
    entry_add_level_spec btree st level _ key version cdb l1 _ (hinv depth level a1) a2
  refine ⟨?_, a4, level, l1, a1, a3, b2, b3, b4, b5, b6, b7⟩
  intro d lv hd
  rw [a3, List.getElem?_set] at hd
  by_cases hdd : depth = d
  · rw [if_pos hdd] at hd
    split at hd
    · cases hd; exact b1
    · cases hd
  · rw [if_neg hdd] at hd
    exact hinv d lv hd

theorem WFL_reset (level : castle_da_merge_level) (buffer1 : castle_btree_node) :
    WFL (level_reset level buffer1) :=
  ⟨fun _ => ⟨rfl, rfl⟩, fun h => absurd rfl h⟩

theorem node_slots_reset (level : castle_da_merge_level) (buffer1 : castle_btree_node) :
    node_slots (level_reset level buffer1) = [] := rfl

theorem getElem?_lt_length {α : Type} {l : List α} {i : Nat} {x : α} (h : l[i]? = some x) :
    i < l.length := by
  rcases List.getElem?_eq_some.1 h with ⟨hh, -⟩; exact hh

/-- The effect of `castle_da_node_complete` on a state with well-formed levels:
the entries of the level stay (completed node and buffer), one pointer is added
one level up, no level holds more slots than before. -/
theorem node_complete_spec (btree : castle_btree_type) (st : Versions)
    (merge merge1 : struct_castle_da_merge) (depth : Nat) (hinv : MInv merge)
    (h : castle_da_node_complete btree st merge depth = Res.ok merge1) :
    MInv merge1 ∧ merge1.levels.length = merge.levels.length ∧ held merge1 ≤ held merge ∧
    (∀ j, j ≠ depth → j ≠ depth + 1 → merge1.levels[j]? = merge.levels[j]?) ∧
    (∀ j, j ≠ depth + 1 → content merge1 j = content merge j) ∧
    (∀ j, j ≠ depth → written_slots merge1 j = written_slots merge j) ∧
    (∃ lup l1, merge.levels[depth + 1]? = some lup ∧ merge1.levels[depth + 1]? = some l1 ∧
      l1.buffer = lup.buffer ∧ ∃ ptr, node_slots l1 = node_slots lup ++ [ptr]) ∧
    (∃ level buffer1, merge.levels[depth]? = some level ∧
      merge1.levels[depth]? = some (level_reset level buffer1) ∧
      0 ≤ level.valid_end_idx ∧ level.valid_end_idx < ((node_slots level).length : Int) ∧
      level.buffer.slots = [] ∧
      buffer1.slots = (node_slots level).drop (level.valid_end_idx.toNat + 1)) := by
  obtain ⟨level, blk, node0, buffer1, s, lup, l1, e1, e2, e3, e4, e5, e6, e7, e8, e9, e10, e11⟩ :=
    node_complete_ok btree st merge merge1 depth h
  have hd := getElem?_lt_length e1
  have hd1 := getElem?_lt_length e8
  have hns : node_slots level = node0.slots := by simp [node_slots, e2]
  -- the level one up
  have hwup : WFL lup := hinv _ _ e8
  obtain ⟨b1, b2, b3, b4, b5, b6, b7⟩ :=
    entry_add_level_spec btree st lup _ s.key level.valid_version blk l1 _ hwup e9
  have hget : ∀ j, merge1.levels[j]? =
      if j = depth + 1 then some l1
      else if j = depth then some (level_reset level buffer1) else merge.levels[j]? := by
    intro j
    rw [e10, List.getElem?_set, List.getElem?_set]
    by_cases h1 : depth + 1 = j
    · subst h1
      simp [hd1]
    · by_cases h2 : depth = j
      · subst h2
        simp [hd]
      · have h1' : j ≠ depth + 1 := fun hh => h1 hh.symm
        have h2' : j ≠ depth := fun hh => h2 hh.symm
        simp [h1, h2, h1', h2']
  have hwr : ∀ j, written_slots merge1 j = written_slots merge j ++
      (if depth = j then (completed_node level node0).slots else []) := fun j =>
    written_slots_append merge j depth blk (completed_node level node0) merge1.written e11
  refine ⟨?_, ?_, ?_, ?_, ?_, ?_, ⟨lup, l1, e8, ?_, b3, _, b2⟩,
    ⟨level, buffer1, e1, ?_, e4, ?_, e3, ?_⟩⟩
  · intro j lv hj
    rw [hget j] at hj
    by_cases h1 : j = depth + 1
    · rw [if_pos h1] at hj; cases hj; exact b1
    · rw [if_neg h1] at hj
      by_cases h2 : j = depth
      · rw [if_pos h2] at hj; cases hj; exact WFL_reset _ _
      · rw [if_neg h2] at hj; exact hinv j lv hj
  · rw [e10]; simp
  · -- the slots held
    have s1 := sum_map_set level_size merge.levels depth (level_reset level buffer1) level e1
    have e8' : (merge.levels.set depth (level_reset level buffer1))[depth + 1]? = some lup := by
      rw [List.getElem?_set_ne (by omega)]; exact e8
    have s2 := sum_map_set level_size _ (depth + 1) l1 lup e8'
    have z0 : level_size (level_reset level buffer1) = buffer1.slots.length := by
      show (node_slots (level_reset level buffer1)).length + buffer1.slots.length = _
      rw [node_slots_reset]; simp
    have z1 : buffer1.slots.length + (level.valid_end_idx.toNat + 1) = node0.slots.length := by
      rw [e6, List.length_drop]; omega
    have z3 : level_size level = node0.slots.length := by
      simp [level_size, hns, e3]
    have z2 : level_size l1 = level_size lup + 1 := by
      simp only [level_size, b2, b3, List.length_append, List.length_singleton]
      omega
    simp only [held, e10]
    omega
  · intro j h1 h2
    rw [hget j, if_neg h2, if_neg h1]
  · intro j h1
    simp only [content, hwr j, hget j, if_neg h1]
    by_cases h2 : j = depth
    · subst h2
      simp only [if_true, e1, node_slots_reset, hns, e3, List.nil_append, List.append_nil]
      have : (level_reset level buffer1).buffer.slots = buffer1.slots := rfl
      rw [this, e6, List.append_assoc]
      simp only [completed_node, List.take_append_drop]
    · have h2' : ¬ depth = j := fun hh => h2 hh.symm
      simp [h2, h2']
  · intro j h1
    have h1' : ¬ depth = j := fun hh => h1 hh.symm
    rw [hwr j, if_neg h1', List.append_nil]
  · rw [hget (depth + 1), if_pos rfl]
  · rw [hget depth]
    simp
  · rw [hns]; exact e5
  · rw [hns]; exact e6

/-! ## The cascade of `castle_da_nodes_complete` -/

/-- The first loop of `castle_da_nodes_complete`: the levels `i .. i1 - 1` are
completed and reset, their tails sit in the buffers. -/
theorem nodes_complete_up_spec (btree : castle_btree_type) (st : Versions) :
    ∀ (todo : Nat) (merge : struct_castle_da_merge) (i : Nat)
      (merge1 : struct_castle_da_merge) (i1 : Nat),
      MInv merge → BufEmptyFrom merge i →
      castle_da_nodes_complete_up btree st todo merge i = Res.ok (merge1, i1) →
      MInv merge1 ∧ merge1.levels.length = merge.levels.length ∧ held merge1 ≤ held merge ∧
      i ≤ i1 ∧ BufEmptyFrom merge1 i1 ∧
      (∀ j, j < i → merge1.levels[j]? = merge.levels[j]?) ∧
      (∀ j, j ≤ i → content merge1 j = content merge j) ∧
      (i1 = i → merge1 = merge) ∧
      (∀ level, 0 < todo → merge.levels[i]? = some level → level.next_idx < 0 → i < i1) ∧
      (i < i1 → ∃ level buffer1, merge.levels[i]? = some level ∧ level.next_idx < 0 ∧
        merge1.levels[i]? = some (level_reset level buffer1) ∧
        buffer1.slots.length < (node_slots level).length) := by
  intro todo
  induction todo with
  | zero =>
    intro merge i merge1 i1 hinv hbuf h
    rw [castle_da_nodes_complete_up] at h
    cases h
    exact ⟨hinv, rfl, le_refl _, le_refl _, hbuf, fun _ _ => rfl, fun _ _ => rfl, fun _ => rfl,
      fun _ hh => absurd hh (lt_irrefl _), fun hh => absurd hh (lt_irrefl _)⟩
  | succ todo ih =>
    intro merge i merge1 i1 hinv hbuf h
    rw [castle_da_nodes_complete_up] at h
    cases hl : merge.levels[i]? with
    | none => rw [hl] at h; cases h
    | some level =>
      rw [hl] at h
      dsimp only at h
      by_cases hneg : level.next_idx < 0
      · rw [if_pos hneg] at h
        cases hc : castle_da_node_complete btree st merge i with
        | bug => rw [hc] at h; cases h
        | timeout => rw [hc] at h; cases h
        | ok merge2 =>
          rw [hc] at h
          dsimp only at h
          obtain ⟨c1, c2, c3, c4, c5, c6, ⟨lup, l1, c7, c8, c9, -⟩,
            ⟨lv, buffer1, d1, d2, d3, d4, d5, d6⟩⟩ :=
            node_complete_spec btree st merge merge2 i hinv hc
          rw [hl] at d1
          cases d1
          have hbuf2 : BufEmptyFrom merge2 (i + 1) := by
            intro j lv2 hj hlv
            by_cases hj1 : j = i + 1
            · subst hj1
              rw [c8] at hlv
              cases hlv
              rw [c9]
              exact hbuf (i + 1) lup (by omega) c7
            · rw [c4 j (by omega) hj1] at hlv
              exact hbuf j lv2 (by omega) hlv
          obtain ⟨e1, e2, e3, e4, e5, e6, e7, -, -, -⟩ := ih merge2 (i + 1) merge1 i1 c1 hbuf2 h
          refine ⟨e1, e2.trans c2, le_trans e3 c3, by omega, e5, ?_, ?_, fun hh => by omega,
            fun _ _ _ _ => by omega, ?_⟩
          · intro j hj
            rw [e6 j (by omega), c4 j (by omega) (by omega)]
          · intro j hj
            rw [e7 j (by omega), c5 j (by omega)]
          · intro _
            refine ⟨level, buffer1, rfl, hneg, ?_, ?_⟩
            · rw [e6 i (by omega)]; exact d2
            · rw [d6, List.length_drop]
              omega
      · rw [if_neg hneg] at h
        cases h
        refine ⟨hinv, rfl, le_refl _, le_refl _, hbuf, fun _ _ => rfl, fun _ _ => rfl,
          fun _ => rfl, ?_, fun hh => absurd hh (lt_irrefl _)⟩
        intro lv _ hlv hn
        cases hlv
        exact absurd hn hneg

theorem set_self_of_getElem? {α : Type} :
    ∀ (l : List α) (i : Nat) (x : α), l[i]? = some x → l.set i x = l := by
  intro l
  induction l with
  | nil => intro i x h; simp at h
  | cons a t ih =>
    intro i x h
    cases i with
    | zero => simp at h; subst h; rfl
    | succ i => simp at h; simp [ih i x h]

theorem merge_slot_self (s : btree_slot) (h : s.is_leaf_ptr = false) :
    merge_slot s.key s.version s.cdb = s := by
  obtain ⟨k, v, l, c⟩ := s
  simp only at h
  subst h
  rfl

/-- The inner loop at `fill_buffers`: the slots are appended to the node of
level `i`. -/
theorem nodes_complete_refill_spec (btree : castle_btree_type) (st : Versions) (i : Nat) :
    ∀ (slots : List btree_slot) (merge merge1 : struct_castle_da_merge)
      (level : castle_da_merge_level),
      MInv merge → merge.levels[i]? = some level →
      castle_da_nodes_complete_refill btree st i slots merge = Res.ok merge1 →
      MInv merge1 ∧ merge1.written = merge.written ∧
      ∃ level1, merge1.levels = merge.levels.set i level1 ∧
        node_slots level1 = node_slots level ++ slots ∧ level1.buffer = level.buffer ∧
        (slots = [] → level1 = level) ∧
        (slots ≠ [] → level1.next_idx = ((node_slots level1).length : Int)) := by
  intro slots
  induction slots with
  | nil =>
    intro merge merge1 level hinv hl h
    rw [castle_da_nodes_complete_refill] at h
    cases h
    refine ⟨hinv, rfl, level, ?_, by simp, rfl, fun _ => rfl, fun hh => absurd rfl hh⟩
    exact (set_self_of_getElem? _ _ _ hl).symm
  | cons s rest ih =>
    intro merge merge1 level hinv hl h
    rw [castle_da_nodes_complete_refill] at h
    by_cases hlp : s.is_leaf_ptr = true
    · rw [if_pos hlp] at h; cases h
    · rw [if_neg hlp] at h
      have hlp2 : s.is_leaf_ptr = false := by simpa using hlp
      cases ha : castle_da_entry_add btree st merge i s.key s.version s.cdb with
      | bug => rw [ha] at h; cases h
      | timeout => rw [ha] at h; cases h
      | ok merge2 =>
        rw [ha] at h
        dsimp only at h
        obtain ⟨a1, a2, lv, l1, a3, a4, a5, a6, a7, a8, a9, -⟩ :=
          entry_add_spec btree st merge merge2 i s.key s.version s.cdb hinv ha
        rw [hl] at a3
        cases a3
        have hlt := getElem?_lt_length hl
        have hl2 : merge2.levels[i]? = some l1 := by
          rw [a4, List.getElem?_set_self hlt]
        rw [hl2] at h
        dsimp only at h
        by_cases hneg : l1.next_idx < 0
        · rw [if_pos hneg] at h; cases h
        · rw [if_neg hneg] at h
          obtain ⟨b1, b2, level1, b3, b4, b5, b6, b7⟩ := ih merge2 merge1 l1 a1 hl2 h
          refine ⟨b1, b2.trans a2, level1, ?_, ?_, b5.trans a6, fun hh => List.noConfusion hh, fun _ => ?_⟩
          · rw [b3, a4, List.set_set]
          · rw [b4, a5, merge_slot_self s hlp2]; simp
          · by_cases hr : rest = []
            · rw [b6 hr]
              rcases a9 with hh | hh
              · omega
              · exact hh
            · exact b7 hr

theorem WFL_buffer (level : castle_da_merge_level) (b : castle_btree_node) (h : WFL level) :
    WFL { level with buffer := b } :=
  ⟨fun hn => h.none_case hn, fun hn => h.some_case hn⟩

/-- The outer loop at `fill_buffers`: below `k` every buffer is re-added to the
node of its level and reset; the levels from `k` on stay. -/
theorem nodes_complete_down_spec (btree : castle_btree_type) (st : Versions) :
    ∀ (k : Nat) (merge merge1 : struct_castle_da_merge),
      MInv merge → castle_da_nodes_complete_down btree st k merge = Res.ok merge1 →
      MInv merge1 ∧ merge1.written = merge.written ∧
      merge1.levels.length = merge.levels.length ∧
      (∀ j, k ≤ j → merge1.levels[j]? = merge.levels[j]?) ∧
      (∀ j, j < k → ∃ level level1, merge.levels[j]? = some level ∧
        merge1.levels[j]? = some level1 ∧
        node_slots level1 = node_slots level ++ level.buffer.slots ∧
        level1.buffer.slots = [] ∧
        (level.buffer.slots = [] →
          level1 = { level with buffer := castle_da_node_buffer_init level.buffer }) ∧
        (level.buffer.slots ≠ [] → level1.next_idx = ((node_slots level1).length : Int))) := by
  intro k
  induction k with
  | zero =>
    intro merge merge1 hinv h
    rw [castle_da_nodes_complete_down] at h
    cases h
    exact ⟨hinv, rfl, rfl, fun _ _ => rfl, fun j hj => absurd hj (Nat.not_lt_zero _)⟩
  | succ k ih =>
    intro merge merge1 hinv h
    rw [castle_da_nodes_complete_down] at h
    cases hl : merge.levels[k]? with
    | none => rw [hl] at h; cases h
    | some level =>
      rw [hl] at h
      dsimp only at h
      cases hr : castle_da_nodes_complete_refill btree st k level.buffer.slots merge with
      | bug => rw [hr] at h; cases h
      | timeout => rw [hr] at h; cases h
      | ok merge2 =>
        rw [hr] at h
        dsimp only at h
        obtain ⟨r1, r2, level1, r3, r4, r5, r6, r7⟩ :=
          nodes_complete_refill_spec btree st k _ merge merge2 level hinv hl hr
        have hlt := getElem?_lt_length hl
        have hl2 : merge2.levels[k]? = some level1 := by
          rw [r3, List.getElem?_set_self hlt]
        rw [hl2] at h
        dsimp only at h
        have hinv3 : MInv { merge2 with
            levels := merge2.levels.set k
              { level1 with buffer := castle_da_node_buffer_init level1.buffer } } := by
          intro j lv hj
          dsimp only at hj
          rw [List.getElem?_set] at hj
          by_cases hjk : k = j
          · rw [if_pos hjk] at hj
            split at hj
            · cases hj
              exact WFL_buffer _ _ (r1 k level1 hl2)
            · cases hj
          · rw [if_neg hjk] at hj
            exact r1 j lv hj
        obtain ⟨i1, i2, i3, i4, i5⟩ := ih _ merge1 hinv3 h
        dsimp only at i2 i3 i4 i5
        have hget3 : ∀ j, j ≠ k → (merge2.levels.set k
            { level1 with buffer := castle_da_node_buffer_init level1.buffer })[j]? =
            merge.levels[j]? := by
          intro j hj
          rw [List.getElem?_set_ne (fun hh => hj hh.symm), r3,
            List.getElem?_set_ne (fun hh => hj hh.symm)]
        refine ⟨i1, i2.trans r2, ?_, ?_, ?_⟩
        · rw [i3, List.length_set, r3, List.length_set]
        · intro j hj
          rw [i4 j (by omega), hget3 j (by omega)]
        · intro j hj
          by_cases hjk : j = k
          · subst hjk
            refine ⟨level, { level1 with buffer := castle_da_node_buffer_init level1.buffer },
              hl, ?_, ?_, rfl, ?_, ?_⟩
            · rw [i4 j (le_refl _), List.getElem?_set_self (by rw [r3, List.length_set]; exact hlt)]
            · exact r4
            · intro he
              rw [r6 he]
            · intro hne
              exact r7 hne
          · obtain ⟨lv, lv1, j1, j2, j3, j4, j5, j6⟩ := i5 j (by omega)
            rw [hget3 j hjk] at j1
            exact ⟨lv, lv1, j1, j2, j3, j4, j5, j6⟩

theorem sum_map_congr_getElem? {α : Type} (f : α → Nat) (l1 l2 : List α)
    (h : ∀ j : Nat, (l1[j]?).map f = (l2[j]?).map f) : (l1.map f).sum = (l2.map f).sum := by
  have : l1.map f = l2.map f := by
    apply List.ext_getElem?
    intro j
    rw [List.getElem?_map, List.getElem?_map]
    exact h j
  rw [this]

theorem buffer_init_slots (b : castle_btree_node) : (castle_da_node_buffer_init b).slots = [] :=
  rfl

/-- The loop at `fill_buffers` moves slots from buffers to nodes: the entries of
every level stay, and the buffers below `k` are empty afterwards. -/
theorem nodes_complete_down_keeps (btree : castle_btree_type) (st : Versions)
    (k : Nat) (merge merge1 : struct_castle_da_merge) (hinv : MInv merge)
    (h : castle_da_nodes_complete_down btree st k merge = Res.ok merge1) :
    held merge1 = held merge ∧ (∀ j, content merge1 j = content merge j) ∧
    (BufEmptyFrom merge k → BufEmptyFrom merge1 0) := by
  obtain ⟨d1, d2, d3, d4, d5⟩ := nodes_complete_down_spec btree st k merge merge1 hinv h
  have hlv : ∀ j : Nat, ∃ o, merge.levels[j]? = o ∧
      (merge1.levels[j]?).map level_size = o.map level_size ∧
      (merge1.levels[j]?).map (fun l => node_slots l ++ l.buffer.slots) =
        o.map (fun l => node_slots l ++ l.buffer.slots) := by
    intro j
    by_cases hj : j < k
    · obtain ⟨lv, lv1, e1, e2, e3, e4, -, -⟩ := d5 j hj
      refine ⟨_, e1, ?_, ?_⟩
      · rw [e2]
        simp only [Option.map_some', level_size, e3, e4, List.length_append, List.length_nil]
        rfl
      · rw [e2]
        simp only [Option.map_some', e3, e4, List.append_nil]
    · refine ⟨_, rfl, ?_, ?_⟩
      · rw [d4 j (by omega)]
      · rw [d4 j (by omega)]
  refine ⟨?_, ?_, ?_⟩
  · apply sum_map_congr_getElem?
    intro j
    obtain ⟨o, e1, e2, -⟩ := hlv j
    rw [e2, e1]
  · intro j
    obtain ⟨o, e1, -, e3⟩ := hlv j
    have hw : written_slots merge1 j = written_slots merge j := by
      simp only [written_slots, d2]
    simp only [content, hw]
    congr 1
    rw [e1]
    cases hm : merge1.levels[j]? with
    | none =>
      rw [hm] at e3
      cases o with
      | none => rfl
      | some x => simp at e3
    | some y =>
      rw [hm] at e3
      cases o with
      | none => simp at e3
      | some x => simpa using e3
  · intro hb j lv _ hlvj
    by_cases hj : j < k
    · obtain ⟨lv0, lv1, e1, e2, e3, e4, -, -⟩ := d5 j hj
      rw [hlvj] at e2
      cases e2
      exact e4
    · rw [d4 j (by omega)] at hlvj
      exact hb j lv (by omega) hlvj

/-- The effect of `castle_da_nodes_complete` between two entries: levels stay
well formed, buffers are empty again, the entries at depth 0 stay, no more slots
are held than before; a level that was complete holds fewer slots than before. -/
theorem nodes_complete_spec (btree : castle_btree_type) (st : Versions)
    (merge merge1 : struct_castle_da_merge) (depth : Nat) (end_ : Bool)
    (hinv : MInv merge) (hq : BufEmptyFrom merge 0)
    (h : castle_da_nodes_complete btree st merge depth end_ = Res.ok merge1) :
    MInv merge1 ∧ BufEmptyFrom merge1 0 ∧ merge1.levels.length = merge.levels.length ∧
    held merge1 ≤ held merge ∧ content merge1 0 = content merge 0 ∧
    (∀ level, merge.levels[depth]? = some level → level.next_idx < 0 →
      ∃ level1, merge1.levels[depth]? = some level1 ∧
        level1.next_idx < ((node_slots level).length : Int)) := by
  rw [castle_da_nodes_complete] at h
  by_cases hdep : depth + 1 > merge.levels.length
  · rw [if_pos hdep] at h; cases h
  · rw [if_neg hdep] at h
    obtain ⟨level, hl⟩ : ∃ level, merge.levels[depth]? = some level :=
      ⟨_, List.getElem?_eq_getElem (by omega)⟩
    · rw [hl] at h
      dsimp only at h
      have hsame : MInv merge ∧ BufEmptyFrom merge 0 ∧ merge.levels.length = merge.levels.length ∧
          held merge ≤ held merge ∧ content merge 0 = content merge 0 ∧
          (∀ lv, merge.levels[depth]? = some lv → lv.next_idx < 0 →
            ∃ level1, merge.levels[depth]? = some level1 ∧
              level1.next_idx < ((node_slots lv).length : Int)) := by
        refine ⟨hinv, hq, rfl, le_refl _, rfl, ?_⟩
        intro lv hlv hn
        exact ⟨lv, hlv, by omega⟩
      have hmain : ∀ r, castle_da_nodes_complete_up btree st (merge.levels.length - depth)
          merge depth = r →
          (match r with
            | Res.ok (merge1, i) => castle_da_nodes_complete_down btree st i merge1
            | Res.bug => Res.bug
            | Res.timeout => Res.timeout) = Res.ok merge1 →
          MInv merge1 ∧ BufEmptyFrom merge1 0 ∧ merge1.levels.length = merge.levels.length ∧
          held merge1 ≤ held merge ∧ content merge1 0 = content merge 0 ∧
          (∀ lv, merge.levels[depth]? = some lv → lv.next_idx < 0 →
            ∃ level1, merge1.levels[depth]? = some level1 ∧
              level1.next_idx < ((node_slots lv).length : Int)) := by
        intro r hr hd
        cases r with
        | bug => cases hd
        | timeout => cases hd
        | ok p =>
          obtain ⟨merge2, i1⟩ := p
          dsimp only at hd
          obtain ⟨u1, u2, u3, u4, u5, u6, u7, u8, u9, u10⟩ :=
            nodes_complete_up_spec btree st _ merge depth merge2 i1 hinv
              (fun j lv _ hj => hq j lv (Nat.zero_le _) hj) hr
          obtain ⟨d1, d2, d3, d4, d5⟩ := nodes_complete_down_spec btree st i1 merge2 merge1 u1 hd
          obtain ⟨k1, k2, k3⟩ := nodes_complete_down_keeps btree st i1 merge2 merge1 u1 hd
          refine ⟨d1, k3 u5, d3.trans u2, by omega, (k2 0).trans (u7 0 (Nat.zero_le _)), ?_⟩
          intro lv hlv hn
          rw [hl] at hlv
          cases hlv
          have hlt : depth < i1 := u9 level (by omega) hl hn
          obtain ⟨lv0, buffer1, v1, v2, v3, v4⟩ := u10 hlt
          rw [hl] at v1
          cases v1
          obtain ⟨lva, lvb, w1, w2, w3, w4, w5, w6⟩ := d5 depth hlt
          rw [v3] at w1
          cases w1
          refine ⟨lvb, w2, ?_⟩
          by_cases hb : buffer1.slots = []
          · have hb' : (level_reset level buffer1).buffer.slots = [] := hb
            rw [w5 hb']
            show (0 : Int) < _
            omega
          · have hb' : (level_reset level buffer1).buffer.slots ≠ [] := hb
            rw [w6 hb', w3, node_slots_reset, List.nil_append]
            show ((buffer1.slots.length : Nat) : Int) < _
            omega
      by_cases hroot : (end_ && decide (level.next_idx < 0)) = true
      · rw [if_pos hroot] at h
        cases hu : merge.levels[depth + 1]? with
        | none => rw [hu] at h; cases h
        | some up =>
          rw [hu] at h
          dsimp only at h
          by_cases hz : up.next_idx = 0
          · simp only [hz, decide_True] at h
            cases h
            exact hsame
          · simp only [hz, decide_False] at h
            exact hmain _ rfl h
      · rw [if_neg hroot] at h
        dsimp only at h
        exact hmain _ rfl h

/-! ## No call of the merge engine loops without bound -/

theorem is_ancestor_ne_timeout (st : Versions) (c v : Nat) :
    castle_version_is_ancestor st c v ≠ Res.timeout := by
  intro h
  unfold castle_version_is_ancestor at h
  repeat' split at h
  all_goals cases h

theorem btree_entry_add_ne_timeout (node : castle_btree_node) (idx : Int) (k v : Nat) (b : Bool)
    (cdb : c_disk_blk_t) : btree_entry_add node idx k v b cdb ≠ Res.timeout := by
  intro h
  unfold btree_entry_add at h
  repeat' split at h
  all_goals cases h

theorem btree_entry_get_ne_timeout (node : castle_btree_node) (idx : Int) :
    btree_entry_get node idx ≠ Res.timeout := by
  intro h
  unfold btree_entry_get at h
  repeat' split at h
  all_goals cases h

theorem btree_entries_drop_ne_timeout (node : castle_btree_node) (lo hi : Int) :
    btree_entries_drop node lo hi ≠ Res.timeout := by
  intro h
  unfold btree_entries_drop at h
  repeat' split at h
  all_goals cases h

theorem entry_add_level_some_ne_timeout (btree : castle_btree_type) (st : Versions)
    (level : castle_da_merge_level) (nb key version : Nat) (cdb : c_disk_blk_t)
    (blk : c_disk_blk_t) (node : castle_btree_node)
    (hn : level.node_c2b = some (blk, node)) :
    castle_da_entry_add_level btree st level nb key version cdb ≠ Res.timeout := by
  intro h
  rw [castle_da_entry_add_level] at h
  simp only [hn] at h
  cases hadd : btree_entry_add node level.next_idx key version false cdb with
  | bug => rw [hadd] at h; cases h
  | timeout => exact btree_entry_add_ne_timeout _ _ _ _ _ _ hadd
  | ok node1 =>
    rw [hadd] at h
    dsimp only at h
    have hget : btree_entry_get node1 level.next_idx =
        Res.ok { key := key, version := version, is_leaf_ptr := false, cdb := cdb } := by
      rw [btree_entry_add] at hadd
      by_cases hc : 0 ≤ level.next_idx ∧ level.next_idx ≤ (node.used : Int)
      · rw [if_pos hc] at hadd
        cases hadd
        rw [btree_entry_get, if_pos hc.1]
        have hlen : (node.slots.take level.next_idx.toNat).length = level.next_idx.toNat := by
          rw [List.length_take]
          have := hc.2
          simp only [castle_btree_node.used] at this
          omega
        dsimp only
        rw [List.append_assoc, List.getElem?_append_right (by omega), hlen]
        simp
      · rw [if_neg hc] at hadd; cases hadd
    rw [hget] at h
    dsimp only at h
    by_cases h0 : level.next_idx = 0
    · simp only [h0, ne_eq, not_true_eq_false, if_false, if_true, lt_self_iff_false] at h
      by_cases hv : level.valid_end_idx ≥ 0
      · simp only [hv, if_true] at h; cases h
      · simp only [hv, if_false] at h
        by_cases hs : btree.need_split node1 0 = true
        · rw [if_pos hs] at h; cases h
        · rw [if_neg hs] at h; cases h
    · simp only [h0, ne_eq, not_false_eq_true, if_true, if_false] at h
      cases hlk : level.last_key with
      | none => rw [hlk] at h; cases h
      | some lk =>
        rw [hlk] at h
        dsimp only at h
        by_cases hneg : btree.key_compare key lk < 0
        · rw [if_pos hneg] at h; cases h
        · rw [if_neg hneg] at h
          by_cases hpos : btree.key_compare key lk > 0
          · simp only [hpos, if_true] at h
            by_cases hs : btree.need_split node1 0 = true
            · rw [if_pos hs] at h; cases h
            · rw [if_neg hs] at h; cases h
          · simp only [hpos, if_false] at h
            cases hanc : castle_version_is_ancestor st version level.valid_version with
            | bug => rw [hanc] at h; cases h
            | timeout => exact is_ancestor_ne_timeout _ _ _ hanc
            | ok b =>
              rw [hanc] at h
              cases b with
              | true =>
                dsimp only at h
                by_cases hvv : version = level.valid_version
                · rw [if_pos hvv] at h; cases h
                · rw [if_neg hvv] at h
                  dsimp only at h
                  by_cases hs : btree.need_split node1 0 = true
                  · rw [if_pos hs] at h; cases h
                  · rw [if_neg hs] at h; cases h
              | false =>
                dsimp only at h
                by_cases hs : btree.need_split node1 0 = true
                · rw [if_pos hs] at h; cases h
                · rw [if_neg hs] at h; cases h

theorem entry_add_level_ne_timeout (btree : castle_btree_type) (st : Versions)
    (level : castle_da_merge_level) (nb key version : Nat) (cdb : c_disk_blk_t) :
    castle_da_entry_add_level btree st level nb key version cdb ≠ Res.timeout := by
  cases hn : level.node_c2b with
  | some p => exact entry_add_level_some_ne_timeout btree st level nb key version cdb p.1 p.2 hn
  | none =>
    intro h
    by_cases h0 : level.next_idx = 0
    · by_cases hv : level.valid_end_idx ≥ 0
      · rw [castle_da_entry_add_level] at h
        simp only [hn, ne_eq, h0, not_true_eq_false, if_false, hv, if_true] at h
        cases h
      · have h2 : castle_da_entry_add_level btree st
            { level with node_c2b := some ((1, nb),
                castle_da_node_buffer_init { version := 0, is_leaf := false, slots := [] }) }
            (nb + 1) key version cdb = Res.timeout := by
          rw [castle_da_entry_add_level] at h ⊢
          simp only [hn, ne_eq, h0, not_true_eq_false, if_false, hv] at h ⊢
          exact h
        exact entry_add_level_some_ne_timeout btree st _ _ key version cdb _ _ rfl h2
    · rw [castle_da_entry_add_level] at h
      simp only [hn, ne_eq, h0, not_false_eq_true, if_true] at h
      cases h

theorem entry_add_ne_timeout (btree : castle_btree_type) (st : Versions)
    (merge : struct_castle_da_merge) (depth key version : Nat) (cdb : c_disk_blk_t) :
    castle_da_entry_add btree st merge depth key version cdb ≠ Res.timeout := by
  intro h
  rw [castle_da_entry_add] at h
  cases hl : merge.levels[depth]? with
  | none => rw [hl] at h; cases h
  | some level =>
    rw [hl] at h
    dsimp only at h
    cases ha : castle_da_entry_add_level btree st level merge.next_blk key version cdb with
    | bug => rw [ha] at h; cases h
    | timeout => exact entry_add_level_ne_timeout _ _ _ _ _ _ _ ha
    | ok r => rw [ha] at h; cases h

theorem node_complete_copy_ne_timeout :
    ∀ (slots : List btree_slot) (buffer : castle_btree_node) (idx : Int),
      castle_da_node_complete_copy slots buffer idx ≠ Res.timeout := by
  intro slots
  induction slots with
  | nil =>
    intro buffer idx h
    rw [castle_da_node_complete_copy] at h
    cases h
  | cons s rest ih =>
    intro buffer idx h
    rw [castle_da_node_complete_copy] at h
    by_cases h1 : (buffer.used : Int) ≠ idx
    · rw [if_pos h1] at h; cases h
    · rw [if_neg h1] at h
      by_cases h2 : s.is_leaf_ptr = true
      · rw [if_pos h2] at h; cases h
      · rw [if_neg h2] at h
        cases ha : btree_entry_add buffer idx s.key s.version false s.cdb with
        | bug => rw [ha] at h; cases h
        | timeout => exact btree_entry_add_ne_timeout _ _ _ _ _ _ ha
        | ok b1 =>
          rw [ha] at h
          exact ih _ _ h

theorem node_complete_ne_timeout (btree : castle_btree_type) (st : Versions)
    (merge : struct_castle_da_merge) (depth : Nat) :
    castle_da_node_complete btree st merge depth ≠ Res.timeout := by
  intro h
  rw [castle_da_node_complete] at h
  cases hl : merge.levels[depth]? with
  | none => rw [hl] at h; cases h
  | some level =>
    rw [hl] at h
    dsimp only at h
    cases hn : level.node_c2b with
    | none => rw [hn] at h; cases h
    | some p =>
      obtain ⟨blk, node0⟩ := p
      rw [hn] at h
      dsimp only at h
      by_cases hb : level.buffer.used ≠ 0
      · rw [if_pos hb] at h; cases h
      · rw [if_neg hb] at h
        by_cases hr : level.valid_end_idx + 1 ≤ 0 ∨
            level.valid_end_idx + 1 > ((({ node0 with version := level.valid_version } :
              castle_btree_node).used : Nat) : Int)
        · rw [if_pos hr] at h; cases h
        · rw [if_neg hr] at h
          cases hc : castle_da_node_complete_copy
              (({ node0 with version := level.valid_version } : castle_btree_node).slots.drop
                (level.valid_end_idx + 1).toNat) level.buffer 0 with
          | bug => rw [hc] at h; cases h
          | timeout => exact node_complete_copy_ne_timeout _ _ _ hc
          | ok buffer1 =>
            rw [hc] at h
            dsimp only at h
            revert h
            generalize hdr : (if level.valid_end_idx + 1 ≤
                    ((({ node0 with version := level.valid_version } :
                      castle_btree_node).used : Nat) : Int) - 1 then
                  btree_entries_drop { node0 with version := level.valid_version }
                    (level.valid_end_idx + 1)
                    (((({ node0 with version := level.valid_version } :
                      castle_btree_node).used : Nat) : Int) - 1)
                else Res.ok { node0 with version := level.valid_version }) = dr
            intro h
            cases dr with
            | bug => cases h
            | timeout =>
              by_cases hcnd : level.valid_end_idx + 1 ≤
                  ((({ node0 with version := level.valid_version } :
                    castle_btree_node).used : Nat) : Int) - 1
              · rw [if_pos hcnd] at hdr
                exact btree_entries_drop_ne_timeout _ _ _ hdr
              · rw [if_neg hcnd] at hdr; cases hdr
            | ok node1 =>
              dsimp only at h
              by_cases hu : (node1.used : Int) ≠ level.valid_end_idx + 1
              · rw [if_pos hu] at h; cases h
              · rw [if_neg hu] at h
                cases hg : btree_entry_get node1 level.valid_end_idx with
                | bug => rw [hg] at h; cases h
                | timeout => exact btree_entry_get_ne_timeout _ _ hg
                | ok s =>
                  rw [hg] at h
                  dsimp only at h
                  by_cases hlp : s.is_leaf_ptr = true
                  · rw [if_pos hlp] at h; cases h
                  · rw [if_neg hlp] at h
                    cases he : castle_da_entry_add btree st
                        { merge with
                          levels := merge.levels.set depth
                            { level with node_c2b := some (blk, node1), buffer := buffer1 } }
                        (depth + 1) s.key node1.version blk with
                    | bug => rw [he] at h; cases h
                    | timeout => exact entry_add_ne_timeout _ _ _ _ _ _ _ he
                    | ok merge2 =>
                      rw [he] at h
                      dsimp only at h
                      cases hl2 : merge2.levels[depth]? with
                      | none => rw [hl2] at h; cases h
                      | some l2 => rw [hl2] at h; cases h

theorem nodes_complete_up_ne_timeout (btree : castle_btree_type) (st : Versions) :
    ∀ (todo : Nat) (merge : struct_castle_da_merge) (i : Nat),
      castle_da_nodes_complete_up btree st todo merge i ≠ Res.timeout := by
  intro todo
  induction todo with
  | zero =>
    intro merge i h
    rw [castle_da_nodes_complete_up] at h
    cases h
  | succ todo ih =>
    intro merge i h
    rw [castle_da_nodes_complete_up] at h
    cases hl : merge.levels[i]? with
    | none => rw [hl] at h; cases h
    | some level =>
      rw [hl] at h
      dsimp only at h
      by_cases hneg : level.next_idx < 0
      · rw [if_pos hneg] at h
        cases hc : castle_da_node_complete btree st merge i with
        | bug => rw [hc] at h; cases h
        | timeout => exact node_complete_ne_timeout _ _ _ _ hc
        | ok merge2 =>
          rw [hc] at h
          exact ih _ _ h
      · rw [if_neg hneg] at h; cases h

theorem nodes_complete_refill_ne_timeout (btree : castle_btree_type) (st : Versions) (i : Nat) :
    ∀ (slots : List btree_slot) (merge : struct_castle_da_merge),
      castle_da_nodes_complete_refill btree st i slots merge ≠ Res.timeout := by
  intro slots
  induction slots with
  | nil =>
    intro merge h
    rw [castle_da_nodes_complete_refill] at h
    cases h
  | cons s rest ih =>
    intro merge h
    rw [castle_da_nodes_complete_refill] at h
    by_cases hlp : s.is_leaf_ptr = true
    · rw [if_pos hlp] at h; cases h
    · rw [if_neg hlp] at h
      cases ha : castle_da_entry_add btree st merge i s.key s.version s.cdb with
      | bug => rw [ha] at h; cases h
      | timeout => exact entry_add_ne_timeout _ _ _ _ _ _ _ ha
      | ok merge2 =>
        rw [ha] at h
        dsimp only at h
        cases hl : merge2.levels[i]? with
        | none => rw [hl] at h; cases h
        | some level =>
          rw [hl] at h
          dsimp only at h
          by_cases hneg : level.next_idx < 0
          · rw [if_pos hneg] at h; cases h
          · rw [if_neg hneg] at h
            exact ih _ h

theorem nodes_complete_down_ne_timeout (btree : castle_btree_type) (st : Versions) :
    ∀ (k : Nat) (merge : struct_castle_da_merge),
      castle_da_nodes_complete_down btree st k merge ≠ Res.timeout := by
  intro k
  induction k with
  | zero =>
    intro merge h
    rw [castle_da_nodes_complete_down] at h
    cases h
  | succ k ih =>
    intro merge h
    rw [castle_da_nodes_complete_down] at h
    cases hl : merge.levels[k]? with
    | none => rw [hl] at h; cases h
    | some level =>
      rw [hl] at h
      dsimp only at h
      cases hr : castle_da_nodes_complete_refill btree st k level.buffer.slots merge with
      | bug => rw [hr] at h; cases h
      | timeout => exact nodes_complete_refill_ne_timeout _ _ _ _ _ hr
      | ok merge2 =>
        rw [hr] at h
        dsimp only at h
        cases hl2 : merge2.levels[k]? with
        | none => rw [hl2] at h; cases h
        | some level1 =>
          rw [hl2] at h
          exact ih _ h

theorem nodes_complete_ne_timeout (btree : castle_btree_type) (st : Versions)
    (merge : struct_castle_da_merge) (depth : Nat) (end_ : Bool) :
    castle_da_nodes_complete btree st merge depth end_ ≠ Res.timeout := by
  intro h
  rw [castle_da_nodes_complete] at h
  by_cases hdep : depth + 1 > merge.levels.length
  · rw [if_pos hdep] at h; cases h
  · rw [if_neg hdep] at h
    cases hl : merge.levels[depth]? with
    | none => rw [hl] at h; cases h
    | some level =>
      rw [hl] at h
      dsimp only at h
      have hmain : (match castle_da_nodes_complete_up btree st (merge.levels.length - depth)
            merge depth with
          | Res.ok (merge1, i) => castle_da_nodes_complete_down btree st i merge1
          | Res.bug => Res.bug
          | Res.timeout => Res.timeout) ≠ Res.timeout := by
        intro hd
        cases hu : castle_da_nodes_complete_up btree st (merge.levels.length - depth)
            merge depth with
        | bug => rw [hu] at hd; cases hd
        | timeout => exact nodes_complete_up_ne_timeout _ _ _ _ _ hu
        | ok p =>
          rw [hu] at hd
          exact nodes_complete_down_ne_timeout _ _ _ _ hd
      by_cases hroot : (end_ && decide (level.next_idx < 0)) = true
      · rw [if_pos hroot] at h
        cases hu : merge.levels[depth + 1]? with
        | none => rw [hu] at h; cases h
        | some up =>
          rw [hu] at h
          dsimp only at h
          by_cases hz : up.next_idx = 0
          · simp only [hz, decide_True] at h
            cases h
          · simp only [hz, decide_False] at h
            exact hmain h
      · rw [if_neg hroot] at h
        exact hmain h

/-! ## The flush of `castle_da_merge_complete` -/

theorem next_idx_le_held (merge : struct_castle_da_merge) (hinv : MInv merge) (i : Nat)
    (level : castle_da_merge_level) (hl : merge.levels[i]? = some level) :
    level.next_idx ≤ (held merge : Int) := by
  have h1 : level_size level ≤ held merge := le_sum_of_getElem? level_size _ i level hl
  have h2 : (node_slots level).length ≤ level_size level := by
    simp only [level_size]; omega
  have hw := hinv i level hl
  cases hn : level.node_c2b with
  | none =>
    have := (hw.none_case hn).1
    omega
  | some p =>
    have := (hw.some_case (by rw [hn]; simp)).1
    omega

/-- The `while` loop of `castle_da_merge_complete` at one depth ends within
`next_idx` rounds. -/
theorem merge_complete_level_spec (btree : castle_btree_type) (st : Versions) (i : Nat) :
    ∀ (fuel : Nat) (merge : struct_castle_da_merge),
      MInv merge → BufEmptyFrom merge 0 →
      (∀ level, merge.levels[i]? = some level → level.next_idx ≤ (fuel : Int)) →
      castle_da_merge_complete_level btree st i fuel merge ≠ Res.timeout ∧
      ∀ merge1, castle_da_merge_complete_level btree st i fuel merge = Res.ok merge1 →
        MInv merge1 ∧ BufEmptyFrom merge1 0 ∧ merge1.levels.length = merge.levels.length ∧
        held merge1 ≤ held merge ∧ content merge1 0 = content merge 0 := by
  intro fuel
  induction fuel with
  | zero =>
    intro merge hinv hq hle
    rw [castle_da_merge_complete_level]
    cases hl : merge.levels[i]? with
    | none => exact ⟨fun h => (by cases h), fun m h => (by cases h)⟩
    | some level =>
      have := hle level hl
      dsimp only
      rw [if_neg (by simp only [Nat.cast_zero] at this; omega)]
      refine ⟨fun h => (by cases h), fun m h => ?_⟩
      cases h
      exact ⟨hinv, hq, rfl, le_refl _, rfl⟩
  | succ fuel ih =>
    intro merge hinv hq hle
    rw [castle_da_merge_complete_level]
    cases hl : merge.levels[i]? with
    | none => exact ⟨fun h => (by cases h), fun m h => (by cases h)⟩
    | some level =>
      dsimp only
      by_cases hpos : level.next_idx > 0
      · rw [if_pos hpos]
        have hw := hinv i level hl
        have hnode : level.node_c2b ≠ none := by
          intro hn
          have := (hw.none_case hn).1
          omega
        have hnx : level.next_idx = ((node_slots level).length : Int) := by
          rcases (hw.some_case hnode).1 with h1 | h1
          · omega
          · exact h1
        have hlt := getElem?_lt_length hl
        -- the state with the node forced complete
        have hgetf : ∀ j, (merge.levels.set i { level with next_idx := -1 })[j]? =
            if j = i then some { level with next_idx := -1 } else merge.levels[j]? := by
          intro j
          rw [List.getElem?_set]
          by_cases hj : i = j
          · subst hj; simp [hlt]
          · have : ¬ j = i := fun hh => hj hh.symm
            simp [hj, this]
        have hinvf : MInv { merge with levels := merge.levels.set i { level with next_idx := -1 } } := by
          intro j lv hj
          dsimp only at hj
          rw [hgetf j] at hj
          by_cases hji : j = i
          · rw [if_pos hji] at hj
            cases hj
            exact ⟨fun hn => absurd hn hnode, fun _ => ⟨Or.inl rfl, (hw.some_case hnode).2⟩⟩
          · rw [if_neg hji] at hj
            exact hinv j lv hj
        have hqf : BufEmptyFrom
            { merge with levels := merge.levels.set i { level with next_idx := -1 } } 0 := by
          intro j lv _ hj
          dsimp only at hj
          rw [hgetf j] at hj
          by_cases hji : j = i
          · rw [if_pos hji] at hj
            cases hj
            exact hq i level (Nat.zero_le _) hl
          · rw [if_neg hji] at hj
            exact hq j lv (Nat.zero_le _) hj
        have hheld : held { merge with levels := merge.levels.set i { level with next_idx := -1 } }
            = held merge := by
          apply sum_map_congr_getElem?
          intro j
          dsimp only
          rw [hgetf j]
          by_cases hji : j = i
          · subst hji
            rw [if_pos rfl, hl]; rfl
          · rw [if_neg hji]
        have hcont : content
            { merge with levels := merge.levels.set i { level with next_idx := -1 } } 0
            = content merge 0 := by
          simp only [content, written_slots]
          rw [hgetf 0]
          by_cases h0 : 0 = i
          · subst h0
            rw [if_pos rfl, hl]; rfl
          · rw [if_neg h0]
        cases hc : castle_da_nodes_complete btree st
            { merge with levels := merge.levels.set i { level with next_idx := -1 } } i true with
        | bug => exact ⟨fun h => (by cases h), fun m h => (by cases h)⟩
        | timeout => exact absurd hc (nodes_complete_ne_timeout _ _ _ _ _)
        | ok merge2 =>
          dsimp only
          obtain ⟨n1, n2, n3, n4, n5, n6⟩ :=
            nodes_complete_spec btree st _ merge2 i true hinvf hqf hc
          have hle2 : ∀ lv, merge2.levels[i]? = some lv → lv.next_idx ≤ (fuel : Int) := by
            intro lv hlv
            obtain ⟨lv1, m1, m2⟩ := n6 { level with next_idx := -1 }
              (by dsimp only; rw [hgetf i, if_pos rfl]) (by show (-1 : Int) < 0; omega)
            rw [hlv] at m1
            cases m1
            have hns : node_slots { level with next_idx := -1 } = node_slots level := rfl
            rw [hns] at m2
            have := hle level hl
            push_cast at this
            omega
          obtain ⟨i1, i2⟩ := ih merge2 n1 n2 hle2
          refine ⟨i1, fun m h => ?_⟩
          obtain ⟨j1, j2, j3, j4, j5⟩ := i2 m h
          refine ⟨j1, j2, ?_, ?_, ?_⟩
          · rw [j3, n3]; simp
          · rw [hheld] at n4; omega
          · rw [j5, n5, hcont]
      · rw [if_neg hpos]
        refine ⟨fun h => (by cases h), fun m h => ?_⟩
        cases h
        exact ⟨hinv, hq, rfl, le_refl _, rfl⟩

/-- The `for` loop of `castle_da_merge_complete`: with fuel for as many rounds
as slots are held it ends, and the entries at depth 0 stay. -/
theorem merge_complete_loop_spec (btree : castle_btree_type) (st : Versions) (fuel : Nat) :
    ∀ (todo i : Nat) (merge : struct_castle_da_merge),
      MInv merge → BufEmptyFrom merge 0 → held merge ≤ fuel →
      castle_da_merge_complete_loop btree st fuel todo i merge ≠ Res.timeout ∧
      ∀ merge1, castle_da_merge_complete_loop btree st fuel todo i merge = Res.ok merge1 →
        MInv merge1 ∧ BufEmptyFrom merge1 0 ∧ content merge1 0 = content merge 0 := by
  intro todo
  induction todo with
  | zero =>
    intro i merge hinv hq _
    rw [castle_da_merge_complete_loop]
    refine ⟨fun h => (by cases h), fun m h => ?_⟩
    cases h
    exact ⟨hinv, hq, rfl⟩
  | succ todo ih =>
    intro i merge hinv hq hh
    rw [castle_da_merge_complete_loop]
    have hle : ∀ level, merge.levels[i]? = some level → level.next_idx ≤ (fuel : Int) := by
      intro level hl
      have := next_idx_le_held merge hinv i level hl
      omega
    obtain ⟨l1, l2⟩ := merge_complete_level_spec btree st i fuel merge hinv hq hle
    cases hc : castle_da_merge_complete_level btree st i fuel merge with
    | bug => exact ⟨fun h => (by cases h), fun m h => (by cases h)⟩
    | timeout => exact absurd hc l1
    | ok merge2 =>
      dsimp only
      obtain ⟨k1, k2, k3, k4, k5⟩ := l2 merge2 hc
      obtain ⟨i1, i2⟩ := ih (i + 1) merge2 k1 k2 (by omega)
      refine ⟨i1, fun m h => ?_⟩
      obtain ⟨j1, j2, j3⟩ := i2 m h
      exact ⟨j1, j2, j3.trans k5⟩

theorem leaf_stream_eq_content (merge : struct_castle_da_merge) (hq : BufEmptyFrom merge 0) :
    leaf_stream merge = content merge 0 := by
  simp only [leaf_stream, content, written_slots]
  cases hl : merge.levels[0]? with
  | none => rfl
  | some level =>
    have := hq 0 level (le_refl _) hl
    simp only [this, List.append_nil]
    rfl

/-! ## The merged iterator over two streams is the sort-merge -/

theorem next_loop_two (btree : castle_btree_type) (vc : Nat → Nat → Int)
    (c1 c2 : component_iterator)
    (h1 : CInv (fun _ _ => True) c1) (h2 : CInv (fun _ _ => True) c2) :
    castle_ct_merged_iter_next_loop btree vc [c1, c2] 0 none =
      Res.ok ([comp_fill c1, comp_fill c2],
        pick (entry_compare btree vc) (pick (entry_compare btree vc) none 0 (comp_fill c1)) 1
          (comp_fill c2)) := by
  rw [next_loop_cons btree vc c1 [c2] 0 none h1, next_loop_cons btree vc c2 [] 1 _ h2]
  rw [castle_ct_merged_iter_next_loop]

theorem comp_take_spec (f : component_iterator) (h : CInv (fun _ _ => True) f)
    (hc : f.cached = true) :
    f.completed = false ∧ pend f = f.cached_entry :: f.iterator ∧
    pend (comp_take f) = f.iterator ∧ CInv (fun _ _ => True) (comp_take f) ∧
    live_count [comp_take f] = (if f.iterator.isEmpty then 0 else 1) ∧ live_count [f] = 1 := by
  have hco : f.completed = false := by
    cases hcc : f.completed with
    | false => rfl
    | true => have := (h.done hcc).1; rw [hc] at this; cases this
  refine ⟨hco, by simp [pend, hc, hco], ?_, ?_, ?_, by simp [live_count, hco]⟩
  · cases hi : f.iterator with
    | nil => simp [comp_take, pend, hi]
    | cons x it => simp [comp_take, pend, hi, hco]
  · cases hi : f.iterator with
    | nil =>
      refine ⟨fun _ => ⟨?_, ?_⟩, fun hd => ?_, ?_⟩
      · simp [comp_take, hi]
      · simp [comp_take, hi]
      · simp [comp_take, hi] at hd
      · simp [comp_take, pend, hi]
    | cons x it =>
      refine ⟨fun hd => ?_, fun _ => ?_, ?_⟩
      · simp [comp_take, hi, hco] at hd
      · right; simp [comp_take, hi]
      · exact List.pairwise_of_forall (fun _ _ => trivial)
  · cases hi : f.iterator with
    | nil => simp [comp_take, live_count, hi]
    | cons x it => simp [comp_take, live_count, hi, hco]

/-- The call `castle_ct_merged_iter_next` once the scan has found the smallest
entry at index `j`. -/
theorem next_of_loop (btree : castle_btree_type) (vc : Nat → Nat → Int) (iter : c_merged_iter_t)
    (its : List component_iterator) (j : Nat) (e : kv_entry) (f : component_iterator)
    (hloop : castle_ct_merged_iter_next_loop btree vc iter.iterators 0 none
      = Res.ok (its, some (j, e)))
    (hf : its[j]? = some f) :
    castle_ct_merged_iter_next btree vc iter =
      Res.ok ({ iter with
        iterators := its.set j (comp_take f)
        non_empty_cnt := if f.iterator.isEmpty then iter.non_empty_cnt - 1
          else iter.non_empty_cnt }, e) := by
  rw [castle_ct_merged_iter_next, hloop]
  dsimp only
  rw [hf]
  dsimp only
  cases hi : f.iterator with
  | nil => simp [comp_take, hi]
  | cons x it => simp [comp_take, hi]

theorem sort_merge_nil_left (btree : castle_btree_type) (vc : Nat → Nat → Int)
    (B : List kv_entry) : sort_merge btree vc [] B = B := by
  simp [sort_merge]

theorem sort_merge_nil_right (btree : castle_btree_type) (vc : Nat → Nat → Int)
    (A : List kv_entry) : sort_merge btree vc A [] = A := by
  simp [sort_merge]

theorem sort_merge_cons_cons (btree : castle_btree_type) (vc : Nat → Nat → Int)
    (a b : kv_entry) (A B : List kv_entry) :
    sort_merge btree vc (a :: A) (b :: B) =
      if entry_compare btree vc a b ≤ 0 then a :: sort_merge btree vc A (b :: B)
      else b :: sort_merge btree vc (a :: A) B := by
  simp only [sort_merge]
  rw [List.cons_merge_cons]
  simp

theorem live_count_pair (c1 c2 : component_iterator) :
    live_count [c1, c2] = live_count [c1] + live_count [c2] := by
  rw [live_count_cons, live_count_cons c1 []]
  simp [live_count]

/-- One call of `castle_ct_merged_iter_next` on two components takes the head of
the sort-merge of what they still have to deliver. -/
theorem two_next (btree : castle_btree_type) (vc : Nat → Nat → Int)
    (ht : is_total_order_cmp (entry_compare btree vc)) (iter : c_merged_iter_t)
    (as bs : List kv_entry) (h : Two iter as bs) (hne : as ≠ [] ∨ bs ≠ []) :
    ∃ iter1 e as1 bs1, castle_ct_merged_iter_next btree vc iter = Res.ok (iter1, e) ∧
      Two iter1 as1 bs1 ∧
      sort_merge btree vc as bs = e :: sort_merge btree vc as1 bs1 ∧
      as1.length + bs1.length + 1 = as.length + bs.length := by
  obtain ⟨herr, c1, c2, hits, hc1, hc2, hp1, hp2, hcnt⟩ := h
  have hloop := next_loop_two btree vc c1 c2 hc1 hc2
  rw [← hits] at hloop
  have s1 := comp_fill_spec hc1
  have s2 := comp_fill_spec hc2
  have f1 := CInv_fill hc1
  have f2 := CInv_fill hc2
  have hlive : live_count [c1, c2] = live_count [comp_fill c1, comp_fill c2] := by
    rw [live_count_cons, live_count_cons c2, live_count_cons (comp_fill c1),
      live_count_cons (comp_fill c2), s1.2.1, s2.2.1]
  have hdone : ∀ c : component_iterator, CInv (fun _ _ => True) c →
      (comp_fill c).cached = false → pend c = [] := by
    intro c hc hf
    have hs := comp_fill_spec hc
    cases hco : c.completed with
    | true => simp [pend, hco]
    | false =>
      have := hs.2.2.1.2 hco
      rw [hf] at this; cases this
  cases hca1 : (comp_fill c1).cached with
  | true =>
    obtain ⟨t1, t2, t3, t4, t5, t6⟩ := comp_take_spec _ f1 hca1
    have has : as = (comp_fill c1).cached_entry :: (comp_fill c1).iterator := by
      rw [← hp1, ← s1.1]; exact t2
    cases hca2 : (comp_fill c2).cached with
    | true =>
      obtain ⟨u1, u2, u3, u4, u5, u6⟩ := comp_take_spec _ f2 hca2
      have hbs : bs = (comp_fill c2).cached_entry :: (comp_fill c2).iterator := by
        rw [← hp2, ← s2.1]; exact u2
      by_cases hlt : entry_compare btree vc (comp_fill c2).cached_entry
          (comp_fill c1).cached_entry < 0
      · -- the head of the second stream is smaller
        have hpick : pick (entry_compare btree vc)
            (pick (entry_compare btree vc) none 0 (comp_fill c1)) 1 (comp_fill c2)
            = some (1, (comp_fill c2).cached_entry) := by
          simp [pick, hca1, hca2, hlt]
        rw [hpick] at hloop
        have hnext := next_of_loop btree vc iter _ 1 _ (comp_fill c2) hloop rfl
        refine ⟨_, _, as, (comp_fill c2).iterator, hnext, ⟨herr, comp_fill c1,
          comp_take (comp_fill c2), rfl, f1, u4, by rw [s1.1, hp1], u3, ?_⟩, ?_, ?_⟩
        · dsimp only
          rw [hcnt, hlive, live_count_pair, live_count_pair, u5, u6]
          cases (comp_fill c2).iterator.isEmpty <;> simp
        · have hgt : ¬ entry_compare btree vc (comp_fill c1).cached_entry
              (comp_fill c2).cached_entry ≤ 0 := by
            have := (ht.1 (comp_fill c2).cached_entry (comp_fill c1).cached_entry).1 hlt
            omega
          rw [has, hbs, sort_merge_cons_cons, if_neg hgt]
        · rw [hbs]; simp; omega
      · have hpick : pick (entry_compare btree vc)
            (pick (entry_compare btree vc) none 0 (comp_fill c1)) 1 (comp_fill c2)
            = some (0, (comp_fill c1).cached_entry) := by
          simp [pick, hca1, hca2, hlt]
        rw [hpick] at hloop
        have hnext := next_of_loop btree vc iter _ 0 _ (comp_fill c1) hloop rfl
        refine ⟨_, _, (comp_fill c1).iterator, bs, hnext, ⟨herr, comp_take (comp_fill c1),
          comp_fill c2, rfl, t4, f2, t3, by rw [s2.1, hp2], ?_⟩, ?_, ?_⟩
        · dsimp only
          rw [hcnt, hlive, live_count_pair, live_count_pair, t5, t6]
          cases (comp_fill c1).iterator.isEmpty <;> simp
        · have hle : entry_compare btree vc (comp_fill c1).cached_entry
              (comp_fill c2).cached_entry ≤ 0 := by
            by_contra hc
            have := (ht.1 (comp_fill c2).cached_entry (comp_fill c1).cached_entry).2 (by omega)
            exact hlt this
          rw [has, hbs, sort_merge_cons_cons, if_pos hle]
        · rw [has]; simp; omega
    | false =>
      have hbs : bs = [] := by rw [← hp2]; exact hdone c2 hc2 hca2
      have hpick : pick (entry_compare btree vc)
          (pick (entry_compare btree vc) none 0 (comp_fill c1)) 1 (comp_fill c2)
          = some (0, (comp_fill c1).cached_entry) := by
        simp [pick, hca1, hca2]
      rw [hpick] at hloop
      have hnext := next_of_loop btree vc iter _ 0 _ (comp_fill c1) hloop rfl
      refine ⟨_, _, (comp_fill c1).iterator, bs, hnext, ⟨herr, comp_take (comp_fill c1),
        comp_fill c2, rfl, t4, f2, t3, by rw [s2.1, hp2], ?_⟩, ?_, ?_⟩
      · dsimp only
        rw [hcnt, hlive, live_count_pair, live_count_pair, t5, t6]
        cases (comp_fill c1).iterator.isEmpty <;> simp
      · rw [hbs, sort_merge_nil_right, sort_merge_nil_right, has]
      · rw [has]; simp; omega
  | false =>
    have has : as = [] := by rw [← hp1]; exact hdone c1 hc1 hca1
    cases hca2 : (comp_fill c2).cached with
    | true =>
      obtain ⟨u1, u2, u3, u4, u5, u6⟩ := comp_take_spec _ f2 hca2
      have hbs : bs = (comp_fill c2).cached_entry :: (comp_fill c2).iterator := by
        rw [← hp2, ← s2.1]; exact u2
      have hpick : pick (entry_compare btree vc)
          (pick (entry_compare btree vc) none 0 (comp_fill c1)) 1 (comp_fill c2)
          = some (1, (comp_fill c2).cached_entry) := by
        simp [pick, hca1, hca2]
      rw [hpick] at hloop
      have hnext := next_of_loop btree vc iter _ 1 _ (comp_fill c2) hloop rfl
      refine ⟨_, _, as, (comp_fill c2).iterator, hnext, ⟨herr, comp_fill c1,
        comp_take (comp_fill c2), rfl, f1, u4, by rw [s1.1, hp1], u3, ?_⟩, ?_, ?_⟩
      · dsimp only
        rw [hcnt, hlive, live_count_pair, live_count_pair, u5, u6]
        cases (comp_fill c2).iterator.isEmpty <;> simp
      · rw [has, sort_merge_nil_left, sort_merge_nil_left, hbs]
      · rw [hbs]; simp; omega
    | false =>
      have hbs : bs = [] := by rw [← hp2]; exact hdone c2 hc2 hca2
      rcases hne with h1 | h1
      · exact absurd has h1
      · exact absurd hbs h1

theorem two_has_next (iter : c_merged_iter_t) (as bs : List kv_entry) (h : Two iter as bs) :
    castle_ct_merged_iter_has_next iter = true ↔ (as ≠ [] ∨ bs ≠ []) := by
  obtain ⟨herr, c1, c2, hits, hc1, hc2, hp1, hp2, hcnt⟩ := h
  have hI : IInv (fun _ _ => True) iter := by
    refine ⟨?_, herr, by rw [hcnt, hits]⟩
    intro c hc
    rw [hits] at hc
    simp only [List.mem_cons, List.mem_singleton, List.not_mem_nil, or_false] at hc
    rcases hc with rfl | rfl
    · exact hc1
    · exact hc2
  rw [has_next_iff_pending hI, hits]
  simp only [pending, List.map_cons, List.map_nil, List.flatten_cons, List.flatten_nil,
    List.append_nil, hp1, hp2, ne_eq, List.append_eq_nil, not_and_or]

theorem init_comp_spec (s : List kv_entry) :
    CInv (fun _ _ => True) (init_comp s) ∧ pend (init_comp s) = s ∧
    live_count [init_comp s] = (if s.isEmpty then 0 else 1) := by
  cases s with
  | nil =>
    exact ⟨⟨fun _ => ⟨rfl, rfl⟩, fun hd => (by simp [init_comp] at hd), by simp [pend, init_comp]⟩,
      by simp [pend, init_comp], by simp [live_count, init_comp]⟩
  | cons a s =>
    exact ⟨⟨fun hd => (by simp [init_comp] at hd), fun _ => Or.inr (by simp [init_comp]),
      List.pairwise_of_forall (fun _ _ => trivial)⟩, by simp [pend, init_comp],
      by simp [live_count, init_comp]⟩

theorem two_init (A B : List kv_entry) :
    ∃ iter, castle_ct_merged_iter_init 2 [A, B] = Res.ok iter ∧ Two iter A B := by
  have hi : castle_ct_merged_iter_init 2 [A, B] = Res.ok
      { nr_iters := 2, err := 0,
        non_empty_cnt := ((([A, B].filter (fun s => !s.isEmpty)).length : Nat) : Int),
        iterators := [init_comp A, init_comp B] } := by
    simp [castle_ct_merged_iter_init, init_comp]
  refine ⟨_, hi, rfl, _, _, rfl, (init_comp_spec A).1, (init_comp_spec B).1,
    (init_comp_spec A).2.1, (init_comp_spec B).2.1, ?_⟩
  rw [live_count_pair, (init_comp_spec A).2.2, (init_comp_spec B).2.2]
  cases A <;> cases B <;> simp

/-- The effect of `castle_da_entry_add` on the entries of the levels, when the
buffers are empty. -/
theorem entry_add_keeps (btree : castle_btree_type) (st : Versions)
    (merge merge1 : struct_castle_da_merge) (depth key version : Nat) (cdb : c_disk_blk_t)
    (hinv : MInv merge) (hq : BufEmptyFrom merge 0)
    (h : castle_da_entry_add btree st merge depth key version cdb = Res.ok merge1) :
    MInv merge1 ∧ BufEmptyFrom merge1 0 ∧ held merge1 = held merge + 1 ∧
    content merge1 depth = content merge depth ++ [merge_slot key version cdb] ∧
    ∀ j, j ≠ depth → content merge1 j = content merge j := by
  obtain ⟨a1, a2, level, l1, a3, a4, a5, a6, a7, a8, a9, -⟩ :=
    entry_add_spec btree st merge merge1 depth key version cdb hinv h
  have hlt := getElem?_lt_length a3
  have hb := hq depth level (Nat.zero_le _) a3
  have hget : ∀ j, merge1.levels[j]? = if j = depth then some l1 else merge.levels[j]? := by
    intro j
    rw [a4, List.getElem?_set]
    by_cases hj : depth = j
    · subst hj; simp [hlt]
    · have : ¬ j = depth := fun hh => hj hh.symm
      simp [hj, this]
  refine ⟨a1, ?_, ?_, ?_, ?_⟩
  · intro j lv _ hj
    rw [hget j] at hj
    by_cases hjd : j = depth
    · rw [if_pos hjd] at hj
      cases hj
      rw [a6]; exact hb
    · rw [if_neg hjd] at hj
      exact hq j lv (Nat.zero_le _) hj
  · have s1 := sum_map_set level_size merge.levels depth l1 level a3
    have : level_size l1 = level_size level + 1 := by
      simp only [level_size, a5, a6, List.length_append, List.length_singleton]
      omega
    simp only [held, a4]
    omega
  · simp only [content, written_slots, a2]
    rw [hget depth, if_pos rfl, a3]
    simp only [a5, a6, hb, List.append_nil, List.append_assoc]
  · intro j hj
    simp only [content, written_slots, a2]
    rw [hget j, if_neg hj]

/-- The merging loop of `castle_da_merge` over two streams: with fuel for every
entry it ends, and it has added the sort-merge of the streams at depth 0. -/
theorem merge_loop_spec (btree : castle_btree_type) (vc : Nat → Nat → Int) (st : Versions)
    (ht : is_total_order_cmp (entry_compare btree vc)) :
    ∀ (fuel : Nat) (iter : c_merged_iter_t) (merge : struct_castle_da_merge)
      (as bs : List kv_entry),
      Two iter as bs → as.length + bs.length ≤ fuel → MInv merge → BufEmptyFrom merge 0 →
      castle_da_merge_loop btree vc st fuel iter merge ≠ Res.timeout ∧
      ∀ merge1, castle_da_merge_loop btree vc st fuel iter merge = Res.ok merge1 →
        MInv merge1 ∧ BufEmptyFrom merge1 0 ∧
        held merge1 ≤ held merge + (as.length + bs.length) ∧
        content merge1 0 = content merge 0 ++
          (sort_merge btree vc as bs).map (fun e => merge_slot e.k e.v e.cdb) := by
  intro fuel
  induction fuel with
  | zero =>
    intro iter merge as bs h2 hf hinv hq
    have has : as = [] := List.length_eq_zero.1 (by omega)
    have hbs : bs = [] := List.length_eq_zero.1 (by omega)
    have hn : castle_ct_merged_iter_has_next iter = false := by
      cases hh : castle_ct_merged_iter_has_next iter with
      | false => rfl
      | true =>
        rcases (two_has_next iter as bs h2).1 hh with h1 | h1
        · exact absurd has h1
        · exact absurd hbs h1
    rw [castle_da_merge_loop, hn]
    refine ⟨fun h => (by cases h), fun m h => ?_⟩
    cases h
    subst has; subst hbs
    exact ⟨hinv, hq, by omega, by simp [sort_merge_nil_left]⟩
  | succ fuel ih =>
    intro iter merge as bs h2 hf hinv hq
    rw [castle_da_merge_loop]
    cases hh : castle_ct_merged_iter_has_next iter with
    | false =>
      have hnil : ¬ (as ≠ [] ∨ bs ≠ []) := by
        intro hc
        have := (two_has_next iter as bs h2).2 hc
        rw [hh] at this; cases this
      have has : as = [] := by by_contra hc; exact hnil (Or.inl hc)
      have hbs : bs = [] := by by_contra hc; exact hnil (Or.inr hc)
      refine ⟨fun h => (by cases h), fun m h => ?_⟩
      cases h
      subst has; subst hbs
      exact ⟨hinv, hq, by omega, by simp [sort_merge_nil_left]⟩
    | true =>
      have hne := (two_has_next iter as bs h2).1 hh
      obtain ⟨iter1, e, as1, bs1, n1, n2, n3, n4⟩ := two_next btree vc ht iter as bs h2 hne
      simp only [if_true]
      rw [n1]
      dsimp only
      cases ha : castle_da_entry_add btree st merge 0 e.k e.v e.cdb with
      | bug => exact ⟨fun h => (by cases h), fun m h => (by cases h)⟩
      | timeout => exact absurd ha (entry_add_ne_timeout _ _ _ _ _ _ _)
      | ok merge1 =>
        dsimp only
        obtain ⟨a1, a2, a3, a4, -⟩ := entry_add_keeps btree st merge merge1 0 e.k e.v e.cdb hinv hq ha
        cases hc : castle_da_nodes_complete btree st merge1 0 false with
        | bug => exact ⟨fun h => (by cases h), fun m h => (by cases h)⟩
        | timeout => exact absurd hc (nodes_complete_ne_timeout _ _ _ _ _)
        | ok merge2 =>
          dsimp only
          obtain ⟨c1, c2, c3, c4, c5, -⟩ := nodes_complete_spec btree st merge1 merge2 0 false a1 a2 hc
          obtain ⟨i1, i2⟩ := ih iter1 merge2 as1 bs1 n2 (by omega) c1 c2
          refine ⟨i1, fun m h => ?_⟩
          obtain ⟨j1, j2, j3, j4⟩ := i2 m h
          refine ⟨j1, j2, by omega, ?_⟩
          rw [j4, c5, a4, n3]
          simp

/-! ## The leaf level written by `castle_da_merge` -/

theorem merge_init_inv (max_btree_depth : Nat) :
    MInv (castle_da_merge_init max_btree_depth) ∧
    BufEmptyFrom (castle_da_merge_init max_btree_depth) 0 ∧
    held (castle_da_merge_init max_btree_depth) = 0 ∧
    content (castle_da_merge_init max_btree_depth) 0 = [] := by
  have hlv : (castle_da_merge_init max_btree_depth).levels =
      List.replicate max_btree_depth init_level := rfl
  have hget : ∀ (j : Nat) (lv : castle_da_merge_level),
      (castle_da_merge_init max_btree_depth).levels[j]? = some lv → lv = init_level := by
    intro j lv h
    rw [hlv] at h
    have := mem_of_getElem?_some h
    exact List.eq_of_mem_replicate this
  refine ⟨?_, ?_, ?_, ?_⟩
  · intro j lv h
    rw [hget j lv h]
    exact ⟨fun _ => ⟨rfl, rfl⟩, fun hn => absurd rfl hn⟩
  · intro j lv _ h
    rw [hget j lv h]
    rfl
  · simp only [held, hlv, List.map_replicate, List.sum_replicate]
    simp [level_size, node_slots, init_level, castle_da_node_buffer_init]
  · simp only [content, written_slots]
    cases h : (castle_da_merge_init max_btree_depth).levels[0]? with
    | none => simp [castle_da_merge_init]
    | some lv =>
      rw [hget 0 lv h]
      simp [castle_da_merge_init, node_slots, init_level, castle_da_node_buffer_init]

theorem sort_merge_sorted_perm (btree : castle_btree_type) (vc : Nat → Nat → Int)
    (ht : is_total_order_cmp (entry_compare btree vc)) (A B : List kv_entry) :
    (sort_merge btree vc A B).Perm (A ++ B) ∧
    (A.Chain' (fun a b => entry_compare btree vc a b ≤ 0) →
      B.Chain' (fun a b => entry_compare btree vc a b ≤ 0) →
      (sort_merge btree vc A B).Pairwise (fun a b => entry_compare btree vc a b ≤ 0)) := by
  refine ⟨List.merge_perm_append _, fun hA hB => ?_⟩
  have h := @List.sorted_merge kv_entry (fun a b => decide (entry_compare btree vc a b ≤ 0))
    (fun a b c hab hbc => by
      simp only [decide_eq_true_eq] at hab hbc ⊢
      exact ht.2 a b c hab hbc)
    (fun a b => by
      simp only [Bool.or_eq_true, decide_eq_true_eq]
      have := ht.1 a b
      by_cases hc : entry_compare btree vc a b ≤ 0
      · exact Or.inl hc
      · right
        have h2 := (ht.1 b a).2 (by omega)
        omega)
    A B
    ((chain_pairwise ht A hA).imp (fun h => by simpa using h))
    ((chain_pairwise ht B hB).imp (fun h => by simpa using h))
  exact h.imp (fun h => by simpa using h)

/-- C8, amended: for two input streams and fuel for every entry the run of
`castle_da_merge` ends, and whenever it ends without a failed assertion the
entries at depth 0, read in node order, are the sort-merge of the two streams (a
permutation of their union, ascending if the streams are). -/
theorem merge_leaf_stream_sort_merge (btree : castle_btree_type) (vc : Nat → Nat → Int)
    (st : Versions) (max_btree_depth fuel : Nat) (A B : List kv_entry)
    (hk : is_total_order_cmp btree.key_compare) (hv : is_total_order_cmp vc)
    (hfuel : A.length + B.length ≤ fuel) :
    castle_da_merge btree vc st max_btree_depth fuel A B ≠ Res.timeout ∧
    (∀ merge, castle_da_merge btree vc st max_btree_depth fuel A B = Res.ok merge →
      leaf_stream merge =
        (sort_merge btree vc A B).map (fun e => merge_slot e.k e.v e.cdb)) ∧
    (sort_merge btree vc A B).Perm (A ++ B) ∧
    (A.Chain' (fun a b => entry_compare btree vc a b ≤ 0) →
      B.Chain' (fun a b => entry_compare btree vc a b ≤ 0) →
      (sort_merge btree vc A B).Pairwise (fun a b => entry_compare btree vc a b ≤ 0)) := by
  have ht := entry_compare_total btree vc hk hv
  obtain ⟨iter, hi, h2⟩ := two_init A B
  obtain ⟨m1, m2, m3, m4⟩ := merge_init_inv max_btree_depth
  obtain ⟨l1, l2⟩ := merge_loop_spec btree vc st ht fuel iter _ A B h2 hfuel m1 m2
  have hsp := sort_merge_sorted_perm btree vc ht A B
  rw [castle_da_merge, hi]
  dsimp only
  cases hl : castle_da_merge_loop btree vc st fuel iter (castle_da_merge_init max_btree_depth) with
  | bug => exact ⟨fun h => (by cases h), fun m h => (by cases h), hsp⟩
  | timeout => exact absurd hl l1
  | ok merge1 =>
    dsimp only
    obtain ⟨k1, k2, k3, k4⟩ := l2 merge1 hl
    obtain ⟨c1, c2⟩ := merge_complete_loop_spec btree st fuel merge1.levels.length 0 merge1 k1 k2
      (by omega)
    refine ⟨c1, fun m h => ?_, hsp⟩
    obtain ⟨j1, j2, j3⟩ := c2 m h
    rw [leaf_stream_eq_content m j2, j3, k4, m4, List.nil_append]

/-- C8 as stated fails: the streams `[(5,v3),(5,v1)]` and `[(5,v2)]` are ascending
and share no (key, version) pair, yet with nodes of three slots the merge writes
no leaf level: the three versions are unrelated, every node is cut after its
first slot, the pointer levels repeat the situation of the leaf level, and the
run ends in the assertion on `MAX_BTREE_DEPTH` (here for every depth below 13). -/
theorem merge_unrelated_versions_counterexample :
    star_stream1.Chain' (fun a b =>
      entry_compare (nat_btree 3) (castle_version_compare star_versions) a b ≤ 0) ∧
    star_stream2.Chain' (fun a b =>
      entry_compare (nat_btree 3) (castle_version_compare star_versions) a b ≤ 0) ∧
    (∀ a ∈ star_stream1, ∀ b ∈ star_stream2, (a.k, a.v) ≠ (b.k, b.v)) ∧
    sort_merge (nat_btree 3) (castle_version_compare star_versions) star_stream1 star_stream2 =
      [{ k := 5, v := 3, cdb := (7, 1) }, { k := 5, v := 2, cdb := (7, 3) },
       { k := 5, v := 1, cdb := (7, 2) }] ∧
    ∀ d, d < 13 →
      castle_da_merge (nat_btree 3) (castle_version_compare star_versions) star_versions d 3
        star_stream1 star_stream2 = Res.bug := by
  refine ⟨List.Chain.cons (by decide) List.Chain.nil, List.Chain.nil, by decide, ?_, by decide⟩
  simp only [sort_merge, star_stream1, star_stream2]
  rw [List.cons_merge_cons, if_pos (by decide), List.cons_merge_cons, if_neg (by decide)]
  simp

/-- The streams of example E3 merged into nodes of three slots: the run ends
with fuel 4, and the leaf level holds `(1,v2),(1,v1),(2,v1),(3,v1)`. -/
theorem merge_leaf_stream_sort_merge_witness :
    is_total_order_cmp (nat_btree 3).key_compare ∧
    is_total_order_cmp (castle_version_compare chain_versions) ∧
    e3_stream1.length + e3_stream2.length ≤ 4 ∧
    (castle_da_merge (nat_btree 3) (castle_version_compare chain_versions) chain_versions 10 4
        e3_stream1 e3_stream2).map leaf_stream =
      Res.ok [merge_slot 1 2 (0, 3), merge_slot 1 1 (0, 1), merge_slot 2 1 (0, 4),
        merge_slot 3 1 (0, 2)] ∧
    (castle_da_merge (nat_btree 3) (castle_version_compare chain_versions) chain_versions 10 4
        e3_stream1 e3_stream2 ≠ Res.timeout ∧
    (∀ merge,
      castle_da_merge (nat_btree 3) (castle_version_compare chain_versions) chain_versions 10 4
        e3_stream1 e3_stream2 = Res.ok merge →
      leaf_stream merge =
        (sort_merge (nat_btree 3) (castle_version_compare chain_versions)
          e3_stream1 e3_stream2).map (fun e => merge_slot e.k e.v e.cdb)) ∧
    (sort_merge (nat_btree 3) (castle_version_compare chain_versions)
        e3_stream1 e3_stream2).Perm (e3_stream1 ++ e3_stream2) ∧
    (e3_stream1.Chain' (fun a b =>
        entry_compare (nat_btree 3) (castle_version_compare chain_versions) a b ≤ 0) →
      e3_stream2.Chain' (fun a b =>
        entry_compare (nat_btree 3) (castle_version_compare chain_versions) a b ≤ 0) →
      (sort_merge (nat_btree 3) (castle_version_compare chain_versions)
        e3_stream1 e3_stream2).Pairwise (fun a b =>
          entry_compare (nat_btree 3) (castle_version_compare chain_versions) a b ≤ 0))) :=
  ⟨nat_btree_total 3, castle_version_compare_total chain_versions, by decide, by decide,
   merge_leaf_stream_sort_merge (nat_btree 3) (castle_version_compare chain_versions)
     chain_versions 10 4 e3_stream1 e3_stream2 (nat_btree_total 3)
     (castle_version_compare_total chain_versions) (by decide)⟩

/-! ## The ancestor test on a processed forest is a partial order -/

namespace FC

theorem num_inj (f : FC) : ∀ (id x y : Nat), f.WF → x ∈ f.nodes → y ∈ f.nodes →
    (f.num id x).1 = (f.num id y).1 → x = y := by
  induction f with
  | nil => intro id x y _ hx; simp [nodes] at hx
  | node p c s ihc ihs =>
    intro id x y hwf hx hy h
    obtain ⟨w1, w2, w3, w4, w5⟩ := hwf
    have cases3 : ∀ z, z ∈ (node p c s).nodes →
        (z = p) ∨ (z ≠ p ∧ z ∈ c.nodes) ∨ (z ≠ p ∧ z ∉ c.nodes ∧ z ∈ s.nodes) := by
      intro z hz
      rcases mem_nodes_node.1 hz with h | h | h
      · exact Or.inl h
      · exact Or.inr (Or.inl ⟨fun e => w1 (e ▸ h), h⟩)
      · exact Or.inr (Or.inr ⟨fun e => w2 (e ▸ h), fun hc => w3 z hc h, h⟩)
    simp only [num] at h
    rcases cases3 x hx with hxp | ⟨hxp, hxc⟩ | ⟨hxp, hxc, hxs⟩ <;>
    rcases cases3 y hy with hyp | ⟨hyp, hyc⟩ | ⟨hyp, hyc, hys⟩
    · rw [hxp, hyp]
    · simp only [hxp, if_true, hyp, if_false, hyc] at h
      have := num_bounds c (id + 1) y hyc
      omega
    · simp only [hxp, if_true, hyp, if_false, hyc] at h
      have := num_bounds s (id + 1 + c.size) y hys
      omega
    · simp only [hxp, if_false, hxc, if_true, hyp] at h
      have := num_bounds c (id + 1) x hxc
      omega
    · simp only [hxp, if_false, hxc, if_true, hyp, hyc] at h
      exact ihc (id + 1) x y w4 hxc hyc h
    · simp only [hxp, if_false, hxc, if_true, hyp, hyc] at h
      have := num_bounds c (id + 1) x hxc
      have := num_bounds s (id + 1 + c.size) y hys
      omega
    · simp only [hxp, if_false, hxc, hyp, if_true] at h
      have := num_bounds s (id + 1 + c.size) x hxs
      omega
    · simp only [hxp, if_false, hxc, hyp, hyc, if_true] at h
      have := num_bounds c (id + 1) y hyc
      have := num_bounds s (id + 1 + c.size) x hxs
      omega
    · simp only [hxp, if_false, hxc, hyp, hyc] at h
      exact ihs (id + 1 + c.size) x y w5 hxs hys h

end FC

theorem is_ancestor_ok_mem {adds : List AddCall} {root : Nat} {st : Versions} {f : FC}
    (h : Done adds root st f) (hv : valid_forest adds) {A D : Nat} {b : Bool}
    (hr : castle_version_is_ancestor st A D = Res.ok b) : A ∈ ids adds ∧ D ∈ ids adds := by
  constructor
  · by_contra hc
    have := hash_get_none h.frame hv.1 A hc
    unfold castle_version_is_ancestor at hr
    rw [this] at hr
    split at hr <;> simp at *
  · by_contra hc
    have := hash_get_none h.frame hv.1 D hc
    unfold castle_version_is_ancestor at hr
    rw [this] at hr
    split at hr <;> simp at *

/-- The ancestor test by the records of the two versions in the forest. -/
theorem is_ancestor_repr {adds : List AddCall} {root : Nat} {st : Versions} {f : FC}
    (h : Done adds root st f) (hv : valid_forest adds) {A D : Nat}
    (hA : A ∈ ids adds) (hD : D ∈ ids adds) :
    ∃ pa pd, pa < adds.length ∧ pd < adds.length ∧ (st.mem pa).version = A ∧
      (st.mem pd).version = D ∧
      castle_version_is_ancestor st A D = Res.ok (decide (pa ∈ f.ancs pd)) := by
  obtain ⟨pa, -, hal, hav⟩ := h.lookup hv.1 hA
  obtain ⟨pd, -, hdl, hdv⟩ := h.lookup hv.1 hD
  refine ⟨pa, pd, hal, hdl, hav, hdv, ?_⟩
  rw [is_ancestor_of_done h hv hA hD]
  have hi := h.interval hv hal hdl
  rw [hav, hdv] at hi
  rw [(h.orders pa hal).1, (h.orders pa hal).2, (h.orders pd hdl).1] at hi
  rw [FC.interval_iff f 0 pa pd h.wf ((h.nodes_iff pa).2 hal) ((h.nodes_iff pd).2 hdl)] at hi
  congr 1
  exact decide_eq_decide.2 hi.symm

theorem ancs_trans {f : FC} (hwf : f.WF) {a b w : Nat} (ha : a ∈ f.nodes) (hb : b ∈ f.nodes)
    (hw : w ∈ f.nodes) (h1 : a ∈ f.ancs b) (h2 : b ∈ f.ancs w) : a ∈ f.ancs w := by
  have n1 := FC.nest f 0 a b hwf hb h1
  have i2 := (FC.interval_iff f 0 b w hwf hb hw).2 h2
  exact (FC.interval_iff f 0 a w hwf ha hw).1 ⟨by omega, by omega⟩

theorem ancs_antisymm {f : FC} (hwf : f.WF) {a b : Nat} (ha : a ∈ f.nodes) (hb : b ∈ f.nodes)
    (h1 : a ∈ f.ancs b) (h2 : b ∈ f.ancs a) : a = b := by
  have n1 := FC.nest f 0 a b hwf hb h1
  have n2 := FC.nest f 0 b a hwf ha h2
  exact FC.num_inj f 0 a b hwf ha hb (by omega)

theorem is_ancestor_trans {st : Versions} (hp : Processed st) {a b w : Nat}
    (h1 : castle_version_is_ancestor st a b = Res.ok true)
    (h2 : castle_version_is_ancestor st b w = Res.ok true) :
    castle_version_is_ancestor st a w = Res.ok true := by
  obtain ⟨adds, root, f, hv, h⟩ := hp
  obtain ⟨ma, mb⟩ := is_ancestor_ok_mem h hv h1
  obtain ⟨-, mw⟩ := is_ancestor_ok_mem h hv h2
  obtain ⟨pa, pb, la, lb, va, vb, r1⟩ := is_ancestor_repr h hv ma mb
  obtain ⟨pb2, pw, lb2, lw, vb2, vw, r2⟩ := is_ancestor_repr h hv mb mw
  obtain ⟨pa3, pw3, la3, lw3, va3, vw3, r3⟩ := is_ancestor_repr h hv ma mw
  have e1 : pb2 = pb := version_inj h.frame hv.1 lb2 lb (by rw [vb2, vb])
  have e2 : pa3 = pa := version_inj h.frame hv.1 la3 la (by rw [va3, va])
  have e3 : pw3 = pw := version_inj h.frame hv.1 lw3 lw (by rw [vw3, vw])
  subst e1; subst e2; subst e3
  rw [h1] at r1
  rw [h2] at r2
  have t1 : pa3 ∈ f.ancs pb2 := by simpa using (Res.ok.inj r1).symm
  have t2 : pb2 ∈ f.ancs pw3 := by simpa using (Res.ok.inj r2).symm
  rw [r3]
  have := ancs_trans h.wf ((h.nodes_iff _).2 la) ((h.nodes_iff _).2 lb) ((h.nodes_iff _).2 lw) t1 t2
  simp [this]

theorem is_ancestor_antisymm {st : Versions} (hp : Processed st) {a b : Nat}
    (h1 : castle_version_is_ancestor st a b = Res.ok true)
    (h2 : castle_version_is_ancestor st b a = Res.ok true) : a = b := by
  obtain ⟨adds, root, f, hv, h⟩ := hp
  obtain ⟨ma, mb⟩ := is_ancestor_ok_mem h hv h1
  obtain ⟨pa, pb, la, lb, va, vb, r1⟩ := is_ancestor_repr h hv ma mb
  obtain ⟨pb2, pa2, lb2, la2, vb2, va2, r2⟩ := is_ancestor_repr h hv mb ma
  have e1 : pb2 = pb := version_inj h.frame hv.1 lb2 lb (by rw [vb2, vb])
  have e2 : pa2 = pa := version_inj h.frame hv.1 la2 la (by rw [va2, va])
  subst e1; subst e2
  rw [h1] at r1
  rw [h2] at r2
  have t1 : pa2 ∈ f.ancs pb2 := by simpa using (Res.ok.inj r1).symm
  have t2 : pb2 ∈ f.ancs pa2 := by simpa using (Res.ok.inj r2).symm
  have := ancs_antisymm h.wf ((h.nodes_iff _).2 la) ((h.nodes_iff _).2 lb) t1 t2
  rw [← va, ← vb, this]

theorem is_ancestor_of_root {st : Versions} (hp : Processed st) {b : Nat}
    (h1 : castle_version_is_ancestor st b 0 = Res.ok true) : b = 0 := by
  obtain ⟨adds, root, f, hv, h⟩ := hp
  obtain ⟨mb, m0⟩ := is_ancestor_ok_mem h hv h1
  rw [is_ancestor_of_done h hv mb m0, parent_path_zero] at h1
  simpa using (Res.ok.inj h1)

theorem processed_of_run {adds : List AddCall} (hv : valid_forest adds) {fuel : Nat}
    (hfuel : 2 * adds.length + 2 ≤ fuel) {st : Versions}
    (hr : castle_versions_process fuel (add_all adds) = Res.ok st) : Processed st := by
  obtain ⟨root, st1, f, h1, h2⟩ := process_done hv fuel hfuel
  rw [hr] at h1
  cases h1
  exact ⟨adds, root, f, hv, h2⟩

/-! ## Where `castle_da_entry_add` puts the cut -/

/-- One call either leaves `valid_end_idx` or puts it on the slot just added. -/
theorem cut_stays_or_current {btree : castle_btree_type} {st : Versions}
    {level l1 : castle_da_merge_level} {key version : Nat}
    (h : CutCase btree st level l1 key version) :
    l1.valid_end_idx = level.valid_end_idx ∨ l1.valid_end_idx = level.next_idx := by
  rcases h with ⟨c0, c1, -⟩ | ⟨-, lk, -, -, ⟨-, -, c1, -⟩ | ⟨-, -, -, -, c1, -⟩ | ⟨-, -, -, c1, -⟩⟩
  · right; rw [c0, c1]
  · right; exact c1
  · right; exact c1
  · left; exact c1

theorem entry_add_run_cut (btree : castle_btree_type) (st : Versions) :
    ∀ (rest : List kv_entry) (level : castle_da_merge_level) (nb : Nat)
      (l3 : castle_da_merge_level) (nb3 : Nat), WFL level →
      castle_da_entry_add_run btree st rest (level, nb) = Res.ok (l3, nb3) →
      l3.valid_end_idx = level.valid_end_idx ∨
        (level.next_idx = ((node_slots level).length : Int) ∧
          level.next_idx ≤ l3.valid_end_idx) := by
  intro rest
  induction rest with
  | nil =>
    intro level nb l3 nb3 _ h
    rw [castle_da_entry_add_run] at h
    cases h
    exact Or.inl rfl
  | cons e rest ih =>
    intro level nb l3 nb3 hw h
    rw [castle_da_entry_add_run] at h
    dsimp only at h
    cases ha : castle_da_entry_add_level btree st level nb e.k e.v e.cdb with
    | bug => rw [ha] at h; cases h
    | timeout => rw [ha] at h; cases h
    | ok s1 =>
      obtain ⟨l1, nb1⟩ := s1
      rw [ha] at h
      dsimp only at h
      obtain ⟨b1, b2, b3, b4, b5, b6, b7⟩ :=
        entry_add_level_spec btree st level nb e.k e.v e.cdb l1 nb1 hw ha
      have hc := cut_stays_or_current b7
      rcases ih l1 nb1 l3 nb3 b1 h with h3 | ⟨h3, h4⟩
      · rcases hc with hc | hc
        · left; rw [h3, hc]
        · right; exact ⟨b5, by rw [h3, hc]⟩
      · right
        refine ⟨b5, ?_⟩
        rw [b2, List.length_append, List.length_singleton] at h3
        push_cast at h3
        omega

/-- C10, amended: in a processed version forest let `a` be an ancestor of `b`,
`a ≠ b`, and let `(K,a)`, `(K,b)` be added one after the other to the node a
well-formed level is filling, at any position.  Then `(K,b)` sits right behind
`(K,a)`, adding `(K,b)` leaves `valid_end_idx` where it was after `(K,a)`, which
is on the slot of `(K,a)` or before it, and whatever entries follow in this
node, `valid_end_idx` never falls on the slot of `(K,b)`. -/
theorem cut_not_on_descendant_slot (adds : List AddCall) (hv : valid_forest adds)
    (fuel : Nat) (hfuel : 2 * adds.length + 2 ≤ fuel) (st : Versions)
    (hr : castle_versions_process fuel (add_all adds) = Res.ok st)
    (btree : castle_btree_type) (hk : is_total_order_cmp btree.key_compare)
    (level : castle_da_merge_level) (hw : WFL level) (nb K a b : Nat) (cdb1 cdb2 : c_disk_blk_t)
    (hab : castle_version_is_ancestor st a b = Res.ok true) (hne : a ≠ b)
    (l1 l2 : castle_da_merge_level) (nb1 nb2 : Nat)
    (h1 : castle_da_entry_add_level btree st level nb K a cdb1 = Res.ok (l1, nb1))
    (h2 : castle_da_entry_add_level btree st l1 nb1 K b cdb2 = Res.ok (l2, nb2))
    (rest : List kv_entry) (l3 : castle_da_merge_level) (nb3 : Nat)
    (h3 : castle_da_entry_add_run btree st rest (l2, nb2) = Res.ok (l3, nb3)) :
    level.next_idx = ((node_slots level).length : Int) ∧
    node_slots l2 = node_slots level ++ [merge_slot K a cdb1, merge_slot K b cdb2] ∧
    l2.valid_end_idx = l1.valid_end_idx ∧ l1.valid_end_idx ≤ level.next_idx ∧
    l3.valid_end_idx ≠ level.next_idx + 1 := by
  have hp := processed_of_run hv hfuel hr
  obtain ⟨a1, a2, a3, a4, a5, a6, a7⟩ :=
    entry_add_level_spec btree st level nb K a cdb1 l1 nb1 hw h1
  obtain ⟨b1, b2, b3, b4, b5, b6, b7⟩ :=
    entry_add_level_spec btree st l1 nb1 K b cdb2 l2 nb2 a1 h2
  have hlen1 : l1.next_idx = level.next_idx + 1 := by
    rw [b5, a2, a5, List.length_append, List.length_singleton]
    push_cast; rfl
  have hpos : 0 ≤ level.next_idx := by rw [a5]; omega
  -- after `(K,a)` the last key compares equal to `K`
  have hkey : ∃ lk, l1.last_key = some lk ∧ btree.key_compare K lk = 0 := by
    rcases a7 with ⟨-, -, c2, -⟩ | ⟨-, lk, c1, -, ⟨-, c2, -⟩ | ⟨c0, -, -, c2, -⟩ | ⟨c0, -, c2, -⟩⟩
    · exact ⟨K, c2, cmp_refl hk K⟩
    · exact ⟨K, c2, cmp_refl hk K⟩
    · exact ⟨lk, by rw [c2, c1], c0⟩
    · exact ⟨lk, by rw [c2, c1], c0⟩
  -- `b` is not an ancestor of the version the cut stands for
  have hnot : castle_version_is_ancestor st b l1.valid_version ≠ Res.ok true := by
    intro hb
    rcases a7 with ⟨-, -, -, c3⟩ | ⟨-, lk, -, -, ⟨-, -, -, c3⟩ | ⟨-, -, -, -, -, c3⟩ | ⟨-, c0, -, -, c3⟩⟩
    · rw [c3] at hb
      exact hne (is_ancestor_antisymm hp hab hb)
    · rw [c3] at hb
      have hb0 := is_ancestor_of_root hp hb
      rw [hb0] at hab
      have ha0 := is_ancestor_of_root hp hab
      exact hne (by rw [ha0, hb0])
    · rw [c3] at hb
      exact hne (is_ancestor_antisymm hp hab hb)
    · rw [c3] at hb
      have := is_ancestor_trans hp hab hb
      rw [c0] at this
      cases this
  have hsame : l2.valid_end_idx = l1.valid_end_idx := by
    obtain ⟨lk, hlk, hz⟩ := hkey
    rcases b7 with ⟨c0, -⟩ | ⟨-, lk2, c1, -, ⟨c2, -⟩ | ⟨-, c2, -⟩ | ⟨-, -, -, c2, -⟩⟩
    · omega
    · rw [hlk] at c1
      cases c1
      omega
    · exact absurd c2 hnot
    · exact c2
  have hle : l1.valid_end_idx ≤ level.next_idx := by
    rcases cut_stays_or_current a7 with hc | hc
    · rw [hc]
      by_cases hn : level.node_c2b = none
      · have := (hw.none_case hn).2
        omega
      · have := (hw.some_case hn).2.2
        omega
    · omega
  refine ⟨a5, by rw [b2, a2]; simp, hsame, hle, ?_⟩
  rcases entry_add_run_cut btree st rest l2 nb2 l3 nb3 b1 h3 with h4 | ⟨h4, h5⟩
  · omega
  · rw [b2, a2] at h4
    simp only [List.length_append, List.length_singleton] at h4
    push_cast at h4
    omega

/-- The run behind `versions_of` returns, and `versions_of` is its result. -/
theorem versions_of_run (l : List (Nat × Nat))
    (hv : valid_forest (l.map (fun a => (a.1, a.2, ((0, 0) : c_disk_blk_t), 0)))) :
    castle_versions_process (2 * l.length + 2)
      (add_all (l.map (fun a => (a.1, a.2, ((0, 0) : c_disk_blk_t), 0)))) =
      Res.ok (versions_of l) := by
  obtain ⟨root, st1, f, h1, -⟩ :=
    process_done hv (2 * l.length + 2) (by rw [List.length_map])
  rw [h1]
  simp only [versions_of, h1]

/-- C10 as stated fails.  In the forest 0 -> 1 -> 2, 0 -> 3 version 1 is an
ancestor of 2 and 3 is unrelated to both.  With nodes of four slots the entries
`(4,1), (5,1), (5,2), (5,3)` fill one node; when it is full (`next_idx = -1`)
`valid_end_idx` is 1, the slot of `(5,1)`, with `(5,2)` and `(5,3)` behind it in
the same node, and the merge writes the leaf nodes `[(4,1),(5,1)]`, `[(5,2)]`
and `[(5,3)]`.  With `(5,1)` as the first slot of a node of three slots the cut
is on it as well. -/
theorem cut_on_ancestor_slot_counterexample :
    castle_version_is_ancestor e5_versions 1 2 = Res.ok true ∧
    castle_version_is_ancestor e5_versions 3 1 = Res.ok false ∧
    castle_version_is_ancestor e5_versions 1 3 = Res.ok false ∧
    castle_version_is_ancestor e5_versions 3 2 = Res.ok false ∧
    castle_version_is_ancestor e5_versions 2 3 = Res.ok false ∧
    (castle_da_entry_add_run (nat_btree 4) e5_versions e5_stream (init_level, 1)).map cut_view =
      Res.ok (1, -1, [(4, 1), (5, 1), (5, 2), (5, 3)]) ∧
    (castle_da_merge (nat_btree 4) (castle_version_compare e5_versions) e5_versions 10 4
        e5_stream []).map leaf_nodes =
      Res.ok [(0, [(4, 1), (5, 1)]), (2, [(5, 2)]), (3, [(5, 3)])] ∧
    (castle_da_entry_add_run (nat_btree 3) e5_versions e5_stream.tail (init_level, 1)).map
        cut_view =
      Res.ok (0, -1, [(5, 1), (5, 2), (5, 3)]) := by
  refine ⟨by decide, by decide, by decide, by decide, by decide, by decide, by decide, by decide⟩

/-- The forest of example E5, `(5,1)` and `(5,2)` added to a fresh node of four
slots and `(5,3)` behind them: the cut is on the slot of `(5,1)` throughout. -/
theorem cut_not_on_descendant_slot_witness :
    valid_forest e5_adds ∧
    castle_versions_process 10 (add_all e5_adds) = Res.ok e5_versions ∧
    castle_version_is_ancestor e5_versions 1 2 = Res.ok true ∧
    castle_da_entry_add_level (nat_btree 4) e5_versions init_level 1 5 1 (7, 1) =
      Res.ok (e5_level [merge_slot 5 1 (7, 1)], 2) ∧
    castle_da_entry_add_level (nat_btree 4) e5_versions (e5_level [merge_slot 5 1 (7, 1)]) 2
        5 2 (7, 2) =
      Res.ok (e5_level [merge_slot 5 1 (7, 1), merge_slot 5 2 (7, 2)], 2) ∧
    castle_da_entry_add_run (nat_btree 4) e5_versions [{ k := 5, v := 3, cdb := (7, 3) }]
        (e5_level [merge_slot 5 1 (7, 1), merge_slot 5 2 (7, 2)], 2) =
      Res.ok (e5_level [merge_slot 5 1 (7, 1), merge_slot 5 2 (7, 2), merge_slot 5 3 (7, 3)],
        2) ∧
    (init_level.next_idx = ((node_slots init_level).length : Int) ∧
     node_slots (e5_level [merge_slot 5 1 (7, 1), merge_slot 5 2 (7, 2)]) =
       node_slots init_level ++ [merge_slot 5 1 (7, 1), merge_slot 5 2 (7, 2)] ∧
     (e5_level [merge_slot 5 1 (7, 1), merge_slot 5 2 (7, 2)]).valid_end_idx =
       (e5_level [merge_slot 5 1 (7, 1)]).valid_end_idx ∧
     (e5_level [merge_slot 5 1 (7, 1)]).valid_end_idx ≤ init_level.next_idx ∧
     (e5_level [merge_slot 5 1 (7, 1), merge_slot 5 2 (7, 2),
       merge_slot 5 3 (7, 3)]).valid_end_idx ≠ init_level.next_idx + 1) :=
  ⟨by decide, versions_of_run e5_edges (by decide), by decide, by decide, by decide, by decide,
   cut_not_on_descendant_slot e5_adds (by decide) 10 (by decide) e5_versions
     (versions_of_run e5_edges (by decide)) (nat_btree 4) (nat_btree_total 4) init_level
     ⟨fun _ => ⟨rfl, rfl⟩, fun h => absurd rfl h⟩ 1 5 1 2 (7, 1) (7, 2) (by decide) (by decide)
     (e5_level [merge_slot 5 1 (7, 1)]) (e5_level [merge_slot 5 1 (7, 1), merge_slot 5 2 (7, 2)])
     2 2 (by decide) (by decide) [{ k := 5, v := 3, cdb := (7, 3) }]
     (e5_level [merge_slot 5 1 (7, 1), merge_slot 5 2 (7, 2), merge_slot 5 3 (7, 3)]) 2
     (by decide)⟩

/-! ## Versions of the forest and their order numbers -/

theorem version_compare_eq (st : Versions) (a b : Nat) :
    castle_version_compare st a b = ord st a - ord st b := rfl

theorem root_mem_ancs {adds : List AddCall} {root : Nat} {st : Versions} {f : FC}
    (h : Done adds root st f) {d : Nat} (hd : d ∈ f.nodes) : root ∈ f.ancs d := by
  obtain ⟨c, hc⟩ := h.shape
  subst hc
  simp only [FC.ancs]
  by_cases h1 : d = root
  · simp [h1]
  · rw [if_neg h1]
    rcases FC.mem_nodes_node.1 hd with h2 | h2 | h2
    · exact absurd h2 h1
    · rw [if_pos h2]; simp
    · simp [FC.nodes] at h2

/-- Version 0 is an ancestor of every version that was added. -/
theorem in_forest_of_mem {adds : List AddCall} {root : Nat} {st : Versions} {f : FC}
    (h : Done adds root st f) (hv : valid_forest adds) {v : Nat} (hm : v ∈ ids adds) :
    InForest st v := by
  obtain ⟨pa, pd, la, ld, va, vd, hr⟩ := is_ancestor_repr h hv hv.2.1 hm
  have e : pa = root := version_inj h.frame hv.1 la h.root_lt (by rw [va, h.root_ver])
  subst e
  rw [InForest, hr]
  have := root_mem_ancs h ((h.nodes_iff pd).2 ld)
  simp [this]

theorem in_forest_of_ok {st : Versions} (hp : Processed st) {a b : Nat} {x : Bool}
    (h1 : castle_version_is_ancestor st a b = Res.ok x) : InForest st a ∧ InForest st b := by
  obtain ⟨adds, root, f, hv, h⟩ := hp
  obtain ⟨ma, mb⟩ := is_ancestor_ok_mem h hv h1
  exact ⟨in_forest_of_mem h hv ma, in_forest_of_mem h hv mb⟩

/-- The ancestor test between two versions of the forest returns. -/
theorem is_ancestor_total {st : Versions} (hp : Processed st) {a b : Nat}
    (ha : InForest st a) (hb : InForest st b) :
    ∃ x, castle_version_is_ancestor st a b = Res.ok x := by
  obtain ⟨adds, root, f, hv, h⟩ := hp
  obtain ⟨-, ma⟩ := is_ancestor_ok_mem h hv ha
  obtain ⟨-, mb⟩ := is_ancestor_ok_mem h hv hb
  exact ⟨_, is_ancestor_of_done h hv ma mb⟩

theorem is_ancestor_self {st : Versions} (hp : Processed st) {a : Nat}
    (ha : InForest st a) : castle_version_is_ancestor st a a = Res.ok true := by
  obtain ⟨adds, root, f, hv, h⟩ := hp
  obtain ⟨-, ma⟩ := is_ancestor_ok_mem h hv ha
  obtain ⟨p, hg, hl, hpv⟩ := h.lookup hv.1 ma
  rw [is_ancestor_of_done h hv ma ma]
  have hb := h.order_bounds hl
  have := (h.interval hv hl hl).1 ⟨le_refl _, hb.2.1⟩
  rw [hpv] at this
  simp [this]

/-- If `w` is an ancestor of `u`, it is an ancestor of every version of the
forest whose `o_order` lies between those of `w` and `u`. -/
theorem is_ancestor_between {st : Versions} (hp : Processed st) {w u s : Nat}
    (h1 : castle_version_is_ancestor st w u = Res.ok true) (hs : InForest st s)
    (h2 : ord st w ≤ ord st s) (h3 : ord st s ≤ ord st u) :
    castle_version_is_ancestor st w s = Res.ok true := by
  obtain ⟨adds, root, f, hv, h⟩ := hp
  obtain ⟨mw, mu⟩ := is_ancestor_ok_mem h hv h1
  obtain ⟨-, ms⟩ := is_ancestor_ok_mem h hv hs
  obtain ⟨pw, gw, lw, vw⟩ := h.lookup hv.1 mw
  obtain ⟨pu, gu, lu, vu⟩ := h.lookup hv.1 mu
  obtain ⟨ps, gs, ls, vs⟩ := h.lookup hv.1 ms
  have ew : ord st w = ((st.mem pw).o_order : Int) := by simp [ord, o_order_of, gw]
  have eu : ord st u = ((st.mem pu).o_order : Int) := by simp [ord, o_order_of, gu]
  have es : ord st s = ((st.mem ps).o_order : Int) := by simp [ord, o_order_of, gs]
  rw [ew, es] at h2
  rw [es, eu] at h3
  rw [is_ancestor_of_done h hv mw mu] at h1
  have hm : w ∈ parent_path adds adds.length u := by simpa using (Res.ok.inj h1)
  have hi := h.interval hv lw lu
  rw [vw, vu] at hi
  have hwu := hi.2 hm
  have hi2 := h.interval hv lw ls
  rw [vw, vs] at hi2
  have := hi2.1 ⟨by omega, by omega⟩
  rw [is_ancestor_of_done h hv mw ms]
  simp [this]

/-- An ancestor has the smaller `o_order`. -/
theorem ord_le_of_ancestor {st : Versions} (hp : Processed st) {w u : Nat}
    (h1 : castle_version_is_ancestor st w u = Res.ok true) : ord st w ≤ ord st u := by
  obtain ⟨adds, root, f, hv, h⟩ := hp
  obtain ⟨mw, mu⟩ := is_ancestor_ok_mem h hv h1
  obtain ⟨pw, gw, lw, vw⟩ := h.lookup hv.1 mw
  obtain ⟨pu, gu, lu, vu⟩ := h.lookup hv.1 mu
  have ew : ord st w = ((st.mem pw).o_order : Int) := by simp [ord, o_order_of, gw]
  have eu : ord st u = ((st.mem pu).o_order : Int) := by simp [ord, o_order_of, gu]
  rw [is_ancestor_of_done h hv mw mu] at h1
  have hm : w ∈ parent_path adds adds.length u := by simpa using (Res.ok.inj h1)
  have hi := h.interval hv lw lu
  rw [vw, vu] at hi
  have hwu := hi.2 hm
  rw [ew, eu]
  omega

/-! ## Key comparisons -/

theorem cmp_flip {α : Type} {c : α → α → Int} (h : is_total_order_cmp c) (a b : α) :
    0 ≤ c a b ↔ c b a ≤ 0 := by
  have h1 := h.1 a b
  constructor
  · intro h2
    by_contra h3
    have := h1.2 (by omega)
    omega
  · intro h2
    by_contra h3
    have := h1.1 (by omega)
    omega

/-- If `b` is not below `a` and `d` is not below `b`, then `d` is not below `a`. -/
theorem cmp_ge_trans {α : Type} {c : α → α → Int} (h : is_total_order_cmp c) {a b d : α}
    (h1 : 0 ≤ c b a) (h2 : 0 ≤ c d b) : 0 ≤ c d a :=
  (cmp_flip h d a).2 (h.2 a b d ((cmp_flip h b a).1 h1) ((cmp_flip h d b).1 h2))

theorem cmp_gt_of_gt_ge {α : Type} {c : α → α → Int} (h : is_total_order_cmp c) {a b d : α}
    (h1 : 0 ≤ c b a) (h2 : 0 < c d b) : 0 < c d a := by
  by_contra h3
  have h4 : c d a ≤ 0 := by omega
  have h5 := h.2 d a b h4 ((cmp_flip h b a).1 h1)
  omega

theorem cmp_gt_of_ge_gt {α : Type} {c : α → α → Int} (h : is_total_order_cmp c) {a b d : α}
    (h1 : 0 < c b a) (h2 : 0 ≤ c d b) : 0 < c d a := by
  by_contra h3
  have h4 : c d a ≤ 0 := by omega
  have h5 := h.2 b d a ((cmp_flip h d b).1 h2) h4
  omega

theorem cmp_eq_of_eq {α : Type} {c : α → α → Int} (h : is_total_order_cmp c) {a b l : α}
    (h1 : c a l = 0) (h2 : c b l = 0) : c a b = 0 := by
  have s1 := cmp_zero_symm h h1
  have s2 := cmp_zero_symm h h2
  have g1 : 0 ≤ c a b := cmp_ge_trans h (by omega : 0 ≤ c l b) (by omega : 0 ≤ c a l)
  have g2 : 0 ≤ c b a := cmp_ge_trans h (by omega : 0 ≤ c l a) (by omega : 0 ≤ c b l)
  have := (cmp_flip h b a).1 g2
  omega

theorem chain_part {α : Type} {R : α → α → Prop} {l m : List α} (h : l.Chain' R)
    (a b : List α) (e : a ++ m ++ b = l) : m.Chain' R := by
  subst e
  exact (List.chain'_append.1 (List.chain'_append.1 h).1).2.1

/-! ## The order of the entries a level receives -/

theorem follows_keys {btree : castle_btree_type} {st : Versions}
    (hk : is_total_order_cmp btree.key_compare) :
    ∀ (l : List btree_slot) (x : btree_slot), (x :: l).Chain' (Follows btree st) →
      ∀ s ∈ l, 0 ≤ btree.key_compare s.key x.key := by
  intro l
  induction l with
  | nil => intro x _ s hs; cases hs
  | cons m rest ih =>
    intro x hc s hs
    rw [List.chain'_cons] at hc
    rcases List.mem_cons.1 hs with rfl | h1
    · exact hc.1.1
    · exact cmp_ge_trans hk hc.1.1 (ih m hc.2 s h1)

/-- Along entries of one key, none of them with version 0, the `o_order` of the
versions does not grow. -/
theorem follows_desc {btree : castle_btree_type} {st : Versions}
    (hk : is_total_order_cmp btree.key_compare) :
    ∀ (mid : List btree_slot) (x y : btree_slot),
      (x :: (mid ++ [y])).Chain' (Follows btree st) →
      (∀ s ∈ x :: mid, s.version ≠ 0) → btree.key_compare y.key x.key = 0 →
      ord st y.version ≤ ord st x.version := by
  intro mid
  induction mid with
  | nil =>
    intro x y hc hz hxy
    simp only [List.nil_append, List.chain'_cons, List.chain'_singleton, and_true] at hc
    rcases hc.2 hxy with h1 | h1
    · exact h1
    · exact absurd h1 (hz x (List.mem_cons_self _ _))
  | cons m rest ih =>
    intro x y hc hz hxy
    rw [List.cons_append, List.chain'_cons] at hc
    have hym : 0 ≤ btree.key_compare y.key m.key :=
      follows_keys hk (rest ++ [y]) m hc.2 y (by simp)
    have hmx := hc.1.1
    have e1 : btree.key_compare m.key x.key = 0 := by
      by_contra hne
      have := cmp_gt_of_ge_gt hk (by omega : 0 < btree.key_compare m.key x.key) hym
      omega
    have e2 : btree.key_compare y.key m.key = 0 := by
      by_contra hne
      have := cmp_gt_of_gt_ge hk hmx (by omega : 0 < btree.key_compare y.key m.key)
      omega
    have h1 : ord st m.version ≤ ord st x.version := by
      rcases hc.1.2 e1 with h1 | h1
      · exact h1
      · exact absurd h1 (hz x (List.mem_cons_self _ _))
    have h2 := ih m y hc.2 (fun s hs => hz s (List.mem_cons_of_mem _ hs)) e2
    omega

/-! ## The cut of the node a level is filling -/

theorem node_slots_of_none {level : castle_da_merge_level} (h : level.node_c2b = none) :
    node_slots level = [] := by
  simp [node_slots, h]

/-- One call of `castle_da_entry_add` keeps the cut of the node in order, when
the new entry may follow the last one of the node. -/
theorem cut_step {btree : castle_btree_type} {st : Versions} (hp : Processed st)
    (hk : is_total_order_cmp btree.key_compare)
    (level : castle_da_merge_level) (nb key version : Nat) (cdb : c_disk_blk_t)
    (l1 : castle_da_merge_level) (nb1 : Nat) (hw : WFL level)
    (h : castle_da_entry_add_level btree st level nb key version cdb = Res.ok (l1, nb1))
    (hg : LGood btree st level)
    (hch : (node_slots level ++ [merge_slot key version cdb]).Chain' (Follows btree st))
    (hin : ∀ s ∈ node_slots level, InForest st s.version) (hnew : InForest st version) :
    LGood btree st l1 := by
  intro _
  obtain ⟨a1, a2, a3, a4, a5, a6, a7⟩ :=
    entry_add_level_spec btree st level nb key version cdb l1 nb1 hw h
  have hroot : InForest st 0 := (in_forest_of_ok hp hnew).1
  rcases a7 with ⟨c0, c1, c2, c3⟩ | ⟨c0, lk, c1, c2, hcase⟩
  · -- Case 1: the first slot of the node
    have hnil : node_slots level = [] := by
      rw [c0] at a5
      exact List.length_eq_zero.1 (by omega)
    refine ⟨[], merge_slot key version cdb, [], key, ?_⟩
    refine ⟨by rw [a2, hnil, List.nil_append], by rw [c1]; rfl, c2, by rw [c3]; exact hnew, ?_, ?_, ?_,
      Or.inl (by rw [c3]; rfl), ?_, ?_⟩
    · intro s hs
      simp only [List.nil_append, List.mem_singleton] at hs
      subst hs
      rw [c3]
      exact is_ancestor_self hp hnew
    · intro s hs
      simp only [List.mem_singleton] at hs
      subst hs
      exact cmp_refl hk key
    · intro s hs; cases hs
    · intro s hs; cases hs
    · intro s hs; cases hs
  · have hne : level.node_c2b ≠ none := by
      intro hn
      have := node_slots_of_none hn
      rw [this] at a5
      simp at a5
      exact c0 a5
    obtain ⟨pre, sc, post, lk0, C⟩ := hg hne
    have hlk : lk0 = lk := by
      have := C.key
      rw [c1] at this
      exact (Option.some.inj this).symm
    subst hlk
    have hsc : btree.key_compare sc.key lk0 = 0 := C.same sc (List.mem_cons_self _ _)
    have hlen : level.next_idx = ((pre ++ sc :: post).length : Int) := by rw [a5, C.slots]
    rcases hcase with ⟨d0, d1, d2, d3⟩ | ⟨d0, d1, d2, d3, d4, d5⟩ | ⟨d0, d1, d2, d3, d4⟩
    · -- Case 2: a new key
      have hall : ∀ s ∈ pre ++ sc :: post, 0 < btree.key_compare key s.key := by
        intro s hs
        rcases List.mem_append.1 hs with h1 | h1
        · have g1 := C.keys_before s h1
          have g2 : 0 ≤ btree.key_compare lk0 sc.key := by
            have := cmp_zero_symm hk hsc; omega
          exact cmp_gt_of_gt_ge hk (cmp_ge_trans hk g1 g2) d0
        · have g1 := cmp_zero_symm hk (C.same s h1)
          exact cmp_gt_of_gt_ge hk (by omega : 0 ≤ btree.key_compare lk0 s.key) d0
      refine ⟨pre ++ sc :: post, merge_slot key version cdb, [], key, ?_⟩
      refine ⟨by rw [a2, C.slots], by rw [d2, hlen], d1, by rw [d3]; exact hroot, ?_, ?_, ?_,
        Or.inr ⟨d3, ?_⟩, fun s hs _ => hall s hs, fun s hs => le_of_lt (hall s hs)⟩
      · intro s hs
        rw [d3]
        rcases List.mem_append.1 hs with h1 | h1
        · exact hin s (by rw [C.slots]; exact h1)
        · simp only [List.mem_singleton] at h1
          subst h1
          exact hnew
      · intro s hs
        simp only [List.mem_singleton] at hs
        subst hs
        exact cmp_refl hk key
      · intro s hs; cases hs
      · obtain ⟨sp, hsp⟩ : ∃ sp, (pre ++ sc :: post).getLast? = some sp := by
          cases hx : (pre ++ sc :: post).getLast? with
          | none => simp at hx
          | some sp => exact ⟨sp, rfl⟩
        exact ⟨sp, hsp, hall sp (List.mem_of_getLast?_eq_some hsp)⟩
    · -- Case 3: a strict ancestor of `valid_version`
      have hvv0 : level.valid_version ≠ 0 := by
        intro hz
        rw [hz] at d1
        exact d2 ((is_ancestor_of_root hp d1).trans hz.symm)
      have hst : level.valid_version = sc.version := by
        rcases C.stamp with h1 | ⟨h1, -⟩
        · exact h1
        · exact absurd h1 hvv0
      have hkeysc : 0 ≤ btree.key_compare key sc.key := by
        have := cmp_eq_of_eq hk d0 hsc
        omega
      refine ⟨pre ++ sc :: post, merge_slot key version cdb, [], lk0, ?_⟩
      refine ⟨by rw [a2, C.slots], by rw [d4, hlen], by rw [d3, c1],
        by rw [d5]; exact hnew, ?_, ?_, ?_, Or.inl (by rw [d5]; rfl), ?_, ?_⟩
      · intro s hs
        rw [d5]
        rcases List.mem_append.1 hs with h1 | h1
        · rcases List.mem_append.1 h1 with h2 | h2
          · exact is_ancestor_trans hp d1 (C.kept s (List.mem_append_left _ h2))
          · rcases List.mem_cons.1 h2 with h3 | h3
            · subst h3
              exact is_ancestor_trans hp d1 (C.kept s (by simp))
            · obtain ⟨p1, p2, hsplit⟩ := List.append_of_mem h3
              have hsin : InForest st s.version :=
                hin s (by rw [C.slots]; exact List.mem_append_right _ h2)
              have hks : btree.key_compare s.key lk0 = 0 :=
                C.same s (List.mem_cons_of_mem _ h3)
              -- the new entry is not above `s`
              have lo : ord st version ≤ ord st s.version := by
                have hc1 : (s :: (p2 ++ [merge_slot key version cdb])).Chain'
                    (Follows btree st) := by
                  refine chain_part hch (pre ++ sc :: p1) [] ?_
                  rw [C.slots, hsplit]
                  simp
                have := follows_desc hk p2 s (merge_slot key version cdb) hc1
                  (fun t ht => C.nonzero t (by rw [hsplit]; simp; simpa using Or.inr ht))
                  (cmp_eq_of_eq hk d0 hks)
                exact this
              -- `s` is not above the slot at the cut
              have hi : ord st s.version ≤ ord st level.valid_version := by
                have hc2 : (sc :: (p1 ++ [s])).Chain' (Follows btree st) := by
                  refine chain_part hch pre (p2 ++ [merge_slot key version cdb]) ?_
                  rw [C.slots, hsplit]
                  simp
                have := follows_desc hk p1 sc s hc2
                  (fun t ht => by
                    rcases List.mem_cons.1 ht with h5 | h5
                    · subst h5; rw [← hst]; exact hvv0
                    · exact C.nonzero t (by rw [hsplit]; simp [h5]))
                  (cmp_eq_of_eq hk hks hsc)
                rw [hst]
                exact this
              exact is_ancestor_between hp d1 hsin lo hi
        · simp only [List.mem_singleton] at h1
          subst h1
          exact is_ancestor_self hp hnew
      · intro s hs
        simp only [List.mem_singleton] at hs
        subst hs
        exact d0
      · intro s hs; cases hs
      · intro s hs hz
        rcases List.mem_append.1 hs with h1 | h1
        · exact cmp_gt_of_ge_gt hk (C.zero_before s h1 hz) hkeysc
        · rcases List.mem_cons.1 h1 with h2 | h2
          · subst h2
            rw [hst] at hvv0
            exact absurd hz hvv0
          · exact absurd hz (C.nonzero s h2)
      · intro s hs
        rcases List.mem_append.1 hs with h1 | h1
        · exact cmp_ge_trans hk (C.keys_before s h1) hkeysc
        · have := cmp_eq_of_eq hk d0 (C.same s h1)
          show 0 ≤ btree.key_compare key s.key
          omega
    · -- no new cut
      refine ⟨pre, sc, post ++ [merge_slot key version cdb], lk0, ?_⟩
      refine ⟨by rw [a2, C.slots]; simp, by rw [d3, C.idx], by rw [d2, c1],
        by rw [d4]; exact C.vv_in, ?_, ?_, ?_, ?_, C.zero_before, C.keys_before⟩
      · intro s hs
        rw [d4]
        exact C.kept s hs
      · intro s hs
        rcases List.mem_cons.1 hs with h1 | h1
        · subst h1; exact hsc
        · rcases List.mem_append.1 h1 with h2 | h2
          · exact C.same s (List.mem_cons_of_mem _ h2)
          · simp only [List.mem_singleton] at h2
            subst h2
            exact d0
      · intro s hs
        rcases List.mem_append.1 hs with h2 | h2
        · exact C.nonzero s h2
        · simp only [List.mem_singleton] at h2
          subst h2
          intro hz
          have hz2 : version = 0 := hz
          have := C.vv_in
          rw [InForest, ← hz2, d1] at this
          cases this
      · rw [d4]
        exact C.stamp

/-! ## The nodes completed so far -/

theorem written_slots_nodes (merge : struct_castle_da_merge) (d : Nat) :
    written_slots merge d = (nodes_at merge d).flatMap (fun N => N.slots) := by
  simp only [written_slots, nodes_at, List.flatMap_map]

theorem nodes_at_append (merge merge1 : struct_castle_da_merge) (d e : Nat) (blk : c_disk_blk_t)
    (node : castle_btree_node) (hw : merge1.written = merge.written ++ [(e, blk, node)]) :
    nodes_at merge1 d = nodes_at merge d ++ (if e = d then [node] else []) := by
  by_cases h : e = d
  · subst h
    simp [nodes_at, hw, List.filter_append]
  · have : (e == d) = false := by simpa using h
    simp [nodes_at, hw, List.filter_append, this, h]

theorem nodes_at_mem {merge : struct_castle_da_merge} {d : Nat} {N : castle_btree_node}
    (h : N ∈ nodes_at merge d) : ∃ w ∈ merge.written, w.2.2 = N := by
  simp only [nodes_at, List.mem_map, List.mem_filter] at h
  obtain ⟨w, ⟨h1, -⟩, h2⟩ := h
  exact ⟨w, h1, h2⟩

theorem content_of_level {merge : struct_castle_da_merge} {d : Nat}
    {level : castle_da_merge_level} (h : merge.levels[d]? = some level) :
    content merge d = written_slots merge d ++ (node_slots level ++ level.buffer.slots) := by
  simp only [content, h]

/-- The last slot of the last node completed at a depth and the entries that
follow it at this depth. -/
theorem last_node_chain {btree : castle_btree_type} {st : Versions}
    {merge : struct_castle_da_merge} {d : Nat} {level : castle_da_merge_level}
    (hg : Good btree st merge) (hl : merge.levels[d]? = some level)
    {N : castle_btree_node} {l : btree_slot}
    (hN : (nodes_at merge d).getLast? = some N) (hlast : N.slots.getLast? = some l) :
    (l :: (node_slots level ++ level.buffer.slots)).Chain' (Follows btree st) := by
  obtain ⟨Ns, hNs⟩ := List.getLast?_eq_some_iff.1 hN
  obtain ⟨npre, hnpre⟩ := List.getLast?_eq_some_iff.1 hlast
  have hc := hg.chain d
  rw [content_of_level hl, written_slots_nodes, hNs, List.flatMap_append] at hc
  simp only [List.flatMap_cons, List.flatMap_nil, List.append_nil, hnpre] at hc
  refine chain_part hc (Ns.flatMap (fun N => N.slots) ++ npre) [] ?_
  simp

theorem LGood_of_none {btree : castle_btree_type} {st : Versions}
    {level : castle_da_merge_level} (h : level.node_c2b = none) : LGood btree st level :=
  fun hn => absurd h hn

/-- The pointer to a node being completed may follow the pointer to the node
completed before it at the same depth. -/
theorem pointer_follows {btree : castle_btree_type} {st : Versions}
    (hk : is_total_order_cmp btree.key_compare)
    {l : btree_slot} {pre post : List btree_slot} {sc : btree_slot} {v vv : Nat}
    (hc : (l :: (pre ++ sc :: post)).Chain' (Follows btree st))
    (hv : v = l.version ∨ v = 0)
    (hstamp : vv = sc.version ∨
      (vv = 0 ∧ ∃ sp, pre.getLast? = some sp ∧ 0 < btree.key_compare sc.key sp.key))
    (hzero : ∀ s ∈ pre, s.version = 0 → 0 < btree.key_compare sc.key s.key) :
    0 ≤ btree.key_compare sc.key l.key ∧
    (btree.key_compare sc.key l.key = 0 → ord st vv ≤ ord st v ∨ v = 0) := by
  have hkeys := follows_keys hk (pre ++ sc :: post) l hc
  have h0 := hkeys sc (by simp)
  refine ⟨h0, fun heq => ?_⟩
  by_cases hv0 : v = 0
  · exact Or.inr hv0
  · left
    have hvl : v = l.version := by
      rcases hv with h1 | h1
      · exact h1
      · exact absurd h1 hv0
    have hpre : ∀ s ∈ pre, s.version ≠ 0 := by
      intro s hs hz
      have g1 := hzero s hs hz
      have g2 := hkeys s (by simp [hs])
      have := cmp_gt_of_gt_ge hk g2 g1
      omega
    have hst : vv = sc.version := by
      rcases hstamp with h1 | ⟨-, sp, h2, h3⟩
      · exact h1
      · have g2 := hkeys sp (by simp [List.mem_of_getLast?_eq_some h2])
        have := cmp_gt_of_gt_ge hk g2 h3
        omega
    have hc2 : (l :: (pre ++ [sc])).Chain' (Follows btree st) := by
      refine chain_part hc [] post ?_
      simp
    have := follows_desc hk pre l sc hc2 (fun t ht => by
      rcases List.mem_cons.1 ht with h5 | h5
      · subst h5; rw [← hvl]; exact hv0
      · exact hpre t h5) heq
    rw [hst, hvl]
    exact this

/-- One call of `castle_da_node_complete` keeps the state in order: the node it
completes is stamped with an ancestor of all its slots, and the pointer to it
may follow the pointers already one level up. -/
theorem good_node_complete {btree : castle_btree_type} {st : Versions} (hp : Processed st)
    (hk : is_total_order_cmp btree.key_compare)
    (merge merge1 : struct_castle_da_merge) (depth : Nat) (hg : Good btree st merge)
    (hup : ∀ lup, merge.levels[depth + 1]? = some lup → lup.buffer.slots = [])
    (h : castle_da_node_complete btree st merge depth = Res.ok merge1) :
    Good btree st merge1 := by
  obtain ⟨level, blk, node0, buffer1, s, lup, l1, e1, e2, e3, e4, e5, e6, e7, e8, e9, e10, e11⟩ :=
    node_complete_ok btree st merge merge1 depth h
  obtain ⟨n1, n2, -, n4, n5, n6, -, -⟩ := node_complete_spec btree st merge merge1 depth hg.wf h
  have hd := getElem?_lt_length e1
  have hd1 := getElem?_lt_length e8
  have hns : node_slots level = node0.slots := by simp [node_slots, e2]
  have hnn : level.node_c2b ≠ none := by rw [e2]; simp
  obtain ⟨pre, sc, post, lk, C⟩ := hg.cut depth level e1 hnn
  have hslots : node0.slots = pre ++ sc :: post := by rw [← hns, C.slots]
  have hidx : level.valid_end_idx.toNat = pre.length := by rw [C.idx]; simp
  have hs : s = sc := by
    rw [hidx, hslots, List.getElem?_append_right (le_refl _), Nat.sub_self] at e7
    simpa using e7.symm
  subst hs
  have hNs : (completed_node level node0).slots = pre ++ [s] := by
    simp [completed_node, hidx, hslots, List.take_append_eq_append_take]
  have hNv : (completed_node level node0).version = level.valid_version := rfl
  have hlupb := hup lup e8
  obtain ⟨b1, b2, b3, -, -, -, -⟩ :=
    entry_add_level_spec btree st lup _ s.key level.valid_version blk l1 _ (hg.wf _ _ e8) e9
  have hl1 : merge1.levels[depth + 1]? = some l1 := by
    rw [e10, List.getElem?_set_self (by simpa using hd1)]
  have hl0 : merge1.levels[depth]? = some (level_reset level buffer1) := by
    rw [e10, List.getElem?_set_ne (by omega), List.getElem?_set_self hd]
  have hcd : content merge depth = written_slots merge depth ++ (pre ++ s :: post) := by
    rw [content_of_level e1, e3, List.append_nil, C.slots]
  have hcu : content merge (depth + 1) = written_slots merge (depth + 1) ++ node_slots lup := by
    rw [content_of_level e8, hlupb, List.append_nil]
  have hcu1 : content merge1 (depth + 1) =
      content merge (depth + 1) ++ [merge_slot s.key level.valid_version blk] := by
    rw [content_of_level hl1, n6 (depth + 1) (by omega), b2, b3, hlupb, hcu]
    simp
  have hnodes : ∀ j, nodes_at merge1 j = nodes_at merge j ++
      (if depth = j then [completed_node level node0] else []) := fun j =>
    nodes_at_append merge merge1 j depth blk _ e11
  -- the pointer may follow the last pointer one level up
  have hptr : ∀ p, (content merge (depth + 1)).getLast? = some p →
      Follows btree st p (merge_slot s.key level.valid_version blk) := by
    intro p hpl
    obtain ⟨N, l, q1, q2, q3, q4⟩ := hg.ptr depth p hpl
    have hch := last_node_chain hg e1 q1 q2
    rw [e3, List.append_nil, C.slots] at hch
    obtain ⟨w, hw1, hw2⟩ := nodes_at_mem (List.mem_of_getLast?_eq_some q1)
    have hok := hg.nodes w hw1
    rw [hw2] at hok
    obtain ⟨npre, nsc, g1, g2, -⟩ := hok.last
    have hnl : nsc = l := by
      rw [g1, List.getLast?_concat] at q2
      exact Option.some.inj q2
    subst hnl
    have hv : N.version = nsc.version ∨ N.version = 0 := by
      rcases g2 with g3 | ⟨g3, -⟩
      · exact Or.inl g3
      · exact Or.inr g3
    have := pointer_follows hk hch hv C.stamp C.zero_before
    show 0 ≤ btree.key_compare s.key p.key ∧
      (btree.key_compare s.key p.key = 0 →
        ord st level.valid_version ≤ ord st p.version ∨ p.version = 0)
    rw [q3, q4]
    exact this
  refine ⟨n1, ?_, ?_, ?_, ?_, ?_, ?_⟩
  · -- the cuts
    intro j lv hj
    by_cases h1 : j = depth + 1
    · subst h1
      rw [hl1] at hj
      cases hj
      refine cut_step hp hk lup _ s.key level.valid_version blk l1 _ (hg.wf _ _ e8) e9
        (hg.cut _ _ e8) ?_ ?_ C.vv_in
      · have hc : (content merge (depth + 1) ++
            [merge_slot s.key level.valid_version blk]).Chain' (Follows btree st) := by
          rw [List.chain'_append]
          refine ⟨hg.chain _, List.chain'_singleton _, ?_⟩
          intro x hx y hy
          simp only [List.head?_cons, Option.mem_def, Option.some.injEq] at hy
          subst hy
          exact hptr x hx
        refine chain_part hc (written_slots merge (depth + 1)) [] ?_
        rw [hcu]
        simp
      · intro t ht
        exact hg.known (depth + 1) t (by rw [hcu]; exact List.mem_append_right _ ht)
    · by_cases h2 : j = depth
      · subst h2
        rw [hl0] at hj
        cases hj
        exact LGood_of_none rfl
      · rw [n4 j h2 h1] at hj
        exact hg.cut j lv hj
  · -- the entries of every depth
    intro j
    by_cases h1 : j = depth + 1
    · subst h1
      rw [hcu1, List.chain'_append]
      refine ⟨hg.chain _, List.chain'_singleton _, ?_⟩
      intro x hx y hy
      simp only [List.head?_cons, Option.mem_def, Option.some.injEq] at hy
      subst hy
      exact hptr x hx
    · rw [n5 j h1]
      exact hg.chain j
  · intro j t ht
    by_cases h1 : j = depth + 1
    · subst h1
      rw [hcu1] at ht
      rcases List.mem_append.1 ht with h2 | h2
      · exact hg.known _ t h2
      · simp only [List.mem_singleton] at h2
        subst h2
        exact C.vv_in
    · rw [n5 j h1] at ht
      exact hg.known j t ht
  · -- the completed nodes
    intro w hw
    rw [e11] at hw
    rcases List.mem_append.1 hw with h1 | h1
    · exact hg.nodes w h1
    · simp only [List.mem_singleton] at h1
      subst h1
      refine ⟨?_, pre, s, hNs, C.stamp, C.zero_before⟩
      intro t ht
      rw [hNs] at ht
      exact C.kept t ht
  · -- the sequence of nodes of one depth
    intro j
    rw [hnodes j]
    by_cases h1 : depth = j
    · subst h1
      rw [if_pos rfl, List.chain'_append]
      refine ⟨hg.seq _, List.chain'_singleton _, ?_⟩
      intro N hN y hy
      simp only [List.head?_cons, Option.mem_def, Option.some.injEq] at hy
      subst hy
      obtain ⟨w, hw1, hw2⟩ := nodes_at_mem (List.mem_of_getLast?_eq_some hN)
      have hok := hg.nodes w hw1
      rw [hw2] at hok
      obtain ⟨npre, nsc, g1, -, -⟩ := hok.last
      have q2 : N.slots.getLast? = some nsc := by rw [g1, List.getLast?_concat]
      have hch := last_node_chain hg e1 hN q2
      rw [e3, List.append_nil, C.slots] at hch
      cases hpre : pre with
      | nil =>
        refine ⟨nsc, s, q2, by rw [hNs, hpre]; rfl, ?_⟩
        rw [hpre, List.nil_append, List.chain'_cons] at hch
        exact hch.1.1
      | cons f rest =>
        refine ⟨nsc, f, q2, by rw [hNs, hpre]; rfl, ?_⟩
        rw [hpre, List.cons_append, List.chain'_cons] at hch
        exact hch.1.1
    · rw [if_neg h1, List.append_nil]
      exact hg.seq j
  · -- the pointers
    intro j p hpl
    by_cases h1 : j = depth
    · subst h1
      rw [hcu1, List.getLast?_concat] at hpl
      have hp2 := (Option.some.inj hpl).symm
      subst hp2
      refine ⟨completed_node level node0, s, ?_, ?_, rfl, rfl⟩
      · rw [hnodes j, if_pos rfl, List.getLast?_concat]
      · rw [hNs, List.getLast?_concat]
    · rw [n5 (j + 1) (by omega)] at hpl
      have h1' : ¬ depth = j := fun hh => h1 hh.symm
      rw [hnodes j, if_neg h1', List.append_nil]
      exact hg.ptr j p hpl

/-- Adding the next entry of the stream at depth 0 keeps the state in order. -/
theorem good_entry_add {btree : castle_btree_type} {st : Versions} (hp : Processed st)
    (hk : is_total_order_cmp btree.key_compare)
    (merge merge1 : struct_castle_da_merge) (key version : Nat) (cdb : c_disk_blk_t)
    (hg : Good btree st merge) (hq : BufEmptyFrom merge 0)
    (hch : (content merge 0 ++ [merge_slot key version cdb]).Chain' (Follows btree st))
    (hnew : InForest st version)
    (h : castle_da_entry_add btree st merge 0 key version cdb = Res.ok merge1) :
    Good btree st merge1 := by
  obtain ⟨a1, a2, a3, a4, a5⟩ := entry_add_keeps btree st merge merge1 0 key version cdb hg.wf hq h
  obtain ⟨level, l1, c1, c2, c3, c4⟩ := entry_add_ok btree st _ _ _ _ _ _ h
  have hd := getElem?_lt_length c1
  have hwr : ∀ j, nodes_at merge1 j = nodes_at merge j := by
    intro j; simp only [nodes_at, c4]
  have hc0 : content merge 0 = written_slots merge 0 ++ node_slots level := by
    rw [content_of_level c1, hq 0 level (le_refl _) c1, List.append_nil]
  refine ⟨a1, ?_, ?_, ?_, ?_, ?_, ?_⟩
  · intro j lv hj
    by_cases h1 : j = 0
    · subst h1
      rw [c3, List.getElem?_set_self hd] at hj
      cases hj
      refine cut_step hp hk level _ key version cdb l1 _ (hg.wf _ _ c1) c2 (hg.cut _ _ c1) ?_ ?_
        hnew
      · refine chain_part hch (written_slots merge 0) [] ?_
        rw [hc0]
        simp
      · intro t ht
        exact hg.known 0 t (by rw [hc0]; exact List.mem_append_right _ ht)
    · rw [c3, List.getElem?_set_ne (fun hh => h1 hh.symm)] at hj
      exact hg.cut j lv hj
  · intro j
    by_cases h1 : j = 0
    · subst h1
      rw [a4]
      exact hch
    · rw [a5 j h1]
      exact hg.chain j
  · intro j t ht
    by_cases h1 : j = 0
    · subst h1
      rw [a4] at ht
      rcases List.mem_append.1 ht with h2 | h2
      · exact hg.known _ t h2
      · simp only [List.mem_singleton] at h2
        subst h2
        exact hnew
    · rw [a5 j h1] at ht
      exact hg.known j t ht
  · intro w hw
    rw [c4] at hw
    exact hg.nodes w hw
  · intro j
    rw [hwr j]
    exact hg.seq j
  · intro j p hpl
    rw [a5 (j + 1) (by omega)] at hpl
    rw [hwr j]
    exact hg.ptr j p hpl

/-- The inner loop at `fill_buffers` keeps the cut of the node it fills in order. -/
theorem refill_cut {btree : castle_btree_type} {st : Versions} (hp : Processed st)
    (hk : is_total_order_cmp btree.key_compare) (i : Nat) :
    ∀ (slots : List btree_slot) (merge merge1 : struct_castle_da_merge)
      (level : castle_da_merge_level),
      MInv merge → merge.levels[i]? = some level → LGood btree st level →
      (node_slots level ++ slots).Chain' (Follows btree st) →
      (∀ s ∈ node_slots level ++ slots, InForest st s.version) →
      castle_da_nodes_complete_refill btree st i slots merge = Res.ok merge1 →
      ∃ level1, merge1.levels[i]? = some level1 ∧ LGood btree st level1 := by
  intro slots
  induction slots with
  | nil =>
    intro merge merge1 level _ hl hg _ _ h
    rw [castle_da_nodes_complete_refill] at h
    cases h
    exact ⟨level, hl, hg⟩
  | cons s rest ih =>
    intro merge merge1 level hinv hl hg hch hin h
    rw [castle_da_nodes_complete_refill] at h
    by_cases hlp : s.is_leaf_ptr = true
    · rw [if_pos hlp] at h; cases h
    · rw [if_neg hlp] at h
      have hlp2 : s.is_leaf_ptr = false := by simpa using hlp
      cases ha : castle_da_entry_add btree st merge i s.key s.version s.cdb with
      | bug => rw [ha] at h; cases h
      | timeout => rw [ha] at h; cases h
      | ok merge2 =>
        rw [ha] at h
        dsimp only at h
        obtain ⟨a1, -, -⟩ := entry_add_spec btree st merge merge2 i s.key s.version s.cdb hinv ha
        obtain ⟨lv, l1, c1, c2, c3, -⟩ := entry_add_ok btree st _ _ _ _ _ _ ha
        rw [hl] at c1
        cases c1
        obtain ⟨-, b2, -⟩ :=
          entry_add_level_spec btree st level _ s.key s.version s.cdb l1 _ (hinv _ _ hl) c2
        have hlt := getElem?_lt_length hl
        have hl2 : merge2.levels[i]? = some l1 := by
          rw [c3, List.getElem?_set_self hlt]
        rw [hl2] at h
        dsimp only at h
        by_cases hneg : l1.next_idx < 0
        · rw [if_pos hneg] at h; cases h
        · rw [if_neg hneg] at h
          have hsl : merge_slot s.key s.version s.cdb = s := merge_slot_self s hlp2
          have hg1 : LGood btree st l1 := by
            refine cut_step hp hk level _ s.key s.version s.cdb l1 _ (hinv _ _ hl) c2 hg ?_ ?_ ?_
            · rw [hsl]
              refine chain_part hch [] rest ?_
              simp
            · intro t ht
              exact hin t (List.mem_append_left _ ht)
            · exact hin s (by simp)
          refine ih merge2 merge1 l1 a1 hl2 hg1 ?_ ?_ h
          · rw [b2, hsl]
            simpa using hch
          · intro t ht
            rw [b2, hsl] at ht
            exact hin t (by simpa using ht)

theorem LGood_buffer {btree : castle_btree_type} {st : Versions}
    {level : castle_da_merge_level} (b : castle_btree_node) (h : LGood btree st level) :
    LGood btree st { level with buffer := b } := by
  intro hn
  obtain ⟨pre, sc, post, lk, C⟩ := h hn
  exact ⟨pre, sc, post, lk, ⟨C.slots, C.idx, C.key, C.vv_in, C.kept, C.same, C.nonzero,
    C.stamp, C.zero_before, C.keys_before⟩⟩

/-- The loop at `fill_buffers` keeps the state in order. -/
theorem good_nodes_complete_down {btree : castle_btree_type} {st : Versions}
    (hp : Processed st) (hk : is_total_order_cmp btree.key_compare) :
    ∀ (k : Nat) (merge merge1 : struct_castle_da_merge),
      Good btree st merge → castle_da_nodes_complete_down btree st k merge = Res.ok merge1 →
      Good btree st merge1 := by
  intro k
  induction k with
  | zero =>
    intro merge merge1 hg h
    rw [castle_da_nodes_complete_down] at h
    cases h
    exact hg
  | succ k ih =>
    intro merge merge1 hg h
    rw [castle_da_nodes_complete_down] at h
    cases hl : merge.levels[k]? with
    | none => rw [hl] at h; cases h
    | some level =>
      rw [hl] at h
      dsimp only at h
      cases hr : castle_da_nodes_complete_refill btree st k level.buffer.slots merge with
      | bug => rw [hr] at h; cases h
      | timeout => rw [hr] at h; cases h
      | ok merge2 =>
        rw [hr] at h
        dsimp only at h
        obtain ⟨r1, r2, lv1, r3, r4, r5, -, -⟩ :=
          nodes_complete_refill_spec btree st k level.buffer.slots merge merge2 level hg.wf hl hr
        have hlt := getElem?_lt_length hl
        have hl2 : merge2.levels[k]? = some lv1 := by
          rw [r3, List.getElem?_set_self hlt]
        rw [hl2] at h
        dsimp only at h
        have hinf : (node_slots level ++ level.buffer.slots).Chain' (Follows btree st) := by
          refine chain_part (hg.chain k) (written_slots merge k) [] ?_
          rw [content_of_level hl]
          simp
        have hkn : ∀ s ∈ node_slots level ++ level.buffer.slots, InForest st s.version := by
          intro t ht
          exact hg.known k t (by rw [content_of_level hl]; exact List.mem_append_right _ ht)
        obtain ⟨lv1', q1, q2⟩ := refill_cut hp hk k level.buffer.slots merge merge2 level hg.wf hl
          (hg.cut _ _ hl) hinf hkn hr
        rw [hl2] at q1
        cases q1
        refine ih _ merge1 ?_ h
        -- the state after the buffer has been re-added and reset
        have hlev : ∀ j, ({ merge2 with
            levels := merge2.levels.set k
              { lv1 with buffer := castle_da_node_buffer_init lv1.buffer } } :
              struct_castle_da_merge).levels[j]? =
            if j = k then some { lv1 with buffer := castle_da_node_buffer_init lv1.buffer }
            else merge.levels[j]? := by
          intro j
          show (merge2.levels.set k _)[j]? = _
          by_cases h1 : j = k
          · subst h1
            rw [if_pos rfl, List.getElem?_set_self (by rw [r3]; simpa using hlt)]
          · rw [if_neg h1, List.getElem?_set_ne (fun hh => h1 hh.symm), r3,
              List.getElem?_set_ne (fun hh => h1 hh.symm)]
        have hcont : ∀ j, content ({ merge2 with
            levels := merge2.levels.set k
              { lv1 with buffer := castle_da_node_buffer_init lv1.buffer } } :
              struct_castle_da_merge) j = content merge j := by
          intro j
          have hws : written_slots ({ merge2 with
              levels := merge2.levels.set k
                { lv1 with buffer := castle_da_node_buffer_init lv1.buffer } } :
                struct_castle_da_merge) j = written_slots merge j := by
            simp only [written_slots, r2]
          simp only [content, hws, hlev j]
          by_cases h1 : j = k
          · subst h1
            rw [if_pos rfl, hl]
            show _ ++ (node_slots lv1 ++ (castle_da_node_buffer_init lv1.buffer).slots) = _
            rw [buffer_init_slots, List.append_nil]
            have : node_slots ({ lv1 with buffer := castle_da_node_buffer_init lv1.buffer } :
                castle_da_merge_level) = node_slots lv1 := rfl
            rw [r4]
          · rw [if_neg h1]
        have hnod : ∀ j, nodes_at ({ merge2 with
            levels := merge2.levels.set k
              { lv1 with buffer := castle_da_node_buffer_init lv1.buffer } } :
              struct_castle_da_merge) j = nodes_at merge j := by
          intro j
          simp only [nodes_at, r2]
        refine ⟨?_, ?_, ?_, ?_, ?_, ?_, ?_⟩
        · intro j lv hj
          rw [hlev j] at hj
          by_cases h1 : j = k
          · rw [if_pos h1] at hj
            cases hj
            exact WFL_buffer _ _ (r1 _ _ hl2)
          · rw [if_neg h1] at hj
            exact hg.wf j lv hj
        · intro j lv hj
          rw [hlev j] at hj
          by_cases h1 : j = k
          · rw [if_pos h1] at hj
            cases hj
            exact LGood_buffer _ q2
          · rw [if_neg h1] at hj
            exact hg.cut j lv hj
        · intro j
          rw [hcont j]
          exact hg.chain j
        · intro j t ht
          rw [hcont j] at ht
          exact hg.known j t ht
        · intro w hw
          exact hg.nodes w (by rw [← r2]; exact hw)
        · intro j
          rw [hnod j]
          exact hg.seq j
        · intro j p hpl
          rw [hcont (j + 1)] at hpl
          rw [hnod j]
          exact hg.ptr j p hpl

/-- The first loop of `castle_da_nodes_complete` keeps the state in order. -/
theorem good_nodes_complete_up {btree : castle_btree_type} {st : Versions}
    (hp : Processed st) (hk : is_total_order_cmp btree.key_compare) :
    ∀ (todo : Nat) (merge : struct_castle_da_merge) (i : Nat)
      (merge1 : struct_castle_da_merge) (i1 : Nat),
      Good btree st merge → BufEmptyFrom merge i →
      castle_da_nodes_complete_up btree st todo merge i = Res.ok (merge1, i1) →
      Good btree st merge1 := by
  intro todo
  induction todo with
  | zero =>
    intro merge i merge1 i1 hg _ h
    rw [castle_da_nodes_complete_up] at h
    cases h
    exact hg
  | succ todo ih =>
    intro merge i merge1 i1 hg hbuf h
    rw [castle_da_nodes_complete_up] at h
    cases hl : merge.levels[i]? with
    | none => rw [hl] at h; cases h
    | some level =>
      rw [hl] at h
      dsimp only at h
      by_cases hneg : level.next_idx < 0
      · rw [if_pos hneg] at h
        cases hc : castle_da_node_complete btree st merge i with
        | bug => rw [hc] at h; cases h
        | timeout => rw [hc] at h; cases h
        | ok merge2 =>
          rw [hc] at h
          dsimp only at h
          obtain ⟨-, -, -, c4, -, -, ⟨lup, l1, c7, c8, c9, -⟩, -⟩ :=
            node_complete_spec btree st merge merge2 i hg.wf hc
          have hbuf2 : BufEmptyFrom merge2 (i + 1) := by
            intro j lv2 hj hlv
            by_cases hj1 : j = i + 1
            · subst hj1
              rw [c8] at hlv
              cases hlv
              rw [c9]
              exact hbuf (i + 1) lup (by omega) c7
            · rw [c4 j (by omega) hj1] at hlv
              exact hbuf j lv2 (by omega) hlv
          have hg2 := good_node_complete hp hk merge merge2 i hg
            (fun lu hlu => hbuf (i + 1) lu (by omega) hlu) hc
          exact ih merge2 (i + 1) merge1 i1 hg2 hbuf2 h
      · rw [if_neg hneg] at h
        cases h
        exact hg

/-- One call of `castle_da_nodes_complete` keeps the state in order. -/
theorem good_nodes_complete {btree : castle_btree_type} {st : Versions}
    (hp : Processed st) (hk : is_total_order_cmp btree.key_compare)
    (merge merge1 : struct_castle_da_merge) (depth : Nat) (end_ : Bool)
    (hg : Good btree st merge) (hq : BufEmptyFrom merge 0)
    (h : castle_da_nodes_complete btree st merge depth end_ = Res.ok merge1) :
    Good btree st merge1 := by
  rw [castle_da_nodes_complete] at h
  by_cases hdep : depth + 1 > merge.levels.length
  · rw [if_pos hdep] at h; cases h
  · rw [if_neg hdep] at h
    obtain ⟨level, hl⟩ : ∃ level, merge.levels[depth]? = some level :=
      ⟨_, List.getElem?_eq_getElem (by omega)⟩
    rw [hl] at h
    dsimp only at h
    have hmain : ∀ r, castle_da_nodes_complete_up btree st (merge.levels.length - depth)
        merge depth = r →
        (match r with
          | Res.ok (merge1, i) => castle_da_nodes_complete_down btree st i merge1
          | Res.bug => Res.bug
          | Res.timeout => Res.timeout) = Res.ok merge1 →
        Good btree st merge1 := by
      intro r hr hd
      cases r with
      | bug => cases hd
      | timeout => cases hd
      | ok p =>
        obtain ⟨merge2, i1⟩ := p
        dsimp only at hd
        have hg2 := good_nodes_complete_up hp hk _ merge depth merge2 i1 hg
          (fun j lv _ hj => hq j lv (Nat.zero_le _) hj) hr
        exact good_nodes_complete_down hp hk i1 merge2 merge1 hg2 hd
    by_cases hroot : (end_ && decide (level.next_idx < 0)) = true
    · rw [if_pos hroot] at h
      cases hu : merge.levels[depth + 1]? with
      | none => rw [hu] at h; cases h
      | some up =>
        rw [hu] at h
        dsimp only at h
        by_cases hz : up.next_idx = 0
        · simp only [hz, decide_True] at h
          cases h
          exact hg
        · simp only [hz, decide_False] at h
          exact hmain _ rfl h
    · rw [if_neg hroot] at h
      dsimp only at h
      exact hmain _ rfl h

/-- Forcing the node of a level complete, as `castle_da_merge_complete` does,
keeps the state in order. -/
theorem good_force {btree : castle_btree_type} {st : Versions}
    (merge : struct_castle_da_merge) (i : Nat) (level : castle_da_merge_level)
    (hg : Good btree st merge) (hl : merge.levels[i]? = some level)
    (hpos : level.next_idx > 0) :
    Good btree st { merge with levels := merge.levels.set i { level with next_idx := -1 } } := by
  have hw := hg.wf i level hl
  have hnode : level.node_c2b ≠ none := by
    intro hn
    have := (hw.none_case hn).1
    omega
  have hlt := getElem?_lt_length hl
  have hgetf : ∀ j, (merge.levels.set i { level with next_idx := -1 })[j]? =
      if j = i then some { level with next_idx := -1 } else merge.levels[j]? := by
    intro j
    rw [List.getElem?_set]
    by_cases hj : i = j
    · subst hj; simp [hlt]
    · have : ¬ j = i := fun hh => hj hh.symm
      simp [hj, this]
  have hcont : ∀ j, content
      { merge with levels := merge.levels.set i { level with next_idx := -1 } } j
      = content merge j := by
    intro j
    simp only [content, written_slots]
    rw [hgetf j]
    by_cases h0 : j = i
    · subst h0
      rw [if_pos rfl, hl]; rfl
    · rw [if_neg h0]
  refine ⟨?_, ?_, ?_, ?_, hg.nodes, hg.seq, ?_⟩
  · intro j lv hj
    dsimp only at hj
    rw [hgetf j] at hj
    by_cases hji : j = i
    · rw [if_pos hji] at hj
      cases hj
      exact ⟨fun hn => absurd hn hnode, fun _ => ⟨Or.inl rfl, (hw.some_case hnode).2⟩⟩
    · rw [if_neg hji] at hj
      exact hg.wf j lv hj
  · intro j lv hj
    dsimp only at hj
    rw [hgetf j] at hj
    by_cases hji : j = i
    · rw [if_pos hji] at hj
      cases hj
      intro hn
      obtain ⟨pre, sc, post, lk, C⟩ := hg.cut i level hl hn
      exact ⟨pre, sc, post, lk, ⟨C.slots, C.idx, C.key, C.vv_in, C.kept, C.same, C.nonzero,
        C.stamp, C.zero_before, C.keys_before⟩⟩
    · rw [if_neg hji] at hj
      exact hg.cut j lv hj
  · intro j
    rw [hcont j]
    exact hg.chain j
  · intro j t ht
    rw [hcont j] at ht
    exact hg.known j t ht
  · intro j p hpl
    rw [hcont (j + 1)] at hpl
    exact hg.ptr j p hpl

theorem force_inv (merge : struct_castle_da_merge) (i : Nat) (level : castle_da_merge_level)
    (hinv : MInv merge) (hq : BufEmptyFrom merge 0) (hl : merge.levels[i]? = some level)
    (hpos : level.next_idx > 0) :
    MInv { merge with levels := merge.levels.set i { level with next_idx := -1 } } ∧
    BufEmptyFrom { merge with levels := merge.levels.set i { level with next_idx := -1 } } 0 := by
  have hw := hinv i level hl
  have hnode : level.node_c2b ≠ none := by
    intro hn
    have := (hw.none_case hn).1
    omega
  have hlt := getElem?_lt_length hl
  have hgetf : ∀ j, (merge.levels.set i { level with next_idx := -1 })[j]? =
      if j = i then some { level with next_idx := -1 } else merge.levels[j]? := by
    intro j
    rw [List.getElem?_set]
    by_cases hj : i = j
    · subst hj; simp [hlt]
    · have : ¬ j = i := fun hh => hj hh.symm
      simp [hj, this]
  constructor
  · intro j lv hj
    dsimp only at hj
    rw [hgetf j] at hj
    by_cases hji : j = i
    · rw [if_pos hji] at hj
      cases hj
      exact ⟨fun hn => absurd hn hnode, fun _ => ⟨Or.inl rfl, (hw.some_case hnode).2⟩⟩
    · rw [if_neg hji] at hj
      exact hinv j lv hj
  · intro j lv _ hj
    dsimp only at hj
    rw [hgetf j] at hj
    by_cases hji : j = i
    · rw [if_pos hji] at hj
      cases hj
      exact hq i level (Nat.zero_le _) hl
    · rw [if_neg hji] at hj
      exact hq j lv (Nat.zero_le _) hj

/-- The `while` loop of `castle_da_merge_complete` at one depth keeps the state
in order. -/
theorem good_merge_complete_level {btree : castle_btree_type} {st : Versions}
    (hp : Processed st) (hk : is_total_order_cmp btree.key_compare) (i : Nat) :
    ∀ (fuel : Nat) (merge merge1 : struct_castle_da_merge),
      Good btree st merge → BufEmptyFrom merge 0 →
      castle_da_merge_complete_level btree st i fuel merge = Res.ok merge1 →
      Good btree st merge1 ∧ BufEmptyFrom merge1 0 := by
  intro fuel
  induction fuel with
  | zero =>
    intro merge merge1 hg hq h
    rw [castle_da_merge_complete_level] at h
    cases hl : merge.levels[i]? with
    | none => rw [hl] at h; cases h
    | some level =>
      rw [hl] at h
      dsimp only at h
      by_cases hpos : level.next_idx > 0
      · rw [if_pos hpos] at h; cases h
      · rw [if_neg hpos] at h
        cases h
        exact ⟨hg, hq⟩
  | succ fuel ih =>
    intro merge merge1 hg hq h
    rw [castle_da_merge_complete_level] at h
    cases hl : merge.levels[i]? with
    | none => rw [hl] at h; cases h
    | some level =>
      rw [hl] at h
      dsimp only at h
      by_cases hpos : level.next_idx > 0
      · rw [if_pos hpos] at h
        cases hc : castle_da_nodes_complete btree st
            { merge with levels := merge.levels.set i { level with next_idx := -1 } } i true with
        | bug => rw [hc] at h; cases h
        | timeout => rw [hc] at h; cases h
        | ok merge2 =>
          rw [hc] at h
          dsimp only at h
          obtain ⟨f1, f2⟩ := force_inv merge i level hg.wf hq hl hpos
          have hgf := good_force merge i level hg hl hpos
          obtain ⟨-, n2, -⟩ := nodes_complete_spec btree st _ merge2 i true f1 f2 hc
          have hg2 := good_nodes_complete hp hk _ merge2 i true hgf f2 hc
          exact ih merge2 merge1 hg2 n2 h
      · rw [if_neg hpos] at h
        cases h
        exact ⟨hg, hq⟩

/-- The `for` loop of `castle_da_merge_complete` keeps the state in order. -/
theorem good_merge_complete_loop {btree : castle_btree_type} {st : Versions}
    (hp : Processed st) (hk : is_total_order_cmp btree.key_compare) (fuel : Nat) :
    ∀ (todo i : Nat) (merge merge1 : struct_castle_da_merge),
      Good btree st merge → BufEmptyFrom merge 0 →
      castle_da_merge_complete_loop btree st fuel todo i merge = Res.ok merge1 →
      Good btree st merge1 := by
  intro todo
  induction todo with
  | zero =>
    intro i merge merge1 hg _ h
    rw [castle_da_merge_complete_loop] at h
    cases h
    exact hg
  | succ todo ih =>
    intro i merge merge1 hg hq h
    rw [castle_da_merge_complete_loop] at h
    cases hc : castle_da_merge_complete_level btree st i fuel merge with
    | bug => rw [hc] at h; cases h
    | timeout => rw [hc] at h; cases h
    | ok merge2 =>
      rw [hc] at h
      dsimp only at h
      obtain ⟨g2, q2⟩ := good_merge_complete_level hp hk i fuel merge merge2 hg hq hc
      exact ih (i + 1) merge2 merge1 g2 q2 h

/-- The merging loop of `castle_da_merge` keeps the state in order, when the
entries still to come may follow those already added at depth 0. -/
theorem good_merge_loop {btree : castle_btree_type} {st : Versions}
    (hp : Processed st) (hk : is_total_order_cmp btree.key_compare) (vc : Nat → Nat → Int)
    (ht : is_total_order_cmp (entry_compare btree vc)) :
    ∀ (fuel : Nat) (iter : c_merged_iter_t) (merge merge1 : struct_castle_da_merge)
      (as bs : List kv_entry),
      Two iter as bs → Good btree st merge → BufEmptyFrom merge 0 →
      (content merge 0 ++ (sort_merge btree vc as bs).map
        (fun e => merge_slot e.k e.v e.cdb)).Chain' (Follows btree st) →
      (∀ e ∈ sort_merge btree vc as bs, InForest st e.v) →
      castle_da_merge_loop btree vc st fuel iter merge = Res.ok merge1 →
      Good btree st merge1 ∧ BufEmptyFrom merge1 0 := by
  intro fuel
  induction fuel with
  | zero =>
    intro iter merge merge1 as bs _ hg hq _ _ h
    rw [castle_da_merge_loop] at h
    cases hh : castle_ct_merged_iter_has_next iter with
    | false =>
      rw [hh] at h
      cases h
      exact ⟨hg, hq⟩
    | true => rw [hh] at h; cases h
  | succ fuel ih =>
    intro iter merge merge1 as bs h2 hg hq hch hin h
    rw [castle_da_merge_loop] at h
    cases hh : castle_ct_merged_iter_has_next iter with
    | false =>
      rw [hh] at h
      cases h
      exact ⟨hg, hq⟩
    | true =>
      rw [hh] at h
      have hne := (two_has_next iter as bs h2).1 hh
      obtain ⟨iter1, e, as1, bs1, n1, n2, n3, -⟩ := two_next btree vc ht iter as bs h2 hne
      simp only [if_true] at h
      rw [n1] at h
      dsimp only at h
      cases ha : castle_da_entry_add btree st merge 0 e.k e.v e.cdb with
      | bug => rw [ha] at h; cases h
      | timeout => rw [ha] at h; cases h
      | ok merge2 =>
        rw [ha] at h
        dsimp only at h
        obtain ⟨a1, a2, -, a4, -⟩ :=
          entry_add_keeps btree st merge merge2 0 e.k e.v e.cdb hg.wf hq ha
        rw [n3, List.map_cons] at hch
        have hch1 : (content merge 0 ++ [merge_slot e.k e.v e.cdb]).Chain' (Follows btree st) := by
          refine chain_part hch []
            ((sort_merge btree vc as1 bs1).map (fun e => merge_slot e.k e.v e.cdb)) ?_
          simp
        have hg2 := good_entry_add hp hk merge merge2 e.k e.v e.cdb hg hq hch1
          (hin e (by rw [n3]; exact List.mem_cons_self _ _)) ha
        cases hc : castle_da_nodes_complete btree st merge2 0 false with
        | bug => rw [hc] at h; cases h
        | timeout => rw [hc] at h; cases h
        | ok merge3 =>
          rw [hc] at h
          dsimp only at h
          obtain ⟨c1, c2, -, -, c5, -⟩ := nodes_complete_spec btree st merge2 merge3 0 false a1 a2 hc
          have hg3 := good_nodes_complete hp hk merge2 merge3 0 false hg2 a2 hc
          refine ih iter1 merge3 merge1 as1 bs1 n2 hg3 c2 ?_ ?_ h
          · rw [c5, a4]
            simpa using hch
          · intro e1 he1
            exact hin e1 (by rw [n3]; exact List.mem_cons_of_mem _ he1)

/-! ## Node boundaries written by `castle_da_merge` -/

theorem good_init (btree : castle_btree_type) (st : Versions) (max_btree_depth : Nat) :
    Good btree st (castle_da_merge_init max_btree_depth) := by
  obtain ⟨m1, m2, -, -⟩ := merge_init_inv max_btree_depth
  have hget : ∀ (j : Nat) (lv : castle_da_merge_level),
      (castle_da_merge_init max_btree_depth).levels[j]? = some lv → lv = init_level := by
    intro j lv h
    have hlv : (castle_da_merge_init max_btree_depth).levels =
        List.replicate max_btree_depth init_level := rfl
    rw [hlv] at h
    exact List.eq_of_mem_replicate (mem_of_getElem?_some h)
  have hcont : ∀ j, content (castle_da_merge_init max_btree_depth) j = [] := by
    intro j
    simp only [content, written_slots]
    cases h : (castle_da_merge_init max_btree_depth).levels[j]? with
    | none => simp [castle_da_merge_init]
    | some lv =>
      rw [hget j lv h]
      simp [castle_da_merge_init, node_slots, init_level, castle_da_node_buffer_init]
  refine ⟨m1, ?_, ?_, ?_, ?_, ?_, ?_⟩
  · intro j lv h
    rw [hget j lv h]
    exact LGood_of_none rfl
  · intro j
    rw [hcont j]
    exact List.chain'_nil
  · intro j t ht
    rw [hcont j] at ht
    cases ht
  · intro w hw
    cases hw
  · intro j
    exact List.chain'_nil
  · intro j p hpl
    rw [hcont (j + 1)] at hpl
    cases hpl

/-- Entries in ascending composite order may follow each other. -/
theorem follows_of_sorted {btree : castle_btree_type} {st : Versions}
    (hk : is_total_order_cmp btree.key_compare) (a b : kv_entry)
    (h : entry_compare btree (castle_version_compare st) a b ≤ 0) :
    Follows btree st (merge_slot a.k a.v a.cdb) (merge_slot b.k b.v b.cdb) := by
  simp only [entry_compare, castle_kv_compare] at h
  show 0 ≤ btree.key_compare b.k a.k ∧
    (btree.key_compare b.k a.k = 0 → ord st b.v ≤ ord st a.v ∨ a.v = 0)
  by_cases h0 : btree.key_compare a.k b.k = 0
  · have h1 := cmp_zero_symm hk h0
    simp only [h0, ne_eq, not_true_eq_false, if_false, version_compare_eq] at h
    exact ⟨by omega, fun _ => Or.inl (by omega)⟩
  · simp only [ne_eq, h0, not_false_eq_true, if_true] at h
    have h1 := (hk.1 a.k b.k).1 (by omega)
    exact ⟨by omega, fun hz => by omega⟩

theorem chain_getElem? {α : Type} {R : α → α → Prop} :
    ∀ (l : List α) (i : Nat) (a b : α), l.Chain' R → l[i]? = some a → l[i + 1]? = some b →
      R a b := by
  intro l
  induction l with
  | nil => intro i a b _ h; simp at h
  | cons x rest ih =>
    intro i a b hc h1 h2
    cases i with
    | zero =>
      simp only [List.getElem?_cons_zero, Option.some.injEq] at h1
      subst h1
      cases rest with
      | nil => simp at h2
      | cons y r2 =>
        simp only [zero_add, List.getElem?_cons_succ, List.getElem?_cons_zero,
          Option.some.injEq] at h2
        subst h2
        exact (List.chain'_cons.1 hc).1
    | succ i =>
      simp only [List.getElem?_cons_succ] at h1 h2
      exact ih i a b (List.chain'_cons'.1 hc).2 h1 h2

/-- C9: over the version forest `castle_versions_process` built from valid add
calls, let two streams in ascending composite order, with versions of the
forest, be merged by `castle_da_merge`.  In the state the merging loop ends with,
and in the state `castle_da_merge` ends with, every node `N` that
`castle_da_node_complete` has completed is stamped with a version that
`castle_version_is_ancestor` accepts as an ancestor of the version of every slot
kept in `N`, and the node completed next at the same depth begins with a key not
smaller than the last key of `N`. -/
theorem completed_nodes_stamped_by_ancestor (adds : List AddCall) (hv : valid_forest adds)
    (fuel0 : Nat) (hfuel0 : 2 * adds.length + 2 ≤ fuel0) (st : Versions)
    (hr : castle_versions_process fuel0 (add_all adds) = Res.ok st)
    (btree : castle_btree_type) (hk : is_total_order_cmp btree.key_compare)
    (max_btree_depth fuel : Nat) (A B : List kv_entry)
    (hA : A.Chain' (fun a b => entry_compare btree (castle_version_compare st) a b ≤ 0))
    (hB : B.Chain' (fun a b => entry_compare btree (castle_version_compare st) a b ≤ 0))
    (hinA : ∀ e ∈ A, e.v ∈ ids adds) (hinB : ∀ e ∈ B, e.v ∈ ids adds)
    (merge : struct_castle_da_merge)
    (hm : castle_da_merge btree (castle_version_compare st) st max_btree_depth fuel A B =
        Res.ok merge ∨
      ∃ iter, castle_ct_merged_iter_init 2 [A, B] = Res.ok iter ∧
        castle_da_merge_loop btree (castle_version_compare st) st fuel iter
          (castle_da_merge_init max_btree_depth) = Res.ok merge) :
    (∀ w ∈ merge.written, ∀ s ∈ w.2.2.slots,
      castle_version_is_ancestor st w.2.2.version s.version = Res.ok true) ∧
    (∀ (d i : Nat) (N1 N2 : castle_btree_node),
      (nodes_at merge d)[i]? = some N1 → (nodes_at merge d)[i + 1]? = some N2 →
      ∃ l f, N1.slots.getLast? = some l ∧ N2.slots.head? = some f ∧
        0 ≤ btree.key_compare f.key l.key) := by
  obtain ⟨root, st1, f, h1, hd⟩ := process_done hv fuel0 hfuel0
  rw [hr] at h1
  cases h1
  have hp : Processed st := ⟨adds, root, f, hv, hd⟩
  have ht := entry_compare_total btree (castle_version_compare st) hk
    (castle_version_compare_total st)
  obtain ⟨iter, hi, h2⟩ := two_init A B
  obtain ⟨-, m2, -, m4⟩ := merge_init_inv max_btree_depth
  obtain ⟨hperm, hsorted⟩ := sort_merge_sorted_perm btree (castle_version_compare st) ht A B
  have hch : (content (castle_da_merge_init max_btree_depth) 0 ++
      (sort_merge btree (castle_version_compare st) A B).map
        (fun e => merge_slot e.k e.v e.cdb)).Chain' (Follows btree st) := by
    rw [m4, List.nil_append, List.chain'_map]
    exact (hsorted hA hB).chain'.imp (fun {a b} h => follows_of_sorted hk a b h)
  have hin : ∀ e ∈ sort_merge btree (castle_version_compare st) A B, InForest st e.v := by
    intro e he
    rcases List.mem_append.1 (hperm.mem_iff.1 he) with h3 | h3
    · exact in_forest_of_mem hd hv (hinA e h3)
    · exact in_forest_of_mem hd hv (hinB e h3)
  have hloop : ∀ m, castle_da_merge_loop btree (castle_version_compare st) st fuel iter
      (castle_da_merge_init max_btree_depth) = Res.ok m → Good btree st m ∧ BufEmptyFrom m 0 :=
    fun m hl => good_merge_loop hp hk _ ht fuel iter _ m A B h2
      (good_init btree st max_btree_depth) m2 hch hin hl
  have hgood : Good btree st merge := by
    rcases hm with hm | ⟨iter2, hi2, hl2⟩
    · rw [castle_da_merge, hi] at hm
      dsimp only at hm
      cases hl : castle_da_merge_loop btree (castle_version_compare st) st fuel iter
          (castle_da_merge_init max_btree_depth) with
      | bug => rw [hl] at hm; cases hm
      | timeout => rw [hl] at hm; cases hm
      | ok merge1 =>
        rw [hl] at hm
        dsimp only at hm
        obtain ⟨g1, q1⟩ := hloop merge1 hl
        exact good_merge_complete_loop hp hk fuel _ 0 merge1 merge g1 q1 hm
    · rw [hi] at hi2
      cases hi2
      exact (hloop merge hl2).1
  refine ⟨fun w hw s hs => (hgood.nodes w hw).kept s hs, ?_⟩
  intro d i N1 N2 e1 e2
  exact chain_getElem? _ i N1 N2 (hgood.seq d) e1 e2

/-- The streams of example E3 over the chain 0 -> 1 -> 2, merged into nodes of two
slots: the run completes two leaf nodes, `[(1,2),(1,1)]` stamped 1 and
`[(2,1),(3,1)]` stamped 0, and the node `[(1,1),(3,0)]` of pointers to them. -/
theorem completed_nodes_stamped_by_ancestor_witness :
    ∃ merge,
      castle_da_merge (nat_btree 2) (castle_version_compare (versions_of chain_edges))
        (versions_of chain_edges) 10 4 e3_stream1 e3_stream2 = Res.ok merge ∧
      written_view merge =
        [(0, 1, [(1, 2), (1, 1)]), (0, 0, [(2, 1), (3, 1)]), (1, 0, [(1, 1), (3, 0)])] ∧
      (∀ w ∈ merge.written, ∀ s ∈ w.2.2.slots,
        castle_version_is_ancestor (versions_of chain_edges) w.2.2.version s.version =
          Res.ok true) ∧
      (∀ (d i : Nat) (N1 N2 : castle_btree_node),
        (nodes_at merge d)[i]? = some N1 → (nodes_at merge d)[i + 1]? = some N2 →
        ∃ l f, N1.slots.getLast? = some l ∧ N2.slots.head? = some f ∧
          0 ≤ (nat_btree 2).key_compare f.key l.key) := by
  have hx : (castle_da_merge (nat_btree 2) (castle_version_compare (versions_of chain_edges))
      (versions_of chain_edges) 10 4 e3_stream1 e3_stream2).map written_view =
      Res.ok [(0, 1, [(1, 2), (1, 1)]), (0, 0, [(2, 1), (3, 1)]), (1, 0, [(1, 1), (3, 0)])] := by
    decide
  cases hm : castle_da_merge (nat_btree 2) (castle_version_compare (versions_of chain_edges))
      (versions_of chain_edges) 10 4 e3_stream1 e3_stream2 with
  | bug => rw [hm] at hx; cases hx
  | timeout => rw [hm] at hx; cases hx
  | ok merge =>
    rw [hm] at hx
    exact ⟨merge, rfl, Res.ok.inj hx,
      completed_nodes_stamped_by_ancestor
        chain_adds (by decide) 8 (by decide) (versions_of chain_edges) (versions_of_run chain_edges (by decide))
        (nat_btree 2) (nat_btree_total 2) 10 4 e3_stream1 e3_stream2
        (List.Chain.cons (by decide) List.Chain.nil) (List.Chain.cons (by decide) List.Chain.nil)
        (by decide) (by decide) merge (Or.inl hm)⟩

/-! ## The composite order of `castle_kv_compare` -/

theorem ord_lt_of_strict_ancestor {st : Versions} (hp : Processed st) {a d : Nat}
    (h : castle_version_is_ancestor st a d = Res.ok true) (hne : d ≠ a) :
    ord st a < ord st d := by
  have hle := ord_le_of_ancestor hp h
  by_contra hc
  have heq : ord st d = ord st a := by omega
  obtain ⟨ha, hd⟩ := in_forest_of_ok hp h
  have hself := is_ancestor_self hp hd
  have hback := is_ancestor_between hp hself ha (by omega) (by omega)
  exact hne (is_ancestor_antisymm hp hback h)

/-- C20 as stated fails: in the star 0 -> 1, 0 -> 2 the versions 1 and 2 are
unrelated, yet under one key `(5, v2)` compares smaller than `(5, v1)`, because 2
has the larger `o_order`. -/
theorem kv_compare_unrelated_counterexample :
    castle_kv_compare (nat_btree 3) (castle_version_compare star_versions) 5 2 5 1 < 0 ∧
    (nat_btree 3).key_compare 5 5 = 0 ∧
    castle_version_is_ancestor star_versions 1 2 = Res.ok false ∧
    castle_version_is_ancestor star_versions 2 1 = Res.ok false ∧
    o_order_of star_versions 1 = some 2 ∧ o_order_of star_versions 2 = some 3 := by
  refine ⟨by decide, by decide, by decide, by decide, by decide, by decide⟩

/-- C20, amended: let `version_compare` order the versions of a processed forest
by their `o_order` (its sign is the sign of the difference of the `o_order`s).
Then `castle_kv_compare(k1, v1, k2, v2) < 0` exactly when `key_compare(k1, k2) < 0`,
or the keys compare equal and `v1` has the larger `o_order`.  A strict descendant
`v1` of `v2` has the larger `o_order`, and an ancestor `v1` of `v2` has not: for
two versions on one ancestor line the second alternative says that `v1` is a
strict descendant of `v2`. -/
theorem kv_compare_lt_iff (adds : List AddCall) (hv : valid_forest adds)
    (fuel : Nat) (hfuel : 2 * adds.length + 2 ≤ fuel) (st : Versions)
    (hr : castle_versions_process fuel (add_all adds) = Res.ok st)
    (btree : castle_btree_type) (vc : Nat → Nat → Int)
    (hvc : ∀ a b, (vc a b < 0 ↔ ord st a < ord st b) ∧ (0 < vc a b ↔ ord st b < ord st a))
    (k1 v1 k2 v2 : Nat) :
    (castle_kv_compare btree vc k1 v1 k2 v2 < 0 ↔
      btree.key_compare k1 k2 < 0 ∨
      (btree.key_compare k1 k2 = 0 ∧ ord st v2 < ord st v1)) ∧
    (castle_version_is_ancestor st v2 v1 = Res.ok true → v1 ≠ v2 → ord st v2 < ord st v1) ∧
    (castle_version_is_ancestor st v1 v2 = Res.ok true → ¬ ord st v2 < ord st v1) := by
  have hp := processed_of_run hv hfuel hr
  refine ⟨?_, fun h hne => ord_lt_of_strict_ancestor hp h hne, fun h => ?_⟩
  · simp only [castle_kv_compare]
    by_cases h0 : btree.key_compare k1 k2 = 0
    · simp only [h0, ne_eq, not_true_eq_false, if_false, lt_self_iff_false, true_and, false_or]
      exact (hvc v2 v1).1
    · simp only [ne_eq, h0, not_false_eq_true, if_true, false_and, or_false]
  · have := ord_le_of_ancestor hp h
    omega

/-- The chain 0 -> 1 -> 2 under the comparison by `o_order`: `(1, v2)` is smaller
than `(1, v1)`, and 2 is a strict descendant of 1. -/
theorem kv_compare_lt_iff_witness :
    valid_forest chain_adds ∧
    castle_kv_compare (nat_btree 3) (castle_version_compare (versions_of chain_edges)) 1 2 1 1
      < 0 ∧
    castle_version_is_ancestor (versions_of chain_edges) 1 2 = Res.ok true ∧
    ((castle_kv_compare (nat_btree 3) (castle_version_compare (versions_of chain_edges))
        1 2 1 1 < 0 ↔
      (nat_btree 3).key_compare 1 1 < 0 ∨
      ((nat_btree 3).key_compare 1 1 = 0 ∧
        ord (versions_of chain_edges) 1 < ord (versions_of chain_edges) 2)) ∧
    (castle_version_is_ancestor (versions_of chain_edges) 1 2 = Res.ok true → 2 ≠ 1 →
      ord (versions_of chain_edges) 1 < ord (versions_of chain_edges) 2) ∧
    (castle_version_is_ancestor (versions_of chain_edges) 2 1 = Res.ok true →
      ¬ ord (versions_of chain_edges) 1 < ord (versions_of chain_edges) 2)) :=
  ⟨by decide, by decide, by decide,
   kv_compare_lt_iff chain_adds (by decide) 8 (by decide) (versions_of chain_edges)
     (versions_of_run chain_edges (by decide)) (nat_btree 3)
     (castle_version_compare (versions_of chain_edges))
     (fun a b => by simp only [version_compare_eq]; constructor <;> constructor <;> intro h <;> omega)
     1 2 1 1⟩

/-! ## What `castle_da_entry_add` accepts and what it rejects -/

/-- The body of `castle_da_entry_add` returns on a level whose node exists and
is not full, when the key is not below `last_key` and, for a key equal to
`last_key`, the ancestor test returns and does not hit the assertion on equal
versions. -/
theorem entry_add_level_some_returns (btree : castle_btree_type) (st : Versions)
    (level : castle_da_merge_level) (nb key version : Nat) (cdb : c_disk_blk_t)
    (blk : c_disk_blk_t) (node : castle_btree_node) (lk : Nat)
    (hn : level.node_c2b = some (blk, node))
    (hidx : level.next_idx = (node.slots.length : Int)) (hpos : level.next_idx ≠ 0)
    (hlk : level.last_key = some lk) (hge : 0 ≤ btree.key_compare key lk)
    (hanc : btree.key_compare key lk = 0 →
      ∃ b, castle_version_is_ancestor st version level.valid_version = Res.ok b ∧
        (b = true → version ≠ level.valid_version)) :
    ∃ l1 nb1, castle_da_entry_add_level btree st level nb key version cdb = Res.ok (l1, nb1) := by
  have hadd : ∃ node1, btree_entry_add node level.next_idx key version false cdb =
      Res.ok node1 := by
    rw [btree_entry_add, if_pos ⟨by rw [hidx]; omega, by rw [hidx]; rfl⟩]
    exact ⟨_, rfl⟩
  obtain ⟨node1, hadd⟩ := hadd
  have hget := btree_entry_get_added hadd
  rw [castle_da_entry_add_level]
  simp only [hn, hadd, hget, hlk, ne_eq, hpos, not_false_eq_true, if_true, if_false]
  rw [if_neg (by omega)]
  by_cases hgt : btree.key_compare key lk > 0
  · rw [if_pos hgt]
    dsimp only
    split <;> exact ⟨_, _, rfl⟩
  · rw [if_neg hgt]
    obtain ⟨b, hb, hne⟩ := hanc (by omega)
    rw [hb]
    cases b with
    | false =>
      dsimp only
      split <;> exact ⟨_, _, rfl⟩
    | true =>
      dsimp only
      rw [if_neg (hne rfl)]
      dsimp only
      split <;> exact ⟨_, _, rfl⟩

/-- The body of `castle_da_entry_add` returns on a node that is still empty. -/
theorem entry_add_level_first_returns (btree : castle_btree_type) (st : Versions)
    (level : castle_da_merge_level) (nb key version : Nat) (cdb : c_disk_blk_t)
    (blk : c_disk_blk_t) (node : castle_btree_node)
    (hn : level.node_c2b = some (blk, node))
    (h0 : level.next_idx = 0) (hv : level.valid_end_idx < 0) :
    ∃ l1 nb1, castle_da_entry_add_level btree st level nb key version cdb = Res.ok (l1, nb1) := by
  have hadd : ∃ node1, btree_entry_add node level.next_idx key version false cdb =
      Res.ok node1 := by
    rw [btree_entry_add, if_pos ⟨by omega, by rw [h0]; simp [castle_btree_node.used]⟩]
    exact ⟨_, rfl⟩
  obtain ⟨node1, hadd⟩ := hadd
  have hget := btree_entry_get_added hadd
  have hv2 : ¬ level.valid_end_idx ≥ 0 := by omega
  rw [castle_da_entry_add_level]
  simp only [hn, hadd, hget]
  rw [if_neg (by simp [h0])]
  dsimp only
  rw [if_neg (by omega), if_pos h0, if_neg hv2]
  dsimp only
  split <;> exact ⟨_, _, rfl⟩

/-- The body of `castle_da_entry_add` returns on a level without a node: the
first slot of a node is accepted whatever its key and version are. -/
theorem entry_add_level_none_returns (btree : castle_btree_type) (st : Versions)
    (level : castle_da_merge_level) (nb key version : Nat) (cdb : c_disk_blk_t)
    (hn : level.node_c2b = none) (h0 : level.next_idx = 0) (hv : level.valid_end_idx < 0) :
    ∃ l1 nb1, castle_da_entry_add_level btree st level nb key version cdb = Res.ok (l1, nb1) := by
  have hv2 : ¬ level.valid_end_idx ≥ 0 := by omega
  have h2 : castle_da_entry_add_level btree st level nb key version cdb =
      castle_da_entry_add_level btree st
        { level with node_c2b := some ((1, nb),
            castle_da_node_buffer_init { version := 0, is_leaf := false, slots := [] }) }
        (nb + 1) key version cdb := by
    rw [castle_da_entry_add_level, castle_da_entry_add_level]
    simp only [hn, ne_eq, h0, not_true_eq_false, if_false, hv2]
  rw [h2]
  exact entry_add_level_first_returns btree st _ (nb + 1) key version cdb _ _ rfl h0 hv

/-- The body of `castle_da_entry_add` fails its assertion when the entry does not
start a node and its key is below `last_key`. -/
theorem entry_add_level_key_below (btree : castle_btree_type) (st : Versions)
    (level : castle_da_merge_level) (nb key version : Nat) (cdb : c_disk_blk_t) (lk : Nat)
    (hpos : level.next_idx ≠ 0) (hlk : level.last_key = some lk)
    (hlt : btree.key_compare key lk < 0) :
    castle_da_entry_add_level btree st level nb key version cdb = Res.bug := by
  rw [castle_da_entry_add_level]
  cases hn : level.node_c2b with
  | none => simp only [hn, ne_eq, hpos, not_false_eq_true, if_true]
  | some p =>
    obtain ⟨blk, node⟩ := p
    simp only [hn]
    cases hadd : btree_entry_add node level.next_idx key version false cdb with
    | bug => rfl
    | timeout => exact absurd hadd (btree_entry_add_ne_timeout _ _ _ _ _ _)
    | ok node1 =>
      simp only [hlk, ne_eq, hpos, not_false_eq_true, if_true, hlt]

/-- C13 as stated fails.  With nodes of two slots the keys 3, 4, 1, 5 are merged
without any assertion failing, although key 1 is smaller than its predecessor:
it is the first slot of a node, where `castle_da_entry_add` compares nothing; the
leaf nodes written are `[3, 4]` and `[1, 5]`.  And `(5,v1), (5,v2)` is accepted in
this order, although the descendant 2 precedes 1 in composite order: for equal
keys only the ancestor test of Case 3 is made. -/
theorem unordered_stream_accepted_counterexample :
    entry_compare (nat_btree 2) (castle_version_compare chain_versions)
      { k := 4, v := 1, cdb := (9, 4) } { k := 1, v := 1, cdb := (9, 1) } > 0 ∧
    (castle_da_merge (nat_btree 2) (castle_version_compare chain_versions) chain_versions 10 4
        unordered_keys []).map written_view =
      Res.ok [(0, 0, [(3, 1), (4, 1)]), (0, 0, [(1, 1), (5, 1)]), (1, 0, [(4, 0), (5, 0)])] ∧
    entry_compare (nat_btree 3) (castle_version_compare chain_versions)
      { k := 5, v := 1, cdb := (9, 1) } { k := 5, v := 2, cdb := (9, 2) } > 0 ∧
    (castle_da_merge (nat_btree 3) (castle_version_compare chain_versions) chain_versions 10 4
        unordered_versions []).map leaf_view = Res.ok [(5, 1), (5, 2)] := by
  refine ⟨by decide, by decide, by decide, by decide⟩

/-- C13, amended: on a well-formed level `castle_da_entry_add` fails its
assertion `BUG_ON(key_cmp < 0)` when the entry does not start a node and its
key is below `last_key`; in a node with a cut in order that is the case when
the key is below the key of the last entry of the node.  An entry that starts a
node is accepted whatever its key and version are, and an entry with the key
`last_key` whose version fails the ancestor test of Case 3 is accepted without
a look at the version order. -/
theorem entry_add_rejects_key_below_last (btree : castle_btree_type)
    (hk : is_total_order_cmp btree.key_compare) (st : Versions)
    (level : castle_da_merge_level) (hw : WFL level) (nb key version : Nat)
    (cdb : c_disk_blk_t) :
    (level.next_idx ≠ 0 → ∀ lk, level.last_key = some lk → btree.key_compare key lk < 0 →
      castle_da_entry_add_level btree st level nb key version cdb = Res.bug) ∧
    (∀ pre sc post lk, Cut btree st level pre sc post lk →
      ∀ l, (node_slots level).getLast? = some l → btree.key_compare key l.key < 0 →
      castle_da_entry_add_level btree st level nb key version cdb = Res.bug) ∧
    (level.node_c2b = none →
      ∃ l1 nb1, castle_da_entry_add_level btree st level nb key version cdb =
        Res.ok (l1, nb1)) ∧
    (level.next_idx ≠ 0 → level.next_idx ≠ -1 → ∀ lk, level.last_key = some lk →
      btree.key_compare key lk = 0 →
      castle_version_is_ancestor st version level.valid_version = Res.ok false →
      ∃ l1 nb1, castle_da_entry_add_level btree st level nb key version cdb =
        Res.ok (l1, nb1)) := by
  refine ⟨fun hpos lk hlk hlt => entry_add_level_key_below btree st level nb key version cdb lk
    hpos hlk hlt, ?_, ?_, ?_⟩
  · intro pre sc post lk C l hl hlt
    have hne : level.node_c2b ≠ none := by
      intro hn
      rw [node_slots_of_none hn] at hl
      cases hl
    have hlen : 0 < (node_slots level).length := by
      cases hx : node_slots level with
      | nil => rw [hx] at hl; cases hl
      | cons a b => simp
    have hpos : level.next_idx ≠ 0 := by
      rcases (hw.some_case hne).1 with h1 | h1
      · omega
      · omega
    have hmem : l ∈ sc :: post := by
      rw [C.slots] at hl
      have : (sc :: post).getLast? = some l := by
        rw [List.getLast?_append] at hl
        cases hx : (sc :: post).getLast? with
        | none => simp at hx
        | some x =>
          rw [hx] at hl
          simpa using hl
      exact List.mem_of_getLast?_eq_some this
    have hl0 := C.same l hmem
    have hlt2 : btree.key_compare key lk < 0 := by
      by_contra hc
      have h1 : 0 ≤ btree.key_compare lk l.key := by
        have := cmp_zero_symm hk hl0; omega
      have := cmp_ge_trans hk h1 (by omega : 0 ≤ btree.key_compare key lk)
      omega
    exact entry_add_level_key_below btree st level nb key version cdb lk hpos C.key hlt2
  · intro hn
    have := hw.none_case hn
    exact entry_add_level_none_returns btree st level nb key version cdb hn this.1 (by omega)
  · intro hpos hfull lk hlk h0 hanc
    have hne : level.node_c2b ≠ none := by
      intro hn
      exact hpos (hw.none_case hn).1
    cases hn : level.node_c2b with
    | none => exact absurd hn hne
    | some p =>
      obtain ⟨blk, node⟩ := p
      have hidx : level.next_idx = (node.slots.length : Int) := by
        rcases (hw.some_case hne).1 with h1 | h1
        · exact absurd h1 hfull
        · rw [h1]; simp [node_slots, hn]
      exact entry_add_level_some_returns btree st level nb key version cdb blk node lk hn hidx
        hpos hlk (by omega) (fun _ => ⟨false, hanc, fun hb => by cases hb⟩)

/-- A node of the forest 0 -> 1 -> 2, 0 -> 3 that holds `(5,1)`: the entry
`(4,1)` is rejected. -/
theorem entry_add_rejects_key_below_last_witness :
    is_total_order_cmp (nat_btree 4).key_compare ∧
    WFL (e5_level [merge_slot 5 1 (7, 1)]) ∧
    (node_slots (e5_level [merge_slot 5 1 (7, 1)])).getLast? = some (merge_slot 5 1 (7, 1)) ∧
    (nat_btree 4).key_compare 4 (merge_slot 5 1 (7, 1)).key < 0 ∧
    castle_da_entry_add_level (nat_btree 4) e5_versions (e5_level [merge_slot 5 1 (7, 1)]) 2
      4 1 (7, 0) = Res.bug :=
  ⟨nat_btree_total 4, ⟨fun h => (by cases h), fun _ => ⟨Or.inr rfl, by decide, by decide⟩⟩,
   rfl, by decide,
   (entry_add_rejects_key_below_last (nat_btree 4) (nat_btree_total 4) e5_versions
     (e5_level [merge_slot 5 1 (7, 1)])
     ⟨fun h => (by cases h), fun _ => ⟨Or.inr rfl, by decide, by decide⟩⟩ 2 4 1 (7, 0)).2.1
     [] (merge_slot 5 1 (7, 1)) [] 5
     ⟨rfl, rfl, rfl,
      (by show castle_version_is_ancestor e5_versions 0 1 = Res.ok true; decide),
      by decide, by decide, by decide, Or.inl rfl, by decide, by decide⟩
     (merge_slot 5 1 (7, 1)) rfl (by decide)⟩

/-! ## A merge that fits into one node -/

theorem chain_pairwise_lt {α : Type} {c : α → α → Int} (h : is_total_order_cmp c) (l : List α)
    (hl : l.Chain' (fun a b => c a b < 0)) : l.Pairwise (fun a b => c a b < 0) := by
  haveI : IsTrans α (fun a b => c a b < 0) :=
    ⟨fun a b d h1 h2 => cmp_lt_of_lt_of_le h h1 (by omega)⟩
  exact List.chain'_iff_pairwise.1 hl

/-- Between two entries `castle_da_nodes_complete` does nothing while the node at
depth 0 is not full. -/
theorem nodes_complete_idle (btree : castle_btree_type) (st : Versions)
    (merge : struct_castle_da_merge) (level : castle_da_merge_level)
    (hl : merge.levels[0]? = some level) (hn : 0 ≤ level.next_idx) :
    castle_da_nodes_complete btree st merge 0 false = Res.ok merge := by
  have hlen := getElem?_lt_length hl
  rw [castle_da_nodes_complete, if_neg (by omega)]
  simp only [hl, Bool.false_and, Bool.false_eq_true, if_false]
  obtain ⟨n, hn2⟩ : ∃ n, merge.levels.length - 0 = n + 1 := ⟨merge.levels.length - 1, by omega⟩
  rw [hn2, castle_da_nodes_complete_up]
  simp only [hl]
  rw [if_neg (by omega)]
  simp only [castle_da_nodes_complete_down]

/-- At the end of the stream the node at depth 0 is the root when depth 1 is
empty: `castle_da_nodes_complete` returns at once. -/
theorem nodes_complete_root (btree : castle_btree_type) (st : Versions)
    (merge : struct_castle_da_merge) (d : Nat) (level up : castle_da_merge_level)
    (hl : merge.levels[d]? = some level) (hn : level.next_idx < 0)
    (hu : merge.levels[d + 1]? = some up) (hz : up.next_idx = 0) :
    castle_da_nodes_complete btree st merge d true = Res.ok merge := by
  have hlen := getElem?_lt_length hl
  rw [castle_da_nodes_complete, if_neg (by omega)]
  simp only [hl, hu, hn, hz, Bool.true_and, decide_True, if_true]

/-- The loop of `castle_da_merge_complete` leaves alone the depths whose
`next_idx` is not positive. -/
theorem merge_complete_loop_idle (btree : castle_btree_type) (st : Versions) (fuel : Nat) :
    ∀ (todo i : Nat) (merge : struct_castle_da_merge),
      (∀ j, i ≤ j → j < i + todo → ∃ lv, merge.levels[j]? = some lv ∧ lv.next_idx ≤ 0) →
      castle_da_merge_complete_loop btree st fuel todo i merge = Res.ok merge := by
  intro todo
  induction todo with
  | zero => intro i merge _; rfl
  | succ todo ih =>
    intro i merge h
    obtain ⟨lv, h1, h2⟩ := h i (le_refl _) (by omega)
    have hlevel : castle_da_merge_complete_level btree st i fuel merge = Res.ok merge := by
      cases fuel with
      | zero =>
        rw [castle_da_merge_complete_level]
        simp only [h1]
        rw [if_neg (by omega)]
      | succ f =>
        rw [castle_da_merge_complete_level]
        simp only [h1]
        rw [if_neg (by omega)]
    rw [castle_da_merge_complete_loop, hlevel]
    exact ih (i + 1) merge (fun j hj1 hj2 => h j (by omega) (by omega))

theorem entry_add_level_none_leaf (btree : castle_btree_type) (st : Versions)
    (level : castle_da_merge_level) (nb key version : Nat) (cdb : c_disk_blk_t)
    (l1 : castle_da_merge_level) (nb1 : Nat)
    (hn : level.node_c2b = none)
    (h : castle_da_entry_add_level btree st level nb key version cdb = Res.ok (l1, nb1)) :
    ∃ blk node1, l1.node_c2b = some (blk, node1) ∧ node1.is_leaf = true := by
  obtain ⟨h0, hv, -⟩ := entry_add_level_none btree st level nb key version cdb l1 nb1 hn h
  have hv2 : ¬ level.valid_end_idx ≥ 0 := by omega
  have h2 : castle_da_entry_add_level btree st
      { level with node_c2b := some ((1, nb),
          castle_da_node_buffer_init { version := 0, is_leaf := false, slots := [] }) }
      (nb + 1) key version cdb = Res.ok (l1, nb1) := by
    rw [castle_da_entry_add_level] at h ⊢
    simp only [hn, ne_eq, h0, not_true_eq_false, if_false, hv2] at h ⊢
    exact h
  obtain ⟨-, node1, hadd, e2, -⟩ :=
    entry_add_level_some btree st _ (nb + 1) key version cdb _ _ l1 nb1 rfl h2
  exact ⟨_, node1, e2, (btree_entry_add_ok hadd).2.2.2.1⟩

theorem entry_compare_lt {btree : castle_btree_type} {vc : Nat → Nat → Int} {a b : kv_entry}
    (h : entry_compare btree vc a b < 0) :
    btree.key_compare a.k b.k ≤ 0 ∧ (btree.key_compare a.k b.k = 0 → vc b.v a.v < 0) := by
  simp only [entry_compare, castle_kv_compare] at h
  by_cases hz : btree.key_compare a.k b.k = 0
  · simp only [hz, ne_eq, not_true_eq_false, if_false] at h
    exact ⟨by omega, fun _ => h⟩
  · simp only [ne_eq, hz, not_false_eq_true, if_true] at h
    exact ⟨by omega, fun hc => absurd hc hz⟩

/-- The first entry of the stream starts the node at depth 0. -/
theorem one_node_first (btree : castle_btree_type) (hk : is_total_order_cmp btree.key_compare)
    (st : Versions) (nb : Nat) (e : kv_entry)
    (hns : ∀ node : castle_btree_node, node.slots.length ≤ 1 → btree.need_split node 0 = false) :
    ∃ l1, castle_da_entry_add_level btree st init_level nb e.k e.v e.cdb = Res.ok (l1, nb + 1) ∧
      OneNode btree e l1 [e] := by
  obtain ⟨l1, nb1, hr⟩ := entry_add_level_none_returns btree st init_level nb e.k e.v e.cdb
    rfl rfl (by decide)
  obtain ⟨-, -, e1, node1, e2, e3, e4, e5, e6, e7, e8⟩ :=
    entry_add_level_none btree st init_level nb e.k e.v e.cdb l1 nb1 rfl hr
  obtain ⟨blk, node2, f1, f2⟩ :=
    entry_add_level_none_leaf btree st init_level nb e.k e.v e.cdb l1 nb1 rfl hr
  have hnode : node2 = node1 := by
    rw [e3] at f1
    exact ((Prod.mk.inj (Option.some.inj f1)).2).symm
  subst hnode
  subst e1
  rw [hns node2 (by rw [e2]; simp)] at e5
  refine ⟨l1, hr, ⟨⟨_, node2, e3, f2, by rw [e2]; rfl⟩, by rw [e5]; simp, e4,
    ⟨e.k, e, e7, rfl, cmp_refl hk _⟩, ?_, Or.inl ⟨⟨e, List.mem_singleton.2 rfl, e8⟩, ?_⟩⟩⟩
  · intro l hl
    rw [List.mem_singleton.1 hl, cmp_refl hk]
  · intro l hl
    rw [List.mem_singleton.1 hl, cmp_refl hk]

/-- A further entry of a strictly ascending stream is appended to the node at
depth 0, when it is not an entry of version 0 that follows an entry of its key
beyond the first key. -/
theorem one_node_next {btree : castle_btree_type} {st : Versions} (hp : Processed st)
    (hk : is_total_order_cmp btree.key_compare) (h : kv_entry)
    (level : castle_da_merge_level) (P : List kv_entry) (nb : Nat) (e : kv_entry)
    (hns : ∀ node : castle_btree_node, node.slots.length ≤ P.length + 1 →
      btree.need_split node 0 = false)
    (hj : OneNode btree h level P)
    (hlt : ∀ p ∈ P, entry_compare btree (castle_version_compare st) p e < 0)
    (hin : ∀ p ∈ P, InForest st p.v) (hnew : InForest st e.v)
    (hroot : ∀ l, P.getLast? = some l → btree.key_compare e.k l.k = 0 → e.v = 0 →
      btree.key_compare l.k h.k = 0) :
    ∃ l1, castle_da_entry_add_level btree st level nb e.k e.v e.cdb = Res.ok (l1, nb) ∧
      OneNode btree h l1 (P ++ [e]) := by
  obtain ⟨blk, node, hn, hleaf, hslots⟩ := hj.node
  obtain ⟨lk, l, hlk, hlast, hllk⟩ := hj.key
  have hlP : l ∈ P := List.mem_of_getLast?_eq_some hlast
  have hPpos : 0 < P.length := List.length_pos_of_mem hlP
  have hidx : level.next_idx = (node.slots.length : Int) := by
    rw [hj.idx, hslots, List.length_map]
  have hpos : level.next_idx ≠ 0 := by rw [hj.idx]; omega
  have hle := (entry_compare_lt (hlt l hlP)).1
  have hel : 0 ≤ btree.key_compare e.k l.k := (cmp_flip hk _ _).2 hle
  have hge : 0 ≤ btree.key_compare e.k lk := cmp_ge_trans hk (by omega) hel
  have hroot0 : InForest st 0 := (in_forest_of_ok hp hnew).1
  -- the key of `e` against the keys of `P` when it equals `last_key`
  have hsame : btree.key_compare e.k lk = 0 → btree.key_compare e.k l.k = 0 :=
    fun hz => cmp_eq_of_eq hk hz hllk
  have hanc : btree.key_compare e.k lk = 0 →
      ∃ b, castle_version_is_ancestor st e.v level.valid_version = Res.ok b ∧
        (b = true → e.v ≠ level.valid_version) := by
    intro hz
    rcases hj.version with ⟨⟨p, hpP, hvv⟩, hall⟩ | ⟨hvv, hnot⟩
    · obtain ⟨b, hb⟩ := is_ancestor_total hp hnew (hin p hpP)
      rw [hvv]
      refine ⟨b, hb, fun _ hc => ?_⟩
      have h1 : btree.key_compare l.k p.k = 0 := cmp_eq_of_eq hk (hall l hlP) (hall p hpP)
      have h2 : btree.key_compare p.k e.k = 0 :=
        cmp_eq_of_eq hk (cmp_zero_symm hk h1) (hsame hz)
      have h3 := (entry_compare_lt (hlt p hpP)).2 h2
      rw [hc, version_compare_eq] at h3
      omega
    · obtain ⟨b, hb⟩ := is_ancestor_total hp hnew hroot0
      rw [hvv]
      refine ⟨b, hb, fun _ hc => ?_⟩
      exact hnot l hlast (hroot l hlast (hsame hz) hc)
  obtain ⟨l1, nb1, hr⟩ := entry_add_level_some_returns btree st level nb e.k e.v e.cdb blk node
    lk hn hidx hpos hlk hge hanc
  obtain ⟨e1, node1, hadd, e2, e3, e4, hcut⟩ :=
    entry_add_level_some btree st level nb e.k e.v e.cdb blk node l1 nb1 hn hr
  subst e1
  obtain ⟨-, -, -, g1, g2⟩ := btree_entry_add_ok hadd
  have hs1 : node1.slots = (P ++ [e]).map (fun e => merge_slot e.k e.v e.cdb) := by
    have ht : level.next_idx.toNat = node.slots.length := by rw [hidx]; simp
    rw [g2, ht, List.take_length, List.drop_length, List.append_nil, hslots, List.map_append]
    rfl
  rw [hns node1 (by rw [hs1, List.length_map, List.length_append]; simp)] at e4
  have habove : ∀ x ∈ P ++ [e], 0 ≤ btree.key_compare x.k h.k := by
    intro x hx
    rcases List.mem_append.1 hx with hx | hx
    · exact hj.above x hx
    · rw [List.mem_singleton.1 hx]
      exact cmp_ge_trans hk (hj.above l hlP) hel
  refine ⟨l1, hr, ⟨⟨blk, node1, e2, by rw [g1, hleaf], hs1⟩, ?_, by rw [e3, hj.buffer], ?_,
    habove, ?_⟩⟩
  · rw [e4, hj.idx, List.length_append]; simp
  · rcases hcut with ⟨c0, -⟩ | ⟨-, lk2, c1, -, c2⟩
    · exact absurd c0 hpos
    · rw [hlk] at c1
      cases c1
      rcases c2 with ⟨-, c3, -⟩ | ⟨c0, -, -, c3, -⟩ | ⟨c0, -, c3, -⟩
      · exact ⟨e.k, e, c3, by simp, cmp_refl hk _⟩
      · exact ⟨lk, e, by rw [c3, hlk], by simp, c0⟩
      · exact ⟨lk, e, by rw [c3, hlk], by simp, c0⟩
  · rcases hcut with ⟨c0, -⟩ | ⟨-, lk2, c1, -, c2⟩
    · exact absurd c0 hpos
    · rw [hlk] at c1
      cases c1
      rcases c2 with ⟨c0, -, -, c3⟩ | ⟨c0, c4, c5, -, -, c3⟩ | ⟨c0, -, -, -, c3⟩
      · -- a new key: `valid_version` becomes 0
        refine Or.inr ⟨c3, fun x hx => ?_⟩
        rw [List.getLast?_append, List.getLast?_singleton] at hx
        cases hx
        have h0 : 0 ≤ btree.key_compare lk l.k := by rw [cmp_zero_symm hk hllk]
        have h1 : 0 < btree.key_compare e.k l.k := cmp_gt_of_gt_ge hk h0 c0
        have h2 := cmp_gt_of_gt_ge hk (hj.above l hlP) h1
        omega
      · -- a strict ancestor of `valid_version`
        rcases hj.version with ⟨-, hall⟩ | ⟨hvv, -⟩
        · refine Or.inl ⟨⟨e, by simp, c3⟩, fun x hx => ?_⟩
          rcases List.mem_append.1 hx with hx | hx
          · exact hall x hx
          · rw [List.mem_singleton.1 hx]
            exact cmp_eq_of_eq hk (hsame c0) (cmp_zero_symm hk (hall l hlP))
        · rw [hvv] at c4 c5
          exact absurd (is_ancestor_of_root hp c4) c5
      · rcases hj.version with ⟨⟨p, hpP, hvv⟩, hall⟩ | ⟨hvv, hnot⟩
        · refine Or.inl ⟨⟨p, by simp [hpP], by rw [c3, hvv]⟩, fun x hx => ?_⟩
          rcases List.mem_append.1 hx with hx | hx
          · exact hall x hx
          · rw [List.mem_singleton.1 hx]
            exact cmp_eq_of_eq hk (hsame c0) (cmp_zero_symm hk (hall l hlP))
        · refine Or.inr ⟨by rw [c3, hvv], fun x hx => ?_⟩
          rw [List.getLast?_append, List.getLast?_singleton] at hx
          cases hx
          intro hc
          exact hnot l hlast
            (cmp_eq_of_eq hk (cmp_zero_symm hk (hsame c0)) (cmp_zero_symm hk hc))

/-- The merging loop of `castle_da_merge` on a stream that fits into one node:
with fuel for every entry it ends, only the level at depth 0 has changed, and
its node holds the stream. -/
theorem one_node_loop {btree : castle_btree_type} {st : Versions} (hp : Processed st)
    (hk : is_total_order_cmp btree.key_compare) (h : kv_entry)
    (rest : List castle_da_merge_level) :
    ∀ (fuel : Nat) (iter : c_merged_iter_t) (as bs P : List kv_entry)
      (level : castle_da_merge_level) (nb : Nat),
      Two iter as bs → as.length + bs.length ≤ fuel →
      (∀ node : castle_btree_node, node.slots.length ≤ P.length + (as.length + bs.length) →
        btree.need_split node 0 = false) →
      (P ++ sort_merge btree (castle_version_compare st) as bs).Pairwise
        (fun a b => entry_compare btree (castle_version_compare st) a b < 0) →
      (∀ x ∈ P ++ sort_merge btree (castle_version_compare st) as bs, InForest st x.v) →
      (P ++ sort_merge btree (castle_version_compare st) as bs).Chain'
        (fun x y => btree.key_compare y.k x.k = 0 → y.v = 0 → btree.key_compare x.k h.k = 0) →
      (∀ x, (P ++ sort_merge btree (castle_version_compare st) as bs).head? = some x → x = h) →
      ((P = [] ∧ level = init_level) ∨ OneNode btree h level P) →
      ∃ level1 nb1,
        castle_da_merge_loop btree (castle_version_compare st) st fuel iter
          { levels := level :: rest, next_blk := nb, written := [] } =
          Res.ok { levels := level1 :: rest, next_blk := nb1, written := [] } ∧
        ((P ++ sort_merge btree (castle_version_compare st) as bs = [] ∧ level1 = init_level) ∨
          OneNode btree h level1 (P ++ sort_merge btree (castle_version_compare st) as bs)) := by
  have ht := entry_compare_total btree _ hk (castle_version_compare_total st)
  have hstop : ∀ (fuel : Nat) (iter : c_merged_iter_t) (as bs P : List kv_entry)
      (level : castle_da_merge_level) (nb : Nat), Two iter as bs →
      castle_ct_merged_iter_has_next iter = false →
      ((P = [] ∧ level = init_level) ∨ OneNode btree h level P) →
      ∃ level1 nb1,
        castle_da_merge_loop btree (castle_version_compare st) st fuel iter
          { levels := level :: rest, next_blk := nb, written := [] } =
          Res.ok { levels := level1 :: rest, next_blk := nb1, written := [] } ∧
        ((P ++ sort_merge btree (castle_version_compare st) as bs = [] ∧ level1 = init_level) ∨
          OneNode btree h level1 (P ++ sort_merge btree (castle_version_compare st) as bs)) := by
    intro fuel iter as bs P level nb h2 hh hj
    have hnil : ¬ (as ≠ [] ∨ bs ≠ []) := by
      intro hc
      have := (two_has_next iter as bs h2).2 hc
      rw [hh] at this; cases this
    have has : as = [] := by by_contra hc; exact hnil (Or.inl hc)
    have hbs : bs = [] := by by_contra hc; exact hnil (Or.inr hc)
    subst has; subst hbs
    refine ⟨level, nb, ?_, ?_⟩
    · cases fuel with
      | zero => rw [castle_da_merge_loop, hh]; rfl
      | succ f => rw [castle_da_merge_loop, hh]; rfl
    · simp only [sort_merge_nil_left, List.append_nil]
      rcases hj with ⟨h1, h3⟩ | h1
      · exact Or.inl ⟨h1, h3⟩
      · exact Or.inr h1
  intro fuel
  induction fuel with
  | zero =>
    intro iter as bs P level nb h2 hf _ _ _ _ _ hj
    have has : as = [] := List.length_eq_zero.1 (by omega)
    have hbs : bs = [] := List.length_eq_zero.1 (by omega)
    have hn : castle_ct_merged_iter_has_next iter = false := by
      cases hh : castle_ct_merged_iter_has_next iter with
      | false => rfl
      | true =>
        rcases (two_has_next iter as bs h2).1 hh with h1 | h1
        · exact absurd has h1
        · exact absurd hbs h1
    exact hstop 0 iter as bs P level nb h2 hn hj
  | succ fuel ih =>
    intro iter as bs P level nb h2 hf hns hpw hin hch hhd hj
    cases hh : castle_ct_merged_iter_has_next iter with
    | false => exact hstop (fuel + 1) iter as bs P level nb h2 hh hj
    | true =>
      have hne := (two_has_next iter as bs h2).1 hh
      obtain ⟨iter1, e, as1, bs1, n1, n2, n3, n4⟩ :=
        two_next btree (castle_version_compare st) ht iter as bs h2 hne
      have hS : P ++ sort_merge btree (castle_version_compare st) as bs =
          (P ++ [e]) ++ sort_merge btree (castle_version_compare st) as1 bs1 := by
        rw [n3]; simp
      have hlt : ∀ p ∈ P, entry_compare btree (castle_version_compare st) p e < 0 := by
        intro p hpP
        rw [n3] at hpw
        exact (List.pairwise_append.1 hpw).2.2 p hpP e (List.mem_cons_self _ _)
      have hinP : ∀ p ∈ P, InForest st p.v := fun p hpP => hin p (List.mem_append_left _ hpP)
      have hnew : InForest st e.v := by
        apply hin
        rw [n3]
        exact List.mem_append_right _ (List.mem_cons_self _ _)
      -- the call of `castle_da_entry_add`
      have hadd : ∃ l1 nb1,
          castle_da_entry_add_level btree st level nb e.k e.v e.cdb = Res.ok (l1, nb1) ∧
          OneNode btree h l1 (P ++ [e]) := by
        rcases hj with ⟨h1, h3⟩ | h1
        · subst h1; subst h3
          have he : e = h := hhd e (by rw [n3]; rfl)
          subst he
          obtain ⟨l1, a1, a2⟩ := one_node_first btree hk st nb e
            (fun node hl => hns node (by simp only [List.length_nil]; omega))
          exact ⟨l1, nb + 1, a1, a2⟩
        · obtain ⟨l1, a1, a2⟩ := one_node_next hp hk h level P nb e
            (fun node hl => hns node (by omega)) h1 hlt hinP hnew
            (fun l hl => by
              have hi : (P ++ sort_merge btree (castle_version_compare st) as bs)[P.length - 1]? =
                  some l := by
                have hpos : 0 < P.length :=
                  List.length_pos_of_mem (List.mem_of_getLast?_eq_some hl)
                rw [List.getElem?_append_left (by omega), ← List.getLast?_eq_getElem?]
                exact hl
              have hi2 : (P ++ sort_merge btree (castle_version_compare st) as bs)[P.length - 1 + 1]? =
                  some e := by
                have hpos : 0 < P.length :=
                  List.length_pos_of_mem (List.mem_of_getLast?_eq_some hl)
                rw [n3, List.getElem?_append_right (by omega)]
                have : P.length - 1 + 1 - P.length = 0 := by omega
                rw [this, List.getElem?_cons_zero]
              exact chain_getElem? _ _ l e hch hi hi2)
          exact ⟨l1, nb, a1, a2⟩
      obtain ⟨l1, nb1, a1, a2⟩ := hadd
      have hidle : castle_da_nodes_complete btree st
          { levels := l1 :: rest, next_blk := nb1, written := [] } 0 false =
          Res.ok { levels := l1 :: rest, next_blk := nb1, written := [] } :=
        nodes_complete_idle btree st _ l1 (List.getElem?_cons_zero) (by rw [a2.idx]; omega)
      rw [hS] at hpw hin hch hhd ⊢
      obtain ⟨level1, nb2, i1, i2⟩ := ih iter1 as1 bs1 (P ++ [e]) l1 nb1 n2 (by omega)
        (fun node hl => hns node (by rw [List.length_append] at hl; simp at hl; omega))
        hpw hin hch hhd (Or.inr a2)
      refine ⟨level1, nb2, ?_, i2⟩
      rw [castle_da_merge_loop, hh]
      simp only [if_true]
      rw [n1]
      dsimp only
      rw [castle_da_entry_add]
      simp only [List.getElem?_cons_zero, a1, List.set_cons_zero]
      rw [hidle]
      exact i1

theorem merge_complete_level_idle (btree : castle_btree_type) (st : Versions) (i fuel : Nat)
    (merge : struct_castle_da_merge) (lv : castle_da_merge_level)
    (h1 : merge.levels[i]? = some lv) (h2 : lv.next_idx ≤ 0) :
    castle_da_merge_complete_level btree st i fuel merge = Res.ok merge := by
  cases fuel with
  | zero =>
    rw [castle_da_merge_complete_level]
    simp only [h1]
    rw [if_neg (by omega)]
  | succ f =>
    rw [castle_da_merge_complete_level]
    simp only [h1]
    rw [if_neg (by omega)]

/-- At the end of a stream that went into one node `castle_da_merge_complete`
marks the node at depth 0 complete and leaves it as the root. -/
theorem merge_complete_one_node (btree : castle_btree_type) (st : Versions) (fuel n nb : Nat)
    (level : castle_da_merge_level) (hpos : 0 < level.next_idx) :
    castle_da_merge_complete btree st (fuel + 1)
      { levels := level :: List.replicate (n + 1) init_level, next_blk := nb, written := [] } =
    Res.ok { levels := { level with next_idx := -1 } :: List.replicate (n + 1) init_level,
             next_blk := nb, written := [] } := by
  have hroot : castle_da_nodes_complete btree st
      { levels := { level with next_idx := -1 } :: List.replicate (n + 1) init_level,
        next_blk := nb, written := [] } 0 true =
      Res.ok { levels := { level with next_idx := -1 } :: List.replicate (n + 1) init_level,
               next_blk := nb, written := [] } :=
    nodes_complete_root btree st _ 0 { level with next_idx := -1 } init_level
      List.getElem?_cons_zero (by show (-1 : Int) < 0; omega) (by simp [List.replicate_succ]) rfl
  rw [castle_da_merge_complete]
  simp only [List.length_cons, List.length_replicate]
  rw [castle_da_merge_complete_loop, castle_da_merge_complete_level]
  simp only [List.getElem?_cons_zero, hpos, if_true, List.set_cons_zero]
  rw [hroot]
  dsimp only
  rw [merge_complete_level_idle btree st 0 fuel _ { level with next_idx := -1 }
    List.getElem?_cons_zero (by show (-1 : Int) ≤ 0; omega)]
  dsimp only
  apply merge_complete_loop_idle
  intro j hj1 hj2
  refine ⟨init_level, ?_, by decide⟩
  obtain ⟨j2, rfl⟩ : ∃ j2, j = j2 + 1 := ⟨j - 1, by omega⟩
  rw [List.getElem?_cons_succ, List.getElem?_replicate, if_pos (by omega)]

/-- Without entries `castle_da_merge_complete` changes nothing. -/
theorem merge_complete_empty (btree : castle_btree_type) (st : Versions) (fuel n : Nat) :
    castle_da_merge_complete btree st fuel (castle_da_merge_init n) =
      Res.ok (castle_da_merge_init n) := by
  rw [castle_da_merge_complete]
  apply merge_complete_loop_idle
  intro j _ hj2
  refine ⟨init_level, ?_, by decide⟩
  have hlen : (castle_da_merge_init n).levels.length = n := by
    simp [castle_da_merge_init]
  have hl : (castle_da_merge_init n).levels = List.replicate n init_level := rfl
  rw [hl, List.getElem?_replicate, if_pos (by omega)]

/-- C11 (counterexample): with nodes of eight slots `castle_da_merge` does not
produce a tree for every pair of inputs that fit into one node.  Two trees that
both hold `(5, v1)` stop at the assertion on equal versions, and so do the trees
`(4,v1), (5,v3)` and `(5,v0)`, whose merged stream is ascending and free of
duplicates: the entry `(5,v0)` meets `valid_version == 0`. -/
theorem merge_one_node_counterexample :
    (∀ node : castle_btree_node, node.slots.length ≤ 3 →
      (nat_btree 8).need_split node 0 = false) ∧
    castle_da_merge (nat_btree 8) (castle_version_compare e5_versions) e5_versions 10 4
      [{ k := 5, v := 1, cdb := (7, 1) }] [{ k := 5, v := 1, cdb := (8, 1) }] = Res.bug ∧
    entry_compare (nat_btree 8) (castle_version_compare e5_versions)
      { k := 4, v := 1, cdb := (7, 1) } { k := 5, v := 3, cdb := (7, 2) } < 0 ∧
    entry_compare (nat_btree 8) (castle_version_compare e5_versions)
      { k := 5, v := 3, cdb := (7, 2) } { k := 5, v := 0, cdb := (8, 1) } < 0 ∧
    castle_da_merge (nat_btree 8) (castle_version_compare e5_versions) e5_versions 10 4
      [{ k := 4, v := 1, cdb := (7, 1) }, { k := 5, v := 3, cdb := (7, 2) }]
      [{ k := 5, v := 0, cdb := (8, 1) }] = Res.bug := by
  refine ⟨fun node hl => ?_, by decide, by decide, by decide, by decide⟩
  simp only [nat_btree, castle_btree_node.used, decide_eq_false_iff_not]
  omega

/-- C11 (amended): over a processed forest, for two streams whose merged stream
is strictly ascending in the composite order and has no entry of version 0 that
follows an entry of its key beyond the first key, when `need_split` does not
fire on a node with all the entries, `castle_da_merge` returns: no node was
handed back, the depths from 1 on are untouched (no pivot entry at depth 1), and
the node at depth 0 is a leaf that is marked complete and holds all the entries
in merged order, as many as the two streams have together. -/
theorem merge_fits_one_node (adds : List AddCall) (hv : valid_forest adds)
    (fuel0 : Nat) (hfuel0 : 2 * adds.length + 2 ≤ fuel0) (st : Versions)
    (hr : castle_versions_process fuel0 (add_all adds) = Res.ok st)
    (btree : castle_btree_type) (hk : is_total_order_cmp btree.key_compare)
    (max_btree_depth fuel : Nat) (hdepth : 2 ≤ max_btree_depth) (A B : List kv_entry)
    (hfuel : A.length + B.length ≤ fuel)
    (hns : ∀ node : castle_btree_node, node.slots.length ≤ A.length + B.length →
      btree.need_split node 0 = false)
    (hS : (sort_merge btree (castle_version_compare st) A B).Chain'
      (fun a b => entry_compare btree (castle_version_compare st) a b < 0))
    (hin : ∀ e ∈ A ++ B, e.v ∈ ids adds)
    (hroot : ∀ h, (sort_merge btree (castle_version_compare st) A B).head? = some h →
      (sort_merge btree (castle_version_compare st) A B).Chain'
        (fun x y => btree.key_compare y.k x.k = 0 → y.v = 0 → btree.key_compare x.k h.k = 0)) :
    ∃ merge,
      castle_da_merge btree (castle_version_compare st) st max_btree_depth fuel A B =
        Res.ok merge ∧
      merge.written = [] ∧
      (∀ d, 1 ≤ d → d < max_btree_depth → merge.levels[d]? = some init_level) ∧
      (A ++ B = [] → merge.levels[0]? = some init_level) ∧
      (A ++ B ≠ [] → ∃ level blk node, merge.levels[0]? = some level ∧
        level.node_c2b = some (blk, node) ∧ level.next_idx = -1 ∧ level.buffer.slots = [] ∧
        node.is_leaf = true ∧
        node.slots = (sort_merge btree (castle_version_compare st) A B).map
          (fun e => merge_slot e.k e.v e.cdb) ∧
        node.slots.length = A.length + B.length) := by
  obtain ⟨root, st1, f, h1, hd⟩ := process_done hv fuel0 hfuel0
  rw [hr] at h1
  cases h1
  have hp : Processed st := ⟨adds, root, f, hv, hd⟩
  have ht := entry_compare_total btree (castle_version_compare st) hk
    (castle_version_compare_total st)
  obtain ⟨iter, hi, h2⟩ := two_init A B
  obtain ⟨hperm, -⟩ := sort_merge_sorted_perm btree (castle_version_compare st) ht A B
  have hlen : (sort_merge btree (castle_version_compare st) A B).length =
      A.length + B.length := by rw [hperm.length_eq, List.length_append]
  obtain ⟨n, rfl⟩ : ∃ n, max_btree_depth = n + 2 := ⟨max_btree_depth - 2, by omega⟩
  have hinit : castle_da_merge_init (n + 2) =
      { levels := init_level :: List.replicate (n + 1) init_level, next_blk := 1,
        written := [] } := rfl
  have hget : ∀ (x : castle_da_merge_level) (d : Nat), 1 ≤ d → d < n + 2 →
      (x :: List.replicate (n + 1) init_level)[d]? = some init_level := by
    intro x d hd1 hd2
    obtain ⟨d2, rfl⟩ : ∃ d2, d = d2 + 1 := ⟨d - 1, by omega⟩
    rw [List.getElem?_cons_succ, List.getElem?_replicate, if_pos (by omega)]
  cases hSe : sort_merge btree (castle_version_compare st) A B with
  | nil =>
    have hAB : A ++ B = [] := List.length_eq_zero.1 (by
      rw [List.length_append, ← hlen, hSe]; rfl)
    obtain ⟨level1, nb1, l1, l2⟩ := one_node_loop hp hk { k := 0, v := 0, cdb := (0, 0) }
      (List.replicate (n + 1) init_level) fuel iter A B [] init_level 1 h2 hfuel
      (fun node hl => hns node (by simpa using hl))
      (by rw [hSe]; exact List.Pairwise.nil) (by rw [hSe]; intro x hx; cases hx)
      (by rw [hSe]; exact List.chain'_nil) (by rw [hSe]; intro x hx; cases hx)
      (Or.inl ⟨rfl, rfl⟩)
    rw [hSe] at l2
    rcases l2 with ⟨-, l3⟩ | l3
    · subst l3
      have hnb : nb1 = 1 := by
        have hz : castle_ct_merged_iter_has_next iter = false := by
          cases hh : castle_ct_merged_iter_has_next iter with
          | false => rfl
          | true =>
            rcases (two_has_next iter A B h2).1 hh with h3 | h3
            · exact absurd (List.append_eq_nil.1 hAB).1 h3
            · exact absurd (List.append_eq_nil.1 hAB).2 h3
        cases fuel with
        | zero =>
          rw [castle_da_merge_loop, hz] at l1
          exact (struct_castle_da_merge.mk.inj (Res.ok.inj l1)).2.1.symm
        | succ f =>
          rw [castle_da_merge_loop, hz] at l1
          exact (struct_castle_da_merge.mk.inj (Res.ok.inj l1)).2.1.symm
      subst hnb
      refine ⟨castle_da_merge_init (n + 2), ?_, rfl, fun d hd1 hd2 => hget _ d hd1 hd2,
        fun _ => rfl, fun hne => absurd hAB hne⟩
      rw [castle_da_merge, hi]
      dsimp only
      rw [hinit, l1]
      dsimp only
      exact merge_complete_empty btree st fuel (n + 2)
    · obtain ⟨lk, l, -, hl, -⟩ := l3.key
      cases hl
  | cons h S1 =>
    have hfpos : 0 < fuel := by
      have : (h :: S1).length = A.length + B.length := by rw [← hSe]; exact hlen
      simp only [List.length_cons] at this
      omega
    obtain ⟨fuel1, rfl⟩ : ∃ f, fuel = f + 1 := ⟨fuel - 1, by omega⟩
    have hne : A ++ B ≠ [] := by
      intro hc
      have : (h :: S1).length = (A ++ B).length := by
        rw [← hSe, hlen, List.length_append]
      rw [hc] at this
      cases this
    have hinS : ∀ x ∈ sort_merge btree (castle_version_compare st) A B, InForest st x.v :=
      fun x hx => in_forest_of_mem hd hv (hin x (hperm.mem_iff.1 hx))
    obtain ⟨level1, nb1, l1, l2⟩ := one_node_loop hp hk h
      (List.replicate (n + 1) init_level) (fuel1 + 1) iter A B [] init_level 1 h2 hfuel
      (fun node hl => hns node (by simpa using hl))
      (by rw [List.nil_append]; exact chain_pairwise_lt ht _ hS)
      (by rw [List.nil_append]; exact hinS)
      (by rw [List.nil_append]; exact hroot h (by rw [hSe]; rfl))
      (by rw [List.nil_append, hSe]; intro x hx; exact (Option.some.inj hx).symm)
      (Or.inl ⟨rfl, rfl⟩)
    rw [List.nil_append] at l2
    rcases l2 with ⟨l3, -⟩ | l3
    · rw [hSe] at l3; cases l3
    · obtain ⟨blk, node, g1, g2, g3⟩ := l3.node
      have hpos : 0 < level1.next_idx := by
        rw [l3.idx, hSe]
        simp only [List.length_cons]
        omega
      have hfin : castle_da_merge btree (castle_version_compare st) st (n + 2) (fuel1 + 1) A B =
          Res.ok { levels := { level1 with next_idx := -1 } :: List.replicate (n + 1) init_level,
                   next_blk := nb1, written := [] } := by
        rw [castle_da_merge, hi]
        dsimp only
        rw [hinit, l1]
        dsimp only
        exact merge_complete_one_node btree st fuel1 n nb1 level1 hpos
      refine ⟨_, hfin, rfl, fun d hd1 hd2 => hget _ d hd1 hd2, fun hc => absurd hc hne,
        fun _ => ⟨{ level1 with next_idx := -1 }, blk, node, rfl, g1, rfl, ?_, g2, ?_, ?_⟩⟩
      · show level1.buffer.slots = []
        rw [l3.buffer]
        rfl
      · rw [g3, hSe]
      · rw [g3, List.length_map, hSe, ← hlen, hSe]

theorem e3_sort_merge :
    sort_merge (nat_btree 8) (castle_version_compare (versions_of chain_edges))
      e3_stream1 e3_stream2 =
      [{ k := 1, v := 2, cdb := (0, 3) }, { k := 1, v := 1, cdb := (0, 1) },
       { k := 2, v := 1, cdb := (0, 4) }, { k := 3, v := 1, cdb := (0, 2) }] := by
  simp only [sort_merge, e3_stream1, e3_stream2]
  rw [List.cons_merge_cons, if_neg (by decide), List.cons_merge_cons, if_pos (by decide),
    List.cons_merge_cons, if_neg (by decide)]
  simp

/-- The streams of example E3 over the chain 0 -> 1 -> 2 with nodes of eight
slots: the merge ends with the four entries in one leaf node at depth 0. -/
theorem merge_fits_one_node_witness :
    valid_forest chain_adds ∧ e3_stream1.length + e3_stream2.length ≤ 4 ∧
    ∃ merge,
      castle_da_merge (nat_btree 8) (castle_version_compare (versions_of chain_edges))
        (versions_of chain_edges) 10 4 e3_stream1 e3_stream2 = Res.ok merge ∧
      merge.written = [] ∧
      (∀ d, 1 ≤ d → d < 10 → merge.levels[d]? = some init_level) ∧
      (e3_stream1 ++ e3_stream2 = [] → merge.levels[0]? = some init_level) ∧
      (e3_stream1 ++ e3_stream2 ≠ [] → ∃ level blk node, merge.levels[0]? = some level ∧
        level.node_c2b = some (blk, node) ∧ level.next_idx = -1 ∧ level.buffer.slots = [] ∧
        node.is_leaf = true ∧
        node.slots = (sort_merge (nat_btree 8)
          (castle_version_compare (versions_of chain_edges)) e3_stream1 e3_stream2).map
          (fun e => merge_slot e.k e.v e.cdb) ∧
        node.slots.length = e3_stream1.length + e3_stream2.length) :=
  ⟨by decide, by decide,
   merge_fits_one_node chain_adds (by decide) 8 (by decide) (versions_of chain_edges)
     (versions_of_run chain_edges (by decide)) (nat_btree 8) (nat_btree_total 8) 10 4
     (by decide) e3_stream1 e3_stream2 (by decide)
     (fun node hl => by
       simp only [nat_btree, castle_btree_node.used, decide_eq_false_iff_not]
       simp only [e3_stream1, e3_stream2, List.length_cons, List.length_nil] at hl
       omega)
     (by
       rw [e3_sort_merge]
       exact List.Chain.cons (by decide) (List.Chain.cons (by decide)
         (List.Chain.cons (by decide) List.Chain.nil)))
     (by decide)
     (fun h _ => by
       rw [e3_sort_merge]
       exact List.Chain.cons (fun _ hv0 => absurd hv0 (by decide))
         (List.Chain.cons (fun _ hv0 => absurd hv0 (by decide))
           (List.Chain.cons (fun _ hv0 => absurd hv0 (by decide)) List.Chain.nil)))⟩

/-! ## The tree left by `castle_da_merge_complete` -/

/-- C12: the keys 1 to 5 merged into nodes of two slots, with four depths.  The
run returns; the leaves with the keys 1, 2 (block 1) and 3, 4 (block 3) and the
node of the pointers to them (block 2) were completed.  Two depths are left
holding a node: depth 2 holds the pointer to block 2, and depth 0 holds the leaf
with key 5 (block 5), which has not been completed and to which no slot at a
higher depth points. -/
theorem merge_complete_leaves_two_roots :
    castle_da_merge (nat_btree 2) (castle_version_compare chain_versions) chain_versions 4 20
      five_keys [] =
    Res.ok
      { levels :=
          [forced_level (1, 5) (merge_slot 5 1 (9, 5)), init_level,
           forced_level (1, 4) (merge_slot 4 0 (1, 2)), init_level],
        next_blk := 6,
        written :=
          [(0, (1, 1),
            { version := 0, is_leaf := true,
              slots := [merge_slot 1 1 (9, 1), merge_slot 2 1 (9, 2)] }),
           (0, (1, 3),
            { version := 0, is_leaf := true,
              slots := [merge_slot 3 1 (9, 3), merge_slot 4 1 (9, 4)] }),
           (1, (1, 2),
            { version := 0, is_leaf := true,
              slots := [merge_slot 2 0 (1, 1), merge_slot 4 0 (1, 3)] })] } := by
  decide

/-! ## The active tree of a doubling array -/

/-- A call of `castle_da_rwct_make` that returns 0: the counters, the tables,
the records and the lists afterwards. -/
theorem rwct_make_spec (env : da_env) (st st1 : da_state) (da : Nat)
    (d : castle_double_array) (hd : st.das[da]? = some d)
    (h : castle_da_rwct_make env st da = Res.ok (st1, 0)) :
    st1.castle_next_tree_seq = (st.castle_next_tree_seq + 1) % 2 ^ env.seq_bits ∧
    st1.castle_next_da_id = st.castle_next_da_id ∧
    st1.castle_ct_hash = st.cts.length :: st.castle_ct_hash ∧
    st1.castle_da_hash = st.castle_da_hash ∧
    ∃ l0, d.trees[0]? = some l0 ∧
      (l0 = [] →
        st1.cts = st.cts ++ [rwct_new env st d] ∧
        st1.das = st.das.set da { d with trees := d.trees.set 0 [st.cts.length] }) ∧
      (∀ old_ct rest, l0 = old_ct :: rest →
        ∃ old l1, (st.cts ++ [rwct_new env st d])[old_ct]? = some old ∧
          d.trees[1]? = some l1 ∧
          st1.cts = (st.cts ++ [rwct_new env st d]).set old_ct { old with level := 1 } ∧
          st1.das = st.das.set da
            { d with trees :=
                ((d.trees.set 0 rest).set 1 (old_ct :: l1)).set 0 (st.cts.length :: rest) }) := by
  rw [castle_da_rwct_make] at h
  by_cases hk : env.kmalloc (st.cts.length + st.das.length) = true
  · simp only [hk, Bool.not_true, Bool.false_eq_true, if_false, hd] at h
    by_cases hret : env.castle_version_root_update d.root_version
        st.castle_next_tree_seq (env.castle_btree_node_create d.root_version
          { seq := st.castle_next_tree_seq, item_count := 0,
            btree_type := env.VLBA_TREE_TYPE, dynamic := 1, da := d.id, level := 0,
            first_node := (0, 0), last_node := (0, 0), node_count := 0,
            mstore_key := env.INVAL_MSTORE_KEY }).1 ≠ 0
    · rw [if_pos hret] at h
      exact absurd (Prod.mk.inj (Res.ok.inj h)).2 hret
    · rw [if_neg hret] at h
      cases h0 : d.trees[0]? with
      | none => simp only [h0] at h; cases h
      | some l0 =>
        simp only [h0] at h
        cases l0 with
        | nil =>
          simp only [h0, castle_ct_hash_add] at h
          obtain ⟨h1, -⟩ := Prod.mk.inj (Res.ok.inj h)
          subst h1
          refine ⟨rfl, rfl, rfl, rfl, [], rfl, fun _ => ⟨rfl, rfl⟩, fun o r hc => by cases hc⟩
        | cons old_ct rest =>
          simp only [castle_ct_hash_add] at h
          cases ho : (st.cts ++ [rwct_new env st d])[old_ct]? with
          | none =>
            simp only [rwct_new] at ho
            simp only [ho] at h
            cases h
          | some old =>
            cases h1 : d.trees[1]? with
            | none =>
              simp only [rwct_new] at ho
              simp only [ho, h1] at h
              cases h
            | some l1 =>
              have ho2 := ho
              simp only [rwct_new] at ho2
              simp only [ho2, h1] at h
              have hlen : 0 < d.trees.length := by
                have := getElem?_lt_length h0
                exact this
              have hget : (((d.trees.set 0 rest).set 1 (old_ct :: l1)))[0]? = some rest := by
                rw [List.getElem?_set_ne (by decide), List.getElem?_set_eq_of_lt _ hlen]
              simp only [hget] at h
              obtain ⟨h2, -⟩ := Prod.mk.inj (Res.ok.inj h)
              subst h2
              refine ⟨rfl, rfl, rfl, rfl, old_ct :: rest, rfl,
                fun hc => (List.cons_ne_nil _ _ hc).elim, fun o r hc => ?_⟩
              obtain ⟨e1, e2⟩ := List.cons.inj hc
              subst e1; subst e2
              exact ⟨old, l1, ho, rfl, rfl, rfl⟩
  · simp only [hk, Bool.not_false, if_true] at h
    have := (Prod.mk.inj (Res.ok.inj h)).2
    simp [ENOMEM_neg] at this

theorem rwct_new_fields (env : da_env) (st : da_state) (d : castle_double_array) :
    (rwct_new env st d).seq = st.castle_next_tree_seq ∧ (rwct_new env st d).dynamic = 1 ∧
    (rwct_new env st d).level = 0 ∧ (rwct_new env st d).item_count = 0 ∧
    (rwct_new env st d).da = d.id :=
  ⟨rfl, rfl, rfl, rfl, rfl⟩

/-- C16: after a call of `castle_double_array_make` that returns 0 the new
doubling array is in the table, its level 0 holds exactly the new tree (dynamic,
level 0, no items), which `castle_da_rwct_get` returns, and its other lists are
empty.  After a call of `castle_da_rwct_make` that returns 0 on a doubling array
whose level 0 holds exactly the tree `old_ct`, level 0 holds exactly the new
tree, `old_ct` is the head of the list of level 1 and its `level` is 1, the lists
of the levels from 2 on and the other doubling arrays are as before; so the same
holds after every further call. -/
theorem rwct_make_one_active_tree (env : da_env) (st st1 : da_state) :
    (∀ da_id root_version,
      castle_double_array_make env st da_id root_version = Res.ok (st1, 0) →
      ∃ d new, st1.castle_da_hash = st.das.length :: st.castle_da_hash ∧
        st1.das[st.das.length]? = some d ∧ d.id = da_id ∧ d.root_version = root_version ∧
        d.trees = [st.cts.length] :: List.replicate (MAX_DA_LEVEL - 1) [] ∧
        st1.cts[st.cts.length]? = some new ∧
        new.dynamic = 1 ∧ new.level = 0 ∧ new.item_count = 0 ∧ new.da = da_id ∧
        castle_da_rwct_get st1 st.das.length = Res.ok st.cts.length) ∧
    (∀ da d old_ct, st.das[da]? = some d → d.trees[0]? = some [old_ct] →
      old_ct < st.cts.length →
      castle_da_rwct_make env st da = Res.ok (st1, 0) →
      ∃ d1 new old l1, st1.das[da]? = some d1 ∧ d1.trees[0]? = some [st.cts.length] ∧
        st1.cts[st.cts.length]? = some new ∧
        new.dynamic = 1 ∧ new.level = 0 ∧ new.item_count = 0 ∧ new.da = d.id ∧
        castle_da_rwct_get st1 da = Res.ok st.cts.length ∧
        st.cts[old_ct]? = some old ∧ d.trees[1]? = some l1 ∧
        d1.trees[1]? = some (old_ct :: l1) ∧
        st1.cts[old_ct]? = some { old with level := 1 } ∧
        (∀ i, 2 ≤ i → d1.trees[i]? = d.trees[i]?) ∧
        d1.trees.length = d.trees.length ∧ d1.id = d.id ∧
        (∀ j, j ≠ da → st1.das[j]? = st.das[j]?) ∧
        st1.castle_da_hash = st.castle_da_hash) := by
  constructor
  · intro da_id root_version h
    rw [castle_double_array_make] at h
    by_cases hk : env.kmalloc (st.cts.length + st.das.length) = true
    · simp only [hk, Bool.not_true, Bool.false_eq_true, if_false] at h
      cases hm : castle_da_rwct_make env
          { st with das := st.das ++
            [{ id := da_id, root_version := root_version,
               mstore_key := env.INVAL_MSTORE_KEY,
               trees := List.replicate MAX_DA_LEVEL [] }] } st.das.length with
      | bug => rw [hm] at h; cases h
      | timeout => rw [hm] at h; cases h
      | ok r =>
        obtain ⟨st2, ret⟩ := r
        rw [hm] at h
        dsimp only at h
        by_cases hret : ret ≠ 0
        · rw [if_pos hret] at h
          exact absurd (Prod.mk.inj (Res.ok.inj h)).2 hret
        · rw [if_neg hret] at h
          have hret0 : ret = 0 := by omega
          subst hret0
          obtain ⟨h1, -⟩ := Prod.mk.inj (Res.ok.inj h)
          subst h1
          have hd0 : ∀ d0 : castle_double_array, (st.das ++ [d0])[st.das.length]? = some d0 := by
            intro d0
            rw [List.getElem?_append_right (le_refl _), Nat.sub_self]
            rfl
          obtain ⟨-, -, -, e4, l0, e5, e6, -⟩ := rwct_make_spec env _ st2 st.das.length _ (hd0 _) hm
          have hl0 : l0 = [] := by
            simp [MAX_DA_LEVEL, List.replicate] at e5
            exact e5
          obtain ⟨e7, e8⟩ := e6 hl0
          dsimp only at e4 e7 e8
          refine ⟨{ fresh_da env da_id root_version with trees := (List.replicate MAX_DA_LEVEL []).set 0 [st.cts.length] },
            rwct_new env st (fresh_da env da_id root_version),
            by simp [castle_da_hash_add, e4], ?_, rfl, rfl, ?_, ?_, rfl, rfl, rfl,
            rfl, ?_⟩
          · simp only [castle_da_hash_add, e8]
            rw [List.getElem?_set_eq_of_lt _ (by simp)]
            rfl
          · simp [MAX_DA_LEVEL, List.replicate]
          · simp only [castle_da_hash_add, e7]
            rw [List.getElem?_append_right (le_refl _), Nat.sub_self]
            rfl
          · simp only [castle_da_rwct_get, castle_da_hash_add, e8]
            rw [List.getElem?_set_eq_of_lt _ (by simp)]
            simp [MAX_DA_LEVEL, List.replicate]
    · simp only [hk, Bool.not_false, if_true] at h
      have := (Prod.mk.inj (Res.ok.inj h)).2
      simp [ENOMEM_neg] at this
  · intro da d old_ct hd h0 hold h
    obtain ⟨-, -, -, e4, l0, e5, -, e6⟩ := rwct_make_spec env st st1 da d hd h
    rw [h0] at e5
    cases e5
    obtain ⟨old, l1, f1, f2, f3, f4⟩ := e6 old_ct [] rfl
    have hda : da < st.das.length := getElem?_lt_length hd
    have hlen0 : 0 < d.trees.length := getElem?_lt_length h0
    have hlen1 : 1 < d.trees.length := getElem?_lt_length f2
    have hold2 : st.cts[old_ct]? = some old := by
      rw [List.getElem?_append_left hold] at f1
      exact f1
    refine ⟨{ d with trees := ((d.trees.set 0 []).set 1 (old_ct :: l1)).set 0 [st.cts.length] },
      rwct_new env st d, old, l1, ?_, ?_, ?_, rfl, rfl, rfl, rfl, ?_, hold2, f2, ?_,
      ?_, ?_, ?_, rfl, ?_, e4⟩
    · rw [f4, List.getElem?_set_eq_of_lt _ hda]
    · dsimp only
      rw [List.getElem?_set_eq_of_lt _ (by simp; exact hlen0)]
    · rw [f3, List.getElem?_set_ne (by omega), List.getElem?_append_right (le_refl _),
        Nat.sub_self]
      rfl
    · simp only [castle_da_rwct_get, f4]
      rw [List.getElem?_set_eq_of_lt _ hda]
      dsimp only
      rw [List.getElem?_set_eq_of_lt _ (by simp; exact hlen0)]
    · dsimp only
      rw [List.getElem?_set_ne (by decide), List.getElem?_set_eq_of_lt _ (by simp; exact hlen1)]
    · rw [f3, List.getElem?_set_eq_of_lt _ (by simp; omega)]
    · intro i hi
      dsimp only
      rw [List.getElem?_set_ne (by omega), List.getElem?_set_ne (by omega),
        List.getElem?_set_ne (by omega)]
    · simp
    · intro j hj
      rw [f4, List.getElem?_set_ne (fun hc => hj hc.symm)]

/-- After `castle_double_array_make(1, 0)` on the initial state the new tree is at
pointer 1; after a call of `castle_da_rwct_make` the new tree is at pointer 2 and
the tree at pointer 1 heads the list of level 1. -/
theorem rwct_make_one_active_tree_witness :
    castle_double_array_make example_env da_state_init 1 0 = Res.ok (da_made, 0) ∧
    castle_da_rwct_make example_env da_made 0 = Res.ok (da_made2, 0) ∧
    castle_da_rwct_get da_made 0 = Res.ok 1 ∧
    castle_da_rwct_get da_made2 0 = Res.ok 2 ∧
    (∃ d1 l1, da_made2.das[0]? = some d1 ∧ d1.trees[1]? = some (1 :: l1)) ∧
    (∃ old, da_made.cts[1]? = some old ∧ da_made2.cts[1]? = some { old with level := 1 }) := by
  have h1 : castle_double_array_make example_env da_state_init 1 0 = Res.ok (da_made, 0) := by
    decide
  have h2 : castle_da_rwct_make example_env da_made 0 = Res.ok (da_made2, 0) := by decide
  obtain ⟨d, new, -, -, -, -, -, -, -, -, -, -, a⟩ :=
    (rwct_make_one_active_tree example_env da_state_init da_made).1 1 0 h1
  obtain ⟨d1, new1, old, l1, b1, -, -, -, -, -, -, b2, b3, -, b4, b5, -⟩ :=
    (rwct_make_one_active_tree example_env da_made da_made2).2 0
      { id := 1, root_version := 0, mstore_key := 2 ^ 32 - 1,
        trees := [1] :: List.replicate 9 [] } 1 (by decide) (by decide) (by decide) h2
  exact ⟨h1, h2, a, b2, ⟨d1, l1, b1, b4⟩, ⟨old, b3, b5⟩⟩

/-! ## The `dynamic` flag of a demoted tree -/

/-- C18 (counterexample): `castle_double_array_make` followed by one call of
`castle_da_rwct_make`.  The tree at pointer 1 was the level-0 tree; after the
call it is the head of level 1, its `level` is 1 and its `dynamic` flag is still
1, like that of the new level-0 tree at pointer 2. -/
theorem demoted_tree_stays_dynamic_counterexample :
    castle_double_array_make example_env da_state_init 1 0 = Res.ok (da_made, 0) ∧
    castle_da_rwct_get da_made 0 = Res.ok 1 ∧
    castle_da_rwct_make example_env da_made 0 = Res.ok (da_made2, 0) ∧
    da_made2.das.map (fun d => d.trees.take 2) = [[[2], [1]]] ∧
    da_made2.cts.map (fun c => (c.seq, c.level, c.dynamic)) = [(0, 0, 0), (1, 1, 1), (2, 0, 1)] :=
  ⟨by decide, by decide, by decide, by decide, by decide⟩

/-- C18 (amended): a call of `castle_da_rwct_make` that returns 0 on a doubling
array whose level-0 list begins with the tree `old_ct` changes, among the
records that existed before, only the field `level` of `old_ct`, which becomes
1; its `dynamic` flag and the records of the other trees are as before, and the
new record has `dynamic == 1`. -/
theorem rwct_make_demotes_level_only (env : da_env) (st st1 : da_state) (da : Nat)
    (d : castle_double_array) (old_ct : Nat) (rest : List Nat)
    (hd : st.das[da]? = some d) (h0 : d.trees[0]? = some (old_ct :: rest))
    (hold : old_ct < st.cts.length)
    (h : castle_da_rwct_make env st da = Res.ok (st1, 0)) :
    ∃ old new, st.cts[old_ct]? = some old ∧
      st1.cts[old_ct]? = some { old with level := 1 } ∧
      (∀ p, p < st.cts.length → p ≠ old_ct → st1.cts[p]? = st.cts[p]?) ∧
      st1.cts[st.cts.length]? = some new ∧ new.dynamic = 1 ∧ new.level = 0 ∧
      st1.cts.length = st.cts.length + 1 := by
  obtain ⟨-, -, -, -, l0, e5, -, e6⟩ := rwct_make_spec env st st1 da d hd h
  rw [h0] at e5
  cases e5
  obtain ⟨old, l1, f1, -, f3, -⟩ := e6 old_ct rest rfl
  rw [List.getElem?_append_left hold] at f1
  refine ⟨old, rwct_new env st d, f1, ?_, ?_, ?_, rfl, rfl, ?_⟩
  · rw [f3, List.getElem?_set_eq_of_lt _ (by simp; omega)]
  · intro p hp hne
    rw [f3, List.getElem?_set_ne (fun hc => hne hc.symm), List.getElem?_append_left hp]
  · rw [f3, List.getElem?_set_ne (by omega), List.getElem?_append_right (le_refl _),
      Nat.sub_self]
    rfl
  · rw [f3]
    simp

/-- The call of `castle_da_rwct_make` after `castle_double_array_make(1, 0)`: the
tree at pointer 1 keeps its fields but for `level`. -/
theorem rwct_make_demotes_level_only_witness :
    castle_da_rwct_make example_env da_made 0 = Res.ok (da_made2, 0) ∧
    ∃ old new, da_made.cts[1]? = some old ∧
      da_made2.cts[1]? = some { old with level := 1 } ∧
      (∀ p, p < da_made.cts.length → p ≠ 1 → da_made2.cts[p]? = da_made.cts[p]?) ∧
      da_made2.cts[da_made.cts.length]? = some new ∧ new.dynamic = 1 ∧ new.level = 0 ∧
      da_made2.cts.length = da_made.cts.length + 1 :=
  ⟨by decide,
   rwct_make_demotes_level_only example_env da_made da_made2 0
     { id := 1, root_version := 0, mstore_key := 2 ^ 32 - 1,
       trees := [1] :: List.replicate 9 [] } 1 [] (by decide) (by decide) (by decide)
     (by decide)⟩

/-! ## Sequence numbers of component trees -/

/-- A call of `castle_da_rwct_make` that returns: either the allocation failed
and nothing changed, or the new record exists, has taken the value of the
counter as its `seq`, and the counter has advanced; the table has gained at most
the new record, and the old records keep their `seq`. -/
theorem rwct_make_seq (env : da_env) (st st1 : da_state) (da : Nat) (ret : Int)
    (h : castle_da_rwct_make env st da = Res.ok (st1, ret)) :
    (env.kmalloc (st.cts.length + st.das.length) = false ∧ st1 = st) ∨
    (env.kmalloc (st.cts.length + st.das.length) = true ∧
      ∃ new, st1.cts[st.cts.length]? = some new ∧ new.seq = st.castle_next_tree_seq ∧
        st1.castle_next_tree_seq = (st.castle_next_tree_seq + 1) % 2 ^ env.seq_bits ∧
        (ret = 0 → st1.castle_ct_hash = st.cts.length :: st.castle_ct_hash) ∧
        (ret ≠ 0 → st1.castle_ct_hash = st.castle_ct_hash) ∧
        st1.cts.length = st.cts.length + 1 ∧
        ∀ p c, p < st.cts.length → st1.cts[p]? = some c →
          ∃ c0, st.cts[p]? = some c0 ∧ c.seq = c0.seq) := by
  by_cases hk : env.kmalloc (st.cts.length + st.das.length) = true
  · right
    refine ⟨hk, ?_⟩
    cases hd : st.das[da]? with
    | none =>
      rw [castle_da_rwct_make] at h
      simp only [hk, Bool.not_true, Bool.false_eq_true, if_false, hd] at h
      cases h
    | some d =>
      by_cases hret : ret = 0
      · subst hret
        obtain ⟨e1, -, e3, -, l0, e5, e6, e7⟩ := rwct_make_spec env st st1 da d hd h
        cases l0 with
        | nil =>
          obtain ⟨f1, -⟩ := e6 rfl
          refine ⟨rwct_new env st d, ?_, rfl, e1, fun _ => e3, fun hc => absurd rfl hc, ?_, ?_⟩
          · rw [f1, List.getElem?_append_right (le_refl _), Nat.sub_self]; rfl
          · rw [f1]; simp
          · intro p c hp hc
            rw [f1, List.getElem?_append_left hp] at hc
            exact ⟨c, hc, rfl⟩
        | cons old_ct rest =>
          obtain ⟨old, l1, f1, -, f3, -⟩ := e7 old_ct rest rfl
          have hlt : old_ct < (st.cts ++ [rwct_new env st d]).length := getElem?_lt_length f1
          refine ⟨{ (rwct_new env st d) with
              level := if old_ct = st.cts.length then 1 else 0 }, ?_, rfl, e1, fun _ => e3,
            fun hc => absurd rfl hc, ?_, ?_⟩
          · rw [f3]
            by_cases ho : old_ct = st.cts.length
            · subst ho
              rw [List.getElem?_set_eq_of_lt _ hlt]
              rw [List.getElem?_append_right (le_refl _), Nat.sub_self] at f1
              cases f1
              simp [rwct_new]
            · rw [List.getElem?_set_ne ho, List.getElem?_append_right (le_refl _), Nat.sub_self]
              simp [ho, rwct_new]
          · rw [f3]; simp
          · intro p c hp hc
            rw [f3] at hc
            by_cases ho : old_ct = p
            · subst ho
              rw [List.getElem?_set_eq_of_lt _ hlt] at hc
              rw [List.getElem?_append_left hp] at f1
              cases hc
              exact ⟨old, f1, rfl⟩
            · rw [List.getElem?_set_ne ho, List.getElem?_append_left hp] at hc
              exact ⟨c, hc, rfl⟩
      · rw [castle_da_rwct_make] at h
        simp only [hk, Bool.not_true, Bool.false_eq_true, if_false, hd] at h
        by_cases hr : env.castle_version_root_update d.root_version
            st.castle_next_tree_seq (env.castle_btree_node_create d.root_version
              { seq := st.castle_next_tree_seq, item_count := 0,
                btree_type := env.VLBA_TREE_TYPE, dynamic := 1, da := d.id, level := 0,
                first_node := (0, 0), last_node := (0, 0), node_count := 0,
                mstore_key := env.INVAL_MSTORE_KEY }).1 ≠ 0
        · rw [if_pos hr] at h
          obtain ⟨h1, -⟩ := Prod.mk.inj (Res.ok.inj h)
          subst h1
          refine ⟨rwct_new env st d, ?_, rfl, rfl, fun hc => absurd hc hret, fun _ => ?_, ?_, ?_⟩
          · simp only [castle_ct_hash_remove, castle_ct_hash_add]
            rw [List.getElem?_append_right (le_refl _), Nat.sub_self]; rfl
          · simp [castle_ct_hash_remove, castle_ct_hash_add]
          · simp [castle_ct_hash_remove, castle_ct_hash_add]
          · intro p c hp hc
            simp only [castle_ct_hash_remove, castle_ct_hash_add] at hc
            rw [List.getElem?_append_left hp] at hc
            exact ⟨c, hc, rfl⟩
        · rw [if_neg hr] at h
          exfalso
          revert h
          cases d.trees[0]? with
          | none => intro h; simp at h
          | some l0 =>
            cases l0 with
            | nil =>
              simp only []
              split
              · intro h; cases h
              · intro h; exact hret (Prod.mk.inj (Res.ok.inj h)).2.symm
            | cons old_ct rest =>
              simp only []
              split
              · split
                · intro h; cases h
                · intro h; exact hret (Prod.mk.inj (Res.ok.inj h)).2.symm
              · intro h; cases h
              · intro h; cases h
  · left
    have hk2 : env.kmalloc (st.cts.length + st.das.length) = false := by
      cases hh : env.kmalloc (st.cts.length + st.das.length) with
      | false => rfl
      | true => exact absurd hh hk
    rw [castle_da_rwct_make] at h
    simp only [hk2, Bool.not_false, if_true] at h
    exact ⟨hk2, (Prod.mk.inj (Res.ok.inj h)).1.symm⟩

/-- A call of `castle_da_rwct_make` keeps the counter above the trees of the
table, as long as the counter does not wrap. -/
theorem rwct_make_seq_below (env : da_env) (st st1 : da_state) (da : Nat) (ret : Int)
    (hinv : seq_below env st) (hw : st.castle_next_tree_seq + 1 < 2 ^ env.seq_bits)
    (h : castle_da_rwct_make env st da = Res.ok (st1, ret)) :
    seq_below env st1 ∧ st.castle_next_tree_seq ≤ st1.castle_next_tree_seq := by
  rcases rwct_make_seq env st st1 da ret h with ⟨-, e⟩ | ⟨-, new, e1, e2, e3, e4, e5, e6, e7⟩
  · subst e
    exact ⟨hinv, le_refl _⟩
  · rw [Nat.mod_eq_of_lt hw] at e3
    refine ⟨?_, by omega⟩
    intro p hp c hc hg
    rw [e3]
    by_cases hlt : p < st.cts.length
    · obtain ⟨c0, hc0, hs⟩ := e7 p c hlt hc
      have hmem : p ∈ st.castle_ct_hash := by
        by_cases hret : ret = 0
        · rw [e4 hret] at hp
          rcases List.mem_cons.1 hp with hp | hp
          · omega
          · exact hp
        · rw [e5 hret] at hp
          exact hp
      have := hinv p hmem c0 hc0 (by rw [← hs]; exact hg)
      omega
    · have hlen := getElem?_lt_length hc
      have hpe : p = st.cts.length := by omega
      subst hpe
      rw [e1] at hc
      cases hc
      omega

/-- Successive calls of `castle_da_rwct_make`: the values of `seq` they hand out
are strictly increasing and lie above the trees of the table at the start. -/
theorem rwct_make_run_seq (env : da_env) :
    ∀ (das : List Nat) (st st1 : da_state) (seqs : List (Option Nat)),
      seq_below env st → st.castle_next_tree_seq + das.length < 2 ^ env.seq_bits →
      castle_da_rwct_make_run env das st = Res.ok (st1, seqs) →
      seq_below env st1 ∧ st.castle_next_tree_seq ≤ st1.castle_next_tree_seq ∧
      (seqs.filterMap id).Chain' (fun a b => a < b) ∧
      (∀ s ∈ seqs.filterMap id,
        st.castle_next_tree_seq ≤ s ∧ s < st1.castle_next_tree_seq) := by
  intro das
  induction das with
  | nil =>
    intro st st1 seqs hinv _ h
    rw [castle_da_rwct_make_run] at h
    obtain ⟨h1, h2⟩ := Prod.mk.inj (Res.ok.inj h)
    subst h1; subst h2
    exact ⟨hinv, le_refl _, List.chain'_nil, fun s hs => by simp at hs⟩
  | cons da rest ih =>
    intro st st2 seqs hinv hw h
    rw [castle_da_rwct_make_run] at h
    simp only [List.length_cons] at hw
    cases hm : castle_da_rwct_make env st da with
    | bug => rw [hm] at h; cases h
    | timeout => rw [hm] at h; cases h
    | ok r =>
      obtain ⟨st1, ret⟩ := r
      rw [hm] at h
      dsimp only at h
      cases hr : castle_da_rwct_make_run env rest st1 with
      | bug => rw [hr] at h; cases h
      | timeout => rw [hr] at h; cases h
      | ok r2 =>
        obtain ⟨st3, seqs1⟩ := r2
        rw [hr] at h
        dsimp only at h
        obtain ⟨h1, h2⟩ := Prod.mk.inj (Res.ok.inj h)
        subst h1; subst h2
        obtain ⟨b1, b2⟩ := rwct_make_seq_below env st st1 da ret hinv (by omega) hm
        have hnext : st1.castle_next_tree_seq ≤ st.castle_next_tree_seq + 1 ∧
            (env.kmalloc (st.cts.length + st.das.length) = true →
              st1.castle_next_tree_seq = st.castle_next_tree_seq + 1) := by
          rcases rwct_make_seq env st st1 da ret hm with ⟨e0, e⟩ | ⟨-, new, -, -, e3, -⟩
          · subst e
            exact ⟨by omega, fun hc => by rw [e0] at hc; cases hc⟩
          · rw [Nat.mod_eq_of_lt (by omega)] at e3
            exact ⟨by omega, fun _ => e3⟩
        obtain ⟨c1, c2, c3, c4⟩ := ih st1 st3 seqs1 b1 (by omega) hr
        refine ⟨c1, by omega, ?_, ?_⟩
        · cases hk : env.kmalloc (st.cts.length + st.das.length) with
          | false => simpa using c3
          | true =>
            simp only [if_true, List.filterMap_cons, id]
            refine List.Chain'.cons' c3 ?_
            intro y hy
            have hy2 : y ∈ seqs1.filterMap id := List.mem_of_mem_head? hy
            have := (c4 y hy2).1
            have := hnext.2 hk
            omega
        · intro s hs
          cases hk : env.kmalloc (st.cts.length + st.das.length) with
          | false =>
            rw [hk] at hs
            simp only [Bool.false_eq_true, if_false, List.filterMap_cons, id] at hs
            have := c4 s hs
            omega
          | true =>
            rw [hk] at hs
            simp only [if_true, List.filterMap_cons, id, List.mem_cons] at hs
            have hn := hnext.2 hk
            rcases hs with hs | hs
            · omega
            · have := c4 s hs
              omega

theorem read_das_keeps (env : da_env) :
    ∀ (l : List (castle_dlist_entry × Nat)) (st : da_state),
      (castle_double_array_read_das env l st).1.cts = st.cts ∧
      (castle_double_array_read_das env l st).1.castle_ct_hash = st.castle_ct_hash ∧
      (castle_double_array_read_das env l st).1.castle_next_tree_seq =
        st.castle_next_tree_seq := by
  intro l
  induction l with
  | nil => intro st; exact ⟨rfl, rfl, rfl⟩
  | cons e rest ih =>
    intro st
    obtain ⟨mstore_dentry, key⟩ := e
    rw [castle_double_array_read_das]
    by_cases hk : env.kmalloc (st.cts.length + st.das.length) = true
    · rw [if_neg (by simp [hk])]
      exact ih _
    · rw [if_pos (by simp [hk])]
      exact ⟨rfl, rfl, rfl⟩

theorem trees_sort_keeps (st st1 : da_state) (da : Nat)
    (h : castle_da_trees_sort st da = Res.ok st1) :
    st1.cts = st.cts ∧ st1.castle_ct_hash = st.castle_ct_hash ∧
    st1.castle_next_tree_seq = st.castle_next_tree_seq := by
  rw [castle_da_trees_sort] at h
  cases hd : st.das[da]? with
  | none => rw [hd] at h; cases h
  | some d =>
    rw [hd] at h
    dsimp only at h
    cases hs : castle_da_trees_sort_lists st.cts (d.trees.take MAX_DA_LEVEL) with
    | bug => rw [hs] at h; cases h
    | timeout => rw [hs] at h; cases h
    | ok t =>
      rw [hs] at h
      cases h
      exact ⟨rfl, rfl, rfl⟩

theorem hash_iterate_sort_keeps :
    ∀ (l : List Nat) (st st1 : da_state), castle_da_hash_iterate_sort l st = Res.ok st1 →
      st1.cts = st.cts ∧ st1.castle_ct_hash = st.castle_ct_hash ∧
      st1.castle_next_tree_seq = st.castle_next_tree_seq := by
  intro l
  induction l with
  | nil =>
    intro st st1 h
    rw [castle_da_hash_iterate_sort] at h
    cases h
    exact ⟨rfl, rfl, rfl⟩
  | cons da rest ih =>
    intro st st1 h
    rw [castle_da_hash_iterate_sort] at h
    cases hs : castle_da_trees_sort st da with
    | bug => rw [hs] at h; cases h
    | timeout => rw [hs] at h; cases h
    | ok st2 =>
      rw [hs] at h
      obtain ⟨a1, a2, a3⟩ := trees_sort_keeps st st2 da hs
      obtain ⟨b1, b2, b3⟩ := ih st2 st1 h
      exact ⟨by rw [b1, a1], by rw [b2, a2], by rw [b3, a3]⟩

theorem seq_below_global (env : da_env) (st st2 : da_state) (ct : castle_component_tree)
    (hg : env.TREE_GLOBAL ct.seq = true) (hinv : seq_below env st)
    (hcts : st2.cts = st.cts.set 0 ct) (hhash : st2.castle_ct_hash = 0 :: st.castle_ct_hash)
    (hnext : st2.castle_next_tree_seq = st.castle_next_tree_seq) : seq_below env st2 := by
  intro p hp c hc hgc
  rw [hcts] at hc
  rw [hhash] at hp
  rw [hnext]
  by_cases h0 : p = 0
  · subst h0
    have hlen := getElem?_lt_length hc
    rw [List.getElem?_set_eq_of_lt _ (by simpa using hlen)] at hc
    cases hc
    rw [hg] at hgc
    cases hgc
  · rw [List.getElem?_set_ne (fun hc2 => h0 hc2.symm)] at hc
    rcases List.mem_cons.1 hp with hp | hp
    · exact absurd hp h0
    · exact hinv p hp c hc hgc

theorem seq_below_load (env : da_env) (st st2 : da_state) (ct : castle_component_tree)
    (hinv : seq_below env st)
    (hcts : st2.cts = st.cts ++ [ct])
    (hhash : st2.castle_ct_hash = st.cts.length :: st.castle_ct_hash)
    (hnext : st2.castle_next_tree_seq = max st.castle_next_tree_seq (ct.seq + 1)) :
    seq_below env st2 := by
  intro p hp c hc hgc
  rw [hcts] at hc
  rw [hhash] at hp
  rw [hnext]
  by_cases hlt : p < st.cts.length
  · rw [List.getElem?_append_left hlt] at hc
    rcases List.mem_cons.1 hp with hp | hp
    · omega
    · have := hinv p hp c hc hgc
      omega
  · have hlen := getElem?_lt_length hc
    simp only [List.length_append, List.length_singleton] at hlen
    have hpe : p = st.cts.length := by omega
    subst hpe
    rw [List.getElem?_append_right (le_refl _), Nat.sub_self] at hc
    have hce : c = ct := by simpa using hc.symm
    subst hce
    omega

/-- The loop of `castle_double_array_read` over the store of component trees,
when it runs to its end: the counter ends above every tree of the table and
above every entry read that is not the global tree. -/
theorem read_cts_seq_below (env : da_env) :
    ∀ (l : List (castle_clist_entry × Nat)) (st st1 : da_state),
      seq_below env st → (∀ e ∈ l, e.1.seq + 1 < 2 ^ env.seq_bits) →
      castle_double_array_read_cts env l st = Res.ok (st1, true) →
      seq_below env st1 ∧ st.castle_next_tree_seq ≤ st1.castle_next_tree_seq ∧
      ∀ e ∈ l, env.TREE_GLOBAL e.1.seq = false → e.1.seq < st1.castle_next_tree_seq := by
  intro l
  induction l with
  | nil =>
    intro st st1 hinv _ h
    rw [castle_double_array_read_cts] at h
    obtain ⟨h1, -⟩ := Prod.mk.inj (Res.ok.inj h)
    subst h1
    exact ⟨hinv, le_refl _, fun e he => by cases he⟩
  | cons e rest ih =>
    intro st st1 hinv hw h
    obtain ⟨mstore_centry, key⟩ := e
    have hw0 : mstore_centry.seq + 1 < 2 ^ env.seq_bits := hw _ (List.mem_cons_self _ _)
    have hwr : ∀ e ∈ rest, e.1.seq + 1 < 2 ^ env.seq_bits :=
      fun e he => hw e (List.mem_cons_of_mem _ he)
    rw [castle_double_array_read_cts] at h
    by_cases hg : env.TREE_GLOBAL mstore_centry.seq = true
    · simp only [hg, if_true, castle_da_ct_unmarshall] at h
      by_cases hdi : env.DA_INVAL mstore_centry.da_id = true
      · simp only [hdi, Bool.not_true, Bool.false_eq_true, if_false] at h
        obtain ⟨a1, a2, a3⟩ := ih _ st1
          (by exact seq_below_global env st _ _ hg hinv rfl rfl rfl) hwr h
        refine ⟨a1, a2, fun e he hge => ?_⟩
        rcases List.mem_cons.1 he with he | he
        · subst he
          dsimp only at hge
          rw [hg] at hge
          cases hge
        · exact a3 e he hge
      · simp only [hdi, Bool.not_false, if_true] at h
        cases h
    · have hg2 : env.TREE_GLOBAL mstore_centry.seq = false := by
        cases hh : env.TREE_GLOBAL mstore_centry.seq with
        | false => rfl
        | true => exact absurd hh hg
      simp only [hg2, Bool.false_eq_true, if_false] at h
      by_cases hk : env.kmalloc (st.cts.length + st.das.length) = true
      · simp only [hk, Bool.not_true, Bool.false_eq_true, if_false, castle_da_ct_unmarshall] at h
        revert h
        cases castle_da_hash_get (castle_ct_hash_add
            { st with cts := st.cts ++
              [{ seq := mstore_centry.seq, item_count := mstore_centry.item_count,
                 btree_type := mstore_centry.btree_type, dynamic := mstore_centry.dynamic,
                 da := mstore_centry.da_id, level := mstore_centry.level,
                 first_node := mstore_centry.first_node, last_node := mstore_centry.last_node,
                 node_count := mstore_centry.node_count, mstore_key := key }] } st.cts.length)
            mstore_centry.da_id with
        | none => intro h; simp at h
        | some dp =>
          simp only [castle_ct_hash_add]
          cases st.das[dp]? with
          | none => intro h; cases h
          | some d =>
            simp only []
            cases d.trees[mstore_centry.level]? with
            | none => intro h; cases h
            | some lst =>
              simp only []
              intro h
              have hnext : (if mstore_centry.seq ≥ st.castle_next_tree_seq then
                  (mstore_centry.seq + 1) % 2 ^ env.seq_bits else st.castle_next_tree_seq) =
                  max st.castle_next_tree_seq (mstore_centry.seq + 1) := by
                rw [Nat.mod_eq_of_lt hw0]
                split <;> omega
              rw [hnext] at h
              obtain ⟨a1, a2, a3⟩ := ih _ st1
                (by exact seq_below_load env st _ _ hinv rfl rfl rfl) hwr h
              dsimp only at a2
              refine ⟨a1, by omega, fun e he hge => ?_⟩
              rcases List.mem_cons.1 he with he | he
              · subst he
                dsimp only
                omega
              · exact a3 e he hge
      · simp only [hk, Bool.not_false, if_true] at h
        have := (Prod.mk.inj (Res.ok.inj h)).2
        cases this

theorem table_seqs_lt (env : da_env) (st : da_state) (hinv : seq_below env st) :
    ∀ s ∈ table_seqs env st, s < st.castle_next_tree_seq := by
  intro s hs
  simp only [table_seqs, List.mem_filter, List.mem_map, List.mem_filterMap] at hs
  obtain ⟨⟨c, ⟨p, hp, hc⟩, rfl⟩, hg⟩ := hs
  exact hinv p hp c hc (by simpa using hg)

theorem map_seq_congr (cts cts1 : List castle_component_tree) :
    ∀ (l : List Nat), (∀ p ∈ l, (cts1[p]?).map (fun c => c.seq) = (cts[p]?).map (fun c => c.seq)) →
      (l.filterMap (fun p => cts1[p]?)).map (fun c => c.seq) =
        (l.filterMap (fun p => cts[p]?)).map (fun c => c.seq) := by
  intro l
  induction l with
  | nil => intro _; rfl
  | cons p rest ih =>
    intro h
    have hp := h p (List.mem_cons_self _ _)
    have hr := ih (fun q hq => h q (List.mem_cons_of_mem _ hq))
    cases h1 : cts1[p]? with
    | none =>
      cases h0 : cts[p]? with
      | none => simp [List.filterMap_cons, h1, h0, hr]
      | some c0 => rw [h1, h0] at hp; cases hp
    | some c =>
      cases h0 : cts[p]? with
      | none => rw [h1, h0] at hp; cases hp
      | some c0 =>
        rw [h1, h0] at hp
        simp only [Option.map_some', Option.some.injEq] at hp
        simp [List.filterMap_cons, h1, h0, hr, hp]

/-- A call of `castle_da_rwct_make` keeps the `seq` of the trees of the table
distinct, as long as the counter does not wrap. -/
theorem rwct_make_seq_unique (env : da_env) (st st1 : da_state) (da : Nat) (ret : Int)
    (hinv : seq_below env st) (hu : seq_unique env st)
    (h : castle_da_rwct_make env st da = Res.ok (st1, ret)) : seq_unique env st1 := by
  rcases rwct_make_seq env st st1 da ret h with ⟨-, e⟩ | ⟨-, new, e1, e2, -, e4, e5, e6, e7⟩
  · subst e
    exact hu
  · have hsame : (st.castle_ct_hash.filterMap (fun p => st1.cts[p]?)).map (fun c => c.seq) =
        (st.castle_ct_hash.filterMap (fun p => st.cts[p]?)).map (fun c => c.seq) := by
      apply map_seq_congr
      intro p hp
      have hlt := hu.1 p hp
      have hlt1 : p < st1.cts.length := by omega
      obtain ⟨c, hc⟩ : ∃ c, st1.cts[p]? = some c := ⟨st1.cts[p], List.getElem?_eq_getElem hlt1⟩
      obtain ⟨c0, hc0, hs⟩ := e7 p c hlt hc
      rw [hc, hc0]
      simp [hs]
    by_cases hret : ret = 0
    · refine ⟨?_, ?_⟩
      · intro p hp
        rw [e4 hret] at hp
        rcases List.mem_cons.1 hp with hp | hp
        · omega
        · have := hu.1 p hp
          omega
      · have hts : table_seqs env st1 =
            (new.seq :: (st.castle_ct_hash.filterMap (fun p => st.cts[p]?)).map
              (fun c => c.seq)).filter (fun s => !env.TREE_GLOBAL s) := by
          simp only [table_seqs, e4 hret, List.filterMap_cons, e1, List.map_cons, hsame]
        rw [hts, List.filter_cons]
        split
        · refine List.nodup_cons.2 ⟨fun hm => ?_, hu.2⟩
          have := table_seqs_lt env st hinv new.seq hm
          omega
        · exact hu.2
    · refine ⟨?_, ?_⟩
      · intro p hp
        rw [e5 hret] at hp
        have := hu.1 p hp
        omega
      · have hts : table_seqs env st1 = table_seqs env st := by
          simp only [table_seqs, e5 hret, hsame]
        rw [hts]
        exact hu.2

theorem seq_below_congr (env : da_env) (st st2 : da_state) (hinv : seq_below env st)
    (hcts : st2.cts = st.cts) (hhash : st2.castle_ct_hash = st.castle_ct_hash)
    (hnext : st2.castle_next_tree_seq = st.castle_next_tree_seq) : seq_below env st2 := by
  intro p hp c hc hgc
  rw [hcts] at hc
  rw [hhash] at hp
  rw [hnext]
  exact hinv p hp c hc hgc

/-- C19: while the counter `castle_next_tree_seq` does not wrap, sequence numbers
are handed out in increasing order.  After a call of `castle_double_array_read`
that returns 0 the counter exceeds the `seq` of every tree of the table and of
every entry read that is not the global tree.  A call of
`castle_da_rwct_make` whose allocation succeeds, whether it returns 0 or an
error, gives its new tree the value of the counter, which is greater than the
`seq` of every tree of the table that is not the global tree, and advances the
counter; if no two trees of the table shared a `seq` before the call, none do
after it.  The values of `seq` handed out by successive calls are strictly
increasing, so no two of these trees, and none of them and a tree read before,
share a `seq`. -/
theorem tree_seq_monotone (env : da_env) :
    (∀ (st st1 : da_state) (castle_da_store : Option (Option (List (castle_dlist_entry × Nat))))
      (entries : List (castle_clist_entry × Nat)),
      seq_below env st → (∀ e ∈ entries, e.1.seq + 1 < 2 ^ env.seq_bits) →
      castle_double_array_read env castle_da_store (some (some entries)) st = Res.ok (st1, 0) →
      seq_below env st1 ∧ st.castle_next_tree_seq ≤ st1.castle_next_tree_seq ∧
      ∀ e ∈ entries, env.TREE_GLOBAL e.1.seq = false →
        e.1.seq < st1.castle_next_tree_seq) ∧
    (∀ (st st1 : da_state) (da : Nat) (ret : Int),
      seq_below env st → st.castle_next_tree_seq + 1 < 2 ^ env.seq_bits →
      castle_da_rwct_make env st da = Res.ok (st1, ret) →
      seq_below env st1 ∧ (seq_unique env st → seq_unique env st1) ∧
      ((env.kmalloc (st.cts.length + st.das.length) = false ∧ st1 = st) ∨
       (∃ new, st1.cts[st.cts.length]? = some new ∧ new.seq = st.castle_next_tree_seq ∧
          st1.castle_next_tree_seq = st.castle_next_tree_seq + 1 ∧
          ∀ p ∈ st.castle_ct_hash, ∀ c, st.cts[p]? = some c →
            env.TREE_GLOBAL c.seq = false → c.seq < new.seq))) ∧
    (∀ (das : List Nat) (st st1 : da_state) (seqs : List (Option Nat)),
      seq_below env st → st.castle_next_tree_seq + das.length < 2 ^ env.seq_bits →
      castle_da_rwct_make_run env das st = Res.ok (st1, seqs) →
      seq_below env st1 ∧ (seqs.filterMap id).Chain' (fun a b => a < b) ∧
      ∀ s ∈ seqs.filterMap id, ∀ p ∈ st.castle_ct_hash, ∀ c, st.cts[p]? = some c →
        env.TREE_GLOBAL c.seq = false → c.seq < s) := by
  refine ⟨?_, ?_, ?_⟩
  · intro st st1 castle_da_store entries hinv hw h
    cases castle_da_store with
    | none =>
      simp only [castle_double_array_read] at h
      exact absurd (Prod.mk.inj (Res.ok.inj h)).2 (by decide)
    | some da_iterator =>
      cases da_iterator with
      | none =>
        simp only [castle_double_array_read] at h
        exact absurd (Prod.mk.inj (Res.ok.inj h)).2 (by decide)
      | some das =>
        simp only [castle_double_array_read] at h
        obtain ⟨k1, k2, k3⟩ := read_das_keeps env das st
        cases hrd : castle_double_array_read_das env das st with
        | mk st2 flag =>
          rw [hrd] at h k1 k2 k3
          dsimp only at k1 k2 k3
          cases flag with
          | false => exact absurd (Prod.mk.inj (Res.ok.inj h)).2 (by decide)
          | true =>
            dsimp only at h
            cases hrc : castle_double_array_read_cts env entries st2 with
            | bug => rw [hrc] at h; cases h
            | timeout => rw [hrc] at h; cases h
            | ok r =>
              obtain ⟨st3, flag2⟩ := r
              rw [hrc] at h
              cases flag2 with
              | false => exact absurd (Prod.mk.inj (Res.ok.inj h)).2 (by decide)
              | true =>
                dsimp only at h
                cases hso : castle_da_hash_iterate_sort st3.castle_da_hash st3 with
                | bug => rw [hso] at h; cases h
                | timeout => rw [hso] at h; cases h
                | ok st4 =>
                  rw [hso] at h
                  obtain ⟨h1, -⟩ := Prod.mk.inj (Res.ok.inj h)
                  subst h1
                  obtain ⟨a1, a2, a3⟩ := read_cts_seq_below env entries st2 st3
                    (seq_below_congr env st st2 hinv k1 k2 k3) hw hrc
                  obtain ⟨b1, b2, b3⟩ := hash_iterate_sort_keeps _ st3 st4 hso
                  refine ⟨seq_below_congr env st3 st4 a1 b1 b2 b3, by rw [b3, ← k3]; exact a2,
                    fun e he hg => by rw [b3]; exact a3 e he hg⟩
  · intro st st1 da ret hinv hw h
    refine ⟨(rwct_make_seq_below env st st1 da ret hinv hw h).1,
      fun hu => rwct_make_seq_unique env st st1 da ret hinv hu h, ?_⟩
    rcases rwct_make_seq env st st1 da ret h with ⟨e0, e⟩ | ⟨-, new, e1, e2, e3, -⟩
    · exact Or.inl ⟨e0, e⟩
    · rw [Nat.mod_eq_of_lt hw] at e3
      refine Or.inr ⟨new, e1, e2, e3, fun p hp c hc hg => ?_⟩
      rw [e2]
      exact hinv p hp c hc hg
  · intro das st st1 seqs hinv hw h
    obtain ⟨a1, -, a3, a4⟩ := rwct_make_run_seq env das st st1 seqs hinv hw h
    refine ⟨a1, a3, fun s hs p hp c hc hg => ?_⟩
    have := (a4 s hs).1
    have := hinv p hp c hc hg
    omega

/-- The example stores read into the initial state: the counter ends at 4, above
the `seq` 1, 2, 3 read; the next calls of `castle_da_rwct_make` hand out 4 and
5. -/
theorem tree_seq_monotone_witness :
    castle_double_array_read example_env (some (some example_da_entries))
      (some (some example_tree_entries)) da_state_init = Res.ok (da_read, 0) ∧
    da_read.castle_next_tree_seq = 4 ∧
    (∀ e ∈ example_tree_entries, example_env.TREE_GLOBAL e.1.seq = false →
      e.1.seq < da_read.castle_next_tree_seq) ∧
    castle_da_rwct_make example_env da_read 0 = Res.ok (da_read2, 0) ∧
    (seq_unique example_env da_read → seq_unique example_env da_read2) ∧
    ((example_env.kmalloc (da_read.cts.length + da_read.das.length) = false ∧
        da_read2 = da_read) ∨
     (∃ new, da_read2.cts[da_read.cts.length]? = some new ∧
        new.seq = da_read.castle_next_tree_seq ∧
        da_read2.castle_next_tree_seq = da_read.castle_next_tree_seq + 1 ∧
        ∀ p ∈ da_read.castle_ct_hash, ∀ c, da_read.cts[p]? = some c →
          example_env.TREE_GLOBAL c.seq = false → c.seq < new.seq)) ∧
    castle_da_rwct_make_run example_env [0, 0] da_read =
      Res.ok (da_read3, [some 4, some 5]) ∧
    ([some 4, some 5].filterMap id).Chain' (fun a b => a < b) := by
  have hinit : seq_below example_env da_state_init := fun p hp => by cases hp
  have h1 : castle_double_array_read example_env (some (some example_da_entries))
      (some (some example_tree_entries)) da_state_init = Res.ok (da_read, 0) := by decide
  have h2 : castle_da_rwct_make example_env da_read 0 = Res.ok (da_read2, 0) := by decide
  have h3 : castle_da_rwct_make_run example_env [0, 0] da_read =
      Res.ok (da_read3, [some 4, some 5]) := by decide
  obtain ⟨a1, -, a3⟩ := (tree_seq_monotone example_env).1 da_state_init da_read
    (some (some example_da_entries)) example_tree_entries hinit (by decide) h1
  obtain ⟨-, b1, b2⟩ := (tree_seq_monotone example_env).2.1 da_read da_read2 0 0 a1 (by decide) h2
  obtain ⟨-, c2, -⟩ := (tree_seq_monotone example_env).2.2 [0, 0] da_read da_read3
    [some 4, some 5] a1 (by decide) h3
  exact ⟨h1, by decide, a3, h2, b1, b2, h3, c2⟩

/-! ## The order of the trees of a level -/

/-- C17: two calls of `castle_da_rwct_make` after `castle_double_array_make`
leave level 1 with the `seq` 2, 1 from the head on, newest first.  After
`castle_double_array_read` on the store with the same trees, level 1 holds them
with the `seq` 1, 2 from the head on, oldest first: `list_sort` with
`castle_da_ct_inc_cmp` has put the list in increasing order of `seq` (it turns
the list 2, 1 into 1, 2).  On that state `castle_da_ct_next` stops at its
assertion `BUG_ON(next_ct->seq > ct->seq)` for the tree of `seq` 1, and so does
a read that falls through to level 1. -/
theorem read_leaves_level_ascending :
    (castle_da_rwct_make example_env da_made2 0).map
      (fun r => (level_seqs r.1 0).take 2) = Res.ok [[3], [2, 1]] ∧
    castle_double_array_read example_env (some (some example_da_entries))
      (some (some written_tree_entries)) da_state_init = Res.ok (da_reread, 0) ∧
    (level_seqs da_reread 0).take 2 = [[3], [1, 2]] ∧
    list_sort (castle_da_ct_inc_cmp da_read.cts) [2, 1] = Res.ok [1, 2] ∧
    (level_seqs da_read 0).take 2 = [[3], [1, 2]] ∧
    castle_da_rwct_get da_reread 0 = Res.ok 1 ∧
    castle_da_ct_next da_reread 1 = Res.ok (some 3) ∧
    castle_da_ct_next da_reread 3 = Res.bug ∧
    castle_double_array_find (fun _ => (0, INVAL_DISK_BLK)) da_reread (some 1) false true 5 =
      Res.bug :=
  ⟨by decide, by decide, by decide, by decide, by decide, by decide, by decide, by decide,
   by decide⟩

/-! ## The walk of a read through a doubling array -/

theorem entries_behind_split (p : Nat) :
    ∀ (l1 l2 : List Nat), p ∉ l1 → entries_behind p (l1 ++ p :: l2) = some l2 := by
  intro l1
  induction l1 with
  | nil => intro l2 _; simp [entries_behind]
  | cons q rest ih =>
    intro l2 hn
    have hq : q ≠ p := fun hc => hn (by rw [hc]; exact List.mem_cons_self _ _)
    have hr : p ∉ rest := fun hc => hn (List.mem_cons_of_mem _ hc)
    simp only [List.cons_append, entries_behind, hq, if_false]
    exact ih l2 hr

theorem nodup_split_unique {α : Type} {p : α} :
    ∀ (A A1 B B1 : List α), (A ++ p :: B).Nodup → A ++ p :: B = A1 ++ p :: B1 →
      A = A1 ∧ B = B1 := by
  intro A
  induction A with
  | nil =>
    intro A1 B B1 hn h
    cases A1 with
    | nil => exact ⟨rfl, (List.cons.inj h).2⟩
    | cons a rest =>
      exfalso
      simp only [List.nil_append, List.cons_append] at h
      obtain ⟨h1, h2⟩ := List.cons.inj h
      subst h1
      rw [List.nil_append, h2] at hn
      have := (List.nodup_cons.1 hn).1
      exact this (by simp)
  | cons a rest ih =>
    intro A1 B B1 hn h
    cases A1 with
    | nil =>
      exfalso
      simp only [List.nil_append, List.cons_append] at h
      obtain ⟨h1, h2⟩ := List.cons.inj h
      subst h1
      simp only [List.cons_append] at hn
      exact (List.nodup_cons.1 hn).1 (by simp)
    | cons a1 rest1 =>
      simp only [List.cons_append] at h hn
      obtain ⟨h1, h2⟩ := List.cons.inj h
      subst h1
      obtain ⟨i1, i2⟩ := ih rest1 B B1 (List.nodup_cons.1 hn).2 h2
      exact ⟨by rw [i1], i2⟩

/-- A tree linked in a doubling array in order has a record that names the
doubling array. -/
theorem wf_record {st : da_state} {da : Nat} {d : castle_double_array} (hwf : da_wf st da d)
    {p : Nat} (hp : p ∈ da_walk d) :
    ∃ c i l, st.cts[p]? = some c ∧ c.da = d.id ∧ c.level = i ∧ d.trees[i]? = some l ∧ p ∈ l := by
  obtain ⟨l, hl, hpl⟩ := List.mem_flatten.1 hp
  obtain ⟨i, hi⟩ := List.mem_iff_getElem?.1 hl
  have hlk := hwf.linked (i, l) (List.mk_mem_enum_iff_getElem?.2 hi) p hpl
  cases hc : st.cts[p]? with
  | none => rw [hc] at hlk; cases hlk
  | some c =>
    rw [hc] at hlk
    simp only [Option.map_some', Option.some.injEq, Prod.mk.injEq] at hlk
    exact ⟨c, i, l, rfl, hlk.1, hlk.2, hi, hpl⟩

/-- In a doubling array in order `castle_da_ct_next` returns the tree that
follows in the walk, and `NULL` for the last tree. -/
theorem ct_next_on_walk {st : da_state} {da : Nat} {d : castle_double_array}
    (hwf : da_wf st da d) (A B : List Nat) (p : Nat) (hw : da_walk d = A ++ p :: B) :
    castle_da_ct_next st p = Res.ok B.head? := by
  have hp : p ∈ da_walk d := by rw [hw]; simp
  obtain ⟨c, i, l, hc, hda, hlev, hi, hpl⟩ := wf_record hwf hp
  obtain ⟨hilt, hil⟩ := List.getElem?_eq_some.1 hi
  have hmax : i < MAX_DA_LEVEL := by rw [← hwf.levels]; exact hilt
  -- the lists around the list of `p`
  have htrees : d.trees = d.trees.take i ++ l :: d.trees.drop (i + 1) := by
    conv_lhs => rw [← List.take_append_drop i d.trees]
    rw [List.drop_eq_getElem_cons hilt, hil]
  have hnd := hwf.once
  have hflat : da_walk d =
      (d.trees.take i).flatten ++ (l ++ (d.trees.drop (i + 1)).flatten) := by
    rw [da_walk]
    conv_lhs => rw [htrees]
    rw [List.flatten_append, List.flatten_cons]
  obtain ⟨l1, l2, hl⟩ := List.append_of_mem hpl
  have hsplit : da_walk d =
      ((d.trees.take i).flatten ++ l1) ++ p :: (l2 ++ (d.trees.drop (i + 1)).flatten) := by
    rw [hflat, hl]
    simp
  have hl1 : p ∉ l1 := by
    intro hc1
    rw [hsplit] at hnd
    have h1 := (List.nodup_append.1 hnd).2.2
    exact h1 (List.mem_append_right _ hc1) (List.mem_cons_self _ _)
  have hAB : A = (d.trees.take i).flatten ++ l1 ∧
      B = l2 ++ (d.trees.drop (i + 1)).flatten := by
    have hn2 := hnd
    rw [hw] at hn2
    exact nodup_split_unique A _ B _ hn2 (by rw [← hw, hsplit])
  have hbehind : entries_behind p l = some l2 := by
    rw [hl]
    exact entries_behind_split p l1 l2 hl1
  have hhash : castle_da_hash_get st c.da = some da := by rw [hda]; exact hwf.hash
  have htake : d.trees.take MAX_DA_LEVEL = d.trees :=
    List.take_of_length_le (by rw [hwf.levels])
  -- the check of `seq` on the tree found
  have hcheck : ∀ q B1, B = q :: B1 →
      ∃ n, st.cts[q]? = some n ∧ ¬ n.seq > c.seq := by
    intro q B1 hB
    have hq : q ∈ da_walk d := by rw [hw, hB]; simp
    obtain ⟨n, -, -, hn, -⟩ := wf_record hwf hq
    refine ⟨n, hn, ?_⟩
    have hch : [p, q].Chain' (fun p q => seq_of st q ≤ seq_of st p) := by
      refine chain_part hwf.order A B1 ?_
      rw [hw, hB]
      simp
    have := List.chain'_pair.1 hch
    simp only [seq_of, hn, hc, Option.map_some', Option.getD_some] at this
    omega
  rw [castle_da_ct_next]
  simp only [hc, hhash, hwf.record, hlev, hi, hbehind, htake]
  rw [if_neg (by omega)]
  cases l2 with
  | nil =>
    simp only [List.nil_append] at hAB
    rw [← hAB.2]
    cases hB : B with
    | nil => simp
    | cons q B1 =>
      obtain ⟨n, hn, hle⟩ := hcheck q B1 hB
      simp only [List.head?_cons, hn]
      rw [if_neg hle]
  | cons q l3 =>
    obtain ⟨n, hn, hle⟩ := hcheck q (l3 ++ (d.trees.drop (i + 1)).flatten) (by rw [hAB.2]; rfl)
    simp only [hn]
    rw [if_neg hle, hAB.2]
    rfl

/-- A READ that has reached the tree `p` of a doubling array in order, with fuel
for the trees behind `p`, delivers the first answer of the trees from `p` on. -/
theorem bvec_complete_on_walk (castle_btree_find : Nat → Int × c_disk_blk_t)
    {st : da_state} {da : Nat} {d : castle_double_array} (hwf : da_wf st da d) :
    ∀ (B A : List Nat) (p fuel : Nat), da_walk d = A ++ p :: B → B.length ≤ fuel →
      castle_da_bvec_complete castle_btree_find st true fuel p (castle_btree_find p).1
        (castle_btree_find p).2 = Res.ok (first_answer castle_btree_find (p :: B)) := by
  intro B
  induction B with
  | nil =>
    intro A p fuel hw _
    have hn := ct_next_on_walk hwf A [] p hw
    rw [castle_da_bvec_complete, first_answer]
    by_cases hc : (DISK_BLK_INVAL (castle_btree_find p).2 &&
        (castle_btree_find p).1 == 0) = true
    · have he : (castle_btree_find p).1 = 0 := by
        simp only [Bool.and_eq_true, beq_iff_eq] at hc
        exact hc.2
      rw [if_pos (by simp only [hc, Bool.and_true]), if_pos hc, hn]
      simp only [List.head?_nil, first_answer, he]
    · simp only [hc, Bool.and_true, Bool.false_eq_true, if_false]
  | cons q B1 ih =>
    intro A p fuel hw hf
    have hn := ct_next_on_walk hwf A (q :: B1) p hw
    obtain ⟨f, rfl⟩ : ∃ f, fuel = f + 1 := ⟨fuel - 1, by simp at hf; omega⟩
    rw [castle_da_bvec_complete, first_answer]
    by_cases hc : (DISK_BLK_INVAL (castle_btree_find p).2 &&
        (castle_btree_find p).1 == 0) = true
    · simp only [hc, Bool.and_true, if_true, hn, List.head?_cons]
      exact ih (A ++ [p]) q f (by rw [hw]; simp) (by simp at hf; omega)
    · simp only [hc, Bool.and_true, Bool.false_eq_true, if_false]

/-- The answer is `INVAL_DISK_BLK` without error exactly when every lookup
completed without error and without a valid block; otherwise it is the result of
the first lookup that did not. -/
theorem first_answer_spec (castle_btree_find : Nat → Int × c_disk_blk_t) :
    ∀ (walk : List Nat),
      (first_answer castle_btree_find walk = (0, INVAL_DISK_BLK) ↔
        ∀ q ∈ walk, castle_btree_find q = (0, INVAL_DISK_BLK)) ∧
      (∀ pre p post, walk = pre ++ p :: post →
        (∀ q ∈ pre, castle_btree_find q = (0, INVAL_DISK_BLK)) →
        castle_btree_find p ≠ (0, INVAL_DISK_BLK) →
        first_answer castle_btree_find walk = castle_btree_find p) := by
  have hcond : ∀ q, (DISK_BLK_INVAL (castle_btree_find q).2 &&
      (castle_btree_find q).1 == 0) = true ↔ castle_btree_find q = (0, INVAL_DISK_BLK) := by
    intro q
    obtain ⟨e, b1, b2⟩ := castle_btree_find q
    simp only [DISK_BLK_INVAL, INVAL_DISK_BLK, Bool.and_eq_true, beq_iff_eq, Prod.mk.injEq]
    constructor
    · rintro ⟨⟨h1, h2⟩, h3⟩; exact ⟨h3, h2, h1⟩
    · rintro ⟨h3, h2, h1⟩; exact ⟨⟨h1, h2⟩, h3⟩
  intro walk
  induction walk with
  | nil =>
    refine ⟨⟨fun _ q hq => (by cases hq), fun _ => rfl⟩, fun pre p post h => ?_⟩
    cases pre <;> cases h
  | cons a rest ih =>
    rw [first_answer]
    by_cases hc : (DISK_BLK_INVAL (castle_btree_find a).2 &&
        (castle_btree_find a).1 == 0) = true
    · rw [if_pos hc]
      have ha := (hcond a).1 hc
      refine ⟨⟨fun h q hq => ?_, fun h => ih.1.2 (fun q hq => h q (List.mem_cons_of_mem _ hq))⟩,
        fun pre p post h hpre hp => ?_⟩
      · rcases List.mem_cons.1 hq with hq | hq
        · rw [hq]; exact ha
        · exact ih.1.1 h q hq
      · cases pre with
        | nil =>
          obtain ⟨h1, -⟩ := List.cons.inj h
          subst h1
          exact absurd ha hp
        | cons b pre1 =>
          obtain ⟨h1, h2⟩ := List.cons.inj h
          exact ih.2 pre1 p post h2 (fun q hq => hpre q (List.mem_cons_of_mem _ hq)) hp
    · rw [if_neg hc]
      have ha : castle_btree_find a ≠ (0, INVAL_DISK_BLK) := fun h => hc ((hcond a).2 h)
      refine ⟨⟨fun h => absurd h ha, fun h => absurd (h a (List.mem_cons_self _ _)) ha⟩,
        fun pre p post h hpre hp => ?_⟩
      cases pre with
      | nil =>
        obtain ⟨h1, -⟩ := List.cons.inj h
        rw [h1]
      | cons b pre1 =>
        obtain ⟨h1, -⟩ := List.cons.inj h
        subst h1
        exact absurd (hpre a (List.mem_cons_self _ _)) ha

/-- A READ on a doubling array in order, with fuel for all its trees, delivers the
first answer of the walk, which begins with the tree of level 0. -/
theorem find_on_walk (castle_btree_find : Nat → Int × c_disk_blk_t)
    {st : da_state} {da : Nat} {d : castle_double_array} (hwf : da_wf st da d)
    (fuel : Nat) (hfuel : (da_walk d).length ≤ fuel) :
    castle_double_array_find castle_btree_find st (some d.id) false true fuel =
      Res.ok (first_answer castle_btree_find (da_walk d)) ∧
    ∃ p, castle_da_rwct_get st da = Res.ok p ∧ (da_walk d).head? = some p := by
  have hact := hwf.active
  cases h0 : d.trees[0]? with
  | none => rw [h0] at hact; cases hact
  | some l =>
    rw [h0] at hact
    simp only [Option.map_some', Option.some.injEq] at hact
    obtain ⟨p, rfl⟩ : ∃ p, l = [p] := List.length_eq_one.1 hact
    have htrees : d.trees = [p] :: d.trees.drop 1 := by
      obtain ⟨hlt, hl⟩ := List.getElem?_eq_some.1 h0
      conv_lhs => rw [← List.take_append_drop 0 d.trees]
      rw [List.take_zero, List.nil_append, List.drop_eq_getElem_cons hlt, hl]
    have hw : da_walk d = [] ++ p :: (d.trees.drop 1).flatten := by
      rw [da_walk]
      conv_lhs => rw [htrees]
      rw [List.flatten_cons]
      rfl
    have hget : castle_da_rwct_get st da = Res.ok p := by
      simp only [castle_da_rwct_get, hwf.record, h0]
    have hrun := bvec_complete_on_walk castle_btree_find hwf (d.trees.drop 1).flatten [] p fuel hw
      (by rw [hw] at hfuel; simp only [List.nil_append, List.length_cons] at hfuel; omega)
    refine ⟨?_, p, hget, by rw [hw]; rfl⟩
    rw [castle_double_array_find]
    simp only [hwf.hash, Bool.false_eq_true, if_false, hget]
    rw [hrun, hw]
    rfl

/-- C14 (counterexample): a doubling array with the tree at pointer 2 at level 0
and the tree at pointer 1 at level 1.  When the lookup in the first tree
completes with error -5 and the lookup in the second would find block `(1, 7)`,
the READ delivers error -5 and no block, not the block of the first tree that
answers without error.  When the first lookup finds nothing and the second
fails, every tree has returned an invalid block, yet the READ does not deliver
`INVAL_DISK_BLK` with `err == 0`. -/
theorem read_stops_at_error_counterexample :
    castle_da_rwct_get da_made2 0 = Res.ok 2 ∧
    castle_da_ct_next da_made2 2 = Res.ok (some 1) ∧
    castle_da_ct_next da_made2 1 = Res.ok none ∧
    failing_find 1 = (0, (1, 7)) ∧ DISK_BLK_INVAL (1, 7) = false ∧
    castle_double_array_find failing_find da_made2 (some 1) false true 5 =
      Res.ok (-5, INVAL_DISK_BLK) ∧
    (∀ p ∈ [2, 1], DISK_BLK_INVAL (late_failing_find p).2 = true) ∧
    castle_double_array_find late_failing_find da_made2 (some 1) false true 5 =
      Res.ok (-5, INVAL_DISK_BLK) :=
  ⟨by decide, by decide, by decide, by decide, by decide, by decide, by decide, by decide⟩

/-- C14 (amended): for a READ on a doubling array in order, with fuel for all its
trees, `castle_double_array_find` delivers to the callback the result of the
first lookup, in walk order from the level-0 tree on, that completed with an
error or with a valid block, error code included; it delivers `INVAL_DISK_BLK`
with `err == 0` exactly when every lookup completed without error and with an
invalid block. -/
theorem find_delivers_first_answer (castle_btree_find : Nat → Int × c_disk_blk_t)
    (st : da_state) (da : Nat) (d : castle_double_array) (hwf : da_wf st da d)
    (fuel : Nat) (hfuel : (da_walk d).length ≤ fuel) :
    ∃ r p, castle_double_array_find castle_btree_find st (some d.id) false true fuel =
        Res.ok r ∧
      castle_da_rwct_get st da = Res.ok p ∧ (da_walk d).head? = some p ∧
      (∀ pre q post, da_walk d = pre ++ q :: post →
        (∀ t ∈ pre, castle_btree_find t = (0, INVAL_DISK_BLK)) →
        castle_btree_find q ≠ (0, INVAL_DISK_BLK) → r = castle_btree_find q) ∧
      (r = (0, INVAL_DISK_BLK) ↔ ∀ q ∈ da_walk d, castle_btree_find q = (0, INVAL_DISK_BLK)) := by
  obtain ⟨h1, p, h2, h3⟩ := find_on_walk castle_btree_find hwf fuel hfuel
  obtain ⟨s1, s2⟩ := first_answer_spec castle_btree_find (da_walk d)
  exact ⟨first_answer castle_btree_find (da_walk d), p, h1, h2, h3, s2, s1⟩

/-- The doubling array of `da_made2` is in order; when the lookup in its level-0
tree finds nothing and the lookup in the tree of level 1 finds block `(1, 7)`,
the READ delivers that block. -/
theorem find_delivers_first_answer_witness :
    da_wf da_made2 0 da_two_levels ∧
    ∃ r p, castle_double_array_find (fun t => if t = 2 then (0, INVAL_DISK_BLK) else (0, (1, 7)))
        da_made2 (some 1) false true 2 = Res.ok r ∧
      castle_da_rwct_get da_made2 0 = Res.ok p ∧ (da_walk da_two_levels).head? = some p ∧
      (∀ pre q post, da_walk da_two_levels = pre ++ q :: post →
        (∀ t ∈ pre, (if t = 2 then ((0 : Int), INVAL_DISK_BLK) else (0, (1, 7))) =
          (0, INVAL_DISK_BLK)) →
        (if q = 2 then ((0 : Int), INVAL_DISK_BLK) else (0, (1, 7))) ≠ (0, INVAL_DISK_BLK) →
        r = (if q = 2 then (0, INVAL_DISK_BLK) else (0, (1, 7)))) ∧
      (r = (0, INVAL_DISK_BLK) ↔ ∀ q ∈ da_walk da_two_levels,
        (if q = 2 then ((0 : Int), INVAL_DISK_BLK) else (0, (1, 7))) = (0, INVAL_DISK_BLK)) :=
  have hwf : da_wf da_made2 0 da_two_levels :=
    ⟨by decide, by decide, by decide, by decide, by decide, by decide,
      (by
        show List.Chain' (fun p q => seq_of da_made2 q ≤ seq_of da_made2 p) [2, 1]
        exact List.Chain.cons (by decide) List.Chain.nil)⟩
  ⟨hwf, find_delivers_first_answer (fun t => if t = 2 then (0, INVAL_DISK_BLK) else (0, (1, 7)))
    da_made2 0 da_two_levels hwf 2 (by decide)⟩

/-! ## Routing soundness -/

theorem closest_visible_unique {vst : Versions} (hp : Processed vst) {V : Nat}
    {entries : List (Nat × c_disk_blk_t)} (hnd : (entries.map Prod.fst).Nodup)
    {e e0 : Nat × c_disk_blk_t} (h : closest_visible vst V entries e)
    (h0 : closest_visible vst V entries e0) : e = e0 := by
  have h1 := h.2.2 e0 h0.1 h0.2.1
  have h2 := h0.2.2 e h.1 h.2.1
  have hv : e.1 = e0.1 := is_ancestor_antisymm hp h2 h1
  exact List.inj_on_of_nodup_map hnd h.1 h0.1 hv

theorem pairwise_of_chain_ge (st : da_state) (l : List Nat)
    (h : l.Chain' (fun p q => seq_of st q ≤ seq_of st p)) :
    l.Pairwise (fun p q => seq_of st q ≤ seq_of st p) := by
  haveI : IsTrans Nat (fun p q => seq_of st q ≤ seq_of st p) :=
    ⟨fun a b c h1 h2 => le_trans h2 h1⟩
  exact List.chain'_iff_pairwise.1 h

/-- C15: on a doubling array in order, for a query of version `V`, when the lookup
in each tree returns the block of the entry whose version is the closest
ancestor of `V`, or `INVAL_DISK_BLK` if the tree has no entry visible to `V`
(blocks of entries being valid, versions within a tree distinct), the READ
delivers without error the block of that entry of the first tree of the walk
that has a visible entry, which no tree behind it exceeds in `seq`, and it
delivers `INVAL_DISK_BLK` if no tree has a visible entry. -/
theorem router_returns_most_recent_visible (vst : Versions) (hp : Processed vst) (V : Nat)
    (entries : Nat → List (Nat × c_disk_blk_t))
    (castle_btree_find : Nat → Int × c_disk_blk_t)
    (st : da_state) (da : Nat) (d : castle_double_array) (hwf : da_wf st da d)
    (fuel : Nat) (hfuel : (da_walk d).length ≤ fuel)
    (hvalid : ∀ p ∈ da_walk d, ∀ e ∈ entries p, DISK_BLK_INVAL e.2 = false)
    (hnd : ∀ p ∈ da_walk d, ((entries p).map Prod.fst).Nodup)
    (hfind : ∀ p ∈ da_walk d,
      (∃ e, closest_visible vst V (entries p) e ∧ castle_btree_find p = (0, e.2)) ∨
      ((∀ e ∈ entries p, ¬ visible vst V e) ∧ castle_btree_find p = (0, INVAL_DISK_BLK))) :
    ∃ r, castle_double_array_find castle_btree_find st (some d.id) false true fuel =
        Res.ok r ∧
      (∀ pre p post e, da_walk d = pre ++ p :: post →
        (∀ q ∈ pre, ∀ e1 ∈ entries q, ¬ visible vst V e1) →
        closest_visible vst V (entries p) e →
        r = (0, e.2) ∧ ∀ q ∈ post, seq_of st q ≤ seq_of st p) ∧
      ((∀ q ∈ da_walk d, ∀ e ∈ entries q, ¬ visible vst V e) → r = (0, INVAL_DISK_BLK)) := by
  obtain ⟨h1, -⟩ := find_on_walk castle_btree_find hwf fuel hfuel
  obtain ⟨s1, s2⟩ := first_answer_spec castle_btree_find (da_walk d)
  have hnone : ∀ q ∈ da_walk d, (∀ e ∈ entries q, ¬ visible vst V e) →
      castle_btree_find q = (0, INVAL_DISK_BLK) := by
    intro q hq hno
    rcases hfind q hq with ⟨e, he, -⟩ | ⟨-, hf⟩
    · exact absurd he.2.1 (hno e he.1)
    · exact hf
  refine ⟨first_answer castle_btree_find (da_walk d), h1, ?_, fun hall => ?_⟩
  · intro pre p post e hw hpre hcl
    have hpw : p ∈ da_walk d := by rw [hw]; simp
    constructor
    · have hfp : castle_btree_find p = (0, e.2) := by
        rcases hfind p hpw with ⟨e0, he0, hf⟩ | ⟨hno, -⟩
        · rw [hf, closest_visible_unique hp (hnd p hpw) hcl he0]
        · exact absurd hcl.2.1 (hno e hcl.1)
      rw [← hfp]
      refine s2 pre p post hw (fun q hq => hnone q (by rw [hw]; simp [hq]) (hpre q hq)) ?_
      rw [hfp]
      intro hc
      have hv := hvalid p hpw e hcl.1
      have h2 : e.2 = INVAL_DISK_BLK := (Prod.mk.inj hc).2
      rw [h2] at hv
      exact absurd hv (by decide)
    · intro q hq
      have hpair := pairwise_of_chain_ge st _ hwf.order
      rw [hw] at hpair
      exact List.rel_of_pairwise_cons (List.pairwise_append.1 hpair).2.1 hq
  · exact s1.2 (fun q hq => hnone q hq (hall q hq))

/-- A tree with one entry for the key: a lookup that returns the block of the
entry when it is visible, and `INVAL_DISK_BLK` otherwise, returns the closest
ancestor. -/
theorem single_entry_find {vst : Versions} (hp : Processed vst) (V : Nat)
    (e : Nat × c_disk_blk_t) (r : Int × c_disk_blk_t)
    (hr : r = if castle_version_is_ancestor vst e.1 V = Res.ok true then (0, e.2)
      else (0, INVAL_DISK_BLK)) :
    (∃ e0, closest_visible vst V [e] e0 ∧ r = (0, e0.2)) ∨
    ((∀ e1 ∈ [e], ¬ visible vst V e1) ∧ r = (0, INVAL_DISK_BLK)) := by
  by_cases hv : castle_version_is_ancestor vst e.1 V = Res.ok true
  · left
    rw [if_pos hv] at hr
    refine ⟨e, ⟨List.mem_singleton.2 rfl, hv, fun e1 he1 _ => ?_⟩, hr⟩
    rw [List.mem_singleton.1 he1]
    exact is_ancestor_self hp (in_forest_of_ok hp hv).1
  · right
    rw [if_neg hv] at hr
    refine ⟨fun e1 he1 => ?_, hr⟩
    rw [List.mem_singleton.1 he1]
    exact hv

theorem e4_find_closest (V : Nat) : ∀ p ∈ da_walk da_three_levels,
    (∃ e, closest_visible (versions_of e4_edges) V (e4_entries p) e ∧
      e4_find V p = (0, e.2)) ∨
    ((∀ e ∈ e4_entries p, ¬ visible (versions_of e4_edges) V e) ∧
      e4_find V p = (0, INVAL_DISK_BLK)) := by
  have hp : Processed (versions_of e4_edges) :=
    processed_of_run (show valid_forest e4_adds by decide) (le_refl _)
      (versions_of_run e4_edges (by decide))
  intro p hpw
  have hcases : p = 3 ∨ p = 2 ∨ p = 1 := by
    have : p ∈ [3, 2, 1] := hpw
    simpa using this
  rcases hcases with h | h | h <;> subst h
  · exact single_entry_find hp V (5, (7, 5)) _ rfl
  · exact single_entry_find hp V (2, (7, 2)) _ rfl
  · exact single_entry_find hp V (1, (7, 1)) _ rfl

theorem da_three_wf : da_wf da_three 0 da_three_levels :=
  ⟨by decide, by decide, by decide, by decide, by decide, by decide,
    (by
      show List.Chain' (fun p q => seq_of da_three q ≤ seq_of da_three p) [3, 2, 1]
      exact List.Chain.cons (by decide) (List.Chain.cons (by decide) List.Chain.nil))⟩

/-- Example E4: the doubling array reached by `castle_double_array_make` and two
calls of `castle_da_rwct_make`, whose trees hold, newest first, the versions 5,
2 and 1 of the key.  The query for version 5 returns the block of the first
tree, the query for version 4, a child of 2, the block of the second tree, and
the query for version 9, which descends from none of them, returns
`INVAL_DISK_BLK`. -/
theorem router_returns_most_recent_visible_witness :
    castle_da_rwct_make example_env da_made2 0 = Res.ok (da_three, 0) ∧
    da_wf da_three 0 da_three_levels ∧
    castle_version_is_ancestor (versions_of e4_edges) 2 4 = Res.ok true ∧
    castle_version_is_ancestor (versions_of e4_edges) 5 4 = Res.ok false ∧
    castle_double_array_find (e4_find 5) da_three (some 1) false true 3 = Res.ok (0, (7, 5)) ∧
    castle_double_array_find (e4_find 4) da_three (some 1) false true 3 = Res.ok (0, (7, 2)) ∧
    castle_double_array_find (e4_find 9) da_three (some 1) false true 3 =
      Res.ok (0, INVAL_DISK_BLK) := by
  have hp : Processed (versions_of e4_edges) :=
    processed_of_run (show valid_forest e4_adds by decide) (le_refl _)
      (versions_of_run e4_edges (by decide))
  have hvalid : ∀ p ∈ da_walk da_three_levels, ∀ e ∈ e4_entries p,
      DISK_BLK_INVAL e.2 = false := by decide
  have hnd : ∀ p ∈ da_walk da_three_levels, ((e4_entries p).map Prod.fst).Nodup := by decide
  obtain ⟨r5, a1, a2, -⟩ := router_returns_most_recent_visible (versions_of e4_edges) hp 5
    e4_entries (e4_find 5) da_three 0 da_three_levels da_three_wf 3 (by decide) hvalid hnd
    (e4_find_closest 5)
  obtain ⟨r4, b1, b2, -⟩ := router_returns_most_recent_visible (versions_of e4_edges) hp 4
    e4_entries (e4_find 4) da_three 0 da_three_levels da_three_wf 3 (by decide) hvalid hnd
    (e4_find_closest 4)
  obtain ⟨r9, c1, -, c3⟩ := router_returns_most_recent_visible (versions_of e4_edges) hp 9
    e4_entries (e4_find 9) da_three 0 da_three_levels da_three_wf 3 (by decide) hvalid hnd
    (e4_find_closest 9)
  have hself : ∀ v, castle_version_is_ancestor (versions_of e4_edges) v v = Res.ok true →
      ∀ V, castle_version_is_ancestor (versions_of e4_edges) v V = Res.ok true →
      closest_visible (versions_of e4_edges) V [(v, ((7, v) : c_disk_blk_t))] (v, (7, v)) :=
    fun v hv V hV => ⟨List.mem_singleton.2 rfl, hV, fun e1 he1 _ => by
      rw [List.mem_singleton.1 he1]; exact hv⟩
  have e5 : r5 = (0, (7, 5)) :=
    (a2 [] 3 [2, 1] (5, (7, 5)) rfl (fun q hq => by cases hq)
      (hself 5 (by decide) 5 (by decide))).1
  have e4 : r4 = (0, (7, 2)) :=
    (b2 [3] 2 [1] (2, (7, 2)) rfl
      (fun q hq e1 he1 => by
        rw [List.mem_singleton.1 hq] at he1
        rw [List.mem_singleton.1 he1]
        show ¬ castle_version_is_ancestor (versions_of e4_edges) 5 4 = Res.ok true
        decide)
      (hself 2 (by decide) 4 (by decide))).1
  have e9 : r9 = (0, INVAL_DISK_BLK) := by
    apply c3
    intro q hq e he
    have hcases : q = 3 ∨ q = 2 ∨ q = 1 := by
      have : q ∈ [3, 2, 1] := hq
      simpa using this
    rcases hcases with h | h | h <;> subst h
    · rw [List.mem_singleton.1 he]
      show ¬ castle_version_is_ancestor (versions_of e4_edges) 5 9 = Res.ok true
      decide
    · rw [List.mem_singleton.1 he]
      show ¬ castle_version_is_ancestor (versions_of e4_edges) 2 9 = Res.ok true
      decide
    · rw [List.mem_singleton.1 he]
      show ¬ castle_version_is_ancestor (versions_of e4_edges) 1 9 = Res.ok true
      decide
  rw [e5] at a1
  rw [e4] at b1
  rw [e9] at c1
  exact ⟨by decide, da_three_wf, by decide, by decide, a1, b1, c1⟩

/-! ## One call of `castle_ct_merged_iter_next` -/

theorem comp_take_cached {le : kv_entry → kv_entry → Prop} {f : component_iterator}
    (h : CInv le f) (hc : f.cached = true) :
    (comp_take f).cached = false ∧ (comp_take f).iterator = f.iterator ∧
    (comp_take f).cached_entry = f.cached_entry ∧
    ((comp_take f).completed = true ↔ f.iterator = []) := by
  have hco : f.completed = false := by
    cases hcc : f.completed with
    | false => rfl
    | true => have := (h.done hcc).1; rw [hc] at this; cases this
  cases hi : f.iterator with
  | nil => simp [comp_take, hi]
  | cons x it => simp [comp_take, hi, hco]

theorem CInv_take {f : component_iterator} (h : CInv (fun _ _ => True) f)
    (hc : f.cached = true) : CInv (fun _ _ => True) (comp_take f) := by
  obtain ⟨h1, h2, h3, h4⟩ := comp_take_cached h hc
  refine ⟨fun hd => ⟨h1, by rw [h2]; exact h4.1 hd⟩, fun hd => Or.inr ?_,
    List.pairwise_of_forall (fun _ _ => trivial)⟩
  rw [h2]
  intro hi
  rw [h4.2 hi] at hd
  cases hd

theorem e3_iter_ready : iter_ready e3_iter := by
  obtain ⟨iter, hinit, hinv, -⟩ :=
    @merged_iter_init_spec (fun _ _ => True) e3_streams (by decide)
      (fun _ _ => List.pairwise_of_forall (fun _ _ => trivial))
  have : iter = e3_iter := by
    have h2 : castle_ct_merged_iter_init (e3_streams.length : Int) e3_streams
        = Res.ok e3_iter := by decide
    rw [h2] at hinit
    cases hinit
    rfl
  rw [← this]
  exact hinv

/-- C21: a call of `castle_ct_merged_iter_next` on a merged iterator in its
state between two calls, made while `castle_ct_merged_iter_has_next` is true
(the composite order being a total order): every component that is not
completed and has no cached entry gets the next entry of its iterator into its
cache, the others are left alone; the call returns the cached entry of one
component `j`, and `castle_kv_compare` of it with the cached entry of every
component is `<= 0`; afterwards the components are the refilled ones with only
component `j` changed: its cache is cleared, and it is completed exactly when
its iterator has no further entry, which is also exactly when `non_empty_cnt` is
decremented.  The state between two calls is kept. -/
theorem merged_iter_next_fills_and_picks (btree : castle_btree_type) (vc : Nat → Nat → Int)
    (ht : is_total_order_cmp (entry_compare btree vc)) (iter : c_merged_iter_t)
    (h : iter_ready iter) (hn : castle_ct_merged_iter_has_next iter = true) :
    ∃ (filled : List component_iterator) (j : Nat) (f : component_iterator)
      (iter1 : c_merged_iter_t),
      castle_ct_merged_iter_next btree vc iter = Res.ok (iter1, f.cached_entry) ∧
      -- the refill
      filled.length = iter.iterators.length ∧
      (∀ (i : Nat) (c : component_iterator), iter.iterators[i]? = some c →
        (c.completed = false → c.cached = false →
          ∃ e it, c.iterator = e :: it ∧
            filled[i]? = some { c with iterator := it, cached_entry := e, cached := true }) ∧
        (c.completed = true ∨ c.cached = true → filled[i]? = some c)) ∧
      (∀ c ∈ filled, c.completed = false → c.cached = true) ∧
      -- the choice
      filled[j]? = some f ∧ f.cached = true ∧
      (∀ c ∈ filled, c.cached = true →
        castle_kv_compare btree vc f.cached_entry.k f.cached_entry.v
          c.cached_entry.k c.cached_entry.v ≤ 0) ∧
      -- the state afterwards
      iter1.iterators = filled.set j
        { f with cached := false, completed := f.iterator.isEmpty } ∧
      iter1.non_empty_cnt =
        (if f.iterator.isEmpty then iter.non_empty_cnt - 1 else iter.non_empty_cnt) ∧
      iter1.err = iter.err ∧ iter1.nr_iters = iter.nr_iters ∧
      iter_ready iter1 := by
  obtain ⟨hcomps, herr, hcnt⟩ := h
  have hpos : 0 < live_count iter.iterators := by
    simp [castle_ct_merged_iter_has_next, herr] at hn
    omega
  obtain ⟨sm, hloop, hnone, hsome⟩ := next_loop_spec btree vc ht iter.iterators 0 none hcomps
  obtain ⟨c0, hc0, hc0l⟩ := exists_live _ hpos
  cases sm with
  | none =>
    have := (hnone rfl).2 c0 hc0
    rw [this] at hc0l; cases hc0l
  | some je =>
    obtain ⟨j, e⟩ := je
    obtain ⟨horig, hmin, -⟩ := hsome j e rfl
    rcases horig with horig | ⟨-, f, hget, hca, hce⟩
    · cases horig
    rw [Nat.sub_zero] at hget
    have hfm := fun c (hc : c ∈ iter.iterators.map comp_fill) => filled_mem hcomps hc
    have hfmem : f ∈ iter.iterators.map comp_fill := mem_of_getElem?_some hget
    have hfinv := (hfm f hfmem).1
    have hfco : f.completed = false := (hfm f hfmem).2.1 hca
    obtain ⟨t1, t2, t3, t4⟩ := comp_take_cached hfinv hca
    have htake : comp_take f = { f with cached := false, completed := f.iterator.isEmpty } := by
      cases hi : f.iterator with
      | nil => simp [comp_take, hi]
      | cons x it => simp [comp_take, hi, hfco]
    have hnext := next_of_loop btree vc iter _ j e f hloop hget
    obtain ⟨l1, l2, hsplit, hlen⟩ := getElem?_split _ _ _ hget
    refine ⟨iter.iterators.map comp_fill, j, f,
      { iter with
        iterators := (iter.iterators.map comp_fill).set j (comp_take f)
        non_empty_cnt := if f.iterator.isEmpty then iter.non_empty_cnt - 1
          else iter.non_empty_cnt },
      by rw [hnext, hce], by simp, ?_, ?_, hget, hca, ?_, ?_, rfl, rfl, rfl, ?_⟩
    · intro i c hi
      have hci := hcomps c (mem_of_getElem?_some hi)
      have hfi : (iter.iterators.map comp_fill)[i]? = some (comp_fill c) := by
        rw [List.getElem?_map, hi]; rfl
      refine ⟨fun hco hcc => ?_, fun hor => ?_⟩
      · rcases hci.live hco with h1 | h1
        · rw [hcc] at h1; cases h1
        · cases hit : c.iterator with
          | nil => exact absurd hit h1
          | cons x it =>
            refine ⟨x, it, rfl, ?_⟩
            rw [hfi]
            simp [comp_fill, hco, hcc, hit]
      · rw [hfi]
        rcases hor with h1 | h1
        · simp [comp_fill, h1]
        · simp [comp_fill, h1]
    · intro c hc hco
      exact (hfm c hc).2.2 hco
    · intro c hc hcc
      have := hmin c hc hcc
      rw [hce]
      exact this
    · dsimp only
      rw [htake]
    · -- the state between two calls is kept
      refine ⟨?_, herr, ?_⟩
      · intro c' hc'
        dsimp only at hc'
        rw [hsplit, ← hlen, set_split] at hc'
        rcases List.mem_append.1 hc' with h1 | h1
        · exact (hfm c' (by rw [hsplit]; simp [h1])).1
        · rcases List.mem_cons.1 h1 with h2 | h2
          · rw [h2]; exact CInv_take hfinv hca
          · exact (hfm c' (by rw [hsplit]; simp [h2])).1
      · dsimp only
        obtain ⟨-, -, -, -, u5, u6⟩ := comp_take_spec f hfinv hca
        have hfill_live := live_count_fill iter.iterators hcomps
        rw [hsplit] at hfill_live
        rw [hsplit, ← hlen, set_split]
        have e1 : live_count (l1 ++ comp_take f :: l2)
            = live_count l1 + (live_count [comp_take f] + live_count l2) := by
          rw [live_count_append, ← live_count_append [comp_take f] l2]; rfl
        have e2 : live_count (l1 ++ f :: l2)
            = live_count l1 + (live_count [f] + live_count l2) := by
          rw [live_count_append, ← live_count_append [f] l2]; rfl
        rw [e1, u5, hcnt]
        rw [e2, u6] at hfill_live
        rw [← hfill_live]
        cases hi : f.iterator.isEmpty
        · simp
        · simp; omega

/-- C21, at the first call on the two streams of example E3: both caches are
filled with the heads `(1,v1)` and `(1,v2)`, the call returns `(1,v2)` from the
second component and clears only that cache; no component is completed. -/
theorem merged_iter_next_fills_and_picks_witness :
    castle_ct_merged_iter_init 2 e3_streams = Res.ok e3_iter ∧
    castle_ct_merged_iter_has_next e3_iter = true ∧
    (castle_ct_merged_iter_next (nat_btree 3) (castle_version_compare chain_versions)
      e3_iter).map (fun r => (r.1.iterators, r.1.non_empty_cnt, r.2)) =
    Res.ok ([{ completed := false, iterator := [{ k := 3, v := 1, cdb := (0, 2) }],
               cached := true, cached_entry := { k := 1, v := 1, cdb := (0, 1) } },
             { completed := false, iterator := [{ k := 2, v := 1, cdb := (0, 4) }],
               cached := false, cached_entry := { k := 1, v := 2, cdb := (0, 3) } }],
            2, { k := 1, v := 2, cdb := (0, 3) }) ∧
    ∃ (filled : List component_iterator) (j : Nat) (f : component_iterator)
      (iter1 : c_merged_iter_t),
      castle_ct_merged_iter_next (nat_btree 3) (castle_version_compare chain_versions) e3_iter
        = Res.ok (iter1, f.cached_entry) ∧ filled[j]? = some f ∧
      iter1.iterators = filled.set j
        { f with cached := false, completed := f.iterator.isEmpty } := by
  obtain ⟨filled, j, f, iter1, h1, -, -, -, h5, -, -, h8, -⟩ :=
    merged_iter_next_fills_and_picks (nat_btree 3) (castle_version_compare chain_versions)
      (entry_compare_total _ _ (nat_btree_total 3) (castle_version_compare_total chain_versions))
      e3_iter e3_iter_ready (by decide)
  exact ⟨by decide, by decide, by decide, filled, j, f, iter1, h1, h5, h8⟩

/-! ## The payload returned by `castle_version_snap_get` -/

theorem same_payload_refl (st : Versions) : same_payload st st :=
  ⟨rfl, fun _ => ⟨rfl, rfl, rfl⟩⟩

theorem same_payload_trans {a b c : Versions} (h1 : same_payload a b) (h2 : same_payload b c) :
    same_payload a c :=
  ⟨h2.1.trans h1.1, fun p => ⟨(h2.2 p).1.trans (h1.2 p).1, (h2.2 p).2.1.trans (h1.2 p).2.1,
    (h2.2 p).2.2.trans (h1.2 p).2.2⟩⟩

theorem snap_get_congr {st st1 : Versions} (h : same_payload st st1) (v : Nat)
    (r0 : Option c_disk_blk_t) (s0 : Option Nat) :
    castle_version_snap_get st1 v r0 s0 = castle_version_snap_get st v r0 s0 := by
  have hg : castle_versions_hash_get st1 v = castle_versions_hash_get st v := by
    unfold castle_versions_hash_get
    rw [h.1]
    congr 1
    funext p
    rw [(h.2 p).1]
  unfold castle_version_snap_get
  rw [hg]
  cases castle_versions_hash_get st v with
  | none => rfl
  | some p => simp only [(h.2 p).2.1, (h.2 p).2.2]

theorem process_version_payload : ∀ (fuel : Nat) (st : Versions) (v : Nat) (st1 : Versions),
    process_version fuel st v = Res.ok st1 → same_payload st st1 := by
  intro fuel
  induction fuel with
  | zero => intro st v st1 h; simp [process_version] at h
  | succ fuel ih =>
    intro st v st1 h
    rw [process_version] at h
    dsimp only at h
    split at h
    · cases h
    · split at h
      · cases h
      · rename_i p hp
        split at h
        · have h2 := ih _ _ _ h
          exact ⟨h2.1, h2.2⟩
        · cases h
          refine ⟨rfl, fun q => ?_⟩
          dsimp only
          by_cases hqv : q = v
          · subst hqv
            by_cases hqp : q = p
            · subst hqp; simp [setRec]
            · simp [setRec, hqp]
          · by_cases hqp : q = p
            · subst hqp; simp [setRec, hqv]
            · simp [setRec, hqp, hqv]

theorem parenting_pass_payload (inner : Nat) : ∀ (fuel : Nat) (st st1 : Versions),
    parenting_pass inner fuel st = Res.ok st1 → same_payload st st1 := by
  intro fuel
  induction fuel with
  | zero => intro st st1 h; simp [parenting_pass] at h
  | succ fuel ih =>
    intro st st1 h
    rw [parenting_pass] at h
    split at h
    · cases h; exact same_payload_refl _
    · rename_i v rest hl
      split at h
      · rename_i st2 h2
        exact same_payload_trans (process_version_payload _ _ _ _ h2) (ih _ _ h)
      · cases h
      · cases h

theorem numbering_step_payload (mem : Nat → castle_version) (v id : Nat) (down : Bool)
    (p : Nat) :
    let mem1 :=
      if down then
        let m := setRec mem v { mem v with o_order := if down then (id + 1) % 2 ^ 32 else id }
        if (m v).first_child = none then setRec m v { m v with r_order := (m v).o_order } else m
      else
        setRec mem v { mem v with r_order := id }
    (mem1 p).version = (mem p).version ∧ (mem1 p).ftree_root = (mem p).ftree_root ∧
      (mem1 p).size = (mem p).size := by
  cases down
  · by_cases hp : p = v
    · subst hp; simp [setRec]
    · simp [setRec, hp]
  · by_cases hp : p = v
    · subst hp
      by_cases hc : (mem p).first_child = none
      · simp [setRec, hc]
      · simp [setRec, hc]
    · by_cases hc : (mem v).first_child = none
      · simp [setRec, hc, hp]
      · simp [setRec, hc, hp]

theorem numbering_pass_payload : ∀ (fuel : Nat) (mem : Nat → castle_version) (v : Option Nat)
    (id : Nat) (down : Bool) (mem1 : Nat → castle_version),
    numbering_pass fuel mem v id down = Res.ok mem1 →
    ∀ p, (mem1 p).version = (mem p).version ∧ (mem1 p).ftree_root = (mem p).ftree_root ∧
      (mem1 p).size = (mem p).size := by
  intro fuel
  induction fuel with
  | zero =>
    intro mem v id down mem1 h p
    cases v with
    | none => simp [numbering_pass] at h; subst h; exact ⟨rfl, rfl, rfl⟩
    | some v => simp [numbering_pass] at h
  | succ fuel ih =>
    intro mem v id down mem1 h p
    cases v with
    | none => simp [numbering_pass] at h; subst h; exact ⟨rfl, rfl, rfl⟩
    | some v =>
      rw [numbering_pass] at h
      have h1 := ih _ _ _ _ _ h p
      have h2 := numbering_step_payload mem v id down p
      exact ⟨h1.1.trans h2.1, h1.2.1.trans h2.2.1, h1.2.2.trans h2.2.2⟩

theorem process_payload (fuel : Nat) (st st1 : Versions)
    (h : castle_versions_process fuel st = Res.ok st1) : same_payload st st1 := by
  unfold castle_versions_process at h
  split at h
  · cases h
  · cases h
  · rename_i st2 h2
    have hp := parenting_pass_payload _ _ _ _ h2
    split at h
    · cases h
    · rename_i v hv
      split at h
      · cases h
      · split at h
        · cases h
        · split at h
          · rename_i mem hm
            cases h
            have hn := numbering_pass_payload _ _ _ _ _ _ hm
            exact same_payload_trans hp ⟨rfl, hn⟩
          · cases h
          · cases h

theorem find?_congr_mem {α : Type} {f g : α → Bool} : ∀ (l : List α),
    (∀ a ∈ l, f a = g a) → l.find? f = l.find? g := by
  intro l
  induction l with
  | nil => intro _; rfl
  | cons a l ih =>
    intro h
    rw [List.find?_cons, List.find?_cons, h a (by simp), ih (fun b hb => h b (by simp [hb]))]

theorem version_add_fields (st : Versions) (v par : Nat) (r : c_disk_blk_t) (sz : Nat) :
    (castle_version_add st v par r sz).hash =
      (fun i => if i = castle_versions_hash_idx v then st.nr :: st.hash i else st.hash i) ∧
    ((castle_version_add st v par r sz).mem st.nr).version = v ∧
    ((castle_version_add st v par r sz).mem st.nr).ftree_root = r ∧
    ((castle_version_add st v par r sz).mem st.nr).size = sz ∧
    (castle_version_add st v par r sz).nr = st.nr + 1 ∧
    ∀ q, q ≠ st.nr → (castle_version_add st v par r sz).mem q = st.mem q := by
  by_cases hv : v = 0
  · subst hv
    refine ⟨?_, ?_, ?_, ?_, ?_, fun q hq => ?_⟩ <;>
      simp [castle_version_add, castle_versions_hash_add, setRec, *]
  · refine ⟨?_, ?_, ?_, ?_, ?_, fun q hq => ?_⟩ <;>
      simp [castle_version_add, castle_versions_hash_add, setRec, castle_versions_init_add, *]

theorem snap_get_add (st : Versions) (hlt : ∀ b p, p ∈ st.hash b → p ≠ st.nr)
    (v par : Nat) (r : c_disk_blk_t) (sz : Nat) (x : Nat) (r0 : Option c_disk_blk_t)
    (s0 : Option Nat) :
    castle_version_snap_get (castle_version_add st v par r sz) x r0 s0 =
      if x = v then (0, r0.map (fun _ => r), s0.map (fun _ => sz))
      else castle_version_snap_get st x r0 s0 := by
  obtain ⟨h1, h2, h3, h4, -, h6⟩ := version_add_fields st v par r sz
  have hold : ∀ b, (st.hash b).find?
        (fun p => ((castle_version_add st v par r sz).mem p).version == x) =
      (st.hash b).find? (fun p => (st.mem p).version == x) := by
    intro b
    apply find?_congr_mem
    intro p hp
    rw [h6 p (hlt b p hp)]
  by_cases hx : x = v
  · subst hx
    rw [if_pos rfl]
    unfold castle_version_snap_get castle_versions_hash_get
    rw [h1]
    simp only [if_true, List.find?_cons, h2, beq_self_eq_true, h3, h4]
  · rw [if_neg hx]
    have hg : castle_versions_hash_get (castle_version_add st v par r sz) x =
        castle_versions_hash_get st x := by
      unfold castle_versions_hash_get
      rw [h1]
      by_cases hi : castle_versions_hash_idx x = castle_versions_hash_idx v
      · have hne : (v == x) = false := by
          simp only [beq_eq_false_iff_ne, ne_eq]
          exact fun h => hx h.symm
        simp only [hi, if_true, List.find?_cons, h2, hne]
        rw [← hi]
        exact hold _
      · simp only [hi, if_false]
        exact hold _
    unfold castle_version_snap_get
    rw [hg]
    cases hq : castle_versions_hash_get st x with
    | none => rfl
    | some q =>
      have hqm := List.mem_of_find?_eq_some hq
      simp only [h6 q (hlt _ q hqm)]

theorem add_all_hash_lt (l : List AddCall) :
    ∀ b p, p ∈ (add_all l).hash b → p ≠ (add_all l).nr := by
  intro b p hp
  have h := addInv_add_all l
  have := ((h.hash_mem b p).1 hp).1
  rw [h.nr_eq]
  omega

theorem snap_get_snoc (l : List AddCall) (a : AddCall) (x : Nat) (r0 : Option c_disk_blk_t)
    (s0 : Option Nat) :
    castle_version_snap_get (add_all (l ++ [a])) x r0 s0 =
      if x = a.1 then (0, r0.map (fun _ => a.2.2.1), s0.map (fun _ => a.2.2.2))
      else castle_version_snap_get (add_all l) x r0 s0 := by
  rw [add_all_append]
  exact snap_get_add _ (add_all_hash_lt l) _ _ _ _ _ _ _

theorem snap_get_last (pre : List AddCall) (a : AddCall) (r0 : Option c_disk_blk_t)
    (s0 : Option Nat) : ∀ post : List AddCall, a.1 ∉ ids post →
    castle_version_snap_get (add_all (pre ++ a :: post)) a.1 r0 s0 =
      (0, r0.map (fun _ => a.2.2.1), s0.map (fun _ => a.2.2.2)) := by
  intro post
  induction post using List.reverseRecOn with
  | nil =>
    intro _
    rw [snap_get_snoc, if_pos rfl]
  | append_singleton post b ih =>
    intro h
    have hb : a.1 ≠ b.1 := by
      intro e; apply h; simp [ids, e]
    have hp : a.1 ∉ ids post := by
      intro e; apply h; simp only [ids, List.map_append, List.mem_append]; exact Or.inl e
    have : pre ++ a :: (post ++ [b]) = (pre ++ a :: post) ++ [b] := by simp
    rw [this, snap_get_snoc, if_neg hb, ih hp]

theorem snap_get_absent (x : Nat) (r0 : Option c_disk_blk_t) (s0 : Option Nat) :
    ∀ l : List AddCall, x ∉ ids l →
    castle_version_snap_get (add_all l) x r0 s0 = (EINVAL_neg, r0, s0) := by
  intro l
  induction l using List.reverseRecOn with
  | nil => intro _; rfl
  | append_singleton l b ih =>
    intro h
    have hb : x ≠ b.1 := by
      intro e; apply h; simp [ids, e]
    have hp : x ∉ ids l := by
      intro e; apply h; simp only [ids, List.map_append, List.mem_append]; exact Or.inl e
    rw [snap_get_snoc, if_neg hb, ih hp]

/-- C22: after any sequence of `castle_version_add` calls, for the call
`castle_version_add(v, parent, root_block, size)` that added the version `v`
(the last such call, should `v` have been added more than once),
`castle_version_snap_get(v)` returns 0 and writes exactly that root block and
that size to the output locations given (a `NULL` output is skipped); for a
version that was never added it returns `-EINVAL` and leaves both output
locations as they were.  The same holds in the state any returning run of
`castle_versions_process` leaves behind. -/
theorem snap_get_returns_added (pre post : List AddCall) (a : AddCall)
    (hlast : a.1 ∉ ids post) (x : Nat) (hx : x ∉ ids (pre ++ a :: post))
    (r0 : Option c_disk_blk_t) (s0 : Option Nat) :
    castle_version_snap_get (add_all (pre ++ a :: post)) a.1 r0 s0 =
      (0, r0.map (fun _ => a.2.2.1), s0.map (fun _ => a.2.2.2)) ∧
    castle_version_snap_get (add_all (pre ++ a :: post)) x r0 s0 = (EINVAL_neg, r0, s0) ∧
    ∀ fuel st, castle_versions_process fuel (add_all (pre ++ a :: post)) = Res.ok st →
      castle_version_snap_get st a.1 r0 s0 =
        (0, r0.map (fun _ => a.2.2.1), s0.map (fun _ => a.2.2.2)) ∧
      castle_version_snap_get st x r0 s0 = (EINVAL_neg, r0, s0) := by
  have h1 := snap_get_last pre a r0 s0 post hlast
  have h2 := snap_get_absent x r0 s0 _ hx
  refine ⟨h1, h2, fun fuel st hp => ?_⟩
  have hs := process_payload fuel _ st hp
  rw [snap_get_congr hs, snap_get_congr hs]
  exact ⟨h1, h2⟩

/-- C22, at the tree 0->1, 0->3, 1->2: the version 2 added by the third call has
the root block (1,12) and the size 102 before and after
`castle_versions_process`, and the never-added version 7 is refused with both
outputs untouched. -/
theorem snap_get_returns_added_witness :
    (∃ st, castle_versions_process 10 (add_all snap_adds) = Res.ok st ∧
      castle_version_snap_get st 2 (some (5, 5)) (some 5) = (0, some (1, 12), some 102) ∧
      castle_version_snap_get st 7 (some (5, 5)) (some 5) = (-22, some (5, 5), some 5)) ∧
    castle_version_snap_get (add_all snap_adds) 2 (some (5, 5)) (some 5) =
      (0, some (1, 12), some 102) ∧
    castle_version_snap_get (add_all snap_adds) 7 (some (5, 5)) (some 5) =
      (-22, some (5, 5), some 5) := by
  obtain ⟨h1, h2, h3⟩ := snap_get_returns_added
    [(0, 0, (1, 10), 100), (1, 0, (1, 11), 101)] [(3, 0, (2, 21), 201)] (2, 1, (1, 12), 102)
    (by decide) 7 (by decide) (some (5, 5)) (some 5)
  obtain ⟨root, st, f, hr, -⟩ := @process_done snap_adds (by decide) 10 (by decide)
  exact ⟨⟨st, hr, h3 10 st hr⟩, h1, h2⟩

/-! ## A cycle of parent links -/

theorem hash_get_payload {st st1 : Versions} (h : same_payload st st1) (v : Nat) :
    castle_versions_hash_get st1 v = castle_versions_hash_get st v := by
  unfold castle_versions_hash_get
  rw [h.1]
  congr 1
  funext p
  rw [(h.2 p).1]

theorem hash_get_mem {st : Versions} {v q : Nat} (h : castle_versions_hash_get st v = some q) :
    ∃ b, q ∈ st.hash b :=
  ⟨_, List.mem_of_find?_eq_some h⟩

theorem process_version_inited (fuel : Nat) (st : Versions) (v : Nat)
    (hvi : (st.mem v).inited = true) : process_version (fuel + 1) st v = Res.bug := by
  have h1 : (st.mem v).inited = true := hvi
  rw [process_version]
  dsimp only
  rw [if_pos h1]

theorem process_version_orphan (fuel : Nat) (st : Versions) (v : Nat)
    (hvi : (st.mem v).inited = false)
    (hget : castle_versions_hash_get st (st.mem v).parent_v = none) :
    process_version (fuel + 1) st v = Res.bug := by
  have h1 : ¬ ((st.mem v).inited = true) := by simp [hvi]
  have hget' : castle_versions_hash_get { st with init_list := st.init_list.erase v }
      (st.mem v).parent_v = none := hget
  rw [process_version]
  dsimp only
  rw [if_neg h1, hget']

theorem process_version_trap (S : List Nat) : ∀ (fuel : Nat) (st : Versions) (v : Nat)
    (st1 : Versions), parent_trap st S → process_version fuel st v = Res.ok st1 →
    parent_trap st1 S := by
  intro fuel
  induction fuel with
  | zero => intro st v st1 _ h; simp [process_version] at h
  | succ fuel ih =>
    intro st v st1 hS h
    have hpay := process_version_payload _ _ _ _ h
    cases hvi : (st.mem v).inited with
    | true => rw [process_version_inited _ _ _ hvi] at h; cases h
    | false =>
      cases hget : castle_versions_hash_get st (st.mem v).parent_v with
      | none => rw [process_version_orphan _ _ _ hvi hget] at h; cases h
      | some p =>
        cases hpi : (st.mem p).inited with
        | false =>
          rw [process_version_goto _ _ _ _ hvi hget hpi] at h
          refine ih _ _ _ ?_ h
          intro x hx
          obtain ⟨h1, h2, h3⟩ := hS x hx
          refine ⟨?_, h2, h3⟩
          dsimp only
          by_cases hxv : x = v
          · rw [hxv]; exact List.mem_cons_self _ _
          · exact List.mem_cons_of_mem _ ((List.mem_erase_of_ne hxv).2 h1)
        | true =>
          rw [process_version_link _ _ _ _ hvi hget hpi] at h
          have hvS : v ∉ S := by
            intro hv
            obtain ⟨-, -, q, hq, hqe⟩ := hS v hv
            rw [hget] at hqe
            cases hqe
            rw [(hS p hq).2.1] at hpi
            cases hpi
          have hpS : p ∉ S := by
            intro hq
            rw [(hS p hq).2.1] at hpi
            cases hpi
          intro x hx
          obtain ⟨h1, h2, q, hq, hqe⟩ := hS x hx
          have hxv : x ≠ v := fun e => hvS (e ▸ hx)
          have hxp : x ≠ p := fun e => hpS (e ▸ hx)
          have hmem : st1.mem x = st.mem x := by
            cases h
            exact link_mem_x st.mem hxv hxp
          refine ⟨?_, by rw [hmem]; exact h2, q, hq, ?_⟩
          · cases h
            exact (List.mem_erase_of_ne hxv).2 h1
          · rw [hash_get_payload hpay, hmem]
            exact hqe

theorem parenting_pass_trap (S : List Nat) (hne : S ≠ []) (inner : Nat) :
    ∀ (fuel : Nat) (st st1 : Versions), parent_trap st S →
    parenting_pass inner fuel st ≠ Res.ok st1 := by
  intro fuel
  induction fuel with
  | zero => intro st st1 _ h; simp [parenting_pass] at h
  | succ fuel ih =>
    intro st st1 hS h
    rw [parenting_pass] at h
    split at h
    · rename_i hl
      cases S with
      | nil => exact hne rfl
      | cons s S =>
        have := (hS s (by simp)).1
        rw [hl] at this
        cases this
    · split at h
      · rename_i st2 h2
        exact ih _ _ (process_version_trap _ _ _ _ _ hS h2) h
      · cases h
      · cases h

theorem process_version_present : ∀ (fuel : Nat) (st : Versions) (v : Nat),
    parents_present st → (∃ b, v ∈ st.hash b) → (st.mem v).inited = false →
    process_version fuel st v ≠ Res.bug ∧
    ∀ st1, process_version fuel st v = Res.ok st1 → parents_present st1 := by
  intro fuel
  induction fuel with
  | zero =>
    intro st v _ _ _
    exact ⟨by simp [process_version], fun st1 h => by simp [process_version] at h⟩
  | succ fuel ih =>
    intro st v hJ hQ hvi
    obtain ⟨q, hget⟩ := hJ.parent v hQ hvi
    cases hpi : (st.mem q).inited with
    | false =>
      rw [process_version_goto _ _ _ _ hvi hget hpi]
      refine ih _ _ ⟨?_, ?_, hJ.parent⟩ (hash_get_mem hget) hpi
      · exact List.nodup_cons.2 ⟨fun h => (List.Nodup.not_mem_erase hJ.nodup) h,
          hJ.nodup.erase v⟩
      · intro x hx
        rcases List.mem_cons.1 hx with e | e
        · rw [e]; exact ⟨hQ, hvi⟩
        · exact hJ.waiting x (List.mem_of_mem_erase e)
    | true =>
      rw [process_version_link _ _ _ _ hvi hget hpi]
      refine ⟨fun h => (by cases h), fun st1 h => ?_⟩
      cases h
      have hvq : v ≠ q := by
        intro e
        rw [e, hpi] at hvi
        cases hvi
      have hpay : same_payload st
          { st with mem := link_mem st.mem v q, init_list := st.init_list.erase v } :=
        process_version_payload (fuel + 1) st v _ (process_version_link _ _ _ _ hvi hget hpi)
      have hvin : (link_mem st.mem v q v).inited = true := by rw [link_mem_v _ hvq]
      have hqin : (link_mem st.mem v q q).inited = true := by rw [link_mem_p _ hvq]; exact hpi
      refine ⟨hJ.nodup.erase v, ?_, ?_⟩
      · intro x hx
        have hxm := (hJ.nodup.mem_erase_iff.1 hx)
        obtain ⟨h1, h2⟩ := hJ.waiting x hxm.2
        have hxq : x ≠ q := by
          intro e
          rw [e, hpi] at h2
          cases h2
        refine ⟨h1, ?_⟩
        show (link_mem st.mem v q x).inited = false
        rw [link_mem_x _ hxm.1 hxq]
        exact h2
      · intro x hx hxi
        have hxi' : (link_mem st.mem v q x).inited = false := hxi
        have hxv : x ≠ v := by
          intro e
          rw [e, hvin] at hxi'
          cases hxi'
        have hxq : x ≠ q := by
          intro e
          rw [e, hqin] at hxi'
          cases hxi'
        rw [link_mem_x _ hxv hxq] at hxi'
        obtain ⟨r, hr⟩ := hJ.parent x hx hxi'
        refine ⟨r, ?_⟩
        rw [hash_get_payload hpay]
        show castle_versions_hash_get st (link_mem st.mem v q x).parent_v = some r
        rw [link_mem_x _ hxv hxq]
        exact hr

theorem parenting_pass_cycle (S : List Nat) (hne : S ≠ []) (inner : Nat) :
    ∀ (fuel : Nat) (st : Versions), parent_trap st S → parents_present st →
    parenting_pass inner fuel st = Res.timeout := by
  intro fuel
  induction fuel with
  | zero => intro st _ _; rfl
  | succ fuel ih =>
    intro st hS hJ
    cases hr : parenting_pass inner (fuel + 1) st with
    | ok st1 => exact absurd hr (parenting_pass_trap S hne inner _ _ _ hS)
    | timeout => rfl
    | bug =>
      exfalso
      rw [parenting_pass] at hr
      split at hr
      · cases hr
      · rename_i v rest hl
        have hv : v ∈ st.init_list := by rw [hl]; exact List.mem_cons_self _ _
        obtain ⟨hQ, hvi⟩ := hJ.waiting v hv
        obtain ⟨hnb, hok⟩ := process_version_present inner st v hJ hQ hvi
        split at hr
        · rename_i st2 h2
          rw [ih st2 (process_version_trap _ _ _ _ _ hS h2) (hok _ h2)] at hr
          cases hr
        · rename_i h2
          exact hnb h2
        · cases hr

theorem hash_get_of_mem_ids {adds : List AddCall} (hnd : (ids adds).Nodup) {v : Nat}
    (hv : v ∈ ids adds) :
    ∃ i a, adds[i]? = some a ∧ a.1 = v ∧ castle_versions_hash_get (add_all adds) v = some i := by
  obtain ⟨a, ha, hav⟩ := List.mem_map.1 hv
  obtain ⟨i, hi⟩ := List.mem_iff_getElem?.1 ha
  exact ⟨i, a, hi, hav, (hash_get_iff (frame_add_all adds) hnd v i).2 ⟨a, hi, hav⟩⟩

theorem trap_of_cycle {adds : List AddCall} (hnd : (ids adds).Nodup) {cyc : List Nat}
    (hc : parent_cycle adds cyc) :
    ∃ S, S ≠ [] ∧ parent_trap (add_all adds) S := by
  obtain ⟨hne, hcyc⟩ := hc
  have hinv := addInv_add_all adds
  have hin : ∀ v ∈ cyc, ∃ i a, adds[i]? = some a ∧ a.1 = v ∧
      castle_versions_hash_get (add_all adds) v = some i ∧
      i ∈ cyc.filterMap (castle_versions_hash_get (add_all adds)) := by
    intro v hv
    obtain ⟨-, p, -, hp⟩ := hcyc v hv
    obtain ⟨i, a, hi, hav, -⟩ := parent_id_some hp
    have hmem : v ∈ ids adds := List.mem_map.2 ⟨a, mem_of_getElem?_some hi, hav⟩
    obtain ⟨j, b, hj, hbv, hg⟩ := hash_get_of_mem_ids hnd hmem
    exact ⟨j, b, hj, hbv, hg, List.mem_filterMap.2 ⟨v, hv, hg⟩⟩
  refine ⟨cyc.filterMap (castle_versions_hash_get (add_all adds)), ?_, ?_⟩
  · cases cyc with
    | nil => exact absurd rfl hne
    | cons v cyc =>
      obtain ⟨i, -, -, -, -, hi⟩ := hin v (by simp)
      exact List.ne_nil_of_mem hi
  · intro x hx
    obtain ⟨v, hv, hg⟩ := List.mem_filterMap.1 hx
    obtain ⟨hv0, p, hp, hpar⟩ := hcyc v hv
    obtain ⟨a, ha, hav⟩ := (hash_get_iff (frame_add_all adds) hnd v x).1 hg
    have hxlt : x < adds.length := (List.getElem?_eq_some.1 ha).1
    have hrec := hinv.recs x a ha
    have ha0 : a.1 ≠ 0 := by rw [hav]; exact hv0
    refine ⟨(hinv.init_mem x).2 ⟨hxlt, by rw [hrec]; exact ha0⟩, ?_, ?_⟩
    · rw [hrec]
      simp [record0, ha0]
    · have h1 := parent_id_of_index hnd ha
      rw [hav, hpar] at h1
      have hpv : ((add_all adds).mem x).parent_v = p := by
        rw [hrec]
        exact (Option.some.inj h1).symm
      obtain ⟨j, -, -, -, hgp, hj⟩ := hin p hp
      exact ⟨j, hj, by rw [hpv]; exact hgp⟩

theorem present_of_adds {adds : List AddCall} (hnd : (ids adds).Nodup)
    (hpar : ∀ a ∈ adds, a.1 ≠ 0 → a.2.1 ∈ ids adds) : parents_present (add_all adds) := by
  have hinv := addInv_add_all adds
  have hrec : ∀ p, p < adds.length → ∃ a, adds[p]? = some a ∧ a ∈ adds ∧
      (add_all adds).mem p = record0 a := by
    intro p hp
    have : adds[p]? = some adds[p] := by simp [hp]
    exact ⟨adds[p], this, mem_of_getElem?_some this, hinv.recs p _ this⟩
  refine ⟨hinv.init_nodup, ?_, ?_⟩
  · intro p hp
    obtain ⟨hlt, hv⟩ := (hinv.init_mem p).1 hp
    refine ⟨⟨_, (hinv.hash_mem _ p).2 ⟨hlt, rfl⟩⟩, ?_⟩
    obtain ⟨a, -, -, ha⟩ := hrec p hlt
    rw [ha] at hv ⊢
    simpa [record0] using hv
  · intro p hQ hpi
    obtain ⟨b, hb⟩ := hQ
    have hlt := ((hinv.hash_mem b p).1 hb).1
    obtain ⟨a, -, ham, ha⟩ := hrec p hlt
    rw [ha] at hpi ⊢
    have ha0 : a.1 ≠ 0 := by simpa [record0] using hpi
    obtain ⟨j, -, -, -, hg⟩ := hash_get_of_mem_ids hnd (hpar a ham ha0)
    exact ⟨j, hg⟩

theorem cycle_adds_cycle : parent_cycle cycle_adds [1, 2] := by
  refine ⟨by simp, ?_⟩
  intro v hv
  simp only [List.mem_cons, List.mem_singleton, List.not_mem_nil, or_false] at hv
  rcases hv with rfl | rfl
  · exact ⟨by decide, 2, by simp, by decide⟩
  · exact ⟨by decide, 1, by simp, by decide⟩

/-- C23 (as stated, refuted): with version 0 and the versions 1 and 2 added,
each the parent of the other, no run of `castle_versions_process` ends in a
fatal assertion: whatever the number of loop turns allowed, the parenting pass
is still going round the cycle when they are used up. -/
theorem process_cycle_counterexample :
    parent_id cycle_adds 1 = some 2 ∧ parent_id cycle_adds 2 = some 1 ∧
    ∀ fuel, castle_versions_process fuel (add_all cycle_adds) = Res.timeout ∧
      castle_versions_process fuel (add_all cycle_adds) ≠ Res.bug := by
  refine ⟨by decide, by decide, fun fuel => ?_⟩
  obtain ⟨S, hne, hS⟩ := @trap_of_cycle cycle_adds (by decide) [1, 2] cycle_adds_cycle
  have h : castle_versions_process fuel (add_all cycle_adds) = Res.timeout := by
    unfold castle_versions_process
    rw [parenting_pass_cycle S hne fuel fuel _ hS (@present_of_adds cycle_adds (by decide)
      (by decide))]
  rw [h]
  exact ⟨rfl, fun e => by cases e⟩

/-- C23 (amended): for distinct added versions whose parent links contain a
cycle (versions other than 0, the parent of each being one of them),
`castle_versions_process` does not detect the cycle and never returns; when
every parent named by a version other than 0 has been added, no assertion fires
either: for every number of loop turns allowed the parenting pass is still
running when they are used up. -/
theorem process_cycle_never_returns (adds : List AddCall) (hnd : (ids adds).Nodup)
    (cyc : List Nat) (hc : parent_cycle adds cyc) :
    (∀ fuel st, castle_versions_process fuel (add_all adds) ≠ Res.ok st) ∧
    ((∀ a ∈ adds, a.1 ≠ 0 → a.2.1 ∈ ids adds) →
      ∀ fuel, castle_versions_process fuel (add_all adds) = Res.timeout) := by
  obtain ⟨S, hne, hS⟩ := trap_of_cycle hnd hc
  refine ⟨fun fuel st h => ?_, fun hpar fuel => ?_⟩
  · unfold castle_versions_process at h
    split at h
    · cases h
    · cases h
    · rename_i st2 h2
      exact parenting_pass_trap S hne _ _ _ _ hS h2
  · unfold castle_versions_process
    rw [parenting_pass_cycle S hne fuel fuel _ hS (present_of_adds hnd hpar)]

/-- C23 (amended), at the tree 0->5 next to the cycle 1->3->2->1. -/
theorem process_cycle_never_returns_witness :
    (ids [((0 : Nat), (0 : Nat), ((0 : Nat), (0 : Nat)), (0 : Nat)), (5, 0, (0, 0), 0),
      (1, 3, (0, 0), 0), (2, 1, (0, 0), 0), (3, 2, (0, 0), 0)]).Nodup ∧
    ∀ fuel, castle_versions_process fuel
      (add_all [(0, 0, (0, 0), 0), (5, 0, (0, 0), 0), (1, 3, (0, 0), 0), (2, 1, (0, 0), 0),
        (3, 2, (0, 0), 0)]) = Res.timeout := by
  have hc : parent_cycle [((0 : Nat), (0 : Nat), ((0 : Nat), (0 : Nat)), (0 : Nat)),
      (5, 0, (0, 0), 0), (1, 3, (0, 0), 0), (2, 1, (0, 0), 0), (3, 2, (0, 0), 0)] [1, 2, 3] := by
    refine ⟨by simp, ?_⟩
    intro v hv
    simp only [List.mem_cons, List.mem_singleton, List.not_mem_nil, or_false] at hv
    rcases hv with rfl | rfl | rfl
    · exact ⟨by decide, 3, by simp, by decide⟩
    · exact ⟨by decide, 1, by simp, by decide⟩
    · exact ⟨by decide, 2, by simp, by decide⟩
  exact ⟨by decide,
    (process_cycle_never_returns _ (by decide) [1, 2, 3] hc).2 (by decide)⟩

/-! ## The assertions of `castle_version_is_ancestor` -/

theorem add_all_lookup {adds : List AddCall} {x p : Nat}
    (h : castle_versions_hash_get (add_all adds) x = some p) :
    ∃ a, a ∈ adds ∧ a.1 = x ∧ (add_all adds).mem p = record0 a := by
  have hinv := addInv_add_all adds
  have hlt := ((hinv.hash_mem _ p).1 (List.mem_of_find?_eq_some h)).1
  have hget : adds[p]? = some adds[p] := by simp [hlt]
  have hrec := hinv.recs p _ hget
  have hv := List.find?_some h
  rw [hrec] at hv
  exact ⟨adds[p], mem_of_getElem?_some hget, by simpa [record0] using hv, hrec⟩

theorem add_all_absent {adds : List AddCall} {x : Nat} (hx : x ∉ ids adds) :
    castle_versions_hash_get (add_all adds) x = none := by
  cases h : castle_versions_hash_get (add_all adds) x with
  | none => rfl
  | some p =>
    obtain ⟨a, ha, hav, -⟩ := add_all_lookup h
    exact absurd (List.mem_map.2 ⟨a, ha, hav⟩) hx

theorem is_ancestor_bug_of (st : Versions) (c v : Nat)
    (h : castle_versions_hash_get st c = none ∨ castle_versions_hash_get st v = none ∨
      o_order_of st c = some INVAL_VERSION ∨ o_order_of st v = some INVAL_VERSION ∨
      r_order_of st c = some INVAL_VERSION) :
    castle_version_is_ancestor st c v = Res.bug := by
  unfold castle_version_is_ancestor
  cases hv : castle_versions_hash_get st v with
  | none => rfl
  | some pv =>
    cases hc : castle_versions_hash_get st c with
    | none => rfl
    | some pc =>
      simp only [o_order_of, r_order_of, hv, hc, Option.map_some', Option.some.injEq] at h
      dsimp only
      rcases h with h | h | h | h | h
      · cases h
      · cases h
      · simp [VERSION_INVAL, h]
      · simp [VERSION_INVAL, h]
      · simp [VERSION_INVAL, h]

/-- C24: `castle_version_is_ancestor` ends in a fatal assertion, returning no
boolean, (1) for every pair of arguments in the state the `castle_version_add`
calls leave before `castle_versions_process` has run, version 0 included;
(2) after a run of `castle_versions_process`, whenever one of the two arguments
was never added; (3) in any state, whenever one of the two arguments is not in
the hash table, or the `o_order` of one of them, or the `r_order` of the
candidate, still is `INVAL_VERSION`. -/
theorem is_ancestor_aborts_unnumbered (adds : List AddCall) (c v : Nat) :
    castle_version_is_ancestor (add_all adds) c v = Res.bug ∧
    (∀ fuel st, castle_versions_process fuel (add_all adds) = Res.ok st →
      c ∉ ids adds ∨ v ∉ ids adds → castle_version_is_ancestor st c v = Res.bug) ∧
    (∀ st : Versions,
      castle_versions_hash_get st c = none ∨ castle_versions_hash_get st v = none ∨
        o_order_of st c = some INVAL_VERSION ∨ o_order_of st v = some INVAL_VERSION ∨
        r_order_of st c = some INVAL_VERSION →
      castle_version_is_ancestor st c v = Res.bug) := by
  refine ⟨?_, ?_, fun st h => is_ancestor_bug_of st c v h⟩
  · cases hv : castle_versions_hash_get (add_all adds) v with
    | none => exact is_ancestor_bug_of _ c v (Or.inr (Or.inl hv))
    | some p =>
      obtain ⟨a, -, -, hrec⟩ := add_all_lookup hv
      refine is_ancestor_bug_of _ c v (Or.inr (Or.inr (Or.inr (Or.inl ?_))))
      simp [o_order_of, hv, hrec, record0]
  · intro fuel st hp h
    have hpay := process_payload fuel _ st hp
    rcases h with h | h
    · exact is_ancestor_bug_of st c v
        (Or.inl (by rw [hash_get_payload hpay]; exact add_all_absent h))
    · exact is_ancestor_bug_of st c v
        (Or.inr (Or.inl (by rw [hash_get_payload hpay]; exact add_all_absent h)))

/-- C24, at the tree of scenario E1: before `castle_versions_process` the
queries (0,0) and (0,3) assert, after it the queries with the never-added
version 7 assert while (0,3) returns. -/
theorem is_ancestor_aborts_unnumbered_witness :
    castle_version_is_ancestor (add_all e1_adds) 0 0 = Res.bug ∧
    castle_version_is_ancestor (add_all e1_adds) 0 3 = Res.bug ∧
    ∃ st, castle_versions_process 10 (add_all e1_adds) = Res.ok st ∧
      castle_version_is_ancestor st 0 3 = Res.ok true ∧
      castle_version_is_ancestor st 7 3 = Res.bug ∧
      castle_version_is_ancestor st 0 7 = Res.bug := by
  obtain ⟨root, st, f, hr, hd⟩ := @process_done e1_adds (by decide) 10 (by decide)
  refine ⟨(is_ancestor_aborts_unnumbered e1_adds 0 0).1, by decide, st, hr, ?_,
    (is_ancestor_aborts_unnumbered e1_adds 7 3).2.1 10 st hr (Or.inl (by decide)),
    (is_ancestor_aborts_unnumbered e1_adds 0 7).2.1 10 st hr (Or.inr (by decide))⟩
  rw [is_ancestor_of_done hd (by decide) (by decide) (by decide)]
  rfl

/-! ## The four cases of `castle_da_entry_add` -/

/-- The body of `castle_da_entry_add` on a level whose entry goes to index 0. -/
theorem entry_add_level_first (btree : castle_btree_type) (st : Versions)
    (level : castle_da_merge_level) (nb key version : Nat) (cdb : c_disk_blk_t)
    (h0 : level.next_idx = 0) (hv : level.valid_end_idx < 0) :
    ∃ l1 nb1 blk node1,
      castle_da_entry_add_level btree st level nb key version cdb = Res.ok (l1, nb1) ∧
      l1.node_c2b = some (blk, node1) ∧
      btree_entry_get node1 0 = Res.ok (merge_slot key version cdb) ∧
      l1.buffer = level.buffer ∧
      l1.valid_end_idx = 0 ∧ l1.valid_version = version ∧ l1.last_key = some key ∧
      l1.next_idx = (if btree.need_split node1 0 then -1 else 1) := by
  cases hn : level.node_c2b with
  | none =>
    obtain ⟨l1, nb1, hr⟩ := entry_add_level_none_returns btree st level nb key version cdb hn h0 hv
    obtain ⟨-, -, -, node1, hs, e2, e3, e4, e5, e6, e7⟩ :=
      entry_add_level_none btree st level nb key version cdb l1 nb1 hn hr
    refine ⟨l1, nb1, _, node1, hr, e2, ?_, e3, e5, e7, e6, e4⟩
    rw [btree_entry_get, if_pos (le_refl _), hs]
    rfl
  | some p =>
    obtain ⟨blk, node⟩ := p
    obtain ⟨l1, nb1, hr⟩ :=
      entry_add_level_first_returns btree st level nb key version cdb blk node hn h0 hv
    obtain ⟨-, node1, hadd, e2, e3, e4, hcut⟩ :=
      entry_add_level_some btree st level nb key version cdb blk node l1 nb1 hn hr
    have hget := btree_entry_get_added hadd
    rw [h0] at hget e4
    rcases hcut with ⟨-, c1, c2, c3⟩ | ⟨c1, -⟩
    · exact ⟨l1, nb1, blk, node1, hr, e2, hget, e3, c1, c3, c2, by rw [e4]; rfl⟩
    · exact absurd h0 c1

/-- The body of `castle_da_entry_add` on a level whose node holds `next_idx > 0`
entries, for a key not below `last_key`, when it returns. -/
theorem entry_add_level_later (btree : castle_btree_type) (st : Versions)
    (level : castle_da_merge_level) (nb key version : Nat) (cdb : c_disk_blk_t)
    (blk : c_disk_blk_t) (node : castle_btree_node) (l1 : castle_da_merge_level) (nb1 : Nat)
    (hn : level.node_c2b = some (blk, node))
    (hidx : level.next_idx = (node.slots.length : Int))
    (hr : castle_da_entry_add_level btree st level nb key version cdb = Res.ok (l1, nb1)) :
    ∃ node1, l1.node_c2b = some (blk, node1) ∧
      node1.slots = node.slots ++ [merge_slot key version cdb] ∧
      btree_entry_get node1 level.next_idx = Res.ok (merge_slot key version cdb) ∧
      l1.buffer = level.buffer ∧
      l1.next_idx = (if btree.need_split node1 0 then -1 else level.next_idx + 1) ∧
      CutCase btree st level l1 key version := by
  obtain ⟨-, node1, hadd, e2, e3, e4, hcut⟩ :=
    entry_add_level_some btree st level nb key version cdb blk node l1 nb1 hn hr
  refine ⟨node1, e2, ?_, btree_entry_get_added hadd, e3, e4, hcut⟩
  rw [(btree_entry_add_ok hadd).2.2.2.2, hidx]
  simp [merge_slot]

/-- The function `castle_da_entry_add` when its body returns. -/
theorem entry_add_of_level (btree : castle_btree_type) (st : Versions)
    (merge : struct_castle_da_merge) (depth key version : Nat) (cdb : c_disk_blk_t)
    (level l1 : castle_da_merge_level) (nb1 : Nat)
    (hl : merge.levels[depth]? = some level)
    (hr : castle_da_entry_add_level btree st level merge.next_blk key version cdb
      = Res.ok (l1, nb1)) :
    castle_da_entry_add btree st merge depth key version cdb =
      Res.ok { merge with levels := merge.levels.set depth l1, next_blk := nb1 } := by
  rw [castle_da_entry_add, hl]
  dsimp only
  rw [hr]

/-- C28: `castle_da_entry_add` on the level at `depth`.  Case A: when the entry
is written at `next_idx == 0` (on a level whose `valid_end_idx` is reset), the
call returns and the level ends with `valid_end_idx = 0`, `valid_version` the
version of the entry and `last_key` its key.  Case B: when `next_idx > 0` is the
number of slots of the node and the key is greater than `last_key`, the call
returns and the level ends with `valid_end_idx` the index just written,
`valid_version = 0` and `last_key` the key of the entry.  In both cases the
entry is stored at the index it was written to, the other levels are untouched,
and `next_idx` becomes -1 if `need_split` fires on the node and `next_idx + 1`
otherwise. -/
theorem entry_add_case_a_b (btree : castle_btree_type) (st : Versions)
    (merge : struct_castle_da_merge) (depth key version : Nat) (cdb : c_disk_blk_t)
    (level : castle_da_merge_level) (hl : merge.levels[depth]? = some level) :
    (level.next_idx = 0 → level.valid_end_idx < 0 →
      ∃ merge1 l1 blk node1,
        castle_da_entry_add btree st merge depth key version cdb = Res.ok merge1 ∧
        merge1.levels = merge.levels.set depth l1 ∧ l1.node_c2b = some (blk, node1) ∧
        btree_entry_get node1 0 = Res.ok (merge_slot key version cdb) ∧
        l1.valid_end_idx = 0 ∧ l1.valid_version = version ∧ l1.last_key = some key ∧
        l1.next_idx = (if btree.need_split node1 0 then -1 else 0 + 1)) ∧
    (∀ blk node lk, level.node_c2b = some (blk, node) →
      level.next_idx = (node.slots.length : Int) → 0 < level.next_idx →
      level.last_key = some lk → 0 < btree.key_compare key lk →
      ∃ merge1 l1 node1,
        castle_da_entry_add btree st merge depth key version cdb = Res.ok merge1 ∧
        merge1.levels = merge.levels.set depth l1 ∧ l1.node_c2b = some (blk, node1) ∧
        node1.slots = node.slots ++ [merge_slot key version cdb] ∧
        btree_entry_get node1 level.next_idx = Res.ok (merge_slot key version cdb) ∧
        l1.valid_end_idx = level.next_idx ∧ l1.valid_version = 0 ∧ l1.last_key = some key ∧
        l1.next_idx = (if btree.need_split node1 0 then -1 else level.next_idx + 1)) := by
  constructor
  · intro h0 hv
    obtain ⟨l1, nb1, blk, node1, hr, e1, e2, -, e4, e5, e6, e7⟩ :=
      entry_add_level_first btree st level merge.next_blk key version cdb h0 hv
    exact ⟨_, l1, blk, node1, entry_add_of_level btree st merge depth key version cdb level l1
      nb1 hl hr, rfl, e1, e2, e4, e5, e6, e7⟩
  · intro blk node lk hn hidx hpos hlk hgt
    obtain ⟨l1, nb1, hr⟩ := entry_add_level_some_returns btree st level merge.next_blk key
      version cdb blk node lk hn hidx (by omega) hlk (by omega) (fun h => by omega)
    obtain ⟨node1, e1, e2, e3, -, e5, hcut⟩ := entry_add_level_later btree st level
      merge.next_blk key version cdb blk node l1 nb1 hn hidx hr
    refine ⟨_, l1, node1, entry_add_of_level btree st merge depth key version cdb level l1
      nb1 hl hr, rfl, e1, e2, e3, ?_, ?_, ?_, e5⟩
    all_goals
      rcases hcut with ⟨c0, -⟩ | ⟨-, lk', hlk', -, ⟨-, c1, c2, c3⟩ | ⟨c0, -⟩ | ⟨c0, -⟩⟩
      · omega
      · first | exact c1 | exact c2 | exact c3
      · rw [hlk] at hlk'; cases hlk'; omega
      · rw [hlk] at hlk'; cases hlk'; omega

/-- C28, on a merge of two levels with nodes of four slots: `(4,v1)` starts the
leaf node (Case A), `(5,v1)` then moves the cut to index 1 and sets
`valid_version` to 0 (Case B). -/
theorem entry_add_case_a_b_witness :
    castle_da_entry_add (nat_btree 4) e5_versions (castle_da_merge_init 2) 0 4 1 (7, 0) =
      Res.ok (merge_with (level_with [merge_slot 4 1 (7, 0)] 4 0 1)) ∧
    castle_da_entry_add (nat_btree 4) e5_versions
        (merge_with (level_with [merge_slot 4 1 (7, 0)] 4 0 1)) 0 5 1 (7, 1) =
      Res.ok (merge_with (level_with [merge_slot 4 1 (7, 0), merge_slot 5 1 (7, 1)] 5 1 0)) ∧
    (∃ merge1 l1 blk node1,
      castle_da_entry_add (nat_btree 4) e5_versions (castle_da_merge_init 2) 0 4 1 (7, 0) =
        Res.ok merge1 ∧
      merge1.levels = (castle_da_merge_init 2).levels.set 0 l1 ∧
      l1.node_c2b = some (blk, node1) ∧
      btree_entry_get node1 0 = Res.ok (merge_slot 4 1 (7, 0)) ∧
      l1.valid_end_idx = 0 ∧ l1.valid_version = 1 ∧ l1.last_key = some 4 ∧
      l1.next_idx = (if (nat_btree 4).need_split node1 0 then -1 else 0 + 1)) ∧
    (∃ merge1 l1 node1,
      castle_da_entry_add (nat_btree 4) e5_versions
        (merge_with (level_with [merge_slot 4 1 (7, 0)] 4 0 1)) 0 5 1 (7, 1) = Res.ok merge1 ∧
      merge1.levels =
        (merge_with (level_with [merge_slot 4 1 (7, 0)] 4 0 1)).levels.set 0 l1 ∧
      l1.node_c2b = some ((1, 1), node1) ∧
      node1.slots = [merge_slot 4 1 (7, 0)] ++ [merge_slot 5 1 (7, 1)] ∧
      btree_entry_get node1 (level_with [merge_slot 4 1 (7, 0)] 4 0 1).next_idx =
        Res.ok (merge_slot 5 1 (7, 1)) ∧
      l1.valid_end_idx = (level_with [merge_slot 4 1 (7, 0)] 4 0 1).next_idx ∧
      l1.valid_version = 0 ∧ l1.last_key = some 5 ∧
      l1.next_idx = (if (nat_btree 4).need_split node1 0 then -1
        else (level_with [merge_slot 4 1 (7, 0)] 4 0 1).next_idx + 1)) :=
  ⟨by decide, by decide,
   (entry_add_case_a_b (nat_btree 4) e5_versions (castle_da_merge_init 2) 0 4 1 (7, 0)
     init_level (by decide)).1 (by decide) (by decide),
   (entry_add_case_a_b (nat_btree 4) e5_versions
     (merge_with (level_with [merge_slot 4 1 (7, 0)] 4 0 1)) 0 5 1 (7, 1)
     (level_with [merge_slot 4 1 (7, 0)] 4 0 1) (by decide)).2 (1, 1)
     { version := 0, is_leaf := true, slots := [merge_slot 4 1 (7, 0)] } 4
     (by decide) (by decide) (by decide) (by decide) (by decide)⟩

theorem is_ancestor_self_ne_false {st : Versions} (hp : Processed st) (a : Nat) :
    castle_version_is_ancestor st a a ≠ Res.ok false := by
  intro h
  have := is_ancestor_self hp (in_forest_of_ok hp h).1
  rw [h] at this
  cases this

/-- The body of `castle_da_entry_add` stops at an assertion when the entry has
the key `last_key` and the version `valid_version`. -/
theorem entry_add_level_equal_version (btree : castle_btree_type) (st : Versions)
    (hp : Processed st)
    (level : castle_da_merge_level) (nb key version : Nat) (cdb : c_disk_blk_t)
    (blk : c_disk_blk_t) (node : castle_btree_node) (lk : Nat)
    (hn : level.node_c2b = some (blk, node))
    (hidx : level.next_idx = (node.slots.length : Int)) (hpos : 0 < level.next_idx)
    (hlk : level.last_key = some lk) (hkey : btree.key_compare key lk = 0)
    (hv : version = level.valid_version) :
    castle_da_entry_add_level btree st level nb key version cdb = Res.bug := by
  have hadd : ∃ node1, btree_entry_add node level.next_idx key version false cdb =
      Res.ok node1 := by
    rw [btree_entry_add, if_pos ⟨by rw [hidx]; omega, by rw [hidx]; rfl⟩]
    exact ⟨_, rfl⟩
  obtain ⟨node1, hadd⟩ := hadd
  have hget := btree_entry_get_added hadd
  have hne : level.next_idx ≠ 0 := by omega
  rw [castle_da_entry_add_level]
  simp only [hn, hadd, hget, hlk, ne_eq, hne, not_false_eq_true, if_true, if_false, hkey]
  rw [if_neg (by omega), if_neg (by omega)]
  cases hanc : castle_version_is_ancestor st version level.valid_version with
  | bug => rfl
  | timeout => exact absurd hanc (is_ancestor_ne_timeout _ _ _)
  | ok b =>
    cases b with
    | false =>
      rw [← hv] at hanc
      exact absurd hanc (is_ancestor_self_ne_false hp version)
    | true =>
      dsimp only
      rw [if_pos hv]

/-- C29 (as stated, refuted): over the forest 0 -> 1 -> 2, 0 -> 3 with nodes of
four slots, `(5,v1)` behind `(4,v1)` is a key boundary that sets `valid_version`
to 0; the entry `(5,v0)` that follows has the key `last_key` and the version
`valid_version`, the ancestor test of version 0 against itself is true, and the
call ends in the assertion on equal versions.  So does `(5,v2)` behind
`(5,v2)`. -/
theorem equal_version_asserts_counterexample :
    castle_da_entry_add (nat_btree 4) e5_versions
        (merge_with (level_with [merge_slot 4 1 (7, 0)] 4 0 1)) 0 5 1 (7, 1) =
      Res.ok (merge_with (level_with [merge_slot 4 1 (7, 0), merge_slot 5 1 (7, 1)] 5 1 0)) ∧
    castle_version_is_ancestor e5_versions 0 0 = Res.ok true ∧
    castle_da_entry_add (nat_btree 4) e5_versions
        (merge_with (level_with [merge_slot 4 1 (7, 0), merge_slot 5 1 (7, 1)] 5 1 0))
        0 5 0 (7, 2) = Res.bug ∧
    castle_da_entry_add (nat_btree 4) e5_versions (castle_da_merge_init 2) 0 5 2 (7, 0) =
      Res.ok (merge_with (level_with [merge_slot 5 2 (7, 0)] 5 0 2)) ∧
    castle_da_entry_add (nat_btree 4) e5_versions
        (merge_with (level_with [merge_slot 5 2 (7, 0)] 5 0 2)) 0 5 2 (7, 1) = Res.bug := by
  refine ⟨by decide, by decide, by decide, by decide, by decide⟩

/-- C29 (amended): `castle_da_entry_add` for an entry written at `next_idx > 0`
(the number of slots of the node) whose key equals `last_key`.  Case C: if its
version is a strict ancestor of `valid_version`, the call returns,
`valid_end_idx` becomes the index just written and `valid_version` the version
of the entry.  Case D: if its version is not an ancestor of `valid_version`, the
call returns with `valid_end_idx` and `valid_version` unchanged.  In both cases
`last_key` stays, the entry is kept in the node at the index written and
`next_idx` becomes -1 if `need_split` fires and `next_idx + 1` otherwise.  An
entry that repeats the version of the slot at `valid_end_idx`, that version
being `valid_version`, is not accepted over a processed forest: the call ends
in an assertion. -/
theorem entry_add_case_c_d (btree : castle_btree_type) (st : Versions)
    (merge : struct_castle_da_merge) (depth key version : Nat) (cdb : c_disk_blk_t)
    (level : castle_da_merge_level) (blk : c_disk_blk_t) (node : castle_btree_node) (lk : Nat)
    (hl : merge.levels[depth]? = some level) (hn : level.node_c2b = some (blk, node))
    (hidx : level.next_idx = (node.slots.length : Int)) (hpos : 0 < level.next_idx)
    (hlk : level.last_key = some lk) (hkey : btree.key_compare key lk = 0) :
    (castle_version_is_ancestor st version level.valid_version = Res.ok true →
      version ≠ level.valid_version →
      ∃ merge1 l1 node1,
        castle_da_entry_add btree st merge depth key version cdb = Res.ok merge1 ∧
        merge1.levels = merge.levels.set depth l1 ∧ l1.node_c2b = some (blk, node1) ∧
        node1.slots = node.slots ++ [merge_slot key version cdb] ∧
        btree_entry_get node1 level.next_idx = Res.ok (merge_slot key version cdb) ∧
        l1.valid_end_idx = level.next_idx ∧ l1.valid_version = version ∧
        l1.last_key = level.last_key ∧
        l1.next_idx = (if btree.need_split node1 0 then -1 else level.next_idx + 1)) ∧
    (castle_version_is_ancestor st version level.valid_version = Res.ok false →
      ∃ merge1 l1 node1,
        castle_da_entry_add btree st merge depth key version cdb = Res.ok merge1 ∧
        merge1.levels = merge.levels.set depth l1 ∧ l1.node_c2b = some (blk, node1) ∧
        node1.slots = node.slots ++ [merge_slot key version cdb] ∧
        btree_entry_get node1 level.next_idx = Res.ok (merge_slot key version cdb) ∧
        l1.valid_end_idx = level.valid_end_idx ∧ l1.valid_version = level.valid_version ∧
        l1.last_key = level.last_key ∧
        l1.next_idx = (if btree.need_split node1 0 then -1 else level.next_idx + 1)) ∧
    (Processed st → version = level.valid_version →
      (∃ s, node.slots[level.valid_end_idx.toNat]? = some s ∧ s.version = version) →
      castle_da_entry_add btree st merge depth key version cdb = Res.bug) := by
  have hret : ∀ b, castle_version_is_ancestor st version level.valid_version = Res.ok b →
      (b = true → version ≠ level.valid_version) →
      ∃ l1 node1,
        castle_da_entry_add btree st merge depth key version cdb =
          Res.ok { merge with levels := merge.levels.set depth l1, next_blk := merge.next_blk } ∧
        l1.node_c2b = some (blk, node1) ∧
        node1.slots = node.slots ++ [merge_slot key version cdb] ∧
        btree_entry_get node1 level.next_idx = Res.ok (merge_slot key version cdb) ∧
        l1.next_idx = (if btree.need_split node1 0 then -1 else level.next_idx + 1) ∧
        CutCase btree st level l1 key version := by
    intro b hb hne
    obtain ⟨l1, nb1, hr⟩ := entry_add_level_some_returns btree st level merge.next_blk key
      version cdb blk node lk hn hidx (by omega) hlk (by omega) (fun _ => ⟨b, hb, hne⟩)
    have hnb : nb1 = merge.next_blk :=
      (entry_add_level_some btree st level merge.next_blk key version cdb blk node l1 nb1
        hn hr).1
    obtain ⟨node1, e1, e2, e3, -, e5, hcut⟩ := entry_add_level_later btree st level
      merge.next_blk key version cdb blk node l1 nb1 hn hidx hr
    refine ⟨l1, node1, ?_, e1, e2, e3, e5, hcut⟩
    rw [entry_add_of_level btree st merge depth key version cdb level l1 nb1 hl hr, hnb]
  refine ⟨fun ha hne => ?_, fun ha => ?_, fun hp hv _ => ?_⟩
  · obtain ⟨l1, node1, h1, h2, h3, h4, h5, hcut⟩ := hret true ha (fun _ => hne)
    refine ⟨_, l1, node1, h1, rfl, h2, h3, h4, ?_, ?_, ?_, h5⟩
    all_goals
      rcases hcut with ⟨c0, -⟩ | ⟨-, lk', hlk', -, ⟨c0, -⟩ | ⟨-, -, -, c1, c2, c3⟩ | ⟨-, c0, -⟩⟩
      · omega
      · rw [hlk] at hlk'; cases hlk'; omega
      · first | exact c1 | exact c2 | exact c3
      · rw [ha] at c0; cases c0
  · obtain ⟨l1, node1, h1, h2, h3, h4, h5, hcut⟩ := hret false ha (fun h => by cases h)
    refine ⟨_, l1, node1, h1, rfl, h2, h3, h4, ?_, ?_, ?_, h5⟩
    all_goals
      rcases hcut with ⟨c0, -⟩ | ⟨-, lk', hlk', -, ⟨c0, -⟩ | ⟨-, c0, -⟩ | ⟨-, -, c1, c2, c3⟩⟩
      · omega
      · rw [hlk] at hlk'; cases hlk'; omega
      · rw [ha] at c0; cases c0
      · first | exact c2 | exact c3 | exact c1
  · rw [castle_da_entry_add, hl]
    dsimp only
    rw [entry_add_level_equal_version btree st hp level merge.next_blk key version cdb blk node
      lk hn hidx hpos hlk hkey hv]

theorem e5_processed : Processed e5_versions :=
  @processed_of_run e5_adds (by decide) 10 (by decide) e5_versions
    (versions_of_run e5_edges (by decide))

/-- C29 (amended), over the forest 0 -> 1 -> 2, 0 -> 3 with nodes of four slots:
behind `(5,v2)` the entry `(5,v1)` moves the cut to its index 1 (Case C), the
entry `(5,v3)` behind the two leaves the cut there (Case D), and a second
`(5,v2)` behind the first is refused. -/
theorem entry_add_case_c_d_witness :
    castle_version_is_ancestor e5_versions 1 2 = Res.ok true ∧
    castle_version_is_ancestor e5_versions 3 1 = Res.ok false ∧
    castle_da_entry_add (nat_btree 4) e5_versions
        (merge_with (level_with [merge_slot 5 2 (7, 0)] 5 0 2)) 0 5 1 (7, 1) =
      Res.ok (merge_with (level_with [merge_slot 5 2 (7, 0), merge_slot 5 1 (7, 1)] 5 1 1)) ∧
    (∃ merge1 l1,
      castle_da_entry_add (nat_btree 4) e5_versions
        (merge_with (level_with [merge_slot 5 2 (7, 0)] 5 0 2)) 0 5 1 (7, 1) = Res.ok merge1 ∧
      merge1.levels = (merge_with (level_with [merge_slot 5 2 (7, 0)] 5 0 2)).levels.set 0 l1 ∧
      l1.valid_end_idx = 1 ∧ l1.valid_version = 1 ∧ l1.last_key = some 5) ∧
    (∃ merge1 l1,
      castle_da_entry_add (nat_btree 4) e5_versions
        (merge_with (level_with [merge_slot 5 2 (7, 0), merge_slot 5 1 (7, 1)] 5 1 1))
        0 5 3 (7, 2) = Res.ok merge1 ∧
      merge1.levels = (merge_with (level_with [merge_slot 5 2 (7, 0), merge_slot 5 1 (7, 1)]
        5 1 1)).levels.set 0 l1 ∧
      l1.valid_end_idx = 1 ∧ l1.valid_version = 1 ∧ l1.last_key = some 5) ∧
    castle_da_entry_add (nat_btree 4) e5_versions
        (merge_with (level_with [merge_slot 5 2 (7, 0)] 5 0 2)) 0 5 2 (7, 1) = Res.bug := by
  obtain ⟨m1, l1, n1, a1, a2, -, -, -, a6, a7, a8, -⟩ :=
    (entry_add_case_c_d (nat_btree 4) e5_versions
      (merge_with (level_with [merge_slot 5 2 (7, 0)] 5 0 2)) 0 5 1 (7, 1)
      (level_with [merge_slot 5 2 (7, 0)] 5 0 2) (1, 1)
      { version := 0, is_leaf := true, slots := [merge_slot 5 2 (7, 0)] } 5
      (by decide) (by decide) (by decide) (by decide) (by decide) (by decide)).1
      (by decide) (by decide)
  obtain ⟨m2, l2, n2, b1, b2, -, -, -, b6, b7, b8, -⟩ :=
    (entry_add_case_c_d (nat_btree 4) e5_versions
      (merge_with (level_with [merge_slot 5 2 (7, 0), merge_slot 5 1 (7, 1)] 5 1 1)) 0 5 3 (7, 2)
      (level_with [merge_slot 5 2 (7, 0), merge_slot 5 1 (7, 1)] 5 1 1) (1, 1)
      { version := 0, is_leaf := true,
        slots := [merge_slot 5 2 (7, 0), merge_slot 5 1 (7, 1)] } 5
      (by decide) (by decide) (by decide) (by decide) (by decide) (by decide)).2.1
      (by decide)
  have c := (entry_add_case_c_d (nat_btree 4) e5_versions
      (merge_with (level_with [merge_slot 5 2 (7, 0)] 5 0 2)) 0 5 2 (7, 1)
      (level_with [merge_slot 5 2 (7, 0)] 5 0 2) (1, 1)
      { version := 0, is_leaf := true, slots := [merge_slot 5 2 (7, 0)] } 5
      (by decide) (by decide) (by decide) (by decide) (by decide) (by decide)).2.2
      e5_processed (by decide) ⟨merge_slot 5 2 (7, 0), by decide, by decide⟩
  exact ⟨by decide, by decide, by decide, ⟨m1, l1, a1, a2, a6, a7, a8⟩,
    ⟨m2, l2, b1, b2, b6, b7, b8⟩, c⟩

/-! ## One call of `castle_da_node_complete`, step by step -/

theorem node_complete_copy_returns :
    ∀ (slots : List btree_slot) (buffer : castle_btree_node) (idx : Int),
      idx = (buffer.used : Int) → (∀ s ∈ slots, s.is_leaf_ptr = false) →
      castle_da_node_complete_copy slots buffer idx =
        Res.ok { buffer with slots := buffer.slots ++ slots } := by
  intro slots
  induction slots with
  | nil =>
    intro buffer idx _ _
    rw [castle_da_node_complete_copy]
    simp
  | cons s rest ih =>
    intro buffer idx hidx hleaf
    have hs : s.is_leaf_ptr = false := hleaf s (by simp)
    rw [castle_da_node_complete_copy, if_neg (by rw [hidx]; simp), if_neg (by simp [hs])]
    have hadd : btree_entry_add buffer idx s.key s.version false s.cdb =
        Res.ok { buffer with slots := buffer.slots ++ [s] } := by
      rw [btree_entry_add, if_pos ⟨by rw [hidx]; omega, by rw [hidx]⟩, hidx]
      obtain ⟨k, v, l, c⟩ := s
      simp only at hs
      subst hs
      simp [castle_btree_node.used]
    rw [hadd]
    dsimp only
    rw [ih _ (idx + 1) (by simp [castle_btree_node.used, hidx])
      (fun x hx => hleaf x (by simp [hx]))]
    simp

/-- The run of `castle_da_node_complete` up to the pointer added one level up. -/
theorem node_complete_returns (btree : castle_btree_type) (st : Versions)
    (merge : struct_castle_da_merge) (depth : Nat) (level lup : castle_da_merge_level)
    (blk : c_disk_blk_t) (node0 : castle_btree_node) (e : Nat) (s : btree_slot)
    (hl : merge.levels[depth]? = some level) (hn : level.node_c2b = some (blk, node0))
    (he : level.valid_end_idx = (e : Int)) (hs : node0.slots[e]? = some s)
    (hb : level.buffer.slots = []) (hleaf : ∀ x ∈ node0.slots, x.is_leaf_ptr = false)
    (hup : merge.levels[depth + 1]? = some lup) :
    castle_da_node_complete btree st merge depth =
      match castle_da_entry_add_level btree st lup merge.next_blk s.key level.valid_version
          blk with
      | Res.ok (l1, nb1) =>
        Res.ok { levels := (merge.levels.set depth
                    (level_reset level { level.buffer with slots := node0.slots.drop (e + 1) })).set
                    (depth + 1) l1,
                 next_blk := nb1,
                 written := merge.written ++ [(depth, blk, completed_node level node0)] }
      | Res.bug => Res.bug
      | Res.timeout => Res.timeout := by
  have heu : e < node0.slots.length := (List.getElem?_eq_some.1 hs).1
  have hcopy := node_complete_copy_returns (node0.slots.drop (e + 1)) level.buffer 0
    (by simp [castle_btree_node.used, hb]) (fun x hx => hleaf x (List.mem_of_mem_drop hx))
  have htn : (level.valid_end_idx + 1).toNat = e + 1 := by omega
  rw [castle_da_node_complete, hl]
  dsimp only
  rw [hn]
  dsimp only
  rw [if_neg (by simp [castle_btree_node.used, hb])]
  rw [if_neg (by simp only [castle_btree_node.used]; omega)]
  rw [htn, hcopy]
  dsimp only
  have hdrop : (if level.valid_end_idx + 1 ≤
        ((({ version := level.valid_version, is_leaf := node0.is_leaf, slots := node0.slots } :
          castle_btree_node).used : Nat) : Int) - 1 then
      btree_entries_drop
        { version := level.valid_version, is_leaf := node0.is_leaf, slots := node0.slots }
        (level.valid_end_idx + 1)
        (((({ version := level.valid_version, is_leaf := node0.is_leaf, slots := node0.slots } :
          castle_btree_node).used : Nat) : Int) - 1)
      else Res.ok
        { version := level.valid_version, is_leaf := node0.is_leaf, slots := node0.slots }) =
      Res.ok (completed_node level node0) := by
    simp only [castle_btree_node.used]
    by_cases hc : level.valid_end_idx + 1 ≤ (node0.slots.length : Int) - 1
    · rw [if_pos hc, btree_entries_drop, if_pos (by simp only [castle_btree_node.used]; omega)]
      simp only [completed_node, htn, Res.ok.injEq, castle_btree_node.mk.injEq, true_and]
      have h1 : ((node0.slots.length : Int) - 1).toNat + 1 = node0.slots.length := by omega
      have h2 : level.valid_end_idx.toNat + 1 = e + 1 := by omega
      rw [h1, List.drop_length, List.append_nil, h2]
    · rw [if_neg hc]
      simp only [completed_node, Res.ok.injEq, castle_btree_node.mk.injEq, true_and]
      rw [List.take_of_length_le (by omega)]
  rw [hdrop]
  dsimp only
  have hused : ¬ (((completed_node level node0).used : Nat) : Int) ≠ level.valid_end_idx + 1 := by
    simp only [completed_node, castle_btree_node.used, List.length_take]
    omega
  rw [if_neg hused]
  have hget : btree_entry_get (completed_node level node0) level.valid_end_idx = Res.ok s := by
    have h1 : level.valid_end_idx.toNat = e := by omega
    have h2 : (List.take (e + 1) node0.slots)[e]? = some s := by
      rw [List.getElem?_take_of_lt (by omega)]; exact hs
    rw [btree_entry_get, if_pos (by omega)]
    simp only [completed_node, h1, h2]
  rw [hget]
  dsimp only
  have hsl : s.is_leaf_ptr = false := hleaf s (mem_of_getElem?_some hs)
  rw [if_neg (by simp [hsl])]
  have hd : depth < merge.levels.length := (List.getElem?_eq_some.1 hl).1
  rw [castle_da_entry_add]
  dsimp only
  rw [List.getElem?_set_ne (by omega), hup]
  dsimp only
  have hver : (completed_node level node0).version = level.valid_version := rfl
  rw [hver, hb, List.nil_append]
  cases hadd : castle_da_entry_add_level btree st lup merge.next_blk s.key level.valid_version
      blk with
  | bug => rfl
  | timeout => rfl
  | ok r =>
    obtain ⟨l1, nb1⟩ := r
    dsimp only
    rw [List.getElem?_set_ne (by omega), List.getElem?_set_eq_of_lt _ hd]
    dsimp only
    simp only [Res.ok.injEq, struct_castle_da_merge.mk.injEq, and_true, true_and]
    rw [List.set_comm l1 _ _ (show depth + 1 ≠ depth by omega), List.set_set]
    rfl

/-- C30: `castle_da_node_complete` at `depth`, on a node with the cut
`valid_end_idx = e` on one of its slots, an empty level buffer and no leaf
pointers among its slots.  Whenever the pivot entry (key of slot `e`,
`valid_version`, the block of the node) is accepted by `castle_da_entry_add` at
`depth + 1`, the call returns: the node handed to the cache holds exactly the
original slots `0..e` in order and has the version `valid_version`; the level
buffer holds the original slots behind `e`, in order; the level at `depth + 1`
has exactly the pivot entry appended to its node; the level is reset to no
node, no `last_key`, `next_idx = 0`, `valid_end_idx = -1` and
`valid_version = INVAL_VERSION`; the other levels are untouched.  The pivot is
accepted at least when the level at `depth + 1` has no node yet; when it is
refused, so is the call. -/
theorem node_complete_cuts_node (btree : castle_btree_type) (st : Versions)
    (merge : struct_castle_da_merge) (depth : Nat) (level lup : castle_da_merge_level)
    (blk : c_disk_blk_t) (node0 : castle_btree_node) (e : Nat) (s : btree_slot)
    (hl : merge.levels[depth]? = some level) (hn : level.node_c2b = some (blk, node0))
    (he : level.valid_end_idx = (e : Int)) (hs : node0.slots[e]? = some s)
    (hb : level.buffer.slots = []) (hleaf : ∀ x ∈ node0.slots, x.is_leaf_ptr = false)
    (hup : merge.levels[depth + 1]? = some lup) (hw : WFL lup) :
    (∀ l1 nb1,
      castle_da_entry_add_level btree st lup merge.next_blk s.key level.valid_version blk =
        Res.ok (l1, nb1) →
      ∃ merge1, castle_da_node_complete btree st merge depth = Res.ok merge1 ∧
        merge1.written = merge.written ++
          [(depth, blk, { version := level.valid_version, is_leaf := node0.is_leaf,
                          slots := node0.slots.take (e + 1) })] ∧
        merge1.levels[depth]? = some
          { node_c2b := none, last_key := none, next_idx := 0, valid_end_idx := -1,
            valid_version := INVAL_VERSION,
            buffer := { level.buffer with slots := node0.slots.drop (e + 1) } } ∧
        merge1.levels[depth + 1]? = some l1 ∧
        node_slots l1 = node_slots lup ++ [merge_slot s.key level.valid_version blk] ∧
        l1.buffer = lup.buffer ∧
        (∀ j, j ≠ depth → j ≠ depth + 1 → merge1.levels[j]? = merge.levels[j]?)) ∧
    (castle_da_entry_add_level btree st lup merge.next_blk s.key level.valid_version blk =
        Res.bug → castle_da_node_complete btree st merge depth = Res.bug) ∧
    (lup.node_c2b = none →
      ∃ l1 nb1, castle_da_entry_add_level btree st lup merge.next_blk s.key
        level.valid_version blk = Res.ok (l1, nb1)) := by
  have heq := node_complete_returns btree st merge depth level lup blk node0 e s hl hn he hs hb
    hleaf hup
  have hd : depth < merge.levels.length := (List.getElem?_eq_some.1 hl).1
  have hd1 : depth + 1 < merge.levels.length := (List.getElem?_eq_some.1 hup).1
  refine ⟨fun l1 nb1 hr => ?_, fun hr => ?_, fun hnone => ?_⟩
  · rw [hr] at heq
    obtain ⟨-, b2, b3, -⟩ :=
      entry_add_level_spec btree st lup _ s.key level.valid_version blk l1 nb1 hw hr
    have htk : level.valid_end_idx.toNat + 1 = e + 1 := by omega
    refine ⟨_, heq, ?_, ?_, ?_, b2, b3, ?_⟩
    · simp only [completed_node, htk]
    · dsimp only
      rw [List.getElem?_set_ne (by omega), List.getElem?_set_eq_of_lt _ hd]
      rfl
    · dsimp only
      rw [List.getElem?_set_eq_of_lt _ (by rw [List.length_set]; exact hd1)]
    · intro j h1 h2
      dsimp only
      rw [List.getElem?_set_ne (fun hh => h2 hh.symm), List.getElem?_set_ne (fun hh => h1 hh.symm)]
  · rw [hr] at heq
    exact heq
  · obtain ⟨h0, hv⟩ := hw.none_case hnone
    exact entry_add_level_none_returns btree st lup merge.next_blk s.key level.valid_version blk
      hnone h0 (by omega)

/-- C30, on the node `(4,v1), (5,v1), (5,v2), (5,v3)` of example E5 with the
cut on slot 1: the node written keeps `(4,v1), (5,v1)` and gets the version 0,
the buffer receives `(5,v2), (5,v3)`, the level above receives the pivot
`(5, v0, block (1,1))`. -/
theorem node_complete_cuts_node_witness :
    castle_da_node_complete (nat_btree 4) e5_versions
        (merge_with (level_with [merge_slot 4 1 (7, 0), merge_slot 5 1 (7, 1),
          merge_slot 5 2 (7, 2), merge_slot 5 3 (7, 3)] 5 1 0)) 0 =
      Res.ok
        { levels :=
            [{ node_c2b := none, last_key := none, next_idx := 0, valid_end_idx := -1,
               valid_version := INVAL_VERSION,
               buffer := { version := 0, is_leaf := true,
                           slots := [merge_slot 5 2 (7, 2), merge_slot 5 3 (7, 3)] } },
             { node_c2b := some ((1, 2), { version := 0, is_leaf := true,
                                           slots := [merge_slot 5 0 (1, 1)] }),
               last_key := some 5, next_idx := 1, valid_end_idx := 0, valid_version := 0,
               buffer := { version := 0, is_leaf := true, slots := [] } }],
          next_blk := 3,
          written := [(0, (1, 1), { version := 0, is_leaf := true,
                                    slots := [merge_slot 4 1 (7, 0), merge_slot 5 1 (7, 1)] })] } ∧
    ∃ merge1, castle_da_node_complete (nat_btree 4) e5_versions
        (merge_with (level_with [merge_slot 4 1 (7, 0), merge_slot 5 1 (7, 1),
          merge_slot 5 2 (7, 2), merge_slot 5 3 (7, 3)] 5 1 0)) 0 = Res.ok merge1 ∧
      merge1.written = [] ++
        [(0, (1, 1), { version := 0, is_leaf := true,
                       slots := [merge_slot 4 1 (7, 0), merge_slot 5 1 (7, 1)] })] := by
  refine ⟨by decide, ?_⟩
  obtain ⟨merge1, h1, h2, -⟩ :=
    (node_complete_cuts_node (nat_btree 4) e5_versions
      (merge_with (level_with [merge_slot 4 1 (7, 0), merge_slot 5 1 (7, 1),
        merge_slot 5 2 (7, 2), merge_slot 5 3 (7, 3)] 5 1 0)) 0
      (level_with [merge_slot 4 1 (7, 0), merge_slot 5 1 (7, 1),
        merge_slot 5 2 (7, 2), merge_slot 5 3 (7, 3)] 5 1 0) init_level (1, 1)
      { version := 0, is_leaf := true,
        slots := [merge_slot 4 1 (7, 0), merge_slot 5 1 (7, 1), merge_slot 5 2 (7, 2),
          merge_slot 5 3 (7, 3)] } 1 (merge_slot 5 1 (7, 1))
      (by decide) (by decide) (by decide) (by decide) (by decide) (by decide) (by decide)
      ⟨fun _ => ⟨rfl, rfl⟩, fun h => absurd rfl h⟩).1
      { node_c2b := some ((1, 2), { version := 0, is_leaf := true,
                                    slots := [merge_slot 5 0 (1, 1)] }),
        last_key := some 5, next_idx := 1, valid_end_idx := 0, valid_version := 0,
        buffer := { version := 0, is_leaf := true, slots := [] } } 3 (by decide)
  exact ⟨merge1, h1, h2⟩

/-! ## The iterators of a merge -/

/-- C27 (as stated, refuted): with every allocation succeeding,
`castle_da_iterators_create` ends in `BUG()` for two immutable input trees, and
also when only the second input is immutable; for two dynamic inputs it returns
0, but when the allocation of the second iterator fails it does not return an
error code: destroying the first iterator is `BUG()`. -/
theorem iterators_create_immutable_counterexample :
    castle_da_iterators_create iter_env_ok (merge_of (tree_with 1 0) (tree_with 2 0)) = Res.bug ∧
    castle_da_iterators_create iter_env_ok (merge_of (tree_with 1 1) (tree_with 2 0)) = Res.bug ∧
    (castle_da_iterators_create iter_env_ok (merge_of (tree_with 1 1) (tree_with 2 1))).map
      (fun r => r.2) = Res.ok 0 ∧
    castle_da_iterators_create { iter_env_ok with kmalloc_iter2 := false }
      (merge_of (tree_with 1 1) (tree_with 2 1)) = Res.bug := by
  refine ⟨by decide, by decide, by decide, by decide⟩

theorem iterator_destroy_some (tree : castle_component_tree) (iter : c_modlist_iter_t) :
    castle_da_iterator_destroy tree (some iter) = Res.bug := by
  simp [castle_da_iterator_destroy]

/-- What `castle_da_iterator_create` returns for a dynamic tree whose `*iter_p`
was `NULL`: an iterator without error when the allocation succeeded, `NULL` when
it failed. -/
theorem iterator_create_dynamic (kmalloc : Bool)
    (init : castle_component_tree → Res c_modlist_iter_t) (tree : castle_component_tree)
    (hd : tree.dynamic ≠ 0) (o : Option c_modlist_iter_t)
    (h : castle_da_iterator_create kmalloc init tree none = Res.ok o) :
    (kmalloc = false ∧ o = none) ∨
    (kmalloc = true ∧ ∃ it, init tree = Res.ok it ∧ it.err = 0 ∧ o = some it) := by
  rw [castle_da_iterator_create, if_pos hd] at h
  cases kmalloc with
  | false =>
    simp only [Bool.not_false, if_true] at h
    cases h
    exact Or.inl ⟨rfl, rfl⟩
  | true =>
    simp only [Bool.not_true, Bool.false_eq_true, if_false] at h
    cases hi : init tree with
    | bug => rw [hi] at h; cases h
    | timeout => rw [hi] at h; cases h
    | ok it =>
      rw [hi] at h
      dsimp only at h
      by_cases he : it.err ≠ 0
      · rw [if_pos he, iterator_destroy_some] at h
        cases h
      · rw [if_neg he] at h
        cases h
        exact Or.inr ⟨rfl, it, rfl, by simpa using he, rfl⟩

theorem iterator_create_immutable (kmalloc : Bool)
    (init : castle_component_tree → Res c_modlist_iter_t) (tree : castle_component_tree)
    (hd : tree.dynamic = 0) (o : Option c_modlist_iter_t) :
    castle_da_iterator_create kmalloc init tree o = Res.bug := by
  rw [castle_da_iterator_create, if_neg (by simp [hd])]

theorem iterator_create_ok (init : castle_component_tree → Res c_modlist_iter_t)
    (tree : castle_component_tree) (hd : tree.dynamic ≠ 0) (it : c_modlist_iter_t)
    (hi : init tree = Res.ok it) (he : it.err = 0) (o : Option c_modlist_iter_t) :
    castle_da_iterator_create true init tree o = Res.ok (some it) := by
  rw [castle_da_iterator_create, if_pos hd]
  simp only [Bool.not_true, Bool.false_eq_true, if_false, hi, he, ne_eq, not_true_eq_false]

theorem iterator_create_no_memory (init : castle_component_tree → Res c_modlist_iter_t)
    (tree : castle_component_tree) (hd : tree.dynamic ≠ 0) (o : Option c_modlist_iter_t) :
    castle_da_iterator_create false init tree o = Res.ok o := by
  rw [castle_da_iterator_create, if_pos hd]
  simp

/-- C27 (amended): `castle_da_iterators_create`, called as `castle_da_merge`
calls it (both input trees given, no iterator yet), builds iterators for
dynamic inputs only: with an immutable (non-dynamic) input it never returns, the
call of `castle_da_iterator_create` for that input being `BUG()`.  For two
dynamic inputs it returns 0, with both iterators and the merged iterator set,
when all allocations succeed and both modlist iterators are initialised without
error; it returns `-EINVAL` when neither iterator could be allocated; and it
returns in no other case. -/
theorem iterators_create_dynamic_only (env : iter_env) (merge : merge_iters)
    (t1 t2 : castle_component_tree)
    (h1 : merge.in_tree1 = some t1) (h2 : merge.in_tree2 = some t2)
    (hi1 : merge.iter1 = none) (hi2 : merge.iter2 = none) :
    (t1.dynamic = 0 → castle_da_iterators_create env merge = Res.bug) ∧
    (t2.dynamic = 0 → ∀ r, castle_da_iterators_create env merge ≠ Res.ok r) ∧
    (t1.dynamic ≠ 0 → t2.dynamic ≠ 0 →
      (∀ it1 it2, env.kmalloc_iter1 = true → env.kmalloc_iter2 = true →
        env.kmalloc_merged = true → env.kmalloc_iterators = true →
        env.modlist_iter_init t1 = Res.ok it1 → it1.err = 0 →
        env.modlist_iter_init t2 = Res.ok it2 → it2.err = 0 →
        ∃ mi, castle_da_iterators_create env merge =
          Res.ok ({ merge with iter1 := some it1, iter2 := some it2, merged_iter := some mi },
            0)) ∧
      (env.kmalloc_iter1 = false → env.kmalloc_iter2 = false →
        castle_da_iterators_create env merge = Res.ok (merge, EINVAL_neg)) ∧
      (∀ m ret, castle_da_iterators_create env merge = Res.ok (m, ret) →
        ret = 0 ∨ (ret = EINVAL_neg ∧ env.kmalloc_iter1 = false ∧
          env.kmalloc_iter2 = false))) := by
  have hstart : castle_da_iterators_create env merge =
      match castle_da_iterator_create env.kmalloc_iter1 env.modlist_iter_init t1 none with
      | Res.ok i1 =>
        match castle_da_iterator_create env.kmalloc_iter2 env.modlist_iter_init t2 none with
        | Res.ok i2 =>
          match i1, i2 with
          | some it1, some it2 =>
            if !env.kmalloc_merged then
              castle_da_iterators_create_err_out { merge with iter1 := i1, iter2 := i2 }
                ENOMEM_neg
            else
              match (if !env.kmalloc_iterators then
                  Res.ok { nr_iters := 2, err := ENOMEM_neg, non_empty_cnt := 0, iterators := [] }
                else castle_ct_merged_iter_init 2 [modlist_stream it1, modlist_stream it2]) with
              | Res.ok mi =>
                if mi.err ≠ 0 then
                  castle_da_iterators_create_err_out
                    { merge with iter1 := i1, iter2 := i2, merged_iter := some mi } mi.err
                else Res.ok ({ merge with iter1 := i1, iter2 := i2, merged_iter := some mi }, 0)
              | Res.bug => Res.bug
              | Res.timeout => Res.timeout
          | _, _ =>
            castle_da_iterators_create_err_out { merge with iter1 := i1, iter2 := i2 } EINVAL_neg
        | Res.bug => Res.bug
        | Res.timeout => Res.timeout
      | Res.bug => Res.bug
      | Res.timeout => Res.timeout := by
    rw [castle_da_iterators_create]
    simp only [h1, h2, hi1, hi2, Option.isSome_none, Bool.or_self, Bool.false_eq_true, if_false]
  have hinit : ∀ a b : List kv_entry, ∃ mi, castle_ct_merged_iter_init 2 [a, b] = Res.ok mi ∧
      mi.err = 0 := by
    intro a b
    rw [castle_ct_merged_iter_init, if_neg (by omega), if_neg (by simp)]
    exact ⟨_, rfl, rfl⟩
  have herr_some1 : ∀ (m : merge_iters) (it : c_modlist_iter_t) (ret : Int),
      m.in_tree1 = some t1 → m.in_tree2 = some t2 → m.iter1 = some it →
      castle_da_iterators_create_err_out m ret = Res.bug := by
    intro m it ret e1 e2 e3
    rw [castle_da_iterators_create_err_out, e1, e2, e3]
    simp only [iterator_destroy_some]
  have herr_some2 : ∀ (m : merge_iters) (it : c_modlist_iter_t) (ret : Int),
      m.in_tree1 = some t1 → m.in_tree2 = some t2 → m.iter1 = none → m.iter2 = some it →
      castle_da_iterators_create_err_out m ret = Res.bug := by
    intro m it ret e1 e2 e3 e4
    rw [castle_da_iterators_create_err_out, e1, e2, e3, e4]
    simp only [iterator_destroy_some]
    rfl
  have hmerge : ({ merge with iter1 := none, iter2 := none } : merge_iters) = merge := by
    obtain ⟨a, b, c, d, e⟩ := merge
    simp only at hi1 hi2
    subst hi1; subst hi2
    rfl
  refine ⟨fun hd => ?_, fun hd r h => ?_, fun hd1 hd2 => ⟨?_, ?_, ?_⟩⟩
  · rw [hstart, iterator_create_immutable _ _ _ hd]
  · rw [hstart, iterator_create_immutable _ _ t2 hd] at h
    split at h <;> cases h
  · intro it1 it2 k1 k2 k3 k4 e1 g1 e2 g2
    obtain ⟨mi, hmi, hmi0⟩ := hinit (modlist_stream it1) (modlist_stream it2)
    refine ⟨mi, ?_⟩
    rw [hstart, k1, k2, iterator_create_ok _ _ hd1 it1 e1 g1, iterator_create_ok _ _ hd2 it2 e2 g2]
    simp only [k3, k4, Bool.not_true, Bool.false_eq_true, if_false, hmi, hmi0, ne_eq,
      not_true_eq_false]
  · intro k1 k2
    rw [hstart, k1, k2, iterator_create_no_memory _ _ hd1, iterator_create_no_memory _ _ hd2]
    simp only [hmerge]
    rw [castle_da_iterators_create_err_out, h1, h2, hi1, hi2]
    simp [castle_da_iterator_destroy, EINVAL_neg]
  · intro m ret h
    rw [hstart] at h
    cases hc1 : castle_da_iterator_create env.kmalloc_iter1 env.modlist_iter_init t1 none with
    | bug => rw [hc1] at h; cases h
    | timeout => rw [hc1] at h; cases h
    | ok i1 =>
      rw [hc1] at h
      dsimp only at h
      cases hc2 : castle_da_iterator_create env.kmalloc_iter2 env.modlist_iter_init t2 none with
      | bug => rw [hc2] at h; cases h
      | timeout => rw [hc2] at h; cases h
      | ok i2 =>
        rw [hc2] at h
        dsimp only at h
        rcases iterator_create_dynamic _ _ _ hd1 _ hc1 with ⟨k1, rfl⟩ | ⟨k1, it1, -, -, rfl⟩
        · rcases iterator_create_dynamic _ _ _ hd2 _ hc2 with ⟨k2, rfl⟩ | ⟨k2, it2, -, -, rfl⟩
          · right
            dsimp only at h
            rw [hmerge, castle_da_iterators_create_err_out, h1, h2, hi1, hi2] at h
            simp [castle_da_iterator_destroy, EINVAL_neg] at h
            exact ⟨by rw [← h.2]; rfl, k1, k2⟩
          · dsimp only at h
            rw [herr_some2 { merge with iter1 := none, iter2 := some it2 } it2 _ h1 h2 rfl rfl] at h
            cases h
        · rcases iterator_create_dynamic _ _ _ hd2 _ hc2 with ⟨k2, rfl⟩ | ⟨k2, it2, -, -, rfl⟩
          · dsimp only at h
            rw [herr_some1 { merge with iter1 := some it1, iter2 := none } it1 _ h1 h2 rfl] at h
            cases h
          · dsimp only at h
            cases k3 : env.kmalloc_merged with
            | false =>
              rw [k3] at h
              simp only [Bool.not_false, if_true] at h
              rw [herr_some1 { merge with iter1 := some it1, iter2 := some it2 } it1 _ h1 h2
                rfl] at h
              cases h
            | true =>
              rw [k3] at h
              simp only [Bool.not_true, Bool.false_eq_true, if_false] at h
              cases k4 : env.kmalloc_iterators with
              | false =>
                rw [k4] at h
                simp only [Bool.not_false, if_true] at h
                rw [if_pos (by decide), herr_some1
                  { merge with iter1 := some it1, iter2 := some it2,
                               merged_iter := some { nr_iters := 2, err := ENOMEM_neg,
                                                     non_empty_cnt := 0, iterators := [] } }
                  it1 _ h1 h2 rfl] at h
                cases h
              | true =>
                rw [k4] at h
                simp only [Bool.not_true, Bool.false_eq_true, if_false] at h
                obtain ⟨mi, hmi, hmi0⟩ := hinit (modlist_stream it1) (modlist_stream it2)
                rw [hmi] at h
                simp only [hmi0, ne_eq, not_true_eq_false, if_false, Res.ok.injEq,
                  Prod.mk.injEq] at h
                exact Or.inl h.2.symm

/-- C27 (amended), for two dynamic trees: with every allocation succeeding the
call returns 0 with both iterators set, and with neither iterator allocated it
returns `-EINVAL`. -/
theorem iterators_create_dynamic_only_witness :
    (∃ mi, castle_da_iterators_create iter_env_ok (merge_of (tree_with 1 1) (tree_with 2 1)) =
      Res.ok ({ merge_of (tree_with 1 1) (tree_with 2 1) with
                iter1 := some e2_iter, iter2 := some e2_iter, merged_iter := some mi }, 0)) ∧
    castle_da_iterators_create
        { iter_env_ok with kmalloc_iter1 := false, kmalloc_iter2 := false }
        (merge_of (tree_with 1 1) (tree_with 2 1)) =
      Res.ok (merge_of (tree_with 1 1) (tree_with 2 1), -22) :=
  ⟨((iterators_create_dynamic_only iter_env_ok (merge_of (tree_with 1 1) (tree_with 2 1))
      (tree_with 1 1) (tree_with 2 1) rfl rfl rfl rfl).2.2 (by decide) (by decide)).1
      e2_iter e2_iter rfl rfl rfl rfl rfl rfl rfl rfl,
   ((iterators_create_dynamic_only
      { iter_env_ok with kmalloc_iter1 := false, kmalloc_iter2 := false }
      (merge_of (tree_with 1 1) (tree_with 2 1))
      (tree_with 1 1) (tree_with 2 1) rfl rfl rfl rfl).2.2 (by decide) (by decide)).2.1
      rfl rfl⟩

/-! ## `list_sort` on the links of a circular list -/

theorem cmp_total {c : Nat → Nat → Int} (ht : is_total_order_cmp c) (a b : Nat) :
    c a b ≤ 0 ∨ c b a ≤ 0 := by
  by_cases h : c a b ≤ 0
  · exact Or.inl h
  · right
    have := (ht.1 b a).2 (by omega)
    omega

/-- One pass of the list model of `list_sort`: the largest of the entries it
runs over ends up behind them. -/
theorem list_sort_inner_spec {c : Nat → Nat → Int} (ht : is_total_order_cmp c) :
    ∀ (n : Nat) (before : List Nat) (t1 : Nat) (after : List Nat), n ≤ after.length →
    ∃ P m, list_sort_inner (pure_cmp c) n before t1 after =
        Res.ok (before ++ P ++ m :: after.drop n) ∧
      (P ++ [m]).Perm (t1 :: after.take n) ∧ ∀ x ∈ P, c x m ≤ 0 := by
  intro n
  induction n with
  | zero =>
    intro before t1 after _
    exact ⟨[], t1, by simp [list_sort_inner], by simp, by simp⟩
  | succ n ih =>
    intro before t1 after hn
    cases after with
    | nil => simp at hn
    | cons t2 rest =>
      have hn' : n ≤ rest.length := by simpa using hn
      rw [list_sort_inner]
      simp only [pure_cmp]
      by_cases hc : c t1 t2 > 0
      · rw [if_pos hc]
        obtain ⟨P, m, h1, h2, h3⟩ := ih (before ++ [t2]) t1 rest hn'
        have h21 : c t2 t1 ≤ 0 := by
          have := (ht.1 t2 t1).2 hc
          omega
        have h1m : c t1 m ≤ 0 := by
          have : t1 ∈ P ++ [m] := h2.symm.subset (by simp)
          rcases List.mem_append.1 this with hm | hm
          · exact h3 t1 hm
          · simp only [List.mem_singleton] at hm
            rw [hm]
            have := cmp_total ht m m
            omega
        refine ⟨t2 :: P, m, ?_, ?_, ?_⟩
        · rw [h1]; simp
        · simp only [List.take_succ_cons, List.cons_append]
          exact (List.Perm.cons t2 h2).trans (List.Perm.swap _ _ _)
        · intro x hx
          rcases List.mem_cons.1 hx with rfl | hx
          · exact ht.2 _ _ _ h21 h1m
          · exact h3 x hx
      · rw [if_neg hc]
        obtain ⟨P, m, h1, h2, h3⟩ := ih (before ++ [t1]) t2 rest hn'
        have h2m : c t2 m ≤ 0 := by
          have : t2 ∈ P ++ [m] := h2.symm.subset (by simp)
          rcases List.mem_append.1 this with hm | hm
          · exact h3 t2 hm
          · simp only [List.mem_singleton] at hm
            rw [hm]
            have := cmp_total ht m m
            omega
        refine ⟨t1 :: P, m, ?_, ?_, ?_⟩
        · rw [h1]; simp
        · simp only [List.take_succ_cons, List.cons_append]
          exact List.Perm.cons t1 h2
        · intro x hx
          rcases List.mem_cons.1 hx with rfl | hx
          · exact ht.2 _ _ _ (by omega) h2m
          · exact h3 x hx

/-- The passes of the list model of `list_sort`: the entries behind the part
still to be sorted are the largest ones, in order. -/
theorem list_sort_outer_spec {c : Nat → Nat → Int} (ht : is_total_order_cmp c) :
    ∀ (todo : Nat) (A S : List Nat), A.length = todo + 1 →
    S.Pairwise (fun a b => c a b ≤ 0) → (∀ a ∈ A, ∀ s ∈ S, c a s ≤ 0) →
    ∃ L, list_sort_outer (pure_cmp c) (A.length + S.length) todo S.length (A ++ S) =
        Res.ok L ∧
      L.Perm (A ++ S) ∧ L.Pairwise (fun a b => c a b ≤ 0) := by
  intro todo
  induction todo with
  | zero =>
    intro A S hA hS hAS
    refine ⟨A ++ S, by simp [list_sort_outer], List.Perm.refl _, ?_⟩
    match A, hA with
    | [a], _ =>
      simp only [List.singleton_append, List.pairwise_cons]
      exact ⟨fun s hs => hAS a (by simp) s hs, hS⟩
  | succ todo ih =>
    intro A S hA hS hAS
    match A, hA with
    | t1 :: A', hA' =>
      have hlen : A'.length = todo + 1 := by simpa using hA'
      simp only [List.cons_append, list_sort_outer]
      have hn : (t1 :: A').length + S.length - (S.length + 1) = A'.length := by
        simp only [List.length_cons]; omega
      rw [hn]
      obtain ⟨P, m, h1, h2, h3⟩ := list_sort_inner_spec ht A'.length [] t1 (A' ++ S) (by simp)
      rw [List.drop_left] at h1
      rw [List.take_left] at h2
      rw [h1]
      dsimp only
      have hPl : P.length = todo + 1 := by
        have := h2.length_eq
        simp only [List.length_append, List.length_singleton, List.length_cons,
          List.length_nil] at this
        omega
      have hmA : m ∈ t1 :: A' := h2.subset (by simp)
      have hPA : ∀ x ∈ P, x ∈ t1 :: A' := fun x hx => h2.subset (by simp [hx])
      obtain ⟨L, g1, g2, g3⟩ := ih P (m :: S) hPl
        (List.pairwise_cons.2 ⟨fun s hs => hAS m hmA s hs, hS⟩)
        (fun a ha s hs => by
          rcases List.mem_cons.1 hs with rfl | hs
          · exact h3 a ha
          · exact hAS a (hPA a ha) s hs)
      have e1 : (t1 :: A').length + S.length = P.length + (m :: S).length := by
        simp only [List.length_cons]; omega
      have e2 : S.length + 1 = (m :: S).length := by simp
      have e3 : [] ++ P ++ m :: S = P ++ m :: S := by simp
      rw [e1, e2, e3, g1]
      refine ⟨L, rfl, ?_, g3⟩
      refine g2.trans ?_
      have : (P ++ m :: S).Perm ((P ++ [m]) ++ S) := by simp
      exact this.trans (by simpa using List.Perm.append_right S h2)

/-- The list model of `list_sort` returns a sorted permutation. -/
theorem list_sort_spec {c : Nat → Nat → Int} (ht : is_total_order_cmp c) (l : List Nat) :
    ∃ L, list_sort (pure_cmp c) l = Res.ok L ∧ L.Perm l ∧
      L.Pairwise (fun a b => c a b ≤ 0) ∧ (l.length ≤ 1 → L = l) := by
  rw [list_sort]
  by_cases h : l.length ≤ 1
  · rw [if_pos h]
    refine ⟨l, rfl, List.Perm.refl _, ?_, fun _ => rfl⟩
    match l, h with
    | [], _ => exact List.Pairwise.nil
    | [a], _ => exact List.pairwise_singleton _ _
  · rw [if_neg h]
    obtain ⟨L, h1, h2, h3⟩ := list_sort_outer_spec ht (l.length - 1) l [] (by omega)
      List.Pairwise.nil (fun _ _ s hs => by cases hs)
    simp only [List.length_nil, Nat.add_zero, List.append_nil] at h1 h2
    exact ⟨L, h1, h2, h3, fun hl => absurd hl h⟩

/-- What `list_swap` writes, for two records linked one behind the other whose
neighbours are other records. -/
theorem list_swap_links (h : list_heads) (t1 t2 p n : Nat) (hp : h.prev t1 = p)
    (hn : h.next t2 = n) (h12 : t1 ≠ t2) (hp1 : p ≠ t1) (hp2 : p ≠ t2) (hn1 : n ≠ t1)
    (hn2 : n ≠ t2) :
    linked (list_swap h t1 t2) p t2 ∧ linked (list_swap h t1 t2) t2 t1 ∧
    linked (list_swap h t1 t2) t1 n ∧
    (∀ q, q ≠ p → q ≠ t1 → q ≠ t2 → (list_swap h t1 t2).next q = h.next q) ∧
    (∀ q, q ≠ n → q ≠ t1 → q ≠ t2 → (list_swap h t1 t2).prev q = h.prev q) := by
  have h21 : t2 ≠ t1 := fun e => h12 e.symm
  have h1p : t1 ≠ p := fun e => hp1 e.symm
  have h2p : t2 ≠ p := fun e => hp2 e.symm
  have h1n : t1 ≠ n := fun e => hn1 e.symm
  have h2n : t2 ≠ n := fun e => hn2 e.symm
  refine ⟨⟨?_, ?_⟩, ⟨?_, ?_⟩, ⟨?_, ?_⟩, ?_, ?_⟩
  · simp [list_swap, __list_swap, set_next, set_prev, hp, hn, hp1, hp2]
  · simp [list_swap, __list_swap, set_next, set_prev, hp, hn, h2n, h21]
  · simp [list_swap, __list_swap, set_next, set_prev, hp, hn, h21]
  · simp [list_swap, __list_swap, set_next, set_prev, hp, hn, h1n]
  · simp [list_swap, __list_swap, set_next, set_prev, hp, hn]
  · simp [list_swap, __list_swap, set_next, set_prev, hp, hn]
  · intro q q1 q2 q3
    simp [list_swap, __list_swap, set_next, set_prev, hp, hn, q1, q2, q3]
  · intro q q1 q2 q3
    simp [list_swap, __list_swap, set_next, set_prev, hp, hn, q1, q2, q3]

/-- A chain of links stays when the fields it reads stay. -/
theorem chain_linked_frame (h g : list_heads) : ∀ (L : List Nat) (a : Nat),
    List.Chain (linked h) a L →
    (∀ x ∈ (a :: L).dropLast, g.next x = h.next x) → (∀ y ∈ L, g.prev y = h.prev y) →
    List.Chain (linked g) a L := by
  intro L
  induction L with
  | nil => intro a _ _ _; exact List.Chain.nil
  | cons b L ih =>
    intro a hc hx hy
    obtain ⟨hab, hrest⟩ := List.chain_cons.1 hc
    refine List.Chain.cons ?_ (ih b hrest ?_ ?_)
    · refine ⟨?_, ?_⟩
      · rw [hx a (by simp [List.dropLast])]; exact hab.1
      · rw [hy b (by simp)]; exact hab.2
    · intro x hm
      apply hx
      rw [List.dropLast_cons_of_ne_nil (by simp)]
      exact List.mem_cons_of_mem _ hm
    · intro y hm
      exact hy y (List.mem_cons_of_mem _ hm)

/-- Swapping two neighbouring records of a circular list with `list_swap` gives
the circular list with the two records exchanged; the first of the two was
linked to the second. -/
theorem is_ring_swap (h : list_heads) (list : Nat) (before : List Nat) (t1 t2 : Nat)
    (rest : List Nat) (hr : is_ring h list (before ++ t1 :: t2 :: rest)) :
    h.next t1 = t2 ∧ is_ring (list_swap h t1 t2) list (before ++ t2 :: t1 :: rest) := by
  obtain ⟨hnd, hch⟩ := hr
  -- the records in front of the two and behind them
  have hX : (list :: before).dropLast ++ [(list :: before).getLast (by simp)] = list :: before :=
    List.dropLast_append_getLast _
  generalize hXi : (list :: before).dropLast = Xi at hX
  generalize hpd : (list :: before).getLast (by simp) = p at hX
  obtain ⟨n, Yi, hY⟩ : ∃ n Yi, rest ++ [list] = n :: Yi := by
    cases rest with
    | nil => exact ⟨list, [], rfl⟩
    | cons r rest => exact ⟨r, rest ++ [list], rfl⟩
  have hcyc : list :: ((before ++ t1 :: t2 :: rest) ++ [list]) =
      Xi ++ p :: t1 :: t2 :: n :: Yi := by
    have : list :: ((before ++ t1 :: t2 :: rest) ++ [list]) =
        (list :: before) ++ t1 :: t2 :: (rest ++ [list]) := by simp
    rw [this, ← hX, hY]
    simp
  have hcyc' : list :: ((before ++ t2 :: t1 :: rest) ++ [list]) =
      Xi ++ p :: t2 :: t1 :: n :: Yi := by
    have : list :: ((before ++ t2 :: t1 :: rest) ++ [list]) =
        (list :: before) ++ t2 :: t1 :: (rest ++ [list]) := by simp
    rw [this, ← hX, hY]
    simp
  rw [hcyc] at hch
  obtain ⟨c1, c2⟩ := List.chain'_split.1 hch
  obtain ⟨lp1, c3⟩ := List.chain'_cons.1 c2
  obtain ⟨l12, c4⟩ := List.chain'_cons.1 c3
  obtain ⟨l2n, c5⟩ := List.chain'_cons.1 c4
  -- distinctness
  have hsplit : list :: (before ++ t1 :: t2 :: rest) = (list :: before) ++ t1 :: t2 :: rest := by
    simp
  rw [hsplit] at hnd
  obtain ⟨ndX, ndT, hdisj⟩ := List.nodup_append.1 hnd
  have hXT : ∀ x ∈ list :: before, x ≠ t1 ∧ x ≠ t2 ∧ x ∉ rest := by
    intro x hx
    refine ⟨fun e => hdisj hx (by simp [e]), fun e => hdisj hx (by simp [e]), fun hm =>
      hdisj hx (by simp [hm])⟩
  have ht12 : t1 ≠ t2 := by
    intro e
    have := (List.nodup_cons.1 ndT).1
    exact this (by simp [e])
  have ht1r : t1 ∉ rest := fun hm => (List.nodup_cons.1 ndT).1 (by simp [hm])
  have ht2r : t2 ∉ rest := fun hm =>
    (List.nodup_cons.1 (List.nodup_cons.1 ndT).2).1 hm
  have ndr : rest.Nodup := (List.nodup_cons.1 (List.nodup_cons.1 ndT).2).2
  have hpX : p ∈ list :: before := by
    rw [← hX]; simp
  have hlr : list ∉ rest := (hXT list (by simp)).2.2
  have hnY : n ∈ rest ∨ n = list := by
    have : n ∈ rest ++ [list] := by rw [hY]; simp
    simpa using this
  have ndY : (n :: Yi).Nodup := by
    rw [← hY]
    exact List.nodup_append.2 ⟨ndr, List.nodup_singleton _, by
      intro x hx hx'
      simp only [List.mem_singleton] at hx'
      exact hlr (hx' ▸ hx)⟩
  have hYmem : ∀ y ∈ n :: Yi, y ∈ rest ∨ y = list := by
    intro y hy
    rw [← hY] at hy
    simpa using hy
  have hp1 : p ≠ t1 := (hXT p hpX).1
  have hp2 : p ≠ t2 := (hXT p hpX).2.1
  have hn1 : n ≠ t1 := by
    rcases hnY with hm | e
    · exact fun e => ht1r (e ▸ hm)
    · rw [e]; exact (hXT list (by simp)).1
  have hn2 : n ≠ t2 := by
    rcases hnY with hm | e
    · exact fun e => ht2r (e ▸ hm)
    · rw [e]; exact (hXT list (by simp)).2.1
  obtain ⟨g1, g2, g3, gnext, gprev⟩ :=
    list_swap_links h t1 t2 p n lp1.2 l2n.1 ht12 hp1 hp2 hn1 hn2
  refine ⟨l12.1, ?_, ?_⟩
  · have : list :: (before ++ t2 :: t1 :: rest) = (list :: before) ++ t2 :: t1 :: rest := by
      simp
    rw [this]
    refine List.nodup_append.2 ⟨ndX, ?_, ?_⟩
    · exact (List.Perm.swap t1 t2 rest).nodup_iff.2 ndT
    · intro x hx hx'
      exact hdisj hx ((List.Perm.swap t1 t2 rest).subset hx')
  · rw [hcyc']
    refine List.chain'_split.2 ⟨?_, List.chain'_cons.2 ⟨g1, List.chain'_cons.2 ⟨g2,
      List.chain'_cons.2 ⟨g3, ?_⟩⟩⟩⟩
    · -- the records in front
      rw [hX] at c1 ⊢
      refine chain_linked_frame h _ before list c1 ?_ ?_
      · intro x hx
        rw [hXi] at hx
        have hxX : x ∈ list :: before := by rw [← hX]; simp [hx]
        have hxp : x ≠ p := by
          intro e
          rw [← hX] at ndX
          exact (List.nodup_append.1 ndX).2.2 hx (by simp [e])
        exact gnext x hxp (hXT x hxX).1 (hXT x hxX).2.1
      · intro y hy
        have hyX : y ∈ list :: before := List.mem_cons_of_mem _ hy
        have hyn : y ≠ n := by
          rcases hnY with hm | e
          · exact fun e => (hXT y hyX).2.2 (e ▸ hm)
          · rw [e]
            intro e2
            exact (List.nodup_cons.1 ndX).1 (e2 ▸ hy)
        exact gprev y hyn (hXT y hyX).1 (hXT y hyX).2.1
    · -- the records behind
      refine chain_linked_frame h _ Yi n c5 ?_ ?_
      · intro x hx
        have hxr : x ∈ rest := by
          have : (n :: Yi).dropLast = rest := by
            rw [← hY]; simp
          rw [this] at hx
          exact hx
        have hxp : x ≠ p := fun e => (hXT p hpX).2.2 (e ▸ hxr)
        exact gnext x hxp (fun e => ht1r (e ▸ hxr)) (fun e => ht2r (e ▸ hxr))
      · intro y hy
        have hyn : y ≠ n := fun e => (List.nodup_cons.1 ndY).1 (e ▸ hy)
        have hy1 : y ≠ t1 := by
          rcases hYmem y (List.mem_cons_of_mem _ hy) with hm | e
          · exact fun e => ht1r (e ▸ hm)
          · rw [e]; exact (hXT list (by simp)).1
        have hy2 : y ≠ t2 := by
          rcases hYmem y (List.mem_cons_of_mem _ hy) with hm | e
          · exact fun e => ht2r (e ▸ hm)
          · rw [e]; exact (hXT list (by simp)).2.1
        exact gprev y hyn hy1 hy2

theorem list_sort_inner_length (c : Nat → Nat → Res Int) :
    ∀ (n : Nat) (before : List Nat) (t1 : Nat) (after L : List Nat),
    list_sort_inner c n before t1 after = Res.ok L →
    L.length = before.length + 1 + after.length := by
  intro n
  induction n with
  | zero =>
    intro before t1 after L h
    simp only [list_sort_inner, Res.ok.injEq] at h
    rw [← h]
    simp
    omega
  | succ n ih =>
    intro before t1 after L h
    cases after with
    | nil => simp [list_sort_inner] at h
    | cons t2 rest =>
      rw [list_sort_inner] at h
      cases hc : c t1 t2 with
      | bug => rw [hc] at h; cases h
      | timeout => rw [hc] at h; cases h
      | ok v =>
        rw [hc] at h
        dsimp only at h
        split at h
        · have := ih _ _ _ _ h
          simp only [List.length_append, List.length_singleton, List.length_cons,
            List.length_nil] at this ⊢
          omega
        · have := ih _ _ _ _ h
          simp only [List.length_append, List.length_singleton, List.length_cons,
            List.length_nil] at this ⊢
          omega

/-- The inner loop of `list_sort` on the links does what the list model of the
loop does on the list of records. -/
theorem list_sort_bubble_spec (c : Nat → Nat → Int) (list i : Nat) :
    ∀ (j : Nat) (h : list_heads) (before : List Nat) (t1 : Nat) (after L : List Nat),
    is_ring h list (before ++ t1 :: after) →
    list_sort_inner (pure_cmp c) (j - (i + 1)) before t1 after = Res.ok L →
    is_ring (list_sort_bubble c i j h t1) list L := by
  intro j
  induction j with
  | zero =>
    intro h before t1 after L hr hL
    simp only [Nat.zero_sub, list_sort_inner, Res.ok.injEq] at hL
    rw [list_sort_bubble, ← hL]
    exact hr
  | succ j ih =>
    intro h before t1 after L hr hL
    rw [list_sort_bubble]
    by_cases hj : j + 1 > i + 1
    · rw [if_pos hj]
      have hn : j + 1 - (i + 1) = (j - (i + 1)) + 1 := by omega
      rw [hn] at hL
      cases after with
      | nil => simp [list_sort_inner] at hL
      | cons t2 rest =>
        obtain ⟨hnext, hswap⟩ := is_ring_swap h list before t1 t2 rest hr
        rw [list_sort_inner] at hL
        simp only [pure_cmp] at hL
        dsimp only
        rw [hnext]
        by_cases hc : c t1 t2 > 0
        · rw [if_pos hc] at hL ⊢
          refine ih _ (before ++ [t2]) t1 rest L ?_ hL
          rw [List.append_assoc]
          exact hswap
        · rw [if_neg hc] at hL ⊢
          refine ih _ (before ++ [t1]) t2 rest L ?_ hL
          rw [List.append_assoc]
          exact hr
    · rw [if_neg hj]
      have hn : j + 1 - (i + 1) = 0 := by omega
      rw [hn] at hL
      simp only [list_sort_inner, Res.ok.injEq] at hL
      rw [← hL]
      exact hr

theorem ring_first (h : list_heads) (list t1 : Nat) (after : List Nat)
    (hr : is_ring h list (t1 :: after)) : h.next list = t1 := by
  have := hr.2
  simp only [List.cons_append] at this
  exact (List.chain'_cons.1 this).1.1

/-- The outer loop of `list_sort` on the links does what the list model of the
loop does on the list of records. -/
theorem list_sort_passes_spec (c : Nat → Nat → Int) (list length : Nat) :
    ∀ (todo i : Nat) (h : list_heads) (l L : List Nat),
    is_ring h list l → l.length = length →
    list_sort_outer (pure_cmp c) length todo i l = Res.ok L →
    is_ring (list_sort_passes c list length todo i h) list L := by
  intro todo
  induction todo with
  | zero =>
    intro i h l L hr _ hL
    simp only [list_sort_outer, Res.ok.injEq] at hL
    rw [list_sort_passes, ← hL]
    exact hr
  | succ todo ih =>
    intro i h l L hr hlen hL
    cases l with
    | nil => simp [list_sort_outer] at hL
    | cons t1 after =>
      simp only [list_sort_outer] at hL
      cases hin : list_sort_inner (pure_cmp c) (length - (i + 1)) [] t1 after with
      | bug => rw [hin] at hL; cases hL
      | timeout => rw [hin] at hL; cases hL
      | ok list1 =>
        rw [hin] at hL
        dsimp only at hL
        rw [list_sort_passes, ring_first h list t1 after hr]
        refine ih _ _ list1 L ?_ ?_ hL
        · exact list_sort_bubble_spec c list i length h [] t1 after list1 hr hin
        · rw [list_sort_inner_length _ _ _ _ _ _ hin, ← hlen]
          simp
          omega

/-- The counting loop of `list_sort` on a circular list. -/
theorem list_sort_length_spec (h : list_heads) (list : Nat) :
    ∀ (s : List Nat) (a k fuel : Nat), List.Chain (linked h) a (s ++ [list]) →
    list ∉ s → s.length < fuel →
    list_sort_length h list fuel (h.next a) k = Res.ok (k + s.length) := by
  intro s
  induction s with
  | nil =>
    intro a k fuel hc _ hf
    have hl : h.next a = list := (List.chain_cons.1 hc).1.1
    cases fuel with
    | zero => simp at hf
    | succ fuel => simp [list_sort_length, hl]
  | cons x s ih =>
    intro a k fuel hc hn hf
    obtain ⟨hax, hrest⟩ := List.chain_cons.1 hc
    have hx : x ≠ list := fun e => hn (by simp [e])
    cases fuel with
    | zero => simp at hf
    | succ fuel =>
      rw [list_sort_length, hax.1, if_neg hx,
        ih x (k + 1) fuel hrest (fun hm => hn (by simp [hm])) (by simpa using hf)]
      simp only [List.length_cons]
      congr 1
      omega

theorem links_check_sound (h : list_heads) : ∀ (L : List Nat) (a : Nat),
    links_check h a L = true → List.Chain (linked h) a L := by
  intro L
  induction L with
  | nil => intro a _; exact List.Chain.nil
  | cons b L ih =>
    intro a hc
    simp only [links_check, Bool.and_eq_true, decide_eq_true_eq] at hc
    exact List.Chain.cons ⟨hc.1.1, hc.1.2⟩ (ih b hc.2)

theorem nodup_check_sound : ∀ l : List Nat, nodup_check l = true → l.Nodup := by
  intro l
  induction l with
  | nil => intro _; exact List.nodup_nil
  | cons a l ih =>
    intro hc
    simp only [nodup_check, Bool.and_eq_true, Bool.not_eq_true'] at hc
    refine List.nodup_cons.2 ⟨fun hm => ?_, ih hc.2⟩
    have : l.contains a = true := by simpa using hm
    rw [hc.1] at this
    cases this

theorem ring_check_sound (h : list_heads) (list : Nat) (l : List Nat)
    (hc : ring_check h list l = true) : is_ring h list l := by
  simp only [ring_check, Bool.and_eq_true] at hc
  exact ⟨nodup_check_sound _ hc.1, links_check_sound h _ _ hc.2⟩

theorem addr_cmp_total : is_total_order_cmp addr_cmp := by
  refine ⟨fun a b => ?_, fun a b d => ?_⟩ <;> simp only [addr_cmp] <;> omega

/-- C26: for every well-formed circular doubly-linked list (head `list`,
records `l`, all at distinct addresses, `next` and `prev` consistent) and every
comparator that is a total order, `list_sort` returns once the counting loop has
gone round the list, and leaves a well-formed circular list with the same head
whose records `L` are the same records (a permutation of `l`), every record
comparing `<= 0` with every later one, in particular with its neighbour; `L` is
what the list model of `list_sort` computes; for lists of length 0 and 1 the
memory is unchanged. -/
theorem list_sort_sorts_ring (c : Nat → Nat → Int) (ht : is_total_order_cmp c)
    (h : list_heads) (list : Nat) (l : List Nat) (hr : is_ring h list l)
    (fuel : Nat) (hfuel : l.length < fuel) :
    ∃ h1 L, list_sort_links c fuel h list = Res.ok h1 ∧ is_ring h1 list L ∧
      L.Perm l ∧ L.Chain' (fun a b => c a b ≤ 0) ∧ L.Pairwise (fun a b => c a b ≤ 0) ∧
      list_sort (pure_cmp c) l = Res.ok L ∧ (l.length ≤ 1 → h1 = h ∧ L = l) := by
  obtain ⟨L, hL, hperm, hsorted, hshort⟩ := list_sort_spec ht l
  have hlen : list_sort_length h list fuel (h.next list) 0 = Res.ok l.length := by
    have := list_sort_length_spec h list l list 0 fuel hr.2
      (fun hm => (List.nodup_cons.1 hr.1).1 hm) hfuel
    simpa using this
  by_cases hl : l.length ≤ 1
  · refine ⟨h, L, ?_, ?_, hperm, List.Pairwise.chain' hsorted, hsorted, hL, fun _ =>
      ⟨rfl, hshort hl⟩⟩
    · rw [list_sort_links, hlen]
      dsimp only
      rw [if_pos hl]
    · rw [hshort hl]; exact hr
  · refine ⟨list_sort_passes c list l.length (l.length - 1) 0 h, L, ?_, ?_, hperm,
      List.Pairwise.chain' hsorted, hsorted, hL, fun h1 => absurd h1 hl⟩
    · rw [list_sort_links, hlen]
      dsimp only
      rw [if_neg hl]
    · have hL2 := hL
      rw [list_sort, if_neg hl] at hL2
      exact list_sort_passes_spec c list l.length (l.length - 1) 0 h l L hr rfl hL2

/-- C26, on the circular list with the head 0 and the records 3, 1, 2, compared
by address: after `list_sort` the head is followed by 1, 2, 3. -/
theorem list_sort_sorts_ring_witness :
    is_ring (ring_of self_linked 0 [3, 1, 2]) 0 [3, 1, 2] ∧
    ring_after (list_sort_links addr_cmp 4 (ring_of self_linked 0 [3, 1, 2]) 0) 0 [1, 2, 3]
      = true ∧
    ∃ h1 L, list_sort_links addr_cmp 4 (ring_of self_linked 0 [3, 1, 2]) 0 = Res.ok h1 ∧
      is_ring h1 0 L ∧ L.Perm [3, 1, 2] ∧ L.Chain' (fun a b => addr_cmp a b ≤ 0) := by
  have hr : is_ring (ring_of self_linked 0 [3, 1, 2]) 0 [3, 1, 2] :=
    ring_check_sound _ _ _ (by decide)
  obtain ⟨h1, L, a1, a2, a3, a4, -⟩ :=
    list_sort_sorts_ring addr_cmp addr_cmp_total (ring_of self_linked 0 [3, 1, 2]) 0 [3, 1, 2]
      hr 4 (by decide)
  exact ⟨hr, by decide, h1, L, a1, a2, a3, a4⟩

/-! ## Writing trees and doubling arrays back to the stores -/

theorem tree_writeback_cases (env : mstore_env) (s : wb_state) (ct : Nat)
    (c : castle_component_tree) (hc : s.st.cts[ct]? = some c) :
    castle_da_tree_writeback env s ct =
      if env.MSTORE_KEY_INVAL c.mstore_key then
        Res.ok (with_tree_call
          (with_tree_key s ct c
            (env.tree_insert_key s.castle_tree_store (castle_da_ct_marshall c).1))
          (mstore_call.insert (castle_da_ct_marshall c).1), 0)
      else
        Res.ok (with_tree_call s
          (mstore_call.update c.mstore_key (castle_da_ct_marshall c).1), 0) := by
  rw [castle_da_tree_writeback, hc]
  rfl

theorem foreach_tree_writeback_spec (env : mstore_env) : ∀ (l : List Nat) (s : wb_state),
    (∀ p ∈ l, p < s.st.cts.length) →
    ∃ s1, castle_da_foreach_tree_writeback env l s = Res.ok s1 ∧
      s1.st.das = s.st.das ∧ s1.castle_da_store = s.castle_da_store ∧
      s1.st.cts.length = s.st.cts.length := by
  intro l
  induction l with
  | nil => intro s _; exact ⟨s, rfl, rfl, rfl, rfl⟩
  | cons ct rest ih =>
    intro s hl
    have hlt : ct < s.st.cts.length := hl ct (by simp)
    have hc : s.st.cts[ct]? = some s.st.cts[ct] := by simp [hlt]
    rw [castle_da_foreach_tree_writeback, tree_writeback_cases env s ct _ hc]
    by_cases hi : env.MSTORE_KEY_INVAL (s.st.cts[ct]).mstore_key = true
    · rw [if_pos hi]
      dsimp only
      rw [if_neg (by simp)]
      obtain ⟨s1, h1, h2, h3, h4⟩ := ih
        (with_tree_call
          (with_tree_key s ct s.st.cts[ct]
            (env.tree_insert_key s.castle_tree_store (castle_da_ct_marshall s.st.cts[ct]).1))
          (mstore_call.insert (castle_da_ct_marshall s.st.cts[ct]).1))
        (fun p hp => by
          simp only [with_tree_call, with_tree_key, List.length_set]
          exact hl p (by simp [hp]))
      exact ⟨s1, h1, h2, h3, by rw [h4]; simp [with_tree_call, with_tree_key]⟩
    · rw [if_neg hi]
      dsimp only
      rw [if_neg (by simp)]
      obtain ⟨s1, h1, h2, h3, h4⟩ := ih
        (with_tree_call s
          (mstore_call.update (s.st.cts[ct]).mstore_key (castle_da_ct_marshall s.st.cts[ct]).1))
        (fun p hp => hl p (by simp [hp]))
      exact ⟨s1, h1, h2, h3, h4⟩

/-- The function `castle_da_writeback` by the two cases of the cached key;
`s1` is the state after the trees have been written back. -/
theorem da_writeback_cases (env : mstore_env) (s : wb_state) (da : Nat)
    (d : castle_double_array) (hd : s.st.das[da]? = some d)
    (hp : ∀ p ∈ d.trees.flatten, p < s.st.cts.length) :
    ∃ s1, s1.st.das = s.st.das ∧ s1.castle_da_store = s.castle_da_store ∧
      s1.st.cts.length = s.st.cts.length ∧
      castle_da_writeback env s da =
        if env.MSTORE_KEY_INVAL d.mstore_key then
          Res.ok (with_da_call
            (with_da_key s1 da d (env.da_insert_key s1.castle_da_store (castle_da_marshall d).1))
            (mstore_call.insert (castle_da_marshall d).1), 0)
        else
          Res.ok (with_da_call s1
            (mstore_call.update d.mstore_key (castle_da_marshall d).1), 0) := by
  obtain ⟨s1, h1, h2, h3, h4⟩ := foreach_tree_writeback_spec env d.trees.flatten s hp
  have hd1 : s1.st.das[da]? = some d := by rw [h2]; exact hd
  refine ⟨s1, h2, h3, h4, ?_⟩
  rw [castle_da_writeback, hd]
  dsimp only
  rw [h1]
  dsimp only
  rw [hd1]
  dsimp only
  by_cases hi : env.MSTORE_KEY_INVAL d.mstore_key = true
  · have hi' : env.MSTORE_KEY_INVAL (castle_da_marshall d).2 = true := hi
    rw [if_pos hi', if_pos hi]
    rfl
  · have hi' : ¬ env.MSTORE_KEY_INVAL (castle_da_marshall d).2 = true := hi
    rw [if_neg hi', if_neg hi]
    rfl

/-- C25: `castle_da_tree_writeback` inserts a record into the component-tree
store exactly when the cached `mstore_key` of the tree is invalid, and then
caches the key the store returns; when the cached key is valid it issues one
update under that key and no insert.  When the key returned by the insert is a
valid one, writing the same tree back a second time adds one update under that
key: the store has received one insert followed by one update.  The same holds
for `castle_da_writeback` and the store of doubling arrays (the trees of the
array being records of the tree table). -/
theorem writeback_inserts_once (env : mstore_env) (s : wb_state) :
    (∀ ct c, s.st.cts[ct]? = some c →
      (env.MSTORE_KEY_INVAL c.mstore_key = true →
        ∃ s1, castle_da_tree_writeback env s ct = Res.ok (s1, 0) ∧
          s1.castle_tree_store = s.castle_tree_store ++
            [mstore_call.insert (castle_da_ct_marshall c).1] ∧
          s1.st.cts[ct]? = some (tree_keyed c
            (env.tree_insert_key s.castle_tree_store (castle_da_ct_marshall c).1)) ∧
          s1.castle_da_store = s.castle_da_store ∧
          (env.MSTORE_KEY_INVAL
              (env.tree_insert_key s.castle_tree_store (castle_da_ct_marshall c).1) = false →
            ∃ s2, castle_da_tree_writeback env s1 ct = Res.ok (s2, 0) ∧
              s2.castle_tree_store = s.castle_tree_store ++
                [mstore_call.insert (castle_da_ct_marshall c).1,
                 mstore_call.update
                   (env.tree_insert_key s.castle_tree_store (castle_da_ct_marshall c).1)
                   (castle_da_ct_marshall c).1] ∧
              s2.st = s1.st)) ∧
      (env.MSTORE_KEY_INVAL c.mstore_key = false →
        ∃ s1, castle_da_tree_writeback env s ct = Res.ok (s1, 0) ∧
          s1.castle_tree_store = s.castle_tree_store ++
            [mstore_call.update c.mstore_key (castle_da_ct_marshall c).1] ∧
          s1.st = s.st ∧ s1.castle_da_store = s.castle_da_store)) ∧
    (∀ da d, s.st.das[da]? = some d → (∀ p ∈ d.trees.flatten, p < s.st.cts.length) →
      (env.MSTORE_KEY_INVAL d.mstore_key = true →
        ∃ s1, castle_da_writeback env s da = Res.ok (s1, 0) ∧
          s1.castle_da_store = s.castle_da_store ++
            [mstore_call.insert (castle_da_marshall d).1] ∧
          s1.st.das[da]? = some (da_keyed d
            (env.da_insert_key s.castle_da_store (castle_da_marshall d).1)) ∧
          (env.MSTORE_KEY_INVAL
              (env.da_insert_key s.castle_da_store (castle_da_marshall d).1) = false →
            ∃ s2, castle_da_writeback env s1 da = Res.ok (s2, 0) ∧
              s2.castle_da_store = s.castle_da_store ++
                [mstore_call.insert (castle_da_marshall d).1,
                 mstore_call.update
                   (env.da_insert_key s.castle_da_store (castle_da_marshall d).1)
                   (castle_da_marshall d).1])) ∧
      (env.MSTORE_KEY_INVAL d.mstore_key = false →
        ∃ s1, castle_da_writeback env s da = Res.ok (s1, 0) ∧
          s1.castle_da_store = s.castle_da_store ++
            [mstore_call.update d.mstore_key (castle_da_marshall d).1] ∧
          s1.st.das = s.st.das)) := by
  constructor
  · intro ct c hc
    have hlt : ct < s.st.cts.length := (List.getElem?_eq_some.1 hc).1
    constructor
    · intro hi
      have hc1 : (with_tree_call
          (with_tree_key s ct c
            (env.tree_insert_key s.castle_tree_store (castle_da_ct_marshall c).1))
          (mstore_call.insert (castle_da_ct_marshall c).1)).st.cts[ct]? =
          some (tree_keyed c
            (env.tree_insert_key s.castle_tree_store (castle_da_ct_marshall c).1)) := by
        simp only [with_tree_call, with_tree_key]
        rw [List.getElem?_set_eq_of_lt _ hlt]
        rfl
      refine ⟨with_tree_call
          (with_tree_key s ct c
            (env.tree_insert_key s.castle_tree_store (castle_da_ct_marshall c).1))
          (mstore_call.insert (castle_da_ct_marshall c).1),
        by rw [tree_writeback_cases env s ct c hc, if_pos hi], rfl, hc1, rfl, ?_⟩
      intro hk
      refine ⟨with_tree_call
          (with_tree_call
            (with_tree_key s ct c
              (env.tree_insert_key s.castle_tree_store (castle_da_ct_marshall c).1))
            (mstore_call.insert (castle_da_ct_marshall c).1))
          (mstore_call.update
            (env.tree_insert_key s.castle_tree_store (castle_da_ct_marshall c).1)
            (castle_da_ct_marshall c).1), ?_, ?_, rfl⟩
      · rw [tree_writeback_cases env _ ct _ hc1, if_neg (by simp [tree_keyed, hk])]
        rfl
      · simp [with_tree_call, with_tree_key]
    · intro hi
      exact ⟨with_tree_call s (mstore_call.update c.mstore_key (castle_da_ct_marshall c).1),
        by rw [tree_writeback_cases env s ct c hc, if_neg (by simp [hi])], rfl, rfl, rfl⟩
  · intro da d hd hp
    have hlt : da < s.st.das.length := (List.getElem?_eq_some.1 hd).1
    obtain ⟨s1, h2, h3, h4, hw⟩ := da_writeback_cases env s da d hd hp
    constructor
    · intro hi
      rw [if_pos hi] at hw
      have hd1 : (with_da_call
          (with_da_key s1 da d (env.da_insert_key s1.castle_da_store (castle_da_marshall d).1))
          (mstore_call.insert (castle_da_marshall d).1)).st.das[da]? =
          some (da_keyed d
            (env.da_insert_key s.castle_da_store (castle_da_marshall d).1)) := by
        simp only [with_da_call, with_da_key]
        rw [List.getElem?_set_eq_of_lt _ (by rw [h2]; exact hlt), h3]
        rfl
      refine ⟨with_da_call
          (with_da_key s1 da d (env.da_insert_key s1.castle_da_store (castle_da_marshall d).1))
          (mstore_call.insert (castle_da_marshall d).1), hw, ?_, hd1, ?_⟩
      · simp only [with_da_call, with_da_key, h3]
      · intro hk
        obtain ⟨t1, g2, g3, g4, gw⟩ := da_writeback_cases env _ da _ hd1 (by
          intro p hp'
          simp only [with_da_call, with_da_key]
          rw [h4]
          exact hp p hp')
        rw [if_neg (by simp [da_keyed, hk])] at gw
        refine ⟨with_da_call t1
          (mstore_call.update
            (da_keyed d (env.da_insert_key s.castle_da_store (castle_da_marshall d).1)).mstore_key
            (castle_da_marshall
              (da_keyed d
                (env.da_insert_key s.castle_da_store (castle_da_marshall d).1))).1), gw, ?_⟩
        simp only [with_da_call, with_da_key] at g3 ⊢
        rw [g3, h3]
        simp [castle_da_marshall, da_keyed]
    · intro hi
      rw [if_neg (by simp [hi])] at hw
      refine ⟨with_da_call s1 (mstore_call.update d.mstore_key (castle_da_marshall d).1),
        hw, ?_, ?_⟩
      · simp only [with_da_call, h3]
      · simp only [with_da_call]
        exact h2

/-- C25, on the state `castle_double_array_make` leaves, with a store that hands
out the keys 10, 11, ...: the first write-back of the tree at the pointer 1
inserts and caches the key 10, the second one updates under the key 10; the
first write-back of the doubling array inserts the tree and the array. -/
theorem writeback_inserts_once_witness :
    wb_start.st.cts[1]? = some (example_ct_fresh) ∧
    (∃ s1 s2, castle_da_tree_writeback wb_env wb_start 1 = Res.ok (s1, 0) ∧
      castle_da_tree_writeback wb_env s1 1 = Res.ok (s2, 0) ∧
      s2.castle_tree_store =
        [] ++ [mstore_call.insert (castle_da_ct_marshall example_ct_fresh).1,
               mstore_call.update 10 (castle_da_ct_marshall example_ct_fresh).1]) ∧
    (castle_da_writeback wb_env wb_start 0).map
        (fun r => (r.1.castle_tree_store, r.1.castle_da_store, r.2)) =
      Res.ok ([mstore_call.insert (castle_da_ct_marshall example_ct_fresh).1],
        [mstore_call.insert { id := 1, root_version := 0 }], 0) := by
  have hc : wb_start.st.cts[1]? = some example_ct_fresh := by decide
  obtain ⟨s1, h1, -, -, -, h5⟩ :=
    ((writeback_inserts_once wb_env wb_start).1 1 example_ct_fresh hc).1 (by decide)
  obtain ⟨s2, g1, g2, -⟩ := h5 (by decide)
  exact ⟨hc, ⟨s1, s2, h1, g1, g2⟩, by decide⟩

/-! ## The replies of `castle_rxrpc.c` -/

/-- C39 fails on the code: `reply` is declared with two words, so for every
completion with `err == 0` and data the store `reply[2] = htonl(length)` lies
outside the array (and the twelve bytes to send would be read from an array of
eight); the first two stores are within bounds. -/
theorem get_complete_stores_outside_reply (c : rxrpc_consts) (junk : List Nat)
    (bytes : List Nat) (length : Nat) :
    castle_rxrpc_get_complete c junk 0 (some bytes) length = MemRes.out_of_bounds 2 2 ∧
    word_store [junk, junk] 0 (htonl c.CASTLE_OBJ_REPLY_GET) =
      MemRes.ok [htonl c.CASTLE_OBJ_REPLY_GET, junk] ∧
    word_store [htonl c.CASTLE_OBJ_REPLY_GET, junk] 1 (htonl c.CASTLE_OBJ_VALUE) =
      MemRes.ok [htonl c.CASTLE_OBJ_REPLY_GET, htonl c.CASTLE_OBJ_VALUE] ∧
    word_store [htonl c.CASTLE_OBJ_REPLY_GET, htonl c.CASTLE_OBJ_VALUE] 2
      (htonl (length % 2 ^ 32)) = MemRes.out_of_bounds 2 2 ∧
    words_read [htonl c.CASTLE_OBJ_REPLY_GET, htonl c.CASTLE_OBJ_VALUE] 12 =
      MemRes.out_of_bounds 2 2 := by
  refine ⟨?_, ?_, ?_, ?_, ?_⟩ <;> simp [castle_rxrpc_get_complete, word_store, words_read]

theorem key_get_cleanup_ne_ok (key : List (Option Nat)) :
    ∀ (fuel i : Nat) (freed r : List (Option Nat)),
      key_get_cleanup key fuel i freed ≠ MemRes.ok r := by
  intro fuel
  induction fuel with
  | zero => intro i freed r h; simp [key_get_cleanup] at h
  | succ fuel ih =>
    intro i freed r h
    simp only [key_get_cleanup, Int.natCast_nonneg, if_true] at h
    cases hk : key[i]? with
    | none => rw [hk] at h; cases h
    | some p => rw [hk] at h; exact ih _ _ _ h

theorem key_get_cleanup_wraps (key : List (Option Nat)) (hlen : key.length < 2 ^ 32) :
    ∀ (i fuel : Nat) (freed : List (Option Nat)), i < key.length → i + 1 < fuel →
      key_get_cleanup key fuel i freed = MemRes.out_of_bounds key.length (2 ^ 32 - 1) := by
  intro i
  induction i with
  | zero =>
    intro fuel freed hi hf
    obtain ⟨f2, rfl⟩ : ∃ f2, fuel = f2 + 2 := ⟨fuel - 2, by omega⟩
    obtain ⟨p, hp⟩ : ∃ p, key[0]? = some p := by
      cases h : key[0]? with
      | none => rw [List.getElem?_eq_none_iff] at h; omega
      | some p => exact ⟨p, rfl⟩
    simp only [key_get_cleanup, Int.natCast_nonneg, if_true, hp]
    have : key[(0 + 2 ^ 32 - 1) % 2 ^ 32]? = none := by
      rw [List.getElem?_eq_none_iff]; norm_num; omega
    rw [this]; norm_num
  | succ i ih =>
    intro fuel freed hi hf
    obtain ⟨f2, rfl⟩ : ∃ f2, fuel = f2 + 1 := ⟨fuel - 1, by omega⟩
    obtain ⟨p, hp⟩ : ∃ p, key[i + 1]? = some p := by
      cases h : key[i + 1]? with
      | none => rw [List.getElem?_eq_none_iff] at h; omega
      | some p => exact ⟨p, rfl⟩
    simp only [key_get_cleanup, Int.natCast_nonneg, if_true, hp]
    have e : (i + 1 + 2 ^ 32 - 1) % 2 ^ 32 = i := by
      have : i + 1 + 2 ^ 32 - 1 = i + 2 ^ 32 := by omega
      rw [this, Nat.add_mod_right, Nat.mod_eq_of_lt (by omega)]
    rw [e]
    exact ih f2 _ (by omega) (by omega)

theorem key_get_cleanup_from (key : List (Option Nat)) (hlen : key.length < 2 ^ 32)
    (i fuel : Nat) (hi : i < key.length) (hf : i < fuel) :
    key_get_cleanup key fuel ((i + 2 ^ 32 - 1) % 2 ^ 32) [] =
      MemRes.out_of_bounds key.length (2 ^ 32 - 1) := by
  cases i with
  | zero =>
    obtain ⟨f2, rfl⟩ : ∃ f2, fuel = f2 + 1 := ⟨fuel - 1, by omega⟩
    have : key[(0 + 2 ^ 32 - 1) % 2 ^ 32]? = none := by
      rw [List.getElem?_eq_none_iff]; norm_num; omega
    simp only [key_get_cleanup, Int.natCast_nonneg, if_true, this]
    norm_num
  | succ i =>
    have e : (i + 1 + 2 ^ 32 - 1) % 2 ^ 32 = i := by
      have : i + 1 + 2 ^ 32 - 1 = i + 2 ^ 32 := by omega
      rw [this, Nat.add_mod_right, Nat.mod_eq_of_lt (by omega)]
    rw [e]
    exact key_get_cleanup_wraps key hlen i fuel [] (by omega) (by omega)

theorem key_get_loop_fails (fuel collection : Nat) (strs : Nat → Option Nat) (i : Nat)
    (hnone : strs i = none) (hsome : ∀ j, j < i → strs j ≠ none) :
    ∀ (d j todo : Nat) (key : List (Option Nat)), j + d = i → i < todo + j →
      todo + j < key.length → key.length < 2 ^ 32 →
      (∀ r, key_get_loop fuel collection strs todo j key ≠ MemRes.ok r) ∧
      (i < fuel → key_get_loop fuel collection strs todo j key =
        MemRes.out_of_bounds key.length (2 ^ 32 - 1)) := by
  intro d
  induction d with
  | zero =>
    intro j todo key hj ht hk hlen
    obtain ⟨t, rfl⟩ : ∃ t, todo = t + 1 := ⟨todo - 1, by omega⟩
    have hji : j = i := by omega
    subst hji
    have hlt : j < key.length := by omega
    simp only [key_get_loop, hlt, if_true, hnone]
    refine ⟨fun r h => ?_, fun hf => ?_⟩
    · split at h
      · rename_i freed hc; exact key_get_cleanup_ne_ok _ _ _ _ _ hc
      · cases h
      · cases h
      · cases h
    · rw [key_get_cleanup_from _ (by simpa using hlen) j fuel (by simpa using hlt) hf]
      simp
  | succ d ih =>
    intro j todo key hj ht hk hlen
    obtain ⟨t, rfl⟩ : ∃ t, todo = t + 1 := ⟨todo - 1, by omega⟩
    have hlt : j < key.length := by omega
    obtain ⟨p, hp⟩ : ∃ p, strs j = some p := by
      cases h : strs j with
      | none => exact absurd h (hsome j (by omega))
      | some p => exact ⟨p, rfl⟩
    simp only [key_get_loop, hlt, if_true, hp]
    have := ih (j + 1) t (key.set j (some p)) (by omega) (by omega) (by simpa using by omega)
      (by simpa using hlen)
    simpa using this

/-- C40 fails on the code: when reading key dimension `i` fails, the call never
returns `-ENOMEM`.  The counter of the cleanup loop is a `uint32_t`, the test
`i >= 0` holds for every value of it, and after the dimensions read so far the
counter wraps to `0xFFFFFFFF`, where `key[i]` lies outside the array of
`nr_key_dim + 1` pointers. -/
theorem key_get_cleanup_runs_outside_key (fuel collection nr_key_dim : Nat)
    (strs : Nat → Option Nat) (i : Nat) (hn : nr_key_dim + 1 < 2 ^ 32) (hi : i < nr_key_dim)
    (hnone : strs i = none) (hsome : ∀ j, j < i → strs j ≠ none) :
    (∀ r, castle_rxrpc_collection_key_get fuel collection nr_key_dim true strs ≠ MemRes.ok r) ∧
    (i < fuel → castle_rxrpc_collection_key_get fuel collection nr_key_dim true strs =
      MemRes.out_of_bounds (nr_key_dim + 1) (2 ^ 32 - 1)) := by
  have hm : (nr_key_dim + 1) % 2 ^ 32 = nr_key_dim + 1 := Nat.mod_eq_of_lt hn
  have := key_get_loop_fails fuel collection strs i hnone hsome i 0 nr_key_dim
    (List.replicate ((nr_key_dim + 1) % 2 ^ 32) none) (by omega) (by omega)
    (by rw [hm]; simp) (by rw [hm]; simpa using hn)
  simp only [castle_rxrpc_collection_key_get, Bool.not_true, Bool.false_eq_true, if_false]
  simp only [List.length_replicate] at this
  rw [hm] at this ⊢
  exact this

/-- A request with three key dimensions of which the second cannot be read: the
first is passed to `kfree`, then the loop reads `key[0xFFFFFFFF]`. -/
theorem key_get_cleanup_runs_outside_key_witness :
    castle_rxrpc_collection_key_get 2 7 3 true (fun j => if j = 1 then none else some (100 + j)) =
      MemRes.out_of_bounds 4 (2 ^ 32 - 1) ∧
    key_get_cleanup [some 100, none, none, none] 1 0 [] = MemRes.timeout ∧
    key_get_cleanup [some 100, none, none, none] 2 0 [] = MemRes.out_of_bounds 4 (2 ^ 32 - 1) :=
  ⟨(key_get_cleanup_runs_outside_key 2 7 3 _ 1 (by norm_num) (by norm_num) (by simp)
      (fun j hj => by have : j = 0 := by omega
                      subst this; simp)).2 (by norm_num),
   by decide, by decide⟩

/-! ## Following `castle_da_ct_next` through a doubling array -/

theorem da_wf_linked {st : da_state} {da : Nat} {d : castle_double_array}
    (h : da_wf st da d) : da_linked st da d :=
  ⟨h.record, h.hash, h.levels, h.linked, h.once, h.order⟩

theorem linked_record {st : da_state} {da : Nat} {d : castle_double_array} (hwf : da_linked st da d)
    {p : Nat} (hp : p ∈ da_walk d) :
    ∃ c i l, st.cts[p]? = some c ∧ c.da = d.id ∧ c.level = i ∧ d.trees[i]? = some l ∧ p ∈ l := by
  obtain ⟨l, hl, hpl⟩ := List.mem_flatten.1 hp
  obtain ⟨i, hi⟩ := List.mem_iff_getElem?.1 hl
  have hlk := hwf.linked (i, l) (List.mk_mem_enum_iff_getElem?.2 hi) p hpl
  cases hc : st.cts[p]? with
  | none => rw [hc] at hlk; cases hlk
  | some c =>
    rw [hc] at hlk
    simp only [Option.map_some', Option.some.injEq, Prod.mk.injEq] at hlk
    exact ⟨c, i, l, rfl, hlk.1, hlk.2, hi, hpl⟩

theorem ct_next_on_linked {st : da_state} {da : Nat} {d : castle_double_array}
    (hwf : da_linked st da d) (A B : List Nat) (p : Nat) (hw : da_walk d = A ++ p :: B) :
    castle_da_ct_next st p = Res.ok B.head? := by
  have hp : p ∈ da_walk d := by rw [hw]; simp
  obtain ⟨c, i, l, hc, hda, hlev, hi, hpl⟩ := linked_record hwf hp
  obtain ⟨hilt, hil⟩ := List.getElem?_eq_some.1 hi
  have hmax : i < MAX_DA_LEVEL := by rw [← hwf.levels]; exact hilt
  -- the lists around the list of `p`
  have htrees : d.trees = d.trees.take i ++ l :: d.trees.drop (i + 1) := by
    conv_lhs => rw [← List.take_append_drop i d.trees]
    rw [List.drop_eq_getElem_cons hilt, hil]
  have hnd := hwf.once
  have hflat : da_walk d =
      (d.trees.take i).flatten ++ (l ++ (d.trees.drop (i + 1)).flatten) := by
    rw [da_walk]
    conv_lhs => rw [htrees]
    rw [List.flatten_append, List.flatten_cons]
  obtain ⟨l1, l2, hl⟩ := List.append_of_mem hpl
  have hsplit : da_walk d =
      ((d.trees.take i).flatten ++ l1) ++ p :: (l2 ++ (d.trees.drop (i + 1)).flatten) := by
    rw [hflat, hl]
    simp
  have hl1 : p ∉ l1 := by
    intro hc1
    rw [hsplit] at hnd
    have h1 := (List.nodup_append.1 hnd).2.2
    exact h1 (List.mem_append_right _ hc1) (List.mem_cons_self _ _)
  have hAB : A = (d.trees.take i).flatten ++ l1 ∧
      B = l2 ++ (d.trees.drop (i + 1)).flatten := by
    have hn2 := hnd
    rw [hw] at hn2
    exact nodup_split_unique A _ B _ hn2 (by rw [← hw, hsplit])
  have hbehind : entries_behind p l = some l2 := by
    rw [hl]
    exact entries_behind_split p l1 l2 hl1
  have hhash : castle_da_hash_get st c.da = some da := by rw [hda]; exact hwf.hash
  have htake : d.trees.take MAX_DA_LEVEL = d.trees :=
    List.take_of_length_le (by rw [hwf.levels])
  -- the check of `seq` on the tree found
  have hcheck : ∀ q B1, B = q :: B1 →
      ∃ n, st.cts[q]? = some n ∧ ¬ n.seq > c.seq := by
    intro q B1 hB
    have hq : q ∈ da_walk d := by rw [hw, hB]; simp
    obtain ⟨n, -, -, hn, -⟩ := linked_record hwf hq
    refine ⟨n, hn, ?_⟩
    have hch : [p, q].Chain' (fun p q => seq_of st q ≤ seq_of st p) := by
      refine chain_part hwf.order A B1 ?_
      rw [hw, hB]
      simp
    have := List.chain'_pair.1 hch
    simp only [seq_of, hn, hc, Option.map_some', Option.getD_some] at this
    omega
  rw [castle_da_ct_next]
  simp only [hc, hhash, hwf.record, hlev, hi, hbehind, htake]
  rw [if_neg (by omega)]
  cases l2 with
  | nil =>
    simp only [List.nil_append] at hAB
    rw [← hAB.2]
    cases hB : B with
    | nil => simp
    | cons q B1 =>
      obtain ⟨n, hn, hle⟩ := hcheck q B1 hB
      simp only [List.head?_cons, hn]
      rw [if_neg hle]
  | cons q l3 =>
    obtain ⟨n, hn, hle⟩ := hcheck q (l3 ++ (d.trees.drop (i + 1)).flatten) (by rw [hAB.2]; rfl)
    simp only [hn]
    rw [if_neg hle, hAB.2]
    rfl

theorem ct_next_iterate_linked {st : da_state} {da : Nat} {d : castle_double_array}
    (hwf : da_linked st da d) :
    ∀ (B A : List Nat) (p fuel : Nat), da_walk d = A ++ p :: B → B.length < fuel →
      ct_next_iterate st fuel p = Res.ok (p :: B) := by
  intro B
  induction B with
  | nil =>
    intro A p fuel hw hf
    obtain ⟨f, rfl⟩ : ∃ f, fuel = f + 1 := ⟨fuel - 1, by omega⟩
    rw [ct_next_iterate, ct_next_on_linked hwf A [] p hw]
    rfl
  | cons q B ih =>
    intro A p fuel hw hf
    obtain ⟨f, rfl⟩ : ∃ f, fuel = f + 1 := ⟨fuel - 1, by omega⟩
    rw [ct_next_iterate, ct_next_on_linked hwf A (q :: B) p hw]
    simp only [List.head?_cons]
    rw [ih (A ++ [p]) q f (by rw [hw]; simp) (by simpa using hf)]

theorem ct_next_iterate_short {st : da_state} {da : Nat} {d : castle_double_array}
    (hwf : da_linked st da d) :
    ∀ (B A : List Nat) (p fuel : Nat), da_walk d = A ++ p :: B → fuel ≤ B.length →
      ct_next_iterate st fuel p = Res.timeout := by
  intro B
  induction B with
  | nil =>
    intro A p fuel hw hf
    obtain rfl : fuel = 0 := by simpa using hf
    rfl
  | cons q B ih =>
    intro A p fuel hw hf
    cases fuel with
    | zero => rfl
    | succ f =>
      rw [ct_next_iterate, ct_next_on_linked hwf A (q :: B) p hw]
      simp only [List.head?_cons]
      rw [ih (A ++ [p]) q f (by rw [hw]; simp) (by simpa using hf)]

/-- C33: in a doubling array whose trees are linked level by level with `seq` not
increasing along the lists, `castle_da_ct_next` returns for the tree at position
`i` of the walk (the lists of the levels one after the other, each from its head
on, empty levels contributing nothing) the tree at position `i + 1`, and `NULL`
for the last tree; its assertion on `seq` does not fire.  Calling it again and
again from the first tree of level 0 returns after visiting exactly the trees of
the walk in this order, each of them once. -/
theorem ct_next_visits_every_tree (st : da_state) (da : Nat) (d : castle_double_array)
    (hwf : da_linked st da d) :
    (∀ i p, (da_walk d)[i]? = some p →
      castle_da_ct_next st p = Res.ok ((da_walk d)[i + 1]?)) ∧
    (∀ p rest, d.trees[0]? = some (p :: rest) →
      (da_walk d).head? = some p ∧
      (∀ fuel, (da_walk d).length ≤ fuel → ct_next_iterate st fuel p = Res.ok (da_walk d)) ∧
      (∀ fuel, fuel < (da_walk d).length → ct_next_iterate st fuel p = Res.timeout)) ∧
    (da_walk d).Nodup ∧ da_walk d = d.trees.flatten := by
  refine ⟨fun i p hi => ?_, fun p rest h0 => ?_, hwf.once, rfl⟩
  · obtain ⟨A, B, hAB, hlen⟩ := getElem?_split _ _ _ hi
    rw [ct_next_on_linked hwf A B p hAB, hAB, ← hlen,
      List.getElem?_append_right (by omega)]
    have : A.length + 1 - A.length = 1 := by omega
    rw [this]
    cases B <;> simp
  · have hw : da_walk d = p :: (rest ++ (d.trees.drop 1).flatten) := by
      rw [da_walk]
      have hlt : 0 < d.trees.length := (List.getElem?_eq_some.1 h0).1
      conv_lhs => rw [← List.take_append_drop 1 d.trees]
      have : d.trees.take 1 = [p :: rest] := by
        cases ht : d.trees with
        | nil => rw [ht] at hlt; simp at hlt
        | cons a t => rw [ht] at h0; simp at h0; simp [h0]
      rw [this]
      simp
    refine ⟨by rw [hw]; rfl, fun fuel hf => ?_, fun fuel hf => ?_⟩
    · rw [ct_next_iterate_linked hwf _ [] p fuel (by rw [hw]; rfl)
        (by rw [hw] at hf; simpa using hf), hw]
    · exact ct_next_iterate_short hwf _ [] p fuel (by rw [hw]; rfl)
        (by rw [hw] at hf; simpa [Nat.lt_succ_iff] using hf)

/-- The doubling array of example E4, with the tree at pointer 3 at level 0 and
the trees at the pointers 2 and 1 at level 1: `castle_da_ct_next` returns 2 for
3, 1 for 2 and `NULL` for 1. -/
theorem ct_next_visits_every_tree_witness :
    da_linked da_three 0 da_three_levels ∧
    castle_da_ct_next da_three 3 = Res.ok (some 2) ∧
    castle_da_ct_next da_three 2 = Res.ok (some 1) ∧
    castle_da_ct_next da_three 1 = Res.ok none ∧
    ct_next_iterate da_three 3 3 = Res.ok [3, 2, 1] ∧
    ct_next_iterate da_three 2 3 = Res.timeout :=
  ⟨da_wf_linked da_three_wf,
   (ct_next_visits_every_tree da_three 0 da_three_levels (da_wf_linked da_three_wf)).1 0 3 rfl,
   by decide, by decide, by decide, by decide⟩

/-! ## The early return of `castle_da_bvec_complete` -/

/-- C38: when the lookup in a component tree completes with an error, or the
request is a WRITE, or the lookup returned a valid block, `castle_da_bvec_complete`
calls the callback with exactly that error and block; this holds whatever the
state, the lookups and the budget of further lookups are (also with none), so
no further tree is consulted.  For a READ with `err == 0` and an invalid block
the call goes on to `castle_da_ct_next`: the callback gets `INVAL_DISK_BLK` when
there is no next tree, and otherwise the lookup in the next tree decides. -/
theorem bvec_complete_calls_back_at_once (castle_btree_find : Nat → Int × c_disk_blk_t)
    (st : da_state) (read : Bool) (fuel tree : Nat) (err : Int) (cdb : c_disk_blk_t) :
    ((err ≠ 0 ∨ read = false ∨ DISK_BLK_INVAL cdb = false) →
      castle_da_bvec_complete castle_btree_find st read fuel tree err cdb = Res.ok (err, cdb)) ∧
    (err = 0 → read = true → DISK_BLK_INVAL cdb = true →
      (castle_da_ct_next st tree = Res.ok none →
        castle_da_bvec_complete castle_btree_find st read fuel tree err cdb =
          Res.ok (0, INVAL_DISK_BLK)) ∧
      (∀ ct, castle_da_ct_next st tree = Res.ok (some ct) →
        castle_da_bvec_complete castle_btree_find st read (fuel + 1) tree err cdb =
          castle_da_bvec_complete castle_btree_find st read fuel ct (castle_btree_find ct).1
            (castle_btree_find ct).2) ∧
      (castle_da_ct_next st tree = Res.bug →
        castle_da_bvec_complete castle_btree_find st read fuel tree err cdb = Res.bug)) := by
  refine ⟨fun h => ?_, fun he hr hc => ⟨fun hn => ?_, fun ct hn => ?_, fun hn => ?_⟩⟩
  · unfold castle_da_bvec_complete
    rcases h with h | h | h
    · have : (err == 0) = false := by simpa using h
      simp [this]
    · simp [h]
    · simp [h]
  · unfold castle_da_bvec_complete
    simp [he, hr, hc, hn]
  · conv_lhs => unfold castle_da_bvec_complete
    simp [he, hr, hc, hn]
  · unfold castle_da_bvec_complete
    simp [he, hr, hc, hn]

/-- The doubling array with the tree at pointer 2 at level 0 and the tree at
pointer 1 at level 1: a lookup in the first tree that fails with -5, a WRITE, and
a READ that finds block `(1, 7)` are called back at once, without budget for a
further lookup; a READ that finds nothing goes on to the tree at pointer 1. -/
theorem bvec_complete_calls_back_at_once_witness :
    castle_da_bvec_complete failing_find da_made2 true 0 2 (-5) INVAL_DISK_BLK =
      Res.ok (-5, INVAL_DISK_BLK) ∧
    castle_da_bvec_complete failing_find da_made2 false 0 2 0 INVAL_DISK_BLK =
      Res.ok (0, INVAL_DISK_BLK) ∧
    castle_da_bvec_complete failing_find da_made2 true 0 2 0 (1, 7) = Res.ok (0, (1, 7)) ∧
    castle_da_bvec_complete failing_find da_made2 true 0 2 0 INVAL_DISK_BLK = Res.timeout ∧
    castle_da_bvec_complete failing_find da_made2 true 1 2 0 INVAL_DISK_BLK =
      Res.ok (0, (1, 7)) :=
  ⟨(bvec_complete_calls_back_at_once failing_find da_made2 true 0 2 (-5) INVAL_DISK_BLK).1
      (Or.inl (by decide)),
   (bvec_complete_calls_back_at_once failing_find da_made2 false 0 2 0 INVAL_DISK_BLK).1
      (Or.inr (Or.inl rfl)),
   (bvec_complete_calls_back_at_once failing_find da_made2 true 0 2 0 (1, 7)).1
      (Or.inr (Or.inr (by decide))),
   by decide, by decide⟩

/-! ## The indices of `castle_ct_modlist_iter_heapify` on a single item -/

/-- C35 fails on the code for `nr_items == 1`: `start = (nr_items - 2)/2` is
computed in `uint32_t` and is `0x7FFFFFFF`, the first call of
`castle_ct_modlist_iter_sift_down` passes it to
`castle_ct_modlist_iter_item_get`, which reads `sort_idx` there, outside the
index of one element; heapify does not get past that read. -/
theorem heapify_single_item_index (btree : castle_btree_type) (vc : Nat → Nat → Int)
    (fuel : Nat) (iter : c_modlist_iter_t) (h1 : iter.nr_items = 1)
    (h2 : iter.sort_idx.length = 1) :
    ((iter.nr_items + 2 ^ 32 - 2) % 2 ^ 32) / 2 = 2147483647 ∧
    ¬ (2147483647 < iter.nr_items) ∧
    iter.sort_idx[2147483647]? = none ∧
    castle_ct_modlist_iter_item_get iter 2147483647 = Res.bug ∧
    castle_ct_modlist_iter_sift_down btree vc fuel iter 2147483647
      ((iter.nr_items + 2 ^ 32 - 1) % 2 ^ 32) = Res.bug ∧
    castle_ct_modlist_iter_heapify btree vc fuel iter = Res.bug := by
  have hnone : iter.sort_idx[2147483647]? = none := List.getElem?_eq_none_iff.2 (by omega)
  have hget : castle_ct_modlist_iter_item_get iter 2147483647 = Res.bug := by
    rw [item_get_eq, hnone]
  refine ⟨by rw [h1]; norm_num, by omega, hnone, hget, ?_,
    heapify_single_item btree vc fuel iter h1 h2⟩
  rw [castle_ct_modlist_iter_sift_down, hget]

/-- The iterator that `castle_ct_modlist_iter_fill` leaves for a tree with the
single entry `(5, v1)`. -/
theorem heapify_single_item_index_witness :
    castle_ct_modlist_iter_heapify (nat_btree 3) (castle_version_compare chain_versions) 4
      { err := 0, nr_nodes := 2,
        node_buffer := [{ version := 0, is_leaf := true,
                          slots := [{ key := 5, version := 1, is_leaf_ptr := true,
                                      cdb := (0, 2) }] },
                        { version := 0, is_leaf := false, slots := [] }],
        nr_items := 1, next_item := 0, sort_idx := [(0, 0)] } = Res.bug :=
  (heapify_single_item_index (nat_btree 3) (castle_version_compare chain_versions) 4
    { err := 0, nr_nodes := 2,
      node_buffer := [{ version := 0, is_leaf := true,
                        slots := [{ key := 5, version := 1, is_leaf_ptr := true,
                                    cdb := (0, 2) }] },
                      { version := 0, is_leaf := false, slots := [] }],
      nr_items := 1, next_item := 0, sort_idx := [(0, 0)] } rfl rfl).2.2.2.2.2

/-! ## The two loops of `castle_versions_process` end -/

/-- C34: on a valid forest (distinct ids, version 0 added, every parent chain
reaches version 0) the parenting pass returns with the init list empty once its
`while` loop may take one turn more than there are versions and each turn as
many jumps to `process_version` as there are versions; in the state it leaves,
version 0 is the only record without a parent, every record is initialised, and
the numbering loop entered at version 0 returns within twice as many turns as
there are versions (one turn on the way down and at most one on the way up for
each), which it can only do through the `NULL` parent of version 0.  So
`castle_versions_process` returns. -/
theorem process_loops_terminate (adds : List AddCall) (hv : valid_forest adds) :
    ∃ root st1,
      (∀ inner fuel, adds.length ≤ inner → adds.length + 1 ≤ fuel →
        parenting_pass inner fuel (add_all adds) = Res.ok st1) ∧
      st1.init_list = [] ∧
      castle_versions_hash_get st1 0 = some root ∧
      (∀ p, p < adds.length → (st1.mem p).inited = true) ∧
      (∀ p, p < adds.length → ((st1.mem p).parent = none ↔ p = root)) ∧
      (∃ turns mem, turns ≤ 2 * adds.length ∧
        ∀ fuel, turns ≤ fuel →
          numbering_pass fuel st1.mem (some root) 0 true = Res.ok mem) ∧
      (∀ fuel, 2 * adds.length + 2 ≤ fuel →
        ∃ st, castle_versions_process fuel (add_all adds) = Res.ok st) := by
  have hv' := hv
  obtain ⟨hnd, h0, hreach, hsmall⟩ := hv'
  obtain ⟨root, hinit⟩ := PInv_init hv
  have hlen0 : (add_all adds).init_list.length ≤ adds.length :=
    nodup_bounded_length hinit.init_nodup (fun p hp => ((hinit.init_iff p).1 hp).1)
  obtain ⟨st1, f, hr1, h1, hnil⟩ := @parenting_pass_ok adds root hv adds.length (le_refl _)
    _ (adds.length + 1) (add_all adds) _ hinit rfl (by omega)
  have hall : ∀ p, p < adds.length → (st1.mem p).inited = true := by
    intro p hp
    cases hpi : (st1.mem p).inited with
    | true => rfl
    | false =>
      have := (h1.init_iff p).2 ⟨hp, hpi⟩
      rw [hnil] at this
      simp at this
  have hsize : f.size ≤ adds.length :=
    nodup_bounded_length h1.wf.nodup h1.nodes_lt
  have hrl := h1.root_lt
  have hroot' : adds[root]? = some adds[root] := by simp [hrl]
  have hget : castle_versions_hash_get st1 0 = some root :=
    (hash_get_iff h1.frame hnd 0 root).2 ⟨_, hroot', by
      rw [← (h1.frame.recs root _ hroot').1]; exact h1.root_ver⟩
  obtain ⟨c, hc⟩ := h1.shape
  have hrpar : (st1.mem root).parent = none := by
    have := h1.rep
    rw [hc] at this
    exact this.1
  have hsteps := FC.steps_le f
  refine ⟨root, st1, fun inner fuel hi hf => parenting_pass_mono hi _ _ _ hr1 _ hf, hnil, hget,
    hall, fun p hp => ⟨fun hpar => ?_, fun e => by rw [e]; exact hrpar⟩,
    ⟨f.steps, f.assign 0 st1.mem, by omega, fun fuel hf => ?_⟩, fun fuel hf => ?_⟩
  · by_contra hne
    obtain ⟨q, hq, -⟩ := h1.par_ok p ((h1.inited_iff p hp).1 (hall p hp)) hne
    rw [hpar] at hq
    cases hq
  · obtain ⟨k, hk⟩ : ∃ k, fuel = f.steps + k := ⟨fuel - f.steps, by omega⟩
    rw [hk, numbering_pass_forest f root st1.mem none 0 k (by rw [hc]; rfl) h1.rep
      (by omega)]
    rw [numbering_pass]
  · obtain ⟨r, st, f2, hp, -⟩ := process_done hv fuel hf
    exact ⟨st, hp⟩

/-- The tree of scenario E1, its versions added in the order 3, 0, 2, 1: with
budget 10 the call returns. -/
theorem process_loops_terminate_witness :
    valid_forest e1_adds ∧ ∃ st, castle_versions_process 10 (add_all e1_adds) = Res.ok st :=
  ⟨by decide,
   by
    obtain ⟨root, st1, -, -, -, -, -, -, h⟩ := process_loops_terminate e1_adds (by decide)
    exact h 10 (by decide)⟩

/-! ## The numbering is a pre-order numbering -/

namespace FC

/-- The numbering loop numbers the records of a forest consecutively, in the
order in which it enters them. -/
theorem num_nodes (f : FC) : ∀ (id : Nat), f.WF →
    f.nodes.map (fun x => (f.num id x).1) = List.range' (id + 1) f.size := by
  induction f with
  | nil => intro id _; rfl
  | node p c s ihc ihs =>
    intro id hwf
    obtain ⟨hpc, hps, hcs, hwc, hws⟩ := hwf
    have h1 : c.nodes.map (fun x => ((node p c s).num id x).1) =
        c.nodes.map (fun x => (c.num (id + 1) x).1) := by
      apply List.map_congr_left
      intro x hx
      have : x ≠ p := fun e => hpc (e ▸ hx)
      simp [num, this, hx]
    have h2 : s.nodes.map (fun x => ((node p c s).num id x).1) =
        s.nodes.map (fun x => (s.num (id + 1 + c.size) x).1) := by
      apply List.map_congr_left
      intro x hx
      have h3 : x ≠ p := fun e => hps (e ▸ hx)
      have h4 : x ∉ c.nodes := fun hc => hcs x hc hx
      simp [num, h3, h4]
    have h0 : ((node p c s).num id p).1 = id + 1 := by simp [num]
    simp only [nodes, List.map_cons, List.map_append, h1, h2, ihc _ hwc, ihs _ hws, h0]
    rw [FC.size_node, show 1 + c.size + s.size = (s.size + c.size) + 1 by omega,
      List.range'_succ, ← List.range'_append_1]
    rw [show id + 1 + 1 + c.size = id + 1 + c.size + 1 by omega]

end FC

theorem range'_filter_aux (k j i : Nat) :
    ((List.range' 1 (k + 1 + j + i)).filter
      (fun x => decide (k + 1 ≤ x) && decide (x ≤ k + 1 + j))).length = j + 1 := by
  have hsplit : List.range' 1 (k + 1 + j + i) =
      List.range' 1 k ++ (List.range' (k + 1) (j + 1) ++ List.range' (k + 1 + j + 1) i) := by
    have e4 : k + 1 + j + 1 = (k + 1) + (j + 1) := by omega
    have e5 : k + 1 = 1 + k := by omega
    rw [e4, List.range'_append_1]
    conv_rhs => rw [e5, List.range'_append_1]
    congr 1; omega
  rw [hsplit, List.filter_append, List.filter_append]
  have e1 : (List.range' 1 k).filter
      (fun x => decide (k + 1 ≤ x) && decide (x ≤ k + 1 + j)) = [] := by
    rw [List.filter_eq_nil_iff]
    intro x hx
    have := List.mem_range'_1.1 hx
    simp; omega
  have e2 : (List.range' (k + 1) (j + 1)).filter
      (fun x => decide (k + 1 ≤ x) && decide (x ≤ k + 1 + j)) = List.range' (k + 1) (j + 1) := by
    rw [List.filter_eq_self]
    intro x hx
    have := List.mem_range'_1.1 hx
    simp; omega
  have e3 : (List.range' (k + 1 + j + 1) i).filter
      (fun x => decide (k + 1 ≤ x) && decide (x ≤ k + 1 + j)) = [] := by
    rw [List.filter_eq_nil_iff]
    intro x hx
    have := List.mem_range'_1.1 hx
    simp; omega
  rw [e1, e2, e3]
  simp

theorem range'_filter_interval (n o r : Nat) (ho : 1 ≤ o) (hor : o ≤ r) (hr : r ≤ n) :
    ((List.range' 1 n).filter (fun x => decide (o ≤ x) && decide (x ≤ r))).length =
      r - o + 1 := by
  obtain ⟨k, rfl⟩ : ∃ k, o = k + 1 := ⟨o - 1, by omega⟩
  obtain ⟨j, rfl⟩ : ∃ j, r = k + 1 + j := ⟨r - (k + 1), by omega⟩
  obtain ⟨i, rfl⟩ : ∃ i, n = k + 1 + j + i := ⟨n - (k + 1 + j), by omega⟩
  rw [range'_filter_aux]
  omega

theorem filter_ne_length (a : Nat) (p : Nat → Bool) :
    ∀ (l : List Nat), l.Nodup → a ∈ l → p a = true →
      (l.filter p).length = (l.filter (fun x => decide (x ≠ a) && p x)).length + 1 := by
  intro l
  induction l with
  | nil => intro _ ha; cases ha
  | cons b t ih =>
    intro hnd ha hp
    obtain ⟨hb, ht⟩ := List.nodup_cons.1 hnd
    by_cases hab : b = a
    · subst hab
      have hsame : t.filter (fun x => decide (x ≠ b) && p x) = t.filter p := by
        apply List.filter_congr
        intro x hx
        have : x ≠ b := fun e => hb (e ▸ hx)
        simp [this]
      rw [List.filter_cons, if_pos hp, List.filter_cons, if_neg (by simp), hsame]
      rfl
    · have hat : a ∈ t := by
        rcases List.mem_cons.1 ha with h | h
        · exact absurd h.symm hab
        · exact h
      have := ih ht hat hp
      by_cases hpb : p b = true
      · rw [List.filter_cons, if_pos hpb, List.filter_cons, if_pos (by simp [hab, hpb])]
        simp only [List.length_cons, this]
      · rw [List.filter_cons, if_neg hpb, List.filter_cons, if_neg (by simp [hab, hpb])]
        exact this

/-- The records of a processed forest carry the numbers 1 to n as `o_order`, each
of them once. -/
theorem Done.o_orders_perm {adds : List AddCall} {root : Nat} {st : Versions} {f : FC}
    (h : Done adds root st f) :
    ((List.range adds.length).map (fun i => (st.mem i).o_order)).Perm
      (List.range' 1 adds.length) ∧ f.size = adds.length := by
  have hperm : f.nodes.Perm (List.range adds.length) :=
    (List.perm_ext_iff_of_nodup h.wf.nodup (List.nodup_range _)).2
      (fun a => by rw [h.nodes_iff a, List.mem_range])
  have hsize : f.size = adds.length := by
    have := hperm.length_eq
    rwa [List.length_range] at this
  have hmap : f.nodes.map (fun i => (st.mem i).o_order) = List.range' 1 adds.length := by
    rw [← hsize, ← FC.num_nodes f 0 h.wf]
    apply List.map_congr_left
    intro x hx
    exact (h.orders x ((h.nodes_iff x).1 hx)).1
  refine ⟨?_, hsize⟩
  rw [← hmap]
  exact (hperm.map _).symm

theorem Done.ids_orders {adds : List AddCall} {root : Nat} {st : Versions} {f : FC}
    (h : Done adds root st f) (hnd : (ids adds).Nodup) :
    (ids adds).map (fun v => o_order_of st v) =
      (List.range adds.length).map (fun i => some (st.mem i).o_order) := by
  apply List.ext_getElem?
  intro i
  simp only [ids, List.getElem?_map, List.map_map]
  by_cases hi : i < adds.length
  · have hg : adds[i]? = some adds[i] := by simp [hi]
    have hget : castle_versions_hash_get st (adds[i]).1 = some i :=
      (hash_get_iff h.frame hnd _ i).2 ⟨_, hg, rfl⟩
    rw [hg, List.getElem?_range hi]
    simp [o_order_of, hget]
  · rw [List.getElem?_eq_none_iff.2 (by omega),
      List.getElem?_eq_none_iff.2 (by simp; omega)]
    rfl

/-- C36: after `castle_versions_process` on a valid forest of n versions the
`o_order` values of the versions are the numbers 1 to n, each carried by one
version; version 0 has `o_order` 1 and `r_order` n; and for every version `V`
the versions whose parent path passes through `V` (its subtree) are exactly
those with `o_order` in the interval from `o_order(V)` to `r_order(V)`, some
version of the subtree has `o_order` equal to `r_order(V)`, and `r_order(V)` is
`o_order(V)` plus the number of versions other than `V` in the subtree. -/
theorem dfs_numbering_is_preorder (adds : List AddCall) (hv : valid_forest adds)
    (fuel : Nat) (hfuel : 2 * adds.length + 2 ≤ fuel) :
    ∃ st, castle_versions_process fuel (add_all adds) = Res.ok st ∧
      ((ids adds).map (fun v => o_order_of st v)).Perm
        ((List.range' 1 adds.length).map some) ∧
      o_order_of st 0 = some 1 ∧ r_order_of st 0 = some adds.length ∧
      ∀ V ∈ ids adds, ∃ o r, o_order_of st V = some o ∧ r_order_of st V = some r ∧
        r = o + ((ids adds).filter (fun D =>
              decide (D ≠ V) && decide (V ∈ parent_path adds adds.length D))).length ∧
        (∃ D ∈ ids adds, V ∈ parent_path adds adds.length D ∧ o_order_of st D = some r) ∧
        (∀ D ∈ ids adds, ∀ oD, o_order_of st D = some oD →
          (V ∈ parent_path adds adds.length D ↔ o ≤ oD ∧ oD ≤ r)) := by
  obtain ⟨root, st, f, hr, hd⟩ := process_done hv fuel hfuel
  have hnd := hv.1
  obtain ⟨hperm, hsize⟩ := hd.o_orders_perm
  have hids := hd.ids_orders hnd
  have hrl := hd.root_lt
  have hroot' : adds[root]? = some adds[root] := by simp [hrl]
  have hget0 : castle_versions_hash_get st 0 = some root :=
    (hash_get_iff hd.frame hnd 0 root).2 ⟨_, hroot', by
      rw [← (hd.frame.recs root _ hroot').1]; exact hd.root_ver⟩
  obtain ⟨c, hc⟩ := hd.shape
  have hnum : f.num 0 root = (1, adds.length) := by
    rw [← hsize, hc, FC.size_node, FC.size_nil]
    simp [FC.num]
  refine ⟨st, hr, ?_, ?_, ?_, ?_⟩
  · rw [hids, show (fun i => some (st.mem i).o_order) = some ∘ (fun i => (st.mem i).o_order)
      from rfl, ← List.map_map]
    exact hperm.map some
  · simp [o_order_of, hget0, (hd.orders root hrl).1, hnum]
  · simp [r_order_of, hget0, (hd.orders root hrl).2, hnum]
  intro V hV
  obtain ⟨q, hgq, hql, hqv⟩ := hd.lookup hnd hV
  have hb := hd.order_bounds hql
  -- the subtree of `V` is the interval of its numbers
  have hint : ∀ D ∈ ids adds, ∀ oD, o_order_of st D = some oD →
      (V ∈ parent_path adds adds.length D ↔
        (st.mem q).o_order ≤ oD ∧ oD ≤ (st.mem q).r_order) := by
    intro D hD oD hoD
    obtain ⟨d, hgd, hdl, hdv⟩ := hd.lookup hnd hD
    have e : oD = (st.mem d).o_order := by
      simp [o_order_of, hgd] at hoD
      exact hoD.symm
    rw [e, hd.interval hv hql hdl, hqv, hdv]
  have hoo : ∀ D ∈ ids adds, ∃ oD, o_order_of st D = some oD := by
    intro D hD
    obtain ⟨d, hgd, -, -⟩ := hd.lookup hnd hD
    exact ⟨(st.mem d).o_order, by simp [o_order_of, hgd]⟩
  have hself : V ∈ parent_path adds adds.length V :=
    (hint V hV _ (by simp [o_order_of, hgq])).2 ⟨le_refl _, hb.2.1⟩
  -- counting the subtree
  have hA : ((ids adds).filter (fun D => decide (V ∈ parent_path adds adds.length D))).length =
      (st.mem q).r_order - (st.mem q).o_order + 1 := by
    have h1 : (ids adds).filter (fun D => decide (V ∈ parent_path adds adds.length D)) =
        (ids adds).filter ((fun x => decide ((st.mem q).o_order ≤ x) &&
          decide (x ≤ (st.mem q).r_order)) ∘ (fun D => (o_order_of st D).getD 0)) := by
      apply List.filter_congr
      intro D hD
      obtain ⟨oD, hoD⟩ := hoo D hD
      have := hint D hD oD hoD
      simp only [Function.comp, hoD, Option.getD_some]
      by_cases hp : V ∈ parent_path adds adds.length D
      · have h2 := this.1 hp
        simp [hp, h2.1, h2.2]
      · have h2 : ¬ ((st.mem q).o_order ≤ oD ∧ oD ≤ (st.mem q).r_order) := fun h => hp (this.2 h)
        simp only [hp, decide_False]
        by_cases h3 : (st.mem q).o_order ≤ oD
        · have : ¬ oD ≤ (st.mem q).r_order := fun h4 => h2 ⟨h3, h4⟩
          simp [h3, this]
        · simp [h3]
    have h2 : (ids adds).map (fun D => (o_order_of st D).getD 0) =
        (List.range adds.length).map (fun i => (st.mem i).o_order) := by
      have := congrArg (List.map (fun x : Option Nat => x.getD 0)) hids
      simpa [List.map_map, Function.comp] using this
    rw [h1, ← List.length_map _ (fun D => (o_order_of st D).getD 0), ← List.filter_map, h2,
      (hperm.filter _).length_eq]
    exact range'_filter_interval _ _ _ hb.1 hb.2.1 hb.2.2
  have hB : ((ids adds).filter (fun D => decide (V ∈ parent_path adds adds.length D))).length =
      ((ids adds).filter (fun D =>
        decide (D ≠ V) && decide (V ∈ parent_path adds adds.length D))).length + 1 :=
    filter_ne_length V (fun D => decide (V ∈ parent_path adds adds.length D))
      (ids adds) hnd hV (by simpa using hself)
  refine ⟨(st.mem q).o_order, (st.mem q).r_order, by simp [o_order_of, hgq],
    by simp [r_order_of, hgq], by omega, ?_, hint⟩
  -- some version of the subtree carries the number `r_order(V)`
  have hmem : (st.mem q).r_order ∈ (List.range adds.length).map (fun i => (st.mem i).o_order) :=
    hperm.mem_iff.2 (List.mem_range'_1.2 (by omega))
  obtain ⟨d, hd1, hd2⟩ := List.mem_map.1 hmem
  have hdl : d < adds.length := List.mem_range.1 hd1
  have hg : adds[d]? = some adds[d] := by simp [hdl]
  have hgd : castle_versions_hash_get st (adds[d]).1 = some d :=
    (hash_get_iff hd.frame hnd _ d).2 ⟨_, hg, rfl⟩
  have hD : (adds[d]).1 ∈ ids adds := List.mem_map.2 ⟨adds[d], List.getElem_mem _, rfl⟩
  have hoD : o_order_of st (adds[d]).1 = some (st.mem q).r_order := by
    simp [o_order_of, hgd, hd2]
  exact ⟨_, hD, (hint _ hD _ hoD).2 ⟨hb.2.1, le_refl _⟩, hoD⟩

/-- C36 at the tree of scenario E1 (edges 0->1, 0->2, 1->3), added in the order
3, 0, 2, 1: the numbers are o_order 0=1, 2=2, 1=3, 3=4 and r_order 2=2, 3=4,
1=4, 0=4. -/
theorem dfs_numbering_is_preorder_witness :
    valid_forest e1_adds ∧
    (∃ st, castle_versions_process 10 (add_all e1_adds) = Res.ok st ∧
      ((ids e1_adds).map (fun v => o_order_of st v)).Perm ((List.range' 1 4).map some) ∧
      o_order_of st 0 = some 1 ∧ r_order_of st 0 = some 4) ∧
    orders_of (castle_versions_process 10 (add_all e1_adds)) [0, 1, 2, 3] =
      [(some 1, some 4), (some 3, some 4), (some 2, some 2), (some 4, some 4)] :=
  ⟨by decide,
   by
    obtain ⟨st, h1, h2, h3, h4, -⟩ := dfs_numbering_is_preorder e1_adds (by decide) 10
      (by decide)
    exact ⟨st, h1, h2, h3, h4⟩,
   by decide⟩

/-! ## The state of the merged iterator between two calls -/

/-- The scan of `castle_ct_merged_iter_next`, whatever the comparison: it refills
every cache, and it ends without a smallest entry only if every component is
completed; a smallest entry found is the cached entry of a component. -/
theorem next_loop_struct (btree : castle_btree_type) (vc : Nat → Nat → Int)
    {le : kv_entry → kv_entry → Prop} :
    ∀ (cs : List component_iterator) (i : Nat) (sm : Option (Nat × kv_entry)),
      (∀ c ∈ cs, CInv le c) →
      ∃ sm', castle_ct_merged_iter_next_loop btree vc cs i sm = Res.ok (cs.map comp_fill, sm') ∧
        (sm' = none → sm = none ∧ ∀ c ∈ cs, c.completed = true) ∧
        (∀ j e, sm' = some (j, e) →
          (sm = some (j, e) ∨ (i ≤ j ∧ ∃ c, (cs.map comp_fill)[j - i]? = some c ∧
            c.cached = true ∧ c.cached_entry = e))) := by
  intro cs
  induction cs with
  | nil =>
    intro i sm _
    exact ⟨sm, rfl, fun h => ⟨h, by simp⟩, fun j e h => Or.inl h⟩
  | cons c rest ih =>
    intro i sm hall
    have hc := hall c (by simp)
    have hrest : ∀ c' ∈ rest, CInv le c' :=
      fun c' h => hall c' (by simp [h])
    have hs := comp_fill_spec hc
    obtain ⟨sm', hr, hnone, hsome⟩ :=
      ih (i + 1) (pick (entry_compare btree vc) sm i (comp_fill c)) hrest
    refine ⟨sm', ?_, ?_, ?_⟩
    · rw [next_loop_cons btree vc c rest i sm hc, hr]
      rfl
    · intro h
      obtain ⟨h1, h2⟩ := hnone h
      cases hca : (comp_fill c).cached with
      | true =>
        simp only [pick, hca, if_true] at h1
        cases sm with
        | none => simp at h1
        | some p =>
          obtain ⟨j, e⟩ := p
          simp only at h1
          split at h1 <;> cases h1
      | false =>
        simp only [pick, hca, Bool.false_eq_true, if_false] at h1
        refine ⟨h1, ?_⟩
        intro c' hc'
        rcases List.mem_cons.1 hc' with e | e
        · rw [e]
          cases hcc : c.completed with
          | true => rfl
          | false => rw [hs.2.2.1.2 hcc] at hca; cases hca
        · exact h2 c' e
    · intro j e h
      have hshift : ∀ c', i + 1 ≤ j → (rest.map comp_fill)[j - (i + 1)]? = some c' →
          ((c :: rest).map comp_fill)[j - i]? = some c' := by
        intro c' hle h2
        have : j - i = (j - (i + 1)) + 1 := by omega
        rw [this, List.map_cons, List.getElem?_cons_succ]
        exact h2
      rcases hsome j e h with horig | ⟨h1, c', h2, h3, h4⟩
      · cases hca : (comp_fill c).cached with
        | false =>
          simp only [pick, hca, Bool.false_eq_true, if_false] at horig
          exact Or.inl horig
        | true =>
          simp only [pick, hca, if_true] at horig
          cases sm with
          | none =>
            simp only [Option.some.injEq, Prod.mk.injEq] at horig
            obtain ⟨rfl, rfl⟩ := horig
            exact Or.inr ⟨Nat.le_refl _, comp_fill c, by simp, hca, rfl⟩
          | some p =>
            obtain ⟨j1, e1⟩ := p
            simp only at horig
            by_cases hlt : entry_compare btree vc (comp_fill c).cached_entry e1 < 0
            · simp only [hlt, if_true, Option.some.injEq, Prod.mk.injEq] at horig
              obtain ⟨rfl, rfl⟩ := horig
              exact Or.inr ⟨Nat.le_refl _, comp_fill c, by simp, hca, rfl⟩
            · simp only [hlt, if_false] at horig
              exact Or.inl horig
      · exact Or.inr ⟨by omega, c', hshift c' h1 h2, h3, h4⟩

/-- C32: `castle_ct_merged_iter_init` over 1 to 10 component iterators leaves the
merged iterator in the state `iter_ready`, with all input entries pending.  In
that state `non_empty_cnt` is the number of components with `completed == 0`, a
completed component has no cached entry (and nothing left), a component that is
not completed has a cached entry or a component iterator that has a next entry,
and `castle_ct_merged_iter_has_next` is true exactly when `err == 0` and an
input entry has not been emitted yet.  A call of `castle_ct_merged_iter_next`
made while it is true returns (the assertion on `smallest_idx` does not fire),
leaves the iterator in the state `iter_ready` again, and takes exactly the
returned entry from the pending ones.  With `err != 0` has_next is false. -/
theorem merged_iter_state_kept (btree : castle_btree_type) (vc : Nat → Nat → Int)
    (streams : List (List kv_entry)) (hn : 1 ≤ streams.length ∧ streams.length ≤ 10) :
    (∃ iter0, castle_ct_merged_iter_init (streams.length : Int) streams = Res.ok iter0 ∧
      iter_ready iter0 ∧ pending iter0.iterators = streams.flatten) ∧
    (∀ iter : c_merged_iter_t, iter.err ≠ 0 → castle_ct_merged_iter_has_next iter = false) ∧
    (∀ iter : c_merged_iter_t, iter_ready iter →
      iter.non_empty_cnt = ((iter.iterators.filter (fun c => !c.completed)).length : Int) ∧
      (∀ c ∈ iter.iterators,
        (c.completed = true → c.cached = false ∧ c.iterator = []) ∧
        (c.completed = false → c.cached = true ∨ c.iterator ≠ [])) ∧
      (castle_ct_merged_iter_has_next iter = true ↔
        iter.err = 0 ∧ pending iter.iterators ≠ []) ∧
      (castle_ct_merged_iter_has_next iter = true →
        ∃ iter1 e, castle_ct_merged_iter_next btree vc iter = Res.ok (iter1, e) ∧
          iter_ready iter1 ∧ (pending iter.iterators).Perm (e :: pending iter1.iterators))) := by
  refine ⟨?_, fun iter he => ?_, fun iter h => ⟨h.cnt, fun c hc => ⟨(h.comps c hc).done,
    (h.comps c hc).live⟩, ?_, fun hn2 => ?_⟩⟩
  · exact @merged_iter_init_spec (fun _ _ => True) streams hn
      (fun s _ => List.pairwise_of_forall (fun _ _ => trivial))
  · have : (iter.err == 0) = false := by simpa using he
    simp [castle_ct_merged_iter_has_next, this]
  · rw [has_next_iff_pending h]
    exact ⟨fun hp => ⟨h.err, hp⟩, fun hp => hp.2⟩
  · obtain ⟨hcomps, herr, hcnt⟩ := h
    have hpos : 0 < live_count iter.iterators := by
      simp [castle_ct_merged_iter_has_next, herr] at hn2
      omega
    obtain ⟨sm, hloop, hnone, hsome⟩ := next_loop_struct btree vc iter.iterators 0 none hcomps
    obtain ⟨c0, hc0, hc0l⟩ := exists_live _ hpos
    cases sm with
    | none =>
      have := (hnone rfl).2 c0 hc0
      rw [this] at hc0l; cases hc0l
    | some je =>
      obtain ⟨j, e⟩ := je
      rcases hsome j e rfl with horig | ⟨-, f, hget, hca, hce⟩
      · cases horig
      rw [Nat.sub_zero] at hget
      have hfm := fun c (hc : c ∈ iter.iterators.map comp_fill) => filled_mem hcomps hc
      have hfmem : f ∈ iter.iterators.map comp_fill := mem_of_getElem?_some hget
      have hfinv := (hfm f hfmem).1
      have hnext := next_of_loop btree vc iter _ j e f hloop hget
      obtain ⟨l1, l2, hsplit, hlen⟩ := getElem?_split _ _ _ hget
      obtain ⟨-, u2, u3, -, u5, u6⟩ := comp_take_spec f hfinv hca
      have hfill_live := live_count_fill iter.iterators hcomps
      have hfill_pend := pending_fill iter.iterators hcomps
      rw [hsplit] at hfill_live hfill_pend
      refine ⟨_, e, hnext, ⟨?_, herr, ?_⟩, ?_⟩
      · intro c' hc'
        dsimp only at hc'
        rw [hsplit, ← hlen, set_split] at hc'
        rcases List.mem_append.1 hc' with h1 | h1
        · exact (hfm c' (by rw [hsplit]; simp [h1])).1
        · rcases List.mem_cons.1 h1 with h2 | h2
          · rw [h2]; exact CInv_take hfinv hca
          · exact (hfm c' (by rw [hsplit]; simp [h2])).1
      · dsimp only
        rw [hsplit, ← hlen, set_split]
        have e1 : live_count (l1 ++ comp_take f :: l2)
            = live_count l1 + (live_count [comp_take f] + live_count l2) := by
          rw [live_count_append, ← live_count_append [comp_take f] l2]; rfl
        have e2 : live_count (l1 ++ f :: l2)
            = live_count l1 + (live_count [f] + live_count l2) := by
          rw [live_count_append, ← live_count_append [f] l2]; rfl
        rw [e1, u5, hcnt]
        rw [e2, u6] at hfill_live
        rw [← hfill_live]
        cases hi : f.iterator.isEmpty
        · simp
        · simp; omega
      · dsimp only
        rw [hsplit, ← hlen, set_split]
        rw [← hfill_pend, pending_append, pending_cons, pending_append, pending_cons, u2, u3]
        simp only [List.cons_append]
        rw [hce]
        exact List.perm_middle

/-- The two streams of example E3: the initialisation leaves the iterator
`e3_iter`, for which has_next is true. -/
theorem merged_iter_state_kept_witness :
    (1 ≤ e3_streams.length ∧ e3_streams.length ≤ 10) ∧
    (∃ iter0, castle_ct_merged_iter_init (e3_streams.length : Int) e3_streams = Res.ok iter0 ∧
      iter_ready iter0 ∧ pending iter0.iterators = e3_streams.flatten) ∧
    castle_ct_merged_iter_init 2 e3_streams = Res.ok e3_iter ∧
    castle_ct_merged_iter_has_next e3_iter = true :=
  ⟨by decide,
   (merged_iter_state_kept (nat_btree 3) (castle_version_compare chain_versions) e3_streams
      (by decide)).1,
   by decide, by decide⟩

/-! ## The flush of `castle_da_merge_complete` ends -/

theorem WFL_forced (level : castle_da_merge_level) (h : WFL level) (hpos : 0 < level.next_idx) :
    WFL { level with next_idx := -1 } := by
  have hne : level.node_c2b ≠ none := by
    intro hn
    have := (h.none_case hn).1
    omega
  exact ⟨fun hn => absurd hn hne, fun _ => ⟨Or.inl rfl, (h.some_case hne).2⟩⟩

theorem forced_inv (merge : struct_castle_da_merge) (i : Nat) (level : castle_da_merge_level)
    (hinv : MInv merge) (hq : BufEmptyFrom merge 0) (hl : merge.levels[i]? = some level)
    (hpos : 0 < level.next_idx) :
    MInv (forced merge i level) ∧ BufEmptyFrom (forced merge i level) 0 ∧
    (forced merge i level).levels.length = merge.levels.length ∧
    held (forced merge i level) = held merge ∧
    (forced merge i level).levels[i]? = some { level with next_idx := -1 } := by
  have hlt := getElem?_lt_length hl
  refine ⟨?_, ?_, by simp [forced], ?_, by simp [forced, hlt]⟩
  · intro j lv hj
    simp only [forced] at hj
    rw [List.getElem?_set] at hj
    by_cases hji : i = j
    · rw [if_pos hji, if_pos hlt] at hj
      cases hj
      exact WFL_forced level (hinv i level hl) hpos
    · rw [if_neg hji] at hj
      exact hinv j lv hj
  · intro j lv _ hj
    simp only [forced] at hj
    rw [List.getElem?_set] at hj
    by_cases hji : i = j
    · rw [if_pos hji, if_pos hlt] at hj
      cases hj
      exact hq i level (Nat.zero_le _) hl
    · rw [if_neg hji] at hj
      exact hq j lv (Nat.zero_le _) hj
  · unfold held
    apply sum_map_congr_getElem?
    intro j
    simp only [forced]
    rw [List.getElem?_set]
    by_cases hji : i = j
    · subst hji
      rw [if_pos rfl, if_pos hlt, hl]
      rfl
    · rw [if_neg hji]

/-- Every state of a merge has well-formed levels and empty buffers. -/
theorem reached_inv {btree : castle_btree_type} {st : Versions} {d : Nat}
    {merge : struct_castle_da_merge} (h : Reached btree st d merge) :
    MInv merge ∧ BufEmptyFrom merge 0 := by
  induction h with
  | init => exact ⟨(merge_init_inv d).1, (merge_init_inv d).2.1⟩
  | add merge merge1 depth key version cdb _ ha ih =>
    obtain ⟨a1, a2, -⟩ := entry_add_keeps btree st merge merge1 depth key version cdb ih.1 ih.2 ha
    exact ⟨a1, a2⟩
  | complete merge merge1 depth end_ _ hc ih =>
    obtain ⟨c1, c2, -⟩ := nodes_complete_spec btree st merge merge1 depth end_ ih.1 ih.2 hc
    exact ⟨c1, c2⟩
  | force merge i level _ hl hpos ih =>
    obtain ⟨f1, f2, -⟩ := forced_inv merge i level ih.1 ih.2 hl hpos
    exact ⟨f1, f2⟩

theorem merge_feed_reached {btree : castle_btree_type} {st : Versions} {d : Nat} :
    ∀ (entries : List kv_entry) (merge merge1 : struct_castle_da_merge),
      Reached btree st d merge → merge_feed btree st entries merge = Res.ok merge1 →
      Reached btree st d merge1 := by
  intro entries
  induction entries with
  | nil =>
    intro merge merge1 hr h
    rw [merge_feed] at h
    cases h
    exact hr
  | cons e rest ih =>
    intro merge merge1 hr h
    rw [merge_feed] at h
    cases ha : castle_da_entry_add btree st merge 0 e.k e.v e.cdb with
    | bug => rw [ha] at h; cases h
    | timeout => rw [ha] at h; cases h
    | ok m1 =>
      rw [ha] at h
      dsimp only at h
      cases hc : castle_da_nodes_complete btree st m1 0 false with
      | bug => rw [hc] at h; cases h
      | timeout => rw [hc] at h; cases h
      | ok m2 =>
        rw [hc] at h
        dsimp only at h
        exact ih m2 merge1 (Reached.complete m1 m2 0 false (Reached.add merge m1 0 _ _ _ hr ha) hc) h

/-- C37 (as stated, refuted): the cascade can reach depth `MAX_BTREE_DEPTH`
inside `castle_da_merge_complete`.  With nodes of two slots and two levels the
keys 1, 2, 3 are fed without an assertion; the flush then completes the leaf
`[3]`, its pivot is the second slot of the node at depth 1, which is full and is
completed in turn, and its pivot is added at depth 2, where
`BUG_ON(depth >= MAX_BTREE_DEPTH)` stops the call.  With nodes of three slots
and the three unrelated versions of one key the flush ends in an assertion for
every number of levels from 2 to 12. -/
theorem merge_complete_reaches_max_depth_counterexample :
    merge_feed (nat_btree 2) chain_versions three_keys (castle_da_merge_init 2) =
      Res.ok three_fed ∧
    Reached (nat_btree 2) chain_versions 2 three_fed ∧
    castle_da_merge_complete (nat_btree 2) chain_versions 3 three_fed = Res.bug ∧
    castle_da_node_complete (nat_btree 2) chain_versions
      (forced three_fed 0 (level_at (1, 3) [merge_slot 3 1 (9, 3)] 3 1 0 1)) 0 =
      Res.ok three_top ∧
    castle_da_node_complete (nat_btree 2) chain_versions three_top 1 = Res.bug ∧
    (∀ key version cdb,
      castle_da_entry_add (nat_btree 2) chain_versions three_top 2 key version cdb = Res.bug) ∧
    (∀ d, 2 ≤ d → d < 13 →
      merge_feed (nat_btree 3) star_versions star_merged (castle_da_merge_init d) =
        Res.ok (star_fed d) ∧
      castle_da_merge_complete (nat_btree 3) star_versions 3 (star_fed d) = Res.bug) := by
  have hfeed : merge_feed (nat_btree 2) chain_versions three_keys (castle_da_merge_init 2) =
      Res.ok three_fed := by decide
  exact ⟨hfeed, merge_feed_reached _ _ _ Reached.init hfeed, by decide, by decide, by decide,
    fun _ _ _ => rfl, by decide⟩

/-- C37 (amended): in every state of a merge `castle_da_merge_complete` ends, by
returning or in an assertion: with a budget of as many turns per `while` loop as
the levels hold slots it does not run out of budget.  For a level with
`next_idx > 0` the cut `valid_end_idx` is not negative, the `while` loop at its
depth ends within `next_idx` turns, and a returning call of
`castle_da_nodes_complete` on the forced level leaves a state of the merge in
which `next_idx` of the level is smaller than before (negative when the node was
declared the root, otherwise the number of slots behind the cut). -/
theorem merge_complete_terminates (btree : castle_btree_type) (st : Versions)
    (max_btree_depth : Nat) (merge : struct_castle_da_merge)
    (h : Reached btree st max_btree_depth merge) :
    (∀ fuel, held merge ≤ fuel → castle_da_merge_complete btree st fuel merge ≠ Res.timeout) ∧
    (∀ i level, merge.levels[i]? = some level → 0 < level.next_idx →
      0 ≤ level.valid_end_idx ∧
      (∀ fuel : Nat, level.next_idx ≤ (fuel : Int) →
        castle_da_merge_complete_level btree st i fuel merge ≠ Res.timeout) ∧
      castle_da_nodes_complete btree st (forced merge i level) i true ≠ Res.timeout ∧
      ∀ merge1, castle_da_nodes_complete btree st (forced merge i level) i true = Res.ok merge1 →
        Reached btree st max_btree_depth merge1 ∧
        ∃ level1, merge1.levels[i]? = some level1 ∧ level1.next_idx < level.next_idx) := by
  obtain ⟨hinv, hq⟩ := reached_inv h
  refine ⟨fun fuel hf => (merge_complete_loop_spec btree st fuel _ 0 merge hinv hq hf).1,
    fun i level hl hpos => ?_⟩
  have hw := hinv i level hl
  have hne : level.node_c2b ≠ none := by
    intro hn
    have := (hw.none_case hn).1
    omega
  obtain ⟨hidx, hcut, -⟩ := hw.some_case hne
  have hnext : level.next_idx = ((node_slots level).length : Int) := by
    rcases hidx with h1 | h1
    · omega
    · exact h1
  refine ⟨hcut, fun fuel hf => ?_, nodes_complete_ne_timeout btree st _ i true,
    fun merge1 hc => ⟨Reached.complete _ merge1 i true (Reached.force merge i level h hl hpos) hc,
      ?_⟩⟩
  · refine (merge_complete_level_spec btree st i fuel merge hinv hq ?_).1
    intro lv hlv
    rw [hl] at hlv
    cases hlv
    exact hf
  · obtain ⟨f1, f2, -, -, f5⟩ := forced_inv merge i level hinv hq hl hpos
    obtain ⟨-, -, -, -, -, c6⟩ := nodes_complete_spec btree st _ merge1 i true f1 f2 hc
    obtain ⟨level1, h1, h2⟩ := c6 _ f5 (by show (-1 : Int) < 0; omega)
    refine ⟨level1, h1, ?_⟩
    have : node_slots { level with next_idx := -1 } = node_slots level := rfl
    rw [this] at h2
    omega

/-- The keys 1, 2, 3 fed to a merge with nodes of two slots and four levels:
the flush returns; the leaf `[3]` and the node at depth 1 are completed, and the
node at depth 2 is declared the root. -/
theorem merge_complete_terminates_witness :
    Reached (nat_btree 2) chain_versions 4 three_fed_deep ∧ held three_fed_deep ≤ 3 ∧
    castle_da_merge_complete (nat_btree 2) chain_versions 3 three_fed_deep ≠ Res.timeout ∧
    (castle_da_merge_complete (nat_btree 2) chain_versions 3 three_fed_deep).map
      (fun m => m.levels.map (fun l => l.next_idx)) = Res.ok [0, 0, -1, 0] :=
  ⟨merge_feed_reached three_keys _ _ Reached.init (by decide), by decide,
   (merge_complete_terminates (nat_btree 2) chain_versions 4 three_fed_deep
      (merge_feed_reached three_keys _ _ Reached.init (by decide))).1 3 (by decide),
   by decide⟩

/-! ## Re-adding the buffers after a cascade -/

theorem entry_add_level_fits (btree : castle_btree_type) (st : Versions) (cap : Nat)
    (hcap : ∀ node, btree.need_split node 0 = decide (cap ≤ node.used))
    (level : castle_da_merge_level) (nb key version : Nat) (cdb : c_disk_blk_t)
    (l1 : castle_da_merge_level) (nb1 : Nat) (hf : FitsL cap level)
    (h : castle_da_entry_add_level btree st level nb key version cdb = Res.ok (l1, nb1)) :
    FitsL cap l1 ∧ 0 ≤ level.next_idx ∧
    (node_slots l1).length = (node_slots level).length + 1 ∧
    l1.next_idx = (if cap ≤ (node_slots level).length + 1 then -1 else level.next_idx + 1) := by
  cases hn : level.node_c2b with
  | none =>
    obtain ⟨a1, a2, a3, node1, a4, a5, a6, a7, -⟩ :=
      entry_add_level_none btree st level nb key version cdb l1 nb1 hn h
    have hs : (node_slots l1).length = 1 := by simp [node_slots, a5, a4]
    have hs0 : (node_slots level).length = 0 := by simp [node_slots, hn]
    have hu : node1.used = 1 := by simp [castle_btree_node.used, a4]
    rw [hcap, hu] at a7
    have hnext : l1.next_idx = (if cap ≤ (node_slots level).length + 1 then -1
        else level.next_idx + 1) := by
      rw [a7, hs0, a1]
      by_cases hc : cap ≤ 1
      · simp [hc]
      · simp [hc]
    refine ⟨⟨Or.inr (by omega), fun hge => ?_⟩, by omega, by omega, hnext⟩
    rw [hnext, hs0] at hge
    by_cases hc : cap ≤ 0 + 1
    · rw [if_pos hc] at hge; omega
    · left; omega
  | some p =>
    obtain ⟨blk, node⟩ := p
    obtain ⟨a1, node1, a2, a3, a4, a5, -⟩ :=
      entry_add_level_some btree st level nb key version cdb blk node l1 nb1 hn h
    obtain ⟨b1, b2, -, -, b5⟩ := btree_entry_add_ok a2
    have hs0 : (node_slots level).length = node.slots.length := by simp [node_slots, hn]
    have hlen : node1.slots.length = node.slots.length + 1 := by
      rw [b5]
      simp only [List.length_append, List.length_take, List.length_drop, List.length_singleton]
      have : level.next_idx.toNat ≤ node.slots.length := by
        have := b2
        simp only [castle_btree_node.used] at this
        omega
      omega
    have hs : (node_slots l1).length = node.slots.length + 1 := by
      simp [node_slots, a3, hlen]
    have hu : node1.used = node.slots.length + 1 := hlen
    rw [hcap, hu] at a5
    have hnext : l1.next_idx = (if cap ≤ (node_slots level).length + 1 then -1
        else level.next_idx + 1) := by
      rw [a5, hs0]
      by_cases hc : cap ≤ node.slots.length + 1
      · simp [hc]
      · simp [hc]
    have hfit := hf.2 b1
    refine ⟨⟨?_, fun hge => ?_⟩, b1, by omega, hnext⟩
    · rcases hfit with h1 | h1
      · left; omega
      · right; omega
    · rw [hnext, hs0] at hge
      by_cases hc : cap ≤ node.slots.length + 1
      · rw [if_pos hc] at hge; omega
      · left; omega

theorem fits_set {cap : Nat} {merge : struct_castle_da_merge} (hf : Fits cap merge)
    (i : Nat) (l1 : castle_da_merge_level) (h1 : FitsL cap l1) :
    ∀ (j : Nat) (level : castle_da_merge_level), (merge.levels.set i l1)[j]? = some level →
      FitsL cap level := by
  intro j level hj
  rw [List.getElem?_set] at hj
  by_cases hji : i = j
  · rw [if_pos hji] at hj
    split at hj
    · cases hj; exact h1
    · cases hj
  · rw [if_neg hji] at hj
    exact hf j level hj

theorem entry_add_fits (btree : castle_btree_type) (st : Versions) (cap : Nat)
    (hcap : ∀ node, btree.need_split node 0 = decide (cap ≤ node.used))
    (merge merge1 : struct_castle_da_merge) (depth key version : Nat) (cdb : c_disk_blk_t)
    (hf : Fits cap merge)
    (h : castle_da_entry_add btree st merge depth key version cdb = Res.ok merge1) :
    Fits cap merge1 := by
  obtain ⟨level, l1, a1, a2, a3, -⟩ := entry_add_ok btree st merge merge1 depth key version cdb h
  intro j lv hj
  rw [a3] at hj
  exact fits_set hf depth l1
    (entry_add_level_fits btree st cap hcap level _ key version cdb l1 _ (hf depth level a1) a2).1
    j lv hj

theorem FitsL_reset (cap : Nat) (level : castle_da_merge_level) (buffer1 : castle_btree_node) :
    FitsL cap (level_reset level buffer1) := by
  refine ⟨Or.inr ?_, fun _ => Or.inr ?_⟩
  · rw [node_slots_reset]; simp
  · rw [node_slots_reset]; simp

/-- One completed node: the levels still fit, the level is reset, and the
entries spilled into its buffer are fewer than the node held. -/
theorem node_complete_fits (btree : castle_btree_type) (st : Versions) (cap : Nat)
    (hcap : ∀ node, btree.need_split node 0 = decide (cap ≤ node.used))
    (merge merge1 : struct_castle_da_merge) (depth : Nat) (hf : Fits cap merge)
    (h : castle_da_node_complete btree st merge depth = Res.ok merge1) :
    Fits cap merge1 ∧
    ∃ level buffer1, merge.levels[depth]? = some level ∧
      merge1.levels[depth]? = some (level_reset level buffer1) ∧
      (buffer1.slots.length < cap ∨ buffer1.slots.length = 0) := by
  obtain ⟨level, blk, node0, buffer1, s, lup, l1, c1, c2, c3, c4, c5, c6, c7, c8, c9, c10, -⟩ :=
    node_complete_ok btree st merge merge1 depth h
  have hl1 := (entry_add_level_fits btree st cap hcap lup _ _ _ _ l1 _ (hf (depth + 1) lup c8)
    c9).1
  have hlt := getElem?_lt_length c1
  have hlt1 := getElem?_lt_length c8
  refine ⟨?_, level, buffer1, c1, ?_, ?_⟩
  · intro j lv hj
    rw [c10] at hj
    rw [List.getElem?_set] at hj
    by_cases hj1 : depth + 1 = j
    · rw [if_pos hj1] at hj
      split at hj
      · cases hj; exact hl1
      · cases hj
    · rw [if_neg hj1] at hj
      exact fits_set hf depth _ (FitsL_reset cap level buffer1) j lv hj
  · rw [c10, List.getElem?_set_ne (by omega), List.getElem?_set_self hlt]
  · have := (hf depth level c1).1
    have hs : (node_slots level).length = node0.slots.length := by simp [node_slots, c2]
    rw [hs] at this
    rw [c6, List.length_drop]
    omega

/-- The first loop of `castle_da_nodes_complete`: the levels still fit; every
level from `i` up to where the loop stopped is reset and its buffer holds fewer
than `cap` entries; the levels below `i` are untouched. -/
theorem nodes_complete_up_fits (btree : castle_btree_type) (st : Versions) (cap : Nat)
    (hcap : ∀ node, btree.need_split node 0 = decide (cap ≤ node.used)) :
    ∀ (todo : Nat) (merge : struct_castle_da_merge) (i : Nat)
      (merge1 : struct_castle_da_merge) (i1 : Nat),
      Fits cap merge →
      castle_da_nodes_complete_up btree st todo merge i = Res.ok (merge1, i1) →
      Fits cap merge1 ∧ i ≤ i1 ∧
      (∀ j, j < i → merge1.levels[j]? = merge.levels[j]?) ∧
      (∀ j, i ≤ j → j < i1 → ∃ level1, merge1.levels[j]? = some level1 ∧
        level1.node_c2b = none ∧ level1.next_idx = 0 ∧
        (level1.buffer.slots.length < cap ∨ level1.buffer.slots.length = 0)) := by
  intro todo
  induction todo with
  | zero =>
    intro merge i merge1 i1 hf h
    rw [castle_da_nodes_complete_up] at h
    cases h
    exact ⟨hf, le_refl _, fun _ _ => rfl, fun j h1 h2 => by omega⟩
  | succ todo ih =>
    intro merge i merge1 i1 hf h
    rw [castle_da_nodes_complete_up] at h
    cases hl : merge.levels[i]? with
    | none => rw [hl] at h; cases h
    | some level =>
      rw [hl] at h
      dsimp only at h
      by_cases hneg : level.next_idx < 0
      · rw [if_pos hneg] at h
        cases hc : castle_da_node_complete btree st merge i with
        | bug => rw [hc] at h; cases h
        | timeout => rw [hc] at h; cases h
        | ok merge2 =>
          rw [hc] at h
          dsimp only at h
          obtain ⟨f2, lv, buffer1, d1, d2, d3⟩ :=
            node_complete_fits btree st cap hcap merge merge2 i hf hc
          obtain ⟨lvA, blkA, nodeA, bufA, sA, lupA, l1A, -, -, -, -, -, -, -, -, -, c10, -⟩ :=
            node_complete_ok btree st merge merge2 i hc
          obtain ⟨e1, e2, e3, e4⟩ := ih merge2 (i + 1) merge1 i1 f2 h
          refine ⟨e1, by omega, ?_, ?_⟩
          · intro j hj
            rw [e3 j (by omega), c10, List.getElem?_set_ne (by omega),
              List.getElem?_set_ne (by omega)]
          · intro j h1 h2
            by_cases hji : j = i
            · subst hji
              refine ⟨level_reset lv buffer1, ?_, rfl, rfl, d3⟩
              rw [e3 j (by omega)]
              exact d2
            · exact e4 j (by omega) h2
      · rw [if_neg hneg] at h
        cases h
        exact ⟨hf, le_refl _, fun _ _ => rfl, fun j h1 h2 => by omega⟩

theorem nodes_complete_refill_fits (btree : castle_btree_type) (st : Versions) (cap : Nat)
    (hcap : ∀ node, btree.need_split node 0 = decide (cap ≤ node.used)) (i : Nat) :
    ∀ (slots : List btree_slot) (merge merge1 : struct_castle_da_merge),
      Fits cap merge →
      castle_da_nodes_complete_refill btree st i slots merge = Res.ok merge1 →
      Fits cap merge1 := by
  intro slots
  induction slots with
  | nil =>
    intro merge merge1 hf h
    rw [castle_da_nodes_complete_refill] at h
    cases h
    exact hf
  | cons s rest ih =>
    intro merge merge1 hf h
    rw [castle_da_nodes_complete_refill] at h
    by_cases hlp : s.is_leaf_ptr = true
    · rw [if_pos hlp] at h; cases h
    · rw [if_neg hlp] at h
      cases ha : castle_da_entry_add btree st merge i s.key s.version s.cdb with
      | bug => rw [ha] at h; cases h
      | timeout => rw [ha] at h; cases h
      | ok merge2 =>
        rw [ha] at h
        dsimp only at h
        have f2 := entry_add_fits btree st cap hcap merge merge2 i _ _ _ hf ha
        cases hl : merge2.levels[i]? with
        | none => rw [hl] at h; cases h
        | some lv =>
          rw [hl] at h
          dsimp only at h
          by_cases hneg : lv.next_idx < 0
          · rw [if_pos hneg] at h; cases h
          · rw [if_neg hneg] at h
            exact ih merge2 merge1 f2 h

theorem nodes_complete_down_fits (btree : castle_btree_type) (st : Versions) (cap : Nat)
    (hcap : ∀ node, btree.need_split node 0 = decide (cap ≤ node.used)) :
    ∀ (k : Nat) (merge merge1 : struct_castle_da_merge),
      Fits cap merge → castle_da_nodes_complete_down btree st k merge = Res.ok merge1 →
      Fits cap merge1 := by
  intro k
  induction k with
  | zero =>
    intro merge merge1 hf h
    rw [castle_da_nodes_complete_down] at h
    cases h
    exact hf
  | succ k ih =>
    intro merge merge1 hf h
    rw [castle_da_nodes_complete_down] at h
    cases hl : merge.levels[k]? with
    | none => rw [hl] at h; cases h
    | some level =>
      rw [hl] at h
      dsimp only at h
      cases hr : castle_da_nodes_complete_refill btree st k level.buffer.slots merge with
      | bug => rw [hr] at h; cases h
      | timeout => rw [hr] at h; cases h
      | ok merge2 =>
        rw [hr] at h
        dsimp only at h
        have f2 := nodes_complete_refill_fits btree st cap hcap k _ merge merge2 hf hr
        cases hl2 : merge2.levels[k]? with
        | none => rw [hl2] at h; cases h
        | some level1 =>
          rw [hl2] at h
          dsimp only at h
          refine ih _ merge1 ?_ h
          intro j lv hj
          have h1 : FitsL cap { level1 with buffer := castle_da_node_buffer_init level1.buffer } :=
            f2 k level1 hl2
          exact fits_set f2 k _ h1 j lv hj

theorem nodes_complete_fits (btree : castle_btree_type) (st : Versions) (cap : Nat)
    (hcap : ∀ node, btree.need_split node 0 = decide (cap ≤ node.used))
    (merge merge1 : struct_castle_da_merge) (depth : Nat) (end_ : Bool) (hf : Fits cap merge)
    (h : castle_da_nodes_complete btree st merge depth end_ = Res.ok merge1) :
    Fits cap merge1 := by
  rw [castle_da_nodes_complete] at h
  by_cases hdep : depth + 1 > merge.levels.length
  · rw [if_pos hdep] at h; cases h
  · rw [if_neg hdep] at h
    cases hl : merge.levels[depth]? with
    | none => rw [hl] at h; cases h
    | some level =>
      rw [hl] at h
      dsimp only at h
      have hmain : (match castle_da_nodes_complete_up btree st (merge.levels.length - depth)
            merge depth with
            | Res.ok (merge1, i) => castle_da_nodes_complete_down btree st i merge1
            | Res.bug => Res.bug
            | Res.timeout => Res.timeout) = Res.ok merge1 → Fits cap merge1 := by
        intro hd
        cases hu : castle_da_nodes_complete_up btree st (merge.levels.length - depth)
            merge depth with
        | bug => rw [hu] at hd; cases hd
        | timeout => rw [hu] at hd; cases hd
        | ok p =>
          obtain ⟨merge2, i1⟩ := p
          rw [hu] at hd
          dsimp only at hd
          exact nodes_complete_down_fits btree st cap hcap i1 merge2 merge1
            (nodes_complete_up_fits btree st cap hcap _ merge depth merge2 i1 hf hu).1 hd
      by_cases hroot : (end_ && decide (level.next_idx < 0)) = true
      · rw [if_pos hroot] at h
        cases hu : merge.levels[depth + 1]? with
        | none => rw [hu] at h; cases h
        | some up =>
          rw [hu] at h
          dsimp only at h
          by_cases hz : up.next_idx = 0
          · simp only [hz, decide_True] at h
            cases h
            exact hf
          · simp only [hz, decide_False] at h
            exact hmain h
      · rw [if_neg hroot] at h
        dsimp only at h
        exact hmain h

/-- With `need_split` firing at the capacity `cap`, every level of every state of
a merge fits the capacity. -/
theorem reached_fits {btree : castle_btree_type} {st : Versions} {d : Nat} (cap : Nat)
    (hcap : ∀ node, btree.need_split node 0 = decide (cap ≤ node.used))
    {merge : struct_castle_da_merge} (h : Reached btree st d merge) : Fits cap merge := by
  induction h with
  | init =>
    intro j level hj
    have hl : level = init_level := by
      simp only [castle_da_merge_init] at hj
      rw [List.getElem?_replicate] at hj
      split at hj
      · cases hj; rfl
      · cases hj
    subst hl
    exact ⟨Or.inr (by simp [node_slots, init_level]), fun _ => Or.inr (by simp [node_slots, init_level])⟩
  | add merge merge1 depth key version cdb _ ha ih =>
    exact entry_add_fits btree st cap hcap merge merge1 depth key version cdb ih ha
  | complete merge merge1 depth end_ _ hc ih =>
    exact nodes_complete_fits btree st cap hcap merge merge1 depth end_ ih hc
  | force merge i level _ hl hpos ih =>
    intro j lv hj
    simp only [forced] at hj
    have h1 : FitsL cap { level with next_idx := -1 } :=
      ⟨(ih i level hl).1, fun hge => absurd hge (by show ¬ (0 : Int) ≤ -1; omega)⟩
    exact fits_set ih i _ h1 j lv hj

/-- Adding the next entry of a buffer to the node of its level, after the
entries `pre` before it were re-added: the node is not full, `next_idx` is the
number of entries in it. -/
theorem refill_add_not_full (btree : castle_btree_type) (st : Versions) (cap : Nat)
    (hcap : ∀ node, btree.need_split node 0 = decide (cap ≤ node.used)) (j : Nat)
    (mj m m' : struct_castle_da_merge) (level1 : castle_da_merge_level)
    (pre : List btree_slot) (s : btree_slot) (post : List btree_slot)
    (hinv : MInv mj) (hl : mj.levels[j]? = some level1) (hnone : level1.node_c2b = none)
    (hbuf : level1.buffer.slots = pre ++ s :: post)
    (hbound : level1.buffer.slots.length < cap ∨ level1.buffer.slots.length = 0)
    (hr : castle_da_nodes_complete_refill btree st j pre mj = Res.ok m)
    (ha : castle_da_entry_add btree st m j s.key s.version s.cdb = Res.ok m') :
    ∃ level, m'.levels[j]? = some level ∧ level.next_idx = (pre.length : Int) + 1 := by
  obtain ⟨r1, -, levelA, r3, r4, -, r6, r7⟩ :=
    nodes_complete_refill_spec btree st j pre mj m level1 hinv hl hr
  have hlt := getElem?_lt_length hl
  have hA : m.levels[j]? = some levelA := by rw [r3, List.getElem?_set_self hlt]
  obtain ⟨level, l1, a1, a2, a3, -⟩ := entry_add_ok btree st m m' j _ _ _ ha
  rw [hA] at a1
  cases a1
  have hs1 : node_slots level1 = [] := by simp [node_slots, hnone]
  have hsA : (node_slots levelA).length = pre.length := by rw [r4, hs1]; simp
  have hblen : level1.buffer.slots.length = pre.length + 1 + post.length := by
    rw [hbuf]; simp; omega
  have hnextA : levelA.next_idx = (pre.length : Int) := by
    by_cases hp : pre = []
    · rw [r6 hp, ((hinv j level1 hl).none_case hnone).1, hp]; rfl
    · rw [r7 hp, hsA]
  have hfA : FitsL cap levelA := ⟨Or.inl (by omega), fun _ => Or.inl (by omega)⟩
  obtain ⟨-, -, -, hnext⟩ := entry_add_level_fits btree st cap hcap levelA _ _ _ _ l1 _ hfA a2
  refine ⟨l1, by rw [a3, List.getElem?_set_self (by rw [r3, List.length_set]; exact hlt)], ?_⟩
  rw [hnext, if_neg (by omega), hnextA]

theorem refill_keeps_blk (btree : castle_btree_type) (st : Versions) (i : Nat) :
    ∀ (slots : List btree_slot) (merge merge1 : struct_castle_da_merge)
      (level : castle_da_merge_level) (blk : c_disk_blk_t) (node : castle_btree_node),
      merge.levels[i]? = some level → level.node_c2b = some (blk, node) →
      castle_da_nodes_complete_refill btree st i slots merge = Res.ok merge1 →
      merge1.next_blk = merge.next_blk ∧
      ∃ level1 node1, merge1.levels[i]? = some level1 ∧ level1.node_c2b = some (blk, node1) := by
  intro slots
  induction slots with
  | nil =>
    intro merge merge1 level blk node hl hn h
    rw [castle_da_nodes_complete_refill] at h
    cases h
    exact ⟨rfl, level, node, hl, hn⟩
  | cons s rest ih =>
    intro merge merge1 level blk node hl hn h
    rw [castle_da_nodes_complete_refill] at h
    by_cases hlp : s.is_leaf_ptr = true
    · rw [if_pos hlp] at h; cases h
    · rw [if_neg hlp] at h
      cases ha : castle_da_entry_add btree st merge i s.key s.version s.cdb with
      | bug => rw [ha] at h; cases h
      | timeout => rw [ha] at h; cases h
      | ok merge2 =>
        rw [ha] at h
        dsimp only at h
        obtain ⟨lv, l1, a1, a2, a3, -⟩ := entry_add_ok btree st merge merge2 i _ _ _ ha
        rw [hl] at a1
        cases a1
        obtain ⟨b1, node1, -, b3, -⟩ :=
          entry_add_level_some btree st level _ _ _ _ blk node l1 _ hn a2
        have hlt := getElem?_lt_length hl
        have hl2 : merge2.levels[i]? = some l1 := by rw [a3, List.getElem?_set_self hlt]
        rw [hl2] at h
        dsimp only at h
        by_cases hneg : l1.next_idx < 0
        · rw [if_pos hneg] at h; cases h
        · rw [if_neg hneg] at h
          obtain ⟨c1, c2⟩ := ih merge2 merge1 l1 blk node1 hl2 b3 h
          exact ⟨c1.trans b1, c2⟩

/-- Re-adding a buffer to a level without a node takes the next free block for
the node, and no other block. -/
theorem refill_fresh (btree : castle_btree_type) (st : Versions) (i : Nat)
    (slots : List btree_slot) (merge merge1 : struct_castle_da_merge)
    (level : castle_da_merge_level) (hl : merge.levels[i]? = some level)
    (hn : level.node_c2b = none) (hne : slots ≠ [])
    (h : castle_da_nodes_complete_refill btree st i slots merge = Res.ok merge1) :
    merge1.next_blk = merge.next_blk + 1 ∧
    ∃ level1 node1, merge1.levels[i]? = some level1 ∧
      level1.node_c2b = some ((1, merge.next_blk), node1) := by
  cases slots with
  | nil => exact absurd rfl hne
  | cons s rest =>
    rw [castle_da_nodes_complete_refill] at h
    by_cases hlp : s.is_leaf_ptr = true
    · rw [if_pos hlp] at h; cases h
    · rw [if_neg hlp] at h
      cases ha : castle_da_entry_add btree st merge i s.key s.version s.cdb with
      | bug => rw [ha] at h; cases h
      | timeout => rw [ha] at h; cases h
      | ok merge2 =>
        rw [ha] at h
        dsimp only at h
        obtain ⟨lv, l1, a1, a2, a3, -⟩ := entry_add_ok btree st merge merge2 i _ _ _ ha
        rw [hl] at a1
        cases a1
        obtain ⟨-, -, b3, node1, -, b5, -⟩ :=
          entry_add_level_none btree st level _ _ _ _ l1 _ hn a2
        have hlt := getElem?_lt_length hl
        have hl2 : merge2.levels[i]? = some l1 := by rw [a3, List.getElem?_set_self hlt]
        rw [hl2] at h
        dsimp only at h
        by_cases hneg : l1.next_idx < 0
        · rw [if_pos hneg] at h; cases h
        · rw [if_neg hneg] at h
          obtain ⟨c1, c2⟩ := refill_keeps_blk btree st i rest merge2 merge1 l1 _ node1 hl2 b5 h
          exact ⟨c1.trans b3, c2⟩

theorem refill_next_blk_le (btree : castle_btree_type) (st : Versions) (i : Nat)
    (slots : List btree_slot) (merge merge1 : struct_castle_da_merge)
    (level : castle_da_merge_level) (hl : merge.levels[i]? = some level)
    (h : castle_da_nodes_complete_refill btree st i slots merge = Res.ok merge1) :
    merge.next_blk ≤ merge1.next_blk := by
  by_cases hne : slots = []
  · subst hne
    rw [castle_da_nodes_complete_refill] at h
    cases h
    exact le_refl _
  · cases hn : level.node_c2b with
    | none =>
      have := (refill_fresh btree st i slots merge merge1 level hl hn hne h).1
      omega
    | some p =>
      obtain ⟨blk, node⟩ := p
      have := (refill_keeps_blk btree st i slots merge merge1 level blk node hl hn h).1
      omega

/-- The loop at `fill_buffers`: a level that has no node and a buffer with entries
gets a node at a block allocated during the loop. -/
theorem nodes_complete_down_fresh (btree : castle_btree_type) (st : Versions) :
    ∀ (k : Nat) (merge merge1 : struct_castle_da_merge),
      MInv merge → castle_da_nodes_complete_down btree st k merge = Res.ok merge1 →
      merge.next_blk ≤ merge1.next_blk ∧
      ∀ j, j < k → ∀ level, merge.levels[j]? = some level → level.node_c2b = none →
        level.buffer.slots ≠ [] →
        ∃ level1 b node, merge1.levels[j]? = some level1 ∧
          level1.node_c2b = some ((1, b), node) ∧ merge.next_blk ≤ b ∧ b < merge1.next_blk := by
  intro k
  induction k with
  | zero =>
    intro merge merge1 hinv h
    rw [castle_da_nodes_complete_down] at h
    cases h
    exact ⟨le_refl _, fun j hj => absurd hj (Nat.not_lt_zero _)⟩
  | succ k ih =>
    intro merge merge1 hinv h
    rw [castle_da_nodes_complete_down] at h
    cases hl : merge.levels[k]? with
    | none => rw [hl] at h; cases h
    | some level =>
      rw [hl] at h
      dsimp only at h
      cases hr : castle_da_nodes_complete_refill btree st k level.buffer.slots merge with
      | bug => rw [hr] at h; cases h
      | timeout => rw [hr] at h; cases h
      | ok merge2 =>
        rw [hr] at h
        dsimp only at h
        obtain ⟨r1, r2, level1, r3, r4, r5, r6, r7⟩ :=
          nodes_complete_refill_spec btree st k _ merge merge2 level hinv hl hr
        have hlt := getElem?_lt_length hl
        have hl2 : merge2.levels[k]? = some level1 := by
          rw [r3, List.getElem?_set_self hlt]
        rw [hl2] at h
        dsimp only at h
        have hinv3 : MInv { merge2 with
            levels := merge2.levels.set k
              { level1 with buffer := castle_da_node_buffer_init level1.buffer } } := by
          intro j lv hj
          dsimp only at hj
          rw [List.getElem?_set] at hj
          by_cases hjk : k = j
          · rw [if_pos hjk] at hj
            split at hj
            · cases hj
              exact WFL_buffer _ _ (r1 k level1 hl2)
            · cases hj
          · rw [if_neg hjk] at hj
            exact r1 j lv hj
        obtain ⟨i1, i2⟩ := ih _ merge1 hinv3 h
        obtain ⟨-, -, -, d4, -⟩ := nodes_complete_down_spec btree st k _ merge1 hinv3 h
        dsimp only at i1 i2 d4
        have hle := refill_next_blk_le btree st k _ merge merge2 level hl hr
        have hget3 : ∀ j, j ≠ k → (merge2.levels.set k
            { level1 with buffer := castle_da_node_buffer_init level1.buffer })[j]? =
            merge.levels[j]? := by
          intro j hj
          rw [List.getElem?_set_ne (fun hh => hj hh.symm), r3,
            List.getElem?_set_ne (fun hh => hj hh.symm)]
        refine ⟨le_trans hle i1, fun j hj lv hlv hn hb => ?_⟩
        by_cases hjk : j = k
        · subst hjk
          rw [hl] at hlv
          cases hlv
          obtain ⟨f1, lvB, nodeB, f2, f3⟩ :=
            refill_fresh btree st j _ merge merge2 level hl hn hb hr
          rw [hl2] at f2
          cases f2
          refine ⟨{ level1 with buffer := castle_da_node_buffer_init level1.buffer },
            merge.next_blk, nodeB, ?_, f3, le_refl _, by omega⟩
          rw [d4 j (le_refl _), List.getElem?_set_self (by rw [r3, List.length_set]; exact hlt)]
        · obtain ⟨lv1, b, node, g1, g2, g3, g4⟩ :=
            i2 j (by omega) lv (by rw [hget3 j hjk]; exact hlv) hn hb
          exact ⟨lv1, b, node, g1, g2, by omega, g4⟩

/-- A returning `castle_da_node_complete` has copied the slots behind the cut to
the buffer. -/
theorem node_complete_copied (btree : castle_btree_type) (st : Versions)
    (merge merge1 : struct_castle_da_merge) (depth : Nat)
    (h : castle_da_node_complete btree st merge depth = Res.ok merge1) :
    ∃ level blk node0 buffer1, merge.levels[depth]? = some level ∧
      level.node_c2b = some (blk, node0) ∧
      castle_da_node_complete_copy (node0.slots.drop (level.valid_end_idx + 1).toNat)
        level.buffer 0 = Res.ok buffer1 := by
  rw [castle_da_node_complete] at h
  cases hl : merge.levels[depth]? with
  | none => rw [hl] at h; cases h
  | some level =>
    rw [hl] at h
    dsimp only at h
    cases hn : level.node_c2b with
    | none => rw [hn] at h; cases h
    | some p =>
      obtain ⟨blk, node0⟩ := p
      rw [hn] at h
      dsimp only at h
      by_cases hb : level.buffer.used ≠ 0
      · rw [if_pos hb] at h; cases h
      · rw [if_neg hb] at h
        by_cases hr : level.valid_end_idx + 1 ≤ 0 ∨
            level.valid_end_idx + 1 > ((({ node0 with version := level.valid_version } :
              castle_btree_node).used : Nat) : Int)
        · rw [if_pos hr] at h; cases h
        · rw [if_neg hr] at h
          cases hc : castle_da_node_complete_copy
              (({ node0 with version := level.valid_version } : castle_btree_node).slots.drop
                (level.valid_end_idx + 1).toNat) level.buffer 0 with
          | bug => rw [hc] at h; cases h
          | timeout => rw [hc] at h; cases h
          | ok buffer1 => exact ⟨level, blk, node0, buffer1, rfl, hn, hc⟩

/-- The buffer that `castle_da_node_complete` leaves holds no leaf pointer. -/
theorem node_complete_buffer_plain (btree : castle_btree_type) (st : Versions)
    (merge merge1 : struct_castle_da_merge) (depth : Nat)
    (h : castle_da_node_complete btree st merge depth = Res.ok merge1) :
    ∃ level buffer1, merge.levels[depth]? = some level ∧
      merge1.levels[depth]? = some (level_reset level buffer1) ∧
      ∀ s ∈ buffer1.slots, s.is_leaf_ptr = false := by
  obtain ⟨level, blk, node0, buffer1, s, lup, l1, c1, c2, c3, c4, c5, c6, c7, c8, c9, c10, -⟩ :=
    node_complete_ok btree st merge merge1 depth h
  obtain ⟨levelB, blkB, nodeB, bufferB, d1, d2, d3⟩ :=
    node_complete_copied btree st merge merge1 depth h
  rw [c1] at d1
  cases d1
  rw [c2] at d2
  cases d2
  obtain ⟨-, -, -, e4⟩ := node_complete_copy_ok _ _ _ _ d3 (by simp [castle_btree_node.used, c3])
  have htn : (level.valid_end_idx + 1).toNat = level.valid_end_idx.toNat + 1 := by omega
  have hlt := getElem?_lt_length c1
  refine ⟨level, buffer1, c1, ?_, ?_⟩
  · rw [c10, List.getElem?_set_ne (by omega), List.getElem?_set_self hlt]
  · intro x hx
    rw [c6, ← htn] at hx
    exact e4 x hx

/-- The first loop of `castle_da_nodes_complete`: no buffer of a completed level
holds a leaf pointer. -/
theorem nodes_complete_up_plain (btree : castle_btree_type) (st : Versions) :
    ∀ (todo : Nat) (merge : struct_castle_da_merge) (i : Nat)
      (merge1 : struct_castle_da_merge) (i1 : Nat),
      castle_da_nodes_complete_up btree st todo merge i = Res.ok (merge1, i1) →
      (∀ j, j < i → merge1.levels[j]? = merge.levels[j]?) ∧
      (∀ j, i ≤ j → j < i1 → ∃ level1, merge1.levels[j]? = some level1 ∧
        ∀ s ∈ level1.buffer.slots, s.is_leaf_ptr = false) := by
  intro todo
  induction todo with
  | zero =>
    intro merge i merge1 i1 h
    rw [castle_da_nodes_complete_up] at h
    cases h
    exact ⟨fun _ _ => rfl, fun j h1 h2 => by omega⟩
  | succ todo ih =>
    intro merge i merge1 i1 h
    rw [castle_da_nodes_complete_up] at h
    cases hl : merge.levels[i]? with
    | none => rw [hl] at h; cases h
    | some level =>
      rw [hl] at h
      dsimp only at h
      by_cases hneg : level.next_idx < 0
      · rw [if_pos hneg] at h
        cases hc : castle_da_node_complete btree st merge i with
        | bug => rw [hc] at h; cases h
        | timeout => rw [hc] at h; cases h
        | ok merge2 =>
          rw [hc] at h
          dsimp only at h
          obtain ⟨lv, buffer1, d1, d2, d3⟩ := node_complete_buffer_plain btree st merge merge2 i hc
          obtain ⟨lvA, blkA, nodeA, bufA, sA, lupA, l1A, -, -, -, -, -, -, -, -, -, c10, -⟩ :=
            node_complete_ok btree st merge merge2 i hc
          obtain ⟨e3, e4⟩ := ih merge2 (i + 1) merge1 i1 h
          refine ⟨?_, ?_⟩
          · intro j hj
            rw [e3 j (by omega), c10, List.getElem?_set_ne (by omega),
              List.getElem?_set_ne (by omega)]
          · intro j h1 h2
            by_cases hji : j = i
            · subst hji
              refine ⟨level_reset lv buffer1, ?_, d3⟩
              rw [e3 j (by omega)]
              exact d2
            · exact e4 j (by omega) h2
      · rw [if_neg hneg] at h
        cases h
        exact ⟨fun _ _ => rfl, fun j h1 h2 => by omega⟩

/-- Re-adding the entries `rem` of a buffer after the entries `done`: when the
entries of the buffer carry one key, pairwise distinct versions that the
ancestor test accepts, no leaf pointer, and are fewer than `cap`, every
`castle_da_entry_add` returns and the loop goes through. -/
theorem refill_returns (btree : castle_btree_type) (st : Versions) (cap : Nat)
    (hcap : ∀ node, btree.need_split node 0 = decide (cap ≤ node.used)) (j : Nat)
    (all : List btree_slot)
    (hkey : ∀ s ∈ all, ∀ t ∈ all, btree.key_compare s.key t.key = 0)
    (hver : (all.map (fun s => s.version)).Nodup)
    (hanc : ∀ s ∈ all, ∀ t ∈ all,
      ∃ b, castle_version_is_ancestor st s.version t.version = Res.ok b)
    (hplain : ∀ s ∈ all, s.is_leaf_ptr = false) (hlen : all.length < cap) :
    ∀ (rem done : List btree_slot) (merge : struct_castle_da_merge)
      (level : castle_da_merge_level),
      all = done ++ rem → MInv merge → merge.levels[j]? = some level →
      node_slots level = done → (done = [] → level.node_c2b = none) →
      (done ≠ [] → level.next_idx = (done.length : Int) ∧
        ∃ lk, level.last_key = some lk ∧ (∀ s ∈ all, btree.key_compare s.key lk = 0) ∧
          ∃ t ∈ done, level.valid_version = t.version) →
      ∃ merge1, castle_da_nodes_complete_refill btree st j rem merge = Res.ok merge1 := by
  intro rem
  induction rem with
  | nil =>
    intro done merge level _ _ _ _ _ _
    exact ⟨merge, by rw [castle_da_nodes_complete_refill]⟩
  | cons s rest ih =>
    intro done merge level hall hinv hl hslots hnil hcons
    have hs : s ∈ all := by rw [hall]; simp
    have hw := hinv j level hl
    have hlt := getElem?_lt_length hl
    have hlen2 : done.length + 1 + rest.length = all.length := by rw [hall]; simp; omega
    -- the body of `castle_da_entry_add` returns
    have hret : ∃ l1 nb1, castle_da_entry_add_level btree st level merge.next_blk
        s.key s.version s.cdb = Res.ok (l1, nb1) := by
      by_cases hd : done = []
      · have hn := hnil hd
        obtain ⟨n1, n2⟩ := hw.none_case hn
        exact entry_add_level_none_returns btree st level _ _ _ _ hn n1 (by omega)
      · obtain ⟨c1, lk, c2, c3, t, c4, c5⟩ := hcons hd
        have hne : level.node_c2b ≠ none := by
          intro hn
          rw [node_slots_of_none hn] at hslots
          exact hd hslots.symm
        cases hn : level.node_c2b with
        | none => exact absurd hn hne
        | some p =>
          obtain ⟨blk, node⟩ := p
          have hns : node.slots = done := by simpa [node_slots, hn] using hslots
          have hdl : done.length ≠ 0 := fun h0 => hd (List.length_eq_zero.1 h0)
          refine entry_add_level_some_returns btree st level _ _ _ _ blk node lk hn
            (by rw [c1, hns]) (by rw [c1]; omega) c2 (by rw [c3 s hs]) (fun _ => ?_)
          have ht : t ∈ all := by rw [hall]; simp [c4]
          obtain ⟨b, hb⟩ := hanc s hs t ht
          refine ⟨b, by rw [c5]; exact hb, fun _ => ?_⟩
          rw [c5]
          intro heq
          rw [hall, List.map_append, List.map_cons] at hver
          have hdis := (List.nodup_append.1 hver).2.2
          exact hdis (List.mem_map.2 ⟨t, c4, rfl⟩) (by rw [← heq]; simp)
    obtain ⟨l1, nb1, hadd⟩ := hret
    have hadd2 := entry_add_of_level btree st merge j _ _ _ level l1 nb1 hl hadd
    obtain ⟨a1, -, lvA, l1A, a3, a4, a5, a6, a7, a8, a9, a10⟩ :=
      entry_add_spec btree st merge _ j _ _ _ hinv hadd2
    rw [hl] at a3
    cases a3
    have hl1 : l1A = l1 := by
      have h1 := congrArg (fun l => l[j]?) a4
      simp only [List.getElem?_set_self hlt] at h1
      exact (Option.some.inj h1).symm
    subst hl1
    have hnx0 : level.next_idx = (done.length : Int) := by rw [a8, hslots]
    have hfit : FitsL cap level :=
      ⟨Or.inl (by rw [hslots]; omega), fun _ => Or.inl (by rw [hslots]; omega)⟩
    obtain ⟨-, -, -, hnext⟩ := entry_add_level_fits btree st cap hcap level _ _ _ _ l1A _ hfit hadd
    rw [hslots, if_neg (by omega), hnx0] at hnext
    have hsl : node_slots l1A = done ++ [s] := by
      rw [a5, hslots, merge_slot_self s (hplain s hs)]
    rw [castle_da_nodes_complete_refill, if_neg (by rw [hplain s hs]; simp), hadd2]
    dsimp only
    rw [List.getElem?_set_self hlt]
    dsimp only
    rw [if_neg (by omega)]
    refine ih (done ++ [s]) _ l1A (by rw [hall]; simp) a1 (List.getElem?_set_self hlt) hsl
      (fun h0 => absurd h0 (by simp)) (fun _ => ⟨by rw [hnext]; simp, ?_⟩)
    rcases a10 with ⟨f0, -, f2, f3⟩ | ⟨f0, lk, f1, -, f2⟩
    · refine ⟨s.key, f2, fun x hx => hkey x hx s hs, s, by simp, f3⟩
    · have hd : done ≠ [] := by
        intro h0
        rw [hnx0, h0] at f0
        exact f0 rfl
      obtain ⟨c1, lk2, c2, c3, t, c4, c5⟩ := hcons hd
      rw [c2] at f1
      cases f1
      rcases f2 with ⟨g1, -⟩ | ⟨-, -, -, g4, -, g6⟩ | ⟨-, -, g4, -, g6⟩
      · rw [c3 s hs] at g1
        exact absurd g1 (lt_irrefl _)
      · exact ⟨lk, by rw [g4, c2], c3, s, by simp, g6⟩
      · exact ⟨lk, by rw [g4, c2], c3, t, by simp [c4], by rw [g6, c5]⟩

theorem levels_set {P : castle_da_merge_level → Prop} {levels : List castle_da_merge_level}
    (h : ∀ (j : Nat) (level : castle_da_merge_level), levels[j]? = some level → P level)
    (i : Nat) (l1 : castle_da_merge_level) (h1 : P l1) :
    ∀ (j : Nat) (level : castle_da_merge_level), (levels.set i l1)[j]? = some level →
      P level := by
  intro j level hj
  rw [List.getElem?_set] at hj
  by_cases hji : i = j
  · rw [if_pos hji] at hj
    split at hj
    · cases hj; exact h1
    · cases hj
  · rw [if_neg hji] at hj
    exact h j level hj

/-- One call of the body of `castle_da_entry_add` keeps the entries behind the
cut under the key `last_key`: only an entry with that key stays behind the cut. -/
theorem entry_add_level_tail (btree : castle_btree_type) (st : Versions)
    (level : castle_da_merge_level) (nb key version : Nat) (cdb : c_disk_blk_t)
    (l1 : castle_da_merge_level) (nb1 : Nat) (hw : WFL level) (ht : KeyTail btree level)
    (h : castle_da_entry_add_level btree st level nb key version cdb = Res.ok (l1, nb1)) :
    KeyTail btree l1 := by
  obtain ⟨-, b2, b3, -, b5, -, b7⟩ :=
    entry_add_level_spec btree st level nb key version cdb l1 nb1 hw h
  refine ⟨fun _ => ?_, by rw [b3]; exact ht.2⟩
  have hnil : ∀ lk : Nat, l1.valid_end_idx = level.next_idx →
      ∀ s ∈ (node_slots l1).drop (l1.valid_end_idx.toNat + 1),
        btree.key_compare s.key lk = 0 := by
    intro lk hv s hs
    rw [hv, b5, b2, List.drop_of_length_le (by simp)] at hs
    cases hs
  rcases b7 with ⟨f0, f1, f2, -⟩ | ⟨f0, lk, f1, -, f2⟩
  · exact ⟨key, f2, hnil key (by rw [f1, f0])⟩
  · have hne : level.node_c2b ≠ none := by
      intro hn
      exact f0 (hw.none_case hn).1
    obtain ⟨lk2, c1, c2⟩ := ht.1 hne
    rw [f1] at c1
    cases c1
    rcases f2 with ⟨-, g2, g3, -⟩ | ⟨-, -, -, g4, g5, -⟩ | ⟨g1, -, g4, g5, -⟩
    · exact ⟨key, g2, hnil key g3⟩
    · exact ⟨lk, by rw [g4, f1], hnil lk g5⟩
    · refine ⟨lk, by rw [g4, f1], ?_⟩
      intro s hs
      obtain ⟨-, w2, w3⟩ := hw.some_case hne
      rw [g5, b2, List.drop_append_of_le_length (by omega)] at hs
      rcases List.mem_append.1 hs with h1 | h1
      · exact c2 s h1
      · rw [List.mem_singleton] at h1
        subst h1
        exact g1

theorem entry_add_tail (btree : castle_btree_type) (st : Versions)
    (merge merge1 : struct_castle_da_merge) (depth key version : Nat) (cdb : c_disk_blk_t)
    (hinv : MInv merge) (ht : TailAll btree merge)
    (h : castle_da_entry_add btree st merge depth key version cdb = Res.ok merge1) :
    TailAll btree merge1 := by
  obtain ⟨level, l1, a1, a2, a3, -⟩ := entry_add_ok btree st merge merge1 depth key version cdb h
  intro j lv hj
  rw [a3] at hj
  exact levels_set ht depth l1
    (entry_add_level_tail btree st level _ key version cdb l1 _ (hinv depth level a1)
      (ht depth level a1) a2) j lv hj

theorem node_complete_tail (btree : castle_btree_type) (st : Versions)
    (merge merge1 : struct_castle_da_merge) (depth : Nat) (hinv : MInv merge)
    (ht : TailAll btree merge)
    (h : castle_da_node_complete btree st merge depth = Res.ok merge1) :
    TailAll btree merge1 := by
  obtain ⟨level, blk, node0, buffer1, s, lup, l1, c1, c2, c3, c4, c5, c6, c7, c8, c9, c10, -⟩ :=
    node_complete_ok btree st merge merge1 depth h
  have hl1 := entry_add_level_tail btree st lup _ _ _ _ l1 _ (hinv _ _ c8) (ht _ _ c8) c9
  have hreset : KeyTail btree (level_reset level buffer1) := by
    refine ⟨fun hne => absurd rfl hne, ?_⟩
    obtain ⟨lk, -, k2⟩ := (ht depth level c1).1 (by rw [c2]; simp)
    refine ⟨lk, fun x hx => k2 x ?_⟩
    have hns : node_slots level = node0.slots := by simp [node_slots, c2]
    rw [hns, ← c6]
    exact hx
  intro j lv hj
  rw [c10] at hj
  exact levels_set (levels_set ht depth _ hreset) (depth + 1) l1 hl1 j lv hj

theorem nodes_complete_up_tail (btree : castle_btree_type) (st : Versions) :
    ∀ (todo : Nat) (merge : struct_castle_da_merge) (i : Nat)
      (merge1 : struct_castle_da_merge) (i1 : Nat),
      MInv merge → TailAll btree merge →
      castle_da_nodes_complete_up btree st todo merge i = Res.ok (merge1, i1) →
      TailAll btree merge1 := by
  intro todo
  induction todo with
  | zero =>
    intro merge i merge1 i1 _ ht h
    rw [castle_da_nodes_complete_up] at h
    cases h
    exact ht
  | succ todo ih =>
    intro merge i merge1 i1 hinv ht h
    rw [castle_da_nodes_complete_up] at h
    cases hl : merge.levels[i]? with
    | none => rw [hl] at h; cases h
    | some level =>
      rw [hl] at h
      dsimp only at h
      by_cases hneg : level.next_idx < 0
      · rw [if_pos hneg] at h
        cases hc : castle_da_node_complete btree st merge i with
        | bug => rw [hc] at h; cases h
        | timeout => rw [hc] at h; cases h
        | ok merge2 =>
          rw [hc] at h
          dsimp only at h
          exact ih merge2 (i + 1) merge1 i1 (node_complete_spec btree st merge merge2 i hinv hc).1
            (node_complete_tail btree st merge merge2 i hinv ht hc) h
      · rw [if_neg hneg] at h
        cases h
        exact ht

theorem nodes_complete_refill_tail (btree : castle_btree_type) (st : Versions) (i : Nat) :
    ∀ (slots : List btree_slot) (merge merge1 : struct_castle_da_merge),
      MInv merge → TailAll btree merge →
      castle_da_nodes_complete_refill btree st i slots merge = Res.ok merge1 →
      TailAll btree merge1 := by
  intro slots
  induction slots with
  | nil =>
    intro merge merge1 _ ht h
    rw [castle_da_nodes_complete_refill] at h
    cases h
    exact ht
  | cons s rest ih =>
    intro merge merge1 hinv ht h
    rw [castle_da_nodes_complete_refill] at h
    by_cases hlp : s.is_leaf_ptr = true
    · rw [if_pos hlp] at h; cases h
    · rw [if_neg hlp] at h
      cases ha : castle_da_entry_add btree st merge i s.key s.version s.cdb with
      | bug => rw [ha] at h; cases h
      | timeout => rw [ha] at h; cases h
      | ok merge2 =>
        rw [ha] at h
        dsimp only at h
        have t2 := entry_add_tail btree st merge merge2 i _ _ _ hinv ht ha
        have i2 := (entry_add_spec btree st merge merge2 i _ _ _ hinv ha).1
        cases hl : merge2.levels[i]? with
        | none => rw [hl] at h; cases h
        | some lv =>
          rw [hl] at h
          dsimp only at h
          by_cases hneg : lv.next_idx < 0
          · rw [if_pos hneg] at h; cases h
          · rw [if_neg hneg] at h
            exact ih merge2 merge1 i2 t2 h

theorem KeyTail_buffer (btree : castle_btree_type) (level : castle_da_merge_level)
    (b : castle_btree_node) (hb : b.slots = []) (h : KeyTail btree level) :
    KeyTail btree { level with buffer := b } :=
  ⟨h.1, 0, fun s hs => by rw [hb] at hs; cases hs⟩

theorem nodes_complete_down_tail (btree : castle_btree_type) (st : Versions) :
    ∀ (k : Nat) (merge merge1 : struct_castle_da_merge),
      MInv merge → TailAll btree merge →
      castle_da_nodes_complete_down btree st k merge = Res.ok merge1 →
      TailAll btree merge1 := by
  intro k
  induction k with
  | zero =>
    intro merge merge1 _ ht h
    rw [castle_da_nodes_complete_down] at h
    cases h
    exact ht
  | succ k ih =>
    intro merge merge1 hinv ht h
    rw [castle_da_nodes_complete_down] at h
    cases hl : merge.levels[k]? with
    | none => rw [hl] at h; cases h
    | some level =>
      rw [hl] at h
      dsimp only at h
      cases hr : castle_da_nodes_complete_refill btree st k level.buffer.slots merge with
      | bug => rw [hr] at h; cases h
      | timeout => rw [hr] at h; cases h
      | ok merge2 =>
        rw [hr] at h
        dsimp only at h
        have t2 := nodes_complete_refill_tail btree st k _ merge merge2 hinv ht hr
        have i2 := (nodes_complete_refill_spec btree st k _ merge merge2 level hinv hl hr).1
        cases hl2 : merge2.levels[k]? with
        | none => rw [hl2] at h; cases h
        | some level1 =>
          rw [hl2] at h
          dsimp only at h
          refine ih _ merge1 ?_ ?_ h
          · intro j lv hj
            have h1 : WFL { level1 with buffer := castle_da_node_buffer_init level1.buffer } :=
              WFL_buffer level1 _ (i2 k level1 hl2)
            exact levels_set i2 k _ h1 j lv hj
          · intro j lv hj
            have h1 : KeyTail btree
                { level1 with buffer := castle_da_node_buffer_init level1.buffer } :=
              KeyTail_buffer btree level1 _ rfl (t2 k level1 hl2)
            exact levels_set t2 k _ h1 j lv hj

theorem nodes_complete_tail (btree : castle_btree_type) (st : Versions)
    (merge merge1 : struct_castle_da_merge) (depth : Nat) (end_ : Bool) (hinv : MInv merge)
    (hq : BufEmptyFrom merge 0) (ht : TailAll btree merge)
    (h : castle_da_nodes_complete btree st merge depth end_ = Res.ok merge1) :
    TailAll btree merge1 := by
  rw [castle_da_nodes_complete] at h
  by_cases hdep : depth + 1 > merge.levels.length
  · rw [if_pos hdep] at h; cases h
  · rw [if_neg hdep] at h
    cases hl : merge.levels[depth]? with
    | none => rw [hl] at h; cases h
    | some level =>
      rw [hl] at h
      dsimp only at h
      have hmain : (match castle_da_nodes_complete_up btree st (merge.levels.length - depth)
            merge depth with
            | Res.ok (merge1, i) => castle_da_nodes_complete_down btree st i merge1
            | Res.bug => Res.bug
            | Res.timeout => Res.timeout) = Res.ok merge1 → TailAll btree merge1 := by
        intro hd
        cases hu : castle_da_nodes_complete_up btree st (merge.levels.length - depth)
            merge depth with
        | bug => rw [hu] at hd; cases hd
        | timeout => rw [hu] at hd; cases hd
        | ok p =>
          obtain ⟨merge2, i1⟩ := p
          rw [hu] at hd
          dsimp only at hd
          exact nodes_complete_down_tail btree st i1 merge2 merge1
            (nodes_complete_up_spec btree st _ merge depth merge2 i1 hinv
              (fun j lv _ hj => hq j lv (Nat.zero_le _) hj) hu).1
            (nodes_complete_up_tail btree st _ merge depth merge2 i1 hinv ht hu) hd
      by_cases hroot : (end_ && decide (level.next_idx < 0)) = true
      · rw [if_pos hroot] at h
        cases hu : merge.levels[depth + 1]? with
        | none => rw [hu] at h; cases h
        | some up =>
          rw [hu] at h
          dsimp only at h
          by_cases hz : up.next_idx = 0
          · simp only [hz, decide_True] at h
            cases h
            exact ht
          · simp only [hz, decide_False] at h
            exact hmain h
      · rw [if_neg hroot] at h
        dsimp only at h
        exact hmain h

/-- In every state of a merge the entries behind the cut of a level carry the
key `last_key`. -/
theorem reached_tail {btree : castle_btree_type} {st : Versions} {d : Nat}
    {merge : struct_castle_da_merge} (h : Reached btree st d merge) : TailAll btree merge := by
  induction h with
  | init =>
    intro j level hj
    have hl : level = init_level := by
      simp only [castle_da_merge_init] at hj
      rw [List.getElem?_replicate] at hj
      split at hj
      · cases hj; rfl
      · cases hj
    subst hl
    exact ⟨fun hne => absurd rfl hne, 0, fun s hs => by cases hs⟩
  | add merge merge1 depth key version cdb hr ha ih =>
    exact entry_add_tail btree st merge merge1 depth key version cdb (reached_inv hr).1 ih ha
  | complete merge merge1 depth end_ hr hc ih =>
    exact nodes_complete_tail btree st merge merge1 depth end_ (reached_inv hr).1
      (reached_inv hr).2 ih hc
  | force merge i level _ hl hpos ih =>
    intro j lv hj
    simp only [forced] at hj
    have h1 : KeyTail btree { level with next_idx := -1 } := ih i level hl
    exact levels_set ih i _ h1 j lv hj

/-- The loop at `fill_buffers` returns when every buffer it re-adds belongs to a
level without a node and holds entries of one key with distinct versions, fewer
than `cap`. -/
theorem nodes_complete_down_returns (btree : castle_btree_type) (st : Versions) (cap : Nat)
    (hcap : ∀ node, btree.need_split node 0 = decide (cap ≤ node.used)) :
    ∀ (k : Nat) (merge : struct_castle_da_merge),
      MInv merge → k ≤ merge.levels.length →
      (∀ j level, j < k → merge.levels[j]? = some level →
        level.buffer.slots = [] ∨
        (level.node_c2b = none ∧ level.buffer.slots.length < cap ∧
          (∀ s ∈ level.buffer.slots, s.is_leaf_ptr = false) ∧
          (∀ s ∈ level.buffer.slots, ∀ t ∈ level.buffer.slots,
            btree.key_compare s.key t.key = 0) ∧
          BufferDistinct st level)) →
      ∃ merge1, castle_da_nodes_complete_down btree st k merge = Res.ok merge1 := by
  intro k
  induction k with
  | zero =>
    intro merge _ _ _
    exact ⟨merge, by rw [castle_da_nodes_complete_down]⟩
  | succ k ih =>
    intro merge hinv hk hok
    obtain ⟨level, hl⟩ : ∃ level, merge.levels[k]? = some level :=
      ⟨_, List.getElem?_eq_getElem (by omega)⟩
    have hlt := getElem?_lt_length hl
    have hr : ∃ merge2, castle_da_nodes_complete_refill btree st k level.buffer.slots merge =
        Res.ok merge2 := by
      rcases hok k level (by omega) hl with h0 | ⟨h1, h2, h3, h4, h5, h6⟩
      · rw [h0]
        exact ⟨merge, by rw [castle_da_nodes_complete_refill]⟩
      · exact refill_returns btree st cap hcap k level.buffer.slots h4 h5 h6 h3 h2
          level.buffer.slots [] merge level rfl hinv hl (node_slots_of_none h1) (fun _ => h1)
          (fun hne => absurd rfl hne)
    obtain ⟨merge2, hr⟩ := hr
    obtain ⟨r1, -, level1, r3, -⟩ :=
      nodes_complete_refill_spec btree st k _ merge merge2 level hinv hl hr
    have hl2 : merge2.levels[k]? = some level1 := by rw [r3, List.getElem?_set_self hlt]
    rw [castle_da_nodes_complete_down, hl]
    dsimp only
    rw [hr]
    dsimp only
    rw [hl2]
    dsimp only
    refine ih _ ?_ ?_ ?_
    · intro j lv hj
      have h1 : WFL { level1 with buffer := castle_da_node_buffer_init level1.buffer } :=
        WFL_buffer level1 _ (r1 k level1 hl2)
      exact levels_set r1 k _ h1 j lv hj
    · simp only [List.length_set]
      rw [r3, List.length_set]
      omega
    · intro j lv hj hlv
      simp only at hlv
      rw [List.getElem?_set_ne (by omega), r3, List.getElem?_set_ne (by omega)] at hlv
      exact hok j lv (by omega) hlv

/-- C31: in a state of the merge, with `need_split` firing at the capacity `cap`,
let the first loop of `castle_da_nodes_complete` have completed the nodes at
the depths `depth .. i1 - 1`.  Then each of these levels is reset and its buffer
holds fewer than `cap` entries.  While a buffer is re-added, every returning
`castle_da_entry_add` leaves `next_idx` at the number of entries re-added so
far, so the assertion `BUG_ON(level->next_idx < 0)` does not fire.  When the
loop at `fill_buffers` returns, each of these levels holds exactly the entries
of its buffer, in order, in a node at a block allocated during the loop,
`next_idx` is their number and the buffer is empty; the loop has no other way
to end than returning or an assertion, and it returns when the key comparison
is a total order and the entries spilled at each depth have distinct versions
on which the ancestor test returns.  (For `end == 0` the call of
`castle_da_nodes_complete` is the first loop followed by this loop.) -/
theorem refill_never_fills_node (btree : castle_btree_type) (st : Versions) (cap : Nat)
    (hcap : ∀ node, btree.need_split node 0 = decide (cap ≤ node.used))
    (max_btree_depth : Nat) (merge : struct_castle_da_merge)
    (hreach : Reached btree st max_btree_depth merge) (depth : Nat)
    (merge1 : struct_castle_da_merge) (i1 : Nat)
    (hup : castle_da_nodes_complete_up btree st (merge.levels.length - depth) merge depth =
      Res.ok (merge1, i1)) :
    (∀ j, depth ≤ j → j < i1 → ∃ level1, merge1.levels[j]? = some level1 ∧
      level1.node_c2b = none ∧ level1.next_idx = 0 ∧
      (level1.buffer.slots.length < cap ∨ level1.buffer.slots = [])) ∧
    (∀ j level1 pre s post, j < i1 → merge1.levels[j]? = some level1 →
      level1.buffer.slots = pre ++ s :: post →
      ∀ mj m m', MInv mj → mj.levels[j]? = some level1 →
        castle_da_nodes_complete_refill btree st j pre mj = Res.ok m →
        castle_da_entry_add btree st m j s.key s.version s.cdb = Res.ok m' →
        ∃ level, m'.levels[j]? = some level ∧ level.next_idx = (pre.length : Int) + 1 ∧
          ¬ level.next_idx < 0) ∧
    (∀ merge2, castle_da_nodes_complete_down btree st i1 merge1 = Res.ok merge2 →
      ∀ j, depth ≤ j → j < i1 → ∃ level1 level2, merge1.levels[j]? = some level1 ∧
        merge2.levels[j]? = some level2 ∧
        node_slots level2 = level1.buffer.slots ∧ level2.buffer.slots = [] ∧
        level2.next_idx = (level1.buffer.slots.length : Int) ∧
        (level1.buffer.slots ≠ [] → ∃ b node, level2.node_c2b = some ((1, b), node) ∧
          merge1.next_blk ≤ b ∧ b < merge2.next_blk)) ∧
    castle_da_nodes_complete_down btree st i1 merge1 ≠ Res.timeout ∧
    (is_total_order_cmp btree.key_compare → depth + 1 ≤ merge.levels.length →
      (∀ j level1, depth ≤ j → j < i1 → merge1.levels[j]? = some level1 →
        BufferDistinct st level1) →
      ∃ merge2, castle_da_nodes_complete_down btree st i1 merge1 = Res.ok merge2) ∧
    (depth + 1 ≤ merge.levels.length →
      castle_da_nodes_complete btree st merge depth false =
        castle_da_nodes_complete_down btree st i1 merge1) := by
  obtain ⟨hinv, hq⟩ := reached_inv hreach
  have hfit := reached_fits cap hcap hreach
  obtain ⟨-, hle, hbelow, hreset⟩ :=
    nodes_complete_up_fits btree st cap hcap _ merge depth merge1 i1 hfit hup
  obtain ⟨u1, u2, -⟩ := nodes_complete_up_spec btree st _ merge depth merge1 i1 hinv
    (fun j lv _ hj => hq j lv (Nat.zero_le _) hj) hup
  refine ⟨fun j h1 h2 => ?_, ?_, fun merge2 hd j h1 h2 => ?_,
    nodes_complete_down_ne_timeout btree st i1 merge1, fun hk hdep hdist => ?_, fun hdep => ?_⟩
  · obtain ⟨level1, a1, a2, a3, a4⟩ := hreset j h1 h2
    refine ⟨level1, a1, a2, a3, ?_⟩
    rcases a4 with h | h
    · exact Or.inl h
    · exact Or.inr (List.length_eq_zero.1 h)
  · intro j level1 pre s post hj hl hbuf mj m m' hmj hlj hr ha
    by_cases hjd : j < depth
    · -- a level below `depth` has an empty buffer
      exfalso
      rw [hbelow j hjd] at hl
      have := hq j level1 (Nat.zero_le _) hl
      rw [hbuf] at this
      simp at this
    · obtain ⟨lv, a1, a2, a3, a4⟩ := hreset j (by omega) hj
      rw [hl] at a1
      cases a1
      obtain ⟨level, b1, b2⟩ := refill_add_not_full btree st cap hcap j mj m m' level1 pre s post
        hmj hlj a2 hbuf a4 hr ha
      exact ⟨level, b1, b2, by omega⟩
  · obtain ⟨lv, a1, a2, a3, a4⟩ := hreset j h1 h2
    obtain ⟨-, -, -, -, d5⟩ := nodes_complete_down_spec btree st i1 merge1 merge2 u1 hd
    obtain ⟨-, f2⟩ := nodes_complete_down_fresh btree st i1 merge1 merge2 u1 hd
    obtain ⟨level1, level2, e1, e2, e3, e4, e5, e6⟩ := d5 j h2
    rw [a1] at e1
    cases e1
    have hs : node_slots lv = [] := by simp [node_slots, a2]
    rw [hs, List.nil_append] at e3
    refine ⟨lv, level2, a1, e2, e3, e4, ?_, fun hne => ?_⟩
    · by_cases hb : lv.buffer.slots = []
      · rw [e5 hb, hb]
        exact a3
      · rw [e6 hb, e3]
    · obtain ⟨lv2, b, node, g1, g2, g3, g4⟩ := f2 j h2 lv a1 a2 hne
      rw [e2] at g1
      cases g1
      exact ⟨b, node, g2, g3, g4⟩
  · have htail := nodes_complete_up_tail btree st _ merge depth merge1 i1 hinv
      (reached_tail hreach) hup
    obtain ⟨-, hplain⟩ := nodes_complete_up_plain btree st _ merge depth merge1 i1 hup
    have hlen : i1 ≤ merge1.levels.length := by
      by_cases hi : i1 = depth
      · rw [u2]; omega
      · obtain ⟨lv, a1, -⟩ := hreset (i1 - 1) (by omega) (by omega)
        have := getElem?_lt_length a1
        omega
    refine nodes_complete_down_returns btree st cap hcap i1 merge1 u1 hlen ?_
    intro j level hj hl
    by_cases hjd : j < depth
    · rw [hbelow j hjd] at hl
      exact Or.inl (hq j level (Nat.zero_le _) hl)
    · obtain ⟨lv, a1, a2, a3, a4⟩ := hreset j (by omega) hj
      rw [hl] at a1
      cases a1
      rcases a4 with a4 | a4
      · obtain ⟨lv2, p1, p2⟩ := hplain j (by omega) hj
        rw [hl] at p1
        cases p1
        obtain ⟨k0, hk0⟩ := (htail j level hl).2
        exact Or.inr ⟨a2, a4, p2, fun s hs t ht => cmp_eq_of_eq hk (hk0 s hs) (hk0 t ht),
          hdist j level (by omega) hj hl⟩
      · exact Or.inl (List.length_eq_zero.1 a4)
  · rw [castle_da_nodes_complete, if_neg (by omega)]
    obtain ⟨level, hl⟩ : ∃ level, merge.levels[depth]? = some level :=
      ⟨_, List.getElem?_eq_getElem (by omega)⟩
    rw [hl]
    simp [hup]

/-- The leaf of three slots filled with three unrelated versions of one key: the
cut is behind the first slot, the loop completes the leaf and stops at depth 1;
the two spilled entries are re-added to a node at block 3, which they do not
fill. -/
theorem refill_never_fills_node_witness :
    (∀ node, (nat_btree 3).need_split node 0 = decide (3 ≤ node.used)) ∧
    Reached (nat_btree 3) star_versions 2 star_full ∧
    castle_da_nodes_complete_up (nat_btree 3) star_versions (star_full.levels.length - 0)
      star_full 0 = Res.ok (star_up, 1) ∧
    (∀ j, 0 ≤ j → j < 1 → ∃ level1, star_up.levels[j]? = some level1 ∧
      level1.node_c2b = none ∧ level1.next_idx = 0 ∧
      (level1.buffer.slots.length < 3 ∨ level1.buffer.slots = [])) ∧
    castle_da_nodes_complete_down (nat_btree 3) star_versions 1 star_up = Res.ok star_down ∧
    castle_da_nodes_complete (nat_btree 3) star_versions star_full 0 false =
      Res.ok star_down := by
  have hr : Reached (nat_btree 3) star_versions 2 star_full :=
    Reached.add (star_filling [merge_slot 5 3 (7, 1), merge_slot 5 2 (7, 3)] 2) star_full 0 5 1
      (7, 2)
      (Reached.add (star_filling [merge_slot 5 3 (7, 1)] 1) _ 0 5 2 (7, 3)
        (Reached.add (castle_da_merge_init 2) _ 0 5 3 (7, 1) Reached.init (by decide))
        (by decide))
      (by decide)
  have hup : castle_da_nodes_complete_up (nat_btree 3) star_versions
      (star_full.levels.length - 0) star_full 0 = Res.ok (star_up, 1) := by decide
  exact ⟨fun _ => rfl, hr, hup,
    (refill_never_fills_node (nat_btree 3) star_versions 3 (fun _ => rfl) 2 star_full hr 0
      star_up 1 hup).1,
    by decide, by decide⟩

end Castle
